import Mathlib

/-!
# atomic-engine: persistent region manager, B+-tree and collector

A shallow embedding of `src/basiclevel` (manager.cpp, B_tree.cpp,
garbage_collector.cpp).  The mapped region is a byte-addressed memory; every
typed access of the C++ code (`uint8_t`, `uint32_t`, `int`, `uint64_t`,
little-endian, as on the x86 target of the sources) is an explicit read or
write of bytes.  Durability primitives (`pmem_flush`, `pmem_fence`, `persist`,
`_mm_clflush`, `_mm_sfence`) do not change the contents of the region and are
therefore identity steps of the embedding; `atomic_pointer_swap` is its store.
-/

namespace atomic_tree

set_option maxRecDepth 1000000

/-! ## Byte-addressed region -/

/-- The mapped region: byte address (offset from `base_`) to byte value. -/
abbrev Mem := Nat → Nat

/-- Load of one `uint8_t`. -/
def rd8 (m : Mem) (a : Nat) : Nat := m a % 256

/-- Store of one `uint8_t`. -/
def wr8 (m : Mem) (a v : Nat) : Mem := fun x => if x = a then v % 256 else m x

/-- Little-endian load of a `uint32_t`. -/
def rd32 (m : Mem) (a : Nat) : Nat :=
  rd8 m a + 256 * rd8 m (a + 1) + 65536 * rd8 m (a + 2) + 16777216 * rd8 m (a + 3)

/-- Little-endian store of a `uint32_t`. -/
def wr32 (m : Mem) (a v : Nat) : Mem :=
  wr8 (wr8 (wr8 (wr8 m a v) (a + 1) (v / 256)) (a + 2) (v / 65536)) (a + 3) (v / 16777216)

/-- Little-endian load of a `uint64_t`. -/
def rd64 (m : Mem) (a : Nat) : Nat := rd32 m a + 4294967296 * rd32 m (a + 4)

/-- Little-endian store of a `uint64_t`. -/
def wr64 (m : Mem) (a v : Nat) : Mem := wr32 (wr32 m a v) (a + 4) (v / 4294967296)

/-- Value of a 32-bit pattern read as a two's complement `int`. -/
def toInt32 (n : Nat) : Int := if n < 2147483648 then (n : Int) else (n : Int) - 4294967296

/-- The 32-bit pattern of an `int`. -/
def ofInt32 (k : Int) : Nat := (k % 4294967296).toNat

/-- Load of an `int`. -/
def rdI32 (m : Mem) (a : Nat) : Int := toInt32 (rd32 m a)

/-- Store of an `int`. -/
def wrI32 (m : Mem) (a : Nat) (k : Int) : Mem := wr32 m a (ofInt32 k)

/-- The values an `int` can hold. -/
def isInt32 (k : Int) : Prop := -2147483648 ≤ k ∧ k < 2147483648

instance (k : Int) : Decidable (isInt32 k) := by unfold isInt32; infer_instance

/-- Rounding up to a multiple of 8: `(value + 7) & ~7`. -/
def align_to_8 (value : Nat) : Nat := (value + 7) / 8 * 8


/-- Bitwise complement of a `uint64_t`. -/
def not64 (w : Nat) : Nat := w ^^^ 0xFFFFFFFFFFFFFFFF

/-- Bit `b` of a word is set: `word & (1ULL << b)` is non-zero. -/
def bit_set (w b : Nat) : Bool := w &&& (1 <<< b) != 0

/-- Number of trailing zero bits of `x`, for at most `fuel` bits. -/
def ctz_loop : Nat → Nat → Nat
  | 0, _ => 0
  | fuel + 1, x => if x % 2 = 1 then 0 else 1 + ctz_loop fuel (x / 2)

/-- The `std::countr_zero` of a `uint64_t`. -/
def countr_zero (x : Nat) : Nat := ctz_loop 64 x

/-- The `std::popcount` of a `uint64_t`. -/
def popcount (w : Nat) : Nat := ((List.range 64).filter (fun b => bit_set w b)).length

/-- The `std::rotl(val, 1)` of a `uint64_t`. -/
def rotl1 (v : Nat) : Nat := ((v <<< 1) % 18446744073709551616) ||| (v >>> 63)

/-! ## Region manager (manager.cpp) -/

/-- Exceptional ways out of an operation. -/
inductive Err where
  /-- The `std::runtime_error` thrown by `alloc_block`. -/
  | out_of_memory
  /-- Access through the `nullptr` that `offset_to_node(0)` returns. -/
  | null_deref
  /-- Read of `buffer[mid]` in an empty `std::vector`. -/
  | out_of_bounds
  /-- The recursion budget of the embedding is used up (no C++ counterpart). -/
  | out_of_fuel
  deriving DecidableEq, Repr

/-- The value of `magic_number()`. -/
def magic_number : Nat := 0x4154524545

/-- Number of 64-bit bitmap words for `block_count` blocks. -/
def calculate_bitmap_words (block_count : Nat) : Nat := (block_count + 63) / 64

/-- Byte offsets of the `Metadata` fields inside the superblock. -/
def OFF_MAGIC : Nat := 0
def OFF_VERSION : Nat := 8
def OFF_PADDING : Nat := 12
def OFF_ROOT : Nat := 16
def OFF_BLOCK_COUNT : Nat := 24
def OFF_BLOCK_SIZE : Nat := 32
def OFF_MAX_KEYS : Nat := 40
def OFF_MIN_KEYS : Nat := 44
def OFF_LEAF_CAPACITY : Nat := 48
def OFF_RESERVED : Nat := 52
def OFF_CHECKSUM : Nat := 56

/-- The `sizeof(Metadata)`. -/
def METADATA_SIZE : Nat := 64

/-- Offset of the bitmap: `align_to_8(sizeof(Metadata))`. -/
def BITMAP_OFFSET : Nat := align_to_8 METADATA_SIZE

/-- The manager object: the mapped region and the members set by the
constructor (`block_count_` and `bitmap_size_words_` are functions of them). -/
structure Manager where
  mem : Mem
  region_size : Nat
  block_size : Nat
  allocated_blocks : Nat

namespace Manager

/-- Member `block_count_ = region_size / block_size`. -/
def block_count (s : Manager) : Nat := s.region_size / s.block_size

/-- Member `bitmap_size_words_`. -/
def bitmap_size_words (s : Manager) : Nat := calculate_bitmap_words s.block_count

/-- Address of `bitmap_[i]`. -/
def bitmap_addr (i : Nat) : Nat := BITMAP_OFFSET + 8 * i

/-- Value of `bitmap_[i]`. -/
def bitmap_word (s : Manager) (i : Nat) : Nat := rd64 s.mem (bitmap_addr i)

/-- Bitmap bit of block `b`. -/
def block_bit (s : Manager) (b : Nat) : Bool := bit_set (s.bitmap_word (b / 64)) (b % 64)

/-- Number of blocks reserved for superblock and bitmap (local `reserved_blocks`). -/
def reserved_blocks (region_size block_size : Nat) : Nat :=
  (BITMAP_OFFSET + calculate_bitmap_words (region_size / block_size) * 8 + block_size - 1) / block_size

/-- Whole-region checksum, `Manager::calculate_checksum`. -/
def calculate_checksum (s : Manager) : Nat :=
  (List.range (s.region_size / 8)).foldl
    (fun checksum i => if 8 * i = OFF_CHECKSUM then checksum else checksum ^^^ rotl1 (rd64 s.mem (8 * i))) 0

/-- Stored `metadata_->checksum`. -/
def stored_checksum (s : Manager) : Nat := rd64 s.mem OFF_CHECKSUM

/-- Store the recomputed checksum, `Manager::update_persistent_checksum`. -/
def update_persistent_checksum (s : Manager) : Manager :=
  { s with mem := wr64 s.mem OFF_CHECKSUM s.calculate_checksum }

/-- Check magic and checksum, `Manager::verify_integrity` (`base_` is never null
in a constructed manager). -/
def verify_integrity (s : Manager) : Bool :=
  if rd64 s.mem OFF_MAGIC ≠ magic_number then false
  else s.calculate_checksum == s.stored_checksum

/-- Commit a new root, `Manager::set_root_offset`. -/
def set_root_offset (s : Manager) (offset : Nat) : Manager :=
  update_persistent_checksum { s with mem := wr64 s.mem OFF_ROOT offset }

/-- Read the root, `Manager::get_root_offset`. -/
def get_root_offset (s : Manager) : Nat := rd64 s.mem OFF_ROOT

/-- The `std::memset(p, 0, n)`. -/
def memset0 (m : Mem) (p : Nat) : Nat → Mem
  | 0 => m
  | n + 1 => wr8 (memset0 m p n) (p + n) 0

/-- Reserve loop of the constructor: `bitmap_[i / 64] |= 1ULL << (i % 64)` for `i < n`. -/
def reserve_loop (m : Mem) : Nat → Mem
  | 0 => m
  | n + 1 =>
    let m1 := reserve_loop m n
    wr64 m1 (bitmap_addr (n / 64)) (rd64 m1 (bitmap_addr (n / 64)) ||| (1 <<< (n % 64)))

/-- Constructor with `create_new = true` over a file whose bytes are `file`
(all zero for a file that did not exist). -/
def create (file : Mem) (region_size block_size : Nat) : Manager :=
  let m := wr64 file OFF_MAGIC magic_number
  let m := wr32 m OFF_VERSION 1
  let m := wr64 m OFF_ROOT 0
  let m := wr64 m OFF_BLOCK_COUNT (region_size / block_size)
  let m := wr64 m OFF_BLOCK_SIZE block_size
  let m := wr32 m OFF_MAX_KEYS 16
  let m := wr32 m OFF_MIN_KEYS 8
  let m := wr32 m OFF_LEAF_CAPACITY 32
  let m := wr32 m OFF_PADDING 0
  let m := memset0 m BITMAP_OFFSET (calculate_bitmap_words (region_size / block_size) * 8)
  let m := reserve_loop m (reserved_blocks region_size block_size)
  update_persistent_checksum
    { mem := m, region_size := region_size, block_size := block_size,
      allocated_blocks := reserved_blocks region_size block_size }

/-- Constructor with `create_new = false` over the bytes `file`: the allocated
count is rebuilt by popcount (the integrity check only logs). -/
def reopen (file : Mem) (region_size block_size : Nat) : Manager :=
  { mem := file, region_size := region_size, block_size := block_size,
    allocated_blocks :=
      ((List.range (calculate_bitmap_words (region_size / block_size))).map
        (fun i => popcount (rd64 file (bitmap_addr i)))).sum }

/-- Scan of `alloc_block`: first word index `i + j`, `j < n`, whose word is not all ones. -/
def first_free_word (s : Manager) : Nat → Nat → Option Nat
  | 0, _ => none
  | n + 1, i => if s.bitmap_word i ≠ 0xFFFFFFFFFFFFFFFF then some i else first_free_word s n (i + 1)

/-- Allocation, `Manager::alloc_block`: the result or the exception, and the
manager afterwards. -/
def alloc_block (s : Manager) : Except Err Nat × Manager :=
  match first_free_word s s.bitmap_size_words 0 with
  | none => (.error .out_of_memory, s)
  | some i =>
    let word := s.bitmap_word i
    let index := countr_zero (not64 word)
    let s1 := { s with mem := wr64 s.mem (bitmap_addr i) (s.bitmap_word i ||| (1 <<< index)) }
    let block_idx := i * 64 + index
    if block_idx ≥ s.block_count then (.error .out_of_memory, s1)
    else (.ok (block_idx * s.block_size), { s1 with allocated_blocks := s1.allocated_blocks + 1 })

/-- Release, `Manager::free_block`. -/
def free_block (s : Manager) (offset : Nat) : Manager :=
  if offset ≥ s.region_size then s
  else
    let block_idx := offset / s.block_size
    let word_idx := block_idx / 64
    let bit_idx := block_idx % 64
    if bit_set (s.bitmap_word word_idx) bit_idx then
      { s with
        mem := wr64 s.mem (bitmap_addr word_idx) (s.bitmap_word word_idx &&& not64 (1 <<< bit_idx))
        allocated_blocks := if s.allocated_blocks > 0 then s.allocated_blocks - 1 else s.allocated_blocks }
    else s

end Manager

/-- Per-node CRC loop body shared by both CRC functions: fold one byte in. -/
def crc_step (crc byte : Nat) : Nat :=
  (List.range 8).foldl
    (fun c _ => (c >>> 1) ^^^ (0xEDB88320 &&& (if c &&& 1 = 1 then 0xFFFFFFFF else 0)))
    (crc ^^^ byte)

/-- Free function `calculate_node_checksum(data, len)` of manager.cpp. -/
def calculate_node_checksum (m : Mem) (data len : Nat) : Nat :=
  ((List.range len).foldl
    (fun crc i => if i ≥ 5 ∧ i < 9 then crc else crc_step crc (rd8 m (data + i))) 0xFFFFFFFF)
    ^^^ 0xFFFFFFFF

/-! ## B+-tree (B_tree.cpp)

The `int` members of `BTreeConfig` are taken non-negative (a negative capacity
would place the typed views before the node's own `data`).  Loop counters of
type `int` that run up to a `uint32_t` key count are natural numbers. -/

/-- A `(key, value)` pair of a leaf. -/
structure LeafEntry where
  key : Int
  value : Int
  deriving DecidableEq, Repr

/-- Tree configuration. -/
structure BTreeConfig where
  max_keys : Nat
  min_keys : Nat
  leaf_capacity : Nat
  deriving DecidableEq, Repr

/-- What an insertion reports to its caller. -/
structure InsertResult where
  split_key : Int
  new_child_offset : Nat
  did_split : Bool
  deriving DecidableEq, Repr

/-- The tree object: its manager, `config_` and `root_offset_`. -/
structure BTree where
  manager : Manager
  config : BTreeConfig
  root_offset : Nat

deriving instance DecidableEq for Except

namespace BTree

/-- Address of `keys[0]` of an internal node (`node->data`). -/
def get_internal_keys (node : Nat) : Nat := node + 16

/-- Address of `children[0]` of an internal node. -/
def get_internal_children (node max_keys : Nat) : Nat :=
  align_to_8 (get_internal_keys node + 4 * max_keys)

/-- Address of `entries[0]` of a leaf (`node->data`). -/
def get_leaf_entries (node : Nat) : Nat := node + 16

/-- Address of the `next_leaf` word of a leaf. -/
def get_leaf_next (node leaf_capacity : Nat) : Nat :=
  align_to_8 (get_leaf_entries node + 8 * leaf_capacity)

/-- Header field `is_leaf` (byte 0). -/
def is_leaf (m : Mem) (node : Nat) : Bool := rd8 m node != 0

/-- Header field `key_count` (bytes 4..7). -/
def key_count (m : Mem) (node : Nat) : Nat := rd32 m (node + 4)

/-- Header field `checksum` (bytes 8..11). -/
def node_checksum (m : Mem) (node : Nat) : Nat := rd32 m (node + 8)

/-- Load of `entries[i]` at address `p`. -/
def read_entry (m : Mem) (p : Nat) : LeafEntry := ⟨rdI32 m p, rdI32 m (p + 4)⟩

/-- Store of one entry at address `p`. -/
def write_entry (m : Mem) (p : Nat) (e : LeafEntry) : Mem := wrI32 (wrI32 m p e.key) (p + 4) e.value

/-- Per-node CRC, `BTree::calculate_checksum(node, block_size)`. -/
def calculate_checksum (m : Mem) (node block_size : Nat) : Nat :=
  ((List.range block_size).foldl
    (fun crc i => if i ≥ 5 ∧ i < 9 then crc else crc_step crc (rd8 m (node + i))) 0xFFFFFFFF)
    ^^^ 0xFFFFFFFF

/-- Checksum and publish a node, `BTree::persist_node`. -/
def persist_node (s : Manager) (node : Nat) : Manager :=
  Manager.update_persistent_checksum
    { s with mem := wr32 s.mem (node + 8) (calculate_checksum s.mem node s.block_size) }

/-- Constructor `BTree::BTree(manager, config)`: the tree, or the exception, and
the manager afterwards. -/
def new (s : Manager) (config : BTreeConfig) : Except Err BTree × Manager :=
  if s.get_root_offset = 0 then
    match s.alloc_block with
    | (.error e, s1) => (.error e, s1)
    | (.ok root_offset, s1) =>
      if root_offset = 0 then (.error .null_deref, s1)
      else
        let m := wr8 s1.mem root_offset 1
        let m := wr32 m (root_offset + 4) 0
        let m := wr32 m OFF_MAX_KEYS config.max_keys
        let m := wr32 m OFF_MIN_KEYS config.min_keys
        let m := wr32 m OFF_LEAF_CAPACITY config.leaf_capacity
        let m := wr64 m (get_leaf_next root_offset config.leaf_capacity) 0
        let s2 := Manager.set_root_offset (persist_node { s1 with mem := m } root_offset) root_offset
        (.ok { manager := s2, config := config, root_offset := root_offset }, s2)
  else
    (.ok { manager := s, root_offset := s.get_root_offset,
           config := { max_keys := rd32 s.mem OFF_MAX_KEYS, min_keys := rd32 s.mem OFF_MIN_KEYS,
                       leaf_capacity := rd32 s.mem OFF_LEAF_CAPACITY } }, s)

/-- Descent loop `while (idx < key_count && key >= keys[idx]) idx++`, with `n`
keys left to look at from index `idx`. -/
def scan_keys (m : Mem) (keys : Nat) (key : Int) : Nat → Nat → Nat
  | 0, idx => idx
  | n + 1, idx => if key ≥ rdI32 m (keys + 4 * idx) then scan_keys m keys key n (idx + 1) else idx

/-- Leaf scan `for (i = 0; i < key_count; ++i) if (entries[i].key == key)`: the
first matching index, with `n` entries left from index `i`. -/
def find_in_leaf (m : Mem) (entries : Nat) (key : Int) : Nat → Nat → Option Nat
  | 0, _ => none
  | n + 1, i => if rdI32 m (entries + 8 * i) = key then some i else find_in_leaf m entries key n (i + 1)

/-- Store of `es` to consecutive entry slots from address `p`. -/
def write_entries (m : Mem) (p : Nat) : List LeafEntry → Mem
  | [] => m
  | e :: es => write_entries (write_entry m p e) (p + 8) es

/-- Shadow split of a full leaf, `BTree::split_leaf`.  `std::ranges::sort` is
the insertion sort of the entries by key: its result is sorted by key and a
rearrangement of the buffer, the only such arrangement when the keys are distinct;
among entries with equal keys the library sort, which is not stable, may leave
another order. -/
def split_leaf (cfg : BTreeConfig) (s : Manager) (old_leaf_offset : Nat) :
    Except Err InsertResult × Manager :=
  match s.alloc_block with
  | (.error e, s1) => (.error e, s1)
  | (.ok new_leaf_offset, s1) =>
    if new_leaf_offset = 0 then (.error .null_deref, s1)
    else
      let m := wr8 s1.mem new_leaf_offset 1
      let old_entries := get_leaf_entries old_leaf_offset
      let new_entries := get_leaf_entries new_leaf_offset
      let total := key_count m old_leaf_offset
      let mid := total / 2
      let buffer := List.insertionSort (fun a b : LeafEntry => a.key ≤ b.key)
        ((List.range total).map (fun i => read_entry m (old_entries + 8 * i)))
      let m := write_entries m new_entries (buffer.drop mid)
      let m := wr32 m (new_leaf_offset + 4) (total - mid)
      match buffer.get? mid with
      | none => (.error .out_of_bounds, { s1 with mem := m })
      | some e =>
        let split_key := e.key
        let new_next := get_leaf_next new_leaf_offset cfg.leaf_capacity
        let old_next := get_leaf_next old_leaf_offset cfg.leaf_capacity
        let m := wr64 m new_next (rd64 m old_next)
        let s2 := persist_node { s1 with mem := m } new_leaf_offset
        let m := wr64 s2.mem old_next new_leaf_offset
        let m := write_entries m old_entries (buffer.take mid)
        let m := wr32 m (old_leaf_offset + 4) mid
        let s3 := persist_node { s2 with mem := m } old_leaf_offset
        (.ok ⟨split_key, new_leaf_offset, true⟩, s3)

/-- Leaf insertion, `BTree::insert_leaf`. -/
def insert_leaf (cfg : BTreeConfig) :
    Nat → Manager → Nat → Int → Int → Except Err InsertResult × Manager
  | 0, s, _, _, _ => (.error .out_of_fuel, s)
  | fuel + 1, s, leaf_offset, key, value =>
    if leaf_offset = 0 then (.error .null_deref, s)
    else if key_count s.mem leaf_offset < cfg.leaf_capacity then
      let entries := get_leaf_entries leaf_offset
      let idx := key_count s.mem leaf_offset
      let m := write_entry s.mem (entries + 8 * idx) ⟨key, value⟩
      let m := wr32 m (leaf_offset + 4) (key_count m leaf_offset + 1)
      (.ok ⟨0, 0, false⟩, persist_node { s with mem := m } leaf_offset)
    else
      match split_leaf cfg s leaf_offset with
      | (.error e, s1) => (.error e, s1)
      | (.ok split_res, s1) =>
        match insert_leaf cfg fuel s1
            (if key ≥ split_res.split_key then split_res.new_child_offset else leaf_offset)
            key value with
        | (.error e, s2) => (.error e, s2)
        | (.ok _, s2) => (.ok split_res, s2)

/-- Shift loop `for (i = count; i > idx; --i) { keys[i] = keys[i-1];
children[i+1] = children[i]; }` with `n = count - idx` rounds to go. -/
def shift_right (keys children idx : Nat) : Nat → Mem → Mem
  | 0, m => m
  | n + 1, m =>
    let i := idx + (n + 1)
    let m := wr32 m (keys + 4 * i) (rd32 m (keys + 4 * (i - 1)))
    let m := wr64 m (children + 8 * (i + 1)) (rd64 m (children + 8 * i))
    shift_right keys children idx n m

/-- Copy loop of `split_internal`: `new_keys[i] = old_keys[mid+1+i];
new_children[i] = old_children[mid+1+i]` with `n` rounds to go from `i`. -/
def copy_upper (old_keys old_children new_keys new_children mid : Nat) : Nat → Nat → Mem → Mem
  | 0, _, m => m
  | n + 1, i, m =>
    let m := wr32 m (new_keys + 4 * i) (rd32 m (old_keys + 4 * (mid + 1 + i)))
    let m := wr64 m (new_children + 8 * i) (rd64 m (old_children + 8 * (mid + 1 + i)))
    copy_upper old_keys old_children new_keys new_children mid n (i + 1) m

/-- Split of a full internal node, `BTree::split_internal`. -/
def split_internal (cfg : BTreeConfig) (s : Manager) (old_node_offset : Nat) :
    Except Err InsertResult × Manager :=
  match s.alloc_block with
  | (.error e, s1) => (.error e, s1)
  | (.ok new_node_offset, s1) =>
    if new_node_offset = 0 then (.error .null_deref, s1)
    else
      let m := wr8 s1.mem new_node_offset 0
      let old_keys := get_internal_keys old_node_offset
      let old_children := get_internal_children old_node_offset cfg.max_keys
      let new_keys := get_internal_keys new_node_offset
      let new_children := get_internal_children new_node_offset cfg.max_keys
      let total := key_count m old_node_offset
      let mid := total / 2
      let split_key := rdI32 m (old_keys + 4 * mid)
      let move_count : Int := (total : Int) - 1 - (mid : Int)
      let m := copy_upper old_keys old_children new_keys new_children mid move_count.toNat 0 m
      let m := wr64 m ((new_children : Int) + 8 * move_count).toNat (rd64 m (old_children + 8 * total))
      let m := wr32 m (new_node_offset + 4) (ofInt32 move_count)
      let s2 := persist_node { s1 with mem := m } new_node_offset
      let m := wr32 s2.mem (old_node_offset + 4) mid
      let s3 := persist_node { s2 with mem := m } old_node_offset
      (.ok ⟨split_key, new_node_offset, true⟩, s3)

/-- Install a pivot in a node: shift, store key and child, bump the count, persist
(the common tail of both branches of `insert_internal_node`). -/
def install_pivot (cfg : BTreeConfig) (s : Manager) (node idx count : Nat) (res : InsertResult) :
    Manager :=
  let keys := get_internal_keys node
  let children := get_internal_children node cfg.max_keys
  let m := shift_right keys children idx (count - idx) s.mem
  let m := wrI32 m (keys + 4 * idx) res.split_key
  let m := wr64 m (children + 8 * (idx + 1)) res.new_child_offset
  let m := wr32 m (node + 4) (key_count m node + 1)
  persist_node { s with mem := m } node

/-- Insertion below an internal node, `BTree::insert_internal_node`; `recur` is
the call of `insert_internal` on the child. -/
def insert_internal_node (cfg : BTreeConfig)
    (recur : Manager → Nat → Int → Int → Except Err InsertResult × Manager)
    (s : Manager) (node_offset : Nat) (key value : Int) : Except Err InsertResult × Manager :=
  let keys := get_internal_keys node_offset
  let children := get_internal_children node_offset cfg.max_keys
  let idx := scan_keys s.mem keys key (key_count s.mem node_offset) 0
  match recur s (rd64 s.mem (children + 8 * idx)) key value with
  | (.error e, s1) => (.error e, s1)
  | (.ok res, s1) =>
    if res.did_split then
      if key_count s1.mem node_offset < cfg.max_keys then
        (.ok ⟨0, 0, false⟩, install_pivot cfg s1 node_offset idx (key_count s1.mem node_offset) res)
      else
        match split_internal cfg s1 node_offset with
        | (.error e, s2) => (.error e, s2)
        | (.ok my_split, s2) =>
          let target := if res.split_key < my_split.split_key then node_offset
                        else my_split.new_child_offset
          let t_count := key_count s2.mem target
          let t_idx := scan_keys s2.mem (get_internal_keys target) res.split_key t_count 0
          (.ok my_split, install_pivot cfg s2 target t_idx t_count res)
    else (.ok ⟨0, 0, false⟩, s1)

/-- Recursive insertion, `BTree::insert_internal`. -/
def insert_internal (cfg : BTreeConfig) :
    Nat → Manager → Nat → Int → Int → Except Err InsertResult × Manager
  | 0, s, _, _, _ => (.error .out_of_fuel, s)
  | fuel + 1, s, node_offset, key, value =>
    if node_offset = 0 then (.error .null_deref, s)
    else if is_leaf s.mem node_offset then insert_leaf cfg fuel s node_offset key value
    else insert_internal_node cfg (insert_internal cfg fuel) s node_offset key value

/-- Insertion with root promotion, `BTree::insert`. -/
def insert (fuel : Nat) (t : BTree) (key value : Int) : Except Err Unit × BTree :=
  match insert_internal t.config fuel t.manager t.root_offset key value with
  | (.error e, s1) => (.error e, { t with manager := s1 })
  | (.ok res, s1) =>
    if res.did_split then
      match s1.alloc_block with
      | (.error e, s2) => (.error e, { t with manager := s2 })
      | (.ok new_root_offset, s2) =>
        if new_root_offset = 0 then (.error .null_deref, { t with manager := s2 })
        else
          let m := wr8 s2.mem new_root_offset 0
          let m := wr32 m (new_root_offset + 4) 1
          let keys := get_internal_keys new_root_offset
          let children := get_internal_children new_root_offset t.config.max_keys
          let m := wrI32 m keys res.split_key
          let m := wr64 m children t.root_offset
          let m := wr64 m (children + 8) res.new_child_offset
          let s3 := persist_node { s2 with mem := m } new_root_offset
          (.ok (), { t with manager := Manager.set_root_offset s3 new_root_offset,
                            root_offset := new_root_offset })
    else (.ok (), { t with manager := s1 })

/-- Point lookup below a node, `BTree::search_internal`: `some v` is found with
`out_value = v`, `none` is not found. -/
def search_internal (cfg : BTreeConfig) (m : Mem) : Nat → Nat → Int → Except Err (Option Int)
  | 0, _, _ => .error .out_of_fuel
  | fuel + 1, node_offset, key =>
    if node_offset = 0 then .ok none
    else if is_leaf m node_offset then
      match find_in_leaf m (get_leaf_entries node_offset) key (key_count m node_offset) 0 with
      | some i => .ok (some (rdI32 m (get_leaf_entries node_offset + 8 * i + 4)))
      | none => .ok none
    else
      search_internal cfg m fuel
        (rd64 m (get_internal_children node_offset cfg.max_keys +
          8 * scan_keys m (get_internal_keys node_offset) key (key_count m node_offset) 0)) key

/-- Point lookup, `BTree::search`. -/
def search (fuel : Nat) (t : BTree) (key : Int) : Except Err (Option Int) :=
  search_internal t.config t.manager.mem fuel t.root_offset key

/-- Lazy removal from a leaf, `BTree::erase_leaf`. -/
def erase_leaf (s : Manager) (leaf_offset : Nat) (key : Int) : Bool × Manager :=
  let entries := get_leaf_entries leaf_offset
  match find_in_leaf s.mem entries key (key_count s.mem leaf_offset) 0 with
  | none => (false, s)
  | some found_idx =>
    let last := (key_count s.mem leaf_offset + 4294967295) % 4294967296
    let m := if found_idx ≠ last then
        write_entry s.mem (entries + 8 * found_idx) (read_entry s.mem (entries + 8 * last))
      else s.mem
    let m := wr32 m (leaf_offset + 4) (key_count m leaf_offset + 4294967295)
    (true, persist_node { s with mem := m } leaf_offset)

/-- Removal below a node, `BTree::erase_internal`. -/
def erase_internal (cfg : BTreeConfig) : Nat → Manager → Nat → Int → Except Err Bool × Manager
  | 0, s, _, _ => (.error .out_of_fuel, s)
  | fuel + 1, s, node_offset, key =>
    if node_offset = 0 then (.ok false, s)
    else if is_leaf s.mem node_offset then
      ((.ok (erase_leaf s node_offset key).1), (erase_leaf s node_offset key).2)
    else
      erase_internal cfg fuel s
        (rd64 s.mem (get_internal_children node_offset cfg.max_keys +
          8 * scan_keys s.mem (get_internal_keys node_offset) key (key_count s.mem node_offset) 0)) key

/-- Removal, `BTree::erase`. -/
def erase (fuel : Nat) (t : BTree) (key : Int) : Except Err Bool × BTree :=
  ((erase_internal t.config fuel t.manager t.root_offset key).1,
    { t with manager := (erase_internal t.config fuel t.manager t.root_offset key).2 })

end BTree

/-! ## Garbage collector (garbage_collector.cpp) -/

/-- The collector object's counters after a run (`nodes_marked()`,
`blocks_freed()`), with the transient `reachable` array of that run. -/
structure GarbageCollector where
  marked_count : Nat
  freed_count : Nat
  reachable : Nat → Bool

namespace GarbageCollector

/-- State of the mark loop: the stack (top first), the `reachable` array and
`marked_count_`. -/
structure MarkState where
  stack : List Nat
  reachable : Nat → Bool
  marked_count : Nat

/-- Push loop over the child slots `0 .. key_count` of an internal node. -/
def push_children (m : Mem) (children : Nat) (count : Nat) (stack : List Nat) : List Nat :=
  (List.range (count + 1)).foldl
    (fun st i => if rd64 m (children + 8 * i) ≠ 0 then rd64 m (children + 8 * i) :: st else st) stack

/-- One round of `while (!stack.empty())` for the popped `offset`. -/
def mark_step (m : Mem) (block_size n_blocks max_keys leaf_capacity : Nat)
    (offset : Nat) (st : MarkState) : MarkState :=
  let block_idx := offset / block_size
  if block_idx ≥ n_blocks then st
  else if st.reachable block_idx then st
  else
    { stack :=
        if BTree.is_leaf m offset then
          (if rd64 m (BTree.get_leaf_next offset leaf_capacity) ≠ 0 then
            rd64 m (BTree.get_leaf_next offset leaf_capacity) :: st.stack
          else st.stack)
        else push_children m (BTree.get_internal_children offset max_keys)
          (BTree.key_count m offset) st.stack
      reachable := fun b => if b = block_idx then true else st.reachable b
      marked_count := st.marked_count + 1 }

/-- The mark loop, for at most `fuel` rounds. -/
def mark_loop (m : Mem) (block_size n_blocks max_keys leaf_capacity : Nat) :
    Nat → MarkState → MarkState
  | 0, st => st
  | fuel + 1, st =>
    match st.stack with
    | [] => st
    | offset :: rest =>
      mark_loop m block_size n_blocks max_keys leaf_capacity fuel
        (mark_step m block_size n_blocks max_keys leaf_capacity offset { st with stack := rest })

/-- Rounds that always empty the stack: every round pops one offset, and a
round that marks a block pushes at most `2^32` offsets. -/
def mark_rounds (n_blocks : Nat) : Nat := n_blocks * 4294967296 + 2

/-- Mark phase of `collect`. -/
def mark (s : Manager) (root_offset max_keys leaf_capacity : Nat) : MarkState :=
  mark_loop s.mem s.block_size s.block_count max_keys leaf_capacity (mark_rounds s.block_count)
    { stack := if root_offset ≠ 0 then [root_offset] else [], reachable := fun _ => false,
      marked_count := 0 }

/-- Inner sweep loop over the bits of bitmap word `i`, whose value on entry was
`word` (a block index at or past `n_blocks` ends the loop; all later ones are). -/
def sweep_word (reachable : Nat → Bool) (n_blocks i word : Nat) (acc : Manager × Nat) :
    Manager × Nat :=
  (List.range 64).foldl
    (fun a bit =>
      let block_idx := i * 64 + bit
      if block_idx ≥ n_blocks then a
      else if bit_set word bit && !reachable block_idx then
        (a.1.free_block (block_idx * a.1.block_size), a.2 + 1)
      else a) acc

/-- Sweep phase of `collect`: the manager afterwards and `freed_count_`. -/
def sweep (reachable : Nat → Bool) (s : Manager) : Manager × Nat :=
  (List.range ((s.block_count + 63) / 64)).foldl
    (fun a i =>
      if a.1.bitmap_word i = 0 then a
      else sweep_word reachable s.block_count i (a.1.bitmap_word i) a) (s, 0)

/-- Mark and sweep, `GarbageCollector::collect`. -/
def collect (s : Manager) (root_offset max_keys leaf_capacity : Nat) :
    Manager × GarbageCollector :=
  let st := mark s root_offset max_keys leaf_capacity
  let r := sweep st.reachable s
  (if r.2 > 0 then r.1.update_persistent_checksum else r.1,
    { marked_count := st.marked_count, freed_count := r.2, reachable := st.reachable })

end GarbageCollector

/-! ## Histories of completed calls -/

/-- The all-zero content of a backing file that did not exist before. -/
def zero_file : Mem := fun _ => 0

/-- The call returned normally. -/
def returned {α σ : Type} (r : Except Err α × σ) : Bool :=
  match r.1 with
  | .ok _ => true
  | .error _ => false

/-- The tree object a constructor call leaves (the placeholder after an
exception is never used). -/
def tree_of (r : Except Err BTree × Manager) : BTree :=
  match r.1 with
  | .ok t => t
  | .error _ => { manager := r.2, config := ⟨0, 0, 0⟩, root_offset := 0 }

/-- A run of `insert` calls, stopped by the first exception. -/
def insert_all (fuel : Nat) : BTree → List (Int × Int) → Except Err Unit × BTree
  | t, [] => (.ok (), t)
  | t, (k, v) :: rest =>
    match BTree.insert fuel t k v with
    | (.ok _, t1) => insert_all fuel t1 rest
    | (.error e, t1) => (.error e, t1)

/-- Tree states at the end of a history of completed calls: construction on a
freshly created region, then `insert`, `erase` and `collect` (called with the
tree's root and configuration) in any order. -/
inductive Reachable : BTree → Prop
  | construct (file : Mem) (region_size block_size : Nat) (config : BTreeConfig) (t : BTree)
      (s : Manager) :
      BTree.new (Manager.create file region_size block_size) config = (.ok t, s) → Reachable t
  | insert (fuel : Nat) (t t1 : BTree) (key value : Int) :
      Reachable t → isInt32 key → isInt32 value →
      BTree.insert fuel t key value = (.ok (), t1) → Reachable t1
  | erase (fuel : Nat) (t t1 : BTree) (key : Int) (found : Bool) :
      Reachable t → isInt32 key → BTree.erase fuel t key = (.ok found, t1) → Reachable t1
  | collect (t : BTree) :
      Reachable t →
      Reachable { t with manager := (GarbageCollector.collect t.manager t.root_offset
        t.config.max_keys t.config.leaf_capacity).1 }

/-- Tree states at the end of a history on a tree constructed with configuration
`cfg` over a freshly created region of `region_size` bytes in blocks of
`block_size`: `n` completed `insert` calls and any number of completed `erase`
calls, in any order; in a `strict` history a key is inserted only when `search`
reports it not-found. -/
inductive Hist (strict : Bool) (cfg : BTreeConfig) (region_size block_size : Nat) :
    Nat → BTree → Prop
  | construct (file : Mem) (t : BTree) (s : Manager) :
      BTree.new (Manager.create file region_size block_size) cfg = (.ok t, s) →
      Hist strict cfg region_size block_size 0 t
  | insert (n fuel sfuel : Nat) (t t1 : BTree) (key value : Int) :
      Hist strict cfg region_size block_size n t → isInt32 key → isInt32 value →
      (strict = true → BTree.search sfuel t key = .ok none) →
      BTree.insert fuel t key value = (.ok (), t1) →
      Hist strict cfg region_size block_size (n + 1) t1
  | erase (n fuel : Nat) (t t1 : BTree) (key : Int) (found : Bool) :
      Hist strict cfg region_size block_size n t → isInt32 key →
      BTree.erase fuel t key = (.ok found, t1) →
      Hist strict cfg region_size block_size n t1

/-- A run of `search` then `insert` calls in which every `search` reported
not-found and every `insert` returned normally. -/
def fresh_run (fuel : Nat) : BTree → List (Int × Int) → Bool
  | _, [] => true
  | t, (k, v) :: rest =>
    decide (BTree.search fuel t k = .ok none) && returned (BTree.insert fuel t k v) &&
      fresh_run fuel (BTree.insert fuel t k v).2 rest

namespace Manager

/-- The stored checksum is the recomputed one. -/
def checksum_valid (s : Manager) : Prop := s.calculate_checksum = s.stored_checksum

end Manager

namespace GarbageCollector

/-- Offsets linked to the root: the root itself when it is not null, the
non-null `next_leaf` of a linked leaf and the non-null children `0 .. key_count`
of a linked internal node, nodes being read only at offsets whose block index
is below `n_blocks`. -/
inductive Linked (m : Mem) (block_size n_blocks max_keys leaf_capacity root_offset : Nat) :
    Nat → Prop
  | root : root_offset ≠ 0 → Linked m block_size n_blocks max_keys leaf_capacity root_offset root_offset
  | next (o : Nat) :
      Linked m block_size n_blocks max_keys leaf_capacity root_offset o →
      o / block_size < n_blocks → BTree.is_leaf m o = true →
      rd64 m (BTree.get_leaf_next o leaf_capacity) ≠ 0 →
      Linked m block_size n_blocks max_keys leaf_capacity root_offset
        (rd64 m (BTree.get_leaf_next o leaf_capacity))
  | child (o i : Nat) :
      Linked m block_size n_blocks max_keys leaf_capacity root_offset o →
      o / block_size < n_blocks → BTree.is_leaf m o = false → i ≤ BTree.key_count m o →
      rd64 m (BTree.get_internal_children o max_keys + 8 * i) ≠ 0 →
      Linked m block_size n_blocks max_keys leaf_capacity root_offset
        (rd64 m (BTree.get_internal_children o max_keys + 8 * i))

/-- Number of blocks of the region not yet marked. -/
def unmarked (n_blocks : Nat) (reachable : Nat → Bool) : Nat :=
  (List.range n_blocks).countP (fun b => !reachable b)

/-- Progress of the sweep over manager `s` with marks `r`: the blocks below `p`
have been looked at. -/
def SweepInv (r : Nat → Bool) (s : Manager) (p : Nat) (a : Manager) : Prop :=
  a.block_size = s.block_size ∧ a.region_size = s.region_size ∧
  (∀ b, a.block_bit b = if b < p ∧ b < s.block_count then (s.block_bit b && r b) else s.block_bit b) ∧
  (∀ x, x < 64 ∨ 64 + 8 * ((s.block_count + 63) / 64) ≤ x → a.mem x = s.mem x)

end GarbageCollector

/-! ## Tree invariants -/

namespace BTree

/-- The first `key_count` entries of a leaf, in storage order. -/
def leaf_entries (m : Mem) (node : Nat) : List LeafEntry :=
  (List.range (key_count m node)).map (fun i => read_entry m (get_leaf_entries node + 8 * i))

/-- The first `key_count` keys of an internal node. -/
def node_keys (m : Mem) (node : Nat) : List Int :=
  (List.range (key_count m node)).map (fun i => rdI32 m (get_internal_keys node + 4 * i))

/-- Child offset `children[i]` of an internal node. -/
def child (cfg : BTreeConfig) (m : Mem) (node i : Nat) : Nat :=
  rd64 m (get_internal_children node cfg.max_keys + 8 * i)

/-- The typed views of a node at `off` (header, keys and children of an internal
node, entries and `next_leaf` of a leaf) lie inside the block that starts at `off`. -/
def NodeFits (cfg : BTreeConfig) (block_size off : Nat) : Prop :=
  get_leaf_next off cfg.leaf_capacity + 8 ≤ off + block_size ∧
  get_internal_children off cfg.max_keys + 8 * (cfg.max_keys + 1) ≤ off + block_size

/-- The node layout of the configuration fits the block size: in every block the
typed views lie inside the block, and an internal node has room for the one key
and two children of a promoted root (so `keys[0]` does not overlap `children[0]`);
the capacities are values of an `int`. -/
def fits (cfg : BTreeConfig) (block_size : Nat) : Prop :=
  1 ≤ cfg.max_keys ∧ cfg.max_keys < 2147483648 ∧ cfg.leaf_capacity < 2147483648 ∧
  ∀ b, NodeFits cfg block_size (b * block_size)

/-- The offset of an allocated block of the region behind superblock and bitmap. -/
def BlockOk (s : Manager) (off : Nat) : Prop :=
  ∃ b, off = b * s.block_size ∧ b < s.block_count ∧ s.block_bit b = true ∧
    64 + 8 * ((s.block_count + 63) / 64) ≤ off

/-- Every block that overlaps superblock or bitmap is allocated. -/
def MetaReserved (s : Manager) : Prop :=
  ∀ b, b < s.block_count → b * s.block_size < 64 + 8 * ((s.block_count + 63) / 64) →
    s.block_bit b = true

/-- Lower bound of the key range of child `i`: `lo` for the first child, else `keys[i-1]`. -/
def lower_bound (m : Mem) (node : Nat) (lo : Int) (i : Nat) : Int :=
  if i = 0 then lo else rdI32 m (get_internal_keys node + 4 * (i - 1))

/-- Upper bound of the key range of child `i`: `keys[i]`, or `hi` for the last child. -/
def upper_bound (m : Mem) (node : Nat) (hi : Int) (i : Nat) : Int :=
  if i < key_count m node then rdI32 m (get_internal_keys node + 4 * i) else hi

/-- The children `0 .. key_count` of an internal node. -/
def node_children (cfg : BTreeConfig) (m : Mem) (node : Nat) : List Nat :=
  (List.range (key_count m node + 1)).map (child cfg m node)

/-- The children of an internal node that covers `lo <= key < hi`, each with the
bounds of its key range. -/
def node_view (cfg : BTreeConfig) (m : Mem) (node : Nat) (lo hi : Int) : List (Int × Nat × Int) :=
  (List.range (key_count m node + 1)).map
    (fun i => (lower_bound m node lo i, child cfg m node i, upper_bound m node hi i))

/-- Shape of a subtree of height `h` rooted at `off`: leaves at depth `h`, key
counts within the capacities. -/
def Shape (cfg : BTreeConfig) (m : Mem) : Nat → Nat → Prop
  | 0, off => is_leaf m off = true ∧ key_count m off ≤ cfg.leaf_capacity
  | h + 1, off => is_leaf m off = false ∧ key_count m off ≤ cfg.max_keys ∧
      ∀ c ∈ node_children cfg m off, Shape cfg m h c

/-- Offsets of the nodes of a subtree of height `h` rooted at `off`. -/
def blocks (cfg : BTreeConfig) (m : Mem) : Nat → Nat → List Nat
  | 0, off => [off]
  | h + 1, off => off :: ((node_children cfg m off).map (blocks cfg m h)).flatten

/-- Entries stored in the leaves of a subtree, left to right. -/
def contents (cfg : BTreeConfig) (m : Mem) : Nat → Nat → List LeafEntry
  | 0, off => leaf_entries m off
  | h + 1, off => ((node_children cfg m off).map (contents cfg m h)).flatten

/-- Routing order of a subtree for the key range `lo <= key < hi`: the keys of a
leaf are pairwise different and inside the range, and child `i` of an internal node
holds the keys from `keys[i-1]` up to, not including, `keys[i]`. -/
def Ord (cfg : BTreeConfig) (m : Mem) : Nat → Nat → Int → Int → Prop
  | 0, off, lo, hi =>
      ((leaf_entries m off).map (fun e => e.key)).Nodup ∧
      ∀ e ∈ leaf_entries m off, lo ≤ e.key ∧ e.key < hi
  | h + 1, off, lo, hi =>
      ∀ t ∈ node_view cfg m off lo hi, t.1 < t.2.2 ∧ Ord cfg m h t.2.1 t.1 t.2.2

/-- Shapes of the subtrees of height `h` rooted at the offsets of a list. -/
def ShapeL (cfg : BTreeConfig) (m : Mem) (h : Nat) (cs : List Nat) : Prop :=
  ∀ c ∈ cs, Shape cfg m h c

/-- Offsets of the nodes of the subtrees of height `h` rooted at the offsets of a list. -/
def blocksL (cfg : BTreeConfig) (m : Mem) (h : Nat) (cs : List Nat) : List Nat :=
  (cs.map (blocks cfg m h)).flatten

/-- Entries stored below the offsets of a list, left to right. -/
def contentsL (cfg : BTreeConfig) (m : Mem) (h : Nat) (cs : List Nat) : List LeafEntry :=
  (cs.map (contents cfg m h)).flatten

/-- Routing order of a list of subtrees, each with the bounds of its key range. -/
def OrdL (cfg : BTreeConfig) (m : Mem) (h : Nat) (view : List (Int × Nat × Int)) : Prop :=
  ∀ t ∈ view, t.1 < t.2.2 ∧ Ord cfg m h t.2.1 t.1 t.2.2

/-- The subtrees an insertion below `off` leaves: the node itself and, after a
split, its new right sibling. -/
def res_roots (off : Nat) (res : InsertResult) : List Nat :=
  if res.did_split then [off, res.new_child_offset] else [off]

/-- The subtrees an insertion below `off` leaves, with the bounds of their key
ranges when the node covered `lo <= key < hi`. -/
def res_view (off : Nat) (res : InsertResult) (lo hi : Int) : List (Int × Nat × Int) :=
  if res.did_split then [(lo, off, res.split_key), (res.split_key, res.new_child_offset, hi)]
  else [(lo, off, hi)]

/-- What a call that works on the nodes `bl` leaves alone: the sizes, the set bits
of the bitmap, the superblock fields in front of the checksum, and the bytes of
every other allocated block. -/
def Frame (s s1 : Manager) (bl : List Nat) : Prop :=
  s1.block_size = s.block_size ∧ s1.region_size = s.region_size ∧
  (∀ b, b < s.block_count → s.block_bit b = true → s1.block_bit b = true) ∧
  (∀ x, x < 56 → s1.mem x = s.mem x) ∧
  (∀ o, BlockOk s o → o ∉ bl → ∀ x, o ≤ x → x < o + s.block_size → s1.mem x = s.mem x)

/-- Standing assumptions on configuration and manager: the node layout fits a
block, a leaf holds at least two entries, offsets are values of a `uint64_t`,
and the blocks under superblock and bitmap are allocated. -/
def Env (cfg : BTreeConfig) (s : Manager) : Prop :=
  fits cfg s.block_size ∧ 2 ≤ cfg.leaf_capacity ∧ s.region_size < 18446744073709551616 ∧
  MetaReserved s

/-- A subtree whose nodes are pairwise different allocated blocks. -/
def Owned (cfg : BTreeConfig) (s : Manager) (h off : Nat) : Prop :=
  Shape cfg s.mem h off ∧ (blocks cfg s.mem h off).Nodup ∧
  ∀ o ∈ blocks cfg s.mem h off, BlockOk s o

/-- State after an insertion of `key, value` below the node `off` of height `h`
that returned `res`. -/
def InsertPost (cfg : BTreeConfig) (s s1 : Manager) (h off : Nat) (key value : Int)
    (res : InsertResult) : Prop :=
  Frame s s1 (blocks cfg s.mem h off) ∧
  isInt32 res.split_key ∧
  ShapeL cfg s1.mem h (res_roots off res) ∧
  (blocksL cfg s1.mem h (res_roots off res)).Nodup ∧
  (∀ o ∈ blocksL cfg s1.mem h (res_roots off res),
    BlockOk s1 o ∧ (o ∈ blocks cfg s.mem h off ∨ ¬ BlockOk s o)) ∧
  (contentsL cfg s1.mem h (res_roots off res)).Perm (⟨key, value⟩ :: contents cfg s.mem h off) ∧
  (∀ lo hi, Ord cfg s.mem h off lo hi → lo ≤ key → key < hi →
    (∀ e ∈ contents cfg s.mem h off, e.key ≠ key) →
    OrdL cfg s1.mem h (res_view off res lo hi))

/-- Well-formed tree of height `h`: the standing assumptions hold and the root
subtree owns allocated blocks. -/
def TreeOk (t : BTree) (h : Nat) : Prop :=
  Env t.config t.manager ∧ Owned t.config t.manager h t.root_offset

/-- The superblock holds the root offset and the configuration of the tree object. -/
def Superblock (t : BTree) : Prop :=
  t.manager.get_root_offset = t.root_offset ∧
  rd32 t.manager.mem OFF_MAX_KEYS = t.config.max_keys ∧
  rd32 t.manager.mem OFF_MIN_KEYS = t.config.min_keys ∧
  rd32 t.manager.mem OFF_LEAF_CAPACITY = t.config.leaf_capacity

/-- Routing order of the whole tree over the range of `int`. -/
def TreeOrd (t : BTree) (h : Nat) : Prop :=
  Ord t.config t.manager.mem h t.root_offset (-2147483648) 2147483648

end BTree

/-! ## Concrete runs -/

/-- The set-up of tests/test_delete.cpp: a fresh region of 1 MiB in blocks of
4096 bytes and a tree of configuration 16/8/32 on it. -/
def test_tree : BTree := tree_of (BTree.new (Manager.create zero_file 1048576 4096) ⟨16, 8, 32⟩)

/-- Scenario S1 up to its last step: insert 10, 20, 30, then erase 20. -/
def s1_tree : BTree :=
  (BTree.erase 2 (insert_all 2 test_tree [(10, 100), (20, 200), (30, 300)]).2 20).2

/-- The test tree after `collect(tree.root_offset(), 16, 32)`. -/
def collected_tree : BTree :=
  { test_tree with
    manager := (GarbageCollector.collect test_tree.manager test_tree.root_offset 16 32).1 }

/-- Thirty-three pairs `i -> 10 * i`: one more than a leaf of the test tree holds. -/
def pairs33 : List (Int × Int) := (List.range 33).map (fun i => ((i : Int), (10 * i : Int)))

/-- A fresh region of 1 KiB in blocks of 64 bytes with a tree of configuration 2/1/2. -/
def small_tree : BTree := tree_of (BTree.new (Manager.create zero_file 1024 64) ⟨2, 1, 2⟩)

/-- The small tree after the inserts 10 -> 100, 20 -> 200, 30 -> 300 (the third
one splits the root leaf). -/
def grown_tree : BTree := (insert_all 5 small_tree [(10, 100), (20, 200), (30, 300)]).2

/-- A fresh region of 1 KiB in blocks of 64 bytes with a tree of configuration
2/1/8, whose leaf layout (16 + 8 * 8 + 8 bytes) is larger than a block. -/
def overflow_tree : BTree := tree_of (BTree.new (Manager.create zero_file 1024 64) ⟨2, 1, 8⟩)

/-- Nine pairs `i -> 10 * i`, `i = 1 .. 9`. -/
def pairs9 : List (Int × Int) := (List.range 9).map (fun i => ((i : Int) + 1, 10 * ((i : Int) + 1)))

/-- The overflow tree after the nine inserts. -/
def overflow_run : BTree := (insert_all 4 overflow_tree pairs9).2

/-- A fresh region of 1 KiB in blocks of 64 bytes with a tree of configuration
2/1/10, whose leaf layout (16 + 8 * 10 + 8 bytes) is larger than a block. -/
def spill_tree : BTree := tree_of (BTree.new (Manager.create zero_file 1024 64) ⟨2, 1, 10⟩)

/-- Sixteen inserts: the first eleven split the root leaf (the new leaf is block 3
at offset 192, the new root block 4 at offset 256); the next four are entries 6..9
of the leaf at 192, which lie on the header, the keys and the first child offset
of the root at 256; the last one is routed through that child offset, 24. -/
def spill_ops : List (Int × Int) :=
  [(-20, 1), (-19, 2), (-18, 3), (-17, 4), (-16, 5), (-15, 6), (-14, 7), (-13, 8), (-12, 9),
   (-11, 10), (-10, 11), (256, 1), (1, 0), (2, 0), (24, 0), (0, 1)]

/-- The spill tree after the sixteen inserts. -/
def spill_run : BTree := (insert_all 6 spill_tree spill_ops).2

/-- The tree constructed, with the default configuration, on a manager reopened on
the bytes the spill run left. -/
def spill_reopened : BTree :=
  tree_of (BTree.new (Manager.reopen spill_run.manager.mem 1024 64) ⟨16, 8, 32⟩)

/-- A file of 2 KiB whose bitmap word has bits 0 and 20 set, whose bytes 80..87
hold the offset 1280 and whose block 20 (offset 1280) starts with a leaf flag. -/
def crafted_file : Mem := wr64 (wr8 (wr64 zero_file 64 1048577) 1280 1) 80 1280

/-- The manager opened (`create_new = false`) on `crafted_file` in blocks of 64 bytes. -/
def crafted : Manager := Manager.reopen crafted_file 2048 64

/-! ## Allocation bitmap, checksums: reference definitions and small regions -/

namespace Manager

/-- Number of set bits in the allocation bitmap (the words `bitmap_[0]` ..
`bitmap_[bitmap_size_words_ - 1]`). -/
def bitmap_popcount (s : Manager) : Nat :=
  ((List.range s.bitmap_size_words).map (fun i => popcount (s.bitmap_word i))).sum

/-- The 64-bit little-endian word number `i` of the region: byte `8 * i + j` has
weight `256 ^ j`. -/
def le_word (m : Mem) (i : Nat) : Nat :=
  ((List.range 8).map (fun j => rd8 m (8 * i + j) * 256 ^ j)).sum

/-- Rotation of a 64-bit value by one bit to the left: the top bit becomes the
lowest bit. -/
def rotate_left_1 (w : Nat) : Nat := 2 * w % 18446744073709551616 + w / 9223372036854775808

/-- The checksum as the specification words it: the XOR, over the word indices
`i < region_size / 8` other than 7, of the rotated little-endian word `i`. -/
def xor_of_rotated_words (m : Mem) (region_size : Nat) : Nat :=
  (((List.range (region_size / 8)).filter (fun i => i ≠ 7)).map
    (fun i => rotate_left_1 (le_word m i))).foldr (fun a b => a ^^^ b) 0

end Manager

/-- One bit step of the reflected CRC-32: shift right, and XOR the polynomial
`0xEDB88320` in when the bit shifted out is set. -/
def crc32_bit (c : Nat) : Nat := if c % 2 = 1 then (c / 2) ^^^ 0xEDB88320 else c / 2

/-- One byte step of the reflected CRC-32: XOR the byte into the low bits, then
eight bit steps. -/
def crc32_byte (c b : Nat) : Nat := crc32_bit^[8] (c ^^^ b)

/-- The standard reflected CRC-32 of a byte sequence: initial value `0xFFFFFFFF`,
final bitwise inversion. -/
def crc32 (bytes : List Nat) : Nat := (bytes.foldl crc32_byte 0xFFFFFFFF) ^^^ 0xFFFFFFFF

/-- The bytes of the block of `block_size` bytes at `node`, without the bytes at
the indices 5, 6, 7 and 8. -/
def block_without_5_to_8 (m : Mem) (node block_size : Nat) : List Nat :=
  ((List.range block_size).filter (fun i => i < 5 ∨ 9 ≤ i)).map (fun i => rd8 m (node + i))

/-- A fresh region of 256 bytes in blocks of 64 bytes: four blocks, the first two
reserved for superblock and bitmap. -/
def tiny_manager : Manager := Manager.create zero_file 256 64

/-- The tiny region after two `alloc_block` calls: all four blocks are allocated. -/
def edge_manager : Manager := (Manager.alloc_block (Manager.alloc_block tiny_manager).2).2

/-- A tree of configuration 2/1/2 on the tiny region: the root leaf is block 2. -/
def tiny_tree : BTree := tree_of (BTree.new tiny_manager ⟨2, 1, 2⟩)

/-- The tiny tree after the inserts 10 -> 100 and 20 -> 200, which fill the root leaf. -/
def tiny_run : BTree := (insert_all 4 tiny_tree [(10, 100), (20, 200)]).2

/-! ## Reachable nodes, routing, layout: reference definitions and runs -/

namespace BTree

/-- Offsets of the nodes reachable from `root` through child offsets: the root, and
the children `0 .. key_count` of a reachable internal node. -/
inductive Reaches (cfg : BTreeConfig) (m : Mem) (root : Nat) : Nat → Prop
  | base : Reaches cfg m root root
  | step (o i : Nat) : Reaches cfg m root o → is_leaf m o = false → i ≤ key_count m o →
      Reaches cfg m root (rd64 m (get_internal_children o cfg.max_keys + 8 * i))

/-- Routing condition at the internal node `o` whose children are subtrees of
height `h`: the first `key_count` keys are strictly ascending, every key stored
below `children[i]` is smaller than `keys[i]` (`i < key_count`) and not smaller
than `keys[i-1]` (`i >= 1`). -/
def Routed (cfg : BTreeConfig) (m : Mem) (h o : Nat) : Prop :=
  (∀ i j, i < j → j < key_count m o →
    rdI32 m (get_internal_keys o + 4 * i) < rdI32 m (get_internal_keys o + 4 * j)) ∧
  (∀ i, i < key_count m o → ∀ e ∈ contents cfg m h (child cfg m o i),
    e.key < rdI32 m (get_internal_keys o + 4 * i)) ∧
  (∀ i, 1 ≤ i → i ≤ key_count m o → ∀ e ∈ contents cfg m h (child cfg m o i),
    rdI32 m (get_internal_keys o + 4 * (i - 1)) ≤ e.key)

/-- The `next_leaf` word of the leaf at `o`. -/
def next_leaf (cfg : BTreeConfig) (m : Mem) (o : Nat) : Nat :=
  rd64 m (get_leaf_next o cfg.leaf_capacity)

/-- Leaves of a subtree of height `h` rooted at `off`, left to right. -/
def leaves (cfg : BTreeConfig) (m : Mem) : Nat → Nat → List Nat
  | 0, off => [off]
  | h + 1, off => ((node_children cfg m off).map (leaves cfg m h)).flatten

/-- Leaves of the subtrees of height `h` rooted at the offsets of a list, left to
right. -/
def leavesL (cfg : BTreeConfig) (m : Mem) (h : Nat) (cs : List Nat) : List Nat :=
  (cs.map (leaves cfg m h)).flatten

/-- The leftmost leaf of a subtree of height `h`: the one reached through
`children[0]` on every level. -/
def leftmost (cfg : BTreeConfig) (m : Mem) : Nat → Nat → Nat
  | 0, off => off
  | h + 1, off => leftmost cfg m h (child cfg m off 0)

/-- The offsets met by following `next_leaf` from `o` until it is 0, at most `n`
of them. -/
def chain_walk (cfg : BTreeConfig) (m : Mem) : Nat → Nat → List Nat
  | 0, _ => []
  | n + 1, o => if o = 0 then [] else o :: chain_walk cfg m n (next_leaf cfg m o)

/-- The `next_leaf` of every leaf of the list is the leaf behind it in the list,
and that of the last one is `e`. -/
def Chain (cfg : BTreeConfig) (m : Mem) : List Nat → Nat → Prop
  | [], _ => True
  | l :: ls, e => next_leaf cfg m l = ls.headD e ∧ Chain cfg m ls e

/-- Every block whose bit is set after a call had its bit set before the call or
is one of the blocks `nb`. -/
def Bits (s s1 : Manager) (nb : List Nat) : Prop :=
  ∀ b, b < s.block_count → s1.block_bit b = true →
    s.block_bit b = true ∨ b * s.block_size ∈ nb

/-- The blocks an insertion below `off` leaves are the blocks of the subtree and
new blocks, and no other bitmap bit is set by it. -/
def Grow (cfg : BTreeConfig) (s s1 : Manager) (h off : Nat) (res : InsertResult) : Prop :=
  ∃ nb, (blocksL cfg s1.mem h (res_roots off res)).Perm (nb ++ blocks cfg s.mem h off) ∧
    Bits s s1 nb

/-- What a call does to the leaves `L`, which become the leaves `L1`: one leaf `l`
is followed by the new leaves `news`, the last of which takes over the old
`next_leaf` of `l`; the `next_leaf` of every other leaf is unchanged; and when
`ord` holds the new leaves stand right behind `l` in the order of the list. -/
def Relink (cfg : BTreeConfig) (m m1 : Mem) (L L1 : List Nat) (ord : Prop) : Prop :=
  ∃ l news, l ∈ L ∧
    (∀ x ∈ L, x ≠ l → next_leaf cfg m1 x = next_leaf cfg m x) ∧
    Chain cfg m1 (l :: news) (next_leaf cfg m l) ∧
    L1.Perm (news ++ L) ∧
    (ord → ∃ pre post, L = pre ++ l :: post ∧ L1 = pre ++ l :: news ++ post)

/-- The subtree at `off` is ordered for some key range that holds `key`, and does
not hold `key`. -/
def Fresh (cfg : BTreeConfig) (m : Mem) (h off : Nat) (key : Int) : Prop :=
  ∃ lo hi, Ord cfg m h off lo hi ∧ lo ≤ key ∧ key < hi ∧
    ∀ e ∈ contents cfg m h off, e.key ≠ key

/-- Blocks, bitmap and leaf chain after an insertion of `key` below the node `off`
of height `h` that returned `res`. -/
def LinkPost (cfg : BTreeConfig) (s s1 : Manager) (h off : Nat) (key : Int)
    (res : InsertResult) : Prop :=
  Grow cfg s s1 h off res ∧
  Relink cfg s.mem s1.mem (leaves cfg s.mem h off) (leavesL cfg s1.mem h (res_roots off res))
    (Fresh cfg s.mem h off key)

/-- Bitmap and leaf chain of a whole tree of height `h` on a region with
`reserved` reserved blocks: a set bit belongs to a reserved block or to a node of
the tree, and the `next_leaf` of a leaf is 0 or a leaf of the tree. -/
def Links (t : BTree) (h reserved : Nat) : Prop :=
  (∀ b, b < t.manager.block_count → t.manager.block_bit b = true →
    b < reserved ∨ b * t.manager.block_size ∈ blocks t.config t.manager.mem h t.root_offset) ∧
  (∀ l ∈ leaves t.config t.manager.mem h t.root_offset,
    next_leaf t.config t.manager.mem l = 0 ∨
    next_leaf t.config t.manager.mem l ∈ leaves t.config t.manager.mem h t.root_offset)

end BTree

/-- The quotient of `a` by `b`, rounded up to the next integer. -/
def ceil_div (a b : Nat) : Nat := if a % b = 0 then a / b else a / b + 1

/-- The number `k` of blocks that cover superblock and bitmap, as the
specification words it: `ceil((64 + 8 * ceil(block_count / 64)) / block_size)` with
`block_count = region_size / block_size`. -/
def reserved_count (region_size block_size : Nat) : Nat :=
  ceil_div (64 + 8 * ceil_div (region_size / block_size) 64) block_size

/-- The least multiple of 8 that is not below `n`. -/
def roundup8 (n : Nat) : Nat := if n % 8 = 0 then n else n + (8 - n % 8)

/-- The small tree (configuration 2/1/2, blocks of 64 bytes) after `insert(10, 100)`
and `insert(10, 200)`. -/
def dup_run : BTree := (insert_all 5 small_tree [(10, 100), (10, 200)]).2

/-- The spill tree after the first eleven inserts of `spill_ops`: root at 256 over
the leaves at 128 and 192. -/
def chain_run : BTree := (insert_all 6 spill_tree (spill_ops.take 11)).2

/-- The first eleven inserts of `spill_ops`, then `insert(256, 5)`: entry 6 of the
leaf at 192, which lies on the first eight bytes of the root at 256. -/
def crowd_ops : List (Int × Int) := spill_ops.take 11 ++ [(256, 5)]

/-- The spill tree after `crowd_ops`. -/
def crowd_run : BTree := (insert_all 6 spill_tree crowd_ops).2

/-- The spill tree after the first fourteen inserts of `spill_ops`: the last of
them is entry 8 of the leaf at 192, which lies on `keys[0]` of the root at 256. -/
def route_run : BTree := (insert_all 6 spill_tree (spill_ops.take 14)).2

/-- The spill tree after the first fifteen inserts of `spill_ops`: the last of
them is entry 9 of the leaf at 192, which lies on `children[0]` of the root at
256 and sets it to 24. -/
def stray_run : BTree := (insert_all 6 spill_tree (spill_ops.take 15)).2

/-- The small tree after the inserts 10 -> 100 and 20 -> 200, which fill the root
leaf at offset 128. -/
def pair_run : BTree := (insert_all 5 small_tree [(10, 100), (20, 200)]).2

/-- The overflow tree (leaf_capacity = 8, blocks of 64 bytes) after the inserts
`i -> 10 * i`, `i = 1 .. 8`: the root leaf at 128 is full, and its entries 6 and 7
lie in the free block at 192. -/
def full_leaf_run : BTree := (insert_all 4 overflow_tree (pairs9.take 8)).2

/-- A file of 1 KiB whose bitmap word is 7 (blocks 0, 1, 2 allocated) and whose
block 2 (offset 128) holds an internal node of a tree with max_keys = 8: key count
8, the keys 1 .. 8 from byte 144 on and the child offsets 1001 .. 1009 from byte
176 on (the last seven of them beyond the end of the block at 192). -/
def wide_file : Mem :=
  (List.range 9).foldl (fun m i => wr64 m (176 + 8 * i) (1001 + i))
    ((List.range 8).foldl (fun m i => wrI32 m (144 + 4 * i) ((i : Int) + 1))
      (wr32 (wr64 zero_file 64 7) 132 8))

/-- The manager opened (`create_new = false`) on `wide_file` in blocks of 64 bytes. -/
def wide : Manager := Manager.reopen wide_file 1024 64

/-- A fresh region of 513 blocks of 64 bytes (nine bitmap words, so the blocks 0, 1
and 2 are reserved) with a tree of configuration 2/1/10: the root leaf is block 3
at offset 192. -/
def shift_tree : BTree := tree_of (BTree.new (Manager.create zero_file 32832 64) ⟨2, 1, 10⟩)

/-- Sixteen inserts: the first eleven split the root leaf at 192 (the new leaf is
at offset 256, the new root at offset 320); the next four are entries 6..9 of the
leaf at 256, which lie on the header, the keys and the first child offset of the
root at 320 and set that child offset to 16; the last one is routed through it. -/
def shift_ops : List (Int × Int) :=
  spill_ops.take 11 ++ [(256, 1), (1, 0), (2, 0), (16, 0), (0, 1)]

/-- The shift tree after the sixteen inserts. -/
def shift_run : BTree := (insert_all 6 shift_tree shift_ops).2

/-! ## Stores in program order, readers, and further runs -/

namespace BTree

/-- The node at which the descent for `key` from `off` ends after at most `fuel`
levels: on an internal node the loop `while (idx < key_count && key >= keys[idx])
idx++` picks `children[idx]` (the descent of `search_internal`, `insert_internal`
and `erase_internal`); a leaf and the null offset end it. -/
def find_leaf (cfg : BTreeConfig) (m : Mem) (key : Int) : Nat → Nat → Nat
  | 0, off => off
  | fuel + 1, off =>
    if off = 0 then off
    else if is_leaf m off then off
    else find_leaf cfg m key fuel
      (child cfg m off (scan_keys m (get_internal_keys off) key (key_count m off) 0))

/-- Answer of the leaf scan of `search_internal` at the leaf `o`: the value of the
first of the first `key_count` entries whose key is `key`. -/
def leaf_lookup (m : Mem) (o : Nat) (key : Int) : Option Int :=
  match find_in_leaf m (get_leaf_entries o) key (key_count m o) 0 with
  | some i => some (rdI32 m (get_leaf_entries o + 8 * i + 4))
  | none => none

/-- The value of the first entry of a list whose key is `key`. -/
def lookup_list (es : List LeafEntry) (key : Int) : Option Int :=
  (es.find? (fun e => decide (e.key = key))).map (fun e => e.value)

/-- The descent takes the same way at the node `o` in `m1` as in `m`: the same
`is_leaf` flag and, at an internal node, the same `key_count`, the same first
`key_count` keys and the same children `0 .. key_count`. -/
def SameRoute (cfg : BTreeConfig) (m m1 : Mem) (o : Nat) : Prop :=
  is_leaf m1 o = is_leaf m o ∧
  (is_leaf m o = false → key_count m1 o = key_count m o ∧
    (∀ i, i < key_count m o →
      rdI32 m1 (get_internal_keys o + 4 * i) = rdI32 m (get_internal_keys o + 4 * i)) ∧
    ∀ i, i ≤ key_count m o → child cfg m1 o i = child cfg m o i)

/-- The readers get the same from the node at `o` in `m1` as in `m`: the descent
takes the same way, and at a leaf the leaf scan gives the same answer for every
key. -/
def SameAnswers (cfg : BTreeConfig) (m m1 : Mem) (o : Nat) : Prop :=
  SameRoute cfg m m1 o ∧
  (is_leaf m o = true → ∀ key, leaf_lookup m1 o key = leaf_lookup m o key)

/-- The region after the first `rounds` rounds of the shift loop `for (i =
key_count; i > idx; --i) { keys[i] = keys[i-1]; children[i+1] = children[i]; }` of
`insert_internal_node` on a node with `count` keys: the rounds `i = count, ..,
count - rounds + 1`. -/
def pivot_shifted (cfg : BTreeConfig) (m : Mem) (node count rounds : Nat) : Mem :=
  shift_right (get_internal_keys node) (get_internal_children node cfg.max_keys)
    (count - rounds) rounds m

/-- The region after the whole shift loop and the store `keys[idx] = split_key`. -/
def pivot_keyed (cfg : BTreeConfig) (m : Mem) (node idx count : Nat) (res : InsertResult) :
    Mem :=
  wrI32 (shift_right (get_internal_keys node) (get_internal_children node cfg.max_keys)
    idx (count - idx) m) (get_internal_keys node + 4 * idx) res.split_key

/-- The region after the store `children[idx + 1] = new_child_offset` that follows,
the last store before `node->key_count++`. -/
def pivot_linked (cfg : BTreeConfig) (m : Mem) (node idx count : Nat) (res : InsertResult) :
    Mem :=
  wr64 (pivot_keyed cfg m node idx count res)
    (get_internal_children node cfg.max_keys + 8 * (idx + 1)) res.new_child_offset

/-- The region after `node->key_count++`, before `persist_node(node)`. -/
def pivot_counted (cfg : BTreeConfig) (m : Mem) (node idx count : Nat) (res : InsertResult) :
    Mem :=
  wr32 (pivot_linked cfg m node idx count res) (node + 4)
    (key_count (pivot_linked cfg m node idx count res) node + 1)

/-- The region after the store `entries[key_count] = {key, value}` of `insert_leaf`,
before `leaf->key_count++`. -/
def append_written (m : Mem) (leaf : Nat) (key value : Int) : Mem :=
  write_entry m (get_leaf_entries leaf + 8 * key_count m leaf) ⟨key, value⟩

/-- The region after `leaf->key_count++`, before `persist_node(leaf)`. -/
def append_counted (m : Mem) (leaf : Nat) (key value : Int) : Mem :=
  wr32 (append_written m leaf key value) (leaf + 4)
    (key_count (append_written m leaf key value) leaf + 1)

/-- The region after the store `entries[found_idx] = entries[key_count - 1]` of
`erase_leaf` (which is skipped when `found_idx` is the last index), before
`leaf->key_count--`. -/
def erase_moved (m : Mem) (leaf found_idx : Nat) : Mem :=
  if found_idx ≠ (key_count m leaf + 4294967295) % 4294967296 then
    write_entry m (get_leaf_entries leaf + 8 * found_idx)
      (read_entry m (get_leaf_entries leaf +
        8 * ((key_count m leaf + 4294967295) % 4294967296)))
  else m

/-- The region after `leaf->key_count--`, before `persist_node(leaf)`. -/
def erase_counted (m : Mem) (leaf found_idx : Nat) : Mem :=
  wr32 (erase_moved m leaf found_idx) (leaf + 4)
    (key_count (erase_moved m leaf found_idx) leaf + 4294967295)

end BTree

namespace Manager

/-- The region whose 8-byte word number `i` is the word number `σ i` of `m`, for
every `i` (the bytes inside a word keep their places). -/
def permute_words (m : Mem) (σ : Nat → Nat) : Mem := fun x => m (8 * σ (x / 8) + x % 8)

/-- The map `σ` rearranges the word numbers below `words` among themselves and leaves
the checksum word, number 7, in place. -/
def WordPerm (words : Nat) (σ : Nat → Nat) : Prop :=
  ((List.range words).map σ).Perm (List.range words) ∧ σ 7 = 7

/-- Exchange of the `len` words from number `a` with the `len` words from number
`b` (two blocks, or two runs of words of the same length). -/
def swap_runs (a b len : Nat) : Nat → Nat :=
  fun k => if a ≤ k ∧ k < a + len then b + (k - a)
    else if b ≤ k ∧ k < b + len then a + (k - b) else k

end Manager

namespace GarbageCollector

/-- Number of block indices below `n_blocks` that are marked. -/
def marked_blocks (n_blocks : Nat) (reachable : Nat → Bool) : Nat :=
  (List.range n_blocks).countP (fun b => reachable b)

/-- Number of block indices of the region whose bitmap bit is set in `s` and that
are not marked. -/
def garbage_blocks (s : Manager) (reachable : Nat → Bool) : Nat :=
  (List.range s.block_count).countP (fun b => s.block_bit b && !reachable b)

/-- Ways in which the mark phase as written does not return. -/
inductive MarkFault where
  /-- A load from an address outside `[0, region_size)`, the mapped file: undefined
  behaviour in C++; on the target the process is killed once the loads leave the
  mapped pages. -/
  | read_outside_region
  /-- The increment `++i` of the `int` counter at `INT_MAX`: undefined behaviour. -/
  | int_overflow
  /-- The budget of rounds of the embedding is used up (no C++ counterpart). -/
  | out_of_rounds
  deriving DecidableEq, Repr

/-- The push loop of the mark phase with its counter of type `int`: `for (int i =
0; i <= node->key_count; ++i) if (children[i] != 0) stack.push_back(children[i])`,
from the counter value `i`, for at most `fuel` rounds.  The comparison with the
`uint32_t` `key_count` converts `i` to `unsigned`; `children[i]` is the word at
`children + 8 * i`, and a load of it that does not lie inside the region is a
fault, as is `++i` at `INT_MAX`. -/
def push_loop (m : Mem) (region_size children count : Nat) :
    Nat → Int → List Nat → Except MarkFault (List Nat)
  | 0, _, _ => .error .out_of_rounds
  | fuel + 1, i, stack =>
    if ofInt32 i ≤ count then
      if (children : Int) + 8 * i < 0 ∨ (region_size : Int) < (children : Int) + 8 * i + 8 then
        .error .read_outside_region
      else if i = 2147483647 then .error .int_overflow
      else
        push_loop m region_size children count fuel (i + 1)
          (if rd64 m ((children : Int) + 8 * i).toNat ≠ 0 then
            rd64 m ((children : Int) + 8 * i).toNat :: stack else stack)
    else .ok stack

/-- One round of the mark loop as written, with every load of the node checked
against the region: `node->is_leaf` at `offset`, the `next_leaf` word of a leaf,
`node->key_count` at `offset + 4` and the child words of an internal node.  The
push loop gets `inner` rounds. -/
def mark_step_int (m : Mem) (region_size block_size n_blocks max_keys leaf_capacity inner : Nat)
    (offset : Nat) (st : MarkState) : Except MarkFault MarkState :=
  let block_idx := offset / block_size
  if block_idx ≥ n_blocks then .ok st
  else if st.reachable block_idx then .ok st
  else if region_size < offset + 1 then .error .read_outside_region
  else if BTree.is_leaf m offset then
    if region_size < BTree.get_leaf_next offset leaf_capacity + 8 then .error .read_outside_region
    else
      .ok ⟨(if rd64 m (BTree.get_leaf_next offset leaf_capacity) ≠ 0 then
          rd64 m (BTree.get_leaf_next offset leaf_capacity) :: st.stack
        else st.stack), (fun b => if b = block_idx then true else st.reachable b),
        st.marked_count + 1⟩
  else if region_size < offset + 8 then .error .read_outside_region
  else
    match push_loop m region_size (BTree.get_internal_children offset max_keys)
        (BTree.key_count m offset) inner 0 st.stack with
    | .error e => .error e
    | .ok stack =>
      .ok ⟨stack, (fun b => if b = block_idx then true else st.reachable b),
        st.marked_count + 1⟩

/-- The mark loop as written, for at most `rounds` rounds: a fault of a round, or
`out_of_rounds` when the stack is not empty after them. -/
def mark_loop_int (m : Mem) (region_size block_size n_blocks max_keys leaf_capacity inner : Nat) :
    Nat → MarkState → Except MarkFault MarkState
  | 0, st => if st.stack = [] then .ok st else .error .out_of_rounds
  | rounds + 1, st =>
    match st.stack with
    | [] => .ok st
    | offset :: rest =>
      match mark_step_int m region_size block_size n_blocks max_keys leaf_capacity inner offset
          { st with stack := rest } with
      | .error e => .error e
      | .ok st1 =>
        mark_loop_int m region_size block_size n_blocks max_keys leaf_capacity inner rounds st1

/-- Mark phase of `collect` as written, with the loads checked against the region. -/
def mark_int (s : Manager) (root_offset max_keys leaf_capacity rounds inner : Nat) :
    Except MarkFault MarkState :=
  mark_loop_int s.mem s.region_size s.block_size s.block_count max_keys leaf_capacity inner rounds
    { stack := if root_offset ≠ 0 then [root_offset] else [], reachable := fun _ => false,
      marked_count := 0 }

/-- The offset `x` is still to be looked at or settled: it is on the stack, or its
block index is not below `n_blocks`, or its block is marked. -/
def Pending (block_size n_blocks : Nat) (st : MarkState) (x : Nat) : Prop :=
  x ∈ st.stack ∨ n_blocks ≤ x / block_size ∨ st.reachable (x / block_size) = true

/-- Progress of the mark loop: the root, and every offset that a linked node with
a marked block links to, is pending. -/
def Closed (m : Mem) (block_size n_blocks max_keys leaf_capacity root_offset : Nat)
    (st : MarkState) : Prop :=
  (root_offset ≠ 0 → Pending block_size n_blocks st root_offset) ∧
  ∀ o, Linked m block_size n_blocks max_keys leaf_capacity root_offset o →
    o / block_size < n_blocks → st.reachable (o / block_size) = true →
    (BTree.is_leaf m o = true → rd64 m (BTree.get_leaf_next o leaf_capacity) ≠ 0 →
      Pending block_size n_blocks st (rd64 m (BTree.get_leaf_next o leaf_capacity))) ∧
    (BTree.is_leaf m o = false → ∀ i, i ≤ BTree.key_count m o →
      rd64 m (BTree.get_internal_children o max_keys + 8 * i) ≠ 0 →
      Pending block_size n_blocks st (rd64 m (BTree.get_internal_children o max_keys + 8 * i)))

end GarbageCollector

namespace BTree

/-- The `buffer` of `split_leaf`: the entries of the old leaf, sorted by key. -/
def split_buffer (m : Mem) (old : Nat) : List LeafEntry :=
  List.insertionSort (fun a b : LeafEntry => a.key ≤ b.key)
    ((List.range (key_count m old)).map (fun i => read_entry m (get_leaf_entries old + 8 * i)))

/-- State of `split_leaf` after `persist_node(new_leaf)`, just before the swap
`old.next_leaf <- new_leaf_offset`; `s1` is the manager after `alloc_block`
returned `new`. -/
def split_shadow (cfg : BTreeConfig) (s1 : Manager) (old new : Nat) : Manager :=
  let m := wr8 s1.mem new 1
  let total := key_count m old
  let mid := total / 2
  let buffer := split_buffer m old
  let m := write_entries m (get_leaf_entries new) (buffer.drop mid)
  let m := wr32 m (new + 4) (total - mid)
  let m := wr64 m (get_leaf_next new cfg.leaf_capacity) (rd64 m (get_leaf_next old cfg.leaf_capacity))
  persist_node { s1 with mem := m } new

/-- Region of `split_leaf` after the swap `old.next_leaf <- new_leaf_offset`. -/
def split_swapped (cfg : BTreeConfig) (s1 : Manager) (old new : Nat) : Mem :=
  wr64 (split_shadow cfg s1 old new).mem (get_leaf_next old cfg.leaf_capacity) new

/-- Region of `split_leaf` after `k` rounds of the loop `old_entries[i] = buffer[i]`. -/
def split_rewritten (cfg : BTreeConfig) (s1 : Manager) (old new k : Nat) : Mem :=
  write_entries (split_swapped cfg s1 old new) (get_leaf_entries old)
    (((split_buffer (wr8 s1.mem new 1) old).take
      (key_count (wr8 s1.mem new 1) old / 2)).take k)

/-- Region of `split_leaf` after the store `old_leaf->key_count = mid`. -/
def split_counted (cfg : BTreeConfig) (s1 : Manager) (old new : Nat) : Mem :=
  wr32 (split_rewritten cfg s1 old new (key_count (wr8 s1.mem new 1) old / 2)) (old + 4)
    (key_count (wr8 s1.mem new 1) old / 2)

/-- State of `split_leaf` on return, after `persist_node(old_leaf)`. -/
def split_done (cfg : BTreeConfig) (s1 : Manager) (old new : Nat) : Manager :=
  persist_node { split_shadow cfg s1 old new with mem := split_counted cfg s1 old new } old

/-- The states of `insert_leaf` on a full leaf `old` from the swap in `split_leaf`
to its return, in program order: after the swap, after each round of the loop
that rewrites the old entries, after the store of the old `key_count`, on return
of `split_leaf`, and in the nested `insert_leaf` on `target` after the store of the
entry, after the increment of `key_count`, and on return. -/
def split_window (cfg : BTreeConfig) (s1 : Manager) (old new target : Nat) (key value : Int) :
    List Manager :=
  { split_shadow cfg s1 old new with mem := split_swapped cfg s1 old new } ::
  (List.range (key_count (wr8 s1.mem new 1) old / 2 + 1)).map
    (fun k => { split_shadow cfg s1 old new with mem := split_rewritten cfg s1 old new k }) ++
  [{ split_shadow cfg s1 old new with mem := split_counted cfg s1 old new },
    split_done cfg s1 old new,
    { split_done cfg s1 old new with
      mem := append_written (split_done cfg s1 old new).mem target key value },
    { split_done cfg s1 old new with
      mem := append_counted (split_done cfg s1 old new).mem target key value },
    persist_node { split_done cfg s1 old new with
      mem := append_counted (split_done cfg s1 old new).mem target key value } target]

/-- A state `w` in the course of the split of the leaf `old` of the tree `t` into
the new block `new`: sizes as in `t`, the bitmap of `t` with the bit of `new` set,
the bytes behind the bitmap outside the two blocks as in `t`, both nodes leaves,
the new leaf linked to what followed the old one, and the old leaf linked to the
new one if `published`, else to what followed it. -/
def SplitWindow (t : BTree) (old new : Nat) (published : Bool) (w : Manager) : Prop :=
  w.block_size = t.manager.block_size ∧ w.region_size = t.manager.region_size ∧
  (∀ b, b < t.manager.block_count →
    w.block_bit b = (t.manager.block_bit b || decide (b = new / t.manager.block_size))) ∧
  (∀ x, 64 + 8 * ((t.manager.block_count + 63) / 64) ≤ x →
    x < old ∨ old + t.manager.block_size ≤ x → x < new ∨ new + t.manager.block_size ≤ x →
    w.mem x = t.manager.mem x) ∧
  is_leaf w.mem old = true ∧ is_leaf w.mem new = true ∧
  next_leaf t.config w.mem old =
    (if published then new else next_leaf t.config t.manager.mem old) ∧
  next_leaf t.config w.mem new = next_leaf t.config t.manager.mem old

end BTree

/-- A region of 16 blocks of 64 bytes whose bitmap word is 7 and whose block 2 (offset
128) reads as an internal node with `key_count == 0xFFFFFFFF`. -/
def endless : Manager := Manager.reopen (wr32 (wr64 zero_file 64 7) 132 4294967295) 1024 64

/-- A region of 16 blocks of 64 bytes whose block 2 (offset 128) reads as an internal
node with one key whose child 0 is the node itself and whose child 1 is the offset
4096, outside the region. -/
def tangled : Manager :=
  Manager.reopen (wr64 (wr64 (wr32 (wr64 zero_file 64 7) 132 1) 152 128) 160 4096) 1024 64

/-- A region of 64 blocks of 64 bytes whose bitmap word, at offset 64, has the bits
0, 1 and 32 set: read as a node at offset 64 it is a leaf with one entry, the
entry (0, 0) at offset 80. -/
def bitmap_root : Manager := Manager.reopen (wr64 zero_file 64 4294967299) 4096 64

/-- A fresh region of 16 blocks of 64 bytes with a tree of configuration 2/1/6: a
leaf layout of 72 bytes, the root leaf at offset 128, its `next_leaf` word at
offset 192, the first word of the next block. -/
def clash_tree : BTree := tree_of (BTree.new (Manager.create zero_file 1024 64) ⟨2, 1, 6⟩)

/-- The inserts `i -> 100`, `i = 1 .. 6`. -/
def clash_ops : List (Int × Int) := (List.range 6).map (fun i => ((i : Int) + 1, 100))

/-- The clash tree after the inserts `i -> 100`, `i = 1 .. 6`, which fill the root
leaf. -/
def clash_run : BTree := (insert_all 4 clash_tree clash_ops).2

/-- The state in which `insert_leaf` returns from the insert of `7 -> 100` into the
full root leaf of the clash run: the split into the new block 192 is done and the
nested `insert_leaf` has appended the entry to the new leaf. -/
def clash_state : Manager :=
  BTree.persist_node
    { BTree.split_done ⟨2, 1, 6⟩ clash_run.manager.alloc_block.2 128 192 with
      mem := BTree.append_counted
        (BTree.split_done ⟨2, 1, 6⟩ clash_run.manager.alloc_block.2 128 192).mem 192 7 100 }
    192

/-- A fresh region of 16 blocks of 64 bytes with a tree of configuration 2/1/14: a
leaf layout of 136 bytes, the root leaf at offset 128. -/
def packed_tree : BTree := tree_of (BTree.new (Manager.create zero_file 1024 64) ⟨2, 1, 14⟩)

/-- The inserts `i -> 100`, `i = 1 .. 14`. -/
def packed_ops : List (Int × Int) := (List.range 14).map (fun i => ((i : Int) + 1, 100))

/-- The packed tree after the inserts `i -> 100`, `i = 1 .. 14`, which fill the
root leaf: its entries 6 to 13 lie in the free blocks at 192 and 256. -/
def packed_run : BTree := (insert_all 4 packed_tree packed_ops).2

/-- A fresh region of two blocks of 64 bytes. -/
def twin_manager : Manager := Manager.create zero_file 128 64

/-- The small tree after the inserts 10 -> 100, 20 -> 200, 30 -> 300 and 5 -> 50:
the root at 256 holds the key 20 over the full leaf at 128 (10, 5) and the leaf at
192 (20, 30). -/
def pivot_tree : BTree := (insert_all 5 grown_tree [(5, 50)]).2

/-- The manager of `pivot_tree` when the call `insert_internal(128, 7, 70)` of
`insert(7, 70)` has returned to `insert_internal_node` on the root: the leaf at 128
is split (5, 7), the new leaf at 320 holds 10, and the split result is the pivot 10
with child 320. -/
def pivot_start : Manager := (BTree.insert_leaf pivot_tree.config 3 pivot_tree.manager 128 7 70).2

/-- The spill tree after the first eleven inserts of `spill_ops` and the inserts
-40 -> 0 and -30 -> 6 into the leaf at 128: its entry 6 (key -30) lies on the
header of the leaf at 192, the value 6 on the `key_count` of that leaf. -/
def alias_run : BTree := (insert_all 6 chain_run [(-40, 0), (-30, 6)]).2

/-- The spill tree after the first thirteen inserts of `spill_ops`: the leaf at 192
holds eight entries, entry 6 (256 -> 1) on the header of the root at 256 and
entry 7 (1 -> 0) behind it. -/
def brim_run : BTree := (insert_all 6 spill_tree (spill_ops.take 13)).2

/-! # Lemmas -/

/-! ## Loads and stores -/

theorem wr8_same (m : Mem) (a v : Nat) : wr8 m a v a = v % 256 := by simp [wr8]

theorem wr8_other (m : Mem) (a v x : Nat) (h : x ≠ a) : wr8 m a v x = m x := by simp [wr8, h]

theorem wr32_other (m : Mem) (a v x : Nat) (h : x < a ∨ a + 4 ≤ x) : wr32 m a v x = m x := by
  unfold wr32
  rw [wr8_other _ _ _ _ (by omega), wr8_other _ _ _ _ (by omega), wr8_other _ _ _ _ (by omega),
    wr8_other _ _ _ _ (by omega)]

theorem wr64_other (m : Mem) (a v x : Nat) (h : x < a ∨ a + 8 ≤ x) : wr64 m a v x = m x := by
  unfold wr64
  rw [wr32_other _ _ _ _ (by omega), wr32_other _ _ _ _ (by omega)]

theorem rd8_congr (m m' : Mem) (a : Nat) (h : m a = m' a) : rd8 m a = rd8 m' a := by
  simp [rd8, h]

theorem rd32_congr (m m' : Mem) (a : Nat) (h : ∀ x, a ≤ x → x < a + 4 → m x = m' x) :
    rd32 m a = rd32 m' a := by
  unfold rd32 rd8
  rw [h a (by omega) (by omega), h (a + 1) (by omega) (by omega), h (a + 2) (by omega) (by omega),
    h (a + 3) (by omega) (by omega)]

theorem rd64_congr (m m' : Mem) (a : Nat) (h : ∀ x, a ≤ x → x < a + 8 → m x = m' x) :
    rd64 m a = rd64 m' a := by
  unfold rd64
  rw [rd32_congr m m' a (fun x h1 h2 => h x h1 (by omega)),
    rd32_congr m m' (a + 4) (fun x h1 h2 => h x (by omega) (by omega))]

theorem rdI32_congr (m m' : Mem) (a : Nat) (h : ∀ x, a ≤ x → x < a + 4 → m x = m' x) :
    rdI32 m a = rdI32 m' a := by
  unfold rdI32; rw [rd32_congr m m' a h]

theorem rd8_lt (m : Mem) (a : Nat) : rd8 m a < 256 := by unfold rd8; omega

theorem rd32_lt (m : Mem) (a : Nat) : rd32 m a < 4294967296 := by
  have h0 := rd8_lt m a; have h1 := rd8_lt m (a + 1)
  have h2 := rd8_lt m (a + 2); have h3 := rd8_lt m (a + 3)
  unfold rd32; omega

theorem rd64_lt (m : Mem) (a : Nat) : rd64 m a < 18446744073709551616 := by
  have h0 := rd32_lt m a; have h1 := rd32_lt m (a + 4)
  unfold rd64; omega

theorem rd32_wr32_same (m : Mem) (a v : Nat) : rd32 (wr32 m a v) a = v % 4294967296 := by
  unfold rd32 rd8 wr32
  rw [wr8_other _ _ _ _ (by omega), wr8_other _ _ _ _ (by omega), wr8_other _ _ _ _ (by omega),
    wr8_same, wr8_other _ _ _ _ (by omega), wr8_other _ _ _ _ (by omega), wr8_same,
    wr8_other _ _ _ _ (by omega), wr8_same, wr8_same]
  omega

theorem rd32_wr32_other (m : Mem) (a v b : Nat) (h : b + 4 ≤ a ∨ a + 4 ≤ b) :
    rd32 (wr32 m a v) b = rd32 m b :=
  rd32_congr _ _ _ (fun x h1 h2 => wr32_other m a v x (by omega))

theorem rd64_wr64_same (m : Mem) (a v : Nat) : rd64 (wr64 m a v) a = v % 18446744073709551616 := by
  unfold rd64 wr64
  rw [rd32_wr32_same, rd32_wr32_other _ _ _ _ (by omega), rd32_wr32_same]
  omega

theorem rd64_wr64_other (m : Mem) (a v b : Nat) (h : b + 8 ≤ a ∨ a + 8 ≤ b) :
    rd64 (wr64 m a v) b = rd64 m b :=
  rd64_congr _ _ _ (fun x h1 h2 => wr64_other m a v x (by omega))

theorem toInt32_ofInt32 (k : Int) (h : isInt32 k) : toInt32 (ofInt32 k) = k := by
  unfold isInt32 at h
  unfold toInt32 ofInt32
  split <;> omega

theorem ofInt32_lt (k : Int) : ofInt32 k < 4294967296 := by
  unfold ofInt32; omega

theorem ofInt32_toInt32 (n : Nat) (h : n < 4294967296) : ofInt32 (toInt32 n) = n := by
  unfold toInt32 ofInt32
  split <;> omega

theorem isInt32_toInt32 (n : Nat) (h : n < 4294967296) : isInt32 (toInt32 n) := by
  unfold toInt32 isInt32
  split <;> omega

theorem rdI32_wrI32_same (m : Mem) (a : Nat) (k : Int) (h : isInt32 k) :
    rdI32 (wrI32 m a k) a = k := by
  unfold rdI32 wrI32
  rw [rd32_wr32_same, Nat.mod_eq_of_lt (ofInt32_lt k), toInt32_ofInt32 k h]

theorem isInt32_rdI32 (m : Mem) (a : Nat) : isInt32 (rdI32 m a) :=
  isInt32_toInt32 _ (rd32_lt m a)

theorem rotl1_lt (v : Nat) (h : v < 18446744073709551616) : rotl1 v < 18446744073709551616 := by
  unfold rotl1
  have h1 : (v <<< 1) % 18446744073709551616 < 2 ^ 64 := by
    have : (18446744073709551616 : Nat) = 2 ^ 64 := by norm_num
    omega
  have h2 : v >>> 63 < 2 ^ 64 := by
    rw [Nat.shiftRight_eq_div_pow]
    have : v / 2 ^ 63 ≤ v := Nat.div_le_self _ _
    have : (18446744073709551616 : Nat) = 2 ^ 64 := by norm_num
    omega
  have := Nat.or_lt_two_pow h1 h2
  have h3 : (18446744073709551616 : Nat) = 2 ^ 64 := by norm_num
  omega

namespace Manager


theorem checksum_fold_lt (m : Mem) (l : List Nat) (acc : Nat) (h : acc < 2 ^ 64) :
    l.foldl (fun checksum i =>
      if 8 * i = OFF_CHECKSUM then checksum else checksum ^^^ rotl1 (rd64 m (8 * i))) acc < 2 ^ 64 := by
  induction l generalizing acc with
  | nil => simpa using h
  | cons i l ih =>
    simp only [List.foldl_cons]
    apply ih
    split
    · exact h
    · apply Nat.xor_lt_two_pow h
      have := rotl1_lt _ (rd64_lt m (8 * i))
      have h3 : (18446744073709551616 : Nat) = 2 ^ 64 := by norm_num
      omega

theorem calculate_checksum_lt (s : Manager) : s.calculate_checksum < 18446744073709551616 := by
  have := checksum_fold_lt s.mem (List.range (s.region_size / 8)) 0 (by norm_num)
  have h3 : (18446744073709551616 : Nat) = 2 ^ 64 := by norm_num
  unfold calculate_checksum; omega

theorem calculate_checksum_congr (s s' : Manager) (hr : s.region_size = s'.region_size)
    (h : ∀ x, x < 56 ∨ 64 ≤ x → s.mem x = s'.mem x) :
    s.calculate_checksum = s'.calculate_checksum := by
  unfold calculate_checksum
  rw [hr]
  apply List.foldl_ext
  intro a i _
  by_cases hi : 8 * i = OFF_CHECKSUM
  · simp [hi]
  · simp only [hi, if_false]
    rw [rd64_congr s.mem s'.mem (8 * i) (fun x h1 h2 => h x (by unfold OFF_CHECKSUM at hi; omega))]

theorem update_persistent_checksum_valid (s : Manager) :
    checksum_valid (update_persistent_checksum s) := by
  unfold checksum_valid
  have h1 : (update_persistent_checksum s).calculate_checksum = s.calculate_checksum := by
    apply calculate_checksum_congr
    · rfl
    · intro x hx
      show wr64 s.mem OFF_CHECKSUM s.calculate_checksum x = s.mem x
      exact wr64_other _ _ _ _ (by unfold OFF_CHECKSUM; omega)
  rw [h1]
  show s.calculate_checksum = rd64 (wr64 s.mem OFF_CHECKSUM s.calculate_checksum) OFF_CHECKSUM
  rw [rd64_wr64_same, Nat.mod_eq_of_lt (calculate_checksum_lt s)]

theorem set_root_offset_valid (s : Manager) (offset : Nat) :
    checksum_valid (set_root_offset s offset) :=
  update_persistent_checksum_valid _

theorem create_valid (file : Mem) (region_size block_size : Nat) :
    checksum_valid (create file region_size block_size) :=
  update_persistent_checksum_valid _

theorem verify_integrity_of_valid (s : Manager) (hm : rd64 s.mem OFF_MAGIC = magic_number)
    (h : checksum_valid s) : s.verify_integrity = true := by
  unfold verify_integrity
  unfold checksum_valid at h
  simp [hm, h]

theorem verify_integrity_bad_magic (s : Manager) (hm : rd64 s.mem OFF_MAGIC ≠ magic_number) :
    s.verify_integrity = false := by
  unfold verify_integrity
  simp [hm]

end Manager

namespace BTree

theorem persist_node_valid (s : Manager) (node : Nat) : (persist_node s node).checksum_valid :=
  Manager.update_persistent_checksum_valid _

theorem install_pivot_valid (cfg : BTreeConfig) (s : Manager) (node idx count : Nat)
    (res : InsertResult) : (install_pivot cfg s node idx count res).checksum_valid :=
  persist_node_valid _ _

theorem split_leaf_valid (cfg : BTreeConfig) (s : Manager) (off : Nat) (r : InsertResult)
    (s' : Manager) (h : split_leaf cfg s off = (.ok r, s')) : s'.checksum_valid := by
  unfold split_leaf at h
  split at h
  · simp at h
  · split at h
    · simp at h
    · simp only at h
      split at h
      · simp at h
      · simp only [Prod.mk.injEq] at h
        rw [← h.2]
        exact persist_node_valid _ _

theorem insert_leaf_valid (cfg : BTreeConfig) (key value : Int) :
    ∀ (fuel : Nat) (s : Manager) (off : Nat) (r : InsertResult) (s' : Manager),
      insert_leaf cfg fuel s off key value = (.ok r, s') → s'.checksum_valid := by
  intro fuel
  induction fuel with
  | zero => intro s off r s' h; simp [insert_leaf] at h
  | succ f ih =>
    intro s off r s' h
    unfold insert_leaf at h
    split at h
    · simp at h
    · split at h
      · simp only [Prod.mk.injEq] at h
        rw [← h.2]
        exact persist_node_valid _ _
      · split at h
        · simp at h
        · split at h
          · simp at h
          · rename_i heq
            simp only [Prod.mk.injEq] at h
            rw [← h.2]
            exact ih _ _ _ _ heq

theorem insert_internal_node_valid (cfg : BTreeConfig)
    (recur : Manager → Nat → Int → Int → Except Err InsertResult × Manager)
    (hrec : ∀ s off k v r s', recur s off k v = (.ok r, s') → s'.checksum_valid)
    (s : Manager) (off : Nat) (key value : Int) (r : InsertResult) (s' : Manager)
    (h : insert_internal_node cfg recur s off key value = (.ok r, s')) : s'.checksum_valid := by
  unfold insert_internal_node at h
  simp only at h
  split at h
  · simp at h
  · rename_i heq
    split at h
    · split at h
      · simp only [Prod.mk.injEq] at h
        rw [← h.2]
        exact install_pivot_valid _ _ _ _ _ _
      · split at h
        · simp at h
        · simp only [Prod.mk.injEq] at h
          rw [← h.2]
          exact install_pivot_valid _ _ _ _ _ _
    · simp only [Prod.mk.injEq] at h
      rw [← h.2]
      exact hrec _ _ _ _ _ _ heq

theorem insert_internal_valid (cfg : BTreeConfig) :
    ∀ (fuel : Nat) (s : Manager) (off : Nat) (key value : Int) (r : InsertResult) (s' : Manager),
      insert_internal cfg fuel s off key value = (.ok r, s') → s'.checksum_valid := by
  intro fuel
  induction fuel with
  | zero => intro s off key value r s' h; simp [insert_internal] at h
  | succ f ih =>
    intro s off key value r s' h
    unfold insert_internal at h
    split at h
    · simp at h
    · split at h
      · exact insert_leaf_valid cfg key value _ _ _ _ _ h
      · exact insert_internal_node_valid cfg _ (fun s off k v r s' hh => ih s off k v r s' hh)
          _ _ _ _ _ _ h

theorem insert_valid (fuel : Nat) (t : BTree) (key value : Int) (t' : BTree)
    (h : insert fuel t key value = (.ok (), t')) : t'.manager.checksum_valid := by
  unfold insert at h
  split at h
  · simp at h
  · rename_i heq
    split at h
    · split at h
      · simp at h
      · split at h
        · simp at h
        · simp only [Prod.mk.injEq, true_and] at h
          rw [← h]
          exact Manager.set_root_offset_valid _ _
    · simp only [Prod.mk.injEq, true_and] at h
      rw [← h]
      exact insert_internal_valid _ _ _ _ _ _ _ _ heq

end BTree

namespace BTree

theorem erase_leaf_valid (s : Manager) (off : Nat) (key : Int) (h : s.checksum_valid) :
    (erase_leaf s off key).2.checksum_valid := by
  unfold erase_leaf
  simp only
  split
  · exact h
  · exact persist_node_valid _ _

theorem erase_internal_valid (cfg : BTreeConfig) (key : Int) :
    ∀ (fuel : Nat) (s : Manager) (off : Nat), s.checksum_valid →
      (erase_internal cfg fuel s off key).2.checksum_valid := by
  intro fuel
  induction fuel with
  | zero => intro s off h; simpa [erase_internal] using h
  | succ f ih =>
    intro s off h
    unfold erase_internal
    split
    · exact h
    · split
      · exact erase_leaf_valid _ _ _ h
      · exact ih _ _ h

theorem new_valid (s : Manager) (config : BTreeConfig) (t : BTree) (s' : Manager)
    (hs : s.checksum_valid) (h : new s config = (.ok t, s')) :
    t.manager.checksum_valid ∧ s' = t.manager := by
  unfold new at h
  split at h
  · split at h
    · simp at h
    · split at h
      · simp at h
      · simp only [Prod.mk.injEq, Except.ok.injEq] at h
        rw [← h.1, ← h.2]
        exact ⟨Manager.set_root_offset_valid _ _, rfl⟩
  · simp only [Prod.mk.injEq, Except.ok.injEq] at h
    rw [← h.1, ← h.2]
    exact ⟨hs, rfl⟩

end BTree

namespace GarbageCollector

theorem sweep_word_mono (reachable : Nat → Bool) (n_blocks i word : Nat) (acc : Manager × Nat) :
    acc.2 ≤ (sweep_word reachable n_blocks i word acc).2 ∧
    ((sweep_word reachable n_blocks i word acc).2 = acc.2 →
      (sweep_word reachable n_blocks i word acc).1 = acc.1) := by
  unfold sweep_word
  generalize List.range 64 = l
  induction l generalizing acc with
  | nil => simp
  | cons bit l ih =>
    simp only [List.foldl_cons]
    split
    · exact ih acc
    · split
      · have := ih ((acc.1.free_block ((i * 64 + bit) * acc.1.block_size), acc.2 + 1))
        simp only at this
        constructor
        · omega
        · intro h; omega
      · exact ih acc

theorem sweep_mono (reachable : Nat → Bool) (s : Manager) :
    (sweep reachable s).2 = 0 → (sweep reachable s).1 = s := by
  unfold sweep
  generalize List.range ((s.block_count + 63) / 64) = l
  generalize s.block_count = n
  suffices h : ∀ (acc : Manager × Nat),
      acc.2 ≤ (l.foldl (fun a i => if a.1.bitmap_word i = 0 then a
        else sweep_word reachable n i (a.1.bitmap_word i) a) acc).2 ∧
      ((l.foldl (fun a i => if a.1.bitmap_word i = 0 then a
        else sweep_word reachable n i (a.1.bitmap_word i) a) acc).2 = acc.2 →
       (l.foldl (fun a i => if a.1.bitmap_word i = 0 then a
        else sweep_word reachable n i (a.1.bitmap_word i) a) acc).1 = acc.1) by
    intro h0
    exact (h (s, 0)).2 h0
  induction l with
  | nil => intro acc; simp
  | cons i l ih =>
    intro acc
    simp only [List.foldl_cons]
    split
    · exact ih acc
    · have h1 := sweep_word_mono reachable n i (acc.1.bitmap_word i) acc
      have h2 := ih (sweep_word reachable n i (acc.1.bitmap_word i) acc)
      constructor
      · omega
      · intro h
        have h3 : (sweep_word reachable n i (acc.1.bitmap_word i) acc).2 = acc.2 := by omega
        rw [h2.2 (by omega), h1.2 h3]

theorem collect_valid (s : Manager) (root_offset max_keys leaf_capacity : Nat)
    (h : s.checksum_valid) : (collect s root_offset max_keys leaf_capacity).1.checksum_valid := by
  unfold collect
  simp only
  split
  · exact Manager.update_persistent_checksum_valid _
  · rename_i hz
    rw [sweep_mono _ _ (by omega)]
    exact h

end GarbageCollector

namespace BTree

theorem erase_internal_of_search_none (cfg : BTreeConfig) (s : Manager) (key : Int) :
    ∀ (fuel node_offset : Nat), search_internal cfg s.mem fuel node_offset key = .ok none →
      erase_internal cfg fuel s node_offset key = (.ok false, s) := by
  intro fuel
  induction fuel with
  | zero => intro off h; simp [search_internal] at h
  | succ f ih =>
    intro off h
    unfold search_internal at h
    unfold erase_internal
    by_cases h0 : off = 0
    · simp [h0]
    · simp only [h0, if_false] at h ⊢
      by_cases hl : is_leaf s.mem off = true
      · simp only [hl, if_true] at h ⊢
        cases hf : find_in_leaf s.mem (get_leaf_entries off) key (key_count s.mem off) 0 with
        | none => simp [erase_leaf, hf]
        | some i => simp [hf] at h
      · simp only [hl, if_false] at h ⊢
        exact ih _ h

end BTree

/-! ## Bitmap words -/

theorem bit_set_eq_testBit (w b : Nat) : bit_set w b = w.testBit b := by
  unfold bit_set
  rw [Nat.one_shiftLeft]
  cases h : w.testBit b
  · have : w &&& 2 ^ b = 0 := by
      apply Nat.eq_of_testBit_eq
      intro i
      simp only [Nat.testBit_and, Nat.testBit_two_pow, Nat.zero_testBit]
      by_cases hi : b = i
      · subst hi; simp [h]
      · simp [hi]
    simp [this]
  · have : (w &&& 2 ^ b).testBit b = true := by
      simp [Nat.testBit_and, h, Nat.testBit_two_pow]
    have hne : w &&& 2 ^ b ≠ 0 := by
      intro h0
      rw [h0] at this
      simp at this
    simp [hne]

theorem testBit_not64 (x j : Nat) : (not64 x).testBit j = xor (x.testBit j) (decide (j < 64)) := by
  unfold not64
  have : (0xFFFFFFFFFFFFFFFF : Nat) = 2 ^ 64 - 1 := by norm_num
  rw [this, Nat.testBit_xor, Nat.testBit_two_pow_sub_one]

theorem testBit_clear_bit (w i j : Nat) (hw : w < 18446744073709551616) :
    (w &&& not64 (1 <<< i)).testBit j = (w.testBit j && !decide (i = j)) := by
  rw [Nat.testBit_and, testBit_not64, Nat.one_shiftLeft, Nat.testBit_two_pow]
  by_cases hj : j < 64
  · by_cases hij : i = j <;> simp [hj, hij]
  · have : w.testBit j = false := by
      apply Nat.testBit_lt_two_pow
      have : (2 : Nat) ^ 64 ≤ 2 ^ j := Nat.pow_le_pow_right (by norm_num) (by omega)
      have h3 : (18446744073709551616 : Nat) = 2 ^ 64 := by norm_num
      omega
    simp [this]

theorem testBit_set_bit (w i j : Nat) :
    (w ||| (1 <<< i)).testBit j = (w.testBit j || decide (i = j)) := by
  rw [Nat.testBit_or, Nat.one_shiftLeft, Nat.testBit_two_pow]

theorem clear_bit_lt (w i : Nat) (hw : w < 18446744073709551616) :
    w &&& not64 (1 <<< i) < 18446744073709551616 :=
  Nat.lt_of_le_of_lt Nat.and_le_left hw

namespace Manager

theorem bitmap_addr_eq (i : Nat) : bitmap_addr i = 64 + 8 * i := by
  unfold bitmap_addr BITMAP_OFFSET METADATA_SIZE align_to_8
  norm_num

theorem bitmap_word_lt (s : Manager) (i : Nat) : s.bitmap_word i < 18446744073709551616 :=
  rd64_lt _ _

theorem block_bit_eq (s : Manager) (b : Nat) :
    s.block_bit b = (s.bitmap_word (b / 64)).testBit (b % 64) := by
  unfold block_bit
  rw [bit_set_eq_testBit]

/-- Effect of `free_block` on the bitmap bits, for the offset of a block of the region. -/
theorem free_block_bit (s : Manager) (idx : Nat) (hbs : 0 < s.block_size)
    (hidx : idx < s.block_count) (b : Nat) :
    (s.free_block (idx * s.block_size)).block_bit b = (s.block_bit b && !decide (idx = b)) := by
  have hlt : idx * s.block_size < s.region_size := by
    unfold block_count at hidx
    have := Nat.div_mul_le_self s.region_size s.block_size
    have : (idx + 1) * s.block_size ≤ s.region_size / s.block_size * s.block_size :=
      Nat.mul_le_mul_right _ hidx
    have : (idx + 1) * s.block_size = idx * s.block_size + s.block_size := by ring
    omega
  have hdiv : idx * s.block_size / s.block_size = idx := Nat.mul_div_cancel _ hbs
  unfold free_block
  rw [if_neg (by omega)]
  simp only [hdiv]
  by_cases hset : bit_set (s.bitmap_word (idx / 64)) (idx % 64) = true
  · rw [if_pos hset]
    rw [block_bit_eq, block_bit_eq]
    unfold bitmap_word
    simp only
    by_cases hw : b / 64 = idx / 64
    · rw [hw, rd64_wr64_same, Nat.mod_eq_of_lt (clear_bit_lt _ _ (rd64_lt _ _)),
        testBit_clear_bit _ _ _ (rd64_lt _ _)]
      by_cases hb : idx = b
      · subst hb; simp
      · have : idx % 64 ≠ b % 64 := by omega
        simp [this, hb]
    · rw [rd64_wr64_other _ _ _ _ (by rw [bitmap_addr_eq, bitmap_addr_eq]; omega)]
      have : idx ≠ b := by intro h; subst h; exact hw rfl
      simp [this]
  · rw [if_neg hset]
    by_cases hb : idx = b
    · subst hb
      unfold block_bit
      simp only [Bool.not_eq_true] at hset
      simp [hset]
    · simp [hb]

theorem free_block_sizes (s : Manager) (offset : Nat) :
    (s.free_block offset).block_size = s.block_size ∧
    (s.free_block offset).region_size = s.region_size := by
  unfold free_block
  split
  · exact ⟨rfl, rfl⟩
  · simp only
    split <;> exact ⟨rfl, rfl⟩

/-- The only bytes `free_block` may change are those of the bitmap word of the block. -/
theorem free_block_mem (s : Manager) (offset x : Nat)
    (hx : x < bitmap_addr (offset / s.block_size / 64) ∨
      bitmap_addr (offset / s.block_size / 64) + 8 ≤ x) :
    (s.free_block offset).mem x = s.mem x := by
  unfold free_block
  split
  · rfl
  · simp only
    split
    · exact wr64_other _ _ _ _ hx
    · rfl

end Manager

/-! ## Sweep phase -/

namespace GarbageCollector

theorem foldl_fixed {α β : Type} (f : α → β → α) (a : α) (l : List β)
    (h : ∀ x ∈ l, f a x = a) : l.foldl f a = a := by
  induction l with
  | nil => rfl
  | cons x l ih =>
    simp only [List.foldl_cons]
    rw [h x (List.mem_cons_self _ _)]
    exact ih (fun y hy => h y (List.mem_cons_of_mem _ hy))

theorem sweep_word_spec (r : Nat → Bool) (s : Manager) (i word : Nat) (hbs : 0 < s.block_size)
    (hword : ∀ k, k < 64 → bit_set word k = s.block_bit (i * 64 + k)) :
    ∀ (k : Nat) (acc : Manager × Nat), k ≤ 64 → SweepInv r s (i * 64) acc.1 →
      SweepInv r s (i * 64 + k)
        ((List.range k).foldl (fun a bit =>
          if i * 64 + bit ≥ s.block_count then a
          else if bit_set word bit && !r (i * 64 + bit) then
            (a.1.free_block ((i * 64 + bit) * a.1.block_size), a.2 + 1)
          else a) acc).1 := by
  intro k
  induction k with
  | zero => intro acc _ h; simpa using h
  | succ k ih =>
    intro acc hk h
    rw [List.range_succ, List.foldl_append]
    have hprev := ih acc (by omega) h
    simp only [List.foldl_cons, List.foldl_nil]
    generalize (List.range k).foldl _ acc = a at hprev ⊢
    obtain ⟨h1, h2, h3, h4⟩ := hprev
    by_cases hn : i * 64 + k ≥ s.block_count
    · rw [if_pos hn]
      refine ⟨h1, h2, ?_, h4⟩
      intro b
      rw [h3 b]
      split_ifs <;> first | rfl | omega
    · rw [if_neg hn]
      have hcount : a.1.block_count = s.block_count := by
        unfold Manager.block_count; rw [h1, h2]
      have hcur : a.1.block_bit (i * 64 + k) = s.block_bit (i * 64 + k) := by
        rw [h3]; simp
      by_cases hc : (bit_set word k && !r (i * 64 + k)) = true
      · rw [if_pos hc]
        simp only
        have hfb := Manager.free_block_bit a.1 (i * 64 + k) (by rw [h1]; exact hbs)
          (by rw [hcount]; omega)
        have hsz := Manager.free_block_sizes a.1 ((i * 64 + k) * a.1.block_size)
        refine ⟨by rw [hsz.1, h1], by rw [hsz.2, h2], ?_, ?_⟩
        · intro b
          rw [hfb b, h3 b]
          simp only [Bool.and_eq_true, Bool.not_eq_true'] at hc
          by_cases hb : i * 64 + k = b
          · subst hb
            rw [if_neg (by omega), if_pos (by omega)]
            simp [hc.2]
          · split_ifs <;> first | omega | simp [hb]
        · intro x hx
          rw [Manager.free_block_mem a.1 _ x, h4 x hx]
          rw [Nat.mul_div_cancel _ (by rw [h1]; exact hbs), Manager.bitmap_addr_eq]
          omega
      · rw [if_neg hc]
        refine ⟨h1, h2, ?_, h4⟩
        intro b
        rw [h3 b]
        by_cases hb : i * 64 + k = b
        · subst hb
          rw [if_neg (by omega), if_pos (by omega)]
          rw [hword k (by omega)] at hc
          cases hsb : s.block_bit (i * 64 + k) <;> cases hr : r (i * 64 + k) <;> simp_all
        · split_ifs <;> first | rfl | omega

theorem sweep_inv (r : Nat → Bool) (s : Manager) (hbs : 0 < s.block_size) :
    ∀ (j : Nat), SweepInv r s (j * 64)
      ((List.range j).foldl (fun a i =>
        if a.1.bitmap_word i = 0 then a
        else sweep_word r s.block_count i (a.1.bitmap_word i) a) (s, 0)).1 := by
  intro j
  induction j with
  | zero =>
    refine ⟨rfl, rfl, ?_, fun _ _ => rfl⟩
    intro b; simp
  | succ j ih =>
    rw [List.range_succ, List.foldl_append]
    simp only [List.foldl_cons, List.foldl_nil]
    generalize (List.range j).foldl _ (s, 0) = a at ih ⊢
    have hword : ∀ k, k < 64 → bit_set (a.1.bitmap_word j) k = s.block_bit (j * 64 + k) := by
      intro k hk
      have := ih.2.2.1 (j * 64 + k)
      rw [if_neg (by omega)] at this
      rw [← this]
      unfold Manager.block_bit
      have e1 : (j * 64 + k) / 64 = j := by omega
      have e2 : (j * 64 + k) % 64 = k := by omega
      rw [e1, e2]
    by_cases hz : a.1.bitmap_word j = 0
    · rw [if_pos hz]
      obtain ⟨h1, h2, h3, h4⟩ := ih
      refine ⟨h1, h2, ?_, h4⟩
      intro b
      rw [h3 b]
      by_cases hb : b < j * 64
      · by_cases hb2 : b < s.block_count
        · rw [if_pos ⟨hb, hb2⟩, if_pos ⟨by omega, hb2⟩]
        · rw [if_neg (by omega), if_neg (by omega)]
      · rw [if_neg (by omega)]
        by_cases hb3 : b < (j + 1) * 64 ∧ b < s.block_count
        · rw [if_pos hb3]
          have hk := hword (b - j * 64) (by omega)
          rw [hz] at hk
          have e : j * 64 + (b - j * 64) = b := by omega
          rw [e] at hk
          rw [← hk]
          simp [bit_set]
        · rw [if_neg hb3]
    · rw [if_neg hz]
      have := sweep_word_spec r s j (a.1.bitmap_word j) hbs hword 64 a (le_refl _) ih
      have e : (j + 1) * 64 = j * 64 + 64 := by ring
      rw [e]
      exact this

/-- After the sweep a block of the region is allocated iff it was allocated and marked. -/
theorem sweep_spec (r : Nat → Bool) (s : Manager) (hbs : 0 < s.block_size) :
    (sweep r s).1.block_size = s.block_size ∧ (sweep r s).1.region_size = s.region_size ∧
    (∀ b, b < s.block_count → (sweep r s).1.block_bit b = (s.block_bit b && r b)) ∧
    (∀ b, s.block_count ≤ b → (sweep r s).1.block_bit b = s.block_bit b) ∧
    (∀ x, x < 64 ∨ 64 + 8 * ((s.block_count + 63) / 64) ≤ x → (sweep r s).1.mem x = s.mem x) := by
  obtain ⟨h1, h2, h3, h4⟩ := sweep_inv r s hbs ((s.block_count + 63) / 64)
  refine ⟨h1, h2, ?_, ?_, h4⟩
  · intro b hb
    have := h3 b
    rw [if_pos ⟨by omega, hb⟩] at this
    exact this
  · intro b hb
    have := h3 b
    rw [if_neg (by omega)] at this
    exact this

/-- A sweep with every allocated block of the region marked frees nothing. -/
theorem sweep_noop (r : Nat → Bool) (s : Manager)
    (h : ∀ b, b < s.block_count → s.block_bit b = true → r b = true) :
    sweep r s = (s, 0) := by
  unfold sweep
  apply foldl_fixed
  intro i _
  simp only
  split
  · rfl
  · unfold sweep_word
    apply foldl_fixed
    intro bit hbit
    simp only
    have hbit64 : bit < 64 := List.mem_range.mp hbit
    split
    · rfl
    · rename_i hn
      have hb : s.block_bit (i * 64 + bit) = bit_set (s.bitmap_word i) bit := by
        unfold Manager.block_bit
        have e1 : (i * 64 + bit) / 64 = i := by omega
        have e2 : (i * 64 + bit) % 64 = bit := by omega
        rw [e1, e2]
      have := h (i * 64 + bit) (by omega)
      rw [hb] at this
      cases hs : bit_set (s.bitmap_word i) bit
      · simp
      · simp [this hs]

end GarbageCollector

/-! ## Mark phase -/

namespace GarbageCollector

theorem push_loop_spec (m : Mem) (children : Nat) (stack : List Nat) (P : Nat → Prop)
    (hst : ∀ o ∈ stack, P o) :
    ∀ (k : Nat), (∀ i, i < k → rd64 m (children + 8 * i) ≠ 0 → P (rd64 m (children + 8 * i))) →
      (∀ o ∈ (List.range k).foldl (fun st i =>
          if rd64 m (children + 8 * i) ≠ 0 then rd64 m (children + 8 * i) :: st else st) stack,
        P o) ∧
      ((List.range k).foldl (fun st i =>
          if rd64 m (children + 8 * i) ≠ 0 then rd64 m (children + 8 * i) :: st else st)
        stack).length ≤ stack.length + k := by
  intro k
  induction k with
  | zero => intro _; exact ⟨by simpa using hst, by simp⟩
  | succ c ih =>
    intro hch
    rw [List.range_succ, List.foldl_append]
    have := ih (fun i hi => hch i (by omega))
    simp only [List.foldl_cons, List.foldl_nil]
    generalize (List.range c).foldl _ stack = st at this ⊢
    split
    · constructor
      · intro o ho
        rcases List.mem_cons.mp ho with h | h
        · rw [h]; exact hch c (by omega) (by assumption)
        · exact this.1 o h
      · simp only [List.length_cons]; omega
    · exact ⟨this.1, by omega⟩

theorem push_children_spec (m : Mem) (children count : Nat) (stack : List Nat) (P : Nat → Prop)
    (hst : ∀ o ∈ stack, P o)
    (hch : ∀ i, i ≤ count → rd64 m (children + 8 * i) ≠ 0 → P (rd64 m (children + 8 * i))) :
    (∀ o ∈ push_children m children count stack, P o) ∧
    (push_children m children count stack).length ≤ stack.length + (count + 1) :=
  push_loop_spec m children stack P hst (count + 1) (fun i hi => hch i (by omega))

theorem unmarked_set (n idx : Nat) (r : Nat → Bool) (hidx : idx < n) (hr : r idx = false) :
    unmarked n (fun b => if b = idx then true else r b) + 1 = unmarked n r := by
  unfold unmarked
  induction n with
  | zero => omega
  | succ n ih =>
    rw [List.range_succ, List.countP_append, List.countP_append]
    by_cases hn : idx = n
    · subst hn
      have : (List.range idx).countP (fun b => !(if b = idx then true else r b)) =
          (List.range idx).countP (fun b => !r b) := by
        apply List.countP_congr
        intro b hb
        have : b ≠ idx := by have := List.mem_range.mp hb; omega
        simp [this]
      rw [this]
      simp [hr]
    · have := ih (by omega)
      have hne : ¬ n = idx := by omega
      simp only [List.countP_cons, List.countP_nil, hne, if_false]
      beta_reduce at this
      omega

/-- One round keeps the stack linked and the marks justified, and uses up potential. -/
theorem mark_step_spec (m : Mem) (bs n mk lc root offset : Nat) (st : MarkState)
    (hoff : Linked m bs n mk lc root offset)
    (hst : ∀ o ∈ st.stack, Linked m bs n mk lc root o)
    (hr : ∀ b, st.reachable b = true → b < n ∧ ∃ o, Linked m bs n mk lc root o ∧ o / bs = b) :
    (∀ o ∈ (mark_step m bs n mk lc offset st).stack, Linked m bs n mk lc root o) ∧
    (∀ b, (mark_step m bs n mk lc offset st).reachable b = true →
      b < n ∧ ∃ o, Linked m bs n mk lc root o ∧ o / bs = b) ∧
    (mark_step m bs n mk lc offset st).stack.length +
        4294967296 * unmarked n (mark_step m bs n mk lc offset st).reachable ≤
      st.stack.length + 4294967296 * unmarked n st.reachable := by
  unfold mark_step
  simp only
  split
  · exact ⟨hst, hr, le_refl _⟩
  · rename_i hlt
    split
    · exact ⟨hst, hr, le_refl _⟩
    · rename_i hnr
      have hun := unmarked_set n (offset / bs) st.reachable (by omega) (by simpa using hnr)
      refine ⟨?_, ?_, ?_⟩
      · simp only
        split
        · rename_i hleaf
          split
          · rename_i hnext
            intro o ho
            rcases List.mem_cons.mp ho with h | h
            · rw [h]; exact Linked.next offset hoff (by omega) hleaf hnext
            · exact hst o h
          · exact hst
        · rename_i hleaf
          exact (push_children_spec m _ _ st.stack _ hst
            (fun i hi hne => Linked.child offset i hoff (by omega) (by simpa using hleaf) hi hne)).1
      · intro b hb
        simp only at hb
        by_cases hbe : b = offset / bs
        · exact ⟨by omega, offset, hoff, hbe.symm⟩
        · rw [if_neg hbe] at hb
          exact hr b hb
      · simp only
        split
        · split
          · simp only [List.length_cons]; omega
          · omega
        · have := (push_children_spec m (BTree.get_internal_children offset mk)
            (BTree.key_count m offset) st.stack (fun _ => True) (fun _ _ => trivial)
            (fun _ _ _ => trivial)).2
          have hk : BTree.key_count m offset < 4294967296 := rd32_lt _ _
          omega

theorem mark_loop_spec (m : Mem) (bs n mk lc root : Nat) :
    ∀ (fuel : Nat) (st : MarkState),
      (∀ o ∈ st.stack, Linked m bs n mk lc root o) →
      (∀ b, st.reachable b = true → b < n ∧ ∃ o, Linked m bs n mk lc root o ∧ o / bs = b) →
      (∀ b, (mark_loop m bs n mk lc fuel st).reachable b = true →
        b < n ∧ ∃ o, Linked m bs n mk lc root o ∧ o / bs = b) ∧
      (st.stack.length + 4294967296 * unmarked n st.reachable ≤ fuel →
        (mark_loop m bs n mk lc fuel st).stack = []) := by
  intro fuel
  induction fuel with
  | zero =>
    intro st _ hr
    refine ⟨hr, ?_⟩
    intro h
    unfold mark_loop
    exact List.length_eq_zero.mp (by omega)
  | succ f ih =>
    intro st hst hr
    unfold mark_loop
    cases hs : st.stack with
    | nil => exact ⟨hr, fun _ => hs⟩
    | cons offset rest =>
      simp only
      have hst' : ∀ o ∈ ({ st with stack := rest } : MarkState).stack,
          Linked m bs n mk lc root o := by
        intro o ho
        exact hst o (by rw [hs]; exact List.mem_cons_of_mem _ ho)
      have hoff : Linked m bs n mk lc root offset := hst offset (by rw [hs]; simp)
      have step := mark_step_spec m bs n mk lc root offset { st with stack := rest } hoff hst' hr
      have := ih _ step.1 step.2.1
      refine ⟨this.1, ?_⟩
      intro hfuel
      apply this.2
      have h3 := step.2.2
      simp only [List.length_cons] at hfuel
      simp only at h3
      omega

/-- The mark phase of `collect` runs until the stack is empty and marks only
blocks of linked offsets. -/
theorem mark_spec (s : Manager) (root mk lc : Nat) :
    (mark s root mk lc).stack = [] ∧
    (∀ b, (mark s root mk lc).reachable b = true →
      b < s.block_count ∧
      ∃ o, Linked s.mem s.block_size s.block_count mk lc root o ∧ o / s.block_size = b) := by
  unfold mark
  have hst : ∀ o ∈ (if root ≠ 0 then [root] else []),
      Linked s.mem s.block_size s.block_count mk lc root o := by
    intro o ho
    split at ho
    · rename_i h
      rw [List.mem_singleton.mp ho]
      exact Linked.root h
    · simp at ho
  have := mark_loop_spec s.mem s.block_size s.block_count mk lc root (mark_rounds s.block_count)
    { stack := if root ≠ 0 then [root] else [], reachable := fun _ => false, marked_count := 0 }
    hst (by intro b hb; simp at hb)
  refine ⟨this.2 ?_, this.1⟩
  simp only
  have h1 : (if root ≠ 0 then [root] else []).length ≤ 1 := by split <;> simp
  have h2 : unmarked s.block_count (fun _ => false) ≤ s.block_count := by
    unfold unmarked
    exact le_trans (List.countP_le_length _) (le_of_eq (List.length_range _))
  unfold mark_rounds
  omega

end GarbageCollector

/-! ## Collector runs -/

namespace GarbageCollector

theorem align_to_8_ge (x : Nat) : x ≤ align_to_8 x := by
  unfold align_to_8; omega

theorem get_leaf_next_ge (o lc : Nat) : o + 16 + 8 * lc ≤ BTree.get_leaf_next o lc := by
  unfold BTree.get_leaf_next BTree.get_leaf_entries align_to_8; omega

theorem get_internal_children_ge (o mk : Nat) :
    o + 16 + 4 * mk ≤ BTree.get_internal_children o mk := by
  unfold BTree.get_internal_children BTree.get_internal_keys align_to_8; omega

theorem update_persistent_checksum_bit (s : Manager) (b : Nat) :
    s.update_persistent_checksum.block_bit b = s.block_bit b := by
  unfold Manager.block_bit Manager.bitmap_word Manager.update_persistent_checksum
  simp only
  rw [rd64_wr64_other _ _ _ _ (by rw [Manager.bitmap_addr_eq]; unfold OFF_CHECKSUM; omega)]

/-- Bits of the region's blocks after `collect`: allocated before and marked. -/
theorem collect_bit (s : Manager) (root mk lc b : Nat) (hbs : 0 < s.block_size)
    (hb : b < s.block_count) :
    (collect s root mk lc).1.block_bit b = (s.block_bit b && (collect s root mk lc).2.reachable b) := by
  unfold collect
  simp only
  have := (sweep_spec (mark s root mk lc).reachable s hbs).2.2.1 b hb
  split
  · rw [update_persistent_checksum_bit, this]
  · exact this

/-- What `collect` leaves of the manager: sizes, and every byte outside checksum
field and bitmap. -/
theorem collect_frame (s : Manager) (root mk lc : Nat) (hbs : 0 < s.block_size) :
    (collect s root mk lc).1.block_size = s.block_size ∧
    (collect s root mk lc).1.region_size = s.region_size ∧
    (∀ x, x < 56 ∨ 64 + 8 * ((s.block_count + 63) / 64) ≤ x →
      (collect s root mk lc).1.mem x = s.mem x) := by
  unfold collect
  simp only
  obtain ⟨h1, h2, _, _, h5⟩ := sweep_spec (mark s root mk lc).reachable s hbs
  split
  · refine ⟨h1, h2, ?_⟩
    intro x hx
    show wr64 _ OFF_CHECKSUM _ x = s.mem x
    rw [wr64_other _ _ _ _ (by unfold OFF_CHECKSUM; omega)]
    exact h5 x (by omega)
  · exact ⟨h1, h2, fun x hx => h5 x (by omega)⟩

theorem push_children_congr (m m' : Mem) (children count : Nat) (stack : List Nat)
    (h : ∀ x, children ≤ x → m' x = m x) :
    push_children m' children count stack = push_children m children count stack := by
  unfold push_children
  apply List.foldl_ext
  intro st i _
  rw [rd64_congr m' m (children + 8 * i) (fun x h1 _ => h x (by omega))]

theorem mark_step_congr (m m' : Mem) (bs n mk lc lo offset : Nat) (st : MarkState)
    (h : ∀ x, lo ≤ x → m' x = m x) (hoff : offset / bs < n → lo ≤ offset) :
    mark_step m' bs n mk lc offset st = mark_step m bs n mk lc offset st := by
  unfold mark_step
  simp only
  by_cases hlt : offset / bs ≥ n
  · rw [if_pos hlt, if_pos hlt]
  · rw [if_neg hlt, if_neg hlt]
    have hlo : lo ≤ offset := hoff (by omega)
    have e1 : BTree.is_leaf m' offset = BTree.is_leaf m offset := by
      unfold BTree.is_leaf
      rw [rd8_congr m' m offset (h offset hlo)]
    have hn := get_leaf_next_ge offset lc
    have hc := get_internal_children_ge offset mk
    have e2 : rd64 m' (BTree.get_leaf_next offset lc) = rd64 m (BTree.get_leaf_next offset lc) := by
      apply rd64_congr
      intro x h1 _
      apply h
      omega
    have e3 : BTree.key_count m' offset = BTree.key_count m offset := by
      unfold BTree.key_count
      exact rd32_congr _ _ _ (fun x h1 _ => h x (by omega))
    have e4 : ∀ stack, push_children m' (BTree.get_internal_children offset mk)
        (BTree.key_count m' offset) stack =
        push_children m (BTree.get_internal_children offset mk) (BTree.key_count m offset) stack := by
      intro stack
      rw [e3]
      apply push_children_congr
      intro x hx
      apply h
      omega
    rw [e1, e2, e4]

theorem mark_loop_congr (m m' : Mem) (bs n mk lc root lo : Nat)
    (h : ∀ x, lo ≤ x → m' x = m x)
    (hlink : ∀ o, Linked m bs n mk lc root o → o / bs < n → lo ≤ o) :
    ∀ (fuel : Nat) (st : MarkState),
      (∀ o ∈ st.stack, Linked m bs n mk lc root o) →
      (∀ b, st.reachable b = true → b < n ∧ ∃ o, Linked m bs n mk lc root o ∧ o / bs = b) →
      mark_loop m' bs n mk lc fuel st = mark_loop m bs n mk lc fuel st := by
  intro fuel
  induction fuel with
  | zero => intro st _ _; rfl
  | succ f ih =>
    intro st hst hr
    unfold mark_loop
    cases hs : st.stack with
    | nil => rfl
    | cons offset rest =>
      simp only
      have hst' : ∀ o ∈ ({ st with stack := rest } : MarkState).stack,
          Linked m bs n mk lc root o := by
        intro o ho
        exact hst o (by rw [hs]; exact List.mem_cons_of_mem _ ho)
      have hoff : Linked m bs n mk lc root offset := hst offset (by rw [hs]; simp)
      have step := mark_step_spec m bs n mk lc root offset { st with stack := rest } hoff hst' hr
      rw [mark_step_congr m m' bs n mk lc lo offset _ h (hlink offset hoff)]
      exact ih _ step.1 step.2.1

/-- A second `collect` right after the first frees nothing and changes nothing,
when every linked node lies behind the bitmap. -/
theorem collect_twice (s : Manager) (root mk lc : Nat) (hbs : 0 < s.block_size)
    (hlink : ∀ o, Linked s.mem s.block_size s.block_count mk lc root o →
      o / s.block_size < s.block_count → 64 + 8 * ((s.block_count + 63) / 64) ≤ o) :
    (collect (collect s root mk lc).1 root mk lc).2.freed_count = 0 ∧
    (collect (collect s root mk lc).1 root mk lc).1 = (collect s root mk lc).1 := by
  obtain ⟨f1, f2, f3⟩ := collect_frame s root mk lc hbs
  have hcount : (collect s root mk lc).1.block_count = s.block_count := by
    unfold Manager.block_count; rw [f1, f2]
  have hmark : mark (collect s root mk lc).1 root mk lc = mark s root mk lc := by
    unfold mark
    rw [hcount, f1]
    apply mark_loop_congr s.mem _ _ _ _ _ root (64 + 8 * ((s.block_count + 63) / 64))
      (fun x hx => f3 x (Or.inr hx)) hlink
    · intro o ho
      split at ho
      · rename_i h
        rw [List.mem_singleton.mp ho]
        exact Linked.root h
      · simp at ho
    · intro b hb; simp at hb
  have hsweep : sweep (mark s root mk lc).reachable (collect s root mk lc).1 =
      ((collect s root mk lc).1, 0) := by
    apply sweep_noop
    intro b hb hbit
    rw [hcount] at hb
    rw [collect_bit s root mk lc b hbs hb] at hbit
    simp only [Bool.and_eq_true] at hbit
    exact hbit.2
  constructor
  · show (sweep (mark (collect s root mk lc).1 root mk lc).reachable (collect s root mk lc).1).2 = 0
    rw [hmark, hsweep]
  · show (if (sweep (mark (collect s root mk lc).1 root mk lc).reachable
        (collect s root mk lc).1).2 > 0 then _ else _) = _
    rw [hmark, hsweep]
    simp

end GarbageCollector

/-! ## Frames of stores -/

theorem rd8_wr8_same (m : Mem) (a v : Nat) : rd8 (wr8 m a v) a = v % 256 := by
  unfold rd8; rw [wr8_same]; omega

theorem rd8_wr8_other (m : Mem) (a v b : Nat) (h : b ≠ a) : rd8 (wr8 m a v) b = rd8 m b :=
  rd8_congr _ _ _ (wr8_other m a v b h)

theorem rd8_wr32_other (m : Mem) (a v b : Nat) (h : b < a ∨ a + 4 ≤ b) :
    rd8 (wr32 m a v) b = rd8 m b :=
  rd8_congr _ _ _ (wr32_other m a v b h)

theorem rd8_wr64_other (m : Mem) (a v b : Nat) (h : b < a ∨ a + 8 ≤ b) :
    rd8 (wr64 m a v) b = rd8 m b :=
  rd8_congr _ _ _ (wr64_other m a v b h)

theorem rd32_wr8_other (m : Mem) (a v b : Nat) (h : a < b ∨ b + 4 ≤ a) :
    rd32 (wr8 m a v) b = rd32 m b :=
  rd32_congr _ _ _ (fun x _ _ => wr8_other m a v x (by omega))

theorem rd32_wr64_other (m : Mem) (a v b : Nat) (h : b + 4 ≤ a ∨ a + 8 ≤ b) :
    rd32 (wr64 m a v) b = rd32 m b :=
  rd32_congr _ _ _ (fun x _ _ => wr64_other m a v x (by omega))

theorem rd64_wr8_other (m : Mem) (a v b : Nat) (h : a < b ∨ b + 8 ≤ a) :
    rd64 (wr8 m a v) b = rd64 m b :=
  rd64_congr _ _ _ (fun x _ _ => wr8_other m a v x (by omega))

theorem rd64_wr32_other (m : Mem) (a v b : Nat) (h : b + 8 ≤ a ∨ a + 4 ≤ b) :
    rd64 (wr32 m a v) b = rd64 m b :=
  rd64_congr _ _ _ (fun x _ _ => wr32_other m a v x (by omega))

theorem wrI32_other (m : Mem) (a : Nat) (k : Int) (x : Nat) (h : x < a ∨ a + 4 ≤ x) :
    wrI32 m a k x = m x :=
  wr32_other _ _ _ _ h

namespace BTree

theorem write_entry_other (m : Mem) (p : Nat) (e : LeafEntry) (x : Nat) (h : x < p ∨ p + 8 ≤ x) :
    write_entry m p e x = m x := by
  unfold write_entry
  rw [wrI32_other _ _ _ _ (by omega), wrI32_other _ _ _ _ (by omega)]

theorem read_entry_congr (m m' : Mem) (p : Nat) (h : ∀ x, p ≤ x → x < p + 8 → m x = m' x) :
    read_entry m p = read_entry m' p := by
  unfold read_entry
  rw [rdI32_congr m m' p (fun x h1 h2 => h x h1 (by omega)),
    rdI32_congr m m' (p + 4) (fun x h1 h2 => h x (by omega) (by omega))]

theorem read_entry_write_entry (m : Mem) (p : Nat) (e : LeafEntry) (hk : isInt32 e.key)
    (hv : isInt32 e.value) : read_entry (write_entry m p e) p = e := by
  unfold read_entry write_entry
  have h1 : rdI32 (wrI32 (wrI32 m p e.key) (p + 4) e.value) p = e.key := by
    rw [rdI32_congr _ (wrI32 m p e.key) p (fun x _ _ => wrI32_other _ _ _ _ (by omega))]
    exact rdI32_wrI32_same _ _ _ hk
  rw [h1, rdI32_wrI32_same _ _ _ hv]

theorem read_entry_int32 (m : Mem) (p : Nat) :
    isInt32 (read_entry m p).key ∧ isInt32 (read_entry m p).value :=
  ⟨isInt32_rdI32 _ _, isInt32_rdI32 _ _⟩

theorem write_entries_other (es : List LeafEntry) :
    ∀ (m : Mem) (p x : Nat), x < p ∨ p + 8 * es.length ≤ x → write_entries m p es x = m x := by
  induction es with
  | nil => intro m p x _; rfl
  | cons e es ih =>
    intro m p x h
    unfold write_entries
    simp only [List.length_cons] at h
    rw [ih _ _ _ (by omega), write_entry_other _ _ _ _ (by omega)]

theorem read_write_entries (es : List LeafEntry) :
    ∀ (m : Mem) (p i : Nat) (hi : i < es.length),
      (∀ e ∈ es, isInt32 e.key ∧ isInt32 e.value) →
      read_entry (write_entries m p es) (p + 8 * i) = es.get ⟨i, hi⟩ := by
  induction es with
  | nil => intro m p i hi; simp at hi
  | cons e es ih =>
    intro m p i hi hint
    unfold write_entries
    cases i with
    | zero =>
      simp only [Nat.mul_zero, Nat.add_zero, List.get_eq_getElem, List.getElem_cons_zero]
      rw [read_entry_congr _ (write_entry m p e) p
        (fun x _ _ => write_entries_other es _ _ _ (by omega))]
      exact read_entry_write_entry _ _ _ (hint e (List.mem_cons_self _ _)).1
        (hint e (List.mem_cons_self _ _)).2
    | succ j =>
      have := ih (write_entry m p e) (p + 8) j (by simpa using hi)
        (fun e' he' => hint e' (List.mem_cons_of_mem _ he'))
      have e1 : p + 8 * (j + 1) = p + 8 + 8 * j := by ring
      rw [e1, this]
      simp

theorem persist_node_mem (s : Manager) (node x : Nat)
    (h : (x < node + 8 ∨ node + 12 ≤ x) ∧ (x < 56 ∨ 64 ≤ x)) :
    (persist_node s node).mem x = s.mem x := by
  unfold persist_node Manager.update_persistent_checksum
  simp only
  rw [wr64_other _ _ _ _ (by unfold OFF_CHECKSUM; omega), wr32_other _ _ _ _ (by omega)]

theorem persist_node_sizes (s : Manager) (node : Nat) :
    (persist_node s node).block_size = s.block_size ∧
    (persist_node s node).region_size = s.region_size ∧
    (persist_node s node).allocated_blocks = s.allocated_blocks :=
  ⟨rfl, rfl, rfl⟩

end BTree

/-! ## Allocation -/

theorem ctz_loop_spec : ∀ (fuel x : Nat), x ≠ 0 → x < 2 ^ fuel →
    ctz_loop fuel x < fuel ∧ x.testBit (ctz_loop fuel x) = true ∧
    ∀ j, j < ctz_loop fuel x → x.testBit j = false := by
  intro fuel
  induction fuel with
  | zero => intro x h0 h1; simp at h1; omega
  | succ f ih =>
    intro x h0 h1
    unfold ctz_loop
    by_cases hodd : x % 2 = 1
    · rw [if_pos hodd]
      refine ⟨by omega, ?_, fun j hj => by omega⟩
      rw [Nat.testBit_zero]; simp [hodd]
    · rw [if_neg hodd]
      have hx2 : x / 2 ≠ 0 := by omega
      have hlt : x / 2 < 2 ^ f := by
        rw [Nat.pow_succ] at h1; omega
      obtain ⟨i1, i2, i3⟩ := ih (x / 2) hx2 hlt
      refine ⟨by omega, ?_, ?_⟩
      · have e : 1 + ctz_loop f (x / 2) = ctz_loop f (x / 2) + 1 := by omega
        rw [e, Nat.testBit_succ]; exact i2
      · intro j hj
        cases j with
        | zero => rw [Nat.testBit_zero]; simp; omega
        | succ j => rw [Nat.testBit_succ]; exact i3 j (by omega)

theorem not64_lt (w : Nat) (h : w < 18446744073709551616) : not64 w < 18446744073709551616 := by
  unfold not64
  have h3 : (18446744073709551616 : Nat) = 2 ^ 64 := by norm_num
  rw [h3] at h ⊢
  exact Nat.xor_lt_two_pow h (by norm_num)

theorem not64_ne_zero (w : Nat) (h : w ≠ 0xFFFFFFFFFFFFFFFF) : not64 w ≠ 0 := by
  intro h0
  apply h
  apply Nat.eq_of_testBit_eq
  intro j
  have := testBit_not64 w j
  rw [h0] at this
  simp only [Nat.zero_testBit] at this
  have key : w.testBit j = decide (j < 64) := by
    revert this
    cases w.testBit j <;> cases decide (j < 64) <;> simp
  have e : (0xFFFFFFFFFFFFFFFF : Nat) = 2 ^ 64 - 1 := by norm_num
  rw [e, Nat.testBit_two_pow_sub_one]
  exact key

/-- The bit index picked by `alloc_block` in a word that is not all ones. -/
theorem countr_zero_not64 (w : Nat) (hw : w < 18446744073709551616)
    (h : w ≠ 0xFFFFFFFFFFFFFFFF) :
    countr_zero (not64 w) < 64 ∧ w.testBit (countr_zero (not64 w)) = false ∧
    ∀ j, j < countr_zero (not64 w) → w.testBit j = true := by
  have h3 : (18446744073709551616 : Nat) = 2 ^ 64 := by norm_num
  obtain ⟨c1, c2, c3⟩ := ctz_loop_spec 64 (not64 w) (not64_ne_zero w h)
    (by have := not64_lt w hw; omega)
  unfold countr_zero
  refine ⟨c1, ?_, ?_⟩
  · rw [testBit_not64] at c2
    simp only [c1, decide_True, Bool.xor_true, Bool.not_eq_true'] at c2
    exact c2
  · intro j hj
    have := c3 j hj
    rw [testBit_not64] at this
    have hj64 : j < 64 := by omega
    simp only [hj64, decide_True, Bool.xor_true, Bool.not_eq_false'] at this
    exact this

namespace Manager

theorem first_free_word_spec (s : Manager) :
    ∀ (n i j : Nat), first_free_word s n i = some j →
      i ≤ j ∧ j < i + n ∧ s.bitmap_word j ≠ 0xFFFFFFFFFFFFFFFF ∧
      ∀ k, i ≤ k → k < j → s.bitmap_word k = 0xFFFFFFFFFFFFFFFF := by
  intro n
  induction n with
  | zero => intro i j h; simp [first_free_word] at h
  | succ n ih =>
    intro i j h
    unfold first_free_word at h
    by_cases hw : s.bitmap_word i ≠ 0xFFFFFFFFFFFFFFFF
    · rw [if_pos hw] at h
      simp only [Option.some.injEq] at h
      subst h
      exact ⟨le_refl _, by omega, hw, fun k h1 h2 => by omega⟩
    · rw [if_neg hw] at h
      obtain ⟨h1, h2, h3, h4⟩ := ih (i + 1) j h
      refine ⟨by omega, by omega, h3, ?_⟩
      intro k hk1 hk2
      by_cases hki : k = i
      · subst hki; simpa using hw
      · exact h4 k (by omega) hk2

theorem first_free_word_none (s : Manager) :
    ∀ (n i : Nat), first_free_word s n i = none →
      ∀ k, i ≤ k → k < i + n → s.bitmap_word k = 0xFFFFFFFFFFFFFFFF := by
  intro n
  induction n with
  | zero => intro i _ k h1 h2; omega
  | succ n ih =>
    intro i h k h1 h2
    unfold first_free_word at h
    by_cases hw : s.bitmap_word i ≠ 0xFFFFFFFFFFFFFFFF
    · rw [if_pos hw] at h; simp at h
    · rw [if_neg hw] at h
      by_cases hki : k = i
      · subst hki; simpa using hw
      · exact ih (i + 1) h k (by omega) (by omega)

theorem bitmap_word_mk (m : Mem) (rs bs al i : Nat) :
    (Manager.mk m rs bs al).bitmap_word i = rd64 m (bitmap_addr i) := rfl

/-- A successful `alloc_block`: the offset is that of a block of the region whose
bit was clear, exactly that bit is set, and nothing outside the bitmap changes. -/
theorem alloc_block_ok (s s' : Manager) (off : Nat) (h : s.alloc_block = (.ok off, s')) :
    ∃ b, off = b * s.block_size ∧ b < s.block_count ∧ s.block_bit b = false ∧
      (∀ b', s'.block_bit b' = (s.block_bit b' || decide (b = b'))) ∧
      (∀ b', b' < b → s.block_bit b' = true) ∧
      s'.block_size = s.block_size ∧ s'.region_size = s.region_size ∧
      s'.allocated_blocks = s.allocated_blocks + 1 ∧
      (∀ x, x < 64 ∨ 64 + 8 * ((s.block_count + 63) / 64) ≤ x → s'.mem x = s.mem x) := by
  unfold alloc_block at h
  split at h
  · simp at h
  · rename_i i hi
    obtain ⟨_, f2, f3, f4⟩ := first_free_word_spec s _ _ _ hi
    obtain ⟨c1, c2, c3⟩ := countr_zero_not64 (s.bitmap_word i) (bitmap_word_lt s i) f3
    simp only at h
    generalize countr_zero (not64 (s.bitmap_word i)) = c at *
    split at h
    · simp at h
    · rename_i hlt
      simp only [Prod.mk.injEq, Except.ok.injEq] at h
      obtain ⟨h1, h2⟩ := h
      subst h2
      refine ⟨i * 64 + c, h1.symm, by omega, ?_, ?_, ?_, rfl, rfl, rfl, ?_⟩
      · rw [block_bit_eq]
        have e1 : (i * 64 + c) / 64 = i := by omega
        have e2 : (i * 64 + c) % 64 = c := by omega
        rw [e1, e2]; exact c2
      · intro b'
        rw [block_bit_eq, block_bit_eq, bitmap_word_mk]
        by_cases hw : b' / 64 = i
        · rw [hw, rd64_wr64_same, Nat.mod_eq_of_lt, testBit_set_bit]
          · have hd : (c = b' % 64) ↔ (i * 64 + c = b') := by omega
            rw [decide_eq_decide.mpr hd]
          · have h3 : (18446744073709551616 : Nat) = 2 ^ 64 := by norm_num
            rw [h3]
            apply Nat.or_lt_two_pow
            · have := bitmap_word_lt s i; omega
            · rw [Nat.one_shiftLeft]
              exact Nat.pow_lt_pow_right (by norm_num) c1
        · rw [rd64_wr64_other _ _ _ _ (by rw [bitmap_addr_eq, bitmap_addr_eq]; omega)]
          have hd : decide (i * 64 + c = b') = false := decide_eq_false (by omega)
          rw [hd, Bool.or_false]
          rfl
      · intro b' hb'
        rw [block_bit_eq]
        by_cases hw : b' / 64 = i
        · rw [hw]; exact c3 _ (by omega)
        · have := f4 (b' / 64) (by omega) (by omega)
          rw [this]
          have e : (0xFFFFFFFFFFFFFFFF : Nat) = 2 ^ 64 - 1 := by norm_num
          rw [e, Nat.testBit_two_pow_sub_one]
          simp; omega
      · intro x hx
        show wr64 s.mem (bitmap_addr i) _ x = s.mem x
        rw [wr64_other _ _ _ _ (by rw [bitmap_addr_eq]; unfold bitmap_size_words calculate_bitmap_words at f2; omega)]

end Manager

/-! ## Views of a node and their frames -/

namespace BTree

theorem nodeFits_bounds (cfg : BTreeConfig) (bs off : Nat) (h : NodeFits cfg bs off) :
    off + 24 + 8 * cfg.leaf_capacity ≤ off + bs ∧
    off + 16 + 4 * cfg.max_keys ≤ get_internal_children off cfg.max_keys ∧
    get_internal_children off cfg.max_keys + 8 * (cfg.max_keys + 1) ≤ off + bs ∧
    off + 16 + 8 * cfg.leaf_capacity ≤ get_leaf_next off cfg.leaf_capacity ∧
    get_leaf_next off cfg.leaf_capacity + 8 ≤ off + bs := by
  have h1 := GarbageCollector.get_leaf_next_ge off cfg.leaf_capacity
  have h2 := GarbageCollector.get_internal_children_ge off cfg.max_keys
  unfold NodeFits at h
  omega

theorem is_leaf_congr (m m' : Mem) (off : Nat) (h : m' off = m off) :
    is_leaf m' off = is_leaf m off := by
  unfold is_leaf; rw [rd8_congr m' m off h]

theorem key_count_congr (m m' : Mem) (off : Nat)
    (h : ∀ x, off + 4 ≤ x → x < off + 8 → m' x = m x) : key_count m' off = key_count m off := by
  unfold key_count; exact rd32_congr _ _ _ h

theorem leaf_entries_congr (m m' : Mem) (off : Nat)
    (h : ∀ x, off + 4 ≤ x → x < off + 16 + 8 * key_count m off → m' x = m x) :
    leaf_entries m' off = leaf_entries m off := by
  have hk : key_count m' off = key_count m off :=
    key_count_congr _ _ _ (fun x h1 h2 => h x h1 (by omega))
  unfold leaf_entries
  rw [hk]
  apply List.map_congr_left
  intro i hi
  have := List.mem_range.mp hi
  apply read_entry_congr
  intro x h1 h2
  unfold get_leaf_entries at h1 h2
  exact h x (by omega) (by omega)

theorem child_congr (cfg : BTreeConfig) (m m' : Mem) (off i : Nat)
    (h : ∀ x, get_internal_children off cfg.max_keys + 8 * i ≤ x →
      x < get_internal_children off cfg.max_keys + 8 * i + 8 → m' x = m x) :
    child cfg m' off i = child cfg m off i := by
  unfold child; exact rd64_congr _ _ _ h

theorem lower_bound_congr (m m' : Mem) (off : Nat) (lo : Int) (i : Nat)
    (h : ∀ x, off + 16 ≤ x → x < off + 16 + 4 * i → m' x = m x) :
    lower_bound m' off lo i = lower_bound m off lo i := by
  unfold lower_bound get_internal_keys
  split
  · rfl
  · exact rdI32_congr _ _ _ (fun x h1 h2 => h x (by omega) (by omega))

theorem upper_bound_congr (m m' : Mem) (off : Nat) (hi : Int) (i : Nat)
    (h : ∀ x, off + 4 ≤ x → x < off + 16 + 4 * key_count m off → m' x = m x) :
    upper_bound m' off hi i = upper_bound m off hi i := by
  have hk : key_count m' off = key_count m off :=
    key_count_congr _ _ _ (fun x h1 h2 => h x h1 (by omega))
  unfold upper_bound get_internal_keys
  rw [hk]
  split
  · exact rdI32_congr _ _ _ (fun x h1 h2 => h x (by omega) (by omega))
  · rfl

/-- The views of an internal node read only the node's block. -/
theorem node_view_congr (cfg : BTreeConfig) (bs : Nat) (m m' : Mem) (off : Nat)
    (hfit : NodeFits cfg bs off) (hk : key_count m off ≤ cfg.max_keys)
    (h : ∀ x, off ≤ x → x < off + bs → m' x = m x) :
    is_leaf m' off = is_leaf m off ∧ key_count m' off = key_count m off ∧
    node_children cfg m' off = node_children cfg m off ∧
    ∀ lo hi, node_view cfg m' off lo hi = node_view cfg m off lo hi := by
  obtain ⟨f1, f2, f3, f4, f5⟩ := nodeFits_bounds cfg bs off hfit
  have hkc : key_count m' off = key_count m off :=
    key_count_congr _ _ _ (fun x h1 h2 => h x (by omega) (by omega))
  have hch : ∀ i, i ≤ key_count m off → child cfg m' off i = child cfg m off i := by
    intro i hi
    exact child_congr _ _ _ _ _ (fun x h1 h2 => h x (by omega) (by omega))
  refine ⟨is_leaf_congr _ _ _ (h off (le_refl _) (by omega)), hkc, ?_, ?_⟩
  · unfold node_children
    rw [hkc]
    apply List.map_congr_left
    intro i hi
    exact hch i (by have := List.mem_range.mp hi; omega)
  · intro lo hi
    unfold node_view
    rw [hkc]
    apply List.map_congr_left
    intro i hi'
    have hi2 := List.mem_range.mp hi'
    rw [hch i (by omega),
      lower_bound_congr m m' off lo i (fun x h1 h2 => h x (by omega) (by omega)),
      upper_bound_congr m m' off hi i (fun x h1 h2 => h x (by omega) (by omega))]

/-- The views of a leaf read only the node's block. -/
theorem leaf_view_congr (cfg : BTreeConfig) (bs : Nat) (m m' : Mem) (off : Nat)
    (hfit : NodeFits cfg bs off) (hk : key_count m off ≤ cfg.leaf_capacity)
    (h : ∀ x, off ≤ x → x < off + bs → m' x = m x) :
    is_leaf m' off = is_leaf m off ∧ key_count m' off = key_count m off ∧
    leaf_entries m' off = leaf_entries m off := by
  obtain ⟨f1, f2, f3, f4, f5⟩ := nodeFits_bounds cfg bs off hfit
  exact ⟨is_leaf_congr _ _ _ (h off (le_refl _) (by omega)),
    key_count_congr _ _ _ (fun x h1 h2 => h x (by omega) (by omega)),
    leaf_entries_congr _ _ _ (fun x h1 h2 => h x (by omega) (by omega))⟩

theorem shape_zero (cfg : BTreeConfig) (m : Mem) (off : Nat) :
    Shape cfg m 0 off = (is_leaf m off = true ∧ key_count m off ≤ cfg.leaf_capacity) := rfl

theorem shape_succ (cfg : BTreeConfig) (m : Mem) (h off : Nat) :
    Shape cfg m (h + 1) off = (is_leaf m off = false ∧ key_count m off ≤ cfg.max_keys ∧
      ∀ c ∈ node_children cfg m off, Shape cfg m h c) := rfl

theorem blocks_zero (cfg : BTreeConfig) (m : Mem) (off : Nat) : blocks cfg m 0 off = [off] := rfl

theorem blocks_succ (cfg : BTreeConfig) (m : Mem) (h off : Nat) :
    blocks cfg m (h + 1) off = off :: ((node_children cfg m off).map (blocks cfg m h)).flatten := rfl

theorem contents_zero (cfg : BTreeConfig) (m : Mem) (off : Nat) :
    contents cfg m 0 off = leaf_entries m off := rfl

theorem contents_succ (cfg : BTreeConfig) (m : Mem) (h off : Nat) :
    contents cfg m (h + 1) off = ((node_children cfg m off).map (contents cfg m h)).flatten := rfl

theorem ord_zero (cfg : BTreeConfig) (m : Mem) (off : Nat) (lo hi : Int) :
    Ord cfg m 0 off lo hi = (((leaf_entries m off).map (fun e => e.key)).Nodup ∧
      ∀ e ∈ leaf_entries m off, lo ≤ e.key ∧ e.key < hi) := rfl

theorem ord_succ (cfg : BTreeConfig) (m : Mem) (h off : Nat) (lo hi : Int) :
    Ord cfg m (h + 1) off lo hi =
      ∀ t ∈ node_view cfg m off lo hi, t.1 < t.2.2 ∧ Ord cfg m h t.2.1 t.1 t.2.2 := rfl

theorem mem_blocks_self (cfg : BTreeConfig) (m : Mem) (h off : Nat) : off ∈ blocks cfg m h off := by
  cases h with
  | zero => simp [blocks]
  | succ h => simp [blocks]

theorem mem_blocks_child (cfg : BTreeConfig) (m : Mem) (h off c o : Nat)
    (hc : c ∈ node_children cfg m off) (ho : o ∈ blocks cfg m h c) :
    o ∈ blocks cfg m (h + 1) off := by
  unfold blocks
  apply List.mem_cons_of_mem
  rw [List.mem_flatten]
  exact ⟨blocks cfg m h c, List.mem_map.mpr ⟨c, hc, rfl⟩, ho⟩

/-- A subtree reads only the blocks of its nodes. -/
theorem subtree_congr (cfg : BTreeConfig) (bs : Nat) (m m' : Mem) :
    ∀ (h off : Nat), Shape cfg m h off →
      (∀ o ∈ blocks cfg m h off, NodeFits cfg bs o ∧ ∀ x, o ≤ x → x < o + bs → m' x = m x) →
      Shape cfg m' h off ∧ blocks cfg m' h off = blocks cfg m h off ∧
      contents cfg m' h off = contents cfg m h off ∧
      (∀ lo hi, Ord cfg m' h off lo hi ↔ Ord cfg m h off lo hi) := by
  intro h
  induction h with
  | zero =>
    intro off hs hb
    obtain ⟨hfit, hag⟩ := hb off (mem_blocks_self _ _ _ _)
    unfold Shape at hs
    obtain ⟨e1, e2, e3⟩ := leaf_view_congr cfg bs m m' off hfit hs.2 hag
    refine ⟨?_, rfl, ?_, ?_⟩
    · unfold Shape; rw [e1, e2]; exact hs
    · unfold contents; exact e3
    · intro lo hi; unfold Ord; rw [e3]
  | succ h ih =>
    intro off hs hb
    obtain ⟨hfit, hag⟩ := hb off (mem_blocks_self _ _ _ _)
    unfold Shape at hs
    obtain ⟨e1, e2, e3, e4⟩ := node_view_congr cfg bs m m' off hfit hs.2.1 hag
    have hch : ∀ c ∈ node_children cfg m off,
        Shape cfg m' h c ∧ blocks cfg m' h c = blocks cfg m h c ∧
        contents cfg m' h c = contents cfg m h c ∧
        (∀ lo hi, Ord cfg m' h c lo hi ↔ Ord cfg m h c lo hi) := by
      intro c hc
      exact ih c (hs.2.2 c hc) (fun o ho => hb o (mem_blocks_child _ _ _ _ _ _ hc ho))
    refine ⟨?_, ?_, ?_, ?_⟩
    · unfold Shape
      rw [e1, e2, e3]
      exact ⟨hs.1, hs.2.1, fun c hc => (hch c hc).1⟩
    · unfold blocks
      rw [e3]
      congr 2
      apply List.map_congr_left
      intro c hc
      exact (hch c hc).2.1
    · unfold contents
      rw [e3]
      congr 1
      apply List.map_congr_left
      intro c hc
      exact (hch c hc).2.2.1
    · intro lo hi
      unfold Ord
      rw [e4]
      have hmem : ∀ t ∈ node_view cfg m off lo hi, t.2.1 ∈ node_children cfg m off := by
        intro t ht
        unfold node_view at ht
        obtain ⟨i, hi1, hi2⟩ := List.mem_map.mp ht
        unfold node_children
        rw [← hi2]
        exact List.mem_map.mpr ⟨i, hi1, rfl⟩
      constructor
      · intro ho t ht
        exact ⟨(ho t ht).1, ((hch t.2.1 (hmem t ht)).2.2.2 _ _).mp (ho t ht).2⟩
      · intro ho t ht
        exact ⟨(ho t ht).1, ((hch t.2.1 (hmem t ht)).2.2.2 _ _).mpr (ho t ht).2⟩

end BTree

/-! ## Descent and lookup -/

namespace BTree

theorem scan_keys_spec (m : Mem) (keys : Nat) (key : Int) :
    ∀ (n i : Nat), i ≤ scan_keys m keys key n i ∧ scan_keys m keys key n i ≤ i + n ∧
      (∀ j, i ≤ j → j < scan_keys m keys key n i → rdI32 m (keys + 4 * j) ≤ key) ∧
      (scan_keys m keys key n i < i + n → key < rdI32 m (keys + 4 * scan_keys m keys key n i)) := by
  intro n
  induction n with
  | zero => intro i; unfold scan_keys; exact ⟨le_refl _, le_refl _, fun j h1 h2 => by omega, fun h => by omega⟩
  | succ n ih =>
    intro i
    unfold scan_keys
    by_cases hk : key ≥ rdI32 m (keys + 4 * i)
    · rw [if_pos hk]
      obtain ⟨h1, h2, h3, h4⟩ := ih (i + 1)
      refine ⟨by omega, by omega, ?_, fun h => h4 (by omega)⟩
      intro j hj1 hj2
      by_cases hji : j = i
      · subst hji; exact hk
      · exact h3 j (by omega) hj2
    · rw [if_neg hk]
      exact ⟨le_refl _, by omega, fun j h1 h2 => by omega, fun _ => by omega⟩

theorem find_in_leaf_some (m : Mem) (entries : Nat) (key : Int) :
    ∀ (n i j : Nat), find_in_leaf m entries key n i = some j →
      i ≤ j ∧ j < i + n ∧ rdI32 m (entries + 8 * j) = key ∧
      ∀ j', i ≤ j' → j' < j → rdI32 m (entries + 8 * j') ≠ key := by
  intro n
  induction n with
  | zero => intro i j h; simp [find_in_leaf] at h
  | succ n ih =>
    intro i j h
    unfold find_in_leaf at h
    by_cases hk : rdI32 m (entries + 8 * i) = key
    · rw [if_pos hk] at h
      simp only [Option.some.injEq] at h
      subst h
      exact ⟨le_refl _, by omega, hk, fun j' h1 h2 => by omega⟩
    · rw [if_neg hk] at h
      obtain ⟨h1, h2, h3, h4⟩ := ih (i + 1) j h
      refine ⟨by omega, by omega, h3, ?_⟩
      intro j' hj1 hj2
      by_cases hji : j' = i
      · subst hji; exact hk
      · exact h4 j' (by omega) hj2

theorem find_in_leaf_none (m : Mem) (entries : Nat) (key : Int) :
    ∀ (n i : Nat), find_in_leaf m entries key n i = none →
      ∀ j, i ≤ j → j < i + n → rdI32 m (entries + 8 * j) ≠ key := by
  intro n
  induction n with
  | zero => intro i _ j h1 h2; omega
  | succ n ih =>
    intro i h j h1 h2
    unfold find_in_leaf at h
    by_cases hk : rdI32 m (entries + 8 * i) = key
    · rw [if_pos hk] at h; simp at h
    · rw [if_neg hk] at h
      by_cases hji : j = i
      · subst hji; exact hk
      · exact ih (i + 1) h j (by omega) (by omega)

theorem leaf_entries_length (m : Mem) (off : Nat) :
    (leaf_entries m off).length = key_count m off := by
  unfold leaf_entries; simp

theorem leaf_entries_get (m : Mem) (off i : Nat) (hi : i < (leaf_entries m off).length) :
    (leaf_entries m off).get ⟨i, hi⟩ = read_entry m (get_leaf_entries off + 8 * i) := by
  unfold leaf_entries; simp

theorem mem_leaf_entries (m : Mem) (off : Nat) (e : LeafEntry) :
    e ∈ leaf_entries m off ↔
      ∃ i, i < key_count m off ∧ read_entry m (get_leaf_entries off + 8 * i) = e := by
  unfold leaf_entries
  rw [List.mem_map]
  constructor
  · rintro ⟨i, hi, he⟩; exact ⟨i, List.mem_range.mp hi, he⟩
  · rintro ⟨i, hi, he⟩; exact ⟨i, List.mem_range.mpr hi, he⟩

theorem node_view_length (cfg : BTreeConfig) (m : Mem) (off : Nat) (lo hi : Int) :
    (node_view cfg m off lo hi).length = key_count m off + 1 := by
  unfold node_view; simp

theorem node_children_length (cfg : BTreeConfig) (m : Mem) (off : Nat) :
    (node_children cfg m off).length = key_count m off + 1 := by
  unfold node_children; simp

theorem mem_node_view (cfg : BTreeConfig) (m : Mem) (off : Nat) (lo hi : Int)
    (t : Int × Nat × Int) :
    t ∈ node_view cfg m off lo hi ↔
      ∃ i, i ≤ key_count m off ∧
        t = (lower_bound m off lo i, child cfg m off i, upper_bound m off hi i) := by
  unfold node_view
  rw [List.mem_map]
  constructor
  · rintro ⟨i, hi, he⟩; exact ⟨i, by have := List.mem_range.mp hi; omega, he.symm⟩
  · rintro ⟨i, hi, he⟩; exact ⟨i, List.mem_range.mpr (by omega), he.symm⟩

theorem mem_node_children (cfg : BTreeConfig) (m : Mem) (off c : Nat) :
    c ∈ node_children cfg m off ↔ ∃ i, i ≤ key_count m off ∧ c = child cfg m off i := by
  unfold node_children
  rw [List.mem_map]
  constructor
  · rintro ⟨i, hi, he⟩; exact ⟨i, by have := List.mem_range.mp hi; omega, he.symm⟩
  · rintro ⟨i, hi, he⟩; exact ⟨i, List.mem_range.mpr (by omega), he.symm⟩

theorem node_children_eq_view (cfg : BTreeConfig) (m : Mem) (off : Nat) (lo hi : Int) :
    node_children cfg m off = (node_view cfg m off lo hi).map (fun t => t.2.1) := by
  unfold node_children node_view
  rw [List.map_map]
  rfl

/-- Keys below a subtree lie in its key range. -/
theorem contents_bounds (cfg : BTreeConfig) (m : Mem) :
    ∀ (h off : Nat) (lo hi : Int), Ord cfg m h off lo hi →
      ∀ e ∈ contents cfg m h off, lo ≤ e.key ∧ e.key < hi := by
  intro h
  induction h with
  | zero =>
    intro off lo hi ho e he
    unfold Ord at ho
    unfold contents at he
    exact ho.2 e he
  | succ h ih =>
    intro off lo hi ho e he
    unfold Ord at ho
    unfold contents at he
    rw [List.mem_flatten] at he
    obtain ⟨l, hl, hel⟩ := he
    obtain ⟨c, hc, hcl⟩ := List.mem_map.mp hl
    obtain ⟨i, hi1, hi2⟩ := (mem_node_children _ _ _ _).mp hc
    subst hi2 hcl
    have ht := ho (lower_bound m off lo i, child cfg m off i, upper_bound m off hi i)
      ((mem_node_view _ _ _ _ _ _).mpr ⟨i, hi1, rfl⟩)
    have hb := ih _ _ _ ht.2 e hel
    simp only at hb
    -- the child's range lies inside the node's range
    have hlo : ∀ j, j ≤ key_count m off → lo ≤ lower_bound m off lo j := by
      intro j
      induction j with
      | zero => intro _; unfold lower_bound; simp
      | succ j ihj =>
        intro hj
        have h1 := ihj (by omega)
        have h2 := (ho (lower_bound m off lo j, child cfg m off j, upper_bound m off hi j)
          ((mem_node_view _ _ _ _ _ _).mpr ⟨j, by omega, rfl⟩)).1
        have e1 : upper_bound m off hi j = lower_bound m off lo (j + 1) := by
          unfold upper_bound lower_bound
          rw [if_pos (by omega), if_neg (by omega)]
          simp
        simp only at h2
        rw [e1] at h2
        omega
    have hhi : ∀ d j, j + d = key_count m off → upper_bound m off hi j ≤ hi := by
      intro d
      induction d with
      | zero =>
        intro j hj
        unfold upper_bound
        rw [if_neg (by omega)]
      | succ d ihd =>
        intro j hj
        have h1 := ihd (j + 1) (by omega)
        have h2 := (ho (lower_bound m off lo (j + 1), child cfg m off (j + 1),
          upper_bound m off hi (j + 1)) ((mem_node_view _ _ _ _ _ _).mpr ⟨j + 1, by omega, rfl⟩)).1
        have e1 : upper_bound m off hi j = lower_bound m off lo (j + 1) := by
          unfold upper_bound lower_bound
          rw [if_pos (by omega), if_neg (by omega)]
          simp
        simp only at h2
        rw [e1]
        omega
    have := hlo i hi1
    have := hhi (key_count m off - i) i (by omega)
    omega

end BTree

namespace BTree

theorem keys_sorted (cfg : BTreeConfig) (m : Mem) (h off : Nat) (lo hi : Int)
    (ho : Ord cfg m (h + 1) off lo hi) :
    ∀ d a, a + d < key_count m off →
      rdI32 m (get_internal_keys off + 4 * a) ≤ rdI32 m (get_internal_keys off + 4 * (a + d)) := by
  unfold Ord at ho
  intro d
  induction d with
  | zero => intro a _; exact le_refl _
  | succ d ih =>
    intro a ha
    have h1 := ih a (by omega)
    have h2 := (ho (lower_bound m off lo (a + d + 1), child cfg m off (a + d + 1),
      upper_bound m off hi (a + d + 1)) ((mem_node_view _ _ _ _ _ _).mpr ⟨a + d + 1, by omega, rfl⟩)).1
    simp only at h2
    unfold lower_bound upper_bound at h2
    rw [if_neg (by omega), if_pos (by omega)] at h2
    have e : a + d + 1 - 1 = a + d := by omega
    rw [e] at h2
    have e2 : a + (d + 1) = a + d + 1 := by omega
    rw [e2]
    omega

/-- Lookup in a well-formed subtree: `search_internal` finds exactly the entries
stored below the node. -/
theorem search_spec (cfg : BTreeConfig) (m : Mem) (key : Int) :
    ∀ (h off : Nat) (lo hi : Int) (extra : Nat), Shape cfg m h off → Ord cfg m h off lo hi →
      lo ≤ key → key < hi → (∀ o ∈ blocks cfg m h off, o ≠ 0) →
      ∃ r, search_internal cfg m (h + 1 + extra) off key = .ok r ∧
        ∀ v, r = some v ↔ (⟨key, v⟩ : LeafEntry) ∈ contents cfg m h off := by
  intro h
  induction h with
  | zero =>
    intro off lo hi extra hs ho hlo hhi hnz
    have hoff : off ≠ 0 := hnz off (mem_blocks_self _ _ _ _)
    unfold Shape at hs
    unfold Ord at ho
    have e : 0 + 1 + extra = extra + 1 := by omega
    rw [e]
    unfold search_internal contents
    rw [if_neg hoff, if_pos hs.1]
    cases hf : find_in_leaf m (get_leaf_entries off) key (key_count m off) 0 with
    | none =>
      refine ⟨none, rfl, ?_⟩
      intro v
      constructor
      · intro h; simp at h
      · intro hmem
        obtain ⟨i, hi1, hi2⟩ := (mem_leaf_entries _ _ _).mp hmem
        have := find_in_leaf_none _ _ _ _ _ hf i (by omega) (by omega)
        unfold read_entry at hi2
        simp only [LeafEntry.mk.injEq] at hi2
        exact absurd hi2.1 this
    | some i =>
      obtain ⟨_, f2, f3, _⟩ := find_in_leaf_some _ _ _ _ _ _ hf
      refine ⟨_, rfl, ?_⟩
      have hmi : read_entry m (get_leaf_entries off + 8 * i) ∈ leaf_entries m off :=
        (mem_leaf_entries _ _ _).mpr ⟨i, by omega, rfl⟩
      intro v
      constructor
      · intro hv
        simp only [Option.some.injEq] at hv
        have : (⟨key, v⟩ : LeafEntry) = read_entry m (get_leaf_entries off + 8 * i) := by
          unfold read_entry; rw [f3, hv]
        rw [this]; exact hmi
      · intro hmem
        have := List.inj_on_of_nodup_map ho.1 hmem hmi (by unfold read_entry; simp [f3])
        unfold read_entry at this
        simp only [LeafEntry.mk.injEq] at this
        rw [this.2]
  | succ h ih =>
    intro off lo hi extra hs ho hlo hhi hnz
    have hoff : off ≠ 0 := hnz off (mem_blocks_self _ _ _ _)
    have hsorted := keys_sorted cfg m h off lo hi ho
    unfold Shape at hs
    have ho' := ho
    unfold Ord at ho
    have e : h + 1 + 1 + extra = (h + 1 + extra) + 1 := by omega
    rw [e]
    unfold search_internal
    rw [if_neg hoff]
    simp only [hs.1, Bool.false_eq_true, if_false]
    obtain ⟨s1, s2, s3, s4⟩ := scan_keys_spec m (get_internal_keys off) key (key_count m off) 0
    generalize scan_keys m (get_internal_keys off) key (key_count m off) 0 = idx at s1 s2 s3 s4 ⊢
    have hidx : idx ≤ key_count m off := by omega
    have hcm : child cfg m off idx ∈ node_children cfg m off :=
      (mem_node_children _ _ _ _).mpr ⟨idx, hidx, rfl⟩
    have ht := ho (lower_bound m off lo idx, child cfg m off idx, upper_bound m off hi idx)
      ((mem_node_view _ _ _ _ _ _).mpr ⟨idx, hidx, rfl⟩)
    simp only at ht
    have hl : lower_bound m off lo idx ≤ key := by
      unfold lower_bound
      split
      · exact hlo
      · have := s3 (idx - 1) (by omega) (by omega)
        exact this
    have hu : key < upper_bound m off hi idx := by
      unfold upper_bound
      split
      · exact s4 (by omega)
      · exact hhi
    obtain ⟨r, hr1, hr2⟩ := ih (child cfg m off idx) _ _ extra (hs.2.2 _ hcm) ht.2 hl hu
      (fun o ho => hnz o (mem_blocks_child _ _ _ _ _ _ hcm ho))
    refine ⟨r, hr1, ?_⟩
    intro v
    rw [hr2 v, contents_succ, List.mem_flatten]
    constructor
    · intro hm
      exact ⟨_, List.mem_map.mpr ⟨_, hcm, rfl⟩, hm⟩
    · rintro ⟨l, hl1, hl2⟩
      obtain ⟨c, hc, hcl⟩ := List.mem_map.mp hl1
      obtain ⟨j, hj1, hj2⟩ := (mem_node_children _ _ _ _).mp hc
      subst hj2 hcl
      by_cases hji : j = idx
      · subst hji; exact hl2
      · exfalso
        have htj := ho (lower_bound m off lo j, child cfg m off j, upper_bound m off hi j)
          ((mem_node_view _ _ _ _ _ _).mpr ⟨j, hj1, rfl⟩)
        have hb := contents_bounds cfg m h _ _ _ htj.2 _ hl2
        simp only at hb
        by_cases hlt : j < idx
        · have h1 := s3 j (by omega) hlt
          unfold upper_bound at hb
          rw [if_pos (by omega)] at hb
          omega
        · have h1 := s4 (by omega)
          have h2 := hsorted (j - 1 - idx) idx (by omega)
          have e3 : idx + (j - 1 - idx) = j - 1 := by omega
          rw [e3] at h2
          unfold lower_bound at hb
          rw [if_neg (by omega)] at hb
          omega

end BTree

/-! ## Leaf operations -/

namespace BTree

theorem leaf_entries_of (m : Mem) (off : Nat) (es : List LeafEntry)
    (hn : key_count m off = es.length)
    (h : ∀ i (hi : i < es.length), read_entry m (get_leaf_entries off + 8 * i) = es.get ⟨i, hi⟩) :
    leaf_entries m off = es := by
  apply List.ext_getElem
  · rw [leaf_entries_length, hn]
  · intro i h1 h2
    have := leaf_entries_get m off i h1
    simp only [List.get_eq_getElem] at this
    rw [this, h i h2]
    simp

theorem key_count_wr32 (m : Mem) (off v : Nat) (hv : v < 4294967296) :
    key_count (wr32 m (off + 4) v) off = v := by
  unfold key_count
  rw [rd32_wr32_same, Nat.mod_eq_of_lt hv]

theorem persist_node_rd8 (s : Manager) (node a : Nat) (h : a < node + 8 ∨ node + 12 ≤ a)
    (h2 : a < 56 ∨ 64 ≤ a) : rd8 (persist_node s node).mem a = rd8 s.mem a :=
  rd8_congr _ _ _ (persist_node_mem s node a ⟨h, h2⟩)

theorem persist_node_rd32 (s : Manager) (node a : Nat) (h : a + 4 ≤ node + 8 ∨ node + 12 ≤ a)
    (h2 : a + 4 ≤ 56 ∨ 64 ≤ a) : rd32 (persist_node s node).mem a = rd32 s.mem a :=
  rd32_congr _ _ _ (fun x _ _ => persist_node_mem s node x ⟨by omega, by omega⟩)

theorem persist_node_rd64 (s : Manager) (node a : Nat) (h : a + 8 ≤ node + 8 ∨ node + 12 ≤ a)
    (h2 : a + 8 ≤ 56 ∨ 64 ≤ a) : rd64 (persist_node s node).mem a = rd64 s.mem a :=
  rd64_congr _ _ _ (fun x _ _ => persist_node_mem s node x ⟨by omega, by omega⟩)

theorem persist_node_read_entry (s : Manager) (node a : Nat)
    (h : a + 8 ≤ node + 8 ∨ node + 12 ≤ a) (h2 : a + 8 ≤ 56 ∨ 64 ≤ a) :
    read_entry (persist_node s node).mem a = read_entry s.mem a :=
  (read_entry_congr _ _ _ (fun x _ _ => (persist_node_mem s node x ⟨by omega, by omega⟩).symm)).symm

theorem persist_node_is_leaf (s : Manager) (node o : Nat) (h : o < node + 8 ∨ node + 12 ≤ o)
    (h2 : 64 ≤ o) : is_leaf (persist_node s node).mem o = is_leaf s.mem o := by
  unfold is_leaf; rw [persist_node_rd8 s node o h (Or.inr h2)]

theorem persist_node_key_count (s : Manager) (node o : Nat)
    (h : o + 8 ≤ node + 8 ∨ node + 8 ≤ o) (h2 : 64 ≤ o) :
    key_count (persist_node s node).mem o = key_count s.mem o := by
  unfold key_count; rw [persist_node_rd32 s node (o + 4) (by omega) (by omega)]

/-- Memory after the append branch of `insert_leaf`. -/
theorem leaf_append_spec (cfg : BTreeConfig) (s : Manager) (off : Nat) (key value : Int)
    (hfit : NodeFits cfg s.block_size off) (h64 : 64 ≤ off)
    (hroom : key_count s.mem off < cfg.leaf_capacity)
    (hcap : cfg.leaf_capacity < 2147483648) (hk : isInt32 key) (hv : isInt32 value) :
    let m1 := write_entry s.mem (get_leaf_entries off + 8 * key_count s.mem off) ⟨key, value⟩
    let s1 := persist_node { s with mem := wr32 m1 (off + 4) (key_count m1 off + 1) } off
    is_leaf s1.mem off = is_leaf s.mem off ∧
    key_count s1.mem off = key_count s.mem off + 1 ∧
    leaf_entries s1.mem off = leaf_entries s.mem off ++ [⟨key, value⟩] ∧
    (∀ x, (x < off ∨ off + s.block_size ≤ x) → (x < 56 ∨ 64 ≤ x) → s1.mem x = s.mem x) ∧
    s1.block_size = s.block_size ∧ s1.region_size = s.region_size := by
  intro m1 s1
  obtain ⟨f1, f2, f3, f4, f5⟩ := nodeFits_bounds cfg s.block_size off hfit
  have hkc1 : key_count m1 off = key_count s.mem off := by
    apply key_count_congr
    intro x h1 h2
    exact write_entry_other _ _ _ _ (by unfold get_leaf_entries; omega)
  have hkc : key_count s1.mem off = key_count s.mem off + 1 := by
    show key_count (persist_node _ off).mem off = _
    rw [persist_node_key_count _ _ _ (by omega) h64, hkc1]
    exact key_count_wr32 _ _ _ (by omega)
  have hentry : ∀ i, i < cfg.leaf_capacity →
      read_entry s1.mem (get_leaf_entries off + 8 * i) =
        read_entry m1 (get_leaf_entries off + 8 * i) := by
    intro i hi
    show read_entry (persist_node _ off).mem _ = _
    unfold get_leaf_entries
    rw [persist_node_read_entry _ _ _ (by omega) (by omega)]
    exact (read_entry_congr _ _ _ (fun x _ _ => (wr32_other _ _ _ _ (by omega)).symm)).symm
  refine ⟨?_, hkc, ?_, ?_, rfl, rfl⟩
  · show is_leaf (persist_node _ off).mem off = _
    rw [persist_node_is_leaf _ _ _ (by omega) h64]
    apply is_leaf_congr
    show wr32 m1 (off + 4) _ off = s.mem off
    rw [wr32_other _ _ _ _ (by omega)]
    exact write_entry_other _ _ _ _ (by unfold get_leaf_entries; omega)
  · apply leaf_entries_of
    · rw [hkc, List.length_append, leaf_entries_length]; rfl
    · intro i hi
      rw [List.length_append, leaf_entries_length] at hi
      simp only [List.length_singleton] at hi
      rw [hentry i (by omega)]
      by_cases hlast : i = key_count s.mem off
      · subst hlast
        rw [read_entry_write_entry _ _ _ hk hv]
        simp [leaf_entries_length]
      · have hi' : i < (leaf_entries s.mem off).length := by
          rw [leaf_entries_length]; omega
        rw [List.get_eq_getElem, List.getElem_append_left hi']
        have := leaf_entries_get s.mem off i hi'
        rw [List.get_eq_getElem] at this
        rw [this]
        exact (read_entry_congr _ _ _ (fun x _ _ =>
          (write_entry_other _ _ _ _ (by omega)).symm)).symm
  · intro x hx1 hx2
    show (persist_node _ off).mem x = s.mem x
    rw [persist_node_mem _ _ _ ⟨by omega, hx2⟩]
    show wr32 m1 (off + 4) _ x = s.mem x
    rw [wr32_other _ _ _ _ (by omega)]
    exact write_entry_other _ _ _ _ (by unfold get_leaf_entries; omega)

end BTree

namespace BTree

/-- Memory after the stores of `split_leaf` that follow the allocation. -/
theorem split_leaf_mem (cfg : BTreeConfig) (s1 : Manager) (old new : Nat)
    (buffer : List LeafEntry) (mid total : Nat) (m0 ma mb mc md me mf : Mem) (s2 s3 : Manager)
    (hfo : NodeFits cfg s1.block_size old) (hfn : NodeFits cfg s1.block_size new)
    (h64o : 64 ≤ old) (h64n : 64 ≤ new)
    (hsep : old + s1.block_size ≤ new ∨ new + s1.block_size ≤ old)
    (hcap : cfg.leaf_capacity < 2147483648)
    (hlen : buffer.length = total) (htot : total ≤ cfg.leaf_capacity) (hmid : mid ≤ total)
    (hint : ∀ e ∈ buffer, isInt32 e.key ∧ isInt32 e.value)
    (h0 : m0 = wr8 s1.mem new 1)
    (ha : ma = write_entries m0 (get_leaf_entries new) (buffer.drop mid))
    (hb : mb = wr32 ma (new + 4) (total - mid))
    (hc : mc = wr64 mb (get_leaf_next new cfg.leaf_capacity)
      (rd64 mb (get_leaf_next old cfg.leaf_capacity)))
    (h2 : s2 = persist_node { s1 with mem := mc } new)
    (hd : md = wr64 s2.mem (get_leaf_next old cfg.leaf_capacity) new)
    (he : me = write_entries md (get_leaf_entries old) (buffer.take mid))
    (hf : mf = wr32 me (old + 4) mid)
    (h3 : s3 = persist_node { s2 with mem := mf } old) :
    is_leaf s3.mem old = is_leaf s1.mem old ∧ is_leaf s3.mem new = true ∧
    key_count s3.mem old = mid ∧ key_count s3.mem new = total - mid ∧
    leaf_entries s3.mem old = buffer.take mid ∧ leaf_entries s3.mem new = buffer.drop mid ∧
    (∀ x, (x < old ∨ old + s1.block_size ≤ x) → (x < new ∨ new + s1.block_size ≤ x) →
      (x < 56 ∨ 64 ≤ x) → s3.mem x = s1.mem x) ∧
    s3.block_size = s1.block_size ∧ s3.region_size = s1.region_size ∧
    s3.allocated_blocks = s1.allocated_blocks := by
  obtain ⟨o1, _, _, o4, o5⟩ := nodeFits_bounds cfg s1.block_size old hfo
  obtain ⟨n1, _, _, n4, n5⟩ := nodeFits_bounds cfg s1.block_size new hfn
  generalize get_leaf_next old cfg.leaf_capacity = nxo at *
  generalize get_leaf_next new cfg.leaf_capacity = nxn at *
  have hle : ∀ o, get_leaf_entries o = o + 16 := fun _ => rfl
  rw [hle] at ha he
  have hdl : (buffer.drop mid).length = total - mid := by rw [List.length_drop, hlen]
  have htl : (buffer.take mid).length = mid := by rw [List.length_take, hlen]; omega
  have fr0 : ∀ x, x ≠ new → m0 x = s1.mem x := fun x hx => by rw [h0]; exact wr8_other _ _ _ _ hx
  have fra : ∀ x, (x < new + 16 ∨ new + 16 + 8 * (total - mid) ≤ x) → ma x = m0 x := fun x hx => by
    rw [ha]; exact write_entries_other _ _ _ _ (by rw [hdl]; exact hx)
  have frb : ∀ x, (x < new + 4 ∨ new + 8 ≤ x) → mb x = ma x := fun x hx => by
    rw [hb]; exact wr32_other _ _ _ _ (by omega)
  have frc : ∀ x, (x < nxn ∨ nxn + 8 ≤ x) → mc x = mb x := fun x hx => by
    rw [hc]; exact wr64_other _ _ _ _ hx
  have fr2 : ∀ x, (x < new + 8 ∨ new + 12 ≤ x) → (x < 56 ∨ 64 ≤ x) → s2.mem x = mc x :=
    fun x hx hx2 => by rw [h2]; exact persist_node_mem _ _ _ ⟨hx, hx2⟩
  have frd : ∀ x, (x < nxo ∨ nxo + 8 ≤ x) → md x = s2.mem x := fun x hx => by
    rw [hd]; exact wr64_other _ _ _ _ hx
  have fre : ∀ x, (x < old + 16 ∨ old + 16 + 8 * mid ≤ x) → me x = md x := fun x hx => by
    rw [he]; exact write_entries_other _ _ _ _ (by rw [htl]; exact hx)
  have frf : ∀ x, (x < old + 4 ∨ old + 8 ≤ x) → mf x = me x := fun x hx => by
    rw [hf]; exact wr32_other _ _ _ _ (by omega)
  have fr3 : ∀ x, (x < old + 8 ∨ old + 12 ≤ x) → (x < 56 ∨ 64 ≤ x) → s3.mem x = mf x :=
    fun x hx hx2 => by rw [h3]; exact persist_node_mem _ _ _ ⟨hx, hx2⟩
  have hs2 : s2.block_size = s1.block_size ∧ s2.region_size = s1.region_size ∧
      s2.allocated_blocks = s1.allocated_blocks := by rw [h2]; exact ⟨rfl, rfl, rfl⟩
  -- the new block after the last store to it
  have new_late : ∀ x, new ≤ x → x < new + s1.block_size → (x < new + 8 ∨ new + 12 ≤ x) →
      (x < nxn ∨ nxn + 8 ≤ x) → s3.mem x = mb x := by
    intro x h1 h2 h3 h4
    rw [fr3 x (by omega) (by omega), frf x (by omega), fre x (by omega), frd x (by omega),
      fr2 x h3 (by omega), frc x h4]
  have old_late : ∀ x, old ≤ x → x < old + s1.block_size → (x < old + 8 ∨ old + 12 ≤ x) →
      (x < old + 4 ∨ old + 8 ≤ x) → s3.mem x = me x := by
    intro x h1 h2 h3 h4
    rw [fr3 x h3 (by omega), frf x h4]
  refine ⟨?_, ?_, ?_, ?_, ?_, ?_, ?_, ?_, ?_, ?_⟩
  · apply is_leaf_congr
    rw [old_late old (le_refl _) (by omega) (by omega) (by omega), fre old (by omega),
      frd old (by omega), fr2 old (by omega) (by omega), frc old (by omega), frb old (by omega),
      fra old (by omega), fr0 old (by omega)]
  · unfold is_leaf
    rw [rd8_congr s3.mem m0 new (by
      rw [new_late new (le_refl _) (by omega) (by omega) (by omega), frb new (by omega),
        fra new (by omega)])]
    rw [h0, rd8_wr8_same]
    rfl
  · unfold key_count
    rw [rd32_congr s3.mem mf (old + 4) (fun x h1 h2 => fr3 x (by omega) (by omega)), hf,
      rd32_wr32_same, Nat.mod_eq_of_lt (by omega)]
  · unfold key_count
    rw [rd32_congr s3.mem mb (new + 4) (fun x h1 h2 =>
      new_late x (by omega) (by omega) (by omega) (by omega)), hb, rd32_wr32_same,
      Nat.mod_eq_of_lt (by omega)]
  · apply leaf_entries_of
    · unfold key_count
      rw [rd32_congr s3.mem mf (old + 4) (fun x h1 h2 => fr3 x (by omega) (by omega)), hf,
        rd32_wr32_same, Nat.mod_eq_of_lt (by omega), htl]
    · intro i hi
      rw [hle]
      rw [htl] at hi
      rw [read_entry_congr s3.mem me (old + 16 + 8 * i) (fun x h1 h2 =>
        old_late x (by omega) (by omega) (by omega) (by omega)), he]
      exact read_write_entries _ _ _ _ _ (fun e he => hint e (List.mem_of_mem_take he))
  · apply leaf_entries_of
    · unfold key_count
      rw [rd32_congr s3.mem mb (new + 4) (fun x h1 h2 =>
        new_late x (by omega) (by omega) (by omega) (by omega)), hb, rd32_wr32_same,
        Nat.mod_eq_of_lt (by omega), hdl]
    · intro i hi
      rw [hle]
      rw [hdl] at hi
      rw [read_entry_congr s3.mem ma (new + 16 + 8 * i) (fun x h1 h2 => by
        rw [new_late x (by omega) (by omega) (by omega) (by omega), frb x (by omega)]), ha]
      exact read_write_entries _ _ _ _ _ (fun e he => hint e (List.mem_of_mem_drop he))
  · intro x hx1 hx2 hx3
    rw [fr3 x (by omega) hx3, frf x (by omega), fre x (by omega), frd x (by omega),
      fr2 x (by omega) hx3, frc x (by omega), frb x (by omega), fra x (by omega),
      fr0 x (by omega)]
  · rw [h3]; exact hs2.1
  · rw [h3]; exact hs2.2.1
  · rw [h3]; exact hs2.2.2

end BTree

/-! ## Internal node operations -/

theorem list_split_at {α : Type} (l : List α) (i : Nat) (hi : i < l.length) :
    l = l.take i ++ l.get ⟨i, hi⟩ :: l.drop (i + 1) := by
  rw [List.get_eq_getElem, ← List.drop_eq_getElem_cons hi, List.take_append_drop]

theorem range_map_insert {α : Type} (f g : Nat → α) (n idx : Nat) (a b : α) (hidx : idx ≤ n)
    (h1 : ∀ j, j < idx → f j = g j) (h2 : f idx = a) (h3 : f (idx + 1) = b)
    (h4 : ∀ j, idx + 1 < j → j ≤ n + 1 → f j = g (j - 1)) :
    (List.range (n + 2)).map f =
      ((List.range (n + 1)).map g).take idx ++ [a, b] ++ ((List.range (n + 1)).map g).drop (idx + 1) := by
  apply List.ext_getElem
  · simp only [List.length_map, List.length_range, List.length_append, List.length_take,
      List.length_drop, List.length_cons, List.length_nil]
    omega
  · intro j hj1 hj2
    simp only [List.length_map, List.length_range] at hj1
    simp only [List.getElem_map, List.getElem_range]
    have hm : min idx (n + 1) = idx := by omega
    by_cases c1 : j < idx
    · rw [List.getElem_append_left (by simp; omega), List.getElem_append_left (by simp; omega)]
      simp [h1 j c1]
    · by_cases c2 : j = idx
      · subst c2
        rw [List.getElem_append_left (by simp; omega), List.getElem_append_right (by simp)]
        simp [h2, hm]
      · by_cases c3 : j = idx + 1
        · subst c3
          rw [List.getElem_append_left (by simp; omega), List.getElem_append_right (by simp)]
          simp [h3, hm]
        · rw [List.getElem_append_right (by simp; omega)]
          simp only [List.length_append, List.length_take, List.length_map, List.length_range,
            List.length_cons, List.length_nil, List.getElem_drop, List.getElem_map,
            List.getElem_range]
          rw [h4 j (by omega) (by omega)]
          congr 1
          omega

theorem range_map_take {α : Type} (f g : Nat → α) (n k : Nat) (_hk : k ≤ n)
    (h : ∀ j, j < k → f j = g j) :
    (List.range k).map f = ((List.range n).map g).take k := by
  apply List.ext_getElem
  · simp; omega
  · intro j hj1 hj2
    simp only [List.length_map, List.length_range] at hj1
    simp [h j hj1]

theorem range_map_drop {α : Type} (f g : Nat → α) (n k : Nat) (_hk : k ≤ n)
    (h : ∀ j, j < n - k → f j = g (k + j)) :
    (List.range (n - k)).map f = ((List.range n).map g).drop k := by
  apply List.ext_getElem
  · simp
  · intro j hj1 hj2
    simp only [List.length_map, List.length_range] at hj1
    simp [h j hj1]

namespace BTree

/-- Effect of the shift loop: keys `idx .. idx+n-1` and children `idx+1 .. idx+n`
move up by one slot. -/
theorem shift_right_spec (keys children idx : Nat) :
    ∀ (n : Nat) (m : Mem), keys + 4 * (idx + n + 1) ≤ children →
      (∀ j, j ≤ idx + n → rd32 (shift_right keys children idx n m) (keys + 4 * j) =
        if idx < j then rd32 m (keys + 4 * (j - 1)) else rd32 m (keys + 4 * j)) ∧
      (∀ j, rd64 (shift_right keys children idx n m) (children + 8 * j) =
        if idx + 1 < j ∧ j ≤ idx + n + 1 then rd64 m (children + 8 * (j - 1))
        else rd64 m (children + 8 * j)) ∧
      (∀ x, (x < keys + 4 * (idx + 1) ∨ keys + 4 * (idx + n + 1) ≤ x) →
        (x < children + 8 * (idx + 2) ∨ children + 8 * (idx + n + 2) ≤ x) →
        shift_right keys children idx n m x = m x) := by
  intro n
  induction n with
  | zero =>
    intro m _
    unfold shift_right
    refine ⟨?_, ?_, fun _ _ _ => rfl⟩
    · intro j hj; rw [if_neg (by omega)]
    · intro j; rw [if_neg (by omega)]
  | succ n ih =>
    intro m hsep
    unfold shift_right
    simp only
    generalize hm1 : wr32 m (keys + 4 * (idx + (n + 1)))
      (rd32 m (keys + 4 * (idx + (n + 1) - 1))) = m1
    generalize hm2 : wr64 m1 (children + 8 * (idx + (n + 1) + 1))
      (rd64 m1 (children + 8 * (idx + (n + 1)))) = m2
    obtain ⟨k1, c1, f1⟩ := ih m2 (by omega)
    have fr1 : ∀ x, (x < keys + 4 * (idx + n + 1) ∨ keys + 4 * (idx + n + 2) ≤ x) → m1 x = m x := by
      intro x hx; rw [← hm1]; exact wr32_other _ _ _ _ (by omega)
    have fr2 : ∀ x, (x < children + 8 * (idx + n + 2) ∨ children + 8 * (idx + n + 3) ≤ x) →
        m2 x = m1 x := by
      intro x hx; rw [← hm2]; exact wr64_other _ _ _ _ (by omega)
    refine ⟨?_, ?_, ?_⟩
    · intro j hj
      by_cases hlast : j = idx + n + 1
      · subst hlast
        rw [if_pos (by omega)]
        rw [rd32_congr _ m2 _ (fun x h1 h2 => f1 x (by omega) (by omega)),
          rd32_congr m2 m1 _ (fun x h1 h2 => fr2 x (by omega)), ← hm1]
        have e : idx + (n + 1) = idx + n + 1 := by omega
        rw [e, rd32_wr32_same, Nat.mod_eq_of_lt (rd32_lt _ _)]
      · rw [k1 j (by omega)]
        have e1 : ∀ q, q ≤ idx + n → rd32 m2 (keys + 4 * q) = rd32 m (keys + 4 * q) := by
          intro q hq
          rw [rd32_congr m2 m1 _ (fun x h1 h2 => fr2 x (by omega)),
            rd32_congr m1 m _ (fun x h1 h2 => fr1 x (by omega))]
        split
        · exact e1 _ (by omega)
        · exact e1 _ (by omega)
    · intro j
      rw [c1 j]
      have e1 : ∀ q, q ≠ idx + n + 2 → rd64 m2 (children + 8 * q) = rd64 m (children + 8 * q) := by
        intro q hq
        rw [rd64_congr m2 m1 _ (fun x h1 h2 => fr2 x (by omega)),
          rd64_congr m1 m _ (fun x h1 h2 => fr1 x (by omega))]
      by_cases hlast : j = idx + n + 2
      · subst hlast
        rw [if_neg (by omega), if_pos (by omega), ← hm2]
        have e : idx + (n + 1) + 1 = idx + n + 2 := by omega
        rw [e, rd64_wr64_same, Nat.mod_eq_of_lt (rd64_lt _ _)]
        have e2 : idx + (n + 1) = idx + n + 2 - 1 := by omega
        rw [e2]
        exact rd64_congr m1 m _ (fun x h1 h2 => fr1 x (by omega))
      · by_cases hc : idx + 1 < j ∧ j ≤ idx + n + 1
        · rw [if_pos hc, if_pos (by omega)]
          exact e1 _ (by omega)
        · rw [if_neg hc, if_neg (by omega)]
          exact e1 _ hlast
    · intro x hx1 hx2
      rw [f1 x (by omega) (by omega), fr2 x (by omega), fr1 x (by omega)]

end BTree

namespace BTree

/-- Memory after the stores of a pivot installation. -/
theorem install_pivot_mem (cfg : BTreeConfig) (s : Manager) (node idx count : Nat)
    (res : InsertResult) (m1 m2 m3 m4 : Mem) (s1 : Manager)
    (hfit : NodeFits cfg s.block_size node) (h64 : 64 ≤ node)
    (hcount : count = key_count s.mem node) (hroom : count < cfg.max_keys)
    (hcap : cfg.max_keys < 2147483648) (hidx : idx ≤ count)
    (hsk : isInt32 res.split_key) (hnew : res.new_child_offset < 18446744073709551616)
    (h1 : m1 = shift_right (get_internal_keys node) (get_internal_children node cfg.max_keys) idx
      (count - idx) s.mem)
    (h2 : m2 = wrI32 m1 (get_internal_keys node + 4 * idx) res.split_key)
    (h3 : m3 = wr64 m2 (get_internal_children node cfg.max_keys + 8 * (idx + 1))
      res.new_child_offset)
    (h4 : m4 = wr32 m3 (node + 4) (key_count m3 node + 1))
    (h5 : s1 = persist_node { s with mem := m4 } node) :
    is_leaf s1.mem node = is_leaf s.mem node ∧ key_count s1.mem node = count + 1 ∧
    (∀ lo hi, node_view cfg s1.mem node lo hi =
      (node_view cfg s.mem node lo hi).take idx ++
        [(lower_bound s.mem node lo idx, child cfg s.mem node idx, res.split_key),
         (res.split_key, res.new_child_offset, upper_bound s.mem node hi idx)] ++
        (node_view cfg s.mem node lo hi).drop (idx + 1)) ∧
    (∀ x, (x < node ∨ node + s.block_size ≤ x) → (x < 56 ∨ 64 ≤ x) → s1.mem x = s.mem x) ∧
    s1.block_size = s.block_size ∧ s1.region_size = s.region_size := by
  obtain ⟨_, b2, b3, _, _⟩ := nodeFits_bounds cfg s.block_size node hfit
  have hke : get_internal_keys node = node + 16 := rfl
  rw [hke] at h1 h2
  generalize hcb : get_internal_children node cfg.max_keys = cb at *
  obtain ⟨sk1, sc1, sf1⟩ := shift_right_spec (node + 16) cb idx (count - idx) s.mem (by omega)
  rw [← h1] at sk1 sc1 sf1
  have e_ci : idx + (count - idx) = count := by omega
  rw [e_ci] at sk1 sc1 sf1
  have fr2 : ∀ x, (x < node + 16 + 4 * idx ∨ node + 16 + 4 * idx + 4 ≤ x) → m2 x = m1 x :=
    fun x hx => by rw [h2]; exact wrI32_other _ _ _ _ hx
  have fr3 : ∀ x, (x < cb + 8 * (idx + 1) ∨ cb + 8 * (idx + 1) + 8 ≤ x) → m3 x = m2 x :=
    fun x hx => by rw [h3]; exact wr64_other _ _ _ _ hx
  have fr4 : ∀ x, (x < node + 4 ∨ node + 8 ≤ x) → m4 x = m3 x :=
    fun x hx => by rw [h4]; exact wr32_other _ _ _ _ (by omega)
  have fr5 : ∀ x, (x < node + 8 ∨ node + 12 ≤ x) → (x < 56 ∨ 64 ≤ x) → s1.mem x = m4 x :=
    fun x hx hx2 => by rw [h5]; exact persist_node_mem _ _ _ ⟨hx, hx2⟩
  have late : ∀ x, node + 12 ≤ x → s1.mem x = m3 x := fun x hx => by
    rw [fr5 x (by omega) (by omega), fr4 x (by omega)]
  have hkc3 : key_count m3 node = count := by
    rw [hcount]
    apply key_count_congr
    intro x hx1 hx2
    rw [fr3 x (by omega), fr2 x (by omega), sf1 x (by omega) (by omega)]
  have hkc : key_count s1.mem node = count + 1 := by
    unfold key_count
    rw [rd32_congr s1.mem m4 (node + 4) (fun x hx1 hx2 => fr5 x (by omega) (by omega)), h4,
      rd32_wr32_same, hkc3, Nat.mod_eq_of_lt (by omega)]
  have hK : ∀ j, j ≤ count → rdI32 s1.mem (node + 16 + 4 * j) =
      if j < idx then rdI32 s.mem (node + 16 + 4 * j)
      else if j = idx then res.split_key else rdI32 s.mem (node + 16 + 4 * (j - 1)) := by
    intro j hj
    rw [rdI32_congr s1.mem m2 _ (fun x hx1 hx2 => by rw [late x (by omega), fr3 x (by omega)])]
    by_cases c1 : j = idx
    · subst c1
      rw [if_neg (by omega), if_pos rfl, h2]
      exact rdI32_wrI32_same _ _ _ hsk
    · rw [rdI32_congr m2 m1 _ (fun x hx1 hx2 => fr2 x (by omega))]
      unfold rdI32
      rw [sk1 j hj]
      by_cases c2 : j < idx
      · rw [if_neg (by omega), if_pos c2]
      · rw [if_pos (by omega), if_neg c2, if_neg c1]
  have hC : ∀ j, j ≤ count + 1 → rd64 s1.mem (cb + 8 * j) =
      if j ≤ idx then rd64 s.mem (cb + 8 * j)
      else if j = idx + 1 then res.new_child_offset else rd64 s.mem (cb + 8 * (j - 1)) := by
    intro j hj
    rw [rd64_congr s1.mem m3 _ (fun x hx1 hx2 => late x (by omega))]
    by_cases c1 : j = idx + 1
    · subst c1
      rw [if_neg (by omega), if_pos rfl, h3, rd64_wr64_same, Nat.mod_eq_of_lt hnew]
    · rw [rd64_congr m3 m2 _ (fun x hx1 hx2 => fr3 x (by omega)),
        rd64_congr m2 m1 _ (fun x hx1 hx2 => fr2 x (by omega)), sc1 j]
      by_cases c2 : j ≤ idx
      · rw [if_neg (by omega), if_pos c2]
      · rw [if_pos (by omega), if_neg c2, if_neg c1]
  have hL1 : ∀ (lo : Int) j, j ≤ idx → lower_bound s1.mem node lo j = lower_bound s.mem node lo j := by
    intro lo j hj
    unfold lower_bound
    by_cases c : j = 0
    · simp only [if_pos c]
    · have c2 : j - 1 < idx := by omega
      simp only [if_neg c, hke, hK (j - 1) (by omega), if_pos c2]
  have hL2 : ∀ lo : Int, lower_bound s1.mem node lo (idx + 1) = res.split_key := by
    intro lo
    unfold lower_bound
    have c : ¬ idx + 1 = 0 := by omega
    have c2 : ¬ idx < idx := by omega
    have e : idx + 1 - 1 = idx := by omega
    simp only [if_neg c, hke, e, hK idx hidx, if_neg c2, if_true]
  have hL3 : ∀ (lo : Int) j, idx + 1 < j → j ≤ count + 1 →
      lower_bound s1.mem node lo j = lower_bound s.mem node lo (j - 1) := by
    intro lo j hj1 hj2
    unfold lower_bound
    have c : ¬ j = 0 := by omega
    have c1 : ¬ j - 1 = 0 := by omega
    have c2 : ¬ j - 1 < idx := by omega
    have c3 : ¬ j - 1 = idx := by omega
    simp only [if_neg c, if_neg c1, hke, hK (j - 1) (by omega), if_neg c2, if_neg c3]
  have hU1 : ∀ (hi : Int) j, j < idx → upper_bound s1.mem node hi j = upper_bound s.mem node hi j := by
    intro hi j hj
    unfold upper_bound
    have c : j < count + 1 := by omega
    have c1 : j < count := by omega
    simp only [hkc, ← hcount, if_pos c, if_pos c1, hke, hK j (by omega), if_pos hj]
  have hU2 : ∀ hi : Int, upper_bound s1.mem node hi idx = res.split_key := by
    intro hi
    unfold upper_bound
    have c : idx < count + 1 := by omega
    have c2 : ¬ idx < idx := by omega
    simp only [hkc, if_pos c, hke, hK idx hidx, if_neg c2, if_true]
  have hU3 : ∀ (hi : Int) j, idx < j → j ≤ count + 1 →
      upper_bound s1.mem node hi j = upper_bound s.mem node hi (j - 1) := by
    intro hi j hj1 hj2
    unfold upper_bound
    rw [hkc, ← hcount]
    by_cases c : j < count + 1
    · have c1 : j - 1 < count := by omega
      have c2 : ¬ j < idx := by omega
      have c3 : ¬ j = idx := by omega
      simp only [if_pos c, if_pos c1, hke, hK j (by omega), if_neg c2, if_neg c3]
    · have c1 : ¬ j - 1 < count := by omega
      simp only [if_neg c, if_neg c1]
  have hC1 : ∀ j, j ≤ idx → child cfg s1.mem node j = child cfg s.mem node j := by
    intro j hj
    unfold child
    simp only [hcb, hC j (by omega), if_pos hj]
  have hC2 : child cfg s1.mem node (idx + 1) = res.new_child_offset := by
    unfold child
    have c : ¬ idx + 1 ≤ idx := by omega
    simp only [hcb, hC (idx + 1) (by omega), if_neg c, if_true]
  have hC3 : ∀ j, idx + 1 < j → j ≤ count + 1 →
      child cfg s1.mem node j = child cfg s.mem node (j - 1) := by
    intro j hj1 hj2
    unfold child
    have c : ¬ j ≤ idx := by omega
    have c1 : ¬ j = idx + 1 := by omega
    simp only [hcb, hC j hj2, if_neg c, if_neg c1]
  refine ⟨?_, hkc, ?_, ?_, ?_, ?_⟩
  · apply is_leaf_congr
    rw [fr5 node (by omega) (by omega), fr4 node (by omega), fr3 node (by omega),
      fr2 node (by omega), sf1 node (by omega) (by omega)]
  · intro lo hi
    unfold node_view
    rw [hkc, ← hcount]
    apply range_map_insert _ _ count idx _ _ hidx
    · intro j hj
      show (lower_bound s1.mem node lo j, child cfg s1.mem node j, upper_bound s1.mem node hi j)
        = (lower_bound s.mem node lo j, child cfg s.mem node j, upper_bound s.mem node hi j)
      rw [hL1 lo j (by omega), hC1 j (by omega), hU1 hi j hj]
    · show (lower_bound s1.mem node lo idx, child cfg s1.mem node idx,
          upper_bound s1.mem node hi idx) = _
      rw [hL1 lo idx (le_refl _), hC1 idx (le_refl _), hU2 hi]
    · show (lower_bound s1.mem node lo (idx + 1), child cfg s1.mem node (idx + 1),
          upper_bound s1.mem node hi (idx + 1)) = _
      rw [hL2 lo, hC2, hU3 hi (idx + 1) (by omega) (by omega)]
      rfl
    · intro j hj1 hj2
      show (lower_bound s1.mem node lo j, child cfg s1.mem node j, upper_bound s1.mem node hi j)
        = (lower_bound s.mem node lo (j - 1), child cfg s.mem node (j - 1),
          upper_bound s.mem node hi (j - 1))
      rw [hL3 lo j hj1 hj2, hC3 j hj1 hj2, hU3 hi j (by omega) hj2]
  · intro x hx1 hx2
    rw [fr5 x (by omega) hx2, fr4 x (by omega), fr3 x (by omega), fr2 x (by omega),
      sf1 x (by omega) (by omega)]
  · rw [h5]; rfl
  · rw [h5]; rfl

theorem install_pivot_spec (cfg : BTreeConfig) (s : Manager) (node idx : Nat)
    (res : InsertResult)
    (hfit : NodeFits cfg s.block_size node) (h64 : 64 ≤ node)
    (hroom : key_count s.mem node < cfg.max_keys)
    (hcap : cfg.max_keys < 2147483648) (hidx : idx ≤ key_count s.mem node)
    (hsk : isInt32 res.split_key) (hnew : res.new_child_offset < 18446744073709551616) :
    is_leaf (install_pivot cfg s node idx (key_count s.mem node) res).mem node = is_leaf s.mem node ∧
    key_count (install_pivot cfg s node idx (key_count s.mem node) res).mem node =
      key_count s.mem node + 1 ∧
    (∀ lo hi, node_view cfg (install_pivot cfg s node idx (key_count s.mem node) res).mem node lo hi =
      (node_view cfg s.mem node lo hi).take idx ++
        [(lower_bound s.mem node lo idx, child cfg s.mem node idx, res.split_key),
         (res.split_key, res.new_child_offset, upper_bound s.mem node hi idx)] ++
        (node_view cfg s.mem node lo hi).drop (idx + 1)) ∧
    (∀ x, (x < node ∨ node + s.block_size ≤ x) → (x < 56 ∨ 64 ≤ x) →
      (install_pivot cfg s node idx (key_count s.mem node) res).mem x = s.mem x) ∧
    (install_pivot cfg s node idx (key_count s.mem node) res).block_size = s.block_size ∧
    (install_pivot cfg s node idx (key_count s.mem node) res).region_size = s.region_size :=
  install_pivot_mem cfg s node idx _ res _ _ _ _ _ hfit h64 rfl hroom hcap hidx hsk hnew
    rfl rfl rfl rfl rfl

end BTree

namespace BTree

/-- The copy loop of `split_internal`: keys and children are copied from a source
area that the stores do not touch. -/
theorem copy_upper_spec (ok oc nk nc mid : Nat) :
    ∀ (n i : Nat) (m : Mem), nk + 4 * (i + n) ≤ nc → ok + 4 * (mid + 1 + i + n) ≤ oc →
      (nc + 8 * (i + n) ≤ ok ∨ oc + 8 * (mid + 1 + i + n) ≤ nk) →
      (∀ j, i ≤ j → j < i + n → rd32 (copy_upper ok oc nk nc mid n i m) (nk + 4 * j) =
        rd32 m (ok + 4 * (mid + 1 + j))) ∧
      (∀ j, i ≤ j → j < i + n → rd64 (copy_upper ok oc nk nc mid n i m) (nc + 8 * j) =
        rd64 m (oc + 8 * (mid + 1 + j))) ∧
      (∀ x, (x < nk + 4 * i ∨ nk + 4 * (i + n) ≤ x) → (x < nc + 8 * i ∨ nc + 8 * (i + n) ≤ x) →
        copy_upper ok oc nk nc mid n i m x = m x) := by
  intro n
  induction n with
  | zero =>
    intro i m _ _ _
    unfold copy_upper
    exact ⟨fun j h1 h2 => by omega, fun j h1 h2 => by omega, fun x _ _ => rfl⟩
  | succ n ih =>
    intro i m hw hok hd
    unfold copy_upper
    simp only []
    obtain ⟨ik, ic, ifr⟩ := ih (i + 1)
      (wr64 (wr32 m (nk + 4 * i) (rd32 m (ok + 4 * (mid + 1 + i)))) (nc + 8 * i)
        (rd64 (wr32 m (nk + 4 * i) (rd32 m (ok + 4 * (mid + 1 + i)))) (oc + 8 * (mid + 1 + i))))
      (by omega) (by omega) (by omega)
    have fr1 : ∀ x, (x < nk + 4 * i ∨ nk + 4 * i + 4 ≤ x) → (x < nc + 8 * i ∨ nc + 8 * i + 8 ≤ x) →
        (wr64 (wr32 m (nk + 4 * i) (rd32 m (ok + 4 * (mid + 1 + i)))) (nc + 8 * i)
          (rd64 (wr32 m (nk + 4 * i) (rd32 m (ok + 4 * (mid + 1 + i))))
            (oc + 8 * (mid + 1 + i)))) x = m x := by
      intro x h1 h2
      rw [wr64_other _ _ _ _ h2, wr32_other _ _ _ _ h1]
    refine ⟨?_, ?_, ?_⟩
    · intro j h1 h2
      by_cases c : j = i
      · subst c
        rw [rd32_congr _ _ _ (fun x hx1 hx2 => ifr x (by omega) (by omega)),
          rd32_wr64_other _ _ _ _ (by omega), rd32_wr32_same,
          Nat.mod_eq_of_lt (rd32_lt _ _)]
      · rw [ik j (by omega) (by omega)]
        exact rd32_congr _ _ _ (fun x hx1 hx2 => fr1 x (by omega) (by omega))
    · intro j h1 h2
      by_cases c : j = i
      · subst c
        rw [rd64_congr _ _ _ (fun x hx1 hx2 => ifr x (by omega) (by omega)),
          rd64_wr64_same, Nat.mod_eq_of_lt (rd64_lt _ _)]
        exact rd64_congr _ _ _ (fun x hx1 hx2 => wr32_other _ _ _ _ (by omega))
      · rw [ic j (by omega) (by omega)]
        exact rd64_congr _ _ _ (fun x hx1 hx2 => fr1 x (by omega) (by omega))
    · intro x h1 h2
      rw [ifr x (by omega) (by omega), fr1 x (by omega) (by omega)]

/-- Memory after the stores of `split_internal` that follow the allocation. -/
theorem split_internal_mem (cfg : BTreeConfig) (s1 : Manager) (old new : Nat)
    (total mid n : Nat) (m0 ma mb mc md : Mem) (s2 s3 : Manager)
    (hfo : NodeFits cfg s1.block_size old) (hfn : NodeFits cfg s1.block_size new)
    (h64o : 64 ≤ old) (h64n : 64 ≤ new)
    (hsep : old + s1.block_size ≤ new ∨ new + s1.block_size ≤ old)
    (hcap : cfg.max_keys < 2147483648)
    (htot : total = key_count s1.mem old) (hfull : total ≤ cfg.max_keys) (hmid : mid < total)
    (hn : n = total - 1 - mid)
    (h0 : m0 = wr8 s1.mem new 0)
    (ha : ma = copy_upper (get_internal_keys old) (get_internal_children old cfg.max_keys)
      (get_internal_keys new) (get_internal_children new cfg.max_keys) mid n 0 m0)
    (hb : mb = wr64 ma (get_internal_children new cfg.max_keys + 8 * n)
      (rd64 ma (get_internal_children old cfg.max_keys + 8 * total)))
    (hc : mc = wr32 mb (new + 4) n)
    (h2 : s2 = persist_node { s1 with mem := mc } new)
    (hd : md = wr32 s2.mem (old + 4) mid)
    (h3 : s3 = persist_node { s2 with mem := md } old) :
    is_leaf s3.mem old = is_leaf s1.mem old ∧ is_leaf s3.mem new = false ∧
    key_count s3.mem old = mid ∧ key_count s3.mem new = n ∧
    (∀ lo hi, node_view cfg s3.mem old lo (rdI32 s1.mem (get_internal_keys old + 4 * mid)) =
      (node_view cfg s1.mem old lo hi).take (mid + 1)) ∧
    (∀ lo hi, node_view cfg s3.mem new (rdI32 s1.mem (get_internal_keys old + 4 * mid)) hi =
      (node_view cfg s1.mem old lo hi).drop (mid + 1)) ∧
    (∀ x, (x < old ∨ old + s1.block_size ≤ x) → (x < new ∨ new + s1.block_size ≤ x) →
      (x < 56 ∨ 64 ≤ x) → s3.mem x = s1.mem x) ∧
    s3.block_size = s1.block_size ∧ s3.region_size = s1.region_size ∧
    s3.allocated_blocks = s1.allocated_blocks := by
  obtain ⟨_, o2, o3, _, _⟩ := nodeFits_bounds cfg s1.block_size old hfo
  obtain ⟨_, n2, n3, _, _⟩ := nodeFits_bounds cfg s1.block_size new hfn
  have hke : ∀ o, get_internal_keys o = o + 16 := fun _ => rfl
  rw [hke, hke] at ha
  generalize hoc : get_internal_children old cfg.max_keys = oc at *
  generalize hnc : get_internal_children new cfg.max_keys = nc at *
  obtain ⟨ck, cc, cf⟩ := copy_upper_spec (old + 16) oc (new + 16) nc mid n 0 m0
    (by omega) (by omega) (by omega)
  rw [← ha] at ck cc cf
  have fr0 : ∀ x, x ≠ new → m0 x = s1.mem x := fun x hx => by rw [h0]; exact wr8_other _ _ _ _ hx
  have frb : ∀ x, (x < nc + 8 * n ∨ nc + 8 * n + 8 ≤ x) → mb x = ma x :=
    fun x hx => by rw [hb]; exact wr64_other _ _ _ _ hx
  have frc : ∀ x, (x < new + 4 ∨ new + 8 ≤ x) → mc x = mb x :=
    fun x hx => by rw [hc]; exact wr32_other _ _ _ _ (by omega)
  have fr2 : ∀ x, (x < new + 8 ∨ new + 12 ≤ x) → (x < 56 ∨ 64 ≤ x) → s2.mem x = mc x :=
    fun x hx hx2 => by rw [h2]; exact persist_node_mem _ _ _ ⟨hx, hx2⟩
  have frd : ∀ x, (x < old + 4 ∨ old + 8 ≤ x) → md x = s2.mem x :=
    fun x hx => by rw [hd]; exact wr32_other _ _ _ _ (by omega)
  have fr3 : ∀ x, (x < old + 8 ∨ old + 12 ≤ x) → (x < 56 ∨ 64 ≤ x) → s3.mem x = md x :=
    fun x hx hx2 => by rw [h3]; exact persist_node_mem _ _ _ ⟨hx, hx2⟩
  have hbs2 : s2.block_size = s1.block_size := by rw [h2]; rfl
  -- bytes of the old node outside count and checksum are untouched
  have inold : ∀ x, old ≤ x → x < old + s1.block_size → (x < old + 4 ∨ old + 12 ≤ x) →
      s3.mem x = s1.mem x := by
    intro x hx1 hx2 hx3
    rw [fr3 x (by omega) (by omega), frd x (by omega), fr2 x (by omega) (by omega),
      frc x (by omega), frb x (by omega), cf x (by omega) (by omega), fr0 x (by omega)]
  -- bytes of the new node behind the header come from the copy
  have innew : ∀ x, new + 12 ≤ x → x < new + s1.block_size → s3.mem x = mb x := by
    intro x hx1 hx2
    rw [fr3 x (by omega) (by omega), frd x (by omega), fr2 x (by omega) (by omega),
      frc x (by omega)]
  have srcold : ∀ x, old ≤ x → x < old + s1.block_size → ma x = s1.mem x := by
    intro x hx1 hx2
    rw [cf x (by omega) (by omega), fr0 x (by omega)]
  have hkco : key_count s3.mem old = mid := by
    unfold key_count
    rw [rd32_congr s3.mem md (old + 4) (fun x hx1 hx2 => fr3 x (by omega) (by omega)), hd,
      rd32_wr32_same, Nat.mod_eq_of_lt (by omega)]
  have hkcn : key_count s3.mem new = n := by
    unfold key_count
    rw [rd32_congr s3.mem mc (new + 4) (fun x hx1 hx2 => by
        rw [fr3 x (by omega) (by omega), frd x (by omega), fr2 x (by omega) (by omega)]), hc,
      rd32_wr32_same, Nat.mod_eq_of_lt (by omega)]
  -- keys and children of the old node
  have hKo : ∀ j, j < cfg.max_keys → rdI32 s3.mem (old + 16 + 4 * j) = rdI32 s1.mem (old + 16 + 4 * j) :=
    fun j hj => rdI32_congr _ _ _ (fun x hx1 hx2 => inold x (by omega) (by omega) (by omega))
  have hCo : ∀ j, j ≤ cfg.max_keys → rd64 s3.mem (oc + 8 * j) = rd64 s1.mem (oc + 8 * j) :=
    fun j hj => rd64_congr _ _ _ (fun x hx1 hx2 => inold x (by omega) (by omega) (by omega))
  -- keys and children of the new node
  have hKn : ∀ j, j < n → rdI32 s3.mem (new + 16 + 4 * j) =
      rdI32 s1.mem (old + 16 + 4 * (mid + 1 + j)) := by
    intro j hj
    unfold rdI32
    rw [rd32_congr s3.mem ma _ (fun x hx1 hx2 => by
      rw [innew x (by omega) (by omega), frb x (by omega)]), ck j (by omega) (by omega)]
    congr 1
    exact rd32_congr _ _ _ (fun x hx1 hx2 => fr0 x (by omega))
  have hCn : ∀ j, j ≤ n → rd64 s3.mem (nc + 8 * j) = rd64 s1.mem (oc + 8 * (mid + 1 + j)) := by
    intro j hj
    rw [rd64_congr s3.mem mb _ (fun x hx1 hx2 => innew x (by omega) (by omega))]
    by_cases c : j = n
    · subst c
      rw [hb, rd64_wr64_same, Nat.mod_eq_of_lt (rd64_lt _ _)]
      have e : mid + 1 + j = total := by omega
      rw [e]
      exact rd64_congr _ _ _ (fun x hx1 hx2 => srcold x (by omega) (by omega))
    · rw [rd64_congr mb ma _ (fun x hx1 hx2 => frb x (by omega)), cc j (by omega) (by omega)]
      exact rd64_congr _ _ _ (fun x hx1 hx2 => fr0 x (by omega))
  refine ⟨?_, ?_, hkco, hkcn, ?_, ?_, ?_, ?_, ?_, ?_⟩
  · exact is_leaf_congr _ _ _ (inold old (le_refl _) (by omega) (by omega))
  · unfold is_leaf
    rw [rd8_congr s3.mem m0 new (by
      rw [fr3 new (by omega) (by omega), frd new (by omega), fr2 new (by omega) (by omega),
        frc new (by omega), frb new (by omega), cf new (by omega) (by omega)]), h0, rd8_wr8_same]
    rfl
  · intro lo hi
    unfold node_view
    rw [hkco, ← htot]
    apply range_map_take _ _ (total + 1) (mid + 1) (by omega)
    intro j hj
    have l1 : lower_bound s3.mem old lo j = lower_bound s1.mem old lo j := by
      unfold lower_bound
      by_cases c : j = 0
      · simp only [if_pos c]
      · simp only [if_neg c, hke, hKo (j - 1) (by omega)]
    have c1 : child cfg s3.mem old j = child cfg s1.mem old j := by
      unfold child
      rw [hoc, hCo j (by omega)]
    have u1 : upper_bound s3.mem old (rdI32 s1.mem (old + 16 + 4 * mid)) j =
        upper_bound s1.mem old hi j := by
      unfold upper_bound
      have c2 : j < total := by omega
      rw [hkco, ← htot, if_pos c2]
      by_cases c : j < mid
      · simp only [if_pos c, hke, hKo j (by omega)]
      · have e : j = mid := by omega
        rw [if_neg c, hke, e]
    show (lower_bound s3.mem old lo j, child cfg s3.mem old j,
      upper_bound s3.mem old (rdI32 s1.mem (get_internal_keys old + 4 * mid)) j) = _
    rw [hke, l1, c1, u1]
  · intro lo hi
    unfold node_view
    rw [hkcn, ← htot]
    have e : n + 1 = total + 1 - (mid + 1) := by omega
    rw [e]
    apply range_map_drop _ _ (total + 1) (mid + 1) (by omega)
    intro j hj
    have l1 : lower_bound s3.mem new (rdI32 s1.mem (old + 16 + 4 * mid)) j =
        lower_bound s1.mem old lo (mid + 1 + j) := by
      unfold lower_bound
      have c0 : ¬ mid + 1 + j = 0 := by omega
      rw [if_neg c0]
      by_cases c : j = 0
      · subst c
        simp only [if_true, hke]
        rfl
      · have e2 : mid + 1 + j - 1 = mid + 1 + (j - 1) := by omega
        simp only [if_neg c, hke, hKn (j - 1) (by omega), e2]
    have c1 : child cfg s3.mem new j = child cfg s1.mem old (mid + 1 + j) := by
      unfold child
      rw [hoc, hnc, hCn j (by omega)]
    have u1 : upper_bound s3.mem new hi j = upper_bound s1.mem old hi (mid + 1 + j) := by
      unfold upper_bound
      rw [hkcn, ← htot]
      by_cases c : j < n
      · have c2 : mid + 1 + j < total := by omega
        simp only [if_pos c, if_pos c2, hke, hKn j c]
      · have c2 : ¬ mid + 1 + j < total := by omega
        simp only [if_neg c, if_neg c2]
    show (lower_bound s3.mem new (rdI32 s1.mem (get_internal_keys old + 4 * mid)) j,
      child cfg s3.mem new j, upper_bound s3.mem new hi j) = _
    rw [hke, l1, c1, u1]
  · intro x hx1 hx2 hx3
    rw [fr3 x (by omega) hx3, frd x (by omega), fr2 x (by omega) hx3,
      frc x (by omega), frb x (by omega), cf x (by omega) (by omega), fr0 x (by omega)]
  · rw [h3]; exact hbs2
  · rw [h3, h2]; rfl
  · rw [h3, h2]; rfl

end BTree

namespace BTree

/-! ## Blocks and frames -/

theorem block_sep (bs b b' : Nat) (h : b * bs ≠ b' * bs) :
    b * bs + bs ≤ b' * bs ∨ b' * bs + bs ≤ b * bs := by
  rcases Nat.lt_trichotomy b b' with c | c | c
  · left
    have := Nat.mul_le_mul_right bs (Nat.succ_le_of_lt c)
    rw [Nat.succ_mul] at this
    exact this
  · subst c; exact absurd rfl h
  · right
    have := Nat.mul_le_mul_right bs (Nat.succ_le_of_lt c)
    rw [Nat.succ_mul] at this
    exact this

theorem fits_block_size (cfg : BTreeConfig) (bs : Nat) (h : fits cfg bs) : 24 ≤ bs := by
  have := nodeFits_bounds cfg bs (0 * bs) (h.2.2.2 0)
  omega

theorem blockOk_ge (s : Manager) (o : Nat) (h : BlockOk s o) :
    64 + 8 * ((s.block_count + 63) / 64) ≤ o := by
  obtain ⟨b, _, _, _, h4⟩ := h
  exact h4

theorem blockOk_fits (cfg : BTreeConfig) (s : Manager) (o : Nat) (hf : fits cfg s.block_size)
    (h : BlockOk s o) : NodeFits cfg s.block_size o := by
  obtain ⟨b, h1, _, _, _⟩ := h
  rw [h1]
  exact hf.2.2.2 b

theorem blockOk_sep (s : Manager) (o o' : Nat) (h : BlockOk s o) (h' : BlockOk s o')
    (hne : o ≠ o') : o + s.block_size ≤ o' ∨ o' + s.block_size ≤ o := by
  obtain ⟨b, h1, _, _, _⟩ := h
  obtain ⟨b', h1', _, _, _⟩ := h'
  subst h1 h1'
  exact block_sep _ _ _ hne

theorem blockOk_lt (s : Manager) (o : Nat) (h : BlockOk s o) : o + s.block_size ≤ s.region_size := by
  obtain ⟨b, h1, h2, _, _⟩ := h
  subst h1
  unfold Manager.block_count at h2
  have h3 : (b + 1) * s.block_size ≤ s.region_size / s.block_size * s.block_size :=
    Nat.mul_le_mul_right _ (Nat.succ_le_of_lt h2)
  have h4 := Nat.div_mul_le_self s.region_size s.block_size
  rw [Nat.succ_mul] at h3
  omega

theorem block_bit_congr (s s1 : Manager)
    (hm : ∀ x, 64 ≤ x → x < 64 + 8 * ((s.block_count + 63) / 64) → s1.mem x = s.mem x)
    (b : Nat) (hb : b < s.block_count) : s1.block_bit b = s.block_bit b := by
  unfold Manager.block_bit Manager.bitmap_word
  rw [Manager.bitmap_addr_eq]
  rw [rd64_congr s1.mem s.mem _ (fun x h1 h2 => hm x (by omega) (by omega))]

theorem block_count_congr (s s1 : Manager) (hbs : s1.block_size = s.block_size)
    (hrs : s1.region_size = s.region_size) : s1.block_count = s.block_count := by
  unfold Manager.block_count; rw [hbs, hrs]

namespace Frame

theorem refl (s : Manager) (bl : List Nat) : Frame s s bl :=
  ⟨rfl, rfl, fun _ _ h => h, fun _ _ => rfl, fun _ _ _ _ _ _ => rfl⟩

theorem block_count {s s1 : Manager} {bl : List Nat} (h : Frame s s1 bl) :
    s1.block_count = s.block_count := block_count_congr s s1 h.1 h.2.1

theorem blockOk {s s1 : Manager} {bl : List Nat} (h : Frame s s1 bl) (o : Nat)
    (ho : BlockOk s o) : BlockOk s1 o := by
  obtain ⟨b, h1, h2, h3, h4⟩ := ho
  refine ⟨b, ?_, ?_, h.2.2.1 b h2 h3, ?_⟩
  · rw [h.1]; exact h1
  · rw [h.block_count]; exact h2
  · rw [h.block_count]; exact h4

theorem mono {s s1 : Manager} {bl bl' : List Nat} (h : Frame s s1 bl)
    (hsub : ∀ o, o ∈ bl → o ∈ bl') : Frame s s1 bl' :=
  ⟨h.1, h.2.1, h.2.2.1, h.2.2.2.1, fun o ho hn => h.2.2.2.2 o ho (fun hc => hn (hsub o hc))⟩

theorem trans {s s1 s2 : Manager} {bl bl1 : List Nat} (h : Frame s s1 bl) (h1 : Frame s1 s2 bl1)
    (hsub : ∀ o, BlockOk s o → o ∈ bl1 → o ∈ bl) : Frame s s2 bl := by
  refine ⟨by rw [h1.1, h.1], by rw [h1.2.1, h.2.1], ?_, ?_, ?_⟩
  · intro b hb hbit
    exact h1.2.2.1 b (by rw [h.block_count]; exact hb) (h.2.2.1 b hb hbit)
  · intro x hx
    rw [h1.2.2.2.1 x hx, h.2.2.2.1 x hx]
  · intro o ho hn x hx1 hx2
    rw [h1.2.2.2.2 o (h.blockOk o ho) (fun hc => hn (hsub o ho hc)) x hx1 (by rw [h.1]; exact hx2),
      h.2.2.2.2 o ho hn x hx1 hx2]

theorem env {cfg : BTreeConfig} {s s1 : Manager} {bl : List Nat} (h : Frame s s1 bl)
    (he : Env cfg s) : Env cfg s1 := by
  obtain ⟨e1, e2, e3, e4⟩ := he
  refine ⟨by rw [h.1]; exact e1, e2, by rw [h.2.1]; exact e3, ?_⟩
  intro b hb hlt
  rw [h.block_count] at hb
  rw [h.block_count, h.1] at hlt
  exact h.2.2.1 b hb (e4 b hb hlt)

end Frame

/-- Stores that stay inside the blocks `ws` (behind the bitmap) and the checksum
word of the superblock leave everything else alone. -/
theorem frame_of_writes (s s1 : Manager) (ws : List Nat)
    (hbs : s1.block_size = s.block_size) (hrs : s1.region_size = s.region_size)
    (hw : ∀ w ∈ ws, (∃ b, w = b * s.block_size) ∧ 64 + 8 * ((s.block_count + 63) / 64) ≤ w)
    (hm : ∀ x, (∀ w ∈ ws, x < w ∨ w + s.block_size ≤ x) → (x < 56 ∨ 64 ≤ x) →
      s1.mem x = s.mem x) : Frame s s1 ws := by
  refine ⟨hbs, hrs, ?_, ?_, ?_⟩
  · intro b hb hbit
    rw [block_bit_congr s s1 (fun x h1 h2 => hm x (fun w hw' => by
      have := (hw w hw').2; omega) (by omega)) b hb]
    exact hbit
  · intro x hx
    exact hm x (fun w hw' => by have := (hw w hw').2; omega) (by omega)
  · intro o ho hn x hx1 hx2
    have ho64 := blockOk_ge s o ho
    obtain ⟨b, hb1, _, _, _⟩ := ho
    refine hm x (fun w hw' => ?_) (by omega)
    obtain ⟨⟨b', hb'⟩, _⟩ := hw w hw'
    have hne : b * s.block_size ≠ b' * s.block_size := by
      rw [← hb1, ← hb']
      intro e
      rw [e] at hn
      exact hn hw'
    have := block_sep s.block_size b b' hne
    omega

theorem alloc_block_err (s s1 : Manager) (e : Err) (h : s.alloc_block = (.error e, s1)) :
    e = .out_of_memory := by
  unfold Manager.alloc_block at h
  split at h
  · simp only [Prod.mk.injEq, Except.error.injEq] at h
    exact h.1.symm
  · simp only at h
    split at h
    · simp only [Prod.mk.injEq, Except.error.injEq] at h
      exact h.1.symm
    · simp at h

/-- A successful `alloc_block` in a manager whose reserved blocks are allocated
hands out a block behind the bitmap that was not allocated before. -/
theorem alloc_frame (s s1 : Manager) (new : Nat) (h : s.alloc_block = (.ok new, s1))
    (hres : MetaReserved s) (hbs : 0 < s.block_size) :
    Frame s s1 [] ∧ BlockOk s1 new ∧ ¬ BlockOk s new ∧
    (∀ x, x < 64 ∨ 64 + 8 * ((s.block_count + 63) / 64) ≤ x → s1.mem x = s.mem x) := by
  obtain ⟨b, h1, h2, h3, h4, _, h6, h7, _, h9⟩ := Manager.alloc_block_ok s s1 new h
  have hbc : s1.block_count = s.block_count := block_count_congr s s1 h6 h7
  have hge : 64 + 8 * ((s.block_count + 63) / 64) ≤ new := by
    by_contra hc
    have := hres b h2 (by rw [← h1]; omega)
    rw [h3] at this
    exact Bool.noConfusion this
  refine ⟨⟨h6, h7, ?_, ?_, ?_⟩, ⟨b, ?_, ?_, ?_, ?_⟩, ?_, h9⟩
  · intro b' _ hbit
    rw [h4 b', hbit]; rfl
  · intro x hx; exact h9 x (by omega)
  · intro o ho _ x hx1 _
    have := blockOk_ge s o ho
    exact h9 x (by omega)
  · rw [h6]; exact h1
  · rw [hbc]; exact h2
  · rw [h4 b]; simp
  · rw [hbc]; exact hge
  · rintro ⟨b', e1, _, e3, _⟩
    have : b = b' := by
      rw [h1] at e1
      exact Nat.eq_of_mul_eq_mul_right hbs e1
    subst this
    rw [h3] at e3
    exact Bool.noConfusion e3

/-! ## Lists of subtrees -/

theorem shape_succ_L (cfg : BTreeConfig) (m : Mem) (h off : Nat) :
    Shape cfg m (h + 1) off ↔ is_leaf m off = false ∧ key_count m off ≤ cfg.max_keys ∧
      ShapeL cfg m h (node_children cfg m off) := by
  rw [shape_succ]; rfl

theorem blocks_succ_L (cfg : BTreeConfig) (m : Mem) (h off : Nat) :
    blocks cfg m (h + 1) off = off :: blocksL cfg m h (node_children cfg m off) := by
  rw [blocks_succ]; rfl

theorem contents_succ_L (cfg : BTreeConfig) (m : Mem) (h off : Nat) :
    contents cfg m (h + 1) off = contentsL cfg m h (node_children cfg m off) := by
  rw [contents_succ]; rfl

theorem ord_succ_L (cfg : BTreeConfig) (m : Mem) (h off : Nat) (lo hi : Int) :
    Ord cfg m (h + 1) off lo hi ↔ OrdL cfg m h (node_view cfg m off lo hi) := by
  rw [ord_succ]; rfl

theorem blocksL_append (cfg : BTreeConfig) (m : Mem) (h : Nat) (a b : List Nat) :
    blocksL cfg m h (a ++ b) = blocksL cfg m h a ++ blocksL cfg m h b := by
  unfold blocksL; rw [List.map_append, List.flatten_append]

theorem blocksL_cons (cfg : BTreeConfig) (m : Mem) (h : Nat) (a : Nat) (b : List Nat) :
    blocksL cfg m h (a :: b) = blocks cfg m h a ++ blocksL cfg m h b := by
  unfold blocksL; rw [List.map_cons, List.flatten_cons]

theorem blocksL_nil (cfg : BTreeConfig) (m : Mem) (h : Nat) : blocksL cfg m h [] = [] := rfl

theorem contentsL_append (cfg : BTreeConfig) (m : Mem) (h : Nat) (a b : List Nat) :
    contentsL cfg m h (a ++ b) = contentsL cfg m h a ++ contentsL cfg m h b := by
  unfold contentsL; rw [List.map_append, List.flatten_append]

theorem contentsL_cons (cfg : BTreeConfig) (m : Mem) (h : Nat) (a : Nat) (b : List Nat) :
    contentsL cfg m h (a :: b) = contents cfg m h a ++ contentsL cfg m h b := by
  unfold contentsL; rw [List.map_cons, List.flatten_cons]

theorem contentsL_nil (cfg : BTreeConfig) (m : Mem) (h : Nat) : contentsL cfg m h [] = [] := rfl

theorem mem_blocksL (cfg : BTreeConfig) (m : Mem) (h : Nat) (cs : List Nat) (o : Nat) :
    o ∈ blocksL cfg m h cs ↔ ∃ c ∈ cs, o ∈ blocks cfg m h c := by
  unfold blocksL
  rw [List.mem_flatten]
  constructor
  · rintro ⟨l, hl, ho⟩
    obtain ⟨c, hc, rfl⟩ := List.mem_map.mp hl
    exact ⟨c, hc, ho⟩
  · rintro ⟨c, hc, ho⟩
    exact ⟨_, List.mem_map.mpr ⟨c, hc, rfl⟩, ho⟩

theorem blocksL_perm (cfg : BTreeConfig) (m : Mem) (h : Nat) (a b : List Nat) (hp : a.Perm b) :
    (blocksL cfg m h a).Perm (blocksL cfg m h b) := by
  unfold blocksL
  exact List.Perm.flatten (hp.map _)

theorem contentsL_perm (cfg : BTreeConfig) (m : Mem) (h : Nat) (a b : List Nat) (hp : a.Perm b) :
    (contentsL cfg m h a).Perm (contentsL cfg m h b) := by
  unfold contentsL
  exact List.Perm.flatten (hp.map _)

/-- Subtrees whose blocks are not written keep shape, blocks, contents and order. -/
theorem forest_congr (cfg : BTreeConfig) (bs : Nat) (m m' : Mem) (h : Nat) (cs : List Nat)
    (hs : ShapeL cfg m h cs)
    (hb : ∀ o ∈ blocksL cfg m h cs, NodeFits cfg bs o ∧ ∀ x, o ≤ x → x < o + bs → m' x = m x) :
    ShapeL cfg m' h cs ∧ blocksL cfg m' h cs = blocksL cfg m h cs ∧
    contentsL cfg m' h cs = contentsL cfg m h cs ∧
    (∀ c ∈ cs, blocks cfg m' h c = blocks cfg m h c ∧ contents cfg m' h c = contents cfg m h c ∧
      ∀ lo hi, Ord cfg m' h c lo hi ↔ Ord cfg m h c lo hi) := by
  have key : ∀ c ∈ cs, Shape cfg m' h c ∧ blocks cfg m' h c = blocks cfg m h c ∧
      contents cfg m' h c = contents cfg m h c ∧
      (∀ lo hi, Ord cfg m' h c lo hi ↔ Ord cfg m h c lo hi) := by
    intro c hc
    exact subtree_congr cfg bs m m' h c (hs c hc)
      (fun o ho => hb o ((mem_blocksL _ _ _ _ _).mpr ⟨c, hc, ho⟩))
  refine ⟨fun c hc => (key c hc).1, ?_, ?_, fun c hc => (key c hc).2⟩
  · unfold blocksL
    congr 1
    exact List.map_congr_left (fun c hc => (key c hc).2.1)
  · unfold contentsL
    congr 1
    exact List.map_congr_left (fun c hc => (key c hc).2.2.1)

end BTree

namespace BTree

/-- The append branch of `insert_leaf` on an allocated leaf with room. -/
theorem leaf_append_post (cfg : BTreeConfig) (s : Manager) (off : Nat) (key value : Int)
    (henv : Env cfg s) (hok : BlockOk s off)
    (hroom : key_count s.mem off < cfg.leaf_capacity) (hk : isInt32 key) (hv : isInt32 value) :
    let m1 := write_entry s.mem (get_leaf_entries off + 8 * key_count s.mem off) ⟨key, value⟩
    let s1 := persist_node { s with mem := wr32 m1 (off + 4) (key_count m1 off + 1) } off
    Frame s s1 [off] ∧ is_leaf s1.mem off = is_leaf s.mem off ∧
    key_count s1.mem off = key_count s.mem off + 1 ∧
    leaf_entries s1.mem off = leaf_entries s.mem off ++ [⟨key, value⟩] := by
  intro m1 s1
  obtain ⟨a1, a2, a3, a4, a5, a6⟩ := leaf_append_spec cfg s off key value
    (blockOk_fits cfg s off henv.1 hok) (by have := blockOk_ge s off hok; omega) hroom
    henv.1.2.2.1 hk hv
  refine ⟨frame_of_writes s _ [off] a5 a6 ?_ ?_, a1, a2, a3⟩
  · intro w hw
    rw [List.mem_singleton] at hw
    subst hw
    obtain ⟨b, hb, _, _, hge⟩ := hok
    exact ⟨⟨b, hb⟩, hge⟩
  · intro x hx hx2
    exact a4 x (hx off (List.mem_singleton.mpr rfl)) hx2

instance leaf_key_total : IsTotal LeafEntry (fun a b => a.key ≤ b.key) :=
  ⟨fun a b => le_total a.key b.key⟩

instance leaf_key_trans : IsTrans LeafEntry (fun a b => a.key ≤ b.key) :=
  ⟨fun _ _ _ h1 h2 => le_trans h1 h2⟩

/-- The sorted buffer of `split_leaf`: a permutation of the entries, cut at `mid`
into the keys below the split key and the keys from the split key on. -/
theorem sorted_buffer_cut (es : List LeafEntry) (mid : Nat)
    (hmid : mid < es.length) :
    ∃ e, (List.insertionSort (fun a b : LeafEntry => a.key ≤ b.key) es).get? mid = some e ∧
      e ∈ (List.insertionSort (fun a b : LeafEntry => a.key ≤ b.key) es).drop mid ∧
      (∀ a ∈ (List.insertionSort (fun a b : LeafEntry => a.key ≤ b.key) es).take mid,
        a.key ≤ e.key) ∧
      (∀ a ∈ (List.insertionSort (fun a b : LeafEntry => a.key ≤ b.key) es).drop mid,
        e.key ≤ a.key) := by
  have hs := List.sorted_insertionSort (fun a b : LeafEntry => a.key ≤ b.key) es
  have hl := List.length_insertionSort (fun a b : LeafEntry => a.key ≤ b.key) es
  generalize List.insertionSort (fun a b : LeafEntry => a.key ≤ b.key) es = buf at hs hl
  have hm : mid < buf.length := by rw [hl]; exact hmid
  have hd : buf.drop mid = buf[mid] :: buf.drop (mid + 1) := List.drop_eq_getElem_cons hm
  refine ⟨buf[mid], ?_, ?_, ?_, ?_⟩
  · rw [List.get?_eq_getElem?, List.getElem?_eq_getElem hm]
  · rw [hd]; exact List.mem_cons_self _ _
  · intro a ha
    have h1 : buf = buf.take mid ++ buf.drop mid := (List.take_append_drop mid buf).symm
    unfold List.Sorted at hs
    rw [h1, List.pairwise_append] at hs
    exact hs.2.2 a ha buf[mid] (by rw [hd]; exact List.mem_cons_self _ _)
  · intro a ha
    have h2 : (buf.drop mid).Pairwise (fun a b : LeafEntry => a.key ≤ b.key) :=
      List.Pairwise.sublist (List.drop_sublist mid buf) hs
    rw [hd] at h2 ha
    rcases List.mem_cons.mp ha with c | c
    · rw [c]
    · exact (List.pairwise_cons.mp h2).1 a c

/-- A call of `split_leaf` on a full allocated leaf: it fails only in
`alloc_block`, and otherwise cuts the sorted entries at `mid` into the old leaf
and a block that was not allocated before. -/
theorem split_leaf_spec (cfg : BTreeConfig) (s : Manager) (off : Nat)
    (henv : Env cfg s) (hok : BlockOk s off)
    (hfull : key_count s.mem off = cfg.leaf_capacity) :
    ∀ (r : Except Err InsertResult) (s' : Manager), split_leaf cfg s off = (r, s') →
    match r with
    | .error e => e = .out_of_memory
    | .ok res =>
      res.did_split = true ∧
      (∃ e, (List.insertionSort (fun a b : LeafEntry => a.key ≤ b.key)
          (leaf_entries s.mem off)).get? (cfg.leaf_capacity / 2) = some e ∧
        res.split_key = e.key) ∧
      BlockOk s' res.new_child_offset ∧ ¬ BlockOk s res.new_child_offset ∧
      Frame s s' [off] ∧
      is_leaf s'.mem off = is_leaf s.mem off ∧ is_leaf s'.mem res.new_child_offset = true ∧
      leaf_entries s'.mem off = (List.insertionSort (fun a b : LeafEntry => a.key ≤ b.key)
          (leaf_entries s.mem off)).take (cfg.leaf_capacity / 2) ∧
      leaf_entries s'.mem res.new_child_offset =
        (List.insertionSort (fun a b : LeafEntry => a.key ≤ b.key)
          (leaf_entries s.mem off)).drop (cfg.leaf_capacity / 2) := by
  intro r s' h
  obtain ⟨hfit, hlc, hrs, hres⟩ := henv
  have hbs := fits_block_size cfg s.block_size hfit
  unfold split_leaf at h
  generalize ha : s.alloc_block = a at h
  obtain ⟨ra, s1⟩ := a
  cases ra with
  | error e =>
    simp only [Prod.mk.injEq] at h
    rw [← h.1]
    exact alloc_block_err s s1 e ha
  | ok new =>
    obtain ⟨fa, oka, nota, mema⟩ := alloc_frame s s1 new ha hres (by omega)
    have hge := blockOk_ge s1 new oka
    have hn0 : new ≠ 0 := by omega
    have hok1 : BlockOk s1 off := fa.blockOk off hok
    have hne : off ≠ new := fun e => nota (e ▸ hok)
    have hsep := blockOk_sep s1 off new hok1 oka hne
    have hfit1 : fits cfg s1.block_size := by rw [fa.1]; exact hfit
    have hfo := blockOk_fits cfg s1 off hfit1 hok1
    have hfn := blockOk_fits cfg s1 new hfit1 oka
    have hgeo := blockOk_ge s1 off hok1
    have hgeo' := blockOk_ge s off hok
    obtain ⟨o1, _, _, o4, o5⟩ := nodeFits_bounds cfg s1.block_size off hfo
    have hbs1 : s1.block_size = s.block_size := fa.1
    have hv0 : is_leaf (wr8 s1.mem new 1) off = is_leaf s.mem off ∧
        key_count (wr8 s1.mem new 1) off = key_count s.mem off ∧
        leaf_entries (wr8 s1.mem new 1) off = leaf_entries s.mem off :=
      leaf_view_congr cfg s.block_size s.mem (wr8 s1.mem new 1) off
        (blockOk_fits cfg s off hfit hok) (by rw [hfull]) (fun x hx1 hx2 => by
          rw [wr8_other _ _ _ _ (by omega), mema x (by omega)])
    have hkc0 := hv0.2.1
    have hE := hv0.2.2
    rw [hfull] at hkc0
    unfold leaf_entries at hE
    rw [hkc0, hfull] at hE
    simp only [hn0, if_false, hkc0, hE] at h
    obtain ⟨e, hget, _, _, _⟩ := sorted_buffer_cut
      ((List.range cfg.leaf_capacity).map
        (fun i => read_entry s.mem (get_leaf_entries off + 8 * i)))
      (cfg.leaf_capacity / 2) (by
        rw [List.length_map, List.length_range]
        omega)
    have hle : leaf_entries s.mem off = (List.range cfg.leaf_capacity).map
        (fun i => read_entry s.mem (get_leaf_entries off + 8 * i)) := by
      unfold leaf_entries; rw [hfull]
    rw [hle]
    rw [hget] at h
    simp only [Prod.mk.injEq] at h
    obtain ⟨h1, h2⟩ := h
    subst h1 h2
    have hperm := List.perm_insertionSort (fun a b : LeafEntry => a.key ≤ b.key)
      ((List.range cfg.leaf_capacity).map
        (fun i => read_entry s.mem (get_leaf_entries off + 8 * i)))
    obtain ⟨p1, p2, p3, p4, p5, p6, p7, p8, p9, _⟩ := split_leaf_mem cfg s1 off new
      (List.insertionSort (fun a b : LeafEntry => a.key ≤ b.key)
        ((List.range cfg.leaf_capacity).map
          (fun i => read_entry s.mem (get_leaf_entries off + 8 * i))))
      (cfg.leaf_capacity / 2) cfg.leaf_capacity _ _ _ _ _ _ _ _ _ hfo hfn (by omega) (by omega)
      hsep hfit.2.2.1
      (by rw [List.length_insertionSort, List.length_map, List.length_range])
      (le_refl _) (Nat.div_le_self _ _)
      (fun e he => by
        obtain ⟨i, _, hi⟩ := List.mem_map.mp (hperm.subset he)
        rw [← hi]
        exact read_entry_int32 _ _)
      rfl rfl rfl rfl rfl rfl rfl rfl rfl
    refine ⟨rfl, ⟨e, hget, rfl⟩, ?_, nota, ?_, ?_, p2, p5, p6⟩
    · obtain ⟨b, hb1, hb2, hb3, hb4⟩ := oka
      have hbc : ∀ (x : Manager), x.block_size = s1.block_size → x.region_size = s1.region_size →
          x.block_count = s1.block_count := fun x e1 e2 => block_count_congr s1 x e1 e2
      refine ⟨b, by rw [p8]; exact hb1, by rw [hbc _ p8 p9]; exact hb2, ?_,
        by rw [hbc _ p8 p9]; exact hb4⟩
      rw [block_bit_congr s1 _ (fun x hx1 hx2 => p7 x (by omega) (by omega) (by omega)) b hb2]
      exact hb3
    · refine Frame.trans (Frame.mono fa (fun o ho => absurd ho (List.not_mem_nil o)))
        (frame_of_writes s1 _ [off, new] p8 p9 ?_ ?_) ?_
      · intro w hw
        rcases List.mem_cons.mp hw with c | c
        · subst c
          obtain ⟨b, hb, _, _, hg⟩ := hok1
          exact ⟨⟨b, hb⟩, hg⟩
        · rw [List.mem_singleton] at c
          subst c
          obtain ⟨b, hb, _, _, hg⟩ := oka
          exact ⟨⟨b, hb⟩, hg⟩
      · intro x hx hx2
        exact p7 x (hx off (List.mem_cons_self _ _))
          (hx new (List.mem_cons_of_mem _ (List.mem_singleton.mpr rfl))) hx2
      · intro o ho hm
        rcases List.mem_cons.mp hm with c | c
        · exact List.mem_singleton.mpr c
        · rw [List.mem_singleton] at c
          exact absurd (c ▸ ho) nota
    · rw [p1]
      exact is_leaf_congr _ _ _ (mema off (by omega))

end BTree

namespace BTree

theorem res_roots_false (off : Nat) (n : Nat) (k : Int) :
    res_roots off ⟨k, n, false⟩ = [off] := rfl

theorem owned_leaf (cfg : BTreeConfig) (s : Manager) (off : Nat) (hown : Owned cfg s 0 off) :
    BlockOk s off ∧ is_leaf s.mem off = true ∧ key_count s.mem off ≤ cfg.leaf_capacity := by
  obtain ⟨h1, _, h3⟩ := hown
  rw [shape_zero] at h1
  exact ⟨h3 off (by rw [blocks_zero]; exact List.mem_singleton.mpr rfl), h1.1, h1.2⟩

theorem owned_leaf_of (cfg : BTreeConfig) (s : Manager) (off : Nat) (h1 : BlockOk s off)
    (h2 : is_leaf s.mem off = true) (h3 : key_count s.mem off ≤ cfg.leaf_capacity) :
    Owned cfg s 0 off := by
  refine ⟨by rw [shape_zero]; exact ⟨h2, h3⟩, by rw [blocks_zero]; exact List.nodup_singleton _, ?_⟩
  intro o ho
  rw [blocks_zero, List.mem_singleton] at ho
  rw [ho]; exact h1

/-- The append branch of `insert_leaf` establishes the postcondition. -/
theorem leaf_insert_room (cfg : BTreeConfig) (s : Manager) (off : Nat) (key value : Int)
    (henv : Env cfg s) (hown : Owned cfg s 0 off)
    (hroom : key_count s.mem off < cfg.leaf_capacity) (hk : isInt32 key) (hv : isInt32 value) :
    let m1 := write_entry s.mem (get_leaf_entries off + 8 * key_count s.mem off) ⟨key, value⟩
    let s1 := persist_node { s with mem := wr32 m1 (off + 4) (key_count m1 off + 1) } off
    InsertPost cfg s s1 0 off key value ⟨0, 0, false⟩ := by
  intro m1 s1
  obtain ⟨hok, hleaf, _⟩ := owned_leaf cfg s off hown
  obtain ⟨fr, a1, a2, a3⟩ := leaf_append_post cfg s off key value henv hok hroom hk hv
  have hshape : Shape cfg s1.mem 0 off := by
    rw [shape_zero]
    exact ⟨by rw [a1]; exact hleaf, by rw [a2]; omega⟩
  refine ⟨by rw [blocks_zero]; exact fr, ⟨by decide, by decide⟩, ?_, ?_, ?_, ?_, ?_⟩
  · intro c hc
    rw [res_roots_false, List.mem_singleton] at hc
    rw [hc]; exact hshape
  · rw [res_roots_false, blocksL_cons, blocksL_nil, blocks_zero]
    exact List.nodup_singleton _
  · intro o ho
    rw [res_roots_false, blocksL_cons, blocksL_nil, blocks_zero] at ho
    simp only [List.append_nil, List.mem_singleton] at ho
    rw [ho, blocks_zero]
    exact ⟨fr.blockOk off hok, Or.inl (List.mem_singleton.mpr rfl)⟩
  · rw [res_roots_false, contentsL_cons, contentsL_nil, contents_zero, contents_zero,
      List.append_nil, a3]
    exact List.perm_append_singleton _ _
  · intro lo hi hord hlo hhi hnew
    rw [ord_zero] at hord
    rw [contents_zero] at hnew
    intro t ht
    have e : t = (lo, off, hi) := by
      have : res_view off ⟨0, 0, false⟩ lo hi = [(lo, off, hi)] := rfl
      rw [this, List.mem_singleton] at ht
      exact ht
    subst e
    refine ⟨by show lo < hi; omega, ?_⟩
    show Ord cfg s1.mem 0 off lo hi
    rw [ord_zero, a3]
    constructor
    · rw [List.map_append, List.map_singleton]
      refine List.Nodup.append hord.1 (List.nodup_singleton _) ?_
      intro x hx1 hx2
      rw [List.mem_singleton] at hx2
      obtain ⟨e, he, hek⟩ := List.mem_map.mp hx1
      exact hnew e he (by rw [hek, hx2])
    · intro e he
      rcases List.mem_append.mp he with c | c
      · exact hord.2 e c
      · rw [List.mem_singleton] at c
        rw [c]
        exact ⟨hlo, hhi⟩

theorem leaf_entries_int32 (m : Mem) (off : Nat) (e : LeafEntry) (he : e ∈ leaf_entries m off) :
    isInt32 e.key ∧ isInt32 e.value := by
  obtain ⟨i, _, hi⟩ := (mem_leaf_entries m off e).mp he
  rw [← hi]
  exact read_entry_int32 _ _

/-- A leaf that a frame does not list keeps its views. -/
theorem leaf_frame (cfg : BTreeConfig) (s s1 : Manager) (bl : List Nat) (o : Nat)
    (hfit : fits cfg s.block_size) (fr : Frame s s1 bl) (hok : BlockOk s o) (hn : o ∉ bl)
    (hkc : key_count s.mem o ≤ cfg.leaf_capacity) :
    is_leaf s1.mem o = is_leaf s.mem o ∧ key_count s1.mem o = key_count s.mem o ∧
    leaf_entries s1.mem o = leaf_entries s.mem o :=
  leaf_view_congr cfg s.block_size s.mem s1.mem o (blockOk_fits cfg s o hfit hok) hkc
    (fr.2.2.2.2 o hok hn)

/-- The split branch of `insert_leaf`: split, then append to the half the key
belongs to. -/
theorem leaf_split_post (cfg : BTreeConfig) (s s1 s2 : Manager) (off t : Nat)
    (key value : Int) (sres : InsertResult) (B : List LeafEntry) (mid : Nat) (e : LeafEntry)
    (henv : Env cfg s) (hown : Owned cfg s 0 off)
    (hd : sres.did_split = true)
    (hB : B.Perm (leaf_entries s.mem off))
    (hmid : 1 ≤ mid) (hmid2 : mid < B.length) (hlen : B.length = cfg.leaf_capacity)
    (he : e ∈ B.drop mid) (hsk : sres.split_key = e.key)
    (hT : ∀ a ∈ B.take mid, a.key ≤ e.key) (hD : ∀ a ∈ B.drop mid, e.key ≤ a.key)
    (okn : BlockOk s1 sres.new_child_offset) (notn : ¬ BlockOk s sres.new_child_offset)
    (fr1 : Frame s s1 [off])
    (l1 : is_leaf s1.mem off = true) (l2 : is_leaf s1.mem sres.new_child_offset = true)
    (e1 : leaf_entries s1.mem off = B.take mid)
    (e2 : leaf_entries s1.mem sres.new_child_offset = B.drop mid)
    (ht : t = if key ≥ sres.split_key then sres.new_child_offset else off)
    (post : InsertPost cfg s1 s2 0 t key value ⟨0, 0, false⟩) :
    InsertPost cfg s s2 0 off key value sres := by
  obtain ⟨hok, hleaf, hkc⟩ := owned_leaf cfg s off hown
  have henv1 : Env cfg s1 := fr1.env henv
  have hok1 : BlockOk s1 off := fr1.blockOk off hok
  have hne : off ≠ sres.new_child_offset := fun c => notn (c ▸ hok)
  obtain ⟨fr2, _, sh2, _, bk2, ct2, ord2⟩ := post
  rw [blocks_zero] at fr2 bk2
  rw [res_roots_false] at sh2 bk2 ct2
  rw [contentsL_cons, contentsL_nil, List.append_nil, contents_zero, contents_zero] at ct2
  rw [blocksL_cons, blocksL_nil, List.append_nil, blocks_zero] at bk2
  have sht := sh2 t (List.mem_singleton.mpr rfl)
  rw [shape_zero] at sht
  have okt := (bk2 t (List.mem_singleton.mpr rfl)).1
  have hlt : (B.take mid).length = mid := by rw [List.length_take]; omega
  have hld : (B.drop mid).length = cfg.leaf_capacity - mid := by rw [List.length_drop, hlen]
  have kc1o : key_count s1.mem off = mid := by rw [← leaf_entries_length, e1, hlt]
  have kc1n : key_count s1.mem sres.new_child_offset = cfg.leaf_capacity - mid := by
    rw [← leaf_entries_length, e2, hld]
  have hroots : res_roots off sres = [off, sres.new_child_offset] := by
    unfold res_roots; rw [hd]; rfl
  have hview : ∀ lo hi, res_view off sres lo hi =
      [(lo, off, sres.split_key), (sres.split_key, sres.new_child_offset, hi)] := by
    intro lo hi; unfold res_view; rw [hd]; rfl
  have heB : e ∈ B := List.mem_of_mem_drop he
  have hsplit : (B.take mid ++ B.drop mid).Perm (leaf_entries s.mem off) := by
    rw [List.take_append_drop]; exact hB
  -- the leaf that is not the target keeps its entries
  have hfr : Frame s s2 [off] := by
    refine Frame.trans fr1 fr2 ?_
    intro o ho hm
    rw [List.mem_singleton] at hm
    rw [ht] at hm
    split at hm
    · exact absurd (hm ▸ ho) notn
    · exact List.mem_singleton.mpr hm
  have other : ∀ u, BlockOk s1 u → u ≠ t → key_count s1.mem u ≤ cfg.leaf_capacity →
      is_leaf s2.mem u = is_leaf s1.mem u ∧ key_count s2.mem u = key_count s1.mem u ∧
      leaf_entries s2.mem u = leaf_entries s1.mem u := fun u hu hut hukc =>
    leaf_frame cfg s1 s2 [t] u henv1.1 fr2 hu (fun c => hut (List.mem_singleton.mp c)) hukc
  -- both leaves after the call
  have both : Shape cfg s2.mem 0 off ∧ BlockOk s2 off ∧
      Shape cfg s2.mem 0 sres.new_child_offset ∧ BlockOk s2 sres.new_child_offset ∧
      (leaf_entries s2.mem off ++ leaf_entries s2.mem sres.new_child_offset).Perm
        (⟨key, value⟩ :: leaf_entries s.mem off) ∧
      (∀ lo hi, Ord cfg s.mem 0 off lo hi → lo ≤ key → key < hi →
        (∀ x ∈ leaf_entries s.mem off, x.key ≠ key) →
        Ord cfg s2.mem 0 off lo sres.split_key ∧
        Ord cfg s2.mem 0 sres.new_child_offset sres.split_key hi) := by
    by_cases hc : key ≥ sres.split_key
    · rw [if_pos hc] at ht
      subst ht
      obtain ⟨o1, o2, o3⟩ := other off hok1 hne (by rw [kc1o]; omega)
      refine ⟨?_, fr2.blockOk off hok1, ?_, okt, ?_, ?_⟩
      · rw [shape_zero, o1, o2, kc1o]; exact ⟨l1, by omega⟩
      · rw [shape_zero]; exact sht
      · rw [o3, e1]
        refine List.Perm.trans (List.Perm.append_left _ ct2) ?_
        rw [e2]
        exact List.Perm.trans List.perm_middle (List.Perm.cons _ hsplit)
      · intro lo hi hord hlo hhi hnk
        rw [ord_zero] at hord
        have hkB : (B.map (fun x => x.key)).Nodup := (hB.map _).nodup_iff.mpr hord.1
        rw [← List.take_append_drop mid B, List.map_append] at hkB
        have hdis := List.disjoint_of_nodup_append hkB
        have o2' := ord2 sres.split_key hi (by
            rw [ord_zero, e2]
            refine ⟨(List.nodup_append.mp hkB).2.1, fun a ha => ⟨by rw [hsk]; exact hD a ha, ?_⟩⟩
            exact (hord.2 a (hB.subset (List.mem_of_mem_drop ha))).2) hc hhi (by
            rw [contents_zero, e2]
            intro a ha
            exact hnk a (hB.subset (List.mem_of_mem_drop ha)))
        have o2'' := (o2' (sres.split_key, sres.new_child_offset, hi)
          (List.mem_singleton.mpr rfl)).2
        refine ⟨?_, o2''⟩
        rw [ord_zero, o3, e1]
        refine ⟨(List.nodup_append.mp hkB).1, fun a ha => ⟨?_, ?_⟩⟩
        · exact (hord.2 a (hB.subset (List.mem_of_mem_take ha))).1
        · rw [hsk]
          refine lt_of_le_of_ne (hT a ha) ?_
          intro c
          exact hdis (List.mem_map.mpr ⟨a, ha, rfl⟩) (List.mem_map.mpr ⟨e, he, c.symm⟩)
    · rw [if_neg hc] at ht
      have ht' := ht.symm
      subst ht'
      obtain ⟨o1, o2, o3⟩ := other sres.new_child_offset okn (fun c => hne c.symm)
        (by rw [kc1n]; omega)
      refine ⟨?_, okt, ?_, fr2.blockOk _ okn, ?_, ?_⟩
      · rw [shape_zero]; exact sht
      · rw [shape_zero, o1, o2, kc1n]; exact ⟨l2, by omega⟩
      · rw [o3, e2]
        refine List.Perm.trans (List.Perm.append_right _ ct2) ?_
        rw [e1, List.cons_append]
        exact List.Perm.cons _ hsplit
      · intro lo hi hord hlo hhi hnk
        rw [ord_zero] at hord
        have hkB : (B.map (fun x => x.key)).Nodup := (hB.map _).nodup_iff.mpr hord.1
        rw [← List.take_append_drop mid B, List.map_append] at hkB
        have hdis := List.disjoint_of_nodup_append hkB
        have hlt' : ∀ a ∈ B.take mid, a.key < sres.split_key := by
          intro a ha
          rw [hsk]
          refine lt_of_le_of_ne (hT a ha) ?_
          intro c
          exact hdis (List.mem_map.mpr ⟨a, ha, rfl⟩) (List.mem_map.mpr ⟨e, he, c.symm⟩)
        have o2' := ord2 lo sres.split_key (by
            rw [ord_zero, e1]
            refine ⟨(List.nodup_append.mp hkB).1, fun a ha => ⟨?_, hlt' a ha⟩⟩
            exact (hord.2 a (hB.subset (List.mem_of_mem_take ha))).1) hlo (by omega) (by
            rw [contents_zero, e1]
            intro a ha
            exact hnk a (hB.subset (List.mem_of_mem_take ha)))
        have o2'' := (o2' (lo, off, sres.split_key) (List.mem_singleton.mpr rfl)).2
        refine ⟨o2'', ?_⟩
        rw [ord_zero, o3, e2]
        refine ⟨(List.nodup_append.mp hkB).2.1, fun a ha => ⟨by rw [hsk]; exact hD a ha, ?_⟩⟩
        exact (hord.2 a (hB.subset (List.mem_of_mem_drop ha))).2
  obtain ⟨b1, b2, b3, b4, b5, b6⟩ := both
  refine ⟨by rw [blocks_zero]; exact hfr, ?_, ?_, ?_, ?_, ?_, ?_⟩
  · rw [hsk]; exact (leaf_entries_int32 _ _ e (hB.subset heB)).1
  · intro c hc
    rw [hroots] at hc
    rcases List.mem_cons.mp hc with c1 | c1
    · rw [c1]; exact b1
    · rw [List.mem_singleton.mp c1]; exact b3
  · rw [hroots, blocksL_cons, blocksL_cons, blocksL_nil, blocks_zero, blocks_zero]
    simp only [List.append_nil, List.singleton_append, List.nodup_cons, List.mem_singleton,
      List.not_mem_nil, not_false_eq_true, List.nodup_nil, and_true]
    exact hne
  · intro o ho
    rw [hroots, blocksL_cons, blocksL_cons, blocksL_nil, blocks_zero, blocks_zero] at ho
    simp only [List.append_nil, List.singleton_append, List.mem_cons, List.mem_singleton,
      List.not_mem_nil, or_false] at ho
    rw [blocks_zero]
    rcases ho with c | c
    · rw [c]; exact ⟨b2, Or.inl (List.mem_singleton.mpr rfl)⟩
    · rw [c]; exact ⟨b4, Or.inr notn⟩
  · rw [hroots, contentsL_cons, contentsL_cons, contentsL_nil, List.append_nil, contents_zero,
      contents_zero, contents_zero]
    exact b5
  · intro lo hi hord hlo hhi hnk
    rw [contents_zero] at hnk
    obtain ⟨q1, q2⟩ := b6 lo hi hord hlo hhi hnk
    rw [ord_zero] at hord
    have h0 : 0 < (B.take mid).length := by omega
    obtain ⟨a, ha⟩ := List.exists_mem_of_length_pos h0
    have hdis := List.disjoint_of_nodup_append (by
      have hkB : (B.map (fun x => x.key)).Nodup := (hB.map _).nodup_iff.mpr hord.1
      rw [← List.take_append_drop mid B, List.map_append] at hkB
      exact hkB)
    have hlo' : lo < sres.split_key := by
      have h1 := (hord.2 a (hB.subset (List.mem_of_mem_take ha))).1
      have h2 : a.key < e.key := by
        refine lt_of_le_of_ne (hT a ha) ?_
        intro c
        exact hdis (List.mem_map.mpr ⟨a, ha, rfl⟩) (List.mem_map.mpr ⟨e, he, c.symm⟩)
      rw [hsk]; omega
    have hhi' : sres.split_key < hi := by
      rw [hsk]; exact (hord.2 e (hB.subset heB)).2
    intro t' ht'
    rw [hview] at ht'
    rcases List.mem_cons.mp ht' with c | c
    · rw [c]; exact ⟨hlo', q1⟩
    · rw [List.mem_singleton.mp c]; exact ⟨hhi', q2⟩

/-- A call of `insert_leaf` on an allocated leaf: with fuel for the nested call it
fails only in `alloc_block`, and a normal return leaves the postcondition. -/
theorem insert_leaf_spec (cfg : BTreeConfig) (key value : Int) (hk : isInt32 key)
    (hv : isInt32 value) (fuel : Nat) (s : Manager) (off : Nat) (henv : Env cfg s)
    (hown : Owned cfg s 0 off) :
    ∀ (r : Except Err InsertResult) (s' : Manager),
      insert_leaf cfg fuel s off key value = (r, s') →
      match r with
      | .ok res => InsertPost cfg s s' 0 off key value res
      | .error e => 2 ≤ fuel → e = .out_of_memory := by
  intro r s' h
  obtain ⟨hok, hleaf, hkc⟩ := owned_leaf cfg s off hown
  have hge := blockOk_ge s off hok
  have h0 : off ≠ 0 := by omega
  cases fuel with
  | zero =>
    unfold insert_leaf at h
    simp only [Prod.mk.injEq] at h
    rw [← h.1]
    intro h2
    omega
  | succ f =>
    unfold insert_leaf at h
    rw [if_neg h0] at h
    by_cases hroom : key_count s.mem off < cfg.leaf_capacity
    · rw [if_pos hroom] at h
      simp only [Prod.mk.injEq] at h
      obtain ⟨h1, h2⟩ := h
      subst h1 h2
      exact leaf_insert_room cfg s off key value henv hown hroom hk hv
    · rw [if_neg hroom] at h
      have hfull : key_count s.mem off = cfg.leaf_capacity := by omega
      generalize hsp : split_leaf cfg s off = sp at h
      obtain ⟨rs, s1⟩ := sp
      have spec := split_leaf_spec cfg s off henv hok hfull rs s1 hsp
      cases rs with
      | error e =>
        simp only [Prod.mk.injEq] at h
        rw [← h.1]
        intro _
        exact spec
      | ok sres =>
        simp only at h spec
        obtain ⟨hd, ⟨e, hget, hsk⟩, okn, notn, fr1, l1, l2, e1, e2⟩ := spec
        have hlc := henv.2.1
        have hlen : (leaf_entries s.mem off).length = cfg.leaf_capacity := by
          rw [leaf_entries_length, hfull]
        obtain ⟨e', hget', he', hT, hD⟩ := sorted_buffer_cut (leaf_entries s.mem off)
          (cfg.leaf_capacity / 2) (by rw [hlen]; omega)
        rw [hget] at hget'
        have hee : e = e' := Option.some.inj hget'
        subst hee
        have hB := List.perm_insertionSort (fun a b : LeafEntry => a.key ≤ b.key)
          (leaf_entries s.mem off)
        have hBl : (List.insertionSort (fun a b : LeafEntry => a.key ≤ b.key)
            (leaf_entries s.mem off)).length = cfg.leaf_capacity := by
          rw [List.length_insertionSort, hlen]
        have henv1 : Env cfg s1 := fr1.env henv
        have hok1 : BlockOk s1 off := fr1.blockOk off hok
        have kc1o : key_count s1.mem off = cfg.leaf_capacity / 2 := by
          rw [← leaf_entries_length, e1, List.length_take, hBl]; omega
        have kc1n : key_count s1.mem sres.new_child_offset =
            cfg.leaf_capacity - cfg.leaf_capacity / 2 := by
          rw [← leaf_entries_length, e2, List.length_drop, hBl]
        have l1' : is_leaf s1.mem off = true := by rw [l1]; exact hleaf
        have hown_t : Owned cfg s1 0
            (if key ≥ sres.split_key then sres.new_child_offset else off) := by
          split
          · exact owned_leaf_of cfg s1 _ okn l2 (by rw [kc1n]; omega)
          · exact owned_leaf_of cfg s1 _ hok1 l1' (by rw [kc1o]; omega)
        have hroom_t : key_count s1.mem
            (if key ≥ sres.split_key then sres.new_child_offset else off) <
            cfg.leaf_capacity := by
          split
          · rw [kc1n]; omega
          · rw [kc1o]; omega
        have ht0 : (if key ≥ sres.split_key then sres.new_child_offset else off) ≠ 0 := by
          have := blockOk_ge s1 _ (owned_leaf cfg s1 _ hown_t).1
          omega
        generalize ht : (if key ≥ sres.split_key then sres.new_child_offset else off) = t at *
        cases f with
        | zero =>
          unfold insert_leaf at h
          simp only [Prod.mk.injEq] at h
          rw [← h.1]
          intro h2
          omega
        | succ f' =>
          unfold insert_leaf at h
          rw [if_neg ht0, if_pos hroom_t] at h
          simp only [Prod.mk.injEq] at h
          obtain ⟨h1, h2⟩ := h
          subst h1 h2
          exact leaf_split_post cfg s s1 _ off t key value sres _ (cfg.leaf_capacity / 2) e
            henv hown hd hB (by omega) (by rw [hBl]; omega) hBl he' hsk hT hD okn notn fr1 l1'
            l2 e1 e2 ht.symm (leaf_insert_room cfg s1 t key value henv1 hown_t hroom_t hk hv)

end BTree

namespace BTree

/-! ## Positions in the view of an internal node -/

theorem view_split (cfg : BTreeConfig) (m : Mem) (off : Nat) (lo hi : Int) (i : Nat)
    (hi' : i ≤ key_count m off) :
    node_view cfg m off lo hi = (node_view cfg m off lo hi).take i ++
      (lower_bound m off lo i, child cfg m off i, upper_bound m off hi i) ::
      (node_view cfg m off lo hi).drop (i + 1) := by
  have hl : i < (node_view cfg m off lo hi).length := by rw [node_view_length]; omega
  have h := list_split_at (node_view cfg m off lo hi) i hl
  have hg : (node_view cfg m off lo hi).get ⟨i, hl⟩ =
      (lower_bound m off lo i, child cfg m off i, upper_bound m off hi i) := by
    unfold node_view
    simp
  rw [hg] at h
  exact h

theorem children_split (cfg : BTreeConfig) (m : Mem) (off : Nat) (i : Nat)
    (hi' : i ≤ key_count m off) :
    node_children cfg m off = (node_children cfg m off).take i ++
      child cfg m off i :: (node_children cfg m off).drop (i + 1) := by
  have hl : i < (node_children cfg m off).length := by rw [node_children_length]; omega
  have h := list_split_at (node_children cfg m off) i hl
  have hg : (node_children cfg m off).get ⟨i, hl⟩ = child cfg m off i := by
    unfold node_children
    simp
  rw [hg] at h
  exact h

/-- The descent loop stops at the child whose key range holds the key. -/
theorem locate (m : Mem) (off : Nat) (lo hi key : Int) (hlo : lo ≤ key) (hhi : key < hi) :
    scan_keys m (get_internal_keys off) key (key_count m off) 0 ≤ key_count m off ∧
    lower_bound m off lo (scan_keys m (get_internal_keys off) key (key_count m off) 0) ≤ key ∧
    key < upper_bound m off hi (scan_keys m (get_internal_keys off) key (key_count m off) 0) := by
  obtain ⟨_, s2, s3, s4⟩ := scan_keys_spec m (get_internal_keys off) key (key_count m off) 0
  generalize scan_keys m (get_internal_keys off) key (key_count m off) 0 = idx at *
  refine ⟨by omega, ?_, ?_⟩
  · unfold lower_bound
    split
    · exact hlo
    · exact s3 (idx - 1) (Nat.zero_le _) (by omega)
  · unfold upper_bound
    split
    · exact s4 (by omega)
    · exact hhi

/-- Key ranges of different children of an ordered node do not meet. -/
theorem view_unique (cfg : BTreeConfig) (m : Mem) (h off : Nat) (lo hi k : Int)
    (ho : Ord cfg m (h + 1) off lo hi) (i j : Nat) (hi' : i ≤ key_count m off)
    (hj : j ≤ key_count m off)
    (h1 : lower_bound m off lo i ≤ k) (h2 : k < upper_bound m off hi i)
    (h3 : lower_bound m off lo j ≤ k) (h4 : k < upper_bound m off hi j) : i = j := by
  have hs := keys_sorted cfg m h off lo hi ho
  have key : ∀ a b, a < b → b ≤ key_count m off → k < upper_bound m off hi a →
      lower_bound m off lo b ≤ k → False := by
    intro a b hab hb hu hl
    unfold upper_bound at hu
    unfold lower_bound at hl
    rw [if_pos (by omega)] at hu
    rw [if_neg (by omega)] at hl
    have := hs (b - 1 - a) a (by omega)
    have e : a + (b - 1 - a) = b - 1 := by omega
    rw [e] at this
    omega
  rcases Nat.lt_trichotomy i j with c | c | c
  · exact absurd (key i j c hj h2 h3) id
  · exact c
  · exact absurd (key j i c hi' h4 h1) id

/-- The bounds of every child of an ordered node lie inside the node's range. -/
theorem view_bounds (cfg : BTreeConfig) (m : Mem) (h off : Nat) (lo hi : Int)
    (ho : Ord cfg m (h + 1) off lo hi) (i : Nat) (hi' : i ≤ key_count m off) :
    lo ≤ lower_bound m off lo i ∧ lower_bound m off lo i < upper_bound m off hi i ∧
    upper_bound m off hi i ≤ hi := by
  have hs := keys_sorted cfg m h off lo hi ho
  rw [ord_succ] at ho
  have hlt : ∀ j, j ≤ key_count m off → lower_bound m off lo j < upper_bound m off hi j :=
    fun j hj => (ho _ ((mem_node_view cfg m off lo hi _).mpr ⟨j, hj, rfl⟩)).1
  refine ⟨?_, hlt i hi', ?_⟩
  · by_cases c : i = 0
    · unfold lower_bound; rw [if_pos c]
    · have h0 := hlt 0 (Nat.zero_le _)
      have h1 := hs (i - 1) 0 (by omega)
      unfold lower_bound upper_bound at h0
      rw [if_pos rfl, if_pos (by omega)] at h0
      unfold lower_bound
      rw [if_neg c]
      simp only [Nat.zero_add, Nat.mul_zero, Nat.add_zero] at h0 h1
      omega
  · by_cases c : i < key_count m off
    · have h0 := hlt (key_count m off) (le_refl _)
      have h1 := hs (key_count m off - 1 - i) i (by omega)
      have e : i + (key_count m off - 1 - i) = key_count m off - 1 := by omega
      rw [e] at h1
      unfold lower_bound upper_bound at h0
      rw [if_neg (by omega), if_neg (by omega)] at h0
      unfold upper_bound
      rw [if_pos c]
      omega
    · unfold upper_bound; rw [if_neg c]

end BTree

namespace BTree

/-- Subtrees that a frame does not list keep shape, blocks, contents and order. -/
theorem forest_frame (cfg : BTreeConfig) (s s1 : Manager) (bl : List Nat) (h : Nat)
    (cs : List Nat) (hfit : fits cfg s.block_size) (fr : Frame s s1 bl)
    (hs : ShapeL cfg s.mem h cs)
    (hb : ∀ o ∈ blocksL cfg s.mem h cs, BlockOk s o ∧ o ∉ bl) :
    ShapeL cfg s1.mem h cs ∧ blocksL cfg s1.mem h cs = blocksL cfg s.mem h cs ∧
    contentsL cfg s1.mem h cs = contentsL cfg s.mem h cs ∧
    (∀ c ∈ cs, blocks cfg s1.mem h c = blocks cfg s.mem h c ∧
      contents cfg s1.mem h c = contents cfg s.mem h c ∧
      ∀ lo hi, Ord cfg s1.mem h c lo hi ↔ Ord cfg s.mem h c lo hi) :=
  forest_congr cfg s.block_size s.mem s1.mem h cs hs (fun o ho =>
    ⟨blockOk_fits cfg s o hfit (hb o ho).1, fr.2.2.2.2 o (hb o ho).1 (hb o ho).2⟩)

/-- An internal node that a frame does not list keeps its views. -/
theorem node_frame (cfg : BTreeConfig) (s s1 : Manager) (bl : List Nat) (o : Nat)
    (hfit : fits cfg s.block_size) (fr : Frame s s1 bl) (hok : BlockOk s o) (hn : o ∉ bl)
    (hkc : key_count s.mem o ≤ cfg.max_keys) :
    is_leaf s1.mem o = is_leaf s.mem o ∧ key_count s1.mem o = key_count s.mem o ∧
    node_children cfg s1.mem o = node_children cfg s.mem o ∧
    ∀ lo hi, node_view cfg s1.mem o lo hi = node_view cfg s.mem o lo hi :=
  node_view_congr cfg s.block_size s.mem s1.mem o (blockOk_fits cfg s o hfit hok) hkc
    (fr.2.2.2.2 o hok hn)

theorem owned_node (cfg : BTreeConfig) (s : Manager) (h off : Nat)
    (hown : Owned cfg s (h + 1) off) :
    is_leaf s.mem off = false ∧ key_count s.mem off ≤ cfg.max_keys ∧
    ShapeL cfg s.mem h (node_children cfg s.mem off) ∧ BlockOk s off ∧
    off ∉ blocksL cfg s.mem h (node_children cfg s.mem off) ∧
    (blocksL cfg s.mem h (node_children cfg s.mem off)).Nodup ∧
    ∀ o ∈ blocksL cfg s.mem h (node_children cfg s.mem off), BlockOk s o := by
  obtain ⟨h1, h2, h3⟩ := hown
  rw [shape_succ_L] at h1
  rw [blocks_succ_L] at h2 h3
  rw [List.nodup_cons] at h2
  exact ⟨h1.1, h1.2.1, h1.2.2, h3 off (List.mem_cons_self _ _), h2.1, h2.2,
    fun o ho => h3 o (List.mem_cons_of_mem _ ho)⟩

theorem owned_child (cfg : BTreeConfig) (s : Manager) (h off c : Nat)
    (hown : Owned cfg s (h + 1) off) (hc : c ∈ node_children cfg s.mem off) :
    Owned cfg s h c := by
  obtain ⟨_, _, h3, _, _, h6, h7⟩ := owned_node cfg s h off hown
  have hsub : ∀ o ∈ blocks cfg s.mem h c, o ∈ blocksL cfg s.mem h (node_children cfg s.mem off) :=
    fun o ho => (mem_blocksL _ _ _ _ _).mpr ⟨c, hc, ho⟩
  refine ⟨h3 c hc, ?_, fun o ho => h7 o (hsub o ho)⟩
  unfold blocksL at h6
  rw [List.nodup_flatten] at h6
  exact h6.1 _ (List.mem_map.mpr ⟨c, hc, rfl⟩)

/-- State after the recursive call on child `idx` of an internal node: the node
itself and the other children are as before, the child is replaced by what the
call left. -/
theorem child_step (cfg : BTreeConfig) (s s1 : Manager) (h off idx : Nat) (key value : Int)
    (res : InsertResult) (henv : Env cfg s) (hown : Owned cfg s (h + 1) off)
    (hidx : idx ≤ key_count s.mem off)
    (post : InsertPost cfg s s1 h (child cfg s.mem off idx) key value res) :
    Frame s s1 (blocks cfg s.mem (h + 1) off) ∧ BlockOk s1 off ∧
    (is_leaf s1.mem off = false ∧ key_count s1.mem off = key_count s.mem off ∧
      node_children cfg s1.mem off = node_children cfg s.mem off ∧
      ∀ lo hi, node_view cfg s1.mem off lo hi = node_view cfg s.mem off lo hi) ∧
    ShapeL cfg s1.mem h (res_roots (child cfg s.mem off idx) res ++
      ((node_children cfg s.mem off).take idx ++ (node_children cfg s.mem off).drop (idx + 1))) ∧
    (off :: blocksL cfg s1.mem h (res_roots (child cfg s.mem off idx) res ++
      ((node_children cfg s.mem off).take idx ++
        (node_children cfg s.mem off).drop (idx + 1)))).Nodup ∧
    (∀ o ∈ blocksL cfg s1.mem h (res_roots (child cfg s.mem off idx) res ++
      ((node_children cfg s.mem off).take idx ++ (node_children cfg s.mem off).drop (idx + 1))),
      BlockOk s1 o ∧ (o ∈ blocks cfg s.mem (h + 1) off ∨ ¬ BlockOk s o)) ∧
    (contentsL cfg s1.mem h (res_roots (child cfg s.mem off idx) res ++
      ((node_children cfg s.mem off).take idx ++
        (node_children cfg s.mem off).drop (idx + 1)))).Perm
      (⟨key, value⟩ :: contents cfg s.mem (h + 1) off) ∧
    (∀ lo hi, Ord cfg s.mem (h + 1) off lo hi → lower_bound s.mem off lo idx ≤ key →
      key < upper_bound s.mem off hi idx →
      (∀ e ∈ contents cfg s.mem (h + 1) off, e.key ≠ key) →
      OrdL cfg s1.mem h ((node_view cfg s.mem off lo hi).take idx ++
        res_view (child cfg s.mem off idx) res (lower_bound s.mem off lo idx)
          (upper_bound s.mem off hi idx) ++
        (node_view cfg s.mem off lo hi).drop (idx + 1))) := by
  obtain ⟨n1, n2, n3, n4, n5, n6, n7⟩ := owned_node cfg s h off hown
  obtain ⟨fr, _, psh, pnd, pbk, pct, pord⟩ := post
  have hcs := children_split cfg s.mem off idx hidx
  generalize hc : child cfg s.mem off idx = c at *
  generalize hcsd : node_children cfg s.mem off = cs at *
  generalize hR : res_roots c res = R at *
  have hperm : cs.Perm (c :: (cs.take idx ++ cs.drop (idx + 1))) := by
    nth_rewrite 1 [hcs]
    exact List.perm_middle
  generalize hrest : cs.take idx ++ cs.drop (idx + 1) = rest at *
  have hcmem : c ∈ cs := hperm.symm.subset (List.mem_cons_self _ _)
  have hrsub : ∀ x ∈ rest, x ∈ cs := fun x hx => hperm.symm.subset (List.mem_cons_of_mem _ hx)
  have hbp := blocksL_perm cfg s.mem h _ _ hperm
  rw [blocksL_cons] at hbp
  have hnd2 : (blocks cfg s.mem h c ++ blocksL cfg s.mem h rest).Nodup := hbp.nodup_iff.mp n6
  have hdis := List.disjoint_of_nodup_append hnd2
  have hcsub : ∀ o ∈ blocks cfg s.mem h c, o ∈ blocksL cfg s.mem h cs :=
    fun o ho => hbp.symm.subset (List.mem_append_left _ ho)
  have hrbsub : ∀ o ∈ blocksL cfg s.mem h rest, o ∈ blocksL cfg s.mem h cs :=
    fun o ho => hbp.symm.subset (List.mem_append_right _ ho)
  have hoff : off ∉ blocks cfg s.mem h c := fun hc' => n5 (hcsub off hc')
  obtain ⟨f1, f2, f3, f4⟩ := forest_frame cfg s s1 _ h rest henv.1 fr
    (fun x hx => n3 x (hrsub x hx))
    (fun o ho => ⟨n7 o (hrbsub o ho), fun hc' => hdis hc' ho⟩)
  have hnode := node_frame cfg s s1 _ off henv.1 fr n4 hoff n2
  have hbl : blocks cfg s.mem (h + 1) off = off :: blocksL cfg s.mem h cs := by
    rw [blocks_succ_L, hcsd]
  have hfresh : ∀ o ∈ blocksL cfg s1.mem h R, o ∉ blocksL cfg s.mem h rest ∧ o ≠ off := by
    intro o ho
    rcases (pbk o ho).2 with c1 | c1
    · exact ⟨fun c2 => hdis c1 c2, fun c2 => hoff (c2 ▸ c1)⟩
    · exact ⟨fun c2 => c1 (n7 o (hrbsub o c2)), fun c2 => c1 (c2 ▸ n4)⟩
  refine ⟨fr.mono (fun o ho => by rw [hbl]; exact List.mem_cons_of_mem _ (hcsub o ho)),
    fr.blockOk off n4, ⟨by rw [hnode.1]; exact n1, hnode.2.1, ?_, hnode.2.2.2⟩,
    ?_, ?_, ?_, ?_, ?_⟩
  · rw [hnode.2.2.1]; exact hcsd
  · intro x hx
    rcases List.mem_append.mp hx with c1 | c1
    · exact psh x c1
    · exact f1 x c1
  · rw [blocksL_append, f2, List.nodup_cons]
    refine ⟨?_, List.Nodup.append pnd (List.nodup_append.mp hnd2).2.1 ?_⟩
    · intro hm
      rcases List.mem_append.mp hm with c1 | c1
      · exact (hfresh off c1).2 rfl
      · exact n5 (hrbsub off c1)
    · intro o ho1 ho2
      exact (hfresh o ho1).1 ho2
  · intro o ho
    rw [blocksL_append, f2] at ho
    rw [hbl]
    rcases List.mem_append.mp ho with c1 | c1
    · refine ⟨(pbk o c1).1, ?_⟩
      rcases (pbk o c1).2 with c2 | c2
      · exact Or.inl (List.mem_cons_of_mem _ (hcsub o c2))
      · exact Or.inr c2
    · exact ⟨fr.blockOk o (n7 o (hrbsub o c1)), Or.inl (List.mem_cons_of_mem _ (hrbsub o c1))⟩
  · rw [contentsL_append, f3, contents_succ_L, hcsd]
    have hcp := contentsL_perm cfg s.mem h _ _ hperm
    rw [contentsL_cons] at hcp
    refine List.Perm.trans (List.Perm.append_right _ pct) ?_
    rw [List.cons_append]
    exact List.Perm.cons _ hcp.symm
  · intro lo hi hord hlo hhi hnk
    have hvs := view_split cfg s.mem off lo hi idx hidx
    rw [hc] at hvs
    rw [ord_succ_L] at hord
    have hx : (lower_bound s.mem off lo idx, c, upper_bound s.mem off hi idx) ∈
        node_view cfg s.mem off lo hi := by
      rw [hvs]; exact List.mem_append_right _ (List.mem_cons_self _ _)
    have hchild : ∀ t ∈ node_view cfg s.mem off lo hi, t.2.1 ∈ cs := by
      intro t ht
      rw [← hcsd, node_children_eq_view cfg s.mem off lo hi]
      exact List.mem_map.mpr ⟨t, ht, rfl⟩
    have hmap : cs = (node_view cfg s.mem off lo hi).map (fun t => t.2.1) := by
      rw [← hcsd]; exact node_children_eq_view cfg s.mem off lo hi
    have hside : ∀ t, (t ∈ (node_view cfg s.mem off lo hi).take idx ∨
        t ∈ (node_view cfg s.mem off lo hi).drop (idx + 1)) →
        t ∈ node_view cfg s.mem off lo hi ∧ t.2.1 ∈ rest := by
      intro t ht
      rw [← hrest, hmap, ← List.map_take, ← List.map_drop]
      rcases ht with c1 | c1
      · exact ⟨List.mem_of_mem_take c1,
          List.mem_append_left _ (List.mem_map.mpr ⟨t, c1, rfl⟩)⟩
      · exact ⟨List.mem_of_mem_drop c1,
          List.mem_append_right _ (List.mem_map.mpr ⟨t, c1, rfl⟩)⟩
    have hmid := pord (lower_bound s.mem off lo idx) (upper_bound s.mem off hi idx)
      (hord _ hx).2 hlo hhi (fun e he => hnk e (by
        rw [contents_succ_L, hcsd]
        unfold contentsL
        rw [List.mem_flatten]
        exact ⟨_, List.mem_map.mpr ⟨c, hcmem, rfl⟩, he⟩))
    intro t ht
    rcases List.mem_append.mp ht with c1 | c1
    · rcases List.mem_append.mp c1 with c2 | c2
      · obtain ⟨q1, q2⟩ := hside t (Or.inl c2)
        exact ⟨(hord t q1).1, ((f4 t.2.1 q2).2.2 _ _).mpr (hord t q1).2⟩
      · exact hmid t c2
    · obtain ⟨q1, q2⟩ := hside t (Or.inr c1)
      exact ⟨(hord t q1).1, ((f4 t.2.1 q2).2.2 _ _).mpr (hord t q1).2⟩

end BTree

namespace BTree

/-- Postcondition of an insertion below an internal node that did not split. -/
theorem node_post_one (cfg : BTreeConfig) (s sf : Manager) (h off : Nat) (key value : Int)
    (F : List Nat)
    (hfr : Frame s sf (blocks cfg s.mem (h + 1) off)) (hok : BlockOk sf off)
    (hleaf : is_leaf sf.mem off = false) (hkc : key_count sf.mem off ≤ cfg.max_keys)
    (hperm : (node_children cfg sf.mem off).Perm F)
    (hsh : ShapeL cfg sf.mem h F) (hnd : (off :: blocksL cfg sf.mem h F).Nodup)
    (hbk : ∀ o ∈ blocksL cfg sf.mem h F,
      BlockOk sf o ∧ (o ∈ blocks cfg s.mem (h + 1) off ∨ ¬ BlockOk s o))
    (hct : (contentsL cfg sf.mem h F).Perm (⟨key, value⟩ :: contents cfg s.mem (h + 1) off))
    (hord : ∀ lo hi, Ord cfg s.mem (h + 1) off lo hi → lo ≤ key → key < hi →
      (∀ e ∈ contents cfg s.mem (h + 1) off, e.key ≠ key) →
      OrdL cfg sf.mem h (node_view cfg sf.mem off lo hi)) :
    InsertPost cfg s sf (h + 1) off key value ⟨0, 0, false⟩ := by
  have hbp := blocksL_perm cfg sf.mem h _ _ hperm
  have hcp := contentsL_perm cfg sf.mem h _ _ hperm
  refine ⟨hfr, ⟨by decide, by decide⟩, ?_, ?_, ?_, ?_, ?_⟩
  · intro c hc
    rw [res_roots_false, List.mem_singleton] at hc
    rw [hc, shape_succ_L]
    exact ⟨hleaf, hkc, fun x hx => hsh x (hperm.subset hx)⟩
  · rw [res_roots_false, blocksL_cons, blocksL_nil, List.append_nil, blocks_succ_L]
    exact (List.Perm.cons off hbp).nodup_iff.mpr hnd
  · intro o ho
    rw [res_roots_false, blocksL_cons, blocksL_nil, List.append_nil, blocks_succ_L] at ho
    rcases List.mem_cons.mp ho with c | c
    · rw [c]; exact ⟨hok, Or.inl (mem_blocks_self _ _ _ _)⟩
    · exact hbk o (hbp.subset c)
  · rw [res_roots_false, contentsL_cons, contentsL_nil, List.append_nil, contents_succ_L]
    exact hcp.trans hct
  · intro lo hi ho hlo hhi hnk
    intro t ht
    have e : t = (lo, off, hi) := by
      have : res_view off ⟨0, 0, false⟩ lo hi = [(lo, off, hi)] := rfl
      rw [this, List.mem_singleton] at ht
      exact ht
    subst e
    refine ⟨by show lo < hi; omega, ?_⟩
    show Ord cfg sf.mem (h + 1) off lo hi
    rw [ord_succ_L]
    exact hord lo hi ho hlo hhi hnk

/-- Postcondition of an insertion below an internal node that did split. -/
theorem node_post_two (cfg : BTreeConfig) (s sf : Manager) (h off : Nat) (key value : Int)
    (res : InsertResult) (F : List Nat)
    (hd : res.did_split = true) (hsk : isInt32 res.split_key)
    (hfr : Frame s sf (blocks cfg s.mem (h + 1) off)) (hok : BlockOk sf off)
    (hokn : BlockOk sf res.new_child_offset) (hnotn : ¬ BlockOk s res.new_child_offset)
    (hleaf : is_leaf sf.mem off = false) (hkc : key_count sf.mem off ≤ cfg.max_keys)
    (hleafn : is_leaf sf.mem res.new_child_offset = false)
    (hkcn : key_count sf.mem res.new_child_offset ≤ cfg.max_keys)
    (hperm : (node_children cfg sf.mem off ++
      node_children cfg sf.mem res.new_child_offset).Perm F)
    (hsh : ShapeL cfg sf.mem h F)
    (hnd : (off :: res.new_child_offset :: blocksL cfg sf.mem h F).Nodup)
    (hbk : ∀ o ∈ blocksL cfg sf.mem h F,
      BlockOk sf o ∧ (o ∈ blocks cfg s.mem (h + 1) off ∨ ¬ BlockOk s o))
    (hct : (contentsL cfg sf.mem h F).Perm (⟨key, value⟩ :: contents cfg s.mem (h + 1) off))
    (hord : ∀ lo hi, Ord cfg s.mem (h + 1) off lo hi → lo ≤ key → key < hi →
      (∀ e ∈ contents cfg s.mem (h + 1) off, e.key ≠ key) →
      lo < res.split_key ∧ res.split_key < hi ∧
      OrdL cfg sf.mem h (node_view cfg sf.mem off lo res.split_key) ∧
      OrdL cfg sf.mem h (node_view cfg sf.mem res.new_child_offset res.split_key hi)) :
    InsertPost cfg s sf (h + 1) off key value res := by
  have hbp := blocksL_perm cfg sf.mem h _ _ hperm
  have hcp := contentsL_perm cfg sf.mem h _ _ hperm
  rw [blocksL_append] at hbp
  rw [contentsL_append] at hcp
  have hroots : res_roots off res = [off, res.new_child_offset] := by
    unfold res_roots; rw [hd]; rfl
  have hview : ∀ lo hi, res_view off res lo hi =
      [(lo, off, res.split_key), (res.split_key, res.new_child_offset, hi)] := by
    intro lo hi; unfold res_view; rw [hd]; rfl
  have hblocks : (blocksL cfg sf.mem (h + 1) [off, res.new_child_offset]).Perm
      (off :: res.new_child_offset :: blocksL cfg sf.mem h F) := by
    rw [blocksL_cons, blocksL_cons, blocksL_nil, List.append_nil, blocks_succ_L, blocks_succ_L,
      List.cons_append]
    refine List.Perm.cons off ?_
    refine List.Perm.trans List.perm_middle ?_
    exact List.Perm.cons _ hbp
  refine ⟨hfr, hsk, ?_, ?_, ?_, ?_, ?_⟩
  · intro c hc
    rw [hroots] at hc
    rcases List.mem_cons.mp hc with c1 | c1
    · rw [c1, shape_succ_L]
      exact ⟨hleaf, hkc, fun x hx => hsh x (hperm.subset (List.mem_append_left _ hx))⟩
    · rw [List.mem_singleton.mp c1, shape_succ_L]
      exact ⟨hleafn, hkcn, fun x hx => hsh x (hperm.subset (List.mem_append_right _ hx))⟩
  · rw [hroots]
    exact hblocks.nodup_iff.mpr hnd
  · intro o ho
    rw [hroots] at ho
    have ho' := hblocks.subset ho
    rcases List.mem_cons.mp ho' with c | c
    · rw [c]; exact ⟨hok, Or.inl (mem_blocks_self _ _ _ _)⟩
    · rcases List.mem_cons.mp c with c1 | c1
      · rw [c1]; exact ⟨hokn, Or.inr hnotn⟩
      · exact hbk o c1
  · rw [hroots, contentsL_cons, contentsL_cons, contentsL_nil, List.append_nil, contents_succ_L,
      contents_succ_L]
    exact hcp.trans hct
  · intro lo hi ho hlo hhi hnk
    obtain ⟨q1, q2, q3, q4⟩ := hord lo hi ho hlo hhi hnk
    intro t ht
    rw [hview] at ht
    rcases List.mem_cons.mp ht with c | c
    · rw [c]
      exact ⟨q1, (ord_succ_L _ _ _ _ _ _).mpr q3⟩
    · rw [List.mem_singleton.mp c]
      exact ⟨q2, (ord_succ_L _ _ _ _ _ _).mpr q4⟩

end BTree

namespace BTree

theorem ins_perm {α : Type} (T D : List α) (c n : α) :
    (T ++ [c, n] ++ D).Perm (n :: (T ++ c :: D)) := by
  have h1 : T ++ [c, n] ++ D = (T ++ [c]) ++ n :: D := by simp
  have h2 : T ++ c :: D = (T ++ [c]) ++ D := by simp
  rw [h1, h2]
  exact List.perm_middle

/-- Carrying a forest along stores that touch none of its blocks. -/
theorem forest_carry (cfg : BTreeConfig) (s s1 sf : Manager) (bl ws : List Nat) (h : Nat)
    (F : List Nat) (hfit : fits cfg s1.block_size) (fr : Frame s1 sf ws)
    (hsh : ShapeL cfg s1.mem h F)
    (hbk : ∀ o ∈ blocksL cfg s1.mem h F, BlockOk s1 o ∧ (o ∈ bl ∨ ¬ BlockOk s o))
    (hws : ∀ o ∈ blocksL cfg s1.mem h F, o ∉ ws) :
    ShapeL cfg sf.mem h F ∧ blocksL cfg sf.mem h F = blocksL cfg s1.mem h F ∧
    (∀ o ∈ blocksL cfg sf.mem h F, BlockOk sf o ∧ (o ∈ bl ∨ ¬ BlockOk s o)) ∧
    contentsL cfg sf.mem h F = contentsL cfg s1.mem h F ∧
    (∀ W : List (Int × Nat × Int), (∀ t ∈ W, t.2.1 ∈ F) → OrdL cfg s1.mem h W →
      OrdL cfg sf.mem h W) := by
  obtain ⟨f1, f2, f3, f4⟩ := forest_frame cfg s1 sf ws h F hfit fr hsh
    (fun o ho => ⟨(hbk o ho).1, hws o ho⟩)
  refine ⟨f1, f2, ?_, f3, ?_⟩
  · intro o ho
    rw [f2] at ho
    exact ⟨fr.blockOk o (hbk o ho).1, (hbk o ho).2⟩
  · intro W hW hord t ht
    exact ⟨(hord t ht).1, ((f4 t.2.1 (hW t ht)).2.2 _ _).mpr (hord t ht).2⟩

/-- A call of `install_pivot` on an allocated internal node with room. -/
theorem install_frame (cfg : BTreeConfig) (s : Manager) (node idx : Nat) (res : InsertResult)
    (henv : Env cfg s) (hok : BlockOk s node) (hleaf : is_leaf s.mem node = false)
    (hroom : key_count s.mem node < cfg.max_keys) (hidx : idx ≤ key_count s.mem node)
    (hsk : isInt32 res.split_key) (hnew : res.new_child_offset < 18446744073709551616) :
    Frame s (install_pivot cfg s node idx (key_count s.mem node) res) [node] ∧
    is_leaf (install_pivot cfg s node idx (key_count s.mem node) res).mem node = false ∧
    key_count (install_pivot cfg s node idx (key_count s.mem node) res).mem node =
      key_count s.mem node + 1 ∧
    (∀ lo hi, node_view cfg (install_pivot cfg s node idx (key_count s.mem node) res).mem node
        lo hi =
      (node_view cfg s.mem node lo hi).take idx ++
        [(lower_bound s.mem node lo idx, child cfg s.mem node idx, res.split_key),
         (res.split_key, res.new_child_offset, upper_bound s.mem node hi idx)] ++
        (node_view cfg s.mem node lo hi).drop (idx + 1)) ∧
    (node_children cfg (install_pivot cfg s node idx (key_count s.mem node) res).mem node).Perm
      (res.new_child_offset :: node_children cfg s.mem node) := by
  have hge := blockOk_ge s node hok
  obtain ⟨a1, a2, a3, a4, a5, a6⟩ := install_pivot_spec cfg s node idx res
    (blockOk_fits cfg s node henv.1 hok) (by omega) hroom henv.1.2.1 hidx hsk hnew
  refine ⟨frame_of_writes s _ [node] a5 a6 ?_ ?_, by rw [a1]; exact hleaf, a2, a3, ?_⟩
  · intro w hw
    rw [List.mem_singleton] at hw
    subst hw
    obtain ⟨b, hb, _, _, hg⟩ := hok
    exact ⟨⟨b, hb⟩, hg⟩
  · intro x hx hx2
    exact a4 x (hx node (List.mem_singleton.mpr rfl)) hx2
  · rw [node_children_eq_view cfg _ node 0 0, a3 0 0, node_children_eq_view cfg s.mem node 0 0]
    have hv := view_split cfg s.mem node 0 0 idx hidx
    nth_rewrite 3 [hv]
    simp only [List.map_append, List.map_cons, List.map_nil]
    exact ins_perm _ _ _ _

/-- A call of `split_internal` on a full allocated internal node: it fails only
in `alloc_block`, and otherwise moves the children behind `keys[mid]` to a block
that was not allocated before. -/
theorem split_internal_spec (cfg : BTreeConfig) (s : Manager) (off : Nat)
    (henv : Env cfg s) (hok : BlockOk s off)
    (hfull : key_count s.mem off = cfg.max_keys) :
    ∀ (r : Except Err InsertResult) (s' : Manager), split_internal cfg s off = (r, s') →
    match r with
    | .error e => e = .out_of_memory
    | .ok res =>
      res.did_split = true ∧
      res.split_key = rdI32 s.mem (get_internal_keys off + 4 * (cfg.max_keys / 2)) ∧
      BlockOk s' res.new_child_offset ∧ ¬ BlockOk s res.new_child_offset ∧
      Frame s s' [off] ∧
      is_leaf s'.mem off = is_leaf s.mem off ∧ is_leaf s'.mem res.new_child_offset = false ∧
      key_count s'.mem off = cfg.max_keys / 2 ∧
      key_count s'.mem res.new_child_offset = cfg.max_keys - 1 - cfg.max_keys / 2 ∧
      (∀ lo hi, node_view cfg s'.mem off lo res.split_key =
        (node_view cfg s.mem off lo hi).take (cfg.max_keys / 2 + 1)) ∧
      (∀ lo hi, node_view cfg s'.mem res.new_child_offset res.split_key hi =
        (node_view cfg s.mem off lo hi).drop (cfg.max_keys / 2 + 1)) := by
  intro r s' h
  obtain ⟨hfit, hlc, hrs, hres⟩ := henv
  have hbs := fits_block_size cfg s.block_size hfit
  have hmk := hfit.1
  unfold split_internal at h
  generalize ha : s.alloc_block = a at h
  obtain ⟨ra, s1⟩ := a
  cases ra with
  | error e =>
    simp only [Prod.mk.injEq] at h
    rw [← h.1]
    exact alloc_block_err s s1 e ha
  | ok new =>
    obtain ⟨fa, oka, nota, mema⟩ := alloc_frame s s1 new ha hres (by omega)
    have hge := blockOk_ge s1 new oka
    have hn0 : new ≠ 0 := by omega
    have hok1 : BlockOk s1 off := fa.blockOk off hok
    have hne : off ≠ new := fun e => nota (e ▸ hok)
    have hsep := blockOk_sep s1 off new hok1 oka hne
    have hfit1 : fits cfg s1.block_size := by rw [fa.1]; exact hfit
    have hfo := blockOk_fits cfg s1 off hfit1 hok1
    have hfn := blockOk_fits cfg s1 new hfit1 oka
    have hgeo := blockOk_ge s1 off hok1
    have hgeo' := blockOk_ge s off hok
    have hbs1 : s1.block_size = s.block_size := fa.1
    obtain ⟨_, o2, o3, _, _⟩ := nodeFits_bounds cfg s1.block_size off hfo
    have hkc0 : key_count (wr8 s1.mem new 0) off = cfg.max_keys := by
      rw [← hfull]
      exact key_count_congr _ _ _ (fun x hx1 hx2 => by
        rw [wr8_other _ _ _ _ (by omega), mema x (by omega)])
    have hkc1 : key_count s1.mem off = cfg.max_keys := by
      rw [← hfull]
      exact key_count_congr _ _ _ (fun x hx1 hx2 => mema x (by omega))
    have hv1 := node_view_congr cfg s.block_size s.mem s1.mem off
      (blockOk_fits cfg s off hfit hok) (by rw [hfull]) (fun x hx1 hx2 => mema x (by omega))
    have hmc : ((cfg.max_keys : Int) - 1 - ((cfg.max_keys / 2 : Nat) : Int)) =
        ((cfg.max_keys - 1 - cfg.max_keys / 2 : Nat) : Int) := by omega
    have hadr : ∀ a : Nat, ((a : Int) + 8 * ((cfg.max_keys - 1 - cfg.max_keys / 2 : Nat) : Int)).toNat
        = a + 8 * (cfg.max_keys - 1 - cfg.max_keys / 2) := by
      intro a; omega
    have hof : ofInt32 ((cfg.max_keys - 1 - cfg.max_keys / 2 : Nat) : Int) =
        cfg.max_keys - 1 - cfg.max_keys / 2 := by
      unfold ofInt32
      have := hfit.2.1
      omega
    simp only [hn0, if_false, hkc0, hmc, hadr, hof, Int.toNat_ofNat, Prod.mk.injEq] at h
    obtain ⟨h1, h2⟩ := h
    subst h1 h2
    obtain ⟨p1, p2, p3, p4, p5, p6, p7, p8, p9, _⟩ := split_internal_mem cfg s1 off new
      cfg.max_keys (cfg.max_keys / 2) (cfg.max_keys - 1 - cfg.max_keys / 2) _ _ _ _ _ _ _
      hfo hfn (by omega) (by omega) hsep hfit.2.1 hkc1.symm (le_refl _) (by omega) rfl
      rfl rfl rfl rfl rfl rfl rfl
    have hsk : rdI32 (wr8 s1.mem new 0) (get_internal_keys off + 4 * (cfg.max_keys / 2)) =
        rdI32 s.mem (get_internal_keys off + 4 * (cfg.max_keys / 2)) := by
      have hke : get_internal_keys off = off + 16 := rfl
      rw [hke]
      exact rdI32_congr _ _ _ (fun x hx1 hx2 => by
        rw [wr8_other _ _ _ _ (by omega), mema x (by omega)])
    have hsk1 : rdI32 s1.mem (get_internal_keys off + 4 * (cfg.max_keys / 2)) =
        rdI32 s.mem (get_internal_keys off + 4 * (cfg.max_keys / 2)) := by
      have hke : get_internal_keys off = off + 16 := rfl
      rw [hke]
      exact rdI32_congr _ _ _ (fun x hx1 hx2 => mema x (by omega))
    dsimp only
    rw [hsk]
    rw [hsk1] at p5 p6
    refine ⟨rfl, rfl, ?_, nota, ?_, ?_, p2, p3, p4, ?_, ?_⟩
    · obtain ⟨b, hb1, hb2, hb3, hb4⟩ := oka
      have hbc : ∀ (x : Manager), x.block_size = s1.block_size → x.region_size = s1.region_size →
          x.block_count = s1.block_count := fun x e1 e2 => block_count_congr s1 x e1 e2
      refine ⟨b, by rw [p8]; exact hb1, by rw [hbc _ p8 p9]; exact hb2, ?_,
        by rw [hbc _ p8 p9]; exact hb4⟩
      rw [block_bit_congr s1 _ (fun x hx1 hx2 => p7 x (by omega) (by omega) (by omega)) b hb2]
      exact hb3
    · refine Frame.trans (Frame.mono fa (fun o ho => absurd ho (List.not_mem_nil o)))
        (frame_of_writes s1 _ [off, new] p8 p9 ?_ ?_) ?_
      · intro w hw
        rcases List.mem_cons.mp hw with c | c
        · subst c
          obtain ⟨b, hb, _, _, hg⟩ := hok1
          exact ⟨⟨b, hb⟩, hg⟩
        · rw [List.mem_singleton] at c
          subst c
          obtain ⟨b, hb, _, _, hg⟩ := oka
          exact ⟨⟨b, hb⟩, hg⟩
      · intro x hx hx2
        exact p7 x (hx off (List.mem_cons_self _ _))
          (hx new (List.mem_cons_of_mem _ (List.mem_singleton.mpr rfl))) hx2
      · intro o ho hm
        rcases List.mem_cons.mp hm with c | c
        · exact List.mem_singleton.mpr c
        · rw [List.mem_singleton] at c
          exact absurd (c ▸ ho) nota
    · rw [p1]
      exact hv1.1
    · intro lo hi
      rw [p5 lo hi, hv1.2.2.2 lo hi]
    · intro lo hi
      rw [p6 lo hi, hv1.2.2.2 lo hi]

end BTree

namespace BTree

theorem mem_take_iff {α : Type} (L : List α) (a : Nat) (t : α) :
    t ∈ L.take a ↔ ∃ i, i < a ∧ L[i]? = some t := by
  rw [List.mem_iff_getElem?]
  constructor
  · rintro ⟨i, hi⟩
    rw [List.getElem?_take] at hi
    split at hi
    · exact ⟨i, by assumption, hi⟩
    · exact absurd hi (by simp)
  · rintro ⟨i, hi1, hi2⟩
    exact ⟨i, by rw [List.getElem?_take, if_pos hi1]; exact hi2⟩

theorem mem_drop_iff {α : Type} (L : List α) (a : Nat) (t : α) :
    t ∈ L.drop a ↔ ∃ i, a ≤ i ∧ L[i]? = some t := by
  rw [List.mem_iff_getElem?]
  constructor
  · rintro ⟨i, hi⟩
    rw [List.getElem?_drop] at hi
    exact ⟨a + i, by omega, hi⟩
  · rintro ⟨i, hi1, hi2⟩
    refine ⟨i - a, ?_⟩
    rw [List.getElem?_drop]
    have e : a + (i - a) = i := by omega
    rw [e]; exact hi2

theorem node_view_getElem? (cfg : BTreeConfig) (m : Mem) (off : Nat) (lo hi : Int) (i : Nat)
    (h : i ≤ key_count m off) :
    (node_view cfg m off lo hi)[i]? =
      some (lower_bound m off lo i, child cfg m off i, upper_bound m off hi i) := by
  unfold node_view
  rw [List.getElem?_map, List.getElem?_range (by omega)]
  rfl

/-- Children listed beside position `idx` of a view are children of the node
other than child `idx`. -/
theorem side_children (cfg : BTreeConfig) (m : Mem) (off : Nat) (lo hi : Int) (idx : Nat)
    (t : Int × Nat × Int)
    (ht : t ∈ (node_view cfg m off lo hi).take idx ∨ t ∈ (node_view cfg m off lo hi).drop (idx + 1)) :
    t.2.1 ∈ (node_children cfg m off).take idx ++ (node_children cfg m off).drop (idx + 1) := by
  rw [node_children_eq_view cfg m off lo hi, ← List.map_take, ← List.map_drop]
  rcases ht with c | c
  · exact List.mem_append_left _ (List.mem_map.mpr ⟨t, c, rfl⟩)
  · exact List.mem_append_right _ (List.mem_map.mpr ⟨t, c, rfl⟩)

theorem res_view_children (c : Nat) (res : InsertResult) (lo hi : Int) (t : Int × Nat × Int)
    (ht : t ∈ res_view c res lo hi) : t.2.1 ∈ res_roots c res := by
  unfold res_view at ht
  unfold res_roots
  split at ht
  · rename_i hd
    rw [if_pos hd]
    rcases List.mem_cons.mp ht with c1 | c1
    · rw [c1]; exact List.mem_cons_self _ _
    · rw [List.mem_singleton.mp c1]; exact List.mem_cons_of_mem _ (List.mem_singleton.mpr rfl)
  · rename_i hd
    rw [if_neg hd]
    rw [List.mem_singleton.mp ht]; exact List.mem_singleton.mpr rfl

theorem merged_children (cfg : BTreeConfig) (m : Mem) (off : Nat) (lo hi l u : Int) (idx c : Nat)
    (res : InsertResult) (t : Int × Nat × Int)
    (ht : t ∈ (node_view cfg m off lo hi).take idx ++ res_view c res l u ++
      (node_view cfg m off lo hi).drop (idx + 1)) :
    t.2.1 ∈ res_roots c res ++
      ((node_children cfg m off).take idx ++ (node_children cfg m off).drop (idx + 1)) := by
  rcases List.mem_append.mp ht with c1 | c1
  · rcases List.mem_append.mp c1 with c2 | c2
    · exact List.mem_append_right _ (side_children cfg m off lo hi idx t (Or.inl c2))
    · exact List.mem_append_left _ (res_view_children c res l u t c2)
  · exact List.mem_append_right _ (side_children cfg m off lo hi idx t (Or.inr c1))

/-- Views that agree have the same bounds and children. -/
theorem bounds_of_view_eq (cfg : BTreeConfig) (m m1 : Mem) (off : Nat) (lo hi : Int) (i : Nat)
    (hv : node_view cfg m1 off lo hi = node_view cfg m off lo hi)
    (hk : key_count m1 off = key_count m off) (h : i ≤ key_count m off) :
    lower_bound m1 off lo i = lower_bound m off lo i ∧ child cfg m1 off i = child cfg m off i ∧
    upper_bound m1 off hi i = upper_bound m off hi i := by
  have h1 := node_view_getElem? cfg m1 off lo hi i (by rw [hk]; exact h)
  have h2 := node_view_getElem? cfg m off lo hi i h
  rw [hv, h2] at h1
  have h3 := Option.some.inj h1
  simp only [Prod.mk.injEq] at h3
  exact ⟨h3.1.symm, h3.2.1.symm, h3.2.2.symm⟩

theorem res_roots_true (c : Nat) (res : InsertResult) (hd : res.did_split = true) :
    res_roots c res = [c, res.new_child_offset] := by
  unfold res_roots; rw [hd]; rfl

theorem res_view_true (c : Nat) (res : InsertResult) (lo hi : Int) (hd : res.did_split = true) :
    res_view c res lo hi = [(lo, c, res.split_key), (res.split_key, res.new_child_offset, hi)] := by
  unfold res_view; rw [hd]; rfl

/-- The new sibling that a split below hands up is an allocated block, so its
offset is a value of a `uint64_t`. -/
theorem new_child_lt (cfg : BTreeConfig) (s s1 : Manager) (h c : Nat) (key value : Int)
    (res : InsertResult) (henv : Env cfg s) (post : InsertPost cfg s s1 h c key value res)
    (hd : res.did_split = true) :
    BlockOk s1 res.new_child_offset ∧ res.new_child_offset < 18446744073709551616 := by
  obtain ⟨fr, _, _, _, pbk, _, _⟩ := post
  rw [res_roots_true c res hd] at pbk
  have hm : res.new_child_offset ∈ blocksL cfg s1.mem h [c, res.new_child_offset] := by
    rw [blocksL_cons, blocksL_cons]
    exact List.mem_append_right _ (List.mem_append_left _ (mem_blocks_self _ _ _ _))
  have hok := (pbk _ hm).1
  have h1 := blockOk_lt s1 _ hok
  have h2 := henv.2.2.1
  rw [← fr.2.1] at h2
  exact ⟨hok, by omega⟩

/-- The branch of `insert_internal_node` that installs the pivot in a node with room. -/
theorem pivot_post (cfg : BTreeConfig) (s s1 : Manager) (h off idx : Nat) (key value : Int)
    (res : InsertResult) (henv : Env cfg s) (hown : Owned cfg s (h + 1) off)
    (hidx : idx ≤ key_count s.mem off)
    (post : InsertPost cfg s s1 h (child cfg s.mem off idx) key value res)
    (hd : res.did_split = true)
    (hloc : ∀ lo hi, lo ≤ key → key < hi →
      lower_bound s.mem off lo idx ≤ key ∧ key < upper_bound s.mem off hi idx)
    (hroom : key_count s1.mem off < cfg.max_keys) :
    InsertPost cfg s (install_pivot cfg s1 off idx (key_count s1.mem off) res) (h + 1) off
      key value ⟨0, 0, false⟩ := by
  obtain ⟨hnok, hnlt⟩ := new_child_lt cfg s s1 h _ key value res henv post hd
  have hsk := post.2.1
  obtain ⟨cfr, cok, ⟨cl, ckc, cch, cview⟩, csh, cnd, cbk, cct, cord⟩ :=
    child_step cfg s s1 h off idx key value res henv hown hidx post
  have henv1 : Env cfg s1 := cfr.env henv
  obtain ⟨ifr, il, ikc, iview, iperm⟩ := install_frame cfg s1 off idx res henv1 cok cl hroom
    (by rw [ckc]; exact hidx) hsk hnlt
  rw [List.nodup_cons] at cnd
  obtain ⟨g1, g2, g3, g4, g5⟩ := forest_carry cfg s s1 _ (blocks cfg s.mem (h + 1) off) [off] h _
    henv1.1 ifr csh cbk (fun o ho hm => cnd.1 (List.mem_singleton.mp hm ▸ ho))
  have hcs := children_split cfg s.mem off idx hidx
  refine node_post_one cfg s _ h off key value _ ?_ (ifr.blockOk off cok) il (by rw [ikc]; omega)
    ?_ g1 ?_ g3 ?_ ?_
  · exact Frame.trans cfr ifr (fun o _ hm => by
      rw [List.mem_singleton.mp hm]; exact mem_blocks_self _ _ _ _)
  · refine iperm.trans ?_
    rw [cch, res_roots_true _ res hd]
    nth_rewrite 1 [hcs]
    refine (List.Perm.cons _ List.perm_middle).trans ?_
    exact List.Perm.swap _ _ _
  · rw [g2, List.nodup_cons]; exact cnd
  · rw [g4]; exact cct
  · intro lo hi ho hlo hhi hnk
    obtain ⟨k1, k2⟩ := hloc lo hi hlo hhi
    have hW := g5 _ (fun t ht => merged_children cfg s.mem off lo hi _ _ idx _ res t ht)
      (cord lo hi ho k1 k2 hnk)
    obtain ⟨b1, b2, b3⟩ := bounds_of_view_eq cfg s.mem s1.mem off lo hi idx (cview lo hi) ckc hidx
    rw [iview lo hi, cview lo hi, b1, b2, b3]
    rw [res_view_true _ res _ _ hd] at hW
    exact hW

end BTree

namespace BTree

/-- The branch of `insert_internal_node` that splits a full node and installs
the pivot in the half it belongs to. -/
theorem split_post (cfg : BTreeConfig) (s s1 s2 : Manager) (h off idx : Nat) (key value : Int)
    (res my : InsertResult) (t ti : Nat)
    (henv : Env cfg s) (hown : Owned cfg s (h + 1) off)
    (hidx : idx ≤ key_count s.mem off)
    (post : InsertPost cfg s s1 h (child cfg s.mem off idx) key value res)
    (hd : res.did_split = true)
    (hloc : ∀ lo hi, lo ≤ key → key < hi →
      lower_bound s.mem off lo idx ≤ key ∧ key < upper_bound s.mem off hi idx)
    (hfull : ¬ key_count s1.mem off < cfg.max_keys)
    (hsp : split_internal cfg s1 off = (.ok my, s2))
    (ht : t = if res.split_key < my.split_key then off else my.new_child_offset)
    (hti : ti = scan_keys s2.mem (get_internal_keys t) res.split_key (key_count s2.mem t) 0) :
    InsertPost cfg s (install_pivot cfg s2 t ti (key_count s2.mem t) res) (h + 1) off
      key value my := by
  obtain ⟨hnok, hnlt⟩ := new_child_lt cfg s s1 h _ key value res henv post hd
  have hsk := post.2.1
  obtain ⟨n1, n2, n3, n4, n5, n6, n7⟩ := owned_node cfg s h off hown
  obtain ⟨cfr, cok, ⟨cl, ckc, cch, cview⟩, csh, cnd, cbk, cct, cord⟩ :=
    child_step cfg s s1 h off idx key value res henv hown hidx post
  have henv1 : Env cfg s1 := cfr.env henv
  have hmk := henv.1.1
  have hkc1 : key_count s1.mem off = cfg.max_keys := by omega
  have hkc0 : key_count s.mem off = cfg.max_keys := by omega
  have spec := split_internal_spec cfg s1 off henv1 cok hkc1 _ _ hsp
  dsimp only at spec
  obtain ⟨md, mpsk, mok, mnot, mfr, ml, mln, mkc, mkcn, mvo, mvn⟩ := spec
  have henv2 : Env cfg s2 := mfr.env henv1
  have hmidlt : cfg.max_keys / 2 < cfg.max_keys := Nat.div_lt_self (by omega) (by omega)
  generalize hmid : cfg.max_keys / 2 = mid at *
  have hnotn : ¬ BlockOk s my.new_child_offset := fun hc => mnot (cfr.blockOk _ hc)
  have hoff2 : BlockOk s2 off := mfr.blockOk off cok
  have hnep : off ≠ my.new_child_offset := fun c => mnot (c ▸ cok)
  have tfacts : BlockOk s2 t ∧ is_leaf s2.mem t = false ∧ key_count s2.mem t < cfg.max_keys ∧
      (t = off ∨ t = my.new_child_offset) := by
    rw [ht]
    split
    · exact ⟨hoff2, by rw [ml]; exact cl, by rw [mkc]; omega, Or.inl rfl⟩
    · exact ⟨mok, mln, by rw [mkcn]; omega, Or.inr rfl⟩
  obtain ⟨tok, tl, tkc, tcase⟩ := tfacts
  have htile : ti ≤ key_count s2.mem t := by
    have := (scan_keys_spec s2.mem (get_internal_keys t) res.split_key (key_count s2.mem t) 0).2.1
    rw [← hti] at this
    omega
  obtain ⟨ifr, il, ikc, iview, iperm⟩ := install_frame cfg s2 t ti res henv2 tok tl tkc
    htile hsk hnlt
  generalize hs3 : install_pivot cfg s2 t ti (key_count s2.mem t) res = s3 at *
  have fr13 : Frame s1 s3 [off] := by
    refine Frame.trans mfr ifr ?_
    intro o ho hm
    rw [List.mem_singleton] at hm
    rcases tcase with c | c
    · rw [hm, c]; exact List.mem_singleton.mpr rfl
    · rw [hm, c] at ho; exact absurd ho mnot
  rw [List.nodup_cons] at cnd
  obtain ⟨g1, g2, g3, g4, g5⟩ := forest_carry cfg s s1 s3 (blocks cfg s.mem (h + 1) off) [off] h _
    henv1.1 fr13 csh cbk (fun o ho hm => cnd.1 (List.mem_singleton.mp hm ▸ ho))
  have other : ∀ u, BlockOk s2 u → u ≠ t → key_count s2.mem u ≤ cfg.max_keys →
      is_leaf s3.mem u = is_leaf s2.mem u ∧ key_count s3.mem u = key_count s2.mem u ∧
      node_children cfg s3.mem u = node_children cfg s2.mem u ∧
      ∀ lo hi, node_view cfg s3.mem u lo hi = node_view cfg s2.mem u lo hi :=
    fun u hu hut hukc =>
      node_frame cfg s2 s3 [t] u henv2.1 ifr hu (fun c => hut (List.mem_singleton.mp c)) hukc
  have hcs := children_split cfg s.mem off idx hidx
  have hco : node_children cfg s2.mem off = (node_children cfg s.mem off).take (mid + 1) := by
    rw [node_children_eq_view cfg s2.mem off 0 my.split_key, mvo 0 0, cview 0 0,
      node_children_eq_view cfg s.mem off 0 0, List.map_take]
  have hcn : node_children cfg s2.mem my.new_child_offset =
      (node_children cfg s.mem off).drop (mid + 1) := by
    rw [node_children_eq_view cfg s2.mem _ my.split_key 0, mvn 0 0, cview 0 0,
      node_children_eq_view cfg s.mem off 0 0, List.map_drop]
  have hF : (res.new_child_offset :: node_children cfg s.mem off).Perm
      (res_roots (child cfg s.mem off idx) res ++
        ((node_children cfg s.mem off).take idx ++ (node_children cfg s.mem off).drop (idx + 1))) := by
    rw [res_roots_true _ res hd]
    nth_rewrite 1 [hcs]
    refine (List.Perm.cons _ List.perm_middle).trans ?_
    exact List.Perm.swap _ _ _
  have hnew_not : my.new_child_offset ∉ blocksL cfg s1.mem h
      (res_roots (child cfg s.mem off idx) res ++
        ((node_children cfg s.mem off).take idx ++ (node_children cfg s.mem off).drop (idx + 1))) :=
    fun hc => mnot (cbk _ hc).1
  have hframe : Frame s s3 (blocks cfg s.mem (h + 1) off) :=
    Frame.trans cfr fr13 (fun o _ hm => by
      rw [List.mem_singleton.mp hm]; exact mem_blocks_self _ _ _ _)
  have hpsk_int : isInt32 my.split_key := by rw [mpsk]; exact isInt32_rdI32 _ _
  -- the two nodes after the call
  have nodes : is_leaf s3.mem off = false ∧ key_count s3.mem off ≤ cfg.max_keys ∧
      is_leaf s3.mem my.new_child_offset = false ∧
      key_count s3.mem my.new_child_offset ≤ cfg.max_keys ∧
      (node_children cfg s3.mem off ++ node_children cfg s3.mem my.new_child_offset).Perm
        (res.new_child_offset :: node_children cfg s.mem off) := by
    rcases tcase with c | c
    · subst c
      obtain ⟨o1, o2, o3, _⟩ := other my.new_child_offset mok (fun c => hnep c.symm)
        (by rw [mkcn]; omega)
      refine ⟨il, by rw [ikc]; omega, by rw [o1]; exact mln, by rw [o2, mkcn]; omega, ?_⟩
      rw [o3, hcn]
      refine (List.Perm.append_right _ iperm).trans ?_
      rw [hco, List.cons_append, List.take_append_drop]
    · subst c
      obtain ⟨o1, o2, o3, _⟩ := other off hoff2 hnep (by rw [mkc]; omega)
      refine ⟨by rw [o1, ml]; exact cl, by rw [o2, mkc]; omega, il, by rw [ikc]; omega, ?_⟩
      rw [o3, hco]
      refine (List.Perm.append_left _ iperm).trans ?_
      rw [hcn]
      refine List.perm_middle.trans ?_
      rw [List.take_append_drop]
  obtain ⟨q1, q2, q3, q4, q5⟩ := nodes
  refine node_post_two cfg s s3 h off key value my _ md hpsk_int hframe (fr13.blockOk off cok)
    (ifr.blockOk _ mok) hnotn q1 q2 q3 q4 (q5.trans hF) g1 ?_ g3 (by rw [g4]; exact cct) ?_
  · rw [g2, List.nodup_cons, List.nodup_cons]
    refine ⟨?_, hnew_not, cnd.2⟩
    intro hm
    rcases List.mem_cons.mp hm with c | c
    · exact hnep c
    · exact cnd.1 c
  · intro lo hi ho hlo hhi hnk
    obtain ⟨k1, k2⟩ := hloc lo hi hlo hhi
    have hW1 := cord lo hi ho k1 k2 hnk
    have hW := g5 _ (fun t ht => merged_children cfg s.mem off lo hi _ _ idx _ res t ht) hW1
    rw [res_view_true _ res _ _ hd] at hW1 hW
    generalize hl : lower_bound s.mem off lo idx = l at *
    generalize hu : upper_bound s.mem off hi idx = u at *
    generalize hV : node_view cfg s.mem off lo hi = V at *
    have hlsk : l < res.split_key := (hW1 (l, child cfg s.mem off idx, res.split_key)
      (List.mem_append_left _ (List.mem_append_right _ (List.mem_cons_self _ _)))).1
    have hsku : res.split_key < u := (hW1 (res.split_key, res.new_child_offset, u)
      (List.mem_append_left _ (List.mem_append_right _
        (List.mem_cons_of_mem _ (List.mem_singleton.mpr rfl))))).1
    have vb_idx := view_bounds cfg s.mem h off lo hi ho idx hidx
    rw [hl, hu] at vb_idx
    have vb_mid := view_bounds cfg s.mem h off lo hi ho mid (by omega)
    have vb_mid1 := view_bounds cfg s.mem h off lo hi ho (mid + 1) (by omega)
    have hmk1 : rdI32 s1.mem (get_internal_keys off + 4 * mid) =
        rdI32 s.mem (get_internal_keys off + 4 * mid) := by
      have := (bounds_of_view_eq cfg s.mem s1.mem off lo hi mid (by rw [cview, hV]) ckc
        (by omega)).2.2
      unfold upper_bound at this
      rw [if_pos (by omega), if_pos (by omega)] at this
      exact this
    have hpu : upper_bound s.mem off hi mid = my.split_key := by
      unfold upper_bound
      rw [if_pos (by omega), mpsk, hmk1]
    have hpl : lower_bound s.mem off lo (mid + 1) = my.split_key := by
      unfold lower_bound
      rw [if_neg (by omega), mpsk, hmk1, Nat.add_sub_cancel]
    rw [hpu] at vb_mid
    rw [hpl] at vb_mid1
    have hVget : ∀ i, i ≤ cfg.max_keys → V[i]? =
        some (lower_bound s.mem off lo i, child cfg s.mem off i, upper_bound s.mem off hi i) := by
      intro i hi'
      rw [← hV]
      exact node_view_getElem? cfg s.mem off lo hi i (by omega)
    have hinW : ∀ t', ((∃ i, i < idx ∧ V[i]? = some t') ∨
        t' = (l, child cfg s.mem off idx, res.split_key) ∨
        t' = (res.split_key, res.new_child_offset, u) ∨
        (∃ i, idx + 1 ≤ i ∧ V[i]? = some t')) →
        t' ∈ List.take idx V ++
          [(l, child cfg s.mem off idx, res.split_key), (res.split_key, res.new_child_offset, u)] ++
          List.drop (idx + 1) V := by
      intro t' ht'
      rcases ht' with c | c | c | c
      · exact List.mem_append_left _ (List.mem_append_left _ ((mem_take_iff _ _ _).mpr c))
      · rw [c]
        exact List.mem_append_left _ (List.mem_append_right _ (List.mem_cons_self _ _))
      · rw [c]
        exact List.mem_append_left _ (List.mem_append_right _
          (List.mem_cons_of_mem _ (List.mem_singleton.mpr rfl)))
      · exact List.mem_append_right _ ((mem_drop_iff _ _ _).mpr c)
    refine ⟨by omega, by omega, ?_, ?_⟩
    · -- the old node
      intro t' ht'
      refine hW t' (hinW t' ?_)
      rcases tcase with c | c
      · -- the pivot went into the old node
        subst c
        have hlt : res.split_key < my.split_key := by
          by_contra hc
          rw [if_neg hc] at ht
          exact hnep ht
        obtain ⟨_, l2, l3⟩ := locate s2.mem t lo my.split_key res.split_key (by omega) hlt
        rw [← hti] at l2 l3
        have hg := node_view_getElem? cfg s2.mem t lo my.split_key ti htile
        rw [mvo lo hi, cview lo hi, hV, List.getElem?_take, if_pos (by omega),
          hVget ti (by omega)] at hg
        have hg' := Option.some.inj hg
        simp only [Prod.mk.injEq] at hg'
        obtain ⟨e1, e2, e3⟩ := hg'
        have hidxeq : ti = idx := by
          refine view_unique cfg s.mem h t lo hi res.split_key ho ti idx (by omega) hidx ?_ ?_
            (by rw [hl]; omega) (by rw [hu]; omega)
          · rw [e1]; exact l2
          · rw [e3]; omega
        subst hidxeq
        rw [iview lo my.split_key, ← e1, ← e2, ← e3, hl, hu, mvo lo hi, cview lo hi, hV] at ht'
        rcases List.mem_append.mp ht' with c1 | c1
        · rcases List.mem_append.mp c1 with c2 | c2
          · obtain ⟨i, hi1, hi2⟩ := (mem_take_iff _ _ _).mp c2
            rw [List.getElem?_take] at hi2
            split at hi2
            · exact Or.inl ⟨i, hi1, hi2⟩
            · exact absurd hi2 (by simp)
          · rcases List.mem_cons.mp c2 with c3 | c3
            · exact Or.inr (Or.inl c3)
            · exact Or.inr (Or.inr (Or.inl (List.mem_singleton.mp c3)))
        · obtain ⟨i, hi1, hi2⟩ := (mem_drop_iff _ _ _).mp c1
          rw [List.getElem?_take] at hi2
          split at hi2
          · exact Or.inr (Or.inr (Or.inr ⟨i, hi1, hi2⟩))
          · exact absurd hi2 (by simp)
      · -- the pivot went into the new node
        subst c
        have hlt : ¬ res.split_key < my.split_key := by
          intro hc
          rw [if_pos hc] at ht
          exact hnep ht.symm
        obtain ⟨_, l2, l3⟩ := locate s2.mem my.new_child_offset my.split_key hi res.split_key
          (by omega) (by omega)
        rw [← hti] at l2 l3
        rw [mkcn] at htile
        have hg := node_view_getElem? cfg s2.mem my.new_child_offset my.split_key hi ti
          (by rw [mkcn]; exact htile)
        rw [mvn lo hi, cview lo hi, hV, List.getElem?_drop, hVget (mid + 1 + ti) (by omega)] at hg
        have hg' := Option.some.inj hg
        simp only [Prod.mk.injEq] at hg'
        obtain ⟨e1, e2, e3⟩ := hg'
        have hidxeq : mid + 1 + ti = idx := by
          refine view_unique cfg s.mem h off lo hi res.split_key ho (mid + 1 + ti) idx
            (by omega) hidx ?_ ?_ (by rw [hl]; omega) (by rw [hu]; omega)
          · rw [e1]; exact l2
          · rw [e3]; exact l3
        obtain ⟨o1, o2, o3, o4⟩ := other off hoff2 hnep (by rw [mkc]; omega)
        rw [o4 lo my.split_key, mvo lo hi, cview lo hi, hV] at ht'
        obtain ⟨i, hi1, hi2⟩ := (mem_take_iff _ _ _).mp ht'
        exact Or.inl ⟨i, by omega, hi2⟩
    · -- the new node
      intro t' ht'
      refine hW t' (hinW t' ?_)
      rcases tcase with c | c
      · subst c
        have hlt : res.split_key < my.split_key := by
          by_contra hc
          rw [if_neg hc] at ht
          exact hnep ht
        obtain ⟨_, l2, l3⟩ := locate s2.mem t lo my.split_key res.split_key (by omega) hlt
        rw [← hti] at l2 l3
        have hg := node_view_getElem? cfg s2.mem t lo my.split_key ti htile
        rw [mvo lo hi, cview lo hi, hV, List.getElem?_take, if_pos (by omega),
          hVget ti (by omega)] at hg
        have hg' := Option.some.inj hg
        simp only [Prod.mk.injEq] at hg'
        obtain ⟨e1, e2, e3⟩ := hg'
        have hidxeq : ti = idx := by
          refine view_unique cfg s.mem h t lo hi res.split_key ho ti idx (by omega) hidx ?_ ?_
            (by rw [hl]; omega) (by rw [hu]; omega)
          · rw [e1]; exact l2
          · rw [e3]; omega
        obtain ⟨o1, o2, o3, o4⟩ := other my.new_child_offset mok (fun c => hnep c.symm)
          (by rw [mkcn]; omega)
        rw [o4 my.split_key hi, mvn lo hi, cview lo hi, hV] at ht'
        obtain ⟨i, hi1, hi2⟩ := (mem_drop_iff _ _ _).mp ht'
        exact Or.inr (Or.inr (Or.inr ⟨i, by omega, hi2⟩))
      · subst c
        have hlt : ¬ res.split_key < my.split_key := by
          intro hc
          rw [if_pos hc] at ht
          exact hnep ht.symm
        obtain ⟨_, l2, l3⟩ := locate s2.mem my.new_child_offset my.split_key hi res.split_key
          (by omega) (by omega)
        rw [← hti] at l2 l3
        have htile' := htile
        rw [mkcn] at htile'
        have hg := node_view_getElem? cfg s2.mem my.new_child_offset my.split_key hi ti htile
        rw [mvn lo hi, cview lo hi, hV, List.getElem?_drop, hVget (mid + 1 + ti) (by omega)] at hg
        have hg' := Option.some.inj hg
        simp only [Prod.mk.injEq] at hg'
        obtain ⟨e1, e2, e3⟩ := hg'
        have hidxeq : mid + 1 + ti = idx := by
          refine view_unique cfg s.mem h off lo hi res.split_key ho (mid + 1 + ti) idx
            (by omega) hidx ?_ ?_ (by rw [hl]; omega) (by rw [hu]; omega)
          · rw [e1]; exact l2
          · rw [e3]; exact l3
        rw [iview my.split_key hi, ← e1, ← e2, ← e3, hidxeq, hl, hu, mvn lo hi, cview lo hi, hV]
          at ht'
        rcases List.mem_append.mp ht' with c1 | c1
        · rcases List.mem_append.mp c1 with c2 | c2
          · obtain ⟨i, hi1, hi2⟩ := (mem_take_iff _ _ _).mp c2
            rw [List.getElem?_drop] at hi2
            exact Or.inl ⟨mid + 1 + i, by omega, hi2⟩
          · rcases List.mem_cons.mp c2 with c3 | c3
            · exact Or.inr (Or.inl c3)
            · exact Or.inr (Or.inr (Or.inl (List.mem_singleton.mp c3)))
        · obtain ⟨i, hi1, hi2⟩ := (mem_drop_iff _ _ _).mp c1
          rw [List.getElem?_drop] at hi2
          exact Or.inr (Or.inr (Or.inr ⟨mid + 1 + i, by omega, hi2⟩))

end BTree

namespace BTree

theorem res_roots_nosplit (c : Nat) (res : InsertResult) (hd : ¬ res.did_split = true) :
    res_roots c res = [c] := by
  unfold res_roots; rw [if_neg hd]

theorem res_view_nosplit (c : Nat) (res : InsertResult) (lo hi : Int)
    (hd : ¬ res.did_split = true) : res_view c res lo hi = [(lo, c, hi)] := by
  unfold res_view; rw [if_neg hd]

/-- The branch of `insert_internal_node` after a call below that did not split. -/
theorem nosplit_post (cfg : BTreeConfig) (s s1 : Manager) (h off idx : Nat) (key value : Int)
    (res : InsertResult) (henv : Env cfg s) (hown : Owned cfg s (h + 1) off)
    (hidx : idx ≤ key_count s.mem off)
    (post : InsertPost cfg s s1 h (child cfg s.mem off idx) key value res)
    (hd : ¬ res.did_split = true)
    (hloc : ∀ lo hi, lo ≤ key → key < hi →
      lower_bound s.mem off lo idx ≤ key ∧ key < upper_bound s.mem off hi idx) :
    InsertPost cfg s s1 (h + 1) off key value ⟨0, 0, false⟩ := by
  obtain ⟨n1, n2, n3, n4, n5, n6, n7⟩ := owned_node cfg s h off hown
  obtain ⟨cfr, cok, ⟨cl, ckc, cch, cview⟩, csh, cnd, cbk, cct, cord⟩ :=
    child_step cfg s s1 h off idx key value res henv hown hidx post
  have hcs := children_split cfg s.mem off idx hidx
  refine node_post_one cfg s s1 h off key value _ cfr cok cl (by rw [ckc]; exact n2) ?_ csh cnd
    cbk cct ?_
  · rw [cch, res_roots_nosplit _ res hd]
    nth_rewrite 1 [hcs]
    exact List.perm_middle
  · intro lo hi ho hlo hhi hnk
    obtain ⟨k1, k2⟩ := hloc lo hi hlo hhi
    have hW := cord lo hi ho k1 k2 hnk
    rw [res_view_nosplit _ res _ _ hd] at hW
    rw [cview lo hi]
    have hv := view_split cfg s.mem off lo hi idx hidx
    rw [hv]
    intro t ht
    refine hW t ?_
    rcases List.mem_append.mp ht with c | c
    · exact List.mem_append_left _ (List.mem_append_left _ c)
    · rcases List.mem_cons.mp c with c1 | c1
      · rw [c1]
        exact List.mem_append_left _ (List.mem_append_right _ (List.mem_singleton.mpr rfl))
      · exact List.mem_append_right _ c1

/-- Insertion below a well-formed subtree of height `h`: with fuel for the
descent and the nested leaf call, `insert_internal` fails only when
`alloc_block` does, and a normal return leaves the postcondition. -/
theorem insert_internal_spec (cfg : BTreeConfig) (key value : Int) (hk : isInt32 key)
    (hv : isInt32 value) :
    ∀ (h fuel : Nat) (s : Manager) (off : Nat), Env cfg s → Owned cfg s h off →
      ∀ (r : Except Err InsertResult) (s' : Manager),
        insert_internal cfg fuel s off key value = (r, s') →
        match r with
        | .ok res => InsertPost cfg s s' h off key value res
        | .error e => h + 3 ≤ fuel → e = .out_of_memory := by
  intro h
  induction h with
  | zero =>
    intro fuel s off henv hown r s' hrun
    obtain ⟨hok, hleaf, _⟩ := owned_leaf cfg s off hown
    have hge := blockOk_ge s off hok
    have h0 : off ≠ 0 := by omega
    cases fuel with
    | zero =>
      unfold insert_internal at hrun
      simp only [Prod.mk.injEq] at hrun
      rw [← hrun.1]
      intro h2
      omega
    | succ f =>
      unfold insert_internal at hrun
      rw [if_neg h0, hleaf, if_pos rfl] at hrun
      have spec := insert_leaf_spec cfg key value hk hv f s off henv hown r s' hrun
      cases r with
      | ok res => exact spec
      | error e =>
        intro hf
        exact spec (by omega)
  | succ h ih =>
    intro fuel s off henv hown r s' hrun
    obtain ⟨n1, n2, n3, n4, n5, n6, n7⟩ := owned_node cfg s h off hown
    have hge := blockOk_ge s off n4
    have h0 : off ≠ 0 := by omega
    cases fuel with
    | zero =>
      unfold insert_internal at hrun
      simp only [Prod.mk.injEq] at hrun
      rw [← hrun.1]
      intro h2
      omega
    | succ f =>
      unfold insert_internal at hrun
      rw [if_neg h0, n1] at hrun
      simp only [Bool.false_eq_true, if_false] at hrun
      unfold insert_internal_node at hrun
      simp only [] at hrun
      have hidx : scan_keys s.mem (get_internal_keys off) key (key_count s.mem off) 0 ≤
          key_count s.mem off := by
        have := (scan_keys_spec s.mem (get_internal_keys off) key (key_count s.mem off) 0).2.1
        omega
      have hloc : ∀ lo hi, lo ≤ key → key < hi →
          lower_bound s.mem off lo
            (scan_keys s.mem (get_internal_keys off) key (key_count s.mem off) 0) ≤ key ∧
          key < upper_bound s.mem off hi
            (scan_keys s.mem (get_internal_keys off) key (key_count s.mem off) 0) :=
        fun lo hi hlo hhi => (locate s.mem off lo hi key hlo hhi).2
      generalize scan_keys s.mem (get_internal_keys off) key (key_count s.mem off) 0 = idx at *
      have hchild : rd64 s.mem (get_internal_children off cfg.max_keys + 8 * idx) =
          child cfg s.mem off idx := rfl
      rw [hchild] at hrun
      have hcmem : child cfg s.mem off idx ∈ node_children cfg s.mem off :=
        (mem_node_children cfg s.mem off _).mpr ⟨idx, hidx, rfl⟩
      generalize hrec : insert_internal cfg f s (child cfg s.mem off idx) key value = rec at hrun
      obtain ⟨rr, s1⟩ := rec
      have ihr := ih f s (child cfg s.mem off idx) henv (owned_child cfg s h off _ hown hcmem)
        rr s1 hrec
      cases rr with
      | error e =>
        simp only [Prod.mk.injEq] at hrun
        rw [← hrun.1]
        intro hf
        exact ihr (by omega)
      | ok res =>
        simp only at hrun ihr
        by_cases hd : res.did_split = true
        · rw [if_pos hd] at hrun
          by_cases hroom : key_count s1.mem off < cfg.max_keys
          · rw [if_pos hroom] at hrun
            simp only [Prod.mk.injEq] at hrun
            obtain ⟨h1, h2⟩ := hrun
            subst h1 h2
            exact pivot_post cfg s s1 h off idx key value res henv hown hidx ihr hd hloc hroom
          · rw [if_neg hroom] at hrun
            generalize hsp : split_internal cfg s1 off = sp at hrun
            obtain ⟨rs, s2⟩ := sp
            cases rs with
            | error e =>
              simp only [Prod.mk.injEq] at hrun
              rw [← hrun.1]
              intro _
              obtain ⟨cfr, cok, ⟨_, ckc, _, _⟩, _⟩ :=
                child_step cfg s s1 h off idx key value res henv hown hidx ihr
              exact split_internal_spec cfg s1 off (cfr.env henv) cok (by omega) _ _ hsp
            | ok my =>
              simp only [Prod.mk.injEq] at hrun
              obtain ⟨h1, h2⟩ := hrun
              subst h1 h2
              exact split_post cfg s s1 s2 h off idx key value res my _ _ henv hown hidx ihr hd
                hloc hroom hsp rfl rfl
        · rw [if_neg hd] at hrun
          simp only [Prod.mk.injEq] at hrun
          obtain ⟨h1, h2⟩ := hrun
          subst h1 h2
          exact nosplit_post cfg s s1 h off idx key value res henv hown hidx ihr hd hloc

end BTree

namespace BTree

theorem set_root_mem (s : Manager) (v x : Nat) (h1 : x < 16 ∨ 24 ≤ x) (h2 : x < 56 ∨ 64 ≤ x) :
    (Manager.set_root_offset s v).mem x = s.mem x := by
  unfold Manager.set_root_offset Manager.update_persistent_checksum
  simp only
  rw [wr64_other _ _ _ _ (by unfold OFF_CHECKSUM; omega),
    wr64_other _ _ _ _ (by unfold OFF_ROOT; omega)]

theorem set_root_get (s : Manager) (v : Nat) (hv : v < 18446744073709551616) :
    (Manager.set_root_offset s v).get_root_offset = v := by
  unfold Manager.get_root_offset Manager.set_root_offset Manager.update_persistent_checksum
  simp only
  rw [rd64_wr64_other _ _ _ _ (by unfold OFF_CHECKSUM OFF_ROOT; omega), rd64_wr64_same,
    Nat.mod_eq_of_lt hv]

/-- Memory after the stores of `insert` that set up a promoted root. -/
theorem new_root_mem (cfg : BTreeConfig) (s2 : Manager) (nr root n : Nat) (sk : Int)
    (m1 m2 m3 m4 m5 : Mem) (s3 : Manager)
    (hfit : NodeFits cfg s2.block_size nr) (h64 : 64 ≤ nr) (hmk : 1 ≤ cfg.max_keys)
    (hsk : isInt32 sk) (hroot : root < 18446744073709551616) (hn : n < 18446744073709551616)
    (h1 : m1 = wr8 s2.mem nr 0) (h2 : m2 = wr32 m1 (nr + 4) 1)
    (h3 : m3 = wrI32 m2 (get_internal_keys nr) sk)
    (h4 : m4 = wr64 m3 (get_internal_children nr cfg.max_keys) root)
    (h5 : m5 = wr64 m4 (get_internal_children nr cfg.max_keys + 8) n)
    (h6 : s3 = persist_node { s2 with mem := m5 } nr) :
    is_leaf s3.mem nr = false ∧ key_count s3.mem nr = 1 ∧
    (∀ lo hi, node_view cfg s3.mem nr lo hi = [(lo, root, sk), (sk, n, hi)]) ∧
    (∀ x, (x < nr ∨ nr + s2.block_size ≤ x) → (x < 56 ∨ 64 ≤ x) → s3.mem x = s2.mem x) ∧
    s3.block_size = s2.block_size ∧ s3.region_size = s2.region_size := by
  obtain ⟨_, b2, b3, _, _⟩ := nodeFits_bounds cfg s2.block_size nr hfit
  have hke : get_internal_keys nr = nr + 16 := rfl
  rw [hke] at h3
  generalize hcb : get_internal_children nr cfg.max_keys = cb at *
  have fr1 : ∀ x, x ≠ nr → m1 x = s2.mem x := fun x hx => by rw [h1]; exact wr8_other _ _ _ _ hx
  have fr2 : ∀ x, (x < nr + 4 ∨ nr + 8 ≤ x) → m2 x = m1 x :=
    fun x hx => by rw [h2]; exact wr32_other _ _ _ _ (by omega)
  have fr3 : ∀ x, (x < nr + 16 ∨ nr + 20 ≤ x) → m3 x = m2 x :=
    fun x hx => by rw [h3]; exact wrI32_other _ _ _ _ (by omega)
  have fr4 : ∀ x, (x < cb ∨ cb + 8 ≤ x) → m4 x = m3 x :=
    fun x hx => by rw [h4]; exact wr64_other _ _ _ _ hx
  have fr5 : ∀ x, (x < cb + 8 ∨ cb + 16 ≤ x) → m5 x = m4 x :=
    fun x hx => by rw [h5]; exact wr64_other _ _ _ _ (by omega)
  have fr6 : ∀ x, (x < nr + 8 ∨ nr + 12 ≤ x) → (x < 56 ∨ 64 ≤ x) → s3.mem x = m5 x :=
    fun x hx hx2 => by rw [h6]; exact persist_node_mem _ _ _ ⟨hx, hx2⟩
  have hkc : key_count s3.mem nr = 1 := by
    unfold key_count
    rw [rd32_congr s3.mem m2 (nr + 4) (fun x hx1 hx2 => by
      rw [fr6 x (by omega) (by omega), fr5 x (by omega), fr4 x (by omega), fr3 x (by omega)]),
      h2, rd32_wr32_same]
  have hk0 : rdI32 s3.mem (nr + 16) = sk := by
    rw [rdI32_congr s3.mem m3 (nr + 16) (fun x hx1 hx2 => by
      rw [fr6 x (by omega) (by omega), fr5 x (by omega), fr4 x (by omega)]), h3]
    exact rdI32_wrI32_same _ _ _ hsk
  have hc0 : rd64 s3.mem cb = root := by
    rw [rd64_congr s3.mem m4 cb (fun x hx1 hx2 => by
      rw [fr6 x (by omega) (by omega), fr5 x (by omega)]), h4, rd64_wr64_same,
      Nat.mod_eq_of_lt hroot]
  have hc1 : rd64 s3.mem (cb + 8) = n := by
    rw [rd64_congr s3.mem m5 (cb + 8) (fun x hx1 hx2 => fr6 x (by omega) (by omega)), h5,
      rd64_wr64_same, Nat.mod_eq_of_lt hn]
  refine ⟨?_, hkc, ?_, ?_, ?_, ?_⟩
  · unfold is_leaf
    rw [rd8_congr s3.mem m1 nr (by
      rw [fr6 nr (by omega) (by omega), fr5 nr (by omega), fr4 nr (by omega),
        fr3 nr (by omega), fr2 nr (by omega)]), h1, rd8_wr8_same]
    rfl
  · intro lo hi
    unfold node_view
    rw [hkc]
    have hr : List.range (1 + 1) = [0, 1] := by decide
    rw [hr]
    simp only [List.map_cons, List.map_nil]
    unfold lower_bound upper_bound child
    rw [hkc, hke, hcb]
    simp only [if_true, Nat.lt_irrefl, if_false, Nat.one_ne_zero, Nat.mul_zero, Nat.add_zero,
      Nat.mul_one, Nat.sub_self, Nat.lt_one_iff, Nat.zero_lt_one]
    rw [hk0, hc0, hc1]
  · intro x hx1 hx2
    rw [fr6 x (by omega) hx2, fr5 x (by omega), fr4 x (by omega), fr3 x (by omega),
      fr2 x (by omega), fr1 x (by omega)]
  · rw [h6]; rfl
  · rw [h6]; rfl

theorem blockOk_of_agree (s s1 : Manager) (hbs : s1.block_size = s.block_size)
    (hrs : s1.region_size = s.region_size)
    (hm : ∀ x, 64 ≤ x → x < 64 + 8 * ((s.block_count + 63) / 64) → s1.mem x = s.mem x)
    (o : Nat) (ho : BlockOk s o) : BlockOk s1 o := by
  obtain ⟨b, h1, h2, h3, h4⟩ := ho
  have hbc := block_count_congr s s1 hbs hrs
  refine ⟨b, by rw [hbs]; exact h1, by rw [hbc]; exact h2, ?_, by rw [hbc]; exact h4⟩
  rw [block_bit_congr s s1 hm b h2]
  exact h3

theorem env_of_agree (cfg : BTreeConfig) (s s1 : Manager) (hbs : s1.block_size = s.block_size)
    (hrs : s1.region_size = s.region_size)
    (hm : ∀ x, 64 ≤ x → x < 64 + 8 * ((s.block_count + 63) / 64) → s1.mem x = s.mem x)
    (he : Env cfg s) : Env cfg s1 := by
  obtain ⟨e1, e2, e3, e4⟩ := he
  have hbc := block_count_congr s s1 hbs hrs
  refine ⟨by rw [hbs]; exact e1, e2, by rw [hrs]; exact e3, ?_⟩
  intro b hb hlt
  rw [hbc] at hb
  rw [hbc, hbs] at hlt
  rw [block_bit_congr s s1 hm b hb]
  exact e4 b hb hlt

/-- A call of `insert` on a well-formed tree: with fuel for the descent it fails
only when `alloc_block` does; a normal return leaves a well-formed tree of the
same height or one more, whose entries are the old ones and the new one, and
which is ordered when the tree was and the key is new. -/
theorem insert_spec (fuel : Nat) (t : BTree) (key value : Int) (h : Nat) (hk : isInt32 key)
    (hv : isInt32 value) (hok : TreeOk t h) :
    ∀ (r : Except Err Unit) (t' : BTree), insert fuel t key value = (r, t') →
      match r with
      | .ok _ => t'.config = t.config ∧ ∃ h', h ≤ h' ∧ h' ≤ h + 1 ∧ TreeOk t' h' ∧
          (Superblock t → Superblock t') ∧
          (contents t'.config t'.manager.mem h' t'.root_offset).Perm
            (⟨key, value⟩ :: contents t.config t.manager.mem h t.root_offset) ∧
          (TreeOrd t h → (∀ e ∈ contents t.config t.manager.mem h t.root_offset, e.key ≠ key) →
            TreeOrd t' h')
      | .error e => h + 3 ≤ fuel → e = .out_of_memory := by
  intro r t' hrun
  obtain ⟨henv, hown⟩ := hok
  unfold insert at hrun
  generalize hrec : insert_internal t.config fuel t.manager t.root_offset key value = rec at hrun
  obtain ⟨rr, s1⟩ := rec
  have spec := insert_internal_spec t.config key value hk hv h fuel t.manager t.root_offset
    henv hown rr s1 hrec
  have hrootok : BlockOk t.manager t.root_offset := hown.2.2 _ (mem_blocks_self _ _ _ _)
  cases rr with
  | error e =>
    simp only [Prod.mk.injEq] at hrun
    rw [← hrun.1]
    exact spec
  | ok res =>
    simp only at hrun spec
    have hsk := spec.2.1
    obtain ⟨fr, _, psh, pnd, pbk, pct, pord⟩ := spec
    have henv1 : Env t.config s1 := fr.env henv
    have hmeta1 : ∀ a, a + 8 ≤ 56 → ∀ x, a ≤ x → x < a + 8 → s1.mem x = t.manager.mem x :=
      fun a ha x hx1 hx2 => fr.2.2.2.1 x (by omega)
    by_cases hd : res.did_split = true
    · rw [if_pos hd] at hrun
      rw [res_roots_true _ res hd] at psh pnd pbk pct
      generalize ha : s1.alloc_block = a at hrun
      obtain ⟨ra, s2⟩ := a
      cases ra with
      | error e =>
        simp only [Prod.mk.injEq] at hrun
        rw [← hrun.1]
        intro _
        exact alloc_block_err s1 s2 e ha
      | ok nr =>
        have hbs := fits_block_size t.config s1.block_size henv1.1
        obtain ⟨fa, oka, nota, mema⟩ := alloc_frame s1 s2 nr ha henv1.2.2.2 (by omega)
        have hge := blockOk_ge s2 nr oka
        have hn0 : nr ≠ 0 := by omega
        simp only [hn0, if_false, Prod.mk.injEq] at hrun
        obtain ⟨h1, h2⟩ := hrun
        subst h1 h2
        have henv2 : Env t.config s2 := fa.env henv1
        have hnlt : res.new_child_offset < 18446744073709551616 := by
          have hm : res.new_child_offset ∈ blocksL t.config s1.mem h
              [t.root_offset, res.new_child_offset] := by
            rw [blocksL_cons, blocksL_cons]
            exact List.mem_append_right _ (List.mem_append_left _ (mem_blocks_self _ _ _ _))
          have h1 := blockOk_lt s1 _ (pbk _ hm).1
          have h2 := henv1.2.2.1
          omega
        have hrlt : t.root_offset < 18446744073709551616 := by
          have h1 := blockOk_lt t.manager _ hrootok
          have h2 := henv.2.2.1
          omega
        have hnrlt : nr < 18446744073709551616 := by
          have h1 := blockOk_lt s2 _ oka
          have h2 := henv2.2.2.1
          omega
        obtain ⟨r1, r2, r3, r4, r5, r6⟩ := new_root_mem t.config s2 nr t.root_offset
          res.new_child_offset res.split_key _ _ _ _ _ _
          (blockOk_fits t.config s2 nr henv2.1 oka) (by omega) henv.1.1 hsk hrlt hnlt
          rfl rfl rfl rfl rfl rfl
        generalize hs3 : persist_node { s2 with mem := _ } nr = s3 at *
        have hbc12 : s2.block_count = s1.block_count := fa.block_count
        have hbs12 : s2.block_size = s1.block_size := fa.1
        -- memory of the final state on allocated blocks other than the new root
        have hagree : ∀ o, BlockOk s1 o → ∀ x, o ≤ x → x < o + s1.block_size →
            (Manager.set_root_offset s3 nr).mem x = s1.mem x := by
          intro o ho x hx1 hx2
          have hoge := blockOk_ge s1 o ho
          have hne : o ≠ nr := fun c => nota (c ▸ ho)
          have hsep := blockOk_sep s2 o nr (fa.blockOk o ho) oka hne
          rw [set_root_mem s3 nr x (by omega) (by omega), r4 x (by omega) (by omega),
            mema x (by omega)]
        have hbits : ∀ x, 64 ≤ x → x < 64 + 8 * ((s2.block_count + 63) / 64) →
            (Manager.set_root_offset s3 nr).mem x = s2.mem x := by
          intro x hx1 hx2
          rw [set_root_mem s3 nr x (by omega) (by omega), r4 x (by omega) (by omega)]
        have hsz1 : (Manager.set_root_offset s3 nr).block_size = s2.block_size := r5
        have hsz2 : (Manager.set_root_offset s3 nr).region_size = s2.region_size := r6
        have henv4 : Env t.config (Manager.set_root_offset s3 nr) :=
          env_of_agree t.config s2 _ hsz1 hsz2 hbits henv2
        have hok4 : ∀ o, BlockOk s2 o → BlockOk (Manager.set_root_offset s3 nr) o :=
          fun o ho => blockOk_of_agree s2 _ hsz1 hsz2 hbits o ho
        obtain ⟨f1, f2, f3, f4⟩ := forest_congr t.config s1.block_size s1.mem
          (Manager.set_root_offset s3 nr).mem h [t.root_offset, res.new_child_offset] psh
          (fun o ho => ⟨blockOk_fits t.config s1 o henv1.1 (pbk o ho).1,
            hagree o (pbk o ho).1⟩)
        have hnode := node_view_congr t.config s2.block_size s3.mem
          (Manager.set_root_offset s3 nr).mem nr (by
            rw [← r5]; rw [r5]; exact blockOk_fits t.config s2 nr henv2.1 oka)
          (by rw [r2]; exact henv.1.1)
          (fun x hx1 hx2 => set_root_mem s3 nr x (by omega) (by omega))
        obtain ⟨v1, v2, v3, v4⟩ := hnode
        have hch : node_children t.config (Manager.set_root_offset s3 nr).mem nr =
            [t.root_offset, res.new_child_offset] := by
          rw [v3, node_children_eq_view t.config s3.mem nr 0 0, r3 0 0]
          rfl
        have hmeta4 : ∀ a, 24 ≤ a → a + 4 ≤ 56 → ∀ x, a ≤ x → x < a + 4 →
            (Manager.set_root_offset s3 nr).mem x = t.manager.mem x := by
          intro a ha1 ha2 x hx1 hx2
          rw [set_root_mem s3 nr x (by omega) (by omega), r4 x (by omega) (by omega),
            mema x (by omega), fr.2.2.2.1 x (by omega)]
        refine ⟨rfl, h + 1, by omega, le_refl _, ⟨henv4, ⟨?_, ?_, ?_⟩⟩,
          fun ⟨hroot, hcmk, hcmin, hclc⟩ => ⟨?_, ?_, ?_, ?_⟩, ?_, ?_⟩
        · show Shape t.config (Manager.set_root_offset s3 nr).mem (h + 1) nr
          rw [shape_succ_L, v1, v2, r1, r2, hch]
          exact ⟨rfl, henv.1.1, f1⟩
        · show (blocks t.config (Manager.set_root_offset s3 nr).mem (h + 1) nr).Nodup
          rw [blocks_succ_L, hch, f2, List.nodup_cons]
          exact ⟨fun hc => nota (pbk nr hc).1, pnd⟩
        · intro o ho
          change o ∈ blocks t.config (Manager.set_root_offset s3 nr).mem (h + 1) nr at ho
          rw [blocks_succ_L, hch, f2] at ho
          rcases List.mem_cons.mp ho with c | c
          · rw [c]; exact hok4 nr oka
          · exact hok4 o (fa.blockOk o (pbk o c).1)
        · exact set_root_get s3 nr hnrlt
        · show rd32 (Manager.set_root_offset s3 nr).mem OFF_MAX_KEYS = t.config.max_keys
          rw [← hcmk]
          exact rd32_congr _ _ _ (hmeta4 OFF_MAX_KEYS (by decide) (by decide))
        · show rd32 (Manager.set_root_offset s3 nr).mem OFF_MIN_KEYS = t.config.min_keys
          rw [← hcmin]
          exact rd32_congr _ _ _ (hmeta4 OFF_MIN_KEYS (by decide) (by decide))
        · show rd32 (Manager.set_root_offset s3 nr).mem OFF_LEAF_CAPACITY = t.config.leaf_capacity
          rw [← hclc]
          exact rd32_congr _ _ _ (hmeta4 OFF_LEAF_CAPACITY (by decide) (by decide))
        · show (contents t.config (Manager.set_root_offset s3 nr).mem (h + 1) nr).Perm _
          rw [contents_succ_L, hch, f3]
          exact pct
        · intro hord hnk
          show Ord t.config (Manager.set_root_offset s3 nr).mem (h + 1) nr (-2147483648) 2147483648
          rw [ord_succ_L, v4, r3]
          have hW := pord (-2147483648) 2147483648 hord hk.1 hk.2 hnk
          rw [res_view_true _ res _ _ hd] at hW
          intro x hx
          have hxm : x.2.1 ∈ [t.root_offset, res.new_child_offset] := by
            rcases List.mem_cons.mp hx with c | c
            · rw [c]; exact List.mem_cons_self _ _
            · rw [List.mem_singleton.mp c]
              exact List.mem_cons_of_mem _ (List.mem_singleton.mpr rfl)
          exact ⟨(hW x hx).1, ((f4 x.2.1 hxm).2.2 _ _).mpr (hW x hx).2⟩
    · rw [if_neg hd] at hrun
      simp only [Prod.mk.injEq] at hrun
      obtain ⟨h1, h2⟩ := hrun
      subst h1 h2
      rw [res_roots_nosplit _ res hd] at psh pnd pbk pct
      rw [blocksL_cons, blocksL_nil, List.append_nil] at pnd pbk
      rw [contentsL_cons, contentsL_nil, List.append_nil] at pct
      refine ⟨rfl, h, le_refl _, by omega, ⟨henv1, ⟨psh _ (List.mem_singleton.mpr rfl), pnd,
        fun o ho => (pbk o ho).1⟩⟩, fun ⟨hroot, hcmk, hcmin, hclc⟩ => ⟨?_, ?_, ?_, ?_⟩, pct, ?_⟩
      · show rd64 s1.mem OFF_ROOT = t.root_offset
        rw [← hroot]
        exact rd64_congr _ _ _ (fun x hx1 hx2 => fr.2.2.2.1 x (by
          unfold OFF_ROOT at hx2; omega))
      · show rd32 s1.mem OFF_MAX_KEYS = t.config.max_keys
        rw [← hcmk]
        exact rd32_congr _ _ _ (fun x hx1 hx2 => fr.2.2.2.1 x (by
          unfold OFF_MAX_KEYS at hx2; omega))
      · show rd32 s1.mem OFF_MIN_KEYS = t.config.min_keys
        rw [← hcmin]
        exact rd32_congr _ _ _ (fun x hx1 hx2 => fr.2.2.2.1 x (by
          unfold OFF_MIN_KEYS at hx2; omega))
      · show rd32 s1.mem OFF_LEAF_CAPACITY = t.config.leaf_capacity
        rw [← hclc]
        exact rd32_congr _ _ _ (fun x hx1 hx2 => fr.2.2.2.1 x (by
          unfold OFF_LEAF_CAPACITY at hx2; omega))
      · intro hord hnk
        have hW := pord (-2147483648) 2147483648 hord hk.1 hk.2 hnk
        rw [res_view_nosplit _ res _ _ hd] at hW
        exact (hW _ (List.mem_singleton.mpr rfl)).2

end BTree

namespace Manager

theorem reserve_loop_other (m : Mem) (n x : Nat) (hx : x < 64) : reserve_loop m n x = m x := by
  induction n with
  | zero => rfl
  | succ n ih =>
    unfold reserve_loop
    simp only
    rw [wr64_other _ _ _ _ (by rw [bitmap_addr_eq]; omega), ih]

theorem memset0_other (m : Mem) (p n x : Nat) (hx : x < p) : memset0 m p n x = m x := by
  induction n with
  | zero => rfl
  | succ n ih =>
    unfold memset0
    rw [wr8_other _ _ _ _ (by omega), ih]

/-- The reserve loop of the constructor sets the bits of the blocks it runs over. -/
theorem reserve_loop_bit (m : Mem) :
    ∀ (n b : Nat), b < n →
      (rd64 (reserve_loop m n) (bitmap_addr (b / 64))).testBit (b % 64) = true := by
  intro n
  induction n with
  | zero => intro b hb; omega
  | succ n ih =>
    intro b hb
    unfold reserve_loop
    simp only
    by_cases hw : b / 64 = n / 64
    · rw [hw, rd64_wr64_same, Nat.mod_eq_of_lt, testBit_set_bit]
      · by_cases hbn : b = n
        · subst hbn; simp
        · have := ih b (by omega)
          rw [hw] at this
          rw [this]; rfl
      · have h64 : (18446744073709551616 : Nat) = 2 ^ 64 := by norm_num
        rw [h64]
        apply Nat.or_lt_two_pow (by rw [← h64]; exact rd64_lt _ _)
        rw [Nat.one_shiftLeft]
        exact Nat.pow_lt_pow_right (by decide) (Nat.mod_lt _ (by decide))
    · have hbn : b < n := by
        rcases Nat.lt_or_ge b n with c | c
        · exact c
        · have : b = n := by omega
          exact absurd (by rw [this]) hw
      rw [rd64_wr64_other _ _ _ _ (by rw [bitmap_addr_eq, bitmap_addr_eq]; omega)]
      exact ih b hbn

/-- A freshly created manager: sizes as given, null root, and the blocks under
superblock and bitmap allocated. -/
theorem create_facts (file : Mem) (rs bs : Nat) (hbs : 0 < bs) :
    (create file rs bs).block_size = bs ∧ (create file rs bs).region_size = rs ∧
    (create file rs bs).get_root_offset = 0 ∧ BTree.MetaReserved (create file rs bs) := by
  refine ⟨rfl, rfl, ?_, ?_⟩
  · unfold get_root_offset create update_persistent_checksum
    simp only
    rw [rd64_wr64_other _ _ _ _ (by unfold OFF_ROOT OFF_CHECKSUM; omega)]
    rw [rd64_congr _ _ OFF_ROOT (fun x hx1 hx2 => by
      rw [reserve_loop_other _ _ x (by unfold OFF_ROOT at hx2; omega),
        memset0_other _ _ _ x (by
          unfold OFF_ROOT at hx2; unfold BITMAP_OFFSET METADATA_SIZE align_to_8; omega)])]
    rw [rd64_wr32_other _ _ _ _ (by unfold OFF_ROOT OFF_PADDING; omega),
      rd64_wr32_other _ _ _ _ (by unfold OFF_ROOT OFF_LEAF_CAPACITY; omega),
      rd64_wr32_other _ _ _ _ (by unfold OFF_ROOT OFF_MIN_KEYS; omega),
      rd64_wr32_other _ _ _ _ (by unfold OFF_ROOT OFF_MAX_KEYS; omega),
      rd64_wr64_other _ _ _ _ (by unfold OFF_ROOT OFF_BLOCK_SIZE; omega),
      rd64_wr64_other _ _ _ _ (by unfold OFF_ROOT OFF_BLOCK_COUNT; omega),
      rd64_wr64_same]
  · intro b hb hlt
    have hbs' : (create file rs bs).block_size = bs := rfl
    have hbc : (create file rs bs).block_count = rs / bs := rfl
    rw [hbs', hbc] at hlt
    have hres : b < reserved_blocks rs bs := by
      unfold reserved_blocks calculate_bitmap_words BITMAP_OFFSET METADATA_SIZE align_to_8
      rw [Nat.lt_iff_add_one_le, Nat.le_div_iff_mul_le hbs, Nat.add_mul]
      omega
    unfold create
    simp only
    rw [GarbageCollector.update_persistent_checksum_bit, block_bit_eq]
    exact reserve_loop_bit _ _ b hres

end Manager

namespace BTree

/-- Memory after the stores of the constructor on a fresh root leaf. -/
theorem new_mem (cfg : BTreeConfig) (s1 : Manager) (root nx : Nat) (m6 : Mem) (s2 : Manager)
    (h64 : 64 ≤ root) (f4 : root + 16 + 8 * cfg.leaf_capacity ≤ nx)
    (f5 : nx + 8 ≤ root + s1.block_size)
    (h6 : m6 = wr64 (wr32 (wr32 (wr32 (wr32 (wr8 s1.mem root 1) (root + 4) 0) OFF_MAX_KEYS
      cfg.max_keys) OFF_MIN_KEYS cfg.min_keys) OFF_LEAF_CAPACITY cfg.leaf_capacity) nx 0)
    (h2 : s2 = Manager.set_root_offset (persist_node { s1 with mem := m6 } root) root) :
    (∀ x, (x < root ∨ root + s1.block_size ≤ x) → 64 ≤ x → s2.mem x = s1.mem x) ∧
    (∀ x, root ≤ x → x < root + 8 → s2.mem x = wr32 (wr8 s1.mem root 1) (root + 4) 0 x) ∧
    (∀ x, 40 ≤ x → x < 52 → s2.mem x =
      (wr32 (wr32 (wr32 (wr32 (wr8 s1.mem root 1) (root + 4) 0) OFF_MAX_KEYS cfg.max_keys)
        OFF_MIN_KEYS cfg.min_keys) OFF_LEAF_CAPACITY cfg.leaf_capacity) x) ∧
    s2.block_size = s1.block_size ∧ s2.region_size = s1.region_size ∧
    (root < 18446744073709551616 → s2.get_root_offset = root) := by
  refine ⟨?_, ?_, ?_, by rw [h2]; rfl, by rw [h2]; rfl, fun h => by rw [h2]; exact set_root_get _ root h⟩
  · intro x hx1 hx2
    rw [h2, set_root_mem _ _ x (by omega) (by omega), persist_node_mem _ _ x ⟨by omega, by omega⟩]
    show m6 x = _
    rw [h6, wr64_other _ _ _ _ (by omega), wr32_other _ _ _ _ (by unfold OFF_LEAF_CAPACITY; omega),
      wr32_other _ _ _ _ (by unfold OFF_MIN_KEYS; omega),
      wr32_other _ _ _ _ (by unfold OFF_MAX_KEYS; omega), wr32_other _ _ _ _ (by omega),
      wr8_other _ _ _ _ (by omega)]
  · intro x hx1 hx2
    rw [h2, set_root_mem _ _ x (by omega) (by omega), persist_node_mem _ _ x ⟨by omega, by omega⟩]
    show m6 x = _
    rw [h6, wr64_other _ _ _ _ (by omega), wr32_other _ _ _ _ (by unfold OFF_LEAF_CAPACITY; omega),
      wr32_other _ _ _ _ (by unfold OFF_MIN_KEYS; omega),
      wr32_other _ _ _ _ (by unfold OFF_MAX_KEYS; omega)]
  · intro x hx1 hx2
    rw [h2, set_root_mem _ _ x (by omega) (by omega), persist_node_mem _ _ x ⟨by omega, by omega⟩]
    show m6 x = _
    rw [h6, wr64_other _ _ _ _ (by omega)]

/-- The constructor on a manager without a root: it fails only in `alloc_block`,
and otherwise leaves a well-formed empty tree of one leaf with the configuration
passed in. -/
theorem new_spec (s0 : Manager) (cfg : BTreeConfig) (hroot : s0.get_root_offset = 0)
    (henv : Env cfg s0) :
    ∀ (r : Except Err BTree) (s' : Manager), BTree.new s0 cfg = (r, s') →
      match r with
      | .error e => e = .out_of_memory
      | .ok t => t.config = cfg ∧ t.manager = s' ∧ TreeOk t 0 ∧ TreeOrd t 0 ∧
          contents cfg t.manager.mem 0 t.root_offset = [] ∧
          (cfg.min_keys < 4294967296 → Superblock t) := by
  intro r s' hrun
  unfold BTree.new at hrun
  rw [if_pos hroot] at hrun
  generalize ha : s0.alloc_block = a at hrun
  obtain ⟨ra, s1⟩ := a
  cases ra with
  | error e =>
    simp only [Prod.mk.injEq] at hrun
    rw [← hrun.1]
    exact alloc_block_err s0 s1 e ha
  | ok root =>
    have hbs := fits_block_size cfg s0.block_size henv.1
    obtain ⟨fa, oka, nota, mema⟩ := alloc_frame s0 s1 root ha henv.2.2.2 (by omega)
    have hge := blockOk_ge s1 root oka
    have hn0 : root ≠ 0 := by omega
    have henv1 : Env cfg s1 := fa.env henv
    have hfit := blockOk_fits cfg s1 root henv1.1 oka
    obtain ⟨f1, _, _, f4, f5⟩ := nodeFits_bounds cfg s1.block_size root hfit
    have hrlt : root < 18446744073709551616 := by
      have h1 := blockOk_lt s1 _ oka
      have h2 := henv1.2.2.1
      omega
    simp only [hn0, if_false, Prod.mk.injEq] at hrun
    obtain ⟨h1, h2⟩ := hrun
    subst h1 h2
    generalize hnx : get_leaf_next root cfg.leaf_capacity = nx at *
    have hmk := henv.1.2.1
    have hlc := henv.1.2.2.1
    obtain ⟨hfar, hnear, hmeta, hs2⟩ := new_mem cfg s1 root nx _ _ (by omega) f4 f5 rfl rfl
    generalize Manager.set_root_offset (persist_node { s1 with mem := _ } root) root = s2 at *
    have hsz1 : s2.block_size = s1.block_size := hs2.1
    have hsz2 : s2.region_size = s1.region_size := hs2.2.1
    have hbits : ∀ x, 64 ≤ x → x < 64 + 8 * ((s1.block_count + 63) / 64) → s2.mem x = s1.mem x :=
      fun x hx1 hx2 => hfar x (by omega) hx1
    have henv2 : Env cfg s2 := env_of_agree cfg s1 s2 hsz1 hsz2 hbits henv1
    have hok2 : BlockOk s2 root := blockOk_of_agree s1 s2 hsz1 hsz2 hbits root oka
    have hleaf : is_leaf s2.mem root = true := by
      unfold is_leaf
      rw [rd8_congr s2.mem _ root (hnear root (le_refl _) (by omega)),
        rd8_wr32_other _ _ _ _ (by omega), rd8_wr8_same]
      rfl
    have hkc : key_count s2.mem root = 0 := by
      unfold key_count
      rw [rd32_congr s2.mem _ (root + 4) (fun x hx1 hx2 => hnear x (by omega) (by omega)),
        rd32_wr32_same]
    have hent : leaf_entries s2.mem root = [] := by
      unfold leaf_entries; rw [hkc]; rfl
    refine ⟨rfl, rfl, ⟨henv2, owned_leaf_of cfg s2 root hok2 hleaf (by rw [hkc]; omega)⟩, ?_, ?_,
      fun hmin => ⟨hs2.2.2 hrlt, ?_, ?_, ?_⟩⟩
    rotate_left 2
    · show rd32 s2.mem OFF_MAX_KEYS = cfg.max_keys
      rw [rd32_congr s2.mem _ OFF_MAX_KEYS (fun x hx1 hx2 => hmeta x
          (by unfold OFF_MAX_KEYS at hx1; omega) (by unfold OFF_MAX_KEYS at hx2; omega)),
        rd32_wr32_other _ _ _ _ (by unfold OFF_MAX_KEYS OFF_LEAF_CAPACITY; omega),
        rd32_wr32_other _ _ _ _ (by unfold OFF_MAX_KEYS OFF_MIN_KEYS; omega), rd32_wr32_same,
        Nat.mod_eq_of_lt (by omega)]
    · show rd32 s2.mem OFF_MIN_KEYS = cfg.min_keys
      rw [rd32_congr s2.mem _ OFF_MIN_KEYS (fun x hx1 hx2 => hmeta x
          (by unfold OFF_MIN_KEYS at hx1; omega) (by unfold OFF_MIN_KEYS at hx2; omega)),
        rd32_wr32_other _ _ _ _ (by unfold OFF_MIN_KEYS OFF_LEAF_CAPACITY; omega),
        rd32_wr32_same, Nat.mod_eq_of_lt hmin]
    · show rd32 s2.mem OFF_LEAF_CAPACITY = cfg.leaf_capacity
      rw [rd32_congr s2.mem _ OFF_LEAF_CAPACITY (fun x hx1 hx2 => hmeta x
          (by unfold OFF_LEAF_CAPACITY at hx1; omega) (by unfold OFF_LEAF_CAPACITY at hx2; omega)),
        rd32_wr32_same, Nat.mod_eq_of_lt (by omega)]
    · show Ord cfg s2.mem 0 root (-2147483648) 2147483648
      rw [ord_zero, hent]
      exact ⟨List.nodup_nil, fun e he => absurd he (List.not_mem_nil e)⟩
    · show contents cfg s2.mem 0 root = []
      rw [contents_zero, hent]

end BTree

namespace BTree

/-- Memory after the stores of `erase_leaf` for a key found at index `i`. -/
theorem erase_leaf_mem (cfg : BTreeConfig) (s : Manager) (off i : Nat) (m1 m2 : Mem)
    (s1 : Manager)
    (hfit : NodeFits cfg s.block_size off) (h64 : 64 ≤ off)
    (hkc : key_count s.mem off ≤ cfg.leaf_capacity) (hcap : cfg.leaf_capacity < 2147483648)
    (hi : i < key_count s.mem off)
    (h1 : m1 = if i ≠ (key_count s.mem off + 4294967295) % 4294967296 then
        write_entry s.mem (get_leaf_entries off + 8 * i)
          (read_entry s.mem (get_leaf_entries off +
            8 * ((key_count s.mem off + 4294967295) % 4294967296)))
      else s.mem)
    (h2 : m2 = wr32 m1 (off + 4) (key_count m1 off + 4294967295))
    (h3 : s1 = persist_node { s with mem := m2 } off) :
    is_leaf s1.mem off = is_leaf s.mem off ∧
    key_count s1.mem off = key_count s.mem off - 1 ∧
    (∀ j, j < key_count s.mem off - 1 →
      read_entry s1.mem (get_leaf_entries off + 8 * j) =
        if j = i then read_entry s.mem (get_leaf_entries off + 8 * (key_count s.mem off - 1))
        else read_entry s.mem (get_leaf_entries off + 8 * j)) ∧
    (∀ x, (x < off ∨ off + s.block_size ≤ x) → (x < 56 ∨ 64 ≤ x) → s1.mem x = s.mem x) ∧
    s1.block_size = s.block_size ∧ s1.region_size = s.region_size := by
  obtain ⟨f1, _, _, f4, f5⟩ := nodeFits_bounds cfg s.block_size off hfit
  have hle : get_leaf_entries off = off + 16 := rfl
  rw [hle] at h1 ⊢
  have hlast : (key_count s.mem off + 4294967295) % 4294967296 = key_count s.mem off - 1 := by
    omega
  rw [hlast] at h1
  generalize hn : key_count s.mem off = n at *
  have fr1 : ∀ x, (x < off + 16 + 8 * i ∨ off + 16 + 8 * i + 8 ≤ x) → m1 x = s.mem x := by
    intro x hx
    rw [h1]
    split
    · exact write_entry_other _ _ _ _ hx
    · rfl
  have hkc1 : key_count m1 off = n := by
    rw [← hn]
    exact key_count_congr _ _ _ (fun x hx1 hx2 => fr1 x (by omega))
  rw [hkc1] at h2
  have fr2 : ∀ x, (x < off + 4 ∨ off + 8 ≤ x) → m2 x = m1 x :=
    fun x hx => by rw [h2]; exact wr32_other _ _ _ _ (by omega)
  have fr3 : ∀ x, (x < off + 8 ∨ off + 12 ≤ x) → (x < 56 ∨ 64 ≤ x) → s1.mem x = m2 x :=
    fun x hx hx2 => by rw [h3]; exact persist_node_mem _ _ _ ⟨hx, hx2⟩
  refine ⟨?_, ?_, ?_, ?_, by rw [h3]; rfl, by rw [h3]; rfl⟩
  · exact is_leaf_congr _ _ _ (by
      rw [fr3 off (by omega) (by omega), fr2 off (by omega), fr1 off (by omega)])
  · unfold key_count
    rw [rd32_congr s1.mem m2 (off + 4) (fun x hx1 hx2 => fr3 x (by omega) (by omega)), h2,
      rd32_wr32_same]
    omega
  · intro j hj
    rw [read_entry_congr s1.mem m1 (off + 16 + 8 * j) (fun x hx1 hx2 => by
      rw [fr3 x (by omega) (by omega), fr2 x (by omega)])]
    by_cases c : j = i
    · subst c
      rw [if_pos rfl, h1, if_pos (by omega)]
      exact read_entry_write_entry _ _ _ (read_entry_int32 _ _).1 (read_entry_int32 _ _).2
    · rw [if_neg c]
      exact read_entry_congr _ _ _ (fun x hx1 hx2 => fr1 x (by omega))
  · intro x hx1 hx2
    rw [fr3 x (by omega) hx2, fr2 x (by omega), fr1 x (by omega)]

theorem erase_leaf_none (s : Manager) (off : Nat) (key : Int)
    (h : find_in_leaf s.mem (get_leaf_entries off) key (key_count s.mem off) 0 = none) :
    erase_leaf s off key = (false, s) := by
  unfold erase_leaf
  simp only [h]

theorem erase_leaf_some (s : Manager) (off : Nat) (key : Int) (i : Nat)
    (h : find_in_leaf s.mem (get_leaf_entries off) key (key_count s.mem off) 0 = some i) :
    ∃ m1 m2 s1, m1 = (if i ≠ (key_count s.mem off + 4294967295) % 4294967296 then
        write_entry s.mem (get_leaf_entries off + 8 * i)
          (read_entry s.mem (get_leaf_entries off +
            8 * ((key_count s.mem off + 4294967295) % 4294967296)))
      else s.mem) ∧
      m2 = wr32 m1 (off + 4) (key_count m1 off + 4294967295) ∧
      s1 = persist_node { s with mem := m2 } off ∧
      erase_leaf s off key = (true, s1) := by
  unfold erase_leaf
  simp only [h]
  exact ⟨_, _, _, rfl, rfl, rfl, rfl⟩

/-- A call of `erase_leaf` on an allocated leaf. -/
theorem erase_leaf_spec (cfg : BTreeConfig) (s : Manager) (off : Nat) (key : Int)
    (henv : Env cfg s) (hok : BlockOk s off)
    (hkc : key_count s.mem off ≤ cfg.leaf_capacity) :
    Frame s (erase_leaf s off key).2 [off] ∧
    is_leaf (erase_leaf s off key).2.mem off = is_leaf s.mem off ∧
    key_count (erase_leaf s off key).2.mem off ≤ key_count s.mem off ∧
    ((erase_leaf s off key).1 = false →
      leaf_entries (erase_leaf s off key).2.mem off = leaf_entries s.mem off) ∧
    ((erase_leaf s off key).1 = true → ∃ i, i < key_count s.mem off ∧
      (read_entry s.mem (get_leaf_entries off + 8 * i)).key = key ∧
      key_count (erase_leaf s off key).2.mem off = key_count s.mem off - 1 ∧
      ∀ j, j < key_count s.mem off - 1 →
        read_entry (erase_leaf s off key).2.mem (get_leaf_entries off + 8 * j) =
          if j = i then read_entry s.mem (get_leaf_entries off + 8 * (key_count s.mem off - 1))
          else read_entry s.mem (get_leaf_entries off + 8 * j)) := by
  have hge := blockOk_ge s off hok
  cases hf : find_in_leaf s.mem (get_leaf_entries off) key (key_count s.mem off) 0 with
  | none =>
    rw [erase_leaf_none s off key hf]
    exact ⟨Frame.refl s _, rfl, le_refl _, fun _ => rfl, fun h => Bool.noConfusion h⟩
  | some i =>
    obtain ⟨m1, m2, s1, e1, e2, e3, e4⟩ := erase_leaf_some s off key i hf
    rw [e4]
    obtain ⟨_, g2, g3, _⟩ := find_in_leaf_some s.mem (get_leaf_entries off) key _ _ _ hf
    obtain ⟨a1, a2, a3, a4, a5, a6⟩ := erase_leaf_mem cfg s off i m1 m2 s1
      (blockOk_fits cfg s off henv.1 hok) (by omega) hkc henv.1.2.2.1 (by omega) e1 e2 e3
    refine ⟨frame_of_writes s _ [off] a5 a6 ?_ ?_, a1, by show key_count s1.mem off ≤ _; rw [a2]; omega,
      fun h => Bool.noConfusion h, fun _ => ⟨i, by omega, g3, a2, a3⟩⟩
    · intro w hw
      rw [List.mem_singleton] at hw
      subst hw
      obtain ⟨b, hb, _, _, hg⟩ := hok
      exact ⟨⟨b, hb⟩, hg⟩
    · intro x hx hx2
      exact a4 x (hx off (List.mem_singleton.mpr rfl)) hx2

theorem leaf_keys_nodup_iff (m : Mem) (off : Nat) :
    ((leaf_entries m off).map (fun e => e.key)).Nodup ↔
      ∀ a b, a < key_count m off → b < key_count m off →
        (read_entry m (get_leaf_entries off + 8 * a)).key =
          (read_entry m (get_leaf_entries off + 8 * b)).key → a = b := by
  unfold leaf_entries
  rw [List.map_map, List.nodup_map_iff_inj_on (List.nodup_range _)]
  constructor
  · intro h a b ha hb hab
    exact h a (List.mem_range.mpr ha) b (List.mem_range.mpr hb) hab
  · intro h a ha b hb hab
    exact h a b (List.mem_range.mp ha) (List.mem_range.mp hb) hab

/-- Lazy removal keeps a leaf ordered and removes exactly the entry of the key. -/
theorem erase_leaf_ord (cfg : BTreeConfig) (s : Manager) (off : Nat) (key lo hi : Int)
    (henv : Env cfg s) (hok : BlockOk s off)
    (hkc : key_count s.mem off ≤ cfg.leaf_capacity) (hord : Ord cfg s.mem 0 off lo hi) :
    Ord cfg (erase_leaf s off key).2.mem 0 off lo hi ∧
    ∀ e, e ∈ leaf_entries (erase_leaf s off key).2.mem off ↔
      e ∈ leaf_entries s.mem off ∧ ((erase_leaf s off key).1 = true → e.key ≠ key) := by
  obtain ⟨_, _, _, a4, a5⟩ := erase_leaf_spec cfg s off key henv hok hkc
  rw [ord_zero] at hord
  cases hf : (erase_leaf s off key).1 with
  | false =>
    rw [ord_zero, a4 hf]
    exact ⟨hord, fun e => ⟨fun h => ⟨h, fun c => Bool.noConfusion c⟩, fun h => h.1⟩⟩
  | true =>
    obtain ⟨i, hi, hik, hkc', hent⟩ := a5 hf
    have hinj := (leaf_keys_nodup_iff s.mem off).mp hord.1
    have hmem : ∀ e, e ∈ leaf_entries (erase_leaf s off key).2.mem off ↔
        e ∈ leaf_entries s.mem off ∧ (true = true → e.key ≠ key) := by
      intro e
      rw [mem_leaf_entries, mem_leaf_entries, hkc']
      constructor
      · rintro ⟨j, hj, hje⟩
        rw [hent j hj] at hje
        by_cases c : j = i
        · rw [if_pos c] at hje
          refine ⟨⟨key_count s.mem off - 1, by omega, hje⟩, fun _ hk => ?_⟩
          rw [← hje, ← hik] at hk
          have := hinj _ _ (by omega) hi hk
          omega
        · rw [if_neg c] at hje
          refine ⟨⟨j, by omega, hje⟩, fun _ hk => ?_⟩
          rw [← hje, ← hik] at hk
          exact c (hinj _ _ (by omega) hi hk)
      · rintro ⟨⟨a, ha, hae⟩, hne⟩
        have hai : a ≠ i := by
          intro c
          rw [c] at hae
          rw [← hae] at hne
          exact hne rfl hik
        by_cases c : a < key_count s.mem off - 1
        · refine ⟨a, c, ?_⟩
          rw [hent a c, if_neg hai]
          exact hae
        · have e1 : a = key_count s.mem off - 1 := by omega
          refine ⟨i, by omega, ?_⟩
          rw [hent i (by omega), if_pos rfl, ← e1]
          exact hae
    refine ⟨?_, hmem⟩
    rw [ord_zero]
    constructor
    · rw [leaf_keys_nodup_iff, hkc']
      intro a b ha hb hab
      rw [hent a ha, hent b hb] at hab
      by_cases ca : a = i
      · by_cases cb : b = i
        · omega
        · rw [if_pos ca, if_neg cb] at hab
          have := hinj _ _ (by omega) (by omega) hab
          omega
      · by_cases cb : b = i
        · rw [if_neg ca, if_pos cb] at hab
          have := hinj _ _ (by omega) (by omega) hab
          omega
        · rw [if_neg ca, if_neg cb] at hab
          exact hinj _ _ (by omega) (by omega) hab
    · intro e he
      exact hord.2 e ((hmem e).mp he).1

end BTree

namespace BTree

theorem node_children_getElem? (cfg : BTreeConfig) (m : Mem) (off : Nat) (i : Nat)
    (h : i ≤ key_count m off) :
    (node_children cfg m off)[i]? = some (child cfg m off i) := by
  unfold node_children
  rw [List.getElem?_map, List.getElem?_range (by omega)]
  rfl

theorem rest_mem (cfg : BTreeConfig) (m : Mem) (off idx j : Nat) (hj : j ≤ key_count m off)
    (hne : j ≠ idx) :
    child cfg m off j ∈ (node_children cfg m off).take idx ++
      (node_children cfg m off).drop (idx + 1) := by
  have hg := node_children_getElem? cfg m off j hj
  rcases Nat.lt_or_ge j idx with c | c
  · exact List.mem_append_left _ ((mem_take_iff _ _ _).mpr ⟨j, c, hg⟩)
  · exact List.mem_append_right _ ((mem_drop_iff _ _ _).mpr ⟨j, by omega, hg⟩)

theorem mem_contents_node (cfg : BTreeConfig) (m : Mem) (h off : Nat) (e : LeafEntry) :
    e ∈ contents cfg m (h + 1) off ↔
      ∃ j, j ≤ key_count m off ∧ e ∈ contents cfg m h (child cfg m off j) := by
  rw [contents_succ, List.mem_flatten]
  constructor
  · rintro ⟨l, hl, he⟩
    obtain ⟨c, hc, rfl⟩ := List.mem_map.mp hl
    obtain ⟨j, hj, rfl⟩ := (mem_node_children cfg m off c).mp hc
    exact ⟨j, hj, he⟩
  · rintro ⟨j, hj, he⟩
    exact ⟨_, List.mem_map.mpr ⟨_, (mem_node_children cfg m off _).mpr ⟨j, hj, rfl⟩, rfl⟩, he⟩

/-- What a call on child `idx` that stays inside the child's blocks leaves of the
node and of the other children. -/
theorem siblings_frame (cfg : BTreeConfig) (s s1 : Manager) (h off idx : Nat)
    (henv : Env cfg s) (hown : Owned cfg s (h + 1) off) (hidx : idx ≤ key_count s.mem off)
    (fr : Frame s s1 (blocks cfg s.mem h (child cfg s.mem off idx))) :
    Frame s s1 (blocks cfg s.mem (h + 1) off) ∧
    (is_leaf s1.mem off = false ∧ key_count s1.mem off = key_count s.mem off ∧
      node_children cfg s1.mem off = node_children cfg s.mem off ∧
      ∀ lo hi, node_view cfg s1.mem off lo hi = node_view cfg s.mem off lo hi) ∧
    (∀ j, j ≤ key_count s.mem off → j ≠ idx →
      Shape cfg s1.mem h (child cfg s.mem off j) ∧
      blocks cfg s1.mem h (child cfg s.mem off j) = blocks cfg s.mem h (child cfg s.mem off j) ∧
      contents cfg s1.mem h (child cfg s.mem off j) =
        contents cfg s.mem h (child cfg s.mem off j) ∧
      ∀ lo hi, Ord cfg s1.mem h (child cfg s.mem off j) lo hi ↔
        Ord cfg s.mem h (child cfg s.mem off j) lo hi) := by
  obtain ⟨n1, n2, n3, n4, n5, n6, n7⟩ := owned_node cfg s h off hown
  have hcs := children_split cfg s.mem off idx hidx
  have hrm := rest_mem cfg s.mem off idx
  generalize hc : child cfg s.mem off idx = c at *
  generalize hcsd : node_children cfg s.mem off = cs at *
  have hperm : cs.Perm (c :: (cs.take idx ++ cs.drop (idx + 1))) := by
    nth_rewrite 1 [hcs]
    exact List.perm_middle
  generalize hrest : cs.take idx ++ cs.drop (idx + 1) = rest at *
  have hrsub : ∀ x ∈ rest, x ∈ cs := fun x hx => hperm.symm.subset (List.mem_cons_of_mem _ hx)
  have hbp := blocksL_perm cfg s.mem h _ _ hperm
  rw [blocksL_cons] at hbp
  have hnd2 : (blocks cfg s.mem h c ++ blocksL cfg s.mem h rest).Nodup := hbp.nodup_iff.mp n6
  have hdis := List.disjoint_of_nodup_append hnd2
  have hcsub : ∀ o ∈ blocks cfg s.mem h c, o ∈ blocksL cfg s.mem h cs :=
    fun o ho => hbp.symm.subset (List.mem_append_left _ ho)
  have hrbsub : ∀ o ∈ blocksL cfg s.mem h rest, o ∈ blocksL cfg s.mem h cs :=
    fun o ho => hbp.symm.subset (List.mem_append_right _ ho)
  have hoff : off ∉ blocks cfg s.mem h c := fun hc' => n5 (hcsub off hc')
  obtain ⟨f1, _, _, f4⟩ := forest_frame cfg s s1 _ h rest henv.1 fr
    (fun x hx => n3 x (hrsub x hx))
    (fun o ho => ⟨n7 o (hrbsub o ho), fun hc' => hdis hc' ho⟩)
  have hnode := node_frame cfg s s1 _ off henv.1 fr n4 hoff n2
  have hbl : blocks cfg s.mem (h + 1) off = off :: blocksL cfg s.mem h cs := by
    rw [blocks_succ_L, hcsd]
  refine ⟨fr.mono (fun o ho => by rw [hbl]; exact List.mem_cons_of_mem _ (hcsub o ho)),
    ⟨by rw [hnode.1]; exact n1, hnode.2.1, ?_, hnode.2.2.2⟩, ?_⟩
  · rw [hnode.2.2.1]; exact hcsd
  · intro j hj hne
    have hm := hrm j hj hne
    exact ⟨f1 _ hm, (f4 _ hm).1, (f4 _ hm).2.1, (f4 _ hm).2.2⟩

/-- Removal below a well-formed subtree of height `h`: with fuel for the descent
`erase_internal` returns, the subtree keeps its nodes, and when it was ordered
it stays ordered and loses exactly the entry of the key. -/
theorem erase_internal_spec (cfg : BTreeConfig) (key : Int) :
    ∀ (h fuel : Nat) (s : Manager) (off : Nat), Env cfg s → Owned cfg s h off →
      ∀ (r : Except Err Bool) (s' : Manager), erase_internal cfg fuel s off key = (r, s') →
        match r with
        | .ok found =>
          Frame s s' (blocks cfg s.mem h off) ∧ Owned cfg s' h off ∧
          blocks cfg s'.mem h off = blocks cfg s.mem h off ∧
          (∀ lo hi, Ord cfg s.mem h off lo hi → lo ≤ key → key < hi →
            Ord cfg s'.mem h off lo hi ∧
            ∀ e, e ∈ contents cfg s'.mem h off ↔
              e ∈ contents cfg s.mem h off ∧ (found = true → e.key ≠ key))
        | .error _ => fuel < h + 1 := by
  intro h
  induction h with
  | zero =>
    intro fuel s off henv hown r s' hrun
    obtain ⟨hok, hleaf, hkc⟩ := owned_leaf cfg s off hown
    have hge := blockOk_ge s off hok
    have h0 : off ≠ 0 := by omega
    cases fuel with
    | zero =>
      unfold erase_internal at hrun
      simp only [Prod.mk.injEq] at hrun
      rw [← hrun.1]
      exact Nat.zero_lt_one
    | succ f =>
      unfold erase_internal at hrun
      rw [if_neg h0, hleaf, if_pos rfl] at hrun
      simp only [Prod.mk.injEq] at hrun
      obtain ⟨h1, h2⟩ := hrun
      subst h1 h2
      obtain ⟨a1, a2, a3, _, _⟩ := erase_leaf_spec cfg s off key henv hok hkc
      refine ⟨by rw [blocks_zero]; exact a1, owned_leaf_of cfg _ off (a1.blockOk off hok)
        (by rw [a2]; exact hleaf) (by omega), by rw [blocks_zero, blocks_zero], ?_⟩
      intro lo hi hord _ _
      obtain ⟨o1, o2⟩ := erase_leaf_ord cfg s off key lo hi henv hok hkc hord
      refine ⟨o1, ?_⟩
      intro e
      rw [contents_zero, contents_zero]
      exact o2 e
  | succ h ih =>
    intro fuel s off henv hown r s' hrun
    obtain ⟨n1, n2, n3, n4, n5, n6, n7⟩ := owned_node cfg s h off hown
    have hge := blockOk_ge s off n4
    have h0 : off ≠ 0 := by omega
    cases fuel with
    | zero =>
      unfold erase_internal at hrun
      simp only [Prod.mk.injEq] at hrun
      rw [← hrun.1]
      exact Nat.succ_pos _
    | succ f =>
      unfold erase_internal at hrun
      rw [if_neg h0, n1] at hrun
      simp only [Bool.false_eq_true, if_false] at hrun
      have hidx : scan_keys s.mem (get_internal_keys off) key (key_count s.mem off) 0 ≤
          key_count s.mem off := by
        have := (scan_keys_spec s.mem (get_internal_keys off) key (key_count s.mem off) 0).2.1
        omega
      have hloc : ∀ lo hi, lo ≤ key → key < hi →
          lower_bound s.mem off lo
            (scan_keys s.mem (get_internal_keys off) key (key_count s.mem off) 0) ≤ key ∧
          key < upper_bound s.mem off hi
            (scan_keys s.mem (get_internal_keys off) key (key_count s.mem off) 0) :=
        fun lo hi hlo hhi => (locate s.mem off lo hi key hlo hhi).2
      generalize scan_keys s.mem (get_internal_keys off) key (key_count s.mem off) 0 = idx at *
      have hchild : rd64 s.mem (get_internal_children off cfg.max_keys + 8 * idx) =
          child cfg s.mem off idx := rfl
      rw [hchild] at hrun
      have hcmem : child cfg s.mem off idx ∈ node_children cfg s.mem off :=
        (mem_node_children cfg s.mem off _).mpr ⟨idx, hidx, rfl⟩
      have ihr := ih f s (child cfg s.mem off idx) henv (owned_child cfg s h off _ hown hcmem)
        r s' hrun
      cases r with
      | error e =>
        simp only at ihr ⊢
        omega
      | ok found =>
        simp only at ihr ⊢
        obtain ⟨cfr, cown, cbl, cord⟩ := ihr
        obtain ⟨sfr, ⟨sl, skc, sch, sview⟩, sib⟩ :=
          siblings_frame cfg s s' h off idx henv hown hidx cfr
        have hchild_eq : ∀ j, child cfg s'.mem off j = child cfg s.mem off j ∨
            ¬ j ≤ key_count s.mem off := by
          intro j
          by_cases c : j ≤ key_count s.mem off
          · exact Or.inl (bounds_of_view_eq cfg s.mem s'.mem off 0 0 j (sview 0 0) skc c).2.1
          · exact Or.inr c
        have hblx : ∀ x ∈ node_children cfg s.mem off,
            Shape cfg s'.mem h x ∧ blocks cfg s'.mem h x = blocks cfg s.mem h x := by
          intro x hx
          obtain ⟨j, hj, rfl⟩ := (mem_node_children cfg s.mem off x).mp hx
          by_cases c : j = idx
          · rw [c]; exact ⟨cown.1, cbl⟩
          · exact ⟨(sib j hj c).1, (sib j hj c).2.1⟩
        have hbleq : blocks cfg s'.mem (h + 1) off = blocks cfg s.mem (h + 1) off := by
          rw [blocks_succ, blocks_succ, sch]
          congr 2
          exact List.map_congr_left (fun x hx => (hblx x hx).2)
        refine ⟨sfr, ⟨?_, ?_, ?_⟩, hbleq, ?_⟩
        · rw [shape_succ_L, sl, skc, sch]
          exact ⟨rfl, n2, fun x hx => (hblx x hx).1⟩
        · rw [hbleq]; exact hown.2.1
        · intro o ho
          rw [hbleq] at ho
          exact sfr.blockOk o (hown.2.2 o ho)
        · intro lo hi hord hlo hhi
          obtain ⟨k1, k2⟩ := hloc lo hi hlo hhi
          have hord' := hord
          rw [ord_succ] at hord'
          have hx : ∀ j, j ≤ key_count s.mem off →
              lower_bound s.mem off lo j < upper_bound s.mem off hi j ∧
              Ord cfg s.mem h (child cfg s.mem off j) (lower_bound s.mem off lo j)
                (upper_bound s.mem off hi j) :=
            fun j hj => hord' _ ((mem_node_view cfg s.mem off lo hi _).mpr ⟨j, hj, rfl⟩)
          obtain ⟨c1, c2⟩ := cord _ _ (hx idx hidx).2 k1 k2
          constructor
          · rw [ord_succ, sview lo hi]
            intro t ht
            obtain ⟨j, hj, rfl⟩ := (mem_node_view cfg s.mem off lo hi t).mp ht
            refine ⟨(hx j hj).1, ?_⟩
            by_cases c : j = idx
            · rw [c]; exact c1
            · exact ((sib j hj c).2.2.2 _ _).mpr (hx j hj).2
          · intro e
            rw [mem_contents_node, mem_contents_node, skc]
            constructor
            · rintro ⟨j, hj, he⟩
              rcases hchild_eq j with ce | ce
              · rw [ce] at he
                by_cases c : j = idx
                · rw [c] at he
                  exact ⟨⟨idx, hidx, ((c2 e).mp he).1⟩, ((c2 e).mp he).2⟩
                · rw [(sib j hj c).2.2.1] at he
                  refine ⟨⟨j, hj, he⟩, fun _ hk => c ?_⟩
                  have hb := contents_bounds cfg s.mem h _ _ _ (hx j hj).2 e he
                  rw [hk] at hb
                  exact view_unique cfg s.mem h off lo hi key hord j idx hj hidx hb.1 hb.2 k1 k2
              · exact absurd hj ce
            · rintro ⟨⟨j, hj, he⟩, hne⟩
              refine ⟨j, hj, ?_⟩
              rcases hchild_eq j with ce | ce
              · rw [ce]
                by_cases c : j = idx
                · rw [c] at he ⊢
                  exact (c2 e).mpr ⟨he, hne⟩
                · rw [(sib j hj c).2.2.1]
                  exact he
              · exact absurd hj ce

end BTree

theorem new_eq (x : Except Err BTree × Manager) (h : returned x = true) :
    x = (.ok (tree_of x), x.2) := by
  obtain ⟨r, s⟩ := x
  cases r with
  | error e => simp [returned] at h
  | ok t => rfl

theorem insert_eq (x : Except Err Unit × BTree) (h : returned x = true) : x = (.ok (), x.2) := by
  obtain ⟨r, s⟩ := x
  cases r with
  | error e => simp [returned] at h
  | ok t => rfl

namespace BTree

/-- A numeric condition under which the node layout fits every block. -/
theorem fits_of_size (cfg : BTreeConfig) (bs : Nat) (h1 : 1 ≤ cfg.max_keys)
    (h2 : cfg.max_keys < 2147483648) (h3 : cfg.leaf_capacity < 2147483648)
    (h4 : 31 + 8 * cfg.leaf_capacity ≤ bs) (h5 : 31 + 12 * cfg.max_keys ≤ bs) : fits cfg bs := by
  refine ⟨h1, h2, h3, fun b => ?_⟩
  unfold NodeFits get_leaf_next get_internal_children get_leaf_entries get_internal_keys align_to_8
  generalize b * bs = o
  omega

/-- More fuel does not change the result of a lookup that returned. -/
theorem search_internal_mono (cfg : BTreeConfig) (m : Mem) (key : Int) :
    ∀ (fuel off : Nat) (r : Option Int) (k : Nat),
      search_internal cfg m fuel off key = .ok r →
      search_internal cfg m (fuel + k) off key = .ok r := by
  intro fuel
  induction fuel with
  | zero =>
    intro off r k h
    unfold search_internal at h
    exact Except.noConfusion h
  | succ f ih =>
    intro off r k h
    have e : f + 1 + k = (f + k) + 1 := by omega
    rw [e]
    unfold search_internal at h ⊢
    split
    · rename_i h0
      rw [if_pos h0] at h
      exact h
    · rename_i h0
      rw [if_neg h0] at h
      split
      · rename_i hl
        rw [if_pos hl] at h
        exact h
      · rename_i hl
        rw [if_neg hl] at h
        exact ih _ r k h

/-- A lookup in a tree of height `h` returns when it has fuel for `h + 1` nodes. -/
theorem search_total (cfg : BTreeConfig) (m : Mem) (key : Int) :
    ∀ (h off extra : Nat), Shape cfg m h off →
      ∃ r, search_internal cfg m (h + 1 + extra) off key = .ok r := by
  intro h
  induction h with
  | zero =>
    intro off extra hs
    rw [shape_zero] at hs
    have e : 0 + 1 + extra = extra + 1 := by omega
    rw [e]
    unfold search_internal
    split
    · exact ⟨none, rfl⟩
    · rw [if_pos hs.1]
      split
      · exact ⟨_, rfl⟩
      · exact ⟨none, rfl⟩
  | succ h ih =>
    intro off extra hs
    rw [shape_succ] at hs
    have e : h + 1 + 1 + extra = (h + 1 + extra) + 1 := by omega
    rw [e]
    unfold search_internal
    split
    · exact ⟨none, rfl⟩
    · rw [hs.1]
      simp only [Bool.false_eq_true, if_false]
      apply ih
      apply hs.2.2
      rw [mem_node_children]
      refine ⟨_, ?_, rfl⟩
      have := (scan_keys_spec m (get_internal_keys off) key (key_count m off) 0).2.1
      omega

theorem treeOk_nonzero (t : BTree) (h : Nat) (hok : TreeOk t h) :
    ∀ o ∈ blocks t.config t.manager.mem h t.root_offset, o ≠ 0 := by
  intro o ho
  have := blockOk_ge t.manager o (hok.2.2.2 o ho)
  omega

/-- In a well-formed ordered tree `search` finds exactly the stored entries. -/
theorem search_tree (t : BTree) (h fuel : Nat) (key : Int) (hok : TreeOk t h)
    (hord : TreeOrd t h) (hk : isInt32 key) (hf : h + 1 ≤ fuel) :
    ∃ r, search fuel t key = .ok r ∧
      ∀ v, r = some v ↔ (⟨key, v⟩ : LeafEntry) ∈ contents t.config t.manager.mem h t.root_offset := by
  have e : fuel = h + 1 + (fuel - (h + 1)) := by omega
  rw [e]
  exact search_spec t.config t.manager.mem key h t.root_offset _ _ _ hok.2.1 hord hk.1 hk.2
    (treeOk_nonzero t h hok)

/-- A key that `search` reports not-found is not stored. -/
theorem not_present (t : BTree) (h sfuel : Nat) (key : Int) (hok : TreeOk t h)
    (hord : TreeOrd t h) (hk : isInt32 key) (hs : search sfuel t key = .ok none) :
    ∀ e ∈ contents t.config t.manager.mem h t.root_offset, e.key ≠ key := by
  obtain ⟨r, hr, hiff⟩ := search_tree t h (sfuel + (h + 1)) key hok hord hk (by omega)
  unfold search at hs hr
  rw [search_internal_mono _ _ _ _ _ _ (h + 1) hs] at hr
  have hn : r = none := (Except.ok.inj hr).symm
  intro e he hek
  have : r = some e.value := (hiff e.value).mpr (by rw [← hek]; exact he)
  rw [hn] at this
  exact Option.noConfusion this

theorem superblock_frame (t : BTree) (s1 : Manager) (bl : List Nat)
    (fr : Frame t.manager s1 bl) (hsb : Superblock t) :
    Superblock { t with manager := s1 } := by
  obtain ⟨h1, h2, h3, h4⟩ := hsb
  refine ⟨?_, ?_, ?_, ?_⟩
  · show rd64 s1.mem OFF_ROOT = t.root_offset
    rw [← h1]
    exact rd64_congr _ _ _ (fun x hx1 hx2 => fr.2.2.2.1 x (by unfold OFF_ROOT at hx2; omega))
  · show rd32 s1.mem OFF_MAX_KEYS = t.config.max_keys
    rw [← h2]
    exact rd32_congr _ _ _ (fun x hx1 hx2 => fr.2.2.2.1 x (by unfold OFF_MAX_KEYS at hx2; omega))
  · show rd32 s1.mem OFF_MIN_KEYS = t.config.min_keys
    rw [← h3]
    exact rd32_congr _ _ _ (fun x hx1 hx2 => fr.2.2.2.1 x (by unfold OFF_MIN_KEYS at hx2; omega))
  · show rd32 s1.mem OFF_LEAF_CAPACITY = t.config.leaf_capacity
    rw [← h4]
    exact rd32_congr _ _ _ (fun x hx1 hx2 => fr.2.2.2.1 x (by
      unfold OFF_LEAF_CAPACITY at hx2; omega))

/-- A call of `erase` on a well-formed tree of height `h`: it returns when it has
fuel for `h + 1` nodes, and the tree stays well formed. -/
theorem erase_spec (fuel : Nat) (t : BTree) (key : Int) (h : Nat) (hk : isInt32 key)
    (hok : TreeOk t h) :
    ∀ (r : Except Err Bool) (t1 : BTree), erase fuel t key = (r, t1) →
      match r with
      | .ok found => t1.config = t.config ∧ t1.root_offset = t.root_offset ∧ TreeOk t1 h ∧
          (Superblock t → Superblock t1) ∧
          (TreeOrd t h → TreeOrd t1 h ∧
            ∀ e, e ∈ contents t1.config t1.manager.mem h t1.root_offset ↔
              e ∈ contents t.config t.manager.mem h t.root_offset ∧
                (found = true → e.key ≠ key))
      | .error _ => fuel < h + 1 := by
  intro r t1 hrun
  unfold erase at hrun
  generalize hx : erase_internal t.config fuel t.manager t.root_offset key = x at hrun
  obtain ⟨r', s'⟩ := x
  simp only [Prod.mk.injEq] at hrun
  obtain ⟨h1, h2⟩ := hrun
  subst h1 h2
  have spec := erase_internal_spec t.config key h fuel t.manager t.root_offset hok.1 hok.2 r' s' hx
  cases r' with
  | error e => exact spec
  | ok found =>
    simp only at spec ⊢
    obtain ⟨fr, own, _, ord⟩ := spec
    exact ⟨trivial, trivial, ⟨fr.env hok.1, own⟩, superblock_frame t s' _ fr,
      fun ho => ord _ _ ho hk.1 hk.2⟩

theorem hist_construct (strict : Bool) (cfg : BTreeConfig) (file : Mem) (rs bs : Nat)
    (h : returned (BTree.new (Manager.create file rs bs) cfg) = true) :
    Hist strict cfg rs bs 0 (tree_of (BTree.new (Manager.create file rs bs) cfg)) :=
  Hist.construct file _ _ (new_eq _ h)

/-- A freshly constructed tree is well formed, ordered and empty. -/
theorem construct_spec (cfg : BTreeConfig) (file : Mem) (rs bs : Nat) (t : BTree) (s : Manager)
    (hfit : fits cfg bs) (hlc : 2 ≤ cfg.leaf_capacity) (hrs : rs < 18446744073709551616)
    (hnew : BTree.new (Manager.create file rs bs) cfg = (.ok t, s)) :
    t.config = cfg ∧ TreeOk t 0 ∧ TreeOrd t 0 ∧
    contents cfg t.manager.mem 0 t.root_offset = [] ∧
    (cfg.min_keys < 4294967296 → Superblock t) := by
  have hbs := fits_block_size cfg bs hfit
  obtain ⟨c1, c2, c3, c4⟩ := Manager.create_facts file rs bs (by omega)
  have henv : Env cfg (Manager.create file rs bs) :=
    ⟨by rw [c1]; exact hfit, hlc, by rw [c2]; exact hrs, c4⟩
  have spec := new_spec (Manager.create file rs bs) cfg c3 henv _ _ hnew
  simp only at spec
  exact ⟨spec.1, spec.2.2.1, spec.2.2.2.1, spec.2.2.2.2.1, spec.2.2.2.2.2⟩

/-- Invariant of histories: the tree is well formed with a height of at most the
number of inserts, the superblock describes it, and a strict history keeps it
ordered. -/
theorem hist_inv (strict : Bool) (cfg : BTreeConfig) (rs bs : Nat) (hfit : fits cfg bs)
    (hlc : 2 ≤ cfg.leaf_capacity) (hrs : rs < 18446744073709551616) :
    ∀ (n : Nat) (t : BTree), Hist strict cfg rs bs n t →
      t.config = cfg ∧ ∃ h, h ≤ n ∧ TreeOk t h ∧
        (cfg.min_keys < 4294967296 → Superblock t) ∧ (strict = true → TreeOrd t h) := by
  intro n t hist
  induction hist with
  | construct file t s hnew =>
    obtain ⟨c1, c2, c3, _, c5⟩ := construct_spec cfg file rs bs t s hfit hlc hrs hnew
    exact ⟨c1, 0, le_refl _, c2, c5, fun _ => c3⟩
  | insert n fuel sfuel t t1 key value _ hk hv hs hins ih =>
    obtain ⟨i1, h, i2, i3, i4, i5⟩ := ih
    have spec := insert_spec fuel t key value h hk hv i3 _ _ hins
    simp only at spec
    obtain ⟨s1, h', s2, s3, s4, s5, _, s7⟩ := spec
    refine ⟨by rw [s1, i1], h', by omega, s4, fun hm => s5 (i4 hm), fun hst => ?_⟩
    exact s7 (i5 hst) (not_present t h sfuel key i3 (i5 hst) hk (hs hst))
  | erase n fuel t t1 key found _ hk her ih =>
    obtain ⟨i1, h, i2, i3, i4, i5⟩ := ih
    have spec := erase_spec fuel t key h hk i3 _ _ her
    simp only at spec
    obtain ⟨s1, _, s3, s4, s5⟩ := spec
    exact ⟨by rw [s1, i1], h, i2, s3, fun hm => s4 (i4 hm), fun hst => (s5 (i5 hst)).1⟩

theorem hist_of_insert_all (cfg : BTreeConfig) (rs bs fuel : Nat) :
    ∀ (ops : List (Int × Int)) (n : Nat) (t : BTree), Hist false cfg rs bs n t →
      (∀ p ∈ ops, isInt32 p.1 ∧ isInt32 p.2) → returned (insert_all fuel t ops) = true →
      Hist false cfg rs bs (n + ops.length) (insert_all fuel t ops).2 := by
  intro ops
  induction ops with
  | nil => intro n t ht _ _; exact ht
  | cons p ops ih =>
    intro n t ht hp h
    obtain ⟨k, v⟩ := p
    unfold insert_all at h ⊢
    have hkv := hp (k, v) (List.mem_cons_self _ _)
    generalize hr : BTree.insert fuel t k v = r at h ⊢
    obtain ⟨r1, r2⟩ := r
    cases r1 with
    | error e => simp [returned] at h
    | ok u =>
      simp only at h ⊢
      have e : n + (ops.length + 1) = (n + 1) + ops.length := by omega
      rw [List.length_cons, e]
      exact ih (n + 1) r2 (Hist.insert n fuel 0 t r2 k v ht hkv.1 hkv.2
        (fun c => Bool.noConfusion c) hr)
        (fun q hq => hp q (List.mem_cons_of_mem _ hq)) h

theorem hist_of_fresh_run (cfg : BTreeConfig) (rs bs fuel : Nat) :
    ∀ (ops : List (Int × Int)) (n : Nat) (t : BTree), Hist true cfg rs bs n t →
      (∀ p ∈ ops, isInt32 p.1 ∧ isInt32 p.2) → fresh_run fuel t ops = true →
      Hist true cfg rs bs (n + ops.length) (insert_all fuel t ops).2 := by
  intro ops
  induction ops with
  | nil => intro n t ht _ _; exact ht
  | cons p ops ih =>
    intro n t ht hp h
    obtain ⟨k, v⟩ := p
    unfold fresh_run at h
    simp only [Bool.and_eq_true, decide_eq_true_eq] at h
    obtain ⟨⟨h1, h2⟩, h3⟩ := h
    have hkv := hp (k, v) (List.mem_cons_self _ _)
    have heq := insert_eq _ h2
    unfold insert_all
    rw [heq]
    simp only
    have e : n + (ops.length + 1) = (n + 1) + ops.length := by omega
    rw [List.length_cons, e]
    exact ih (n + 1) _ (Hist.insert n fuel fuel t _ k v ht hkv.1 hkv.2 (fun _ => h1) heq)
      (fun q hq => hp q (List.mem_cons_of_mem _ hq)) h3

/-- A run of inserts with pairwise different new keys on a well-formed ordered
tree: it fails only when `alloc_block` does, and otherwise every pair is stored
in the final tree, which is well formed and ordered. -/
theorem insert_all_spec (fuel : Nat) :
    ∀ (ops : List (Int × Int)) (t : BTree) (h : Nat), TreeOk t h → TreeOrd t h →
      (ops.map Prod.fst).Nodup →
      (∀ p ∈ ops, ∀ e ∈ contents t.config t.manager.mem h t.root_offset, e.key ≠ p.1) →
      (∀ p ∈ ops, isInt32 p.1 ∧ isInt32 p.2) → h + ops.length + 3 ≤ fuel →
      (insert_all fuel t ops).1 = .error .out_of_memory ∨
      ((insert_all fuel t ops).1 = .ok () ∧ ∃ h', h' ≤ h + ops.length ∧
        TreeOk (insert_all fuel t ops).2 h' ∧ TreeOrd (insert_all fuel t ops).2 h' ∧
        ∀ p ∈ ops, (⟨p.1, p.2⟩ : LeafEntry) ∈
          contents (insert_all fuel t ops).2.config (insert_all fuel t ops).2.manager.mem h'
            (insert_all fuel t ops).2.root_offset) := by
  have gen : ∀ (ops : List (Int × Int)) (t : BTree) (h : Nat) (acc : List LeafEntry),
      TreeOk t h → TreeOrd t h → (ops.map Prod.fst).Nodup →
      (∀ p ∈ ops, ∀ e ∈ contents t.config t.manager.mem h t.root_offset, e.key ≠ p.1) →
      (∀ p ∈ ops, isInt32 p.1 ∧ isInt32 p.2) → h + ops.length + 3 ≤ fuel →
      (∀ e ∈ acc, e ∈ contents t.config t.manager.mem h t.root_offset) →
      (insert_all fuel t ops).1 = .error .out_of_memory ∨
      ((insert_all fuel t ops).1 = .ok () ∧ ∃ h', h' ≤ h + ops.length ∧
        TreeOk (insert_all fuel t ops).2 h' ∧ TreeOrd (insert_all fuel t ops).2 h' ∧
        (∀ e ∈ acc, e ∈ contents (insert_all fuel t ops).2.config
          (insert_all fuel t ops).2.manager.mem h' (insert_all fuel t ops).2.root_offset) ∧
        ∀ p ∈ ops, (⟨p.1, p.2⟩ : LeafEntry) ∈
          contents (insert_all fuel t ops).2.config (insert_all fuel t ops).2.manager.mem h'
            (insert_all fuel t ops).2.root_offset) := by
    intro ops
    induction ops with
    | nil =>
      intro t h acc hok hord _ _ _ _ hacc
      exact Or.inr ⟨rfl, h, le_refl _, hok, hord, hacc,
        fun p hp => absurd hp (List.not_mem_nil p)⟩
    | cons p ops ih =>
      intro t h acc hok hord hnd hnew hint hfuel hacc
      obtain ⟨k, v⟩ := p
      rw [List.map_cons, List.nodup_cons] at hnd
      have hkv := hint (k, v) (List.mem_cons_self _ _)
      rw [List.length_cons] at hfuel
      unfold insert_all
      generalize hr : BTree.insert fuel t k v = r
      obtain ⟨r1, t1⟩ := r
      have spec := insert_spec fuel t k v h hkv.1 hkv.2 hok r1 t1 hr
      cases r1 with
      | error e =>
        simp only at spec ⊢
        left
        rw [spec (by omega)]
      | ok u =>
        simp only at spec ⊢
        obtain ⟨s1, h', s2, s3, s4, _, s6, s7⟩ := spec
        have hord1 := s7 hord (hnew (k, v) (List.mem_cons_self _ _))
        rw [s1] at s6
        have hin : ∀ e, e ∈ contents t.config t1.manager.mem h' t1.root_offset ↔
            e = ⟨k, v⟩ ∨ e ∈ contents t.config t.manager.mem h t.root_offset := by
          intro e
          rw [s6.mem_iff, List.mem_cons]
        rcases ih t1 h' (⟨k, v⟩ :: acc) s4 hord1 hnd.2
          (fun q hq e he => by
            rw [s1, hin] at he
            rcases he with c | c
            · rw [c]
              intro hc
              exact hnd.1 (List.mem_map.mpr ⟨q, hq, hc.symm⟩)
            · exact hnew q (List.mem_cons_of_mem _ hq) e c)
          (fun q hq => hint q (List.mem_cons_of_mem _ hq)) (by omega)
          (fun e he => by
            rw [s1, hin]
            rcases List.mem_cons.mp he with c | c
            · exact Or.inl c
            · exact Or.inr (hacc e c)) with c | ⟨c1, h2, c2, c3, c4, c5, c6⟩
        · exact Or.inl c
        · refine Or.inr ⟨c1, h2, by rw [List.length_cons]; omega, c3, c4,
            fun e he => c5 e (List.mem_cons_of_mem _ he), ?_⟩
          intro q hq
          rcases List.mem_cons.mp hq with c | c
          · rw [c]
            exact c5 _ (List.mem_cons_self _ _)
          · exact c6 q c
  intro ops t h hok hord hnd hnew hint hfuel
  rcases gen ops t h [] hok hord hnd hnew hint hfuel
    (fun e he => absurd he (List.not_mem_nil e)) with c | ⟨c1, h', c2, c3, c4, _, c6⟩
  · exact Or.inl c
  · exact Or.inr ⟨c1, h', c2, c3, c4, c6⟩

end BTree

/-! ## Allocator: first fit, failure, release -/

theorem testBit_all_ones (j : Nat) :
    (0xFFFFFFFFFFFFFFFF : Nat).testBit j = decide (j < 64) := by
  have e : (0xFFFFFFFFFFFFFFFF : Nat) = 2 ^ 64 - 1 := by norm_num
  rw [e, Nat.testBit_two_pow_sub_one]

namespace Manager

theorem bitmap_words_cover (s : Manager) (b : Nat) (hb : b < s.block_count) :
    b / 64 < s.bitmap_size_words := by
  unfold bitmap_size_words calculate_bitmap_words
  omega

/-- A raising `alloc_block` found every block of the region allocated. -/
theorem alloc_block_error_full (s s' : Manager) (e : Err) (h : s.alloc_block = (.error e, s')) :
    ∀ b, b < s.block_count → s.block_bit b = true := by
  intro b hb
  have hcov := bitmap_words_cover s b hb
  rw [block_bit_eq]
  unfold alloc_block at h
  split at h
  · rename_i hi
    rw [first_free_word_none s _ _ hi (b / 64) (by omega) (by omega), testBit_all_ones]
    exact decide_eq_true (Nat.mod_lt _ (by norm_num))
  · rename_i i hi
    obtain ⟨_, f2, f3, f4⟩ := first_free_word_spec s _ _ _ hi
    obtain ⟨c1, c2, c3⟩ := countr_zero_not64 (s.bitmap_word i) (bitmap_word_lt s i) f3
    simp only at h
    generalize countr_zero (not64 (s.bitmap_word i)) = c at *
    split at h
    · rename_i hge
      by_cases hw : b / 64 = i
      · rw [hw]; exact c3 _ (by omega)
      · rw [f4 (b / 64) (by omega) (by omega), testBit_all_ones]
        exact decide_eq_true (Nat.mod_lt _ (by norm_num))
    · simp at h

/-- The two ways out of `alloc_block`. -/
theorem alloc_block_cases (s : Manager) :
    (∃ off, s.alloc_block = (.ok off, s.alloc_block.2)) ∨
    s.alloc_block = (.error .out_of_memory, s.alloc_block.2) := by
  generalize hr : s.alloc_block = r
  obtain ⟨r1, r2⟩ := r
  cases r1 with
  | ok off => exact Or.inl ⟨off, rfl⟩
  | error e =>
    have := BTree.alloc_block_err s r2 e hr
    subst this
    exact Or.inr rfl

end Manager

/-! ## Whole-region checksum and node CRC against their reference definitions -/

theorem rotl1_eq (w : Nat) (h : w < 18446744073709551616) :
    rotl1 w = Manager.rotate_left_1 w := by
  unfold rotl1 Manager.rotate_left_1
  rw [Nat.shiftRight_eq_div_pow, Nat.shiftLeft_eq]
  have e1 : w * 2 ^ 1 % 18446744073709551616 = 2 ^ 1 * (w % 9223372036854775808) := by omega
  have e2 : 2 * w % 18446744073709551616 = 2 ^ 1 * (w % 9223372036854775808) := by omega
  have e3 : (2 : Nat) ^ 63 = 9223372036854775808 := by norm_num
  rw [e1, e2, e3]
  exact (Nat.mul_add_lt_is_or (by omega) _).symm

theorem rotate_left_1_inj (v w : Nat) (hv : v < 18446744073709551616)
    (hw : w < 18446744073709551616) (h : Manager.rotate_left_1 v = Manager.rotate_left_1 w) :
    v = w := by
  have a1 : 2 * v % 18446744073709551616 = 2 * (v % 9223372036854775808) := by
    clear h hv hw; omega
  have a2 : 2 * w % 18446744073709551616 = 2 * (w % 9223372036854775808) := by
    clear h hv hw; omega
  have b1 : v / 9223372036854775808 < 2 := by clear h a1 a2; omega
  have b2 : w / 9223372036854775808 < 2 := by clear h a1 a2; omega
  have c1 := Nat.div_add_mod v 9223372036854775808
  have c2 := Nat.div_add_mod w 9223372036854775808
  unfold Manager.rotate_left_1 at h
  rw [a1, a2] at h
  clear a1 a2 hv hw
  generalize v / 9223372036854775808 = vh at *
  generalize v % 9223372036854775808 = vl at *
  generalize w / 9223372036854775808 = wh at *
  generalize w % 9223372036854775808 = wl at *
  have e1 : vh = wh := by clear c1 c2; omega
  have e2 : vl = wl := by clear c1 c2; omega
  rw [← c1, ← c2, e1, e2]

theorem rotl1_inj (v w : Nat) (hv : v < 18446744073709551616)
    (hw : w < 18446744073709551616) (h : rotl1 v = rotl1 w) : v = w := by
  rw [rotl1_eq v hv, rotl1_eq w hw] at h
  exact rotate_left_1_inj v w hv hw h

theorem le_word_eq (m : Mem) (i : Nat) : Manager.le_word m i = rd64 m (8 * i) := by
  unfold Manager.le_word rd64 rd32
  simp only [List.range_succ, List.range_zero, List.nil_append, List.cons_append, List.map_cons,
    List.map_nil, List.sum_cons, List.sum_nil, Nat.add_assoc]
  norm_num
  ring

/-- The checksum loop as an XOR over the words it does not skip. -/
theorem xor_fold_eq (p : Nat → Prop) [DecidablePred p] (g : Nat → Nat) :
    ∀ (l : List Nat) (acc : Nat),
      l.foldl (fun c i => if p i then c else c ^^^ g i) acc =
        acc ^^^ ((l.filter (fun i => ¬ p i)).map g).foldr (fun a b => a ^^^ b) 0 := by
  intro l
  induction l with
  | nil => intro acc; simp
  | cons i l ih =>
    intro acc
    rw [List.foldl_cons, ih]
    by_cases hp : p i
    · simp [hp]
    · simp [hp, Nat.xor_assoc]

/-- Changing the term of one index of a duplicate-free index list changes the XOR
by the XOR of the old and the new term. -/
theorem xor_fold_update (g g1 : Nat → Nat) (i : Nat) (hg : ∀ j, j ≠ i → g1 j = g j) :
    ∀ (l : List Nat), l.Nodup →
      (l.map g1).foldr (fun a b => a ^^^ b) 0 =
        (l.map g).foldr (fun a b => a ^^^ b) 0 ^^^ (if i ∈ l then g i ^^^ g1 i else 0) := by
  intro l
  induction l with
  | nil => intro _; simp
  | cons a l ih =>
    intro hnd
    rw [List.nodup_cons] at hnd
    simp only [List.map_cons, List.foldr_cons]
    rw [ih hnd.2]
    by_cases ha : a = i
    · subst ha
      simp only [List.mem_cons, true_or, if_true, if_neg hnd.1, Nat.xor_zero]
      apply Nat.eq_of_testBit_eq
      intro k
      simp only [Nat.testBit_xor]
      cases (g1 a).testBit k <;> cases (g a).testBit k <;>
        cases (List.foldr (fun a b => a ^^^ b) 0 (List.map g l)).testBit k <;> rfl
    · rw [hg a ha]
      have hm : (i ∈ a :: l) ↔ i ∈ l := by
        simp only [List.mem_cons]
        constructor
        · rintro (h | h)
          · exact absurd h.symm ha
          · exact h
        · exact Or.inr
      simp only [hm, Nat.xor_assoc]

namespace Manager

/-- The checksum loop of `calculate_checksum` is the XOR of the specification. -/
theorem calculate_checksum_eq (s : Manager) :
    s.calculate_checksum = xor_of_rotated_words s.mem s.region_size := by
  unfold calculate_checksum xor_of_rotated_words
  rw [xor_fold_eq (fun i => 8 * i = OFF_CHECKSUM) (fun i => rotl1 (rd64 s.mem (8 * i))),
    Nat.zero_xor]
  have hf : (List.range (s.region_size / 8)).filter (fun i => ¬ (8 * i = OFF_CHECKSUM)) =
      (List.range (s.region_size / 8)).filter (fun i => i ≠ 7) := by
    apply List.filter_congr
    intro i _
    unfold OFF_CHECKSUM
    have : (8 * i = 56) ↔ i = 7 := by omega
    simp [this]
  rw [hf]
  congr 1
  apply List.map_congr_left
  intro i _
  rw [le_word_eq, rotl1_eq _ (rd64_lt _ _)]

/-- Replacing one word other than the checksum word by a different value changes
the checksum. -/
theorem calculate_checksum_word (s : Manager) (i v : Nat) (hi : i < s.region_size / 8)
    (h7 : i ≠ 7) (hv : v < 18446744073709551616) (hne : v ≠ rd64 s.mem (8 * i)) :
    calculate_checksum { s with mem := wr64 s.mem (8 * i) v } ≠ s.calculate_checksum := by
  unfold calculate_checksum
  simp only
  rw [xor_fold_eq (fun i => 8 * i = OFF_CHECKSUM) (fun j => rotl1 (rd64 (wr64 s.mem (8 * i) v) (8 * j))),
    xor_fold_eq (fun i => 8 * i = OFF_CHECKSUM) (fun j => rotl1 (rd64 s.mem (8 * j))),
    Nat.zero_xor, Nat.zero_xor]
  have hnd : ((List.range (s.region_size / 8)).filter (fun i => ¬ (8 * i = OFF_CHECKSUM))).Nodup :=
    (List.nodup_range _).filter _
  have hmem : i ∈ (List.range (s.region_size / 8)).filter (fun i => ¬ (8 * i = OFF_CHECKSUM)) := by
    rw [List.mem_filter]
    refine ⟨List.mem_range.mpr hi, ?_⟩
    unfold OFF_CHECKSUM
    simp only [decide_not, Bool.not_eq_true', decide_eq_false_iff_not]
    omega
  rw [xor_fold_update (fun j => rotl1 (rd64 s.mem (8 * j)))
    (fun j => rotl1 (rd64 (wr64 s.mem (8 * i) v) (8 * j))) i
    (fun j hj => by
      show rotl1 (rd64 (wr64 s.mem (8 * i) v) (8 * j)) = rotl1 (rd64 s.mem (8 * j))
      rw [rd64_wr64_other _ _ _ _ (by omega)]) _ hnd, if_pos hmem]
  intro h
  have h0 : rotl1 (rd64 s.mem (8 * i)) ^^^ rotl1 (rd64 (wr64 s.mem (8 * i) v) (8 * i)) = 0 := by
    have := Nat.xor_cancel_left
      (List.foldr (fun a b => a ^^^ b) 0 (List.map (fun j => rotl1 (rd64 s.mem (8 * j)))
        ((List.range (s.region_size / 8)).filter (fun i => ¬ (8 * i = OFF_CHECKSUM)))))
      (rotl1 (rd64 s.mem (8 * i)) ^^^ rotl1 (rd64 (wr64 s.mem (8 * i) v) (8 * i)))
    rw [h, Nat.xor_self] at this
    exact this.symm
  rw [Nat.xor_eq_zero, rd64_wr64_same, Nat.mod_eq_of_lt hv] at h0
  exact hne (rotl1_inj _ _ (rd64_lt _ _) hv h0).symm

end Manager

/-! ### Node CRC -/

theorem crc_round_eq (c : Nat) :
    (c >>> 1) ^^^ (0xEDB88320 &&& (if c &&& 1 = 1 then 0xFFFFFFFF else 0)) = crc32_bit c := by
  unfold crc32_bit
  rw [Nat.and_one_is_mod, Nat.shiftRight_eq_div_pow, Nat.pow_one]
  by_cases h : c % 2 = 1
  · rw [if_pos h, if_pos h]
    have : (0xEDB88320 : Nat) &&& 0xFFFFFFFF = 0xEDB88320 := by decide
    rw [this]
  · rw [if_neg h, if_neg h, Nat.and_zero, Nat.xor_zero]

theorem crc_step_eq (c b : Nat) : crc_step c b = crc32_byte c b := by
  unfold crc_step crc32_byte
  simp only [crc_round_eq]
  rfl

/-- A loop that skips the indices satisfying `p` is the fold over the bytes at
the other indices. -/
theorem skip_fold_eq (p : Nat → Prop) [DecidablePred p] (f : Nat → Nat → Nat) (g : Nat → Nat) :
    ∀ (l : List Nat) (acc : Nat),
      l.foldl (fun c i => if p i then c else f c (g i)) acc =
        ((l.filter (fun i => ¬ p i)).map g).foldl f acc := by
  intro l
  induction l with
  | nil => intro acc; rfl
  | cons i l ih =>
    intro acc
    rw [List.foldl_cons, ih]
    by_cases hp : p i
    · simp [hp]
    · simp [hp]

namespace BTree

/-- The loop of `BTree::calculate_checksum` is the CRC-32 of the block without
the bytes 5..8. -/
theorem node_crc_eq (m : Mem) (node block_size : Nat) :
    calculate_checksum m node block_size = crc32 (block_without_5_to_8 m node block_size) := by
  unfold calculate_checksum crc32 block_without_5_to_8
  rw [skip_fold_eq (fun i => i ≥ 5 ∧ i < 9) crc_step (fun i => rd8 m (node + i))]
  have hf : (List.range block_size).filter (fun i => ¬ (i ≥ 5 ∧ i < 9)) =
      (List.range block_size).filter (fun i => i < 5 ∨ 9 ≤ i) := by
    apply List.filter_congr
    intro i _
    have : (¬ (i ≥ 5 ∧ i < 9)) ↔ (i < 5 ∨ 9 ≤ i) := by omega
    simp [this]
  rw [hf]
  congr 1
  apply List.foldl_ext
  intro a b _
  exact crc_step_eq a b

/-- The bytes 5..8 of the block do not enter `calculate_checksum`. -/
theorem calculate_checksum_skipped (m : Mem) (node block_size i v : Nat) (hi : 5 ≤ i ∧ i < 9) :
    calculate_checksum (wr8 m (node + i) v) node block_size =
      calculate_checksum m node block_size := by
  unfold calculate_checksum
  congr 1
  apply List.foldl_ext
  intro a j _
  by_cases hj : j ≥ 5 ∧ j < 9
  · rw [if_pos hj, if_pos hj]
  · rw [if_neg hj, if_neg hj]
    unfold rd8 wr8
    rw [if_neg (by omega)]

end BTree

/-! ## Nodes of a tree: capacity, key order -/

namespace BTree

/-- A node of a subtree is the root of a subtree inside it, and inherits a key
range from it. -/
theorem subtree_of_mem (cfg : BTreeConfig) (m : Mem) :
    ∀ (h off o : Nat), Shape cfg m h off → o ∈ blocks cfg m h off →
      ∃ h', h' ≤ h ∧ Shape cfg m h' o ∧ (∀ x ∈ blocks cfg m h' o, x ∈ blocks cfg m h off) ∧
        ∀ lo hi, Ord cfg m h off lo hi → ∃ lo' hi', Ord cfg m h' o lo' hi' := by
  intro h
  induction h with
  | zero =>
    intro off o hs ho
    rw [blocks_zero, List.mem_singleton] at ho
    subst ho
    exact ⟨0, le_refl _, hs, fun x hx => hx, fun lo hi ho => ⟨lo, hi, ho⟩⟩
  | succ h ih =>
    intro off o hs ho
    rw [blocks_succ, List.mem_cons] at ho
    rcases ho with ho | ho
    · subst ho
      exact ⟨h + 1, le_refl _, hs, fun x hx => hx, fun lo hi ho => ⟨lo, hi, ho⟩⟩
    · rw [List.mem_flatten] at ho
      obtain ⟨l, hl, hol⟩ := ho
      obtain ⟨c, hc, rfl⟩ := List.mem_map.mp hl
      rw [shape_succ] at hs
      obtain ⟨h', a1, a2, a3, a4⟩ := ih c o (hs.2.2 c hc) hol
      refine ⟨h', by omega, a2, fun x hx => mem_blocks_child cfg m h off c x hc (a3 x hx), ?_⟩
      intro lo hi hord
      rw [ord_succ] at hord
      obtain ⟨i, hi1, hi2⟩ := (mem_node_children cfg m off c).mp hc
      have ht := hord _ ((mem_node_view cfg m off lo hi _).mpr ⟨i, hi1, rfl⟩)
      simp only at ht
      rw [← hi2] at ht
      exact a4 _ _ ht.2

/-- The nodes reachable through child offsets are nodes of the tree. -/
theorem reaches_mem (cfg : BTreeConfig) (m : Mem) (h root : Nat) (hs : Shape cfg m h root) :
    ∀ o, Reaches cfg m root o → o ∈ blocks cfg m h root := by
  intro o hr
  induction hr with
  | base => exact mem_blocks_self cfg m h root
  | step o i _ hl hi ih =>
    obtain ⟨h', _, a2, a3, _⟩ := subtree_of_mem cfg m h root o hs ih
    cases h' with
    | zero =>
      rw [shape_zero] at a2
      rw [a2.1] at hl
      exact Bool.noConfusion hl
    | succ k =>
      apply a3
      exact mem_blocks_child cfg m k o _ _
        ((mem_node_children cfg m o _).mpr ⟨i, hi, rfl⟩) (mem_blocks_self cfg m k _)

/-- The height of a subtree is fixed by the leaf flags on its leftmost path. -/
theorem shape_height (cfg : BTreeConfig) (m : Mem) :
    ∀ (h h' off : Nat), Shape cfg m h off → Shape cfg m h' off → h = h' := by
  intro h
  induction h with
  | zero =>
    intro h' off hs hs'
    cases h' with
    | zero => rfl
    | succ k =>
      rw [shape_zero] at hs
      rw [shape_succ] at hs'
      rw [hs.1] at hs'
      exact Bool.noConfusion hs'.1
  | succ h ih =>
    intro h' off hs hs'
    cases h' with
    | zero =>
      rw [shape_zero] at hs'
      rw [shape_succ] at hs
      rw [hs'.1] at hs
      exact Bool.noConfusion hs.1
    | succ k =>
      rw [shape_succ] at hs hs'
      have hc : child cfg m off 0 ∈ node_children cfg m off :=
        (mem_node_children cfg m off _).mpr ⟨0, Nat.zero_le _, rfl⟩
      rw [ih k _ (hs.2.2 _ hc) (hs'.2.2 _ hc)]

/-- Key order at an internal node of an ordered subtree. -/
theorem routed_of_ord (cfg : BTreeConfig) (m : Mem) (h off : Nat) (lo hi : Int)
    (ho : Ord cfg m (h + 1) off lo hi) : Routed cfg m h off := by
  have hview : ∀ i, i ≤ key_count m off →
      lower_bound m off lo i < upper_bound m off hi i ∧
      Ord cfg m h (child cfg m off i) (lower_bound m off lo i) (upper_bound m off hi i) := by
    intro i hi'
    rw [ord_succ] at ho
    exact ho _ ((mem_node_view cfg m off lo hi _).mpr ⟨i, hi', rfl⟩)
  refine ⟨?_, ?_, ?_⟩
  · intro i j hij hj
    have h1 := (hview j (by omega)).1
    unfold lower_bound upper_bound at h1
    rw [if_neg (by omega), if_pos hj] at h1
    have h2 := keys_sorted cfg m h off lo hi ho (j - 1 - i) i (by omega)
    have e : i + (j - 1 - i) = j - 1 := by omega
    rw [e] at h2
    omega
  · intro i hi' e he
    have h1 := contents_bounds cfg m h _ _ _ (hview i (by omega)).2 e he
    unfold upper_bound at h1
    rw [if_pos hi'] at h1
    exact h1.2
  · intro i hi1 hi2 e he
    have h1 := contents_bounds cfg m h _ _ _ (hview i hi2).2 e he
    unfold lower_bound at h1
    rw [if_neg (by omega)] at h1
    exact h1.1

end BTree

/-! ## The freshly created region -/

theorem ceil_div_eq (a b : Nat) (hb : 0 < b) : ceil_div a b = (a + b - 1) / b := by
  unfold ceil_div
  have hd := Nat.div_add_mod a b
  have hm := Nat.mod_lt a hb
  generalize a / b = q at *
  generalize a % b = r at *
  subst hd
  by_cases hr : r = 0
  · subst hr
    rw [if_pos rfl]
    have e : b * q + 0 + b - 1 = (b - 1) + b * q := by omega
    rw [e, Nat.add_mul_div_left _ _ hb, Nat.div_eq_of_lt (by omega)]
    omega
  · rw [if_neg hr]
    have e : b * q + r + b - 1 = (r - 1) + b * (q + 1) := by
      rw [Nat.mul_add, Nat.mul_one]; omega
    rw [e, Nat.add_mul_div_left _ _ hb, Nat.div_eq_of_lt (by omega)]
    omega

theorem rd64_zero (m : Mem) (a : Nat) (h : ∀ x, a ≤ x → x < a + 8 → m x = 0) : rd64 m a = 0 := by
  rw [rd64_congr m zero_file a (fun x h1 h2 => by rw [h x h1 h2]; rfl)]
  rfl

namespace Manager

theorem reserved_blocks_eq (rs bs : Nat) (hbs : 0 < bs) :
    reserved_blocks rs bs = reserved_count rs bs := by
  unfold reserved_blocks reserved_count calculate_bitmap_words BITMAP_OFFSET METADATA_SIZE
    align_to_8
  rw [ceil_div_eq _ bs hbs, ceil_div_eq _ 64 (by decide)]
  generalize rs / bs = q
  have e : q + 64 - 1 = q + 63 := by omega
  rw [e]
  have e2 : (64 + 7) / 8 * 8 + (q + 63) / 64 * 8 = 64 + 8 * ((q + 63) / 64) := by
    omega
  rw [e2]

theorem memset0_zero (m : Mem) (p : Nat) : ∀ (n x : Nat), p ≤ x → x < p + n →
    memset0 m p n x = 0 := by
  intro n
  induction n with
  | zero => intro x h1 h2; omega
  | succ n ih =>
    intro x h1 h2
    unfold memset0
    by_cases hx : x = p + n
    · rw [hx, wr8_same]
    · rw [wr8_other _ _ _ _ hx]
      exact ih x h1 (by omega)

/-- The reserve loop of the constructor sets the bits below `n` and no other bit. -/
theorem reserve_loop_bit_iff (m : Mem) :
    ∀ (n w j : Nat), j < 64 →
      (rd64 (reserve_loop m n) (bitmap_addr w)).testBit j =
        ((rd64 m (bitmap_addr w)).testBit j || decide (64 * w + j < n)) := by
  intro n
  induction n with
  | zero =>
    intro w j _
    simp [reserve_loop]
  | succ n ih =>
    intro w j hj
    unfold reserve_loop
    simp only
    by_cases hw : w = n / 64
    · rw [hw, rd64_wr64_same, Nat.mod_eq_of_lt, testBit_set_bit, ih _ _ hj]
      · by_cases c1 : 64 * (n / 64) + j < n
        · have c2 : 64 * (n / 64) + j < n + 1 := by omega
          simp [c1, c2]
        · by_cases c3 : n % 64 = j
          · have c2 : 64 * (n / 64) + j < n + 1 := by omega
            simp [c1, c2, c3]
          · have c2 : ¬ 64 * (n / 64) + j < n + 1 := by omega
            simp [c1, c2, c3]
      · have h64 : (18446744073709551616 : Nat) = 2 ^ 64 := by norm_num
        rw [h64]
        apply Nat.or_lt_two_pow (by rw [← h64]; exact rd64_lt _ _)
        rw [Nat.one_shiftLeft]
        exact Nat.pow_lt_pow_right (by decide) (Nat.mod_lt _ (by decide))
    · rw [rd64_wr64_other _ _ _ _ (by rw [bitmap_addr_eq, bitmap_addr_eq]; omega), ih _ _ hj]
      have c : (64 * w + j < n) ↔ (64 * w + j < n + 1) := by omega
      simp [c]

/-- The superblock fields in front of the checksum after the constructor. -/
theorem create_head (file : Mem) (rs bs x : Nat) (hx : x < 56) :
    (create file rs bs).mem x =
      wr32 (wr32 (wr32 (wr32 (wr64 (wr64 (wr64 (wr32 (wr64 file OFF_MAGIC magic_number)
        OFF_VERSION 1) OFF_ROOT 0) OFF_BLOCK_COUNT (rs / bs)) OFF_BLOCK_SIZE bs)
        OFF_MAX_KEYS 16) OFF_MIN_KEYS 8) OFF_LEAF_CAPACITY 32) OFF_PADDING 0 x := by
  unfold create update_persistent_checksum
  simp only
  rw [wr64_other _ _ _ _ (by unfold OFF_CHECKSUM; omega), reserve_loop_other _ _ x (by omega),
    memset0_other _ _ _ x (by unfold BITMAP_OFFSET METADATA_SIZE align_to_8; omega)]

/-- The bitmap after the constructor: exactly the bits of the reserved blocks. -/
theorem create_bit (file : Mem) (rs bs b : Nat)
    (hb : b < 64 * calculate_bitmap_words (rs / bs)) :
    (create file rs bs).block_bit b = decide (b < reserved_blocks rs bs) := by
  unfold create
  simp only
  rw [GarbageCollector.update_persistent_checksum_bit, block_bit_eq]
  unfold bitmap_word
  simp only
  rw [reserve_loop_bit_iff _ _ _ _ (Nat.mod_lt _ (by decide)), rd64_zero _ _ (fun x h1 h2 => by
    rw [bitmap_addr_eq] at h1 h2
    apply memset0_zero
    · unfold BITMAP_OFFSET METADATA_SIZE align_to_8; omega
    · unfold BITMAP_OFFSET METADATA_SIZE align_to_8; omega)]
  have e : 64 * (b / 64) + b % 64 = b := Nat.div_add_mod b 64
  rw [e]
  simp

/-- The first `alloc_block` on a freshly created region with a block behind the
reserved ones returns the first of them. -/
theorem create_alloc (file : Mem) (rs bs : Nat) (hk : reserved_blocks rs bs < rs / bs) :
    (create file rs bs).alloc_block.1 = .ok (reserved_blocks rs bs * bs) := by
  have hbc : (create file rs bs).block_count = rs / bs := rfl
  have hcov : ∀ b, b < rs / bs → b < 64 * calculate_bitmap_words (rs / bs) := by
    intro b hb
    unfold calculate_bitmap_words
    generalize rs / bs = q at hb
    omega
  rcases alloc_block_cases (create file rs bs) with ⟨off, h⟩ | h
  · obtain ⟨b, h1, h2, h3, _, h5, _⟩ := alloc_block_ok _ _ off h
    rw [hbc] at h2
    rw [create_bit file rs bs b (hcov b h2)] at h3
    have hge : reserved_blocks rs bs ≤ b := by
      by_contra hc
      rw [decide_eq_true (by omega)] at h3
      exact Bool.noConfusion h3
    have hle : b ≤ reserved_blocks rs bs := by
      by_contra hc
      have := h5 (reserved_blocks rs bs) (by omega)
      rw [create_bit file rs bs _ (hcov _ hk), decide_eq_false (by omega)] at this
      exact Bool.noConfusion this
    have hbs : (create file rs bs).block_size = bs := rfl
    rw [h, h1, hbs]
    have : b = reserved_blocks rs bs := by omega
    rw [this]
  · have := alloc_block_error_full _ _ _ h (reserved_blocks rs bs) (by rw [hbc]; exact hk)
    rw [create_bit file rs bs _ (hcov _ hk), decide_eq_false (by omega)] at this
    exact Bool.noConfusion this

end Manager

/-! ## The two splits and the root promotion, for every key count within capacity -/

theorem fst_eq {α β : Type} (x : α × β) (a : α) (h : x.1 = a) : x = (a, x.2) := by
  obtain ⟨r, s⟩ := x
  simp only at h
  rw [h]

namespace BTree

/-- Stores that leave the bitmap alone leave every bitmap bit. -/
theorem bits_same (s s1 : Manager)
    (hm : ∀ x, 64 ≤ x → x < 64 + 8 * ((s.block_count + 63) / 64) → s1.mem x = s.mem x) :
    Bits s s1 [] := by
  intro b hb hbit
  rw [block_bit_congr s s1 hm b hb] at hbit
  exact Or.inl hbit

theorem bits_trans (s s1 s2 : Manager) (n1 n2 : List Nat) (hbs : s1.block_size = s.block_size)
    (hrs : s1.region_size = s.region_size) (h1 : Bits s s1 n1) (h2 : Bits s1 s2 n2) :
    Bits s s2 (n1 ++ n2) := by
  intro b hb hbit
  have hbc := block_count_congr s s1 hbs hrs
  rcases h2 b (by rw [hbc]; exact hb) hbit with c | c
  · rcases h1 b hb c with d | d
    · exact Or.inl d
    · exact Or.inr (List.mem_append_left _ d)
  · rw [hbs] at c
    exact Or.inr (List.mem_append_right _ c)

theorem bits_mono (s s1 : Manager) (n n' : List Nat) (h : Bits s s1 n)
    (hsub : ∀ x ∈ n, x ∈ n') : Bits s s1 n' := by
  intro b hb hbit
  rcases h b hb hbit with c | c
  · exact Or.inl c
  · exact Or.inr (hsub _ c)

/-- An allocation followed by stores to the new block and to the block `off`. -/
theorem bits_alloc_writes (s s1 s3 : Manager) (new off : Nat)
    (ha : s.alloc_block = (.ok new, s1))
    (hoff : 64 + 8 * ((s.block_count + 63) / 64) ≤ off)
    (hnew : 64 + 8 * ((s1.block_count + 63) / 64) ≤ new)
    (hm : ∀ x, (x < off ∨ off + s1.block_size ≤ x) → (x < new ∨ new + s1.block_size ≤ x) →
      (x < 56 ∨ 64 ≤ x) → s3.mem x = s1.mem x) :
    Bits s s3 [new] := by
  obtain ⟨b0, h1, h2, h3, h4, h5, h6, h7, h8, h9⟩ := Manager.alloc_block_ok s s1 new ha
  have hbc := block_count_congr s s1 h6 h7
  intro b hb hbit
  rw [block_bit_congr s1 s3 (fun x hx1 hx2 => hm x (by rw [hbc] at hx2; omega)
    (by omega) (by omega)) b (by rw [hbc]; exact hb), h4 b] at hbit
  rcases Bool.or_eq_true_iff.mp hbit with c | c
  · exact Or.inl c
  · have : b0 = b := of_decide_eq_true c
    rw [← this, ← h1]
    exact Or.inr (List.mem_singleton.mpr rfl)

/-- The `next_leaf` words after the stores of `split_leaf` that follow the
allocation. -/
theorem split_leaf_next (cfg : BTreeConfig) (s1 : Manager) (old new : Nat)
    (buffer : List LeafEntry) (mid total : Nat) (m0 ma mb mc md me mf : Mem) (s2 s3 : Manager)
    (hfo : NodeFits cfg s1.block_size old) (hfn : NodeFits cfg s1.block_size new)
    (h64o : 64 ≤ old) (h64n : 64 ≤ new)
    (hsep : old + s1.block_size ≤ new ∨ new + s1.block_size ≤ old)
    (hlen : buffer.length = total) (htot : total ≤ cfg.leaf_capacity) (hmid : mid ≤ total)
    (hnew : new < 18446744073709551616)
    (h0 : m0 = wr8 s1.mem new 1)
    (ha : ma = write_entries m0 (get_leaf_entries new) (buffer.drop mid))
    (hb : mb = wr32 ma (new + 4) (total - mid))
    (hc : mc = wr64 mb (get_leaf_next new cfg.leaf_capacity)
      (rd64 mb (get_leaf_next old cfg.leaf_capacity)))
    (h2 : s2 = persist_node { s1 with mem := mc } new)
    (hd : md = wr64 s2.mem (get_leaf_next old cfg.leaf_capacity) new)
    (he : me = write_entries md (get_leaf_entries old) (buffer.take mid))
    (hf : mf = wr32 me (old + 4) mid)
    (h3 : s3 = persist_node { s2 with mem := mf } old) :
    rd64 s3.mem (get_leaf_next new cfg.leaf_capacity) =
      rd64 s1.mem (get_leaf_next old cfg.leaf_capacity) ∧
    rd64 s3.mem (get_leaf_next old cfg.leaf_capacity) = new := by
  obtain ⟨o1, _, _, o4, o5⟩ := nodeFits_bounds cfg s1.block_size old hfo
  obtain ⟨n1, _, _, n4, n5⟩ := nodeFits_bounds cfg s1.block_size new hfn
  generalize get_leaf_next old cfg.leaf_capacity = nxo at *
  generalize get_leaf_next new cfg.leaf_capacity = nxn at *
  have hle : ∀ o, get_leaf_entries o = o + 16 := fun _ => rfl
  rw [hle] at ha he
  have hdl : (buffer.drop mid).length = total - mid := by rw [List.length_drop, hlen]
  have htl : (buffer.take mid).length = mid := by rw [List.length_take, hlen]; omega
  have fr0 : ∀ x, x ≠ new → m0 x = s1.mem x := fun x hx => by rw [h0]; exact wr8_other _ _ _ _ hx
  have fra : ∀ x, (x < new + 16 ∨ new + 16 + 8 * (total - mid) ≤ x) → ma x = m0 x := fun x hx => by
    rw [ha]; exact write_entries_other _ _ _ _ (by rw [hdl]; exact hx)
  have frb : ∀ x, (x < new + 4 ∨ new + 8 ≤ x) → mb x = ma x := fun x hx => by
    rw [hb]; exact wr32_other _ _ _ _ (by omega)
  have fr2 : ∀ x, (x < new + 8 ∨ new + 12 ≤ x) → (x < 56 ∨ 64 ≤ x) → s2.mem x = mc x :=
    fun x hx hx2 => by rw [h2]; exact persist_node_mem _ _ _ ⟨hx, hx2⟩
  have frd : ∀ x, (x < nxo ∨ nxo + 8 ≤ x) → md x = s2.mem x := fun x hx => by
    rw [hd]; exact wr64_other _ _ _ _ hx
  have fre : ∀ x, (x < old + 16 ∨ old + 16 + 8 * mid ≤ x) → me x = md x := fun x hx => by
    rw [he]; exact write_entries_other _ _ _ _ (by rw [htl]; exact hx)
  have frf : ∀ x, (x < old + 4 ∨ old + 8 ≤ x) → mf x = me x := fun x hx => by
    rw [hf]; exact wr32_other _ _ _ _ (by omega)
  have fr3 : ∀ x, (x < old + 8 ∨ old + 12 ≤ x) → (x < 56 ∨ 64 ≤ x) → s3.mem x = mf x :=
    fun x hx hx2 => by rw [h3]; exact persist_node_mem _ _ _ ⟨hx, hx2⟩
  constructor
  · rw [rd64_congr s3.mem mc nxn (fun x hx1 hx2 => by
      rw [fr3 x (by omega) (by omega), frf x (by omega), fre x (by omega), frd x (by omega),
        fr2 x (by omega) (by omega)]), hc, rd64_wr64_same, Nat.mod_eq_of_lt (rd64_lt _ _)]
    exact rd64_congr _ _ _ (fun x hx1 hx2 => by
      rw [frb x (by omega), fra x (by omega), fr0 x (by omega)])
  · rw [rd64_congr s3.mem md nxo (fun x hx1 hx2 => by
      rw [fr3 x (by omega) (by omega), frf x (by omega), fre x (by omega)]), hd,
      rd64_wr64_same, Nat.mod_eq_of_lt hnew]

/-- A call of `split_leaf` on an allocated leaf with `total` entries, `1 <= total
<= leaf_capacity`: it fails only in `alloc_block`, and otherwise cuts the sorted
entries at `total / 2` into the old leaf and a block that was not allocated before,
which takes over the old `next_leaf` and becomes the `next_leaf` of the old leaf. -/
theorem split_leaf_general (cfg : BTreeConfig) (s : Manager) (off total : Nat)
    (henv : Env cfg s) (hok : BlockOk s off)
    (htot : key_count s.mem off = total) (h1 : 1 ≤ total) (hcap : total ≤ cfg.leaf_capacity) :
    ∀ (r : Except Err InsertResult) (s' : Manager), split_leaf cfg s off = (r, s') →
    match r with
    | .error e => e = .out_of_memory
    | .ok res =>
      res.did_split = true ∧
      (∃ e, (List.insertionSort (fun a b : LeafEntry => a.key ≤ b.key)
          (leaf_entries s.mem off)).get? (total / 2) = some e ∧
        res.split_key = e.key) ∧
      BlockOk s' res.new_child_offset ∧ ¬ BlockOk s res.new_child_offset ∧
      Frame s s' [off] ∧
      is_leaf s'.mem off = is_leaf s.mem off ∧ is_leaf s'.mem res.new_child_offset = true ∧
      leaf_entries s'.mem off = (List.insertionSort (fun a b : LeafEntry => a.key ≤ b.key)
          (leaf_entries s.mem off)).take (total / 2) ∧
      leaf_entries s'.mem res.new_child_offset =
        (List.insertionSort (fun a b : LeafEntry => a.key ≤ b.key)
          (leaf_entries s.mem off)).drop (total / 2) ∧
      rd64 s'.mem (get_leaf_next res.new_child_offset cfg.leaf_capacity) =
        rd64 s.mem (get_leaf_next off cfg.leaf_capacity) ∧
      rd64 s'.mem (get_leaf_next off cfg.leaf_capacity) = res.new_child_offset ∧
      s.alloc_block.1 = .ok res.new_child_offset ∧ Bits s s' [res.new_child_offset] := by
  intro r s' h
  obtain ⟨hfit, hlc, hrs, hres⟩ := henv
  have hbs := fits_block_size cfg s.block_size hfit
  unfold split_leaf at h
  generalize ha : s.alloc_block = a at h
  obtain ⟨ra, s1⟩ := a
  cases ra with
  | error e =>
    simp only [Prod.mk.injEq] at h
    rw [← h.1]
    exact alloc_block_err s s1 e ha
  | ok new =>
    obtain ⟨fa, oka, nota, mema⟩ := alloc_frame s s1 new ha hres (by omega)
    have hge := blockOk_ge s1 new oka
    have hn0 : new ≠ 0 := by omega
    have hok1 : BlockOk s1 off := fa.blockOk off hok
    have hne : off ≠ new := fun e => nota (e ▸ hok)
    have hsep := blockOk_sep s1 off new hok1 oka hne
    have hfit1 : fits cfg s1.block_size := by rw [fa.1]; exact hfit
    have hfo := blockOk_fits cfg s1 off hfit1 hok1
    have hfn := blockOk_fits cfg s1 new hfit1 oka
    have hgeo := blockOk_ge s1 off hok1
    have hgeo' := blockOk_ge s off hok
    obtain ⟨o1, _, _, o4, o5⟩ := nodeFits_bounds cfg s1.block_size off hfo
    have hbs1 : s1.block_size = s.block_size := fa.1
    have hnlt : new < 18446744073709551616 := by
      have h1 := blockOk_lt s1 _ oka
      have h2 : s1.region_size = s.region_size := fa.2.1
      omega
    have hv0 : is_leaf (wr8 s1.mem new 1) off = is_leaf s.mem off ∧
        key_count (wr8 s1.mem new 1) off = key_count s.mem off ∧
        leaf_entries (wr8 s1.mem new 1) off = leaf_entries s.mem off :=
      leaf_view_congr cfg s.block_size s.mem (wr8 s1.mem new 1) off
        (blockOk_fits cfg s off hfit hok) (by rw [htot]; exact hcap) (fun x hx1 hx2 => by
          rw [wr8_other _ _ _ _ (by omega), mema x (by omega)])
    have hkc0 := hv0.2.1
    have hE := hv0.2.2
    rw [htot] at hkc0
    unfold leaf_entries at hE
    rw [hkc0, htot] at hE
    simp only [hn0, if_false, hkc0, hE] at h
    obtain ⟨e, hget, _, _, _⟩ := sorted_buffer_cut
      ((List.range total).map
        (fun i => read_entry s.mem (get_leaf_entries off + 8 * i)))
      (total / 2) (by
        rw [List.length_map, List.length_range]
        omega)
    have hle : leaf_entries s.mem off = (List.range total).map
        (fun i => read_entry s.mem (get_leaf_entries off + 8 * i)) := by
      unfold leaf_entries; rw [htot]
    rw [hle]
    rw [hget] at h
    simp only [Prod.mk.injEq] at h
    obtain ⟨h1, h2⟩ := h
    subst h1 h2
    have hperm := List.perm_insertionSort (fun a b : LeafEntry => a.key ≤ b.key)
      ((List.range total).map
        (fun i => read_entry s.mem (get_leaf_entries off + 8 * i)))
    obtain ⟨p1, p2, p3, p4, p5, p6, p7, p8, p9, _⟩ := split_leaf_mem cfg s1 off new
      (List.insertionSort (fun a b : LeafEntry => a.key ≤ b.key)
        ((List.range total).map
          (fun i => read_entry s.mem (get_leaf_entries off + 8 * i))))
      (total / 2) total _ _ _ _ _ _ _ _ _ hfo hfn (by omega) (by omega)
      hsep hfit.2.2.1
      (by rw [List.length_insertionSort, List.length_map, List.length_range])
      hcap (Nat.div_le_self _ _)
      (fun e he => by
        obtain ⟨i, _, hi⟩ := List.mem_map.mp (hperm.subset he)
        rw [← hi]
        exact read_entry_int32 _ _)
      rfl rfl rfl rfl rfl rfl rfl rfl rfl
    obtain ⟨q1, q2⟩ := split_leaf_next cfg s1 off new
      (List.insertionSort (fun a b : LeafEntry => a.key ≤ b.key)
        ((List.range total).map
          (fun i => read_entry s.mem (get_leaf_entries off + 8 * i))))
      (total / 2) total _ _ _ _ _ _ _ _ _ hfo hfn (by omega) (by omega)
      hsep
      (by rw [List.length_insertionSort, List.length_map, List.length_range])
      hcap (Nat.div_le_self _ _) hnlt
      rfl rfl rfl rfl rfl rfl rfl rfl rfl
    refine ⟨rfl, ⟨e, hget, rfl⟩, ?_, nota, ?_, ?_, p2, p5, p6, ?_, q2, rfl,
      bits_alloc_writes s s1 _ new off ha hgeo' hge
        (fun x hx1 hx2 hx3 => p7 x hx1 hx2 hx3)⟩
    · obtain ⟨b, hb1, hb2, hb3, hb4⟩ := oka
      have hbc : ∀ (x : Manager), x.block_size = s1.block_size → x.region_size = s1.region_size →
          x.block_count = s1.block_count := fun x e1 e2 => block_count_congr s1 x e1 e2
      refine ⟨b, by rw [p8]; exact hb1, by rw [hbc _ p8 p9]; exact hb2, ?_,
        by rw [hbc _ p8 p9]; exact hb4⟩
      rw [block_bit_congr s1 _ (fun x hx1 hx2 => p7 x (by omega) (by omega) (by omega)) b hb2]
      exact hb3
    · refine Frame.trans (Frame.mono fa (fun o ho => absurd ho (List.not_mem_nil o)))
        (frame_of_writes s1 _ [off, new] p8 p9 ?_ ?_) ?_
      · intro w hw
        rcases List.mem_cons.mp hw with c | c
        · subst c
          obtain ⟨b, hb, _, _, hg⟩ := hok1
          exact ⟨⟨b, hb⟩, hg⟩
        · rw [List.mem_singleton] at c
          subst c
          obtain ⟨b, hb, _, _, hg⟩ := oka
          exact ⟨⟨b, hb⟩, hg⟩
      · intro x hx hx2
        exact p7 x (hx off (List.mem_cons_self _ _))
          (hx new (List.mem_cons_of_mem _ (List.mem_singleton.mpr rfl))) hx2
      · intro o ho hm
        rcases List.mem_cons.mp hm with c | c
        · exact List.mem_singleton.mpr c
        · rw [List.mem_singleton] at c
          exact absurd (c ▸ ho) nota
    · rw [p1]
      exact is_leaf_congr _ _ _ (mema off (by omega))
    · rw [q1]
      exact rd64_congr _ _ _ (fun x hx1 hx2 => mema x (by omega))

/-- Keys and children of a node whose view is the front part of the view of
another node. -/
theorem keys_of_view_take (cfg : BTreeConfig) (m m' : Mem) (o o' : Nat) (lo hi lo' hi' : Int)
    (mid : Nat) (hmid : mid < key_count m o) (hkc : key_count m' o' = mid)
    (hv : node_view cfg m' o' lo' hi' = (node_view cfg m o lo hi).take (mid + 1)) :
    node_keys m' o' = (node_keys m o).take mid ∧
    node_children cfg m' o' = (node_children cfg m o).take (mid + 1) := by
  constructor
  · unfold node_keys
    rw [hkc]
    apply range_map_take _ _ (key_count m o) mid (by omega)
    intro j hj
    have e := congrArg (fun l => l[j]?) hv
    simp only at e
    rw [node_view_getElem? cfg m' o' lo' hi' j (by omega), List.getElem?_take,
      if_pos (by omega), node_view_getElem? cfg m o lo hi j (by omega)] at e
    have e2 := congrArg (fun t : Int × Nat × Int => t.2.2) (Option.some.inj e)
    simp only at e2
    unfold upper_bound at e2
    rw [if_pos (by omega), if_pos (by omega)] at e2
    exact e2
  · rw [node_children_eq_view cfg m' o' lo' hi', node_children_eq_view cfg m o lo hi, hv,
      List.map_take]

/-- Keys and children of a node whose view is the rear part of the view of another
node. -/
theorem keys_of_view_drop (cfg : BTreeConfig) (m m' : Mem) (o o' : Nat) (lo hi lo' hi' : Int)
    (mid : Nat) (hmid : mid < key_count m o) (hkc : key_count m' o' = key_count m o - 1 - mid)
    (hv : node_view cfg m' o' lo' hi' = (node_view cfg m o lo hi).drop (mid + 1)) :
    node_keys m' o' = (node_keys m o).drop (mid + 1) ∧
    node_children cfg m' o' = (node_children cfg m o).drop (mid + 1) := by
  constructor
  · unfold node_keys
    have hk2 : key_count m' o' = key_count m o - (mid + 1) := by omega
    rw [hk2]
    apply range_map_drop _ _ (key_count m o) (mid + 1) (by omega)
    intro j hj
    have e := congrArg (fun l => l[j]?) hv
    simp only at e
    rw [node_view_getElem? cfg m' o' lo' hi' j (by omega), List.getElem?_drop,
      node_view_getElem? cfg m o lo hi (mid + 1 + j) (by omega)] at e
    have e2 := congrArg (fun t : Int × Nat × Int => t.2.2) (Option.some.inj e)
    simp only at e2
    unfold upper_bound at e2
    rw [if_pos (by omega), if_pos (by omega)] at e2
    exact e2
  · rw [node_children_eq_view cfg m' o' lo' hi', node_children_eq_view cfg m o lo hi, hv,
      List.map_drop]

/-- A call of `split_internal` on an allocated internal node with `total` keys,
`1 <= total <= max_keys`: it fails only in `alloc_block`, and otherwise moves the
keys and children behind `keys[total / 2]` to a block that was not allocated
before. -/
theorem split_internal_general (cfg : BTreeConfig) (s : Manager) (off total : Nat)
    (henv : Env cfg s) (hok : BlockOk s off)
    (htot : key_count s.mem off = total) (h1 : 1 ≤ total) (hcap : total ≤ cfg.max_keys) :
    ∀ (r : Except Err InsertResult) (s' : Manager), split_internal cfg s off = (r, s') →
    match r with
    | .error e => e = .out_of_memory
    | .ok res =>
      res.did_split = true ∧
      res.split_key = rdI32 s.mem (get_internal_keys off + 4 * (total / 2)) ∧
      BlockOk s' res.new_child_offset ∧ ¬ BlockOk s res.new_child_offset ∧
      Frame s s' [off] ∧
      is_leaf s'.mem off = is_leaf s.mem off ∧ is_leaf s'.mem res.new_child_offset = false ∧
      key_count s'.mem off = total / 2 ∧
      key_count s'.mem res.new_child_offset = total - 1 - total / 2 ∧
      (∀ lo hi, node_view cfg s'.mem off lo res.split_key =
        (node_view cfg s.mem off lo hi).take (total / 2 + 1)) ∧
      (∀ lo hi, node_view cfg s'.mem res.new_child_offset res.split_key hi =
        (node_view cfg s.mem off lo hi).drop (total / 2 + 1)) ∧
      s.alloc_block.1 = .ok res.new_child_offset ∧ Bits s s' [res.new_child_offset] := by
  intro r s' h
  obtain ⟨hfit, hlc, hrs, hres⟩ := henv
  have hbs := fits_block_size cfg s.block_size hfit
  have hmk := hfit.1
  unfold split_internal at h
  generalize ha : s.alloc_block = a at h
  obtain ⟨ra, s1⟩ := a
  cases ra with
  | error e =>
    simp only [Prod.mk.injEq] at h
    rw [← h.1]
    exact alloc_block_err s s1 e ha
  | ok new =>
    obtain ⟨fa, oka, nota, mema⟩ := alloc_frame s s1 new ha hres (by omega)
    have hge := blockOk_ge s1 new oka
    have hn0 : new ≠ 0 := by omega
    have hok1 : BlockOk s1 off := fa.blockOk off hok
    have hne : off ≠ new := fun e => nota (e ▸ hok)
    have hsep := blockOk_sep s1 off new hok1 oka hne
    have hfit1 : fits cfg s1.block_size := by rw [fa.1]; exact hfit
    have hfo := blockOk_fits cfg s1 off hfit1 hok1
    have hfn := blockOk_fits cfg s1 new hfit1 oka
    have hgeo := blockOk_ge s1 off hok1
    have hgeo' := blockOk_ge s off hok
    have hbs1 : s1.block_size = s.block_size := fa.1
    obtain ⟨_, o2, o3, _, _⟩ := nodeFits_bounds cfg s1.block_size off hfo
    have hkc0 : key_count (wr8 s1.mem new 0) off = total := by
      rw [← htot]
      exact key_count_congr _ _ _ (fun x hx1 hx2 => by
        rw [wr8_other _ _ _ _ (by omega), mema x (by omega)])
    have hkc1 : key_count s1.mem off = total := by
      rw [← htot]
      exact key_count_congr _ _ _ (fun x hx1 hx2 => mema x (by omega))
    have hv1 := node_view_congr cfg s.block_size s.mem s1.mem off
      (blockOk_fits cfg s off hfit hok) (by rw [htot]; exact hcap)
      (fun x hx1 hx2 => mema x (by omega))
    have hmc : ((total : Int) - 1 - ((total / 2 : Nat) : Int)) =
        ((total - 1 - total / 2 : Nat) : Int) := by omega
    have hadr : ∀ a : Nat, ((a : Int) + 8 * ((total - 1 - total / 2 : Nat) : Int)).toNat
        = a + 8 * (total - 1 - total / 2) := by
      intro a; omega
    have hof : ofInt32 ((total - 1 - total / 2 : Nat) : Int) = total - 1 - total / 2 := by
      unfold ofInt32
      have := hfit.2.1
      omega
    simp only [hn0, if_false, hkc0, hmc, hadr, hof, Int.toNat_ofNat, Prod.mk.injEq] at h
    obtain ⟨h1, h2⟩ := h
    subst h1 h2
    obtain ⟨p1, p2, p3, p4, p5, p6, p7, p8, p9, _⟩ := split_internal_mem cfg s1 off new
      total (total / 2) (total - 1 - total / 2) _ _ _ _ _ _ _
      hfo hfn (by omega) (by omega) hsep hfit.2.1 hkc1.symm hcap (by omega) rfl
      rfl rfl rfl rfl rfl rfl rfl
    have hsk : rdI32 (wr8 s1.mem new 0) (get_internal_keys off + 4 * (total / 2)) =
        rdI32 s.mem (get_internal_keys off + 4 * (total / 2)) := by
      have hke : get_internal_keys off = off + 16 := rfl
      rw [hke]
      exact rdI32_congr _ _ _ (fun x hx1 hx2 => by
        rw [wr8_other _ _ _ _ (by omega), mema x (by omega)])
    have hsk1 : rdI32 s1.mem (get_internal_keys off + 4 * (total / 2)) =
        rdI32 s.mem (get_internal_keys off + 4 * (total / 2)) := by
      have hke : get_internal_keys off = off + 16 := rfl
      rw [hke]
      exact rdI32_congr _ _ _ (fun x hx1 hx2 => mema x (by omega))
    dsimp only
    rw [hsk]
    rw [hsk1] at p5 p6
    refine ⟨rfl, rfl, ?_, nota, ?_, ?_, p2, p3, p4, ?_, ?_, rfl,
      bits_alloc_writes s s1 _ new off ha hgeo' hge
        (fun x hx1 hx2 hx3 => p7 x hx1 hx2 hx3)⟩
    · obtain ⟨b, hb1, hb2, hb3, hb4⟩ := oka
      have hbc : ∀ (x : Manager), x.block_size = s1.block_size → x.region_size = s1.region_size →
          x.block_count = s1.block_count := fun x e1 e2 => block_count_congr s1 x e1 e2
      refine ⟨b, by rw [p8]; exact hb1, by rw [hbc _ p8 p9]; exact hb2, ?_,
        by rw [hbc _ p8 p9]; exact hb4⟩
      rw [block_bit_congr s1 _ (fun x hx1 hx2 => p7 x (by omega) (by omega) (by omega)) b hb2]
      exact hb3
    · refine Frame.trans (Frame.mono fa (fun o ho => absurd ho (List.not_mem_nil o)))
        (frame_of_writes s1 _ [off, new] p8 p9 ?_ ?_) ?_
      · intro w hw
        rcases List.mem_cons.mp hw with c | c
        · subst c
          obtain ⟨b, hb, _, _, hg⟩ := hok1
          exact ⟨⟨b, hb⟩, hg⟩
        · rw [List.mem_singleton] at c
          subst c
          obtain ⟨b, hb, _, _, hg⟩ := oka
          exact ⟨⟨b, hb⟩, hg⟩
      · intro x hx hx2
        exact p7 x (hx off (List.mem_cons_self _ _))
          (hx new (List.mem_cons_of_mem _ (List.mem_singleton.mpr rfl))) hx2
      · intro o ho hm
        rcases List.mem_cons.mp hm with c | c
        · exact List.mem_singleton.mpr c
        · rw [List.mem_singleton] at c
          exact absurd (c ▸ ho) nota
    · rw [p1]
      exact hv1.1
    · intro lo hi
      rw [p5 lo hi, hv1.2.2.2 lo hi]
    · intro lo hi
      rw [p6 lo hi, hv1.2.2.2 lo hi]

/-- The root after a call of `insert` that returned normally on a well-formed
tree: when the insertion below the old root reported a split, the block that
`alloc_block` returned next, set up as an internal node with the one key
`split_key` over the old root and the new sibling, and stored in the superblock;
the old root otherwise. -/
theorem insert_root (fuel : Nat) (t : BTree) (key value : Int) (h : Nat) (hk : isInt32 key)
    (hv : isInt32 value) (hok : TreeOk t h) (res : InsertResult) (s1 : Manager) (t1 : BTree)
    (hrec : insert_internal t.config fuel t.manager t.root_offset key value = (.ok res, s1))
    (hrun : insert fuel t key value = (.ok (), t1)) :
    (res.did_split = true →
      s1.alloc_block.1 = .ok t1.root_offset ∧ ¬ BlockOk s1 t1.root_offset ∧
      is_leaf t1.manager.mem t1.root_offset = false ∧
      key_count t1.manager.mem t1.root_offset = 1 ∧
      rdI32 t1.manager.mem (get_internal_keys t1.root_offset) = res.split_key ∧
      child t1.config t1.manager.mem t1.root_offset 0 = t.root_offset ∧
      child t1.config t1.manager.mem t1.root_offset 1 = res.new_child_offset ∧
      t1.manager.get_root_offset = t1.root_offset) ∧
    (res.did_split = false → t1.root_offset = t.root_offset ∧ t1.manager = s1) := by
  obtain ⟨henv, hown⟩ := hok
  unfold insert at hrun
  rw [hrec] at hrun
  have spec := insert_internal_spec t.config key value hk hv h fuel t.manager t.root_offset
    henv hown _ s1 hrec
  have hrootok : BlockOk t.manager t.root_offset := hown.2.2 _ (mem_blocks_self _ _ _ _)
  simp only at hrun spec
  have hsk := spec.2.1
  obtain ⟨fr, _, psh, pnd, pbk, pct, pord⟩ := spec
  have henv1 : Env t.config s1 := fr.env henv
  by_cases hd : res.did_split = true
  · rw [if_pos hd] at hrun
    rw [res_roots_true _ res hd] at psh pnd pbk pct
    generalize ha : s1.alloc_block = a at hrun
    obtain ⟨ra, s2⟩ := a
    cases ra with
    | error e => simp at hrun
    | ok nr =>
      have hbs := fits_block_size t.config s1.block_size henv1.1
      obtain ⟨fa, oka, nota, mema⟩ := alloc_frame s1 s2 nr ha henv1.2.2.2 (by omega)
      have hge := blockOk_ge s2 nr oka
      have hn0 : nr ≠ 0 := by omega
      simp only [hn0, if_false, Prod.mk.injEq, true_and] at hrun
      subst hrun
      have henv2 : Env t.config s2 := fa.env henv1
      have hnlt : res.new_child_offset < 18446744073709551616 := by
        have hm : res.new_child_offset ∈ blocksL t.config s1.mem h
            [t.root_offset, res.new_child_offset] := by
          rw [blocksL_cons, blocksL_cons]
          exact List.mem_append_right _ (List.mem_append_left _ (mem_blocks_self _ _ _ _))
        have h1 := blockOk_lt s1 _ (pbk _ hm).1
        have h2 := henv1.2.2.1
        omega
      have hrlt : t.root_offset < 18446744073709551616 := by
        have h1 := blockOk_lt t.manager _ hrootok
        have h2 := henv.2.2.1
        omega
      have hnrlt : nr < 18446744073709551616 := by
        have h1 := blockOk_lt s2 _ oka
        have h2 := henv2.2.2.1
        omega
      obtain ⟨r1, r2, r3, r4, r5, r6⟩ := new_root_mem t.config s2 nr t.root_offset
        res.new_child_offset res.split_key _ _ _ _ _ _
        (blockOk_fits t.config s2 nr henv2.1 oka) (by omega) henv.1.1 hsk hrlt hnlt
        rfl rfl rfl rfl rfl rfl
      generalize hs3 : persist_node { s2 with mem := _ } nr = s3 at *
      have hnode := node_view_congr t.config s2.block_size s3.mem
        (Manager.set_root_offset s3 nr).mem nr (blockOk_fits t.config s2 nr henv2.1 oka)
        (by rw [r2]; exact henv.1.1)
        (fun x hx1 hx2 => set_root_mem s3 nr x (by omega) (by omega))
      obtain ⟨v1, v2, _, v4⟩ := hnode
      have hview : node_view t.config (Manager.set_root_offset s3 nr).mem nr 0 0 =
          [(0, t.root_offset, res.split_key), (res.split_key, res.new_child_offset, 0)] := by
        rw [v4, r3]
      have g0 := node_view_getElem? t.config (Manager.set_root_offset s3 nr).mem nr 0 0 0
        (Nat.zero_le _)
      have g1 := node_view_getElem? t.config (Manager.set_root_offset s3 nr).mem nr 0 0 1
        (by rw [v2, r2])
      rw [hview] at g0 g1
      have e0 := Option.some.inj g0
      have e1 := Option.some.inj g1
      simp only [List.getElem_cons_zero, List.getElem_cons_succ, Prod.mk.injEq] at e0 e1
      refine ⟨fun _ => ⟨rfl, nota, ?_, ?_, ?_, e0.2.1.symm, e1.2.1.symm, ?_⟩,
        fun hc => absurd hd (by rw [hc]; exact Bool.false_ne_true)⟩
      · show is_leaf (Manager.set_root_offset s3 nr).mem nr = false
        rw [v1, r1]
      · show key_count (Manager.set_root_offset s3 nr).mem nr = 1
        rw [v2, r2]
      · show rdI32 (Manager.set_root_offset s3 nr).mem (get_internal_keys nr) = res.split_key
        have e := e0.2.2
        unfold upper_bound at e
        rw [if_pos (by rw [v2, r2]; exact Nat.one_pos)] at e
        exact e.symm
      · exact set_root_get s3 nr hnrlt
  · rw [if_neg hd] at hrun
    simp only [Prod.mk.injEq, true_and] at hrun
    subst hrun
    exact ⟨fun hc => absurd hc hd, fun _ => ⟨rfl, rfl⟩⟩

end BTree

/-! ## Leaves and the leaf chain -/

namespace BTree

theorem leaves_zero (cfg : BTreeConfig) (m : Mem) (off : Nat) : leaves cfg m 0 off = [off] := rfl

theorem leaves_succ_L (cfg : BTreeConfig) (m : Mem) (h off : Nat) :
    leaves cfg m (h + 1) off = leavesL cfg m h (node_children cfg m off) := rfl

theorem leavesL_append (cfg : BTreeConfig) (m : Mem) (h : Nat) (a b : List Nat) :
    leavesL cfg m h (a ++ b) = leavesL cfg m h a ++ leavesL cfg m h b := by
  unfold leavesL; rw [List.map_append, List.flatten_append]

theorem leavesL_cons (cfg : BTreeConfig) (m : Mem) (h : Nat) (a : Nat) (b : List Nat) :
    leavesL cfg m h (a :: b) = leaves cfg m h a ++ leavesL cfg m h b := by
  unfold leavesL; rw [List.map_cons, List.flatten_cons]

theorem leavesL_nil (cfg : BTreeConfig) (m : Mem) (h : Nat) : leavesL cfg m h [] = [] := rfl

theorem leavesL_single (cfg : BTreeConfig) (m : Mem) (h c : Nat) :
    leavesL cfg m h [c] = leaves cfg m h c := by
  rw [leavesL_cons, leavesL_nil, List.append_nil]

theorem blocksL_single (cfg : BTreeConfig) (m : Mem) (h c : Nat) :
    blocksL cfg m h [c] = blocks cfg m h c := by
  rw [blocksL_cons, blocksL_nil, List.append_nil]

theorem mem_leavesL (cfg : BTreeConfig) (m : Mem) (h : Nat) (cs : List Nat) (o : Nat) :
    o ∈ leavesL cfg m h cs ↔ ∃ c ∈ cs, o ∈ leaves cfg m h c := by
  unfold leavesL
  rw [List.mem_flatten]
  constructor
  · rintro ⟨l, hl, ho⟩
    obtain ⟨c, hc, rfl⟩ := List.mem_map.mp hl
    exact ⟨c, hc, ho⟩
  · rintro ⟨c, hc, ho⟩
    exact ⟨_, List.mem_map.mpr ⟨c, hc, rfl⟩, ho⟩

theorem leavesL_perm (cfg : BTreeConfig) (m : Mem) (h : Nat) (a b : List Nat) (hp : a.Perm b) :
    (leavesL cfg m h a).Perm (leavesL cfg m h b) := by
  unfold leavesL
  exact List.Perm.flatten (hp.map _)

/-- A leaf of a subtree is one of its nodes. -/
theorem mem_leaves_blocks (cfg : BTreeConfig) (m : Mem) :
    ∀ (h off x : Nat), x ∈ leaves cfg m h off → x ∈ blocks cfg m h off := by
  intro h
  induction h with
  | zero => intro off x hx; exact hx
  | succ h ih =>
    intro off x hx
    rw [leaves_succ_L, mem_leavesL] at hx
    obtain ⟨c, hc, hxc⟩ := hx
    exact mem_blocks_child cfg m h off c x hc (ih c x hxc)

theorem flatten_sublist {α : Type} (f g : Nat → List α) (hfg : ∀ c, (f c).Sublist (g c)) :
    ∀ (cs : List Nat), ((cs.map f).flatten).Sublist ((cs.map g).flatten) := by
  intro cs
  induction cs with
  | nil => exact List.Sublist.refl _
  | cons c cs ih =>
    rw [List.map_cons, List.map_cons, List.flatten_cons, List.flatten_cons]
    exact List.Sublist.append (hfg c) ih

/-- The leaves of a subtree, in their order, are among its nodes. -/
theorem leaves_sublist (cfg : BTreeConfig) (m : Mem) :
    ∀ (h off : Nat), (leaves cfg m h off).Sublist (blocks cfg m h off) := by
  intro h
  induction h with
  | zero => intro off; exact List.Sublist.refl _
  | succ h ih =>
    intro off
    rw [blocks_succ]
    exact List.Sublist.cons _ (flatten_sublist _ _ ih _)

/-- In a well-shaped subtree the leaves are the nodes with the leaf flag. -/
theorem mem_leaves_iff (cfg : BTreeConfig) (m : Mem) :
    ∀ (h off x : Nat), Shape cfg m h off →
      (x ∈ leaves cfg m h off ↔ x ∈ blocks cfg m h off ∧ is_leaf m x = true) := by
  intro h
  induction h with
  | zero =>
    intro off x hs
    rw [shape_zero] at hs
    rw [leaves_zero, blocks_zero, List.mem_singleton]
    constructor
    · intro hx; rw [hx]; exact ⟨rfl, hs.1⟩
    · intro hx; exact hx.1
  | succ h ih =>
    intro off x hs
    rw [shape_succ_L] at hs
    rw [leaves_succ_L, blocks_succ_L, mem_leavesL, List.mem_cons, mem_blocksL]
    constructor
    · rintro ⟨c, hc, hx⟩
      have := (ih c x (hs.2.2 c hc)).mp hx
      exact ⟨Or.inr ⟨c, hc, this.1⟩, this.2⟩
    · rintro ⟨hx | ⟨c, hc, hx⟩, hl⟩
      · rw [hx, hs.1] at hl
        exact Bool.noConfusion hl
      · exact ⟨c, hc, (ih c x (hs.2.2 c hc)).mpr ⟨hx, hl⟩⟩

/-- Subtrees whose blocks are not written keep their leaves and the `next_leaf`
words of them. -/
theorem leaves_congr (cfg : BTreeConfig) (bs : Nat) (m m' : Mem) :
    ∀ (h off : Nat), Shape cfg m h off →
      (∀ o ∈ blocks cfg m h off, NodeFits cfg bs o ∧ ∀ x, o ≤ x → x < o + bs → m' x = m x) →
      leaves cfg m' h off = leaves cfg m h off ∧
      ∀ x ∈ leaves cfg m h off, next_leaf cfg m' x = next_leaf cfg m x := by
  intro h
  induction h with
  | zero =>
    intro off hs hb
    obtain ⟨hfit, hag⟩ := hb off (mem_blocks_self _ _ _ _)
    refine ⟨rfl, ?_⟩
    intro x hx
    rw [leaves_zero, List.mem_singleton] at hx
    subst hx
    obtain ⟨_, _, _, o4, o5⟩ := nodeFits_bounds cfg bs x hfit
    unfold next_leaf
    exact rd64_congr _ _ _ (fun y h1 h2 => hag y (by omega) (by omega))
  | succ h ih =>
    intro off hs hb
    obtain ⟨hfit, hag⟩ := hb off (mem_blocks_self _ _ _ _)
    rw [shape_succ_L] at hs
    obtain ⟨_, _, e3, _⟩ := node_view_congr cfg bs m m' off hfit hs.2.1 hag
    have hch : ∀ c ∈ node_children cfg m off,
        leaves cfg m' h c = leaves cfg m h c ∧
        ∀ x ∈ leaves cfg m h c, next_leaf cfg m' x = next_leaf cfg m x := by
      intro c hc
      exact ih c (hs.2.2 c hc) (fun o ho => hb o (mem_blocks_child _ _ _ _ _ _ hc ho))
    constructor
    · rw [leaves_succ_L, leaves_succ_L, e3]
      unfold leavesL
      congr 1
      exact List.map_congr_left (fun c hc => (hch c hc).1)
    · intro x hx
      rw [leaves_succ_L, mem_leavesL] at hx
      obtain ⟨c, hc, hxc⟩ := hx
      exact (hch c hc).2 x hxc

/-- Subtrees that a frame does not list keep their leaves and the `next_leaf`
words of them. -/
theorem leaves_frame (cfg : BTreeConfig) (s s1 : Manager) (bl : List Nat) (h : Nat)
    (cs : List Nat) (hfit : fits cfg s.block_size) (fr : Frame s s1 bl)
    (hs : ShapeL cfg s.mem h cs)
    (hb : ∀ o ∈ blocksL cfg s.mem h cs, BlockOk s o ∧ o ∉ bl) :
    leavesL cfg s1.mem h cs = leavesL cfg s.mem h cs ∧
    (∀ c ∈ cs, leaves cfg s1.mem h c = leaves cfg s.mem h c) ∧
    ∀ x ∈ leavesL cfg s.mem h cs, next_leaf cfg s1.mem x = next_leaf cfg s.mem x := by
  have key : ∀ c ∈ cs, leaves cfg s1.mem h c = leaves cfg s.mem h c ∧
      ∀ x ∈ leaves cfg s.mem h c, next_leaf cfg s1.mem x = next_leaf cfg s.mem x := by
    intro c hc
    exact leaves_congr cfg s.block_size s.mem s1.mem h c (hs c hc) (fun o ho =>
      have hm := (mem_blocksL _ _ _ _ _).mpr ⟨c, hc, ho⟩
      ⟨blockOk_fits cfg s o hfit (hb o hm).1, fr.2.2.2.2 o (hb o hm).1 (hb o hm).2⟩)
  refine ⟨?_, fun c hc => (key c hc).1, ?_⟩
  · unfold leavesL
    congr 1
    exact List.map_congr_left (fun c hc => (key c hc).1)
  · intro x hx
    obtain ⟨c, hc, hxc⟩ := (mem_leavesL _ _ _ _ _).mp hx
    exact (key c hc).2 x hxc

/-- The leftmost leaf is the first leaf of a subtree. -/
theorem leaves_head (cfg : BTreeConfig) (m : Mem) :
    ∀ (h off : Nat), ∃ tl, leaves cfg m h off = leftmost cfg m h off :: tl := by
  intro h
  induction h with
  | zero => intro off; exact ⟨[], rfl⟩
  | succ h ih =>
    intro off
    obtain ⟨tl, htl⟩ := ih (child cfg m off 0)
    have hc : node_children cfg m off =
        child cfg m off 0 :: (List.range (key_count m off)).map (fun i => child cfg m off (i + 1)) := by
      unfold node_children
      rw [List.range_succ_eq_map, List.map_cons, List.map_map]
      rfl
    refine ⟨tl ++ leavesL cfg m h
      ((List.range (key_count m off)).map (fun i => child cfg m off (i + 1))), ?_⟩
    rw [leaves_succ_L, hc, leavesL_cons, htl]
    rfl

/-! ### Chains -/

theorem chain_nil (cfg : BTreeConfig) (m : Mem) (e : Nat) : Chain cfg m [] e = True := rfl

theorem chain_cons (cfg : BTreeConfig) (m : Mem) (l : Nat) (ls : List Nat) (e : Nat) :
    Chain cfg m (l :: ls) e = (next_leaf cfg m l = ls.headD e ∧ Chain cfg m ls e) := rfl

theorem chain_append (cfg : BTreeConfig) (m : Mem) (e : Nat) :
    ∀ (a b : List Nat), Chain cfg m (a ++ b) e ↔ Chain cfg m a (b.headD e) ∧ Chain cfg m b e := by
  intro a
  induction a with
  | nil => intro b; simp [chain_nil]
  | cons x a ih =>
    intro b
    rw [List.cons_append, chain_cons, chain_cons, ih b]
    have hd : (a ++ b).headD e = a.headD (b.headD e) := by
      cases a with
      | nil => rfl
      | cons y a => rfl
    rw [hd]
    exact ⟨fun ⟨h1, h2, h3⟩ => ⟨⟨h1, h2⟩, h3⟩, fun ⟨⟨h1, h2⟩, h3⟩ => ⟨h1, h2, h3⟩⟩

theorem chain_congr (cfg : BTreeConfig) (m m' : Mem) (e : Nat) :
    ∀ (ls : List Nat), (∀ x ∈ ls, next_leaf cfg m' x = next_leaf cfg m x) →
      Chain cfg m ls e → Chain cfg m' ls e := by
  intro ls
  induction ls with
  | nil => intro _ _; trivial
  | cons l ls ih =>
    intro hx hc
    rw [chain_cons] at hc ⊢
    exact ⟨by rw [hx l (List.mem_cons_self _ _)]; exact hc.1,
      ih (fun x hx' => hx x (List.mem_cons_of_mem _ hx')) hc.2⟩

/-- In a chain the `next_leaf` of a member is a member or the end of the chain. -/
theorem chain_next_mem (cfg : BTreeConfig) (m : Mem) (e : Nat) :
    ∀ (ls : List Nat), Chain cfg m ls e →
      ∀ x ∈ ls, next_leaf cfg m x ∈ ls ∨ next_leaf cfg m x = e := by
  intro ls
  induction ls with
  | nil => intro _ x hx; exact absurd hx (List.not_mem_nil x)
  | cons l ls ih =>
    intro hc x hx
    rw [chain_cons] at hc
    rcases List.mem_cons.mp hx with c | c
    · rw [c, hc.1]
      cases ls with
      | nil => exact Or.inr rfl
      | cons y ls => exact Or.inl (List.mem_cons_of_mem _ (List.mem_cons_self _ _))
    · rcases ih hc.2 x c with d | d
      · exact Or.inl (List.mem_cons_of_mem _ d)
      · exact Or.inr d

/-- Relinking one leaf of a chain to new leaves that take over its `next_leaf`
leaves a chain. -/
theorem chain_relink (cfg : BTreeConfig) (m m' : Mem) (e l : Nat) (pre post news : List Nat)
    (hnd : (pre ++ l :: post).Nodup)
    (hc : Chain cfg m (pre ++ l :: post) e)
    (hx : ∀ x ∈ pre ++ l :: post, x ≠ l → next_leaf cfg m' x = next_leaf cfg m x)
    (hn : Chain cfg m' (l :: news) (next_leaf cfg m l)) :
    Chain cfg m' (pre ++ l :: news ++ post) e := by
  rw [chain_append] at hc
  obtain ⟨c1, c2⟩ := hc
  rw [chain_cons] at c2
  have hpre : ∀ x ∈ pre, x ≠ l := by
    intro x hxp hxl
    rw [List.nodup_append] at hnd
    exact hnd.2.2 hxp (hxl ▸ List.mem_cons_self _ _)
  have hpost : ∀ x ∈ post, x ≠ l := by
    intro x hxp hxl
    rw [List.nodup_append, List.nodup_cons] at hnd
    exact hnd.2.1.1 (hxl ▸ hxp)
  have e1 : pre ++ l :: news ++ post = pre ++ ((l :: news) ++ post) := by simp
  rw [e1, chain_append, chain_append]
  refine ⟨?_, ?_, ?_⟩
  · have hh : ((l :: news) ++ post).headD e = (l :: post).headD e := rfl
    rw [hh]
    exact chain_congr cfg m m' _ pre (fun x hxp =>
      hx x (List.mem_append_left _ hxp) (hpre x hxp)) c1
  · rw [← c2.1]; exact hn
  · exact chain_congr cfg m m' _ post (fun x hxp =>
      hx x (List.mem_append_right _ (List.mem_cons_of_mem _ hxp)) (hpost x hxp)) c2.2

/-- Following `next_leaf` along a chain that ends in 0. -/
theorem chain_walk_of_chain (cfg : BTreeConfig) (m : Mem) :
    ∀ (ls : List Nat) (k : Nat), Chain cfg m ls 0 → (∀ x ∈ ls, x ≠ 0) →
      chain_walk cfg m (ls.length + k + 1) (ls.headD 0) = ls := by
  intro ls
  induction ls with
  | nil =>
    intro k _ _
    unfold chain_walk
    rfl
  | cons l ls ih =>
    intro k hc hnz
    rw [chain_cons] at hc
    have e : (l :: ls).length + k + 1 = (ls.length + k + 1) + 1 := by
      rw [List.length_cons]; omega
    rw [e]
    unfold chain_walk
    rw [List.headD_cons, if_neg (hnz l (List.mem_cons_self _ _)), hc.1,
      ih k hc.2 (fun x hx => hnz x (List.mem_cons_of_mem _ hx))]

end BTree

/-! ## Blocks, bitmap and leaf chain across an insertion -/

namespace BTree

/-- A leaf that a frame does not list keeps its `next_leaf` word. -/
theorem next_frame (cfg : BTreeConfig) (s s1 : Manager) (bl : List Nat) (o : Nat)
    (hfit : fits cfg s.block_size) (fr : Frame s s1 bl) (hok : BlockOk s o) (hn : o ∉ bl) :
    next_leaf cfg s1.mem o = next_leaf cfg s.mem o := by
  obtain ⟨_, _, _, o4, o5⟩ := nodeFits_bounds cfg s.block_size o (blockOk_fits cfg s o hfit hok)
  unfold next_leaf
  exact rd64_congr _ _ _ (fun y h1 h2 => fr.2.2.2.2 o hok hn y (by omega) (by omega))

/-- The append branch of `insert_leaf` leaves the `next_leaf` word and the bitmap. -/
theorem leaf_append_next (cfg : BTreeConfig) (s : Manager) (off : Nat) (key value : Int)
    (henv : Env cfg s) (hok : BlockOk s off)
    (hroom : key_count s.mem off < cfg.leaf_capacity) :
    let m1 := write_entry s.mem (get_leaf_entries off + 8 * key_count s.mem off) ⟨key, value⟩
    let s1 := persist_node { s with mem := wr32 m1 (off + 4) (key_count m1 off + 1) } off
    next_leaf cfg s1.mem off = next_leaf cfg s.mem off ∧ Bits s s1 [] := by
  intro m1 s1
  have hge := blockOk_ge s off hok
  obtain ⟨_, _, _, o4, o5⟩ := nodeFits_bounds cfg s.block_size off
    (blockOk_fits cfg s off henv.1 hok)
  have hle : get_leaf_entries off = off + 16 := rfl
  have hmem : ∀ x, (x < off + 4 ∨ off + 12 ≤ x) →
      (x < off + 16 + 8 * key_count s.mem off ∨ off + 16 + 8 * key_count s.mem off + 8 ≤ x) →
      (x < 56 ∨ 64 ≤ x) → s1.mem x = s.mem x := by
    intro x hx1 hx2 hx3
    show (persist_node _ off).mem x = s.mem x
    rw [persist_node_mem _ _ _ ⟨by omega, hx3⟩]
    show wr32 m1 (off + 4) _ x = s.mem x
    rw [wr32_other _ _ _ _ (by omega)]
    exact write_entry_other _ _ _ _ (by rw [hle]; omega)
  constructor
  · unfold next_leaf
    exact rd64_congr _ _ _ (fun y h1 h2 => hmem y (by omega) (by omega) (by omega))
  · exact bits_same s s1 (fun x hx1 hx2 => hmem x (by omega) (by omega) (by omega))

/-! ### Relinking -/

theorem relink_weaken (cfg : BTreeConfig) (m m1 : Mem) (L L1 : List Nat) (ord ord' : Prop)
    (h : Relink cfg m m1 L L1 ord) (hord : ord' → ord) : Relink cfg m m1 L L1 ord' := by
  obtain ⟨l, news, h1, h2, h3, h4, h5⟩ := h
  exact ⟨l, news, h1, h2, h3, h4, fun ho => h5 (hord ho)⟩

/-- Later stores that leave the `next_leaf` words of the new leaves. -/
theorem relink_carry (cfg : BTreeConfig) (m m1 m2 : Mem) (L L1 : List Nat) (ord : Prop)
    (h : Relink cfg m m1 L L1 ord) (hx : ∀ x ∈ L1, next_leaf cfg m2 x = next_leaf cfg m1 x) :
    Relink cfg m m2 L L1 ord := by
  obtain ⟨l, news, h1, h2, h3, h4, h5⟩ := h
  have hL : ∀ x ∈ L, x ∈ L1 := fun x hx' => h4.symm.subset (List.mem_append_right _ hx')
  have hN : ∀ x ∈ news, x ∈ L1 := fun x hx' => h4.symm.subset (List.mem_append_left _ hx')
  refine ⟨l, news, h1, fun x hx1 hx2 => by rw [hx x (hL x hx1)]; exact h2 x hx1 hx2, ?_, h4, h5⟩
  refine chain_congr cfg m1 m2 _ _ ?_ h3
  intro x hx'
  rcases List.mem_cons.mp hx' with c | c
  · rw [c]; exact hx l (hL l h1)
  · exact hx x (hN x c)

/-- Leaves on both sides whose `next_leaf` words are unchanged. -/
theorem relink_embed (cfg : BTreeConfig) (m m1 : Mem) (L L1 A B : List Nat) (ord : Prop)
    (h : Relink cfg m m1 L L1 ord)
    (hA : ∀ x ∈ A, next_leaf cfg m1 x = next_leaf cfg m x)
    (hB : ∀ x ∈ B, next_leaf cfg m1 x = next_leaf cfg m x) :
    Relink cfg m m1 (A ++ L ++ B) (A ++ L1 ++ B) ord := by
  obtain ⟨l, news, h1, h2, h3, h4, h5⟩ := h
  refine ⟨l, news, List.mem_append_left _ (List.mem_append_right _ h1), ?_, h3, ?_, ?_⟩
  · intro x hx hxl
    rcases List.mem_append.mp hx with c | c
    · rcases List.mem_append.mp c with d | d
      · exact hA x d
      · exact h2 x d hxl
    · exact hB x c
  · refine ((List.Perm.append_left A h4).append_right B).trans ?_
    simp only [List.append_assoc]
    rw [← List.append_assoc A news, ← List.append_assoc news A]
    exact List.Perm.append_right _ List.perm_append_comm
  · intro ho
    obtain ⟨pre, post, e1, e2⟩ := h5 ho
    refine ⟨A ++ pre, post ++ B, ?_, ?_⟩
    · rw [e1]; simp
    · rw [e2]; simp

/-- The same leaves in another arrangement, which is the same one when `ord'`
holds. -/
theorem relink_perm (cfg : BTreeConfig) (m m1 : Mem) (L L1 L1' : List Nat) (ord ord' : Prop)
    (h : Relink cfg m m1 L L1 ord) (hp : L1'.Perm L1) (ho : ord' → ord ∧ L1' = L1) :
    Relink cfg m m1 L L1' ord' := by
  obtain ⟨l, news, h1, h2, h3, h4, h5⟩ := h
  refine ⟨l, news, h1, h2, h3, hp.trans h4, ?_⟩
  intro ho'
  obtain ⟨o1, o2⟩ := ho ho'
  rw [o2]
  exact h5 o1

theorem perm_of_count {l1 l2 : List Nat} (h : ∀ a, l1.count a = l2.count a) : l1.Perm l2 :=
  List.perm_iff_count.mpr h

/-- The leaf case: an append changes no link, a split links the new leaf behind
the old one. -/
theorem insert_leaf_links (cfg : BTreeConfig) (key value : Int) (hk : isInt32 key)
    (hv : isInt32 value) (fuel : Nat) (s : Manager) (off : Nat) (henv : Env cfg s)
    (hown : Owned cfg s 0 off) :
    ∀ (res : InsertResult) (s' : Manager),
      insert_leaf cfg fuel s off key value = (.ok res, s') →
      LinkPost cfg s s' 0 off key res := by
  intro res s' h
  obtain ⟨hok, hleaf, hkc⟩ := owned_leaf cfg s off hown
  have hge := blockOk_ge s off hok
  have h0 : off ≠ 0 := by omega
  cases fuel with
  | zero =>
    unfold insert_leaf at h
    simp only [Prod.mk.injEq] at h
    exact absurd h.1 (by simp)
  | succ f =>
    unfold insert_leaf at h
    rw [if_neg h0] at h
    by_cases hroom : key_count s.mem off < cfg.leaf_capacity
    · rw [if_pos hroom] at h
      simp only [Prod.mk.injEq, Except.ok.injEq] at h
      obtain ⟨h1, h2⟩ := h
      subst h1 h2
      obtain ⟨a1, a2⟩ := leaf_append_next cfg s off key value henv hok hroom
      refine ⟨⟨[], ?_, a2⟩, off, [], ?_, ?_, ?_, ?_, ?_⟩
      · rw [res_roots_false, blocksL_single, blocks_zero, blocks_zero]
        exact List.Perm.refl _
      · rw [leaves_zero]; exact List.mem_singleton.mpr rfl
      · intro x hx hxl
        rw [leaves_zero, List.mem_singleton] at hx
        exact absurd hx hxl
      · rw [chain_cons, chain_nil]
        exact ⟨a1, trivial⟩
      · rw [res_roots_false, leavesL_single, leaves_zero, leaves_zero]
        exact List.Perm.refl _
      · intro _
        refine ⟨[], [], ?_, ?_⟩
        · rw [leaves_zero]; rfl
        · rw [res_roots_false, leavesL_single, leaves_zero]; rfl
    · rw [if_neg hroom] at h
      have hfull : key_count s.mem off = cfg.leaf_capacity := by omega
      generalize hsp : split_leaf cfg s off = sp at h
      obtain ⟨rs, s1⟩ := sp
      have hlc := henv.2.1
      have spec := split_leaf_general cfg s off cfg.leaf_capacity henv hok hfull (by omega)
        (le_refl _) rs s1 hsp
      cases rs with
      | error e =>
        simp only [Prod.mk.injEq] at h
        exact absurd h.1 (by simp)
      | ok sres =>
        simp only at h spec
        obtain ⟨hd, _, okn, notn, fr1, l1, l2, e1, e2, nx1, nx2, _, hbits⟩ := spec
        have hlen : (leaf_entries s.mem off).length = cfg.leaf_capacity := by
          rw [leaf_entries_length, hfull]
        have hBl : (List.insertionSort (fun a b : LeafEntry => a.key ≤ b.key)
            (leaf_entries s.mem off)).length = cfg.leaf_capacity := by
          rw [List.length_insertionSort, hlen]
        have henv1 : Env cfg s1 := fr1.env henv
        have hok1 : BlockOk s1 off := fr1.blockOk off hok
        have kc1o : key_count s1.mem off = cfg.leaf_capacity / 2 := by
          rw [← leaf_entries_length, e1, List.length_take, hBl]; omega
        have kc1n : key_count s1.mem sres.new_child_offset =
            cfg.leaf_capacity - cfg.leaf_capacity / 2 := by
          rw [← leaf_entries_length, e2, List.length_drop, hBl]
        have hne : off ≠ sres.new_child_offset := fun c => notn (c ▸ hok)
        have tfacts : BlockOk s1 (if key ≥ sres.split_key then sres.new_child_offset else off) ∧
            key_count s1.mem (if key ≥ sres.split_key then sres.new_child_offset else off) <
              cfg.leaf_capacity := by
          split
          · exact ⟨okn, by rw [kc1n]; omega⟩
          · exact ⟨hok1, by rw [kc1o]; omega⟩
        have tcase : (if key ≥ sres.split_key then sres.new_child_offset else off) = off ∨
            (if key ≥ sres.split_key then sres.new_child_offset else off) =
              sres.new_child_offset := by
          split
          · exact Or.inr rfl
          · exact Or.inl rfl
        generalize (if key ≥ sres.split_key then sres.new_child_offset else off) = t at *
        obtain ⟨tok, troom⟩ := tfacts
        have ht0 : t ≠ 0 := by
          have := blockOk_ge s1 t tok
          omega
        cases f with
        | zero =>
          unfold insert_leaf at h
          simp only [Prod.mk.injEq] at h
          exact absurd h.1 (by simp)
        | succ f' =>
          unfold insert_leaf at h
          rw [if_neg ht0, if_pos troom] at h
          simp only [Prod.mk.injEq, Except.ok.injEq] at h
          obtain ⟨h1, h2⟩ := h
          subst h1 h2
          obtain ⟨a1, a2⟩ := leaf_append_next cfg s1 t key value henv1 tok troom
          obtain ⟨fr2, _⟩ := leaf_append_post cfg s1 t key value henv1 tok troom hk hv
          generalize persist_node _ t = s2 at *
          have hroots : res_roots off sres = [off, sres.new_child_offset] := by
            unfold res_roots; rw [hd]; rfl
          have keep : ∀ u, BlockOk s1 u →
              next_leaf cfg s2.mem u = next_leaf cfg s1.mem u := by
            intro u hu
            by_cases hut : u = t
            · rw [hut]; exact a1
            · exact next_frame cfg s1 s2 [t] u henv1.1 fr2 hu
                (fun c => hut (List.mem_singleton.mp c))
          refine ⟨⟨[sres.new_child_offset], ?_, ?_⟩, off, [sres.new_child_offset], ?_, ?_, ?_, ?_, ?_⟩
          · rw [hroots, blocksL_cons, blocksL_single, blocks_zero, blocks_zero, blocks_zero]
            exact List.Perm.swap _ _ _
          · have := bits_trans s s1 s2 _ _ fr1.1 fr1.2.1 hbits a2
            rw [List.append_nil] at this
            exact this
          · rw [leaves_zero]; exact List.mem_singleton.mpr rfl
          · intro x hx hxl
            rw [leaves_zero, List.mem_singleton] at hx
            exact absurd hx hxl
          · rw [chain_cons, chain_cons, chain_nil]
            refine ⟨?_, ?_, trivial⟩
            · rw [keep off hok1]; exact nx2
            · rw [keep _ okn]; exact nx1
          · rw [hroots, leavesL_cons, leavesL_single, leaves_zero, leaves_zero, leaves_zero]
            exact List.Perm.swap _ _ _
          · intro _
            refine ⟨[], [], ?_, ?_⟩
            · rw [leaves_zero]; rfl
            · rw [hroots, leavesL_cons, leavesL_single, leaves_zero, leaves_zero]; rfl

theorem leavesL_congr (cfg : BTreeConfig) (m m' : Mem) (h : Nat) (cs : List Nat)
    (hc : ∀ c ∈ cs, leaves cfg m' h c = leaves cfg m h c) :
    leavesL cfg m' h cs = leavesL cfg m h cs := by
  unfold leavesL
  rw [List.map_congr_left hc]

/-- Leaves and blocks below an internal node after the recursive call on child
`idx`: what the call left stands where the child stood. -/
theorem child_links (cfg : BTreeConfig) (s s1 : Manager) (h off idx : Nat) (key value : Int)
    (res : InsertResult) (henv : Env cfg s) (hown : Owned cfg s (h + 1) off)
    (hidx : idx ≤ key_count s.mem off)
    (post : InsertPost cfg s s1 h (child cfg s.mem off idx) key value res)
    (link : LinkPost cfg s s1 h (child cfg s.mem off idx) key res)
    (hloc : ∀ lo hi, lo ≤ key → key < hi →
      lower_bound s.mem off lo idx ≤ key ∧ key < upper_bound s.mem off hi idx) :
    (∃ nb, (off :: blocksL cfg s1.mem h ((node_children cfg s.mem off).take idx ++
        res_roots (child cfg s.mem off idx) res ++
        (node_children cfg s.mem off).drop (idx + 1))).Perm
        (nb ++ blocks cfg s.mem (h + 1) off) ∧ Bits s s1 nb) ∧
    Relink cfg s.mem s1.mem (leaves cfg s.mem (h + 1) off)
      (leavesL cfg s1.mem h ((node_children cfg s.mem off).take idx ++
        res_roots (child cfg s.mem off idx) res ++ (node_children cfg s.mem off).drop (idx + 1)))
      (Fresh cfg s.mem (h + 1) off key) ∧
    ShapeL cfg s1.mem h ((node_children cfg s.mem off).take idx ++
        res_roots (child cfg s.mem off idx) res ++ (node_children cfg s.mem off).drop (idx + 1)) ∧
    (∀ o ∈ blocksL cfg s1.mem h ((node_children cfg s.mem off).take idx ++
        res_roots (child cfg s.mem off idx) res ++ (node_children cfg s.mem off).drop (idx + 1)),
      BlockOk s1 o ∧ o ≠ off) := by
  obtain ⟨n1, n2, n3, n4, n5, n6, n7⟩ := owned_node cfg s h off hown
  obtain ⟨_, _, _, csh, cnd, cbk, _, _⟩ :=
    child_step cfg s s1 h off idx key value res henv hown hidx post
  obtain ⟨fr, _, psh, pnd, pbk, pct, pord⟩ := post
  obtain ⟨⟨nb, gperm, gbits⟩, rel⟩ := link
  have hcs := children_split cfg s.mem off idx hidx
  have hfresh : Fresh cfg s.mem (h + 1) off key →
      Fresh cfg s.mem h (child cfg s.mem off idx) key := by
    rintro ⟨lo, hi, ho, hlo, hhi, hnk⟩
    obtain ⟨k1, k2⟩ := hloc lo hi hlo hhi
    refine ⟨_, _, ?_, k1, k2, fun e he => hnk e ((mem_contents_node cfg s.mem h off e).mpr
      ⟨idx, hidx, he⟩)⟩
    rw [ord_succ_L] at ho
    have hv := view_split cfg s.mem off lo hi idx hidx
    have hx : (lower_bound s.mem off lo idx, child cfg s.mem off idx,
        upper_bound s.mem off hi idx) ∈ node_view cfg s.mem off lo hi := by
      rw [hv]; exact List.mem_append_right _ (List.mem_cons_self _ _)
    exact (ho _ hx).2
  have hbl : blocks cfg s.mem (h + 1) off = off :: blocksL cfg s.mem h (node_children cfg s.mem off) :=
    blocks_succ_L cfg s.mem h off
  have hlv : leaves cfg s.mem (h + 1) off = leavesL cfg s.mem h (node_children cfg s.mem off) :=
    leaves_succ_L cfg s.mem h off
  rw [List.nodup_cons] at cnd
  generalize hc : child cfg s.mem off idx = c at *
  generalize hcsd : node_children cfg s.mem off = cs at *
  generalize hR : res_roots c res = R at *
  generalize hT : cs.take idx = T at *
  generalize hD : cs.drop (idx + 1) = D at *
  have hmemF : ∀ x, x ∈ T ++ R ++ D ↔ x ∈ R ++ (T ++ D) := by
    intro x
    simp only [List.mem_append]
    tauto
  have hbF : ∀ o, o ∈ blocksL cfg s1.mem h (T ++ R ++ D) → o ∈ blocksL cfg s1.mem h (R ++ (T ++ D)) := by
    intro o ho
    obtain ⟨x, hx1, hx2⟩ := (mem_blocksL _ _ _ _ _).mp ho
    exact (mem_blocksL _ _ _ _ _).mpr ⟨x, (hmemF x).mp hx1, hx2⟩
  rw [hcs, blocksL_append, blocksL_cons] at n6 n7 n5
  have hTs : ∀ x ∈ T, x ∈ cs := fun x hx => by
    rw [hcs]; exact List.mem_append_left _ hx
  have hDs : ∀ x ∈ D, x ∈ cs := fun x hx => by
    rw [hcs]; exact List.mem_append_right _ (List.mem_cons_of_mem _ hx)
  have hTd : ∀ o ∈ blocksL cfg s.mem h T, BlockOk s o ∧ o ∉ blocks cfg s.mem h c := by
    intro o ho
    refine ⟨n7 o (List.mem_append_left _ ho), fun hc' => ?_⟩
    exact (List.disjoint_of_nodup_append n6) ho (List.mem_append_left _ hc')
  have hDd : ∀ o ∈ blocksL cfg s.mem h D, BlockOk s o ∧ o ∉ blocks cfg s.mem h c := by
    intro o ho
    refine ⟨n7 o (List.mem_append_right _ (List.mem_append_right _ ho)), fun hc' => ?_⟩
    exact (List.disjoint_of_nodup_append (List.nodup_append.mp n6).2.1) hc' ho
  obtain ⟨_, tb, _, _⟩ := forest_frame cfg s s1 _ h T henv.1 fr (fun x hx => n3 x (hTs x hx)) hTd
  obtain ⟨_, db, _, _⟩ := forest_frame cfg s s1 _ h D henv.1 fr (fun x hx => n3 x (hDs x hx)) hDd
  obtain ⟨tl, _, tn⟩ := leaves_frame cfg s s1 _ h T henv.1 fr (fun x hx => n3 x (hTs x hx)) hTd
  obtain ⟨dl, _, dn⟩ := leaves_frame cfg s s1 _ h D henv.1 fr (fun x hx => n3 x (hDs x hx)) hDd
  refine ⟨⟨nb, ?_, gbits⟩, ?_, ?_, ?_⟩
  · rw [hbl, hcs, blocksL_append, blocksL_append, blocksL_append, blocksL_cons, tb, db]
    refine perm_of_count (fun a => ?_)
    have := gperm.count_eq a
    simp only [List.count_append, List.count_cons] at this ⊢
    omega
  · have r1 := relink_embed cfg s.mem s1.mem _ _ (leavesL cfg s.mem h T) (leavesL cfg s.mem h D)
      _ rel tn dn
    have r2 := relink_weaken cfg s.mem s1.mem _ _ _ _ r1 hfresh
    rw [hlv, hcs, leavesL_append, leavesL_append, leavesL_append, leavesL_cons, tl, dl,
      ← List.append_assoc]
    exact r2
  · intro x hx
    exact csh x ((hmemF x).mp hx)
  · intro o ho
    have ho' := hbF o ho
    exact ⟨(cbk o ho').1, fun c' => cnd.1 (c' ▸ ho')⟩

/-- Stores to the blocks `ws`, none of them below the forest `F`, and a
rearrangement `G` of the forest. -/
theorem carry_links (cfg : BTreeConfig) (m : Mem) (s1 sf : Manager) (ws : List Nat) (h : Nat)
    (L F G : List Nat) (ord ord' : Prop) (hfit : fits cfg s1.block_size) (fr : Frame s1 sf ws)
    (hsh : ShapeL cfg s1.mem h F)
    (hbk : ∀ o ∈ blocksL cfg s1.mem h F, BlockOk s1 o ∧ o ∉ ws)
    (hp : G.Perm F) (ho : ord' → ord ∧ G = F)
    (rel : Relink cfg m s1.mem L (leavesL cfg s1.mem h F) ord) :
    Relink cfg m sf.mem L (leavesL cfg sf.mem h G) ord' ∧
    (blocksL cfg sf.mem h G).Perm (blocksL cfg s1.mem h F) := by
  obtain ⟨l1, _, l3⟩ := leaves_frame cfg s1 sf ws h F hfit fr hsh hbk
  obtain ⟨_, f2, _, _⟩ := forest_frame cfg s1 sf ws h F hfit fr hsh hbk
  constructor
  · refine relink_perm cfg m sf.mem L _ _ ord ord'
      (relink_carry cfg m s1.mem sf.mem L _ ord rel l3) ?_ ?_
    · rw [← l1]; exact leavesL_perm cfg sf.mem h G F hp
    · intro ho'
      obtain ⟨o1, o2⟩ := ho ho'
      exact ⟨o1, by rw [o2, l1]⟩
  · rw [← f2]; exact blocksL_perm cfg sf.mem h G F hp

/-- The children of a node after `install_pivot`, in order, and its bitmap. -/
theorem install_links (cfg : BTreeConfig) (s : Manager) (node idx : Nat) (res : InsertResult)
    (henv : Env cfg s) (hok : BlockOk s node)
    (hroom : key_count s.mem node < cfg.max_keys) (hidx : idx ≤ key_count s.mem node)
    (hsk : isInt32 res.split_key) (hnew : res.new_child_offset < 18446744073709551616) :
    node_children cfg (install_pivot cfg s node idx (key_count s.mem node) res).mem node =
      (node_children cfg s.mem node).take idx ++
        [child cfg s.mem node idx, res.new_child_offset] ++
        (node_children cfg s.mem node).drop (idx + 1) ∧
    Bits s (install_pivot cfg s node idx (key_count s.mem node) res) [] := by
  have hge := blockOk_ge s node hok
  obtain ⟨a1, a2, a3, a4, a5, a6⟩ := install_pivot_spec cfg s node idx res
    (blockOk_fits cfg s node henv.1 hok) (by omega) hroom henv.1.2.1 hidx hsk hnew
  constructor
  · rw [node_children_eq_view cfg _ node 0 0, a3 0 0, node_children_eq_view cfg s.mem node 0 0]
    simp only [List.map_append, List.map_cons, List.map_nil, List.map_take, List.map_drop]
  · exact bits_same s _ (fun x hx1 hx2 => a4 x (Or.inl (by omega)) (Or.inr hx1))

/-- Links after the branch of `insert_internal_node` without a split below. -/
theorem nosplit_links (cfg : BTreeConfig) (s s1 : Manager) (h off idx : Nat) (key value : Int)
    (res : InsertResult) (henv : Env cfg s) (hown : Owned cfg s (h + 1) off)
    (hidx : idx ≤ key_count s.mem off)
    (post : InsertPost cfg s s1 h (child cfg s.mem off idx) key value res)
    (link : LinkPost cfg s s1 h (child cfg s.mem off idx) key res)
    (hd : ¬ res.did_split = true)
    (hloc : ∀ lo hi, lo ≤ key → key < hi →
      lower_bound s.mem off lo idx ≤ key ∧ key < upper_bound s.mem off hi idx) :
    LinkPost cfg s s1 (h + 1) off key ⟨0, 0, false⟩ := by
  obtain ⟨_, _, ⟨_, _, cch, _⟩, _⟩ :=
    child_step cfg s s1 h off idx key value res henv hown hidx post
  obtain ⟨⟨nb, gperm, gbits⟩, rel, _, _⟩ :=
    child_links cfg s s1 h off idx key value res henv hown hidx post link hloc
  have hcs := children_split cfg s.mem off idx hidx
  rw [res_roots_nosplit _ res hd] at gperm rel
  have hF : (node_children cfg s.mem off).take idx ++ [child cfg s.mem off idx] ++
      (node_children cfg s.mem off).drop (idx + 1) = node_children cfg s.mem off := by
    nth_rewrite 3 [hcs]
    simp
  rw [hF] at gperm rel
  refine ⟨⟨nb, ?_, gbits⟩, ?_⟩
  · rw [res_roots_false, blocksL_single, blocks_succ_L, cch]
    exact gperm
  · rw [res_roots_false, leavesL_single, leaves_succ_L cfg s1.mem, cch]
    exact rel

/-- Links after the branch of `insert_internal_node` that installs the pivot in
a node with room. -/
theorem pivot_links (cfg : BTreeConfig) (s s1 : Manager) (h off idx : Nat) (key value : Int)
    (res : InsertResult) (henv : Env cfg s) (hown : Owned cfg s (h + 1) off)
    (hidx : idx ≤ key_count s.mem off)
    (post : InsertPost cfg s s1 h (child cfg s.mem off idx) key value res)
    (link : LinkPost cfg s s1 h (child cfg s.mem off idx) key res)
    (hd : res.did_split = true)
    (hloc : ∀ lo hi, lo ≤ key → key < hi →
      lower_bound s.mem off lo idx ≤ key ∧ key < upper_bound s.mem off hi idx)
    (hroom : key_count s1.mem off < cfg.max_keys) :
    LinkPost cfg s (install_pivot cfg s1 off idx (key_count s1.mem off) res) (h + 1) off
      key ⟨0, 0, false⟩ := by
  obtain ⟨hnok, hnlt⟩ := new_child_lt cfg s s1 h _ key value res henv post hd
  have hsk := post.2.1
  obtain ⟨cfr, cok, ⟨cl, ckc, cch, cview⟩, _⟩ :=
    child_step cfg s s1 h off idx key value res henv hown hidx post
  obtain ⟨⟨nb, gperm, gbits⟩, rel, fsh, fbk⟩ :=
    child_links cfg s s1 h off idx key value res henv hown hidx post link hloc
  have henv1 : Env cfg s1 := cfr.env henv
  have hidx1 : idx ≤ key_count s1.mem off := by rw [ckc]; exact hidx
  obtain ⟨ifr, _, _, _, _⟩ := install_frame cfg s1 off idx res henv1 cok cl hroom hidx1 hsk hnlt
  obtain ⟨ich, ibits⟩ := install_links cfg s1 off idx res henv1 cok hroom hidx1 hsk hnlt
  have hch : child cfg s1.mem off idx = child cfg s.mem off idx :=
    (bounds_of_view_eq cfg s.mem s1.mem off 0 0 idx (cview 0 0) ckc hidx).2.1
  rw [cch, hch, ← res_roots_true _ res hd] at ich
  generalize install_pivot cfg s1 off idx (key_count s1.mem off) res = sf at *
  obtain ⟨r1, r2⟩ := carry_links cfg s.mem s1 sf [off] h _ _ _ _ (Fresh cfg s.mem (h + 1) off key)
    henv1.1 ifr fsh (fun o ho => ⟨(fbk o ho).1, fun c => (fbk o ho).2 (List.mem_singleton.mp c)⟩)
    (List.Perm.refl _) (fun ho => ⟨ho, rfl⟩) rel
  refine ⟨⟨nb, ?_, ?_⟩, ?_⟩
  · rw [res_roots_false, blocksL_single, blocks_succ_L, ich]
    exact (List.Perm.cons _ r2).trans gperm
  · have := bits_trans s s1 sf _ _ cfr.1 cfr.2.1 gbits ibits
    rw [List.append_nil] at this
    exact this
  · rw [res_roots_false, leavesL_single, leaves_succ_L cfg sf.mem, ich]
    exact r1

end BTree

/-! ## Links across the split of an internal node -/

theorem take_drop_glue {α : Type} : ∀ (l : List α) (a b : Nat), a ≤ b →
    (l.take b).drop a ++ l.drop b = l.drop a := by
  intro l
  induction l with
  | nil => intro a b _; simp
  | cons x xs ih =>
    intro a b hab
    cases a with
    | zero => simp
    | succ a =>
      cases b with
      | zero => omega
      | succ b =>
        simp only [List.take_succ_cons, List.drop_succ_cons]
        exact ih a b (by omega)

theorem take_take_le {α : Type} (l : List α) (a b : Nat) (h : a ≤ b) :
    (l.take b).take a = l.take a := by
  rw [List.take_take, Nat.min_eq_left h]

namespace BTree

/-- The children of the two halves after the branch of `insert_internal_node`
that splits a full node: a rearrangement of the children before with the new
child, and the old order with the new child behind the one that split when the
inserted key is new and the node is in routing order. -/
theorem split_children (cfg : BTreeConfig) (s s1 s2 : Manager) (h off idx : Nat)
    (key value : Int) (res my : InsertResult) (t ti : Nat)
    (henv : Env cfg s) (hown : Owned cfg s (h + 1) off)
    (hidx : idx ≤ key_count s.mem off)
    (post : InsertPost cfg s s1 h (child cfg s.mem off idx) key value res)
    (hd : res.did_split = true)
    (hloc : ∀ lo hi, lo ≤ key → key < hi →
      lower_bound s.mem off lo idx ≤ key ∧ key < upper_bound s.mem off hi idx)
    (hfull : ¬ key_count s1.mem off < cfg.max_keys)
    (hsp : split_internal cfg s1 off = (.ok my, s2))
    (ht : t = if res.split_key < my.split_key then off else my.new_child_offset)
    (hti : ti = scan_keys s2.mem (get_internal_keys t) res.split_key (key_count s2.mem t) 0) :
    Frame s1 (install_pivot cfg s2 t ti (key_count s2.mem t) res) [off] ∧
    Bits s1 (install_pivot cfg s2 t ti (key_count s2.mem t) res) [my.new_child_offset] ∧
    my.did_split = true ∧ ¬ BlockOk s1 my.new_child_offset ∧
    (node_children cfg (install_pivot cfg s2 t ti (key_count s2.mem t) res).mem off ++
      node_children cfg (install_pivot cfg s2 t ti (key_count s2.mem t) res).mem
        my.new_child_offset).Perm
      ((node_children cfg s.mem off).take idx ++ res_roots (child cfg s.mem off idx) res ++
        (node_children cfg s.mem off).drop (idx + 1)) ∧
    (Fresh cfg s.mem (h + 1) off key →
      node_children cfg (install_pivot cfg s2 t ti (key_count s2.mem t) res).mem off ++
        node_children cfg (install_pivot cfg s2 t ti (key_count s2.mem t) res).mem
          my.new_child_offset =
      (node_children cfg s.mem off).take idx ++ res_roots (child cfg s.mem off idx) res ++
        (node_children cfg s.mem off).drop (idx + 1)) := by
  obtain ⟨hnok, hnlt⟩ := new_child_lt cfg s s1 h _ key value res henv post hd
  have hsk := post.2.1
  obtain ⟨n1, n2, n3, n4, n5, n6, n7⟩ := owned_node cfg s h off hown
  obtain ⟨cfr, cok, ⟨cl, ckc, cch, cview⟩, csh, cnd, cbk, cct, cord⟩ :=
    child_step cfg s s1 h off idx key value res henv hown hidx post
  have henv1 : Env cfg s1 := cfr.env henv
  have hmk := henv.1.1
  have hkc1 : key_count s1.mem off = cfg.max_keys := by omega
  have hkc0 : key_count s.mem off = cfg.max_keys := by omega
  have spec := split_internal_general cfg s1 off cfg.max_keys henv1 cok hkc1 hmk (le_refl _)
    _ _ hsp
  dsimp only at spec
  obtain ⟨md, mpsk, mok, mnot, mfr, ml, mln, mkc, mkcn, mvo, mvn, _, mbits⟩ := spec
  have henv2 : Env cfg s2 := mfr.env henv1
  have hmidlt : cfg.max_keys / 2 < cfg.max_keys := Nat.div_lt_self (by omega) (by omega)
  generalize hmid : cfg.max_keys / 2 = mid at *
  have hoff2 : BlockOk s2 off := mfr.blockOk off cok
  have hnep : off ≠ my.new_child_offset := fun c => mnot (c ▸ cok)
  have tfacts : BlockOk s2 t ∧ is_leaf s2.mem t = false ∧ key_count s2.mem t < cfg.max_keys ∧
      (t = off ∨ t = my.new_child_offset) := by
    rw [ht]
    split
    · exact ⟨hoff2, by rw [ml]; exact cl, by rw [mkc]; omega, Or.inl rfl⟩
    · exact ⟨mok, mln, by rw [mkcn]; omega, Or.inr rfl⟩
  obtain ⟨tok, tl, tkc, tcase⟩ := tfacts
  have htile : ti ≤ key_count s2.mem t := by
    have := (scan_keys_spec s2.mem (get_internal_keys t) res.split_key (key_count s2.mem t) 0).2.1
    rw [← hti] at this
    omega
  obtain ⟨ifr, il, ikc, iview, iperm⟩ := install_frame cfg s2 t ti res henv2 tok tl tkc
    htile hsk hnlt
  obtain ⟨ich, ibits⟩ := install_links cfg s2 t ti res henv2 tok tkc htile hsk hnlt
  generalize hs3 : install_pivot cfg s2 t ti (key_count s2.mem t) res = s3 at *
  have fr13 : Frame s1 s3 [off] := by
    refine Frame.trans mfr ifr ?_
    intro o ho hm
    rw [List.mem_singleton] at hm
    rcases tcase with c | c
    · rw [hm, c]; exact List.mem_singleton.mpr rfl
    · rw [hm, c] at ho; exact absurd ho mnot
  have other : ∀ u, BlockOk s2 u → u ≠ t → key_count s2.mem u ≤ cfg.max_keys →
      node_children cfg s3.mem u = node_children cfg s2.mem u :=
    fun u hu hut hukc =>
      (node_frame cfg s2 s3 [t] u henv2.1 ifr hu (fun c => hut (List.mem_singleton.mp c))
        hukc).2.2.1
  have hcs := children_split cfg s.mem off idx hidx
  have hco : node_children cfg s2.mem off = (node_children cfg s.mem off).take (mid + 1) := by
    rw [node_children_eq_view cfg s2.mem off 0 my.split_key, mvo 0 0, cview 0 0,
      node_children_eq_view cfg s.mem off 0 0, List.map_take]
  have hcn : node_children cfg s2.mem my.new_child_offset =
      (node_children cfg s.mem off).drop (mid + 1) := by
    rw [node_children_eq_view cfg s2.mem _ my.split_key 0, mvn 0 0, cview 0 0,
      node_children_eq_view cfg s.mem off 0 0, List.map_drop]
  have hF : (res.new_child_offset :: node_children cfg s.mem off).Perm
      ((node_children cfg s.mem off).take idx ++ res_roots (child cfg s.mem off idx) res ++
        (node_children cfg s.mem off).drop (idx + 1)) := by
    rw [res_roots_true _ res hd]
    nth_rewrite 1 [hcs]
    refine perm_of_count (fun a => ?_)
    simp only [List.count_append, List.count_cons, List.count_nil]
    omega
  have hbits : Bits s1 s3 [my.new_child_offset] := by
    have := bits_trans s1 s2 s3 _ _ mfr.1 mfr.2.1 mbits ibits
    rw [List.append_nil] at this
    exact this
  refine ⟨fr13, hbits, md, mnot, ?_, ?_⟩
  · refine List.Perm.trans ?_ hF
    rcases tcase with c | c
    · subst c
      rw [other my.new_child_offset mok (fun c => hnep c.symm) (by rw [mkcn]; omega), hcn]
      refine (List.Perm.append_right _ iperm).trans ?_
      rw [hco, List.cons_append, List.take_append_drop]
    · subst c
      rw [other off hoff2 hnep (by rw [mkc]; omega), hco]
      refine (List.Perm.append_left _ iperm).trans ?_
      rw [hcn]
      refine List.perm_middle.trans ?_
      rw [List.take_append_drop]
  · rintro ⟨lo, hi, ho, hlo, hhi, hnk⟩
    obtain ⟨k1, k2⟩ := hloc lo hi hlo hhi
    have hW1 := cord lo hi ho k1 k2 hnk
    rw [res_view_true _ res _ _ hd] at hW1
    rw [res_roots_true _ res hd]
    generalize hl : lower_bound s.mem off lo idx = l at *
    generalize hu : upper_bound s.mem off hi idx = u at *
    generalize hV : node_view cfg s.mem off lo hi = V at *
    have hlsk : l < res.split_key := (hW1 (l, child cfg s.mem off idx, res.split_key)
      (List.mem_append_left _ (List.mem_append_right _ (List.mem_cons_self _ _)))).1
    have hsku : res.split_key < u := (hW1 (res.split_key, res.new_child_offset, u)
      (List.mem_append_left _ (List.mem_append_right _
        (List.mem_cons_of_mem _ (List.mem_singleton.mpr rfl))))).1
    have vb_idx := view_bounds cfg s.mem h off lo hi ho idx hidx
    rw [hl, hu] at vb_idx
    have vb_mid := view_bounds cfg s.mem h off lo hi ho mid (by omega)
    have vb_mid1 := view_bounds cfg s.mem h off lo hi ho (mid + 1) (by omega)
    have hmk1 : rdI32 s1.mem (get_internal_keys off + 4 * mid) =
        rdI32 s.mem (get_internal_keys off + 4 * mid) := by
      have := (bounds_of_view_eq cfg s.mem s1.mem off lo hi mid (by rw [cview, hV]) ckc
        (by omega)).2.2
      unfold upper_bound at this
      rw [if_pos (by omega), if_pos (by omega)] at this
      exact this
    have hpu : upper_bound s.mem off hi mid = my.split_key := by
      unfold upper_bound
      rw [if_pos (by omega), mpsk, hmk1]
    have hpl : lower_bound s.mem off lo (mid + 1) = my.split_key := by
      unfold lower_bound
      rw [if_neg (by omega), mpsk, hmk1, Nat.add_sub_cancel]
    rw [hpu] at vb_mid
    rw [hpl] at vb_mid1
    have hVget : ∀ i, i ≤ cfg.max_keys → V[i]? =
        some (lower_bound s.mem off lo i, child cfg s.mem off i, upper_bound s.mem off hi i) := by
      intro i hi'
      rw [← hV]
      exact node_view_getElem? cfg s.mem off lo hi i (by omega)
    rcases tcase with c | c
    · -- the pivot went into the old node
      subst c
      have hlt : res.split_key < my.split_key := by
        by_contra hc
        rw [if_neg hc] at ht
        exact hnep ht
      obtain ⟨_, l2, l3⟩ := locate s2.mem t lo my.split_key res.split_key (by omega) hlt
      rw [← hti] at l2 l3
      have hg := node_view_getElem? cfg s2.mem t lo my.split_key ti htile
      rw [mvo lo hi, cview lo hi, hV, List.getElem?_take, if_pos (by omega),
        hVget ti (by omega)] at hg
      have hg' := Option.some.inj hg
      simp only [Prod.mk.injEq] at hg'
      obtain ⟨e1, e2, e3⟩ := hg'
      have hidxeq : ti = idx := by
        refine view_unique cfg s.mem h t lo hi res.split_key ho ti idx (by omega) hidx ?_ ?_
          (by rw [hl]; omega) (by rw [hu]; omega)
        · rw [e1]; exact l2
        · rw [e3]; omega
      subst hidxeq
      rw [other my.new_child_offset mok (fun c => hnep c.symm) (by rw [mkcn]; omega), hcn, ich,
        hco, ← e2, take_take_le _ _ _ (by omega), List.append_assoc,
        take_drop_glue _ _ _ (by omega)]
    · -- the pivot went into the new node
      subst c
      have hlt : ¬ res.split_key < my.split_key := by
        intro hc
        rw [if_pos hc] at ht
        exact hnep ht.symm
      obtain ⟨_, l2, l3⟩ := locate s2.mem my.new_child_offset my.split_key hi res.split_key
        (by omega) (by omega)
      rw [← hti] at l2 l3
      have htile' := htile
      rw [mkcn] at htile'
      have hg := node_view_getElem? cfg s2.mem my.new_child_offset my.split_key hi ti htile
      rw [mvn lo hi, cview lo hi, hV, List.getElem?_drop, hVget (mid + 1 + ti) (by omega)] at hg
      have hg' := Option.some.inj hg
      simp only [Prod.mk.injEq] at hg'
      obtain ⟨e1, e2, e3⟩ := hg'
      have hidxeq : mid + 1 + ti = idx := by
        refine view_unique cfg s.mem h off lo hi res.split_key ho (mid + 1 + ti) idx
          (by omega) hidx ?_ ?_ (by rw [hl]; omega) (by rw [hu]; omega)
        · rw [e1]; exact l2
        · rw [e3]; exact l3
      have hA : (node_children cfg s.mem off).take (mid + 1) ++
          ((node_children cfg s.mem off).drop (mid + 1)).take ti =
          (node_children cfg s.mem off).take (mid + 1 + ti) := (List.take_add _ _ _).symm
      have hB : ((node_children cfg s.mem off).drop (mid + 1)).drop (ti + 1) =
          (node_children cfg s.mem off).drop (mid + 1 + ti + 1) := by
        rw [List.drop_drop]
        congr 1
      rw [other off hoff2 hnep (by rw [mkc]; omega), hco, ich, hcn, ← e2, hB, ← hidxeq, ← hA]
      simp only [List.append_assoc]

end BTree

/-! ## Blocks, bitmap and leaf chain across `insert_internal` -/

namespace BTree

/-- Links after the branch of `insert_internal_node` that splits a full node. -/
theorem split_links (cfg : BTreeConfig) (s s1 s2 : Manager) (h off idx : Nat)
    (key value : Int) (res my : InsertResult) (t ti : Nat)
    (henv : Env cfg s) (hown : Owned cfg s (h + 1) off)
    (hidx : idx ≤ key_count s.mem off)
    (post : InsertPost cfg s s1 h (child cfg s.mem off idx) key value res)
    (link : LinkPost cfg s s1 h (child cfg s.mem off idx) key res)
    (hd : res.did_split = true)
    (hloc : ∀ lo hi, lo ≤ key → key < hi →
      lower_bound s.mem off lo idx ≤ key ∧ key < upper_bound s.mem off hi idx)
    (hfull : ¬ key_count s1.mem off < cfg.max_keys)
    (hsp : split_internal cfg s1 off = (.ok my, s2))
    (ht : t = if res.split_key < my.split_key then off else my.new_child_offset)
    (hti : ti = scan_keys s2.mem (get_internal_keys t) res.split_key (key_count s2.mem t) 0) :
    LinkPost cfg s (install_pivot cfg s2 t ti (key_count s2.mem t) res) (h + 1) off key my := by
  obtain ⟨cfr, _, _, _⟩ := child_step cfg s s1 h off idx key value res henv hown hidx post
  obtain ⟨⟨nb, gperm, gbits⟩, rel, fsh, fbk⟩ :=
    child_links cfg s s1 h off idx key value res henv hown hidx post link hloc
  obtain ⟨fr13, hbits, md, mnot, hp, hex⟩ := split_children cfg s s1 s2 h off idx key value
    res my t ti henv hown hidx post hd hloc hfull hsp ht hti
  have henv1 : Env cfg s1 := cfr.env henv
  generalize install_pivot cfg s2 t ti (key_count s2.mem t) res = s3 at *
  obtain ⟨r1, r2⟩ := carry_links cfg s.mem s1 s3 [off] h _ _ _ _ (Fresh cfg s.mem (h + 1) off key)
    henv1.1 fr13 fsh (fun o ho => ⟨(fbk o ho).1, fun c => (fbk o ho).2 (List.mem_singleton.mp c)⟩)
    hp (fun ho => ⟨ho, hex ho⟩) rel
  refine ⟨⟨nb ++ [my.new_child_offset], ?_, bits_trans s s1 s3 _ _ cfr.1 cfr.2.1 gbits hbits⟩, ?_⟩
  · rw [res_roots_true _ my md, blocksL_cons, blocksL_single, blocks_succ_L cfg s3.mem,
      blocks_succ_L cfg s3.mem]
    rw [blocksL_append] at r2
    refine perm_of_count (fun a => ?_)
    have e1 := gperm.count_eq a
    have e2 := r2.count_eq a
    simp only [List.count_append, List.count_cons, List.count_nil] at e1 e2 ⊢
    omega
  · rw [res_roots_true _ my md, leavesL_cons, leavesL_single, leaves_succ_L cfg s3.mem,
      leaves_succ_L cfg s3.mem, ← leavesL_append]
    exact r1

/-- Insertion below a well-formed subtree: the blocks afterwards are the blocks
before and the newly allocated ones, and one leaf is relinked to the new leaves. -/
theorem insert_internal_links (cfg : BTreeConfig) (key value : Int) (hk : isInt32 key)
    (hv : isInt32 value) :
    ∀ (h fuel : Nat) (s : Manager) (off : Nat), Env cfg s → Owned cfg s h off →
      ∀ (res : InsertResult) (s' : Manager),
        insert_internal cfg fuel s off key value = (.ok res, s') →
        LinkPost cfg s s' h off key res := by
  intro h
  induction h with
  | zero =>
    intro fuel s off henv hown res s' hrun
    obtain ⟨hok, hleaf, _⟩ := owned_leaf cfg s off hown
    have hge := blockOk_ge s off hok
    have h0 : off ≠ 0 := by omega
    cases fuel with
    | zero =>
      unfold insert_internal at hrun
      simp only [Prod.mk.injEq] at hrun
      exact absurd hrun.1 (by simp)
    | succ f =>
      unfold insert_internal at hrun
      rw [if_neg h0, hleaf, if_pos rfl] at hrun
      exact insert_leaf_links cfg key value hk hv f s off henv hown res s' hrun
  | succ h ih =>
    intro fuel s off henv hown r s' hrun
    obtain ⟨n1, n2, n3, n4, n5, n6, n7⟩ := owned_node cfg s h off hown
    have hge := blockOk_ge s off n4
    have h0 : off ≠ 0 := by omega
    cases fuel with
    | zero =>
      unfold insert_internal at hrun
      simp only [Prod.mk.injEq] at hrun
      exact absurd hrun.1 (by simp)
    | succ f =>
      unfold insert_internal at hrun
      rw [if_neg h0, n1] at hrun
      simp only [Bool.false_eq_true, if_false] at hrun
      unfold insert_internal_node at hrun
      simp only [] at hrun
      have hidx : scan_keys s.mem (get_internal_keys off) key (key_count s.mem off) 0 ≤
          key_count s.mem off := by
        have := (scan_keys_spec s.mem (get_internal_keys off) key (key_count s.mem off) 0).2.1
        omega
      have hloc : ∀ lo hi, lo ≤ key → key < hi →
          lower_bound s.mem off lo
            (scan_keys s.mem (get_internal_keys off) key (key_count s.mem off) 0) ≤ key ∧
          key < upper_bound s.mem off hi
            (scan_keys s.mem (get_internal_keys off) key (key_count s.mem off) 0) :=
        fun lo hi hlo hhi => (locate s.mem off lo hi key hlo hhi).2
      generalize scan_keys s.mem (get_internal_keys off) key (key_count s.mem off) 0 = idx at *
      have hchild : rd64 s.mem (get_internal_children off cfg.max_keys + 8 * idx) =
          child cfg s.mem off idx := rfl
      rw [hchild] at hrun
      have hcmem : child cfg s.mem off idx ∈ node_children cfg s.mem off :=
        (mem_node_children cfg s.mem off _).mpr ⟨idx, hidx, rfl⟩
      generalize hrec : insert_internal cfg f s (child cfg s.mem off idx) key value = rec at hrun
      obtain ⟨rr, s1⟩ := rec
      have hcown := owned_child cfg s h off _ hown hcmem
      have post := insert_internal_spec cfg key value hk hv h f s (child cfg s.mem off idx) henv
        hcown rr s1 hrec
      cases rr with
      | error e =>
        simp only [Prod.mk.injEq] at hrun
        exact absurd hrun.1 (by simp)
      | ok res =>
        have link := ih f s (child cfg s.mem off idx) henv hcown res s1 hrec
        simp only at hrun post
        by_cases hd : res.did_split = true
        · rw [if_pos hd] at hrun
          by_cases hroom : key_count s1.mem off < cfg.max_keys
          · rw [if_pos hroom] at hrun
            simp only [Prod.mk.injEq, Except.ok.injEq] at hrun
            obtain ⟨h1, h2⟩ := hrun
            subst h1 h2
            exact pivot_links cfg s s1 h off idx key value res henv hown hidx post link hd hloc
              hroom
          · rw [if_neg hroom] at hrun
            generalize hsp : split_internal cfg s1 off = sp at hrun
            obtain ⟨rs, s2⟩ := sp
            cases rs with
            | error e =>
              simp only [Prod.mk.injEq] at hrun
              exact absurd hrun.1 (by simp)
            | ok my =>
              simp only [Prod.mk.injEq, Except.ok.injEq] at hrun
              obtain ⟨h1, h2⟩ := hrun
              subst h1 h2
              exact split_links cfg s s1 s2 h off idx key value res my _ _ henv hown hidx post
                link hd hloc hroom hsp rfl rfl
        · rw [if_neg hd] at hrun
          simp only [Prod.mk.injEq, Except.ok.injEq] at hrun
          obtain ⟨h1, h2⟩ := hrun
          subst h1 h2
          exact nosplit_links cfg s s1 h off idx key value res henv hown hidx post link hd hloc

end BTree

/-! ## Blocks, bitmap and leaf chain across `erase` -/

namespace BTree

/-- The stores of `erase_leaf` leave the `next_leaf` word and the bitmap. -/
theorem erase_leaf_next (cfg : BTreeConfig) (s : Manager) (off : Nat) (key : Int)
    (henv : Env cfg s) (hok : BlockOk s off)
    (hkc : key_count s.mem off ≤ cfg.leaf_capacity) :
    next_leaf cfg (erase_leaf s off key).2.mem off = next_leaf cfg s.mem off ∧
    Bits s (erase_leaf s off key).2 [] := by
  have hge := blockOk_ge s off hok
  cases hf : find_in_leaf s.mem (get_leaf_entries off) key (key_count s.mem off) 0 with
  | none =>
    rw [erase_leaf_none s off key hf]
    exact ⟨rfl, bits_same s s (fun _ _ _ => rfl)⟩
  | some i =>
    obtain ⟨m1, m2, s1, e1, e2, e3, e4⟩ := erase_leaf_some s off key i hf
    rw [e4]
    obtain ⟨_, g2, g3, _⟩ := find_in_leaf_some s.mem (get_leaf_entries off) key _ _ _ hf
    obtain ⟨_, _, _, a4, _, _⟩ := erase_leaf_mem cfg s off i m1 m2 s1
      (blockOk_fits cfg s off henv.1 hok) (by omega) hkc henv.1.2.2.1 (by omega) e1 e2 e3
    obtain ⟨_, _, _, o4, o5⟩ := nodeFits_bounds cfg s.block_size off
      (blockOk_fits cfg s off henv.1 hok)
    have hle : get_leaf_entries off = off + 16 := rfl
    constructor
    · show rd64 s1.mem _ = rd64 s.mem _
      refine rd64_congr _ _ _ (fun x hx1 hx2 => ?_)
      rw [e3, persist_node_mem _ _ _ ⟨by omega, by omega⟩]
      show m2 x = s.mem x
      rw [e2, wr32_other _ _ _ _ (by omega), e1]
      split
      · exact write_entry_other _ _ _ _ (by rw [hle]; omega)
      · rfl
    · exact bits_same s s1 (fun x hx1 hx2 => a4 x (Or.inl (by omega)) (Or.inr hx1))

/-- Removal below a well-formed subtree keeps the leaves, their `next_leaf`
words and the bitmap. -/
theorem erase_internal_links (cfg : BTreeConfig) (key : Int) :
    ∀ (h fuel : Nat) (s : Manager) (off : Nat), Env cfg s → Owned cfg s h off →
      ∀ (found : Bool) (s' : Manager), erase_internal cfg fuel s off key = (.ok found, s') →
        (∀ x, BlockOk s x → next_leaf cfg s'.mem x = next_leaf cfg s.mem x) ∧
        Bits s s' [] ∧ leaves cfg s'.mem h off = leaves cfg s.mem h off := by
  intro h
  induction h with
  | zero =>
    intro fuel s off henv hown found s' hrun
    obtain ⟨hok, hleaf, hkc⟩ := owned_leaf cfg s off hown
    have hge := blockOk_ge s off hok
    have h0 : off ≠ 0 := by omega
    cases fuel with
    | zero =>
      unfold erase_internal at hrun
      simp only [Prod.mk.injEq] at hrun
      exact absurd hrun.1 (by simp)
    | succ f =>
      unfold erase_internal at hrun
      rw [if_neg h0, hleaf, if_pos rfl] at hrun
      simp only [Prod.mk.injEq, Except.ok.injEq] at hrun
      obtain ⟨h1, h2⟩ := hrun
      subst h1 h2
      obtain ⟨a1, _⟩ := erase_leaf_spec cfg s off key henv hok hkc
      obtain ⟨b1, b2⟩ := erase_leaf_next cfg s off key henv hok hkc
      refine ⟨fun x hx => ?_, b2, by rw [leaves_zero, leaves_zero]⟩
      by_cases c : x = off
      · rw [c]; exact b1
      · exact next_frame cfg s _ [off] x henv.1 a1 hx (fun hc => c (List.mem_singleton.mp hc))
  | succ h ih =>
    intro fuel s off henv hown found s' hrun
    obtain ⟨n1, n2, n3, n4, n5, n6, n7⟩ := owned_node cfg s h off hown
    have hge := blockOk_ge s off n4
    have h0 : off ≠ 0 := by omega
    cases fuel with
    | zero =>
      unfold erase_internal at hrun
      simp only [Prod.mk.injEq] at hrun
      exact absurd hrun.1 (by simp)
    | succ f =>
      unfold erase_internal at hrun
      rw [if_neg h0, n1] at hrun
      simp only [Bool.false_eq_true, if_false] at hrun
      have hidx : scan_keys s.mem (get_internal_keys off) key (key_count s.mem off) 0 ≤
          key_count s.mem off := by
        have := (scan_keys_spec s.mem (get_internal_keys off) key (key_count s.mem off) 0).2.1
        omega
      generalize scan_keys s.mem (get_internal_keys off) key (key_count s.mem off) 0 = idx at *
      have hchild : rd64 s.mem (get_internal_children off cfg.max_keys + 8 * idx) =
          child cfg s.mem off idx := rfl
      rw [hchild] at hrun
      have hcmem : child cfg s.mem off idx ∈ node_children cfg s.mem off :=
        (mem_node_children cfg s.mem off _).mpr ⟨idx, hidx, rfl⟩
      have hcown := owned_child cfg s h off _ hown hcmem
      obtain ⟨i1, i2, i3⟩ := ih f s (child cfg s.mem off idx) henv hcown found s' hrun
      have spec := erase_internal_spec cfg key h f s (child cfg s.mem off idx) henv hcown _ _ hrun
      simp only at spec
      obtain ⟨cfr, _, _, _⟩ := spec
      obtain ⟨_, ⟨_, _, sch, _⟩, _⟩ := siblings_frame cfg s s' h off idx henv hown hidx cfr
      refine ⟨i1, i2, ?_⟩
      have hcs := children_split cfg s.mem off idx hidx
      rw [leaves_succ_L, leaves_succ_L, sch]
      generalize hc : child cfg s.mem off idx = c at *
      generalize hcsd : node_children cfg s.mem off = cs at *
      generalize hT : cs.take idx = T at *
      generalize hD : cs.drop (idx + 1) = D at *
      rw [hcs, blocksL_append, blocksL_cons] at n6 n7
      have hTs : ∀ x ∈ T, x ∈ cs := fun x hx => by
        rw [hcs]; exact List.mem_append_left _ hx
      have hDs : ∀ x ∈ D, x ∈ cs := fun x hx => by
        rw [hcs]; exact List.mem_append_right _ (List.mem_cons_of_mem _ hx)
      have hTd : ∀ o ∈ blocksL cfg s.mem h T, BlockOk s o ∧ o ∉ blocks cfg s.mem h c := by
        intro o ho
        refine ⟨n7 o (List.mem_append_left _ ho), fun hc' => ?_⟩
        exact (List.disjoint_of_nodup_append n6) ho (List.mem_append_left _ hc')
      have hDd : ∀ o ∈ blocksL cfg s.mem h D, BlockOk s o ∧ o ∉ blocks cfg s.mem h c := by
        intro o ho
        refine ⟨n7 o (List.mem_append_right _ (List.mem_append_right _ ho)), fun hc' => ?_⟩
        exact (List.disjoint_of_nodup_append (List.nodup_append.mp n6).2.1) hc' ho
      obtain ⟨tl, _, _⟩ := leaves_frame cfg s s' _ h T henv.1 cfr (fun x hx => n3 x (hTs x hx)) hTd
      obtain ⟨dl, _, _⟩ := leaves_frame cfg s s' _ h D henv.1 cfr (fun x hx => n3 x (hDs x hx)) hDd
      rw [hcs, leavesL_append, leavesL_append, leavesL_cons, leavesL_cons, tl, dl, i3]

/-- A completed `erase`: sizes, blocks, leaves, `next_leaf` words and bitmap are
as before. -/
theorem erase_links (fuel : Nat) (t : BTree) (key : Int) (h : Nat)
    (hok : TreeOk t h) (found : Bool) (t1 : BTree) (hrun : erase fuel t key = (.ok found, t1)) :
    t1.config = t.config ∧ t1.root_offset = t.root_offset ∧
    t1.manager.block_size = t.manager.block_size ∧
    t1.manager.region_size = t.manager.region_size ∧
    blocks t.config t1.manager.mem h t.root_offset =
      blocks t.config t.manager.mem h t.root_offset ∧
    leaves t.config t1.manager.mem h t.root_offset =
      leaves t.config t.manager.mem h t.root_offset ∧
    (∀ x, BlockOk t.manager x →
      next_leaf t.config t1.manager.mem x = next_leaf t.config t.manager.mem x) ∧
    Bits t.manager t1.manager [] := by
  unfold erase at hrun
  generalize hx : erase_internal t.config fuel t.manager t.root_offset key = x at hrun
  obtain ⟨r', s'⟩ := x
  simp only [Prod.mk.injEq] at hrun
  obtain ⟨h1, h2⟩ := hrun
  subst h1 h2
  have spec := erase_internal_spec t.config key h fuel t.manager t.root_offset hok.1 hok.2 _ s' hx
  simp only at spec
  obtain ⟨fr, _, hb, _⟩ := spec
  obtain ⟨l1, l2, l3⟩ := erase_internal_links t.config key h fuel t.manager t.root_offset
    hok.1 hok.2 found s' hx
  exact ⟨rfl, rfl, fr.1, fr.2.1, hb, l3, l1, l2⟩

end BTree

/-! ## Blocks, bitmap and leaf chain across `insert` with root promotion -/

namespace BTree

/-- A completed `insert` on a well-formed tree: the blocks of the tree afterwards
are the blocks before and the newly allocated ones, no other bit of the bitmap
was set, and one leaf is relinked to the new leaves. -/
theorem insert_links (fuel : Nat) (t : BTree) (key value : Int) (h : Nat) (hk : isInt32 key)
    (hv : isInt32 value) (hok : TreeOk t h) (t1 : BTree)
    (hrun : insert fuel t key value = (.ok (), t1)) :
    t1.config = t.config ∧
    t1.manager.block_size = t.manager.block_size ∧
    t1.manager.region_size = t.manager.region_size ∧
    ∃ h' nb, Shape t.config t1.manager.mem h' t1.root_offset ∧
      (blocks t.config t1.manager.mem h' t1.root_offset).Perm
        (nb ++ blocks t.config t.manager.mem h t.root_offset) ∧
      Bits t.manager t1.manager nb ∧
      Relink t.config t.manager.mem t1.manager.mem
        (leaves t.config t.manager.mem h t.root_offset)
        (leaves t.config t1.manager.mem h' t1.root_offset)
        (Fresh t.config t.manager.mem h t.root_offset key) := by
  obtain ⟨henv, hown⟩ := hok
  unfold insert at hrun
  generalize hrec : insert_internal t.config fuel t.manager t.root_offset key value = rec at hrun
  obtain ⟨rr, s1⟩ := rec
  have spec := insert_internal_spec t.config key value hk hv h fuel t.manager t.root_offset
    henv hown rr s1 hrec
  have hrootok : BlockOk t.manager t.root_offset := hown.2.2 _ (mem_blocks_self _ _ _ _)
  cases rr with
  | error e =>
    simp only [Prod.mk.injEq] at hrun
    exact absurd hrun.1 (by simp)
  | ok res =>
    have link := insert_internal_links t.config key value hk hv h fuel t.manager t.root_offset
      henv hown res s1 hrec
    simp only at hrun spec
    have hsk := spec.2.1
    obtain ⟨fr, _, psh, pnd, pbk, pct, pord⟩ := spec
    obtain ⟨⟨nb, gperm, gbits⟩, rel⟩ := link
    have henv1 : Env t.config s1 := fr.env henv
    by_cases hd : res.did_split = true
    · rw [if_pos hd] at hrun
      rw [res_roots_true _ res hd] at psh pnd pbk pct gperm rel
      generalize ha : s1.alloc_block = a at hrun
      obtain ⟨ra, s2⟩ := a
      cases ra with
      | error e =>
        simp only [Prod.mk.injEq] at hrun
        exact absurd hrun.1 (by simp)
      | ok nr =>
        have hbs := fits_block_size t.config s1.block_size henv1.1
        obtain ⟨fa, oka, nota, mema⟩ := alloc_frame s1 s2 nr ha henv1.2.2.2 (by omega)
        have hge := blockOk_ge s2 nr oka
        have hn0 : nr ≠ 0 := by omega
        simp only [hn0, if_false, Prod.mk.injEq, true_and] at hrun
        subst hrun
        have henv2 : Env t.config s2 := fa.env henv1
        have hnlt : res.new_child_offset < 18446744073709551616 := by
          have hm : res.new_child_offset ∈ blocksL t.config s1.mem h
              [t.root_offset, res.new_child_offset] := by
            rw [blocksL_cons, blocksL_cons]
            exact List.mem_append_right _ (List.mem_append_left _ (mem_blocks_self _ _ _ _))
          have h1 := blockOk_lt s1 _ (pbk _ hm).1
          have h2 := henv1.2.2.1
          omega
        have hrlt : t.root_offset < 18446744073709551616 := by
          have h1 := blockOk_lt t.manager _ hrootok
          have h2 := henv.2.2.1
          omega
        obtain ⟨r1, r2, r3, r4, r5, r6⟩ := new_root_mem t.config s2 nr t.root_offset
          res.new_child_offset res.split_key _ _ _ _ _ _
          (blockOk_fits t.config s2 nr henv2.1 oka) (by omega) henv.1.1 hsk hrlt hnlt
          rfl rfl rfl rfl rfl rfl
        generalize hs3 : persist_node { s2 with mem := _ } nr = s3 at *
        have hbc12 : s2.block_count = s1.block_count := fa.block_count
        have hbs12 : s2.block_size = s1.block_size := fa.1
        have hagree : ∀ o, BlockOk s1 o → ∀ x, o ≤ x → x < o + s1.block_size →
            (Manager.set_root_offset s3 nr).mem x = s1.mem x := by
          intro o ho x hx1 hx2
          have hoge := blockOk_ge s1 o ho
          have hne : o ≠ nr := fun c => nota (c ▸ ho)
          have hsep := blockOk_sep s2 o nr (fa.blockOk o ho) oka hne
          rw [set_root_mem s3 nr x (by omega) (by omega), r4 x (by omega) (by omega),
            mema x (by omega)]
        have hbits : ∀ x, 64 ≤ x → x < 64 + 8 * ((s2.block_count + 63) / 64) →
            (Manager.set_root_offset s3 nr).mem x = s2.mem x := by
          intro x hx1 hx2
          rw [set_root_mem s3 nr x (by omega) (by omega), r4 x (by omega) (by omega)]
        have hsz1 : (Manager.set_root_offset s3 nr).block_size = s2.block_size := r5
        have hsz2 : (Manager.set_root_offset s3 nr).region_size = s2.region_size := r6
        obtain ⟨f1, f2, f3, f4⟩ := forest_congr t.config s1.block_size s1.mem
          (Manager.set_root_offset s3 nr).mem h [t.root_offset, res.new_child_offset] psh
          (fun o ho => ⟨blockOk_fits t.config s1 o henv1.1 (pbk o ho).1,
            hagree o (pbk o ho).1⟩)
        have hnode := node_view_congr t.config s2.block_size s3.mem
          (Manager.set_root_offset s3 nr).mem nr (by
            rw [← r5]; rw [r5]; exact blockOk_fits t.config s2 nr henv2.1 oka)
          (by rw [r2]; exact henv.1.1)
          (fun x hx1 hx2 => set_root_mem s3 nr x (by omega) (by omega))
        obtain ⟨v1, v2, v3, v4⟩ := hnode
        have hch : node_children t.config (Manager.set_root_offset s3 nr).mem nr =
            [t.root_offset, res.new_child_offset] := by
          rw [v3, node_children_eq_view t.config s3.mem nr 0 0, r3 0 0]
          rfl
        -- leaves of the two subtrees and their links in the final state
        have hlv : ∀ c ∈ [t.root_offset, res.new_child_offset],
            leaves t.config (Manager.set_root_offset s3 nr).mem h c =
              leaves t.config s1.mem h c ∧
            ∀ x ∈ leaves t.config s1.mem h c,
              next_leaf t.config (Manager.set_root_offset s3 nr).mem x =
                next_leaf t.config s1.mem x := by
          intro c hc
          refine leaves_congr t.config s1.block_size s1.mem _ h c (psh c hc) (fun o ho => ?_)
          have hm := (mem_blocksL _ _ _ _ _).mpr ⟨c, hc, ho⟩
          exact ⟨blockOk_fits t.config s1 o henv1.1 (pbk o hm).1, hagree o (pbk o hm).1⟩
        have hlvL : leavesL t.config (Manager.set_root_offset s3 nr).mem h
            [t.root_offset, res.new_child_offset] =
            leavesL t.config s1.mem h [t.root_offset, res.new_child_offset] :=
          leavesL_congr _ _ _ _ _ (fun c hc => (hlv c hc).1)
        have hnx : ∀ x ∈ leavesL t.config s1.mem h [t.root_offset, res.new_child_offset],
            next_leaf t.config (Manager.set_root_offset s3 nr).mem x =
              next_leaf t.config s1.mem x := by
          intro x hx
          obtain ⟨c, hc, hxc⟩ := (mem_leavesL _ _ _ _ _).mp hx
          exact (hlv c hc).2 x hxc
        have hb12 : Bits s1 s2 [nr] :=
          bits_alloc_writes s1 s2 s2 nr nr ha (by rw [← hbc12]; exact hge) hge
            (fun _ _ _ _ => rfl)
        have hb23 : Bits s2 (Manager.set_root_offset s3 nr) [] := bits_same s2 _ hbits
        have hb13 : Bits s1 (Manager.set_root_offset s3 nr) [nr] := by
          have := bits_trans s1 s2 _ _ _ fa.1 fa.2.1 hb12 hb23
          rw [List.append_nil] at this
          exact this
        refine ⟨rfl, ?_, ?_, h + 1, nb ++ [nr], ?_, ?_, ?_, ?_⟩
        · show (Manager.set_root_offset s3 nr).block_size = t.manager.block_size
          rw [hsz1, hbs12, fr.1]
        · show (Manager.set_root_offset s3 nr).region_size = t.manager.region_size
          rw [hsz2, fa.2.1, fr.2.1]
        · show Shape t.config (Manager.set_root_offset s3 nr).mem (h + 1) nr
          rw [shape_succ_L, v1, v2, r1, r2, hch]
          exact ⟨rfl, henv.1.1, f1⟩
        · show (blocks t.config (Manager.set_root_offset s3 nr).mem (h + 1) nr).Perm _
          rw [blocks_succ_L, hch, f2]
          refine perm_of_count (fun a => ?_)
          have e1 := gperm.count_eq a
          simp only [List.count_append, List.count_cons, List.count_nil] at e1 ⊢
          omega
        · exact bits_trans t.manager s1 _ _ _ fr.1 fr.2.1 gbits hb13
        · show Relink t.config t.manager.mem (Manager.set_root_offset s3 nr).mem _
            (leaves t.config (Manager.set_root_offset s3 nr).mem (h + 1) nr) _
          rw [leaves_succ_L t.config (Manager.set_root_offset s3 nr).mem, hch, hlvL]
          exact relink_carry t.config t.manager.mem s1.mem _ _ _ _ rel hnx
    · rw [if_neg hd] at hrun
      simp only [Prod.mk.injEq, true_and] at hrun
      subst hrun
      rw [res_roots_nosplit _ res hd] at psh gperm rel
      rw [blocksL_single] at gperm
      rw [leavesL_single] at rel
      exact ⟨rfl, fr.1, fr.2.1, h, nb, psh _ (List.mem_singleton.mpr rfl), gperm, gbits, rel⟩

end BTree

/-! ## Invariants of histories: live blocks and the leaf chain -/

namespace BTree

/-- The constructor on a manager without a root: the root leaf is the one block
it allocates, and its `next_leaf` is null. -/
theorem new_links (s0 : Manager) (cfg : BTreeConfig) (hroot : s0.get_root_offset = 0)
    (henv : Env cfg s0) (t : BTree) (s' : Manager) (hrun : BTree.new s0 cfg = (.ok t, s')) :
    t.manager.block_size = s0.block_size ∧ t.manager.region_size = s0.region_size ∧
    next_leaf cfg t.manager.mem t.root_offset = 0 ∧ Bits s0 t.manager [t.root_offset] := by
  unfold BTree.new at hrun
  rw [if_pos hroot] at hrun
  generalize ha : s0.alloc_block = a at hrun
  obtain ⟨ra, s1⟩ := a
  cases ra with
  | error e =>
    simp only [Prod.mk.injEq] at hrun
    exact absurd hrun.1 (by simp)
  | ok root =>
    have hbs := fits_block_size cfg s0.block_size henv.1
    obtain ⟨fa, oka, nota, mema⟩ := alloc_frame s0 s1 root ha henv.2.2.2 (by omega)
    have hge := blockOk_ge s1 root oka
    have hn0 : root ≠ 0 := by omega
    have henv1 : Env cfg s1 := fa.env henv
    have hfit := blockOk_fits cfg s1 root henv1.1 oka
    obtain ⟨f1, _, _, f4, f5⟩ := nodeFits_bounds cfg s1.block_size root hfit
    simp only [hn0, if_false, Prod.mk.injEq, Except.ok.injEq] at hrun
    obtain ⟨h1, h2⟩ := hrun
    subst h1 h2
    generalize hnx : get_leaf_next root cfg.leaf_capacity = nx at *
    have hnext : ∀ m6 : Mem, rd64 m6 nx = 0 →
        rd64 (Manager.set_root_offset (persist_node { s1 with mem := m6 } root) root).mem nx
          = 0 := by
      intro m6 h6
      rw [rd64_congr _ m6 nx (fun x hx1 hx2 => by
        rw [set_root_mem _ _ x (by omega) (by omega),
          persist_node_mem _ _ _ ⟨by omega, by omega⟩]), h6]
    have hnext' := hnext _ (rd64_wr64_same (wr32 (wr32 (wr32 (wr32 (wr8 s1.mem root 1)
      (root + 4) 0) OFF_MAX_KEYS cfg.max_keys) OFF_MIN_KEYS cfg.min_keys) OFF_LEAF_CAPACITY
      cfg.leaf_capacity) nx 0)
    clear hnext
    obtain ⟨hfar, _, _, hs2⟩ := new_mem cfg s1 root nx _ _ (by omega) f4 f5 rfl rfl
    generalize Manager.set_root_offset (persist_node { s1 with mem := _ } root) root = s2 at *
    have hbits : ∀ x, 64 ≤ x → x < 64 + 8 * ((s1.block_count + 63) / 64) → s2.mem x = s1.mem x :=
      fun x hx1 hx2 => hfar x (by omega) hx1
    have hb01 : Bits s0 s1 [root] :=
      bits_alloc_writes s0 s1 s1 root root ha (by rw [← fa.block_count]; exact hge) hge
        (fun _ _ _ _ => rfl)
    have hb02 := bits_trans s0 s1 s2 _ _ fa.1 fa.2.1 hb01 (bits_same s1 s2 hbits)
    rw [List.append_nil] at hb02
    refine ⟨by show s2.block_size = _; rw [hs2.1, fa.1],
      by show s2.region_size = _; rw [hs2.2.1, fa.2.1], ?_, hb02⟩
    show rd64 s2.mem (get_leaf_next root cfg.leaf_capacity) = 0
    rw [hnx]
    exact hnext'

/-- Closure of the leaves under `next_leaf` after a relinking. -/
theorem links_of_relink (cfg : BTreeConfig) (m m1 : Mem) (L L1 : List Nat) (ord : Prop)
    (hL : ∀ l ∈ L, next_leaf cfg m l = 0 ∨ next_leaf cfg m l ∈ L)
    (rel : Relink cfg m m1 L L1 ord) :
    ∀ l ∈ L1, next_leaf cfg m1 l = 0 ∨ next_leaf cfg m1 l ∈ L1 := by
  obtain ⟨l0, news, h1, h2, h3, h4, _⟩ := rel
  have hin : ∀ x, x ∈ news ++ L → x ∈ L1 := fun x hx => h4.symm.subset hx
  have hend : next_leaf cfg m l0 = 0 ∨ next_leaf cfg m l0 ∈ L1 := by
    rcases hL l0 h1 with c | c
    · exact Or.inl c
    · exact Or.inr (hin _ (List.mem_append_right _ c))
  have hch : ∀ y ∈ l0 :: news, next_leaf cfg m1 y = 0 ∨ next_leaf cfg m1 y ∈ L1 := by
    intro y hy
    rcases chain_next_mem cfg m1 _ _ h3 y hy with c | c
    · refine Or.inr (hin _ ?_)
      rcases List.mem_cons.mp c with d | d
      · rw [d]; exact List.mem_append_right _ h1
      · exact List.mem_append_left _ d
    · rw [c]; exact hend
  intro x hx
  rcases List.mem_append.mp (h4.subset hx) with c | c
  · exact hch x (List.mem_cons_of_mem _ c)
  · by_cases hxl : x = l0
    · rw [hxl]; exact hch l0 (List.mem_cons_self _ _)
    · rw [h2 x c hxl]
      rcases hL x c with d | d
      · exact Or.inl d
      · exact Or.inr (hin _ (List.mem_append_right _ d))

/-- The chain through the leaves in order after a relinking in order. -/
theorem chain_of_relink (cfg : BTreeConfig) (m m1 : Mem) (L L1 : List Nat) (ord : Prop)
    (hc : Chain cfg m L 0) (hnd : L.Nodup) (rel : Relink cfg m m1 L L1 ord) (ho : ord) :
    Chain cfg m1 L1 0 := by
  obtain ⟨l0, news, _, h2, h3, _, h5⟩ := rel
  obtain ⟨pre, post, e1, e2⟩ := h5 ho
  rw [e2]
  rw [e1] at hc hnd h2
  exact chain_relink cfg m m1 0 l0 pre post news hnd hc h2 h3

theorem leaves_nodup (cfg : BTreeConfig) (s : Manager) (h off : Nat) (hown : Owned cfg s h off) :
    (leaves cfg s.mem h off).Nodup :=
  (leaves_sublist cfg s.mem h off).nodup hown.2.1

/-- Invariant of histories on a freshly created region: the set bits of the
bitmap are the reserved blocks and the blocks of the tree, the leaves are closed
under `next_leaf`, and a strict history keeps the tree ordered and the leaves
chained left to right. -/
theorem hist_links (strict : Bool) (cfg : BTreeConfig) (rs bs : Nat) (hfit : fits cfg bs)
    (hlc : 2 ≤ cfg.leaf_capacity) (hrs : rs < 18446744073709551616) :
    ∀ (n : Nat) (t : BTree), Hist strict cfg rs bs n t →
      t.config = cfg ∧ t.manager.block_size = bs ∧ t.manager.region_size = rs ∧
      ∃ h, TreeOk t h ∧ Links t h (Manager.reserved_blocks rs bs) ∧
        (strict = true → TreeOrd t h ∧
          Chain t.config t.manager.mem (leaves t.config t.manager.mem h t.root_offset) 0) := by
  intro n t hist
  induction hist with
  | construct file t s hnew =>
    obtain ⟨c1, c2, c3, _, _⟩ := construct_spec cfg file rs bs t s hfit hlc hrs hnew
    have hbs := fits_block_size cfg bs hfit
    obtain ⟨d1, d2, d3, d4⟩ := Manager.create_facts file rs bs (by omega)
    have henv : Env cfg (Manager.create file rs bs) :=
      ⟨by rw [d1]; exact hfit, hlc, by rw [d2]; exact hrs, d4⟩
    obtain ⟨e1, e2, e3, e4⟩ := new_links (Manager.create file rs bs) cfg d3 henv t s hnew
    have hbc0 : (Manager.create file rs bs).block_count = rs / bs := rfl
    have hbc : t.manager.block_count = rs / bs := by
      unfold Manager.block_count
      rw [e1, e2, d1, d2]
    have hch : Chain t.config t.manager.mem (leaves t.config t.manager.mem 0 t.root_offset) 0 := by
      rw [leaves_zero, chain_cons, chain_nil, c1]
      exact ⟨e3, trivial⟩
    refine ⟨c1, by rw [e1, d1], by rw [e2, d2], 0, c2, ⟨?_, ?_⟩, fun _ => ⟨c3, hch⟩⟩
    · intro b hb hbit
      rw [hbc] at hb
      rcases e4 b (by rw [hbc0]; exact hb) hbit with c | c
      · rw [Manager.create_bit file rs bs b (by
          unfold calculate_bitmap_words
          generalize rs / bs = q at hb
          omega)] at c
        exact Or.inl (of_decide_eq_true c)
      · rw [blocks_zero, e1, d1]
        exact Or.inr c
    · intro l hl
      rw [leaves_zero, List.mem_singleton] at hl
      rw [hl, c1, e3]
      exact Or.inl rfl
  | insert n fuel sfuel t t1 key value _ hk hv hs hins ih =>
    obtain ⟨i1, i2, i3, h, i4, ⟨i5, i6⟩, i7⟩ := ih
    have spec := insert_spec fuel t key value h hk hv i4 _ _ hins
    simp only at spec
    obtain ⟨s1, h'', _, _, s4, _, _, s7⟩ := spec
    obtain ⟨l1, l2, l3, h', nb, lsh, lperm, lbits, lrel⟩ :=
      insert_links fuel t key value h hk hv i4 t1 hins
    have hh : h'' = h' := by
      have := s4.2.1
      rw [l1] at this
      exact shape_height t.config t1.manager.mem h'' h' t1.root_offset this lsh
    subst hh
    have hbc : t1.manager.block_count = t.manager.block_count := by
      unfold Manager.block_count
      rw [l2, l3]
    refine ⟨by rw [l1, i1], by rw [l2, i2], by rw [l3, i3], h'', s4, ⟨?_, ?_⟩, fun hst => ?_⟩
    · intro b hb hbit
      rw [l1, l2]
      rw [hbc] at hb
      rcases lbits b hb hbit with c | c
      · rcases i5 b hb c with d | d
        · exact Or.inl d
        · exact Or.inr (lperm.symm.subset (List.mem_append_right _ d))
      · exact Or.inr (lperm.symm.subset (List.mem_append_left _ c))
    · rw [l1]
      exact links_of_relink t.config t.manager.mem t1.manager.mem _ _ _ i6 lrel
    · obtain ⟨o1, o2⟩ := i7 hst
      have hnk := not_present t h sfuel key i4 o1 hk (hs hst)
      refine ⟨s7 o1 hnk, ?_⟩
      rw [l1]
      exact chain_of_relink t.config t.manager.mem t1.manager.mem _ _ _ o2
        (leaves_nodup t.config t.manager h t.root_offset i4.2) lrel
        ⟨_, _, o1, hk.1, hk.2, hnk⟩
  | erase n fuel t t1 key found _ hk her ih =>
    obtain ⟨i1, i2, i3, h, i4, ⟨i5, i6⟩, i7⟩ := ih
    have spec := erase_spec fuel t key h hk i4 _ _ her
    simp only at spec
    obtain ⟨s1, _, s3, _, s5⟩ := spec
    obtain ⟨e1, e2, e3, e4, e5, e6, e7, e8⟩ := erase_links fuel t key h i4 found t1 her
    have hbc : t1.manager.block_count = t.manager.block_count := by
      unfold Manager.block_count
      rw [e3, e4]
    have hnx : ∀ x ∈ leaves t.config t.manager.mem h t.root_offset,
        next_leaf t.config t1.manager.mem x = next_leaf t.config t.manager.mem x :=
      fun x hx => e7 x (i4.2.2.2 x (mem_leaves_blocks _ _ _ _ x hx))
    refine ⟨by rw [e1, i1], by rw [e3, i2], by rw [e4, i3], h, s3, ⟨?_, ?_⟩, fun hst => ?_⟩
    · intro b hb hbit
      rw [e1, e2, e3, e5]
      rw [hbc] at hb
      rcases e8 b hb hbit with c | c
      · exact i5 b hb c
      · exact absurd c (List.not_mem_nil _)
    · rw [e1, e2, e6]
      intro l hl
      rw [hnx l hl]
      exact i6 l hl
    · obtain ⟨o1, o2⟩ := i7 hst
      refine ⟨(s5 o1).1, ?_⟩
      rw [e1, e2, e6]
      exact chain_congr t.config t.manager.mem t1.manager.mem 0 _ hnx o2

end BTree

/-! ## Reachable offsets, leaf order and the walk along the chain -/

namespace BTree

/-- Every node of a subtree below a reachable node is reachable. -/
theorem blocks_reaches (cfg : BTreeConfig) (m : Mem) (root : Nat) :
    ∀ (h off : Nat), Shape cfg m h off → Reaches cfg m root off →
      ∀ o ∈ blocks cfg m h off, Reaches cfg m root o := by
  intro h
  induction h with
  | zero =>
    intro off _ hr o ho
    rw [blocks_zero, List.mem_singleton] at ho
    rw [ho]; exact hr
  | succ h ih =>
    intro off hs hr o ho
    rw [shape_succ] at hs
    rw [blocks_succ_L] at ho
    rcases List.mem_cons.mp ho with c | c
    · rw [c]; exact hr
    · obtain ⟨x, hx1, hx2⟩ := (mem_blocksL _ _ _ _ _).mp c
      obtain ⟨i, hi, hxi⟩ := (mem_node_children cfg m off x).mp hx1
      refine ih x (hs.2.2 x hx1) ?_ o hx2
      rw [hxi]
      exact Reaches.step off i hr hs.1 hi

/-- The leaves of a tree are the reachable nodes with the leaf flag. -/
theorem leaves_iff_reaches (cfg : BTreeConfig) (m : Mem) (h root : Nat)
    (hs : Shape cfg m h root) (o : Nat) :
    o ∈ leaves cfg m h root ↔ Reaches cfg m root o ∧ is_leaf m o = true := by
  rw [mem_leaves_iff cfg m h root o hs]
  constructor
  · rintro ⟨h1, h2⟩
    exact ⟨blocks_reaches cfg m root h root hs Reaches.base o h1, h2⟩
  · rintro ⟨h1, h2⟩
    exact ⟨reaches_mem cfg m h root hs o h1, h2⟩

/-- In routing order the keys of a leaf are smaller than the keys of every
leaf to its right. -/
theorem leaves_sorted (cfg : BTreeConfig) (m : Mem) :
    ∀ (h off : Nat) (lo hi : Int), Ord cfg m h off lo hi →
      (∀ l ∈ leaves cfg m h off, ∀ e ∈ leaf_entries m l, lo ≤ e.key ∧ e.key < hi) ∧
      (leaves cfg m h off).Pairwise
        (fun a b => ∀ e ∈ leaf_entries m a, ∀ e' ∈ leaf_entries m b, e.key < e'.key) := by
  intro h
  induction h with
  | zero =>
    intro off lo hi ho
    rw [ord_zero] at ho
    rw [leaves_zero]
    refine ⟨fun l hl e he => ?_, List.pairwise_singleton _ _⟩
    rw [List.mem_singleton] at hl
    rw [hl] at he
    exact ho.2 e he
  | succ h ih =>
    intro off lo hi ho
    have hview : ∀ i, i ≤ key_count m off →
        Ord cfg m h (child cfg m off i) (lower_bound m off lo i) (upper_bound m off hi i) := by
      intro i hi'
      have ho' := ho
      rw [ord_succ] at ho'
      exact (ho' _ ((mem_node_view cfg m off lo hi _).mpr ⟨i, hi', rfl⟩)).2
    have hks := keys_sorted cfg m h off lo hi ho
    have hmem : ∀ l, l ∈ leaves cfg m (h + 1) off →
        ∃ i, i ≤ key_count m off ∧ l ∈ leaves cfg m h (child cfg m off i) := by
      intro l hl
      rw [leaves_succ_L] at hl
      obtain ⟨c, hc, hlc⟩ := (mem_leavesL _ _ _ _ _).mp hl
      obtain ⟨i, hi', hci⟩ := (mem_node_children cfg m off c).mp hc
      exact ⟨i, hi', hci ▸ hlc⟩
    constructor
    · intro l hl e he
      obtain ⟨i, hi', hli⟩ := hmem l hl
      obtain ⟨b1, b2, b3⟩ := view_bounds cfg m h off lo hi ho i hi'
      have := (ih _ _ _ (hview i hi')).1 l hli e he
      omega
    · show (((node_children cfg m off).map (leaves cfg m h)).flatten).Pairwise _
      rw [List.pairwise_flatten]
      constructor
      · intro ls hls
        obtain ⟨c, hc, hcl⟩ := List.mem_map.mp hls
        obtain ⟨i, hi', hci⟩ := (mem_node_children cfg m off c).mp hc
        rw [← hcl, hci]
        exact (ih _ _ _ (hview i hi')).2
      · unfold node_children
        rw [List.map_map, List.pairwise_map]
        refine List.Pairwise.imp_of_mem ?_ (List.pairwise_lt_range (key_count m off + 1))
        intro i j hi' hj hij x hx y hy e he e' he'
        rw [List.mem_range] at hi' hj
        have h1 := (ih _ _ _ (hview i (by omega))).1 x hx e he
        have h2 := (ih _ _ _ (hview j (by omega))).1 y hy e' he'
        have h3 := hks (j - 1 - i) i (by omega)
        have e1 : upper_bound m off hi i = rdI32 m (get_internal_keys off + 4 * i) := by
          unfold upper_bound
          rw [if_pos (by omega)]
        have e2 : lower_bound m off lo j = rdI32 m (get_internal_keys off + 4 * (j - 1)) := by
          unfold lower_bound
          rw [if_neg (by omega)]
        have e3 : i + (j - 1 - i) = j - 1 := by omega
        rw [e3] at h3
        rw [e1] at h1
        rw [e2] at h2
        omega

theorem chain_last (cfg : BTreeConfig) (m : Mem) (e : Nat) :
    ∀ (ls : List Nat) (l : Nat), Chain cfg m ls e → ls.getLast? = some l →
      next_leaf cfg m l = e := by
  intro ls
  induction ls with
  | nil => intro l _ hl; simp at hl
  | cons a ls ih =>
    intro l hc hl
    rw [chain_cons] at hc
    cases ls with
    | nil =>
      simp at hl
      rw [← hl]
      exact hc.1
    | cons b ls' =>
      rw [List.getLast?_cons_cons] at hl
      exact ih l hc.2 hl

end BTree

namespace GarbageCollector

open BTree

/-- On a well-formed tree whose leaves are closed under `next_leaf`, the
offsets the collector follows are the nodes of the tree. -/
theorem linked_iff_blocks (t : BTree) (h r : Nat) (hok : TreeOk t h) (hl : Links t h r) (o : Nat) :
    Linked t.manager.mem t.manager.block_size t.manager.block_count t.config.max_keys
      t.config.leaf_capacity t.root_offset o ↔
    o ∈ blocks t.config t.manager.mem h t.root_offset := by
  obtain ⟨henv, hsh, hnd, hbk⟩ := hok
  have hbs := fits_block_size t.config t.manager.block_size henv.1
  constructor
  · intro hlk
    induction hlk with
    | root _ => exact mem_blocks_self _ _ _ _
    | next o _ _ hleaf hne ih =>
      have hmem := (mem_leaves_iff t.config t.manager.mem h t.root_offset o hsh).mpr ⟨ih, hleaf⟩
      rcases hl.2 o hmem with c | c
      · exact absurd c hne
      · exact mem_leaves_blocks _ _ _ _ _ c
    | child o i _ _ hleaf hi _ ih =>
      obtain ⟨h', _, a2, a3, _⟩ := subtree_of_mem t.config t.manager.mem h t.root_offset o hsh ih
      cases h' with
      | zero =>
        rw [shape_zero] at a2
        rw [a2.1] at hleaf
        exact absurd hleaf (by simp)
      | succ k =>
        refine a3 _ (mem_blocks_child _ _ _ _ _ _ ?_ (mem_blocks_self _ _ _ _))
        exact (mem_node_children _ _ _ _).mpr ⟨i, hi, rfl⟩
  · have key : ∀ (k off : Nat), Shape t.config t.manager.mem k off →
        (∀ x ∈ blocks t.config t.manager.mem k off, BlockOk t.manager x) →
        Linked t.manager.mem t.manager.block_size t.manager.block_count t.config.max_keys
          t.config.leaf_capacity t.root_offset off →
        ∀ x ∈ blocks t.config t.manager.mem k off,
          Linked t.manager.mem t.manager.block_size t.manager.block_count t.config.max_keys
            t.config.leaf_capacity t.root_offset x := by
      intro k
      induction k with
      | zero =>
        intro off _ _ hlk x hx
        rw [blocks_zero, List.mem_singleton] at hx
        rw [hx]; exact hlk
      | succ k ih =>
        intro off hs hb hlk x hx
        rw [shape_succ] at hs
        rw [blocks_succ_L] at hx
        rcases List.mem_cons.mp hx with c | c
        · rw [c]; exact hlk
        · obtain ⟨y, hy1, hy2⟩ := (mem_blocksL _ _ _ _ _).mp c
          obtain ⟨i, hi, hyi⟩ := (mem_node_children _ _ _ _).mp hy1
          have hyb : ∀ z ∈ blocks t.config t.manager.mem k y, BlockOk t.manager z :=
            fun z hz => hb z (mem_blocks_child _ _ _ _ _ _ hy1 hz)
          have hyge := blockOk_ge t.manager y (hyb y (mem_blocks_self _ _ _ _))
          obtain ⟨b, hb1, hb2, _, _⟩ := hb off (mem_blocks_self _ _ _ _)
          refine ih y (hs.2.2 y hy1) hyb ?_ x hy2
          rw [hyi]
          refine Linked.child off i hlk ?_ hs.1 hi ?_
          · rw [hb1, Nat.mul_div_cancel _ (by omega)]
            exact hb2
          · rw [hyi] at hyge
            show child t.config t.manager.mem off i ≠ 0
            omega
    have hroot := blockOk_ge t.manager _ (hbk _ (mem_blocks_self _ _ _ _))
    exact key h t.root_offset hsh hbk (Linked.root (by omega)) o

/-- On a well-formed tree that accounts for every set bit, the allocated
blocks are the reserved blocks and the nodes of the tree. -/
theorem bit_iff_blocks (t : BTree) (h : Nat) (hok : TreeOk t h)
    (hl : Links t h (Manager.reserved_blocks t.manager.region_size t.manager.block_size))
    (b : Nat) (hb : b < t.manager.block_count) :
    t.manager.block_bit b = true ↔
      (b < Manager.reserved_blocks t.manager.region_size t.manager.block_size ∨
        b * t.manager.block_size ∈ blocks t.config t.manager.mem h t.root_offset) := by
  obtain ⟨henv, hsh, hnd, hbk⟩ := hok
  have hbs := fits_block_size t.config t.manager.block_size henv.1
  constructor
  · exact hl.1 b hb
  · rintro (c | c)
    · refine henv.2.2.2 b hb ?_
      unfold Manager.reserved_blocks BITMAP_OFFSET METADATA_SIZE align_to_8
        calculate_bitmap_words at c
      have hc : (b + 1) * t.manager.block_size ≤
          64 / 8 * 8 + (t.manager.region_size / t.manager.block_size + 63) / 64 * 8 +
            t.manager.block_size - 1 := (Nat.le_div_iff_mul_le (by omega)).mp c
      have e : t.manager.block_count = t.manager.region_size / t.manager.block_size := rfl
      rw [e]
      generalize t.manager.region_size / t.manager.block_size = q at *
      rw [Nat.add_mul] at hc
      generalize b * t.manager.block_size = x at *
      omega
    · obtain ⟨b', h1, _, h3, _⟩ := hbk _ c
      have : b = b' := Nat.eq_of_mul_eq_mul_right (by omega) h1
      rw [this]; exact h3

end GarbageCollector

/-! ## What the readers load -/

namespace BTree

theorem reaches_trans (cfg : BTreeConfig) (m : Mem) (a b : Nat) (hab : Reaches cfg m a b) :
    ∀ c, Reaches cfg m b c → Reaches cfg m a c := by
  intro c hbc
  induction hbc with
  | base => exact hab
  | step o i _ hl hi ih => exact Reaches.step o i ih hl hi

theorem scan_keys_congr (m m1 : Mem) (keys : Nat) (key : Int) :
    ∀ (n i : Nat), (∀ j, i ≤ j → j < i + n → rdI32 m1 (keys + 4 * j) = rdI32 m (keys + 4 * j)) →
      scan_keys m1 keys key n i = scan_keys m keys key n i := by
  intro n
  induction n with
  | zero => intro i _; rfl
  | succ n ih =>
    intro i h
    unfold scan_keys
    rw [h i (le_refl _) (by omega), ih (i + 1) (fun j h1 h2 => h j (by omega) (by omega))]

theorem find_in_leaf_list (m : Mem) (p : Nat) (key : Int) :
    ∀ (n i : Nat),
      (match find_in_leaf m p key n i with
        | some j => some (rdI32 m (p + 8 * j + 4))
        | none => none) =
      lookup_list ((List.range' i n).map (fun j => read_entry m (p + 8 * j))) key := by
  intro n
  induction n with
  | zero => intro i; simp [find_in_leaf, lookup_list]
  | succ n ih =>
    intro i
    unfold find_in_leaf
    rw [List.range'_succ, List.map_cons]
    unfold lookup_list
    rw [List.find?_cons]
    by_cases hk : rdI32 m (p + 8 * i) = key
    · have : (read_entry m (p + 8 * i)).key = key := hk
      simp only [hk, if_true, this, decide_True, Option.map_some']
      rfl
    · have : ¬ (read_entry m (p + 8 * i)).key = key := hk
      simp only [hk, if_false, this, decide_False]
      exact ih (i + 1)

theorem leaf_lookup_eq (m : Mem) (o : Nat) (key : Int) :
    leaf_lookup m o key = lookup_list (leaf_entries m o) key := by
  unfold leaf_lookup leaf_entries
  rw [List.range_eq_range']
  exact find_in_leaf_list m (get_leaf_entries o) key (key_count m o) 0

/-- The first match of the leaf scan, by its properties. -/
theorem find_in_leaf_eq (m : Mem) (p : Nat) (key : Int) (n i : Nat) (hi : i < n)
    (hk : rdI32 m (p + 8 * i) = key) (hf : ∀ j, j < i → rdI32 m (p + 8 * j) ≠ key) :
    find_in_leaf m p key n 0 = some i := by
  cases h : find_in_leaf m p key n 0 with
  | none => exact absurd hk (find_in_leaf_none m p key n 0 h i (Nat.zero_le _) (by omega))
  | some j =>
    have := find_in_leaf_some m p key n 0 j h
    have h1 : ¬ j < i := fun hlt => hf j hlt this.2.2.1
    have h2 : ¬ i < j := fun hlt => this.2.2.2 i (Nat.zero_le _) hlt hk
    congr 1
    omega

theorem lookup_append_mem (es : List LeafEntry) (e : LeafEntry) (key : Int) (he : e ∈ es) :
    lookup_list (es ++ [e]) key = lookup_list es key := by
  unfold lookup_list
  rw [List.find?_append]
  by_cases hp : e.key = key
  · have : (es.find? (fun e => decide (e.key = key))).isSome = true := by
      rw [List.find?_isSome]
      exact ⟨e, he, by simpa using hp⟩
    cases hq : es.find? (fun e => decide (e.key = key)) with
    | none => rw [hq] at this; cases this
    | some x => rfl
  · have : [e].find? (fun e => decide (e.key = key)) = none := by
      simp [List.find?_cons, hp]
    rw [this]
    simp

theorem lookup_append_key (es : List LeafEntry) (e : LeafEntry) (key : Int) (v : Int)
    (he : lookup_list es e.key = some v) :
    lookup_list (es ++ [e]) key = lookup_list es key := by
  unfold lookup_list at he ⊢
  rw [List.find?_append]
  by_cases hp : e.key = key
  · subst hp
    cases hq : es.find? (fun x => decide (x.key = e.key)) with
    | none => rw [hq] at he; cases he
    | some x => rfl
  · have : [e].find? (fun e => decide (e.key = key)) = none := by
      simp [List.find?_cons, hp]
    rw [this]
    simp

theorem search_leaf (cfg : BTreeConfig) (m : Mem) (fuel off : Nat) (key : Int)
    (h0 : off ≠ 0) (hl : is_leaf m off = true) :
    search_internal cfg m (fuel + 1) off key = .ok (leaf_lookup m off key) := by
  unfold search_internal leaf_lookup
  rw [if_neg h0, if_pos hl]
  cases find_in_leaf m (get_leaf_entries off) key (key_count m off) 0 <;> rfl

theorem search_node (cfg : BTreeConfig) (m : Mem) (fuel off : Nat) (key : Int)
    (h0 : off ≠ 0) (hl : is_leaf m off = false) :
    search_internal cfg m (fuel + 1) off key =
      search_internal cfg m fuel
        (child cfg m off (scan_keys m (get_internal_keys off) key (key_count m off) 0)) key := by
  conv => lhs; unfold search_internal
  rw [if_neg h0, hl]
  rfl

theorem find_leaf_node (cfg : BTreeConfig) (m : Mem) (fuel off : Nat) (key : Int)
    (h0 : off ≠ 0) (hl : is_leaf m off = false) :
    find_leaf cfg m key (fuel + 1) off =
      find_leaf cfg m key fuel
        (child cfg m off (scan_keys m (get_internal_keys off) key (key_count m off) 0)) := by
  conv => lhs; unfold find_leaf
  rw [if_neg h0, hl]
  rfl

theorem find_leaf_stop (cfg : BTreeConfig) (m : Mem) (fuel off : Nat) (key : Int)
    (h : off = 0 ∨ is_leaf m off = true) : find_leaf cfg m key fuel off = off := by
  cases fuel with
  | zero => rfl
  | succ f =>
    unfold find_leaf
    rcases h with h | h
    · rw [if_pos h]
    · by_cases h0 : off = 0
      · rw [if_pos h0]
      · rw [if_neg h0, if_pos h]

/-- The answer of `search_internal` is the answer of the leaf scan at the end of
the descent. -/
theorem search_descent (cfg : BTreeConfig) (m : Mem) (key : Int) :
    ∀ (fuel off : Nat),
      search_internal cfg m (fuel + 1) off key =
        if find_leaf cfg m key fuel off = 0 then .ok none
        else if is_leaf m (find_leaf cfg m key fuel off) then
          .ok (leaf_lookup m (find_leaf cfg m key fuel off) key)
        else .error .out_of_fuel := by
  intro fuel
  induction fuel with
  | zero =>
    intro off
    by_cases h0 : off = 0
    · subst h0; unfold search_internal find_leaf; simp
    · cases hl : is_leaf m off with
      | true =>
        rw [search_leaf cfg m 0 off key h0 hl]
        unfold find_leaf
        rw [if_neg h0, hl]; rfl
      | false =>
        rw [search_node cfg m 0 off key h0 hl]
        unfold find_leaf search_internal
        rw [if_neg h0, hl]; rfl
  | succ f ih =>
    intro off
    by_cases h0 : off = 0
    · subst h0
      rw [find_leaf_stop cfg m _ 0 key (Or.inl rfl)]
      unfold search_internal; simp
    · cases hl : is_leaf m off with
      | true =>
        rw [search_leaf cfg m _ off key h0 hl, find_leaf_stop cfg m _ off key (Or.inr hl),
          if_neg h0, hl]
        rfl
      | false =>
        rw [search_node cfg m _ off key h0 hl, find_leaf_node cfg m _ off key h0 hl]
        exact ih _

/-- The descent ends at the same node when it takes the same way at every
reachable node. -/
theorem find_leaf_same (cfg : BTreeConfig) (m m1 : Mem) (key : Int) :
    ∀ (fuel off : Nat),
      (∀ o, Reaches cfg m off o → o ≠ 0 → SameRoute cfg m m1 o) →
      find_leaf cfg m1 key fuel off = find_leaf cfg m key fuel off := by
  intro fuel
  induction fuel with
  | zero => intro off _; rfl
  | succ f ih =>
    intro off h
    by_cases h0 : off = 0
    · subst h0
      rw [find_leaf_stop cfg m _ 0 key (Or.inl rfl), find_leaf_stop cfg m1 _ 0 key (Or.inl rfl)]
    · have hs := h off Reaches.base h0
      cases hl : is_leaf m off with
      | true =>
        rw [find_leaf_stop cfg m _ off key (Or.inr hl),
          find_leaf_stop cfg m1 _ off key (Or.inr (by rw [hs.1, hl]))]
      | false =>
        have hi := hs.2 hl
        have hsc : scan_keys m1 (get_internal_keys off) key (key_count m1 off) 0 =
            scan_keys m (get_internal_keys off) key (key_count m off) 0 := by
          rw [hi.1]
          exact scan_keys_congr m m1 _ key _ 0 (fun j _ h2 => hi.2.1 j (by omega))
        have hb := (scan_keys_spec m (get_internal_keys off) key (key_count m off) 0).2.1
        rw [find_leaf_node cfg m f off key h0 hl,
          find_leaf_node cfg m1 f off key h0 (by rw [hs.1, hl]), hsc, hi.2.2 _ (by omega)]
        apply ih
        intro o ho hne
        exact h o (reaches_trans cfg m off _ (Reaches.step off _ Reaches.base hl (by omega)) o ho)
          hne

/-- The descent of `find_leaf` follows reachable nodes. -/
theorem find_leaf_reaches (cfg : BTreeConfig) (m : Mem) (key : Int) :
    ∀ (fuel off : Nat), Reaches cfg m off (find_leaf cfg m key fuel off) := by
  intro fuel
  induction fuel with
  | zero => intro off; exact Reaches.base
  | succ f ih =>
    intro off
    by_cases h0 : off = 0
    · rw [find_leaf_stop cfg m _ off key (Or.inl h0)]; exact Reaches.base
    · cases hl : is_leaf m off with
      | true => rw [find_leaf_stop cfg m _ off key (Or.inr hl)]; exact Reaches.base
      | false =>
        rw [find_leaf_node cfg m f off key h0 hl]
        have hb := (scan_keys_spec m (get_internal_keys off) key (key_count m off) 0).2.1
        exact reaches_trans cfg m off _
          (Reaches.step off _ Reaches.base hl (by omega)) _ (ih _)

/-- Memories in which the descent takes the same way, and in which the leaf scans
at the end of the descent agree, answer `search` alike. -/
theorem search_pair (cfg : BTreeConfig) (m m1 m2 : Mem) (key : Int) (fuel off : Nat)
    (h1 : ∀ o, Reaches cfg m off o → o ≠ 0 → SameRoute cfg m m1 o)
    (h2 : ∀ o, Reaches cfg m off o → o ≠ 0 → SameRoute cfg m m2 o)
    (hq : ∀ o, Reaches cfg m off o → o ≠ 0 → is_leaf m o = true →
      leaf_lookup m1 o key = leaf_lookup m2 o key) :
    search_internal cfg m1 fuel off key = search_internal cfg m2 fuel off key := by
  cases fuel with
  | zero => unfold search_internal; rfl
  | succ f =>
    rw [search_descent, search_descent, find_leaf_same cfg m m1 key f off h1,
      find_leaf_same cfg m m2 key f off h2]
    by_cases h0 : find_leaf cfg m key f off = 0
    · rw [if_pos h0, if_pos h0]
    · have hr := find_leaf_reaches cfg m key f off
      rw [if_neg h0, if_neg h0, (h1 _ hr h0).1, (h2 _ hr h0).1]
      cases hl : is_leaf m (find_leaf cfg m key f off) with
      | true => rw [if_pos rfl, if_pos rfl, hq _ hr h0 hl]
      | false => rw [if_neg (by simp), if_neg (by simp)]

theorem sameRoute_refl (cfg : BTreeConfig) (m : Mem) (o : Nat) : SameRoute cfg m m o :=
  ⟨rfl, fun _ => ⟨rfl, fun _ _ => rfl, fun _ _ => rfl⟩⟩

/-- Readers that get the same from every reachable node give the same answers. -/
theorem search_same (cfg : BTreeConfig) (m m1 : Mem) (key : Int) (fuel off : Nat)
    (h : ∀ o, Reaches cfg m off o → o ≠ 0 → SameAnswers cfg m m1 o) :
    search_internal cfg m1 fuel off key = search_internal cfg m fuel off key :=
  search_pair cfg m m1 m key fuel off (fun o ho hne => (h o ho hne).1)
    (fun o _ _ => sameRoute_refl cfg m o) (fun o ho hne hl => (h o ho hne).2 hl key)

/-- A node whose block is untouched gives the readers the same. -/
theorem sameAnswers_of_block (cfg : BTreeConfig) (bs : Nat) (m m1 : Mem) (h o : Nat)
    (hfit : NodeFits cfg bs o) (hs : Shape cfg m h o)
    (hm : ∀ x, o ≤ x → x < o + bs → m1 x = m x) : SameAnswers cfg m m1 o := by
  have hb := nodeFits_bounds cfg bs o hfit
  cases h with
  | zero =>
    rw [shape_zero] at hs
    have := leaf_view_congr cfg bs m m1 o hfit hs.2 hm
    refine ⟨⟨this.1, ?_⟩, ?_⟩
    · intro hl; rw [hs.1] at hl; cases hl
    · intro _ key
      rw [leaf_lookup_eq, leaf_lookup_eq, this.2.2]
  | succ h =>
    rw [shape_succ] at hs
    have := node_view_congr cfg bs m m1 o hfit hs.2.1 hm
    refine ⟨⟨this.1, ?_⟩, ?_⟩
    · intro _
      refine ⟨this.2.1, ?_, ?_⟩
      · intro i hi
        apply rdI32_congr
        intro x h1 h2
        unfold get_internal_keys at h1 h2
        exact hm x (by omega) (by omega)
      · intro i hi
        apply child_congr
        intro x h1 h2
        exact hm x (by omega) (by omega)
    · intro hl; rw [hs.1] at hl; cases hl

/-- In a subtree of height `h` the descent ends at a leaf after `h` levels, and more
fuel does not move it. -/
theorem find_leaf_shape (cfg : BTreeConfig) (m : Mem) (key : Int) :
    ∀ (h off extra : Nat), Shape cfg m h off → (∀ o ∈ blocks cfg m h off, o ≠ 0) →
      find_leaf cfg m key (h + extra) off = find_leaf cfg m key h off ∧
      is_leaf m (find_leaf cfg m key h off) = true ∧
      find_leaf cfg m key h off ∈ leaves cfg m h off := by
  intro h
  induction h with
  | zero =>
    intro off extra hs _
    rw [shape_zero] at hs
    refine ⟨?_, ?_, ?_⟩
    · rw [find_leaf_stop cfg m _ off key (Or.inr hs.1), find_leaf_stop cfg m _ off key (Or.inr hs.1)]
    · rw [find_leaf_stop cfg m _ off key (Or.inr hs.1)]; exact hs.1
    · rw [find_leaf_stop cfg m _ off key (Or.inr hs.1), leaves_zero]; simp
  | succ h ih =>
    intro off extra hs hnz
    rw [shape_succ] at hs
    have h0 : off ≠ 0 := hnz off (mem_blocks_self cfg m (h + 1) off)
    have hb := (scan_keys_spec m (get_internal_keys off) key (key_count m off) 0).2.1
    have hc : child cfg m off (scan_keys m (get_internal_keys off) key (key_count m off) 0) ∈
        node_children cfg m off := (mem_node_children cfg m off _).mpr ⟨_, by omega, rfl⟩
    have hrec := ih _ extra (hs.2.2 _ hc)
      (fun o ho => hnz o (mem_blocks_child cfg m h off _ o hc ho))
    have e2 : h + 1 + extra = (h + extra) + 1 := by omega
    rw [e2, find_leaf_node cfg m _ off key h0 hs.1, find_leaf_node cfg m _ off key h0 hs.1]
    refine ⟨hrec.1, hrec.2.1, ?_⟩
    rw [leaves_succ_L, mem_leavesL]
    exact ⟨_, hc, hrec.2.2⟩

end BTree

/-! ## Stores inside one leaf -/

namespace BTree

theorem persist_leaf_entries (s : Manager) (off : Nat) (h64 : 64 ≤ off) :
    leaf_entries (persist_node s off).mem off = leaf_entries s.mem off := by
  unfold leaf_entries
  rw [persist_node_key_count _ _ _ (by omega) h64]
  apply List.map_congr_left
  intro i _
  unfold get_leaf_entries
  exact persist_node_read_entry _ _ _ (by omega) (by omega)

/-- What the tree invariant says of a reachable node. -/
theorem tree_node (t : BTree) (h : Nat) (hok : TreeOk t h) (o : Nat)
    (hr : Reaches t.config t.manager.mem t.root_offset o) :
    o ∈ blocks t.config t.manager.mem h t.root_offset ∧ BlockOk t.manager o ∧
    NodeFits t.config t.manager.block_size o ∧ 64 ≤ o ∧
    ∃ h', h' ≤ h ∧ Shape t.config t.manager.mem h' o := by
  have hin := reaches_mem t.config t.manager.mem h t.root_offset hok.2.1 o hr
  have hb := hok.2.2.2 o hin
  obtain ⟨h', hh, hs, _⟩ := subtree_of_mem t.config t.manager.mem h t.root_offset o hok.2.1 hin
  exact ⟨hin, hb, blockOk_fits t.config t.manager o hok.1.1 hb,
    by have := blockOk_ge t.manager o hb; omega, h', hh, hs⟩

/-- Stores inside the block of one node (and on the superblock checksum) leave the
readers of every other reachable node what they had. -/
theorem others_same (t : BTree) (h : Nat) (hok : TreeOk t h) (leaf : Nat)
    (hleaf : BlockOk t.manager leaf) (m1 : Mem)
    (hm : ∀ x, (x < leaf ∨ leaf + t.manager.block_size ≤ x) → (x < 56 ∨ 64 ≤ x) →
      m1 x = t.manager.mem x) :
    ∀ o, Reaches t.config t.manager.mem t.root_offset o → o ≠ leaf →
      SameAnswers t.config t.manager.mem m1 o := by
  intro o hr hne
  obtain ⟨_, hb, hfit, h64, h', _, hs⟩ := tree_node t h hok o hr
  have hsep := blockOk_sep t.manager o leaf hb hleaf hne
  exact sameAnswers_of_block t.config t.manager.block_size t.manager.mem m1 h' o hfit hs
    (fun x h1 h2 => hm x (by omega) (by omega))

/-- Two regions that differ from the tree's only inside the block of one leaf (and
on the superblock checksum), and in which that leaf answers the leaf scan alike,
answer `search` alike. -/
theorem local_search (t : BTree) (h : Nat) (hok : TreeOk t h) (leaf : Nat)
    (hr : Reaches t.config t.manager.mem t.root_offset leaf)
    (hl : is_leaf t.manager.mem leaf = true) (m1 m2 : Mem)
    (hm1 : ∀ x, (x < leaf ∨ leaf + t.manager.block_size ≤ x) → (x < 56 ∨ 64 ≤ x) →
      m1 x = t.manager.mem x)
    (hm2 : ∀ x, (x < leaf ∨ leaf + t.manager.block_size ≤ x) → (x < 56 ∨ 64 ≤ x) →
      m2 x = t.manager.mem x)
    (hl1 : is_leaf m1 leaf = true) (hl2 : is_leaf m2 leaf = true)
    (hq : ∀ key, leaf_lookup m1 leaf key = leaf_lookup m2 leaf key) :
    ∀ fuel key, search_internal t.config m1 fuel t.root_offset key =
      search_internal t.config m2 fuel t.root_offset key := by
  intro fuel key
  have hb := (tree_node t h hok leaf hr).2.1
  apply search_pair t.config t.manager.mem m1 m2 key fuel t.root_offset
  · intro o ho _
    by_cases he : o = leaf
    · subst he
      exact ⟨by rw [hl1, hl], fun hf => by rw [hl] at hf; cases hf⟩
    · exact (others_same t h hok leaf hb m1 hm1 o ho he).1
  · intro o ho _
    by_cases he : o = leaf
    · subst he
      exact ⟨by rw [hl2, hl], fun hf => by rw [hl] at hf; cases hf⟩
    · exact (others_same t h hok leaf hb m2 hm2 o ho he).1
  · intro o ho _ hlo
    by_cases he : o = leaf
    · subst he; exact hq key
    · rw [(others_same t h hok leaf hb m1 hm1 o ho he).2 hlo key,
        (others_same t h hok leaf hb m2 hm2 o ho he).2 hlo key]

/-! ### Leaf append -/

theorem append_written_other (m : Mem) (leaf : Nat) (key value : Int) (x : Nat)
    (hx : x < leaf + 16 + 8 * key_count m leaf ∨ leaf + 16 + 8 * key_count m leaf + 8 ≤ x) :
    append_written m leaf key value x = m x := by
  unfold append_written
  exact write_entry_other _ _ _ _ (by unfold get_leaf_entries; omega)

theorem append_written_entries (m : Mem) (leaf : Nat) (key value : Int) :
    is_leaf (append_written m leaf key value) leaf = is_leaf m leaf ∧
    key_count (append_written m leaf key value) leaf = key_count m leaf ∧
    leaf_entries (append_written m leaf key value) leaf = leaf_entries m leaf := by
  refine ⟨?_, ?_, ?_⟩
  · exact is_leaf_congr _ _ _ (append_written_other m leaf key value _ (by omega))
  · exact key_count_congr _ _ _ (fun x _ _ => append_written_other m leaf key value _ (by omega))
  · exact leaf_entries_congr _ _ _ (fun x _ _ => append_written_other m leaf key value _ (by omega))

theorem append_counted_entries (m : Mem) (leaf : Nat) (key value : Int)
    (hkc : key_count m leaf + 1 < 4294967296) (hk : isInt32 key) (hv : isInt32 value) :
    is_leaf (append_counted m leaf key value) leaf = is_leaf m leaf ∧
    key_count (append_counted m leaf key value) leaf = key_count m leaf + 1 ∧
    leaf_entries (append_counted m leaf key value) leaf = leaf_entries m leaf ++ [⟨key, value⟩] := by
  have hw := append_written_entries m leaf key value
  have hkc1 : key_count (append_counted m leaf key value) leaf = key_count m leaf + 1 := by
    unfold append_counted
    rw [hw.2.1]
    exact key_count_wr32 _ _ _ hkc
  refine ⟨?_, hkc1, ?_⟩
  · unfold append_counted
    rw [← hw.1]
    exact is_leaf_congr _ _ _ (wr32_other _ _ _ _ (by omega))
  · apply leaf_entries_of
    · rw [hkc1, List.length_append, leaf_entries_length]; rfl
    · intro i hi
      rw [List.length_append, leaf_entries_length] at hi
      simp only [List.length_singleton] at hi
      have e1 : read_entry (append_counted m leaf key value) (get_leaf_entries leaf + 8 * i) =
          read_entry (append_written m leaf key value) (get_leaf_entries leaf + 8 * i) := by
        unfold append_counted
        exact read_entry_congr _ _ _ (fun x _ _ => wr32_other _ _ _ _
          (by unfold get_leaf_entries at *; omega))
      rw [e1]
      by_cases hlast : i = key_count m leaf
      · subst hlast
        unfold append_written
        rw [read_entry_write_entry _ _ _ hk hv]
        simp [leaf_entries_length]
      · have hi' : i < (leaf_entries m leaf).length := by
          rw [leaf_entries_length]; omega
        rw [List.get_eq_getElem, List.getElem_append_left hi']
        have := leaf_entries_get m leaf i hi'
        rw [List.get_eq_getElem] at this
        rw [this]
        exact read_entry_congr _ _ _ (fun x _ _ => append_written_other m leaf key value _
          (by unfold get_leaf_entries at *; omega))

theorem insert_leaf_room (cfg : BTreeConfig) (fuel : Nat) (s : Manager) (leaf : Nat)
    (key value : Int) (h0 : leaf ≠ 0) (hroom : key_count s.mem leaf < cfg.leaf_capacity) :
    insert_leaf cfg (fuel + 1) s leaf key value =
      (.ok ⟨0, 0, false⟩,
        persist_node { s with mem := append_counted s.mem leaf key value } leaf) := by
  unfold insert_leaf
  rw [if_neg h0, if_pos hroom]
  rfl

/-- The append branch of `insert_leaf` on a reachable leaf of a well-formed tree:
the store of the entry is invisible to `search`, the increment of `key_count`
publishes it behind the entries the leaf had. -/
theorem append_atomic (t : BTree) (h : Nat) (hok : TreeOk t h) (leaf : Nat) (key value : Int)
    (hk : isInt32 key) (hv : isInt32 value)
    (hr : Reaches t.config t.manager.mem t.root_offset leaf)
    (hl : is_leaf t.manager.mem leaf = true)
    (hroom : key_count t.manager.mem leaf < t.config.leaf_capacity) :
    (∀ fuel k, search_internal t.config (append_written t.manager.mem leaf key value) fuel
        t.root_offset k = search_internal t.config t.manager.mem fuel t.root_offset k) ∧
    (∀ fuel, insert_leaf t.config (fuel + 1) t.manager leaf key value =
      (.ok ⟨0, 0, false⟩,
        persist_node { t.manager with mem := append_counted t.manager.mem leaf key value }
          leaf)) ∧
    leaf_entries (append_counted t.manager.mem leaf key value) leaf =
      leaf_entries t.manager.mem leaf ++ [⟨key, value⟩] ∧
    leaf_entries (persist_node
        { t.manager with mem := append_counted t.manager.mem leaf key value } leaf).mem leaf =
      leaf_entries t.manager.mem leaf ++ [⟨key, value⟩] := by
  obtain ⟨_, hb, hfit, h64, _⟩ := tree_node t h hok leaf hr
  obtain ⟨f1, f2, f3, f4, f5⟩ := nodeFits_bounds t.config t.manager.block_size leaf hfit
  have hcap := hok.1.1.2.2.1
  have hw := append_written_entries t.manager.mem leaf key value
  have hc := append_counted_entries t.manager.mem leaf key value (by omega) hk hv
  refine ⟨?_, ?_, hc.2.2, ?_⟩
  · intro fuel k
    apply local_search t h hok leaf hr hl _ _ _ (fun _ _ _ => rfl) (by rw [hw.1, hl]) hl
    · intro key'
      rw [leaf_lookup_eq, leaf_lookup_eq, hw.2.2]
    · intro x hx _
      exact append_written_other _ _ _ _ _ (by omega)
  · intro fuel
    exact insert_leaf_room t.config fuel t.manager leaf key value (by omega) hroom
  · rw [persist_leaf_entries _ _ h64]
    exact hc.2.2

end BTree

/-! ## The stores of `erase_leaf` -/

namespace BTree

theorem erase_leaf_found (s : Manager) (leaf : Nat) (key : Int) (f : Nat)
    (hf : find_in_leaf s.mem (get_leaf_entries leaf) key (key_count s.mem leaf) 0 = some f) :
    erase_leaf s leaf key =
      (true, persist_node { s with mem := erase_counted s.mem leaf f } leaf) := by
  unfold erase_leaf
  simp only [hf]
  rfl

theorem erase_moved_other (m : Mem) (leaf f : Nat) (x : Nat)
    (hx : x < leaf + 16 + 8 * f ∨ leaf + 16 + 8 * f + 8 ≤ x) :
    erase_moved m leaf f x = m x := by
  unfold erase_moved
  split
  · exact write_entry_other _ _ _ _ (by unfold get_leaf_entries; omega)
  · rfl

theorem erase_moved_head (m : Mem) (leaf f : Nat) :
    is_leaf (erase_moved m leaf f) leaf = is_leaf m leaf ∧
    key_count (erase_moved m leaf f) leaf = key_count m leaf :=
  ⟨is_leaf_congr _ _ _ (erase_moved_other m leaf f _ (by omega)),
    key_count_congr _ _ _ (fun x _ _ => erase_moved_other m leaf f _ (by omega))⟩

theorem erase_moved_entry (m : Mem) (leaf f j : Nat)
    (hne : f ≠ (key_count m leaf + 4294967295) % 4294967296) :
    read_entry (erase_moved m leaf f) (get_leaf_entries leaf + 8 * j) =
      if j = f then read_entry m (get_leaf_entries leaf +
          8 * ((key_count m leaf + 4294967295) % 4294967296))
      else read_entry m (get_leaf_entries leaf + 8 * j) := by
  unfold erase_moved
  rw [if_pos hne]
  by_cases hj : j = f
  · subst hj
    rw [if_pos rfl]
    exact read_entry_write_entry _ _ _ (read_entry_int32 _ _).1 (read_entry_int32 _ _).2
  · rw [if_neg hj]
    exact read_entry_congr _ _ _ (fun x _ _ => write_entry_other _ _ _ _ (by omega))

theorem erase_counted_other (m : Mem) (leaf f : Nat) (x : Nat)
    (hx : x < leaf + 4 ∨ leaf + 8 ≤ x) :
    erase_counted m leaf f x = erase_moved m leaf f x := by
  unfold erase_counted
  exact wr32_other _ _ _ _ hx

/-- The states of `erase_leaf` on a reachable leaf of a well-formed tree that holds
the key: the region after the overwrite answers `search` as the region before it
(when the entry is the last one and nothing is stored) or as the final one, the
region after the decrement as the final one. -/
theorem erase_atomic (t : BTree) (h : Nat) (hok : TreeOk t h) (leaf : Nat) (key : Int) (f : Nat)
    (hr : Reaches t.config t.manager.mem t.root_offset leaf)
    (hl : is_leaf t.manager.mem leaf = true)
    (hf : find_in_leaf t.manager.mem (get_leaf_entries leaf) key
      (key_count t.manager.mem leaf) 0 = some f) :
    erase_leaf t.manager leaf key =
      (true, persist_node { t.manager with mem := erase_counted t.manager.mem leaf f } leaf) ∧
    ((∀ fuel k, search_internal t.config (erase_moved t.manager.mem leaf f) fuel t.root_offset k =
        search_internal t.config t.manager.mem fuel t.root_offset k) ∨
      (∀ fuel k, search_internal t.config (erase_moved t.manager.mem leaf f) fuel t.root_offset k =
        search_internal t.config (erase_leaf t.manager leaf key).2.mem fuel t.root_offset k)) ∧
    (∀ fuel k, search_internal t.config (erase_counted t.manager.mem leaf f) fuel t.root_offset k =
      search_internal t.config (erase_leaf t.manager leaf key).2.mem fuel t.root_offset k) ∧
    key_count (erase_leaf t.manager leaf key).2.mem leaf = key_count t.manager.mem leaf - 1 ∧
    ∀ j, j < key_count t.manager.mem leaf - 1 →
      read_entry (erase_leaf t.manager leaf key).2.mem (get_leaf_entries leaf + 8 * j) =
        if j = f then read_entry t.manager.mem
            (get_leaf_entries leaf + 8 * (key_count t.manager.mem leaf - 1))
        else read_entry t.manager.mem (get_leaf_entries leaf + 8 * j) := by
  obtain ⟨hin, hb, hfit, h64, h', _, hs⟩ := tree_node t h hok leaf hr
  obtain ⟨f1, f2, f3, f4, f5⟩ := nodeFits_bounds t.config t.manager.block_size leaf hfit
  have hcap := hok.1.1.2.2.1
  have hkc : key_count t.manager.mem leaf ≤ t.config.leaf_capacity := by
    cases h' with
    | zero => rw [shape_zero] at hs; exact hs.2
    | succ _ => rw [shape_succ] at hs; rw [hs.1] at hl; cases hl
  have hfs := find_in_leaf_some _ _ _ _ _ _ hf
  have hflt : f < key_count t.manager.mem leaf := by omega
  have hlast : (key_count t.manager.mem leaf + 4294967295) % 4294967296 =
      key_count t.manager.mem leaf - 1 := by omega
  have he := erase_leaf_found t.manager leaf key f hf
  have hmem := erase_leaf_mem t.config t.manager leaf f (erase_moved t.manager.mem leaf f)
    (erase_counted t.manager.mem leaf f)
    (persist_node { t.manager with mem := erase_counted t.manager.mem leaf f } leaf)
    hfit h64 hkc hcap hflt rfl rfl rfl
  rw [he]
  simp only
  -- the three regions differ from the tree's only inside the block of the leaf
  have hm1 : ∀ x, (x < leaf ∨ leaf + t.manager.block_size ≤ x) → (x < 56 ∨ 64 ≤ x) →
      erase_moved t.manager.mem leaf f x = t.manager.mem x :=
    fun x hx _ => erase_moved_other _ _ _ _ (by omega)
  have hm2 : ∀ x, (x < leaf ∨ leaf + t.manager.block_size ≤ x) → (x < 56 ∨ 64 ≤ x) →
      erase_counted t.manager.mem leaf f x = t.manager.mem x := by
    intro x hx hx2
    rw [erase_counted_other _ _ _ _ (by omega)]
    exact hm1 x hx hx2
  have hm3 := hmem.2.2.2.1
  have hmh := erase_moved_head t.manager.mem leaf f
  have hl1 : is_leaf (erase_moved t.manager.mem leaf f) leaf = true := by rw [hmh.1, hl]
  have hl2 : is_leaf (erase_counted t.manager.mem leaf f) leaf = true := by
    rw [← hl1]
    exact is_leaf_congr _ _ _ (erase_counted_other _ _ _ _ (by omega))
  have hl3 : is_leaf (persist_node
      { t.manager with mem := erase_counted t.manager.mem leaf f } leaf).mem leaf = true := by
    rw [hmem.1, hl]
  have hp := persist_leaf_entries { t.manager with mem := erase_counted t.manager.mem leaf f }
    leaf h64
  refine ⟨trivial, ?_, ?_, hmem.2.1, hmem.2.2.1⟩
  · by_cases hne : f = (key_count t.manager.mem leaf + 4294967295) % 4294967296
    · left
      intro fuel k
      have : erase_moved t.manager.mem leaf f = t.manager.mem := by
        unfold erase_moved
        rw [if_neg (by simpa using hne)]
      rw [this]
    · right
      intro fuel k
      apply local_search t h hok leaf hr hl _ _ hm1 hm3 hl1 hl3
      intro key'
      rw [leaf_lookup_eq, leaf_lookup_eq]
      -- the entries after the overwrite are the final ones and the moved entry again
      have hfl : f < key_count t.manager.mem leaf - 1 := by omega
      have hlen3 : (leaf_entries (persist_node
          { t.manager with mem := erase_counted t.manager.mem leaf f } leaf).mem leaf).length =
          key_count t.manager.mem leaf - 1 := by
        rw [leaf_entries_length]; exact hmem.2.1
      have hin3 : read_entry t.manager.mem
          (get_leaf_entries leaf + 8 * (key_count t.manager.mem leaf - 1)) ∈
          leaf_entries (persist_node
            { t.manager with mem := erase_counted t.manager.mem leaf f } leaf).mem leaf := by
        rw [mem_leaf_entries]
        refine ⟨f, by rw [hmem.2.1]; exact hfl, ?_⟩
        rw [hmem.2.2.1 f hfl, if_pos rfl]
      have hsplit : leaf_entries (erase_moved t.manager.mem leaf f) leaf =
          leaf_entries (persist_node
            { t.manager with mem := erase_counted t.manager.mem leaf f } leaf).mem leaf ++
          [read_entry t.manager.mem
            (get_leaf_entries leaf + 8 * (key_count t.manager.mem leaf - 1))] := by
        apply leaf_entries_of
        · rw [hmh.2, List.length_append, hlen3]
          simp only [List.length_singleton]
          omega
        · intro i hi
          rw [List.length_append, hlen3] at hi
          simp only [List.length_singleton] at hi
          rw [erase_moved_entry _ _ _ _ hne, hlast]
          by_cases hil : i = key_count t.manager.mem leaf - 1
          · subst hil
            rw [if_neg (by omega)]
            rw [List.get_eq_getElem, List.getElem_append_right (by rw [hlen3])]
            simp [hlen3]
          · have hi' : i < (leaf_entries (persist_node
                { t.manager with mem := erase_counted t.manager.mem leaf f } leaf).mem leaf).length := by
              rw [hlen3]; omega
            rw [List.get_eq_getElem, List.getElem_append_left hi']
            have := leaf_entries_get _ leaf i hi'
            rw [List.get_eq_getElem] at this
            rw [this, hmem.2.2.1 i (by omega)]
      rw [hsplit]
      exact lookup_append_mem _ _ _ hin3
  · intro fuel k
    apply local_search t h hok leaf hr hl _ _ hm2 hm3 hl2 hl3
    intro key'
    rw [leaf_lookup_eq, leaf_lookup_eq, hp]

end BTree

/-! ## Descent of erase and insert -/

namespace BTree

/-- `erase_internal` runs `erase_leaf` on the leaf at the end of the descent. -/
theorem erase_internal_descent (cfg : BTreeConfig) (s : Manager) (key : Int) :
    ∀ (fuel off : Nat),
      erase_internal cfg (fuel + 1) s off key =
        if find_leaf cfg s.mem key fuel off = 0 then (.ok false, s)
        else if is_leaf s.mem (find_leaf cfg s.mem key fuel off) then
          (.ok (erase_leaf s (find_leaf cfg s.mem key fuel off) key).1,
            (erase_leaf s (find_leaf cfg s.mem key fuel off) key).2)
        else (.error .out_of_fuel, s) := by
  intro fuel
  induction fuel with
  | zero =>
    intro off
    by_cases h0 : off = 0
    · subst h0; unfold erase_internal find_leaf; simp
    · cases hl : is_leaf s.mem off with
      | true =>
        unfold erase_internal find_leaf
        rw [if_neg h0, if_neg h0, hl]; rfl
      | false =>
        unfold erase_internal find_leaf
        rw [if_neg h0, if_neg h0, hl]
        unfold erase_internal
        rfl
  | succ f ih =>
    intro off
    by_cases h0 : off = 0
    · subst h0
      rw [find_leaf_stop cfg s.mem _ 0 key (Or.inl rfl)]
      unfold erase_internal; simp
    · cases hl : is_leaf s.mem off with
      | true =>
        rw [find_leaf_stop cfg s.mem _ off key (Or.inr hl), if_neg h0, hl]
        unfold erase_internal
        rw [if_neg h0, hl]; rfl
      | false =>
        rw [find_leaf_node cfg s.mem _ off key h0 hl, ← ih]
        conv => lhs; unfold erase_internal
        rw [if_neg h0, hl]
        rfl

/-- When the leaf at the end of the descent has room, `insert_internal` is the
append to that leaf, and no level above it sees a split. -/
theorem insert_internal_descent (cfg : BTreeConfig) (s : Manager) (key value : Int) :
    ∀ (fuel off leaf : Nat), find_leaf cfg s.mem key fuel off = leaf → leaf ≠ 0 →
      is_leaf s.mem leaf = true → key_count s.mem leaf < cfg.leaf_capacity →
      insert_internal cfg (fuel + 2) s off key value =
        (.ok ⟨0, 0, false⟩,
          persist_node { s with mem := append_counted s.mem leaf key value } leaf) := by
  intro fuel
  induction fuel with
  | zero =>
    intro off leaf e h0 hl hroom
    have e' : find_leaf cfg s.mem key 0 off = off := rfl
    rw [e'] at e
    subst e
    unfold insert_internal
    rw [if_neg h0, if_pos hl]
    exact insert_leaf_room cfg 0 s off key value h0 hroom
  | succ f ih =>
    intro off leaf e h0 hl hroom
    by_cases hz : off = 0
    · rw [find_leaf_stop cfg s.mem _ off key (Or.inl hz)] at e
      exact absurd (e ▸ hz) h0
    · cases hlf : is_leaf s.mem off with
      | true =>
        rw [find_leaf_stop cfg s.mem _ off key (Or.inr hlf)] at e
        subst e
        unfold insert_internal
        rw [if_neg h0, if_pos hl]
        exact insert_leaf_room cfg _ s off key value h0 hroom
      | false =>
        rw [find_leaf_node cfg s.mem _ off key hz hlf] at e
        have hrec := ih _ leaf e h0 hl hroom
        conv => lhs; unfold insert_internal
        rw [if_neg hz, hlf]
        simp only [Bool.false_eq_true, if_false]
        unfold insert_internal_node
        simp only
        unfold child at hrec
        rw [hrec]
        simp

/-- Stores inside the block of one reachable leaf that keep its leaf flag leave the
descent its way at every reachable node. -/
theorem routes_local (t : BTree) (h : Nat) (hok : TreeOk t h) (leaf : Nat)
    (hr : Reaches t.config t.manager.mem t.root_offset leaf)
    (hl : is_leaf t.manager.mem leaf = true) (m1 : Mem)
    (hm1 : ∀ x, (x < leaf ∨ leaf + t.manager.block_size ≤ x) → (x < 56 ∨ 64 ≤ x) →
      m1 x = t.manager.mem x)
    (hl1 : is_leaf m1 leaf = true) :
    ∀ o, Reaches t.config t.manager.mem t.root_offset o →
      SameRoute t.config t.manager.mem m1 o := by
  intro o ho
  have hb := (tree_node t h hok leaf hr).2.1
  by_cases he : o = leaf
  · subst he
    exact ⟨by rw [hl1, hl], fun hf => by rw [hl] at hf; cases hf⟩
  · exact (others_same t h hok leaf hb m1 hm1 o ho he).1

/-- The same nodes are reachable when the descent has the same way at every
reachable node. -/
theorem reaches_same (cfg : BTreeConfig) (m m1 : Mem) (root : Nat)
    (hs : ∀ o, Reaches cfg m root o → SameRoute cfg m m1 o) (o : Nat) :
    Reaches cfg m1 root o ↔ Reaches cfg m root o := by
  constructor
  · intro h
    induction h with
    | base => exact Reaches.base
    | step o i _ hl hi ih =>
      have sr := hs o ih
      have hl' : is_leaf m o = false := by rw [← sr.1]; exact hl
      have hp := sr.2 hl'
      have := hp.2.2 i (by omega)
      unfold child at this
      rw [this]
      exact Reaches.step o i ih hl' (by omega)
  · intro h
    induction h with
    | base => exact Reaches.base
    | step o i ho hl hi ih =>
      have sr := hs o ho
      have hp := sr.2 hl
      have := hp.2.2 i hi
      unfold child at this
      rw [← this]
      exact Reaches.step o i ih (by rw [sr.1]; exact hl) (by omega)

/-- In a well-formed tree of height `h` the descent with any fuel from `h` on ends
at the same reachable leaf. -/
theorem find_leaf_tree (t : BTree) (h : Nat) (hok : TreeOk t h) (key : Int) (fuel : Nat)
    (hf : h ≤ fuel) :
    find_leaf t.config t.manager.mem key fuel t.root_offset =
      find_leaf t.config t.manager.mem key h t.root_offset ∧
    is_leaf t.manager.mem (find_leaf t.config t.manager.mem key h t.root_offset) = true ∧
    Reaches t.config t.manager.mem t.root_offset
      (find_leaf t.config t.manager.mem key h t.root_offset) ∧
    find_leaf t.config t.manager.mem key h t.root_offset ≠ 0 := by
  have := find_leaf_shape t.config t.manager.mem key h t.root_offset (fuel - h) hok.2.1
    (treeOk_nonzero t h hok)
  have e : h + (fuel - h) = fuel := by omega
  rw [e] at this
  refine ⟨this.1, this.2.1, find_leaf_reaches _ _ _ _ _, ?_⟩
  have := (tree_node t h hok _ (find_leaf_reaches t.config t.manager.mem key h t.root_offset)).2.2.2.1
  omega

/-- The answer of `search` on a region that differs from the tree's only inside the
block of the leaf at the end of the descent. -/
theorem search_at (t : BTree) (h : Nat) (hok : TreeOk t h) (key : Int) (m1 : Mem)
    (hm1 : ∀ x, (x < find_leaf t.config t.manager.mem key h t.root_offset ∨
        find_leaf t.config t.manager.mem key h t.root_offset + t.manager.block_size ≤ x) →
      (x < 56 ∨ 64 ≤ x) → m1 x = t.manager.mem x)
    (hl1 : is_leaf m1 (find_leaf t.config t.manager.mem key h t.root_offset) = true)
    (fuel : Nat) (hf : h + 1 ≤ fuel) :
    search_internal t.config m1 fuel t.root_offset key =
      .ok (leaf_lookup m1 (find_leaf t.config t.manager.mem key h t.root_offset) key) := by
  obtain ⟨f, rfl⟩ : ∃ f, fuel = f + 1 := ⟨fuel - 1, by omega⟩
  obtain ⟨e, hl, hr, h0⟩ := find_leaf_tree t h hok key f (by omega)
  have hrt := routes_local t h hok _ hr hl m1 hm1 hl1
  rw [search_descent, find_leaf_same t.config t.manager.mem m1 key f t.root_offset
    (fun o ho _ => hrt o ho), e, if_neg h0, hl1]
  rfl

/-- What `erase_leaf` leaves alone: everything but the `key_count` and checksum
fields of the leaf, its first `key_count` entry slots and the superblock checksum. -/
theorem erase_leaf_fine (s : Manager) (leaf : Nat) (key : Int) (x : Nat)
    (hx : x < leaf + 4 ∨ leaf + 16 + 8 * key_count s.mem leaf ≤ x) (hx2 : x < 56 ∨ 64 ≤ x) :
    (erase_leaf s leaf key).2.mem x = s.mem x := by
  cases hf : find_in_leaf s.mem (get_leaf_entries leaf) key (key_count s.mem leaf) 0 with
  | none => rw [erase_leaf_none s leaf key hf]
  | some f =>
    have hfs := find_in_leaf_some _ _ _ _ _ _ hf
    rw [erase_leaf_found s leaf key f hf]
    show (persist_node _ leaf).mem x = _
    rw [persist_node_mem _ _ _ ⟨by omega, hx2⟩]
    show erase_counted s.mem leaf f x = _
    rw [erase_counted_other _ _ _ _ (by omega)]
    exact erase_moved_other _ _ _ _ (by omega)

theorem erase_leaf_sizes (s : Manager) (leaf : Nat) (key : Int) :
    (erase_leaf s leaf key).2.block_size = s.block_size ∧
    (erase_leaf s leaf key).2.region_size = s.region_size ∧
    (erase_leaf s leaf key).2.allocated_blocks = s.allocated_blocks := by
  cases hf : find_in_leaf s.mem (get_leaf_entries leaf) key (key_count s.mem leaf) 0 with
  | none => rw [erase_leaf_none s leaf key hf]; exact ⟨rfl, rfl, rfl⟩
  | some f =>
    rw [erase_leaf_found s leaf key f hf]
    exact persist_node_sizes _ _

end BTree

/-! ## Erase and duplicate insert on a whole tree -/

namespace BTree

theorem leaf_entries_getElem? (m : Mem) (off i : Nat) :
    (leaf_entries m off)[i]? =
      if i < key_count m off then some (read_entry m (get_leaf_entries off + 8 * i)) else none := by
  unfold leaf_entries
  rw [List.getElem?_map]
  by_cases h : i < key_count m off
  · rw [if_pos h, List.getElem?_range h]; rfl
  · rw [if_neg h, List.getElem?_eq_none (by simpa using h)]; rfl

/-- A completed `erase` on a well-formed tree of height `h` is `erase_leaf` on the
leaf at the end of the descent, and leaves everything else as it was. -/
theorem erase_target (t : BTree) (h : Nat) (hok : TreeOk t h) (key : Int) (fuel : Nat)
    (hf : h + 1 ≤ fuel) (leaf : Nat)
    (hleaf : find_leaf t.config t.manager.mem key h t.root_offset = leaf) :
    erase fuel t key = (.ok (erase_leaf t.manager leaf key).1,
      { t with manager := (erase_leaf t.manager leaf key).2 }) ∧
    Reaches t.config t.manager.mem t.root_offset leaf ∧
    is_leaf t.manager.mem leaf = true ∧
    (∀ x, (x < leaf + 4 ∨ leaf + 16 + 8 * key_count t.manager.mem leaf ≤ x) → (x < 56 ∨ 64 ≤ x) →
      (erase_leaf t.manager leaf key).2.mem x = t.manager.mem x) ∧
    (erase_leaf t.manager leaf key).2.block_size = t.manager.block_size ∧
    (erase_leaf t.manager leaf key).2.region_size = t.manager.region_size ∧
    (erase_leaf t.manager leaf key).2.allocated_blocks = t.manager.allocated_blocks ∧
    (∀ b, b < t.manager.block_count →
      (erase_leaf t.manager leaf key).2.block_bit b = t.manager.block_bit b) ∧
    (erase_leaf t.manager leaf key).2.get_root_offset = t.manager.get_root_offset ∧
    (∀ o, Reaches t.config t.manager.mem t.root_offset o → o ≠ leaf →
      ∀ x, o ≤ x → x < o + t.manager.block_size →
        (erase_leaf t.manager leaf key).2.mem x = t.manager.mem x) ∧
    (∀ o, Reaches t.config t.manager.mem t.root_offset o → is_leaf t.manager.mem o = true →
      next_leaf t.config (erase_leaf t.manager leaf key).2.mem o =
        next_leaf t.config t.manager.mem o) ∧
    (∀ o, Reaches t.config (erase_leaf t.manager leaf key).2.mem t.root_offset o ↔
      Reaches t.config t.manager.mem t.root_offset o) ∧
    is_leaf (erase_leaf t.manager leaf key).2.mem leaf = true ∧
    key_count (erase_leaf t.manager leaf key).2.mem leaf =
      key_count t.manager.mem leaf - (if (erase_leaf t.manager leaf key).1 = true then 1 else 0) := by
  obtain ⟨f, rfl⟩ : ∃ f, fuel = f + 1 := ⟨fuel - 1, by omega⟩
  obtain ⟨e, hl, hr, h0⟩ := find_leaf_tree t h hok key f (by omega)
  rw [hleaf] at e hl hr h0
  obtain ⟨hin, hb, hfit, h64, h', _, hs⟩ := tree_node t h hok leaf hr
  obtain ⟨f1, f2, f3, f4, f5⟩ := nodeFits_bounds t.config t.manager.block_size leaf hfit
  have hge := blockOk_ge t.manager leaf hb
  have hcap := hok.1.1.2.2.1
  have hkc : key_count t.manager.mem leaf ≤ t.config.leaf_capacity := by
    cases h' with
    | zero => rw [shape_zero] at hs; exact hs.2
    | succ _ => rw [shape_succ] at hs; rw [hs.1] at hl; cases hl
  have hfine := erase_leaf_fine t.manager leaf key
  have hsz := erase_leaf_sizes t.manager leaf key
  have hblock : ∀ x, (x < leaf ∨ leaf + t.manager.block_size ≤ x) → (x < 56 ∨ 64 ≤ x) →
      (erase_leaf t.manager leaf key).2.mem x = t.manager.mem x :=
    fun x hx hx2 => hfine x (by omega) hx2
  have hl1 : is_leaf (erase_leaf t.manager leaf key).2.mem leaf = true := by
    rw [← hl]
    exact is_leaf_congr _ _ _ (hfine leaf (by omega) (by omega))
  have hrt := routes_local t h hok leaf hr hl _ hblock hl1
  refine ⟨?_, hr, hl, hfine, hsz.1, hsz.2.1, hsz.2.2, ?_, ?_, ?_, ?_, ?_, hl1, ?_⟩
  · unfold erase
    rw [erase_internal_descent, e, if_neg h0, hl]
    rfl
  · intro b hbl
    exact block_bit_congr t.manager _ (fun x h1 h2 => hfine x (by omega) (by omega)) b hbl
  · unfold Manager.get_root_offset OFF_ROOT
    exact rd64_congr _ _ _ (fun x h1 h2 => hfine x (by omega) (by omega))
  · intro o ho hne x h1 h2
    obtain ⟨_, hbo, _, h64o, _⟩ := tree_node t h hok o ho
    have := blockOk_sep t.manager o leaf hbo hb hne
    exact hfine x (by omega) (by omega)
  · intro o ho hlo
    obtain ⟨_, hbo, hfo, h64o, _⟩ := tree_node t h hok o ho
    obtain ⟨g1, g2, g3, g4, g5⟩ := nodeFits_bounds t.config t.manager.block_size o hfo
    unfold next_leaf
    apply rd64_congr
    intro x h1 h2
    by_cases hne : o = leaf
    · subst hne
      exact hfine x (by omega) (by omega)
    · have := blockOk_sep t.manager o leaf hbo hb hne
      exact hfine x (by omega) (by omega)
  · exact reaches_same t.config t.manager.mem _ t.root_offset hrt
  · cases hfi : find_in_leaf t.manager.mem (get_leaf_entries leaf) key
        (key_count t.manager.mem leaf) 0 with
    | none =>
      rw [erase_leaf_none t.manager leaf key hfi]
      simp
    | some i =>
      have hfs := find_in_leaf_some _ _ _ _ _ _ hfi
      have hmem := erase_leaf_mem t.config t.manager leaf i (erase_moved t.manager.mem leaf i)
        (erase_counted t.manager.mem leaf i)
        (persist_node { t.manager with mem := erase_counted t.manager.mem leaf i } leaf)
        hfit h64 hkc hcap (by omega) rfl rfl rfl
      rw [erase_leaf_found t.manager leaf key i hfi]
      simp only [if_true]
      exact hmem.2.1

/-- The answer of `search` for `key` is the answer of the leaf scan at the end of
the descent. -/
theorem lookup_of_search (t : BTree) (h : Nat) (hok : TreeOk t h) (key : Int) (sf : Nat)
    (r : Option Int) (hs : search sf t key = .ok r) :
    leaf_lookup t.manager.mem (find_leaf t.config t.manager.mem key h t.root_offset) key = r := by
  obtain ⟨_, hl, _, _⟩ := find_leaf_tree t h hok key h (le_refl _)
  have h1 := search_at t h hok key t.manager.mem (fun _ _ _ => rfl) hl (h + 1) (le_refl _)
  have h2 := search_internal_mono t.config t.manager.mem key (h + 1) t.root_offset _ sf h1
  have h3 := search_internal_mono t.config t.manager.mem key sf t.root_offset r (h + 1) hs
  rw [Nat.add_comm] at h3
  rw [h3] at h2
  injection h2 with h2
  exact h2.symm

/-- An insert of a key that the leaf at the end of the descent already holds, when
that leaf has room, and the erase that follows. -/
theorem insert_duplicate (t : BTree) (h : Nat) (hok : TreeOk t h) (key v1 v2 : Int)
    (hk : isInt32 key) (hv : isInt32 v2) (leaf : Nat)
    (hleaf : find_leaf t.config t.manager.mem key h t.root_offset = leaf)
    (hroom : key_count t.manager.mem leaf < t.config.leaf_capacity)
    (sf : Nat) (hs : search sf t key = .ok (some v1)) (fuel : Nat) (hf : h + 2 ≤ fuel) :
    ∃ t1 t2, insert fuel t key v2 = (.ok (), t1) ∧
      leaf_entries t1.manager.mem leaf = leaf_entries t.manager.mem leaf ++ [⟨key, v2⟩] ∧
      (∀ f k, search f t1 k = search f t k) ∧
      erase fuel t1 key = (.ok true, t2) ∧
      ∀ f, h + 1 ≤ f → search f t2 key = .ok (some v2) := by
  obtain ⟨f, rfl⟩ : ∃ f, fuel = f + 2 := ⟨fuel - 2, by omega⟩
  obtain ⟨e, hl, hr, h0⟩ := find_leaf_tree t h hok key f (by omega)
  obtain ⟨e1, _⟩ := find_leaf_tree t h hok key (f + 1) (by omega)
  have hlk := lookup_of_search t h hok key sf _ hs
  rw [hleaf] at e e1 hl hr h0 hlk
  obtain ⟨hin, hb, hfit, h64, h', _, hsh⟩ := tree_node t h hok leaf hr
  obtain ⟨f1, f2, f3, f4, f5⟩ := nodeFits_bounds t.config t.manager.block_size leaf hfit
  have hcap := hok.1.1.2.2.1
  -- the tree after the insert
  have happ : ∀ s1, persist_node { t.manager with
        mem := append_counted t.manager.mem leaf key v2 } leaf = s1 →
      is_leaf s1.mem leaf = is_leaf t.manager.mem leaf ∧
      key_count s1.mem leaf = key_count t.manager.mem leaf + 1 ∧
      leaf_entries s1.mem leaf = leaf_entries t.manager.mem leaf ++ [⟨key, v2⟩] ∧
      (∀ x, (x < leaf ∨ leaf + t.manager.block_size ≤ x) → (x < 56 ∨ 64 ≤ x) →
        s1.mem x = t.manager.mem x) ∧
      s1.block_size = t.manager.block_size := by
    intro s1 hs1
    rw [← hs1]
    have := leaf_append_spec t.config t.manager leaf key v2 hfit h64 hroom hcap hk hv
    exact ⟨this.1, this.2.1, this.2.2.1, this.2.2.2.1, this.2.2.2.2.1⟩
  have hfound : ∃ i, find_in_leaf t.manager.mem (get_leaf_entries leaf) key
      (key_count t.manager.mem leaf) 0 = some i := by
    unfold leaf_lookup at hlk
    cases hfi : find_in_leaf t.manager.mem (get_leaf_entries leaf) key
        (key_count t.manager.mem leaf) 0 with
    | none => rw [hfi] at hlk; cases hlk
    | some i => exact ⟨i, rfl⟩
  obtain ⟨i, hfi⟩ := hfound
  have hfs := find_in_leaf_some _ _ _ _ _ _ hfi
  obtain ⟨s1, hs1⟩ : ∃ s1, persist_node { t.manager with
      mem := append_counted t.manager.mem leaf key v2 } leaf = s1 := ⟨_, rfl⟩
  have hins : insert (f + 2) t key v2 = (.ok (), { t with manager := s1 }) := by
    rw [← hs1]
    unfold insert
    rw [insert_internal_descent t.config t.manager key v2 f t.root_offset leaf e h0 hl hroom]
    rfl
  obtain ⟨a1, a2, a3, a4, a5⟩ := happ s1 hs1
  -- the entries of the leaf after the insert
  have hent1 : ∀ j, j < key_count t.manager.mem leaf →
      read_entry s1.mem (get_leaf_entries leaf + 8 * j) =
        read_entry t.manager.mem (get_leaf_entries leaf + 8 * j) := by
    intro j hj
    have h1 := leaf_entries_getElem? s1.mem leaf j
    rw [a3, if_pos (by omega), List.getElem?_append_left (by rw [leaf_entries_length]; exact hj),
      leaf_entries_getElem?, if_pos hj] at h1
    injection h1 with h1
    exact h1.symm
  have hent2 : read_entry s1.mem (get_leaf_entries leaf + 8 * key_count t.manager.mem leaf) =
      ⟨key, v2⟩ := by
    have h1 := leaf_entries_getElem? s1.mem leaf (key_count t.manager.mem leaf)
    rw [a3, if_pos (by omega),
      List.getElem?_append_right (by rw [leaf_entries_length])] at h1
    simp only [leaf_entries_length, Nat.sub_self, List.getElem?_cons_zero,
      Option.some.injEq] at h1
    exact h1.symm
  have hfi1 : find_in_leaf s1.mem (get_leaf_entries leaf) key (key_count s1.mem leaf) 0 =
      some i := by
    apply find_in_leaf_eq _ _ _ _ i (by omega)
    · have := congrArg LeafEntry.key (hent1 i (by omega))
      exact this.trans hfs.2.2.1
    · intro j hj
      have := congrArg LeafEntry.key (hent1 j (by omega))
      intro hc
      exact hfs.2.2.2 j (Nat.zero_le _) hj (this.symm.trans hc)
  have hmem := erase_leaf_mem t.config s1 leaf i (erase_moved s1.mem leaf i)
    (erase_counted s1.mem leaf i)
    (persist_node { s1 with mem := erase_counted s1.mem leaf i } leaf)
    (by rw [a5]; exact hfit) h64 (by omega) hcap (by omega) rfl rfl rfl
  have hrt1 := routes_local t h hok leaf hr hl s1.mem a4 (by rw [a1, hl])
  refine ⟨_, { t with manager := persist_node { s1 with mem := erase_counted s1.mem leaf i } leaf },
    hins, a3, ?_, ?_, ?_⟩
  · intro sf' k
    unfold search
    apply local_search t h hok leaf hr hl _ _ a4 (fun _ _ _ => rfl) (by rw [a1, hl]) hl
    intro key'
    rw [leaf_lookup_eq, leaf_lookup_eq, a3]
    apply lookup_append_key _ _ _ v1
    rw [← leaf_lookup_eq]
    exact hlk
  · unfold erase
    rw [erase_internal_descent]
    simp only
    rw [find_leaf_same t.config t.manager.mem s1.mem key (f + 1) t.root_offset
      (fun o ho _ => hrt1 o ho), e1, if_neg h0, a1, hl, erase_leaf_found s1 leaf key i hfi1]
    rfl
  · intro sf' hsf
    unfold search
    simp only
    have hm2 : ∀ x, (x < leaf ∨ leaf + t.manager.block_size ≤ x) → (x < 56 ∨ 64 ≤ x) →
        (persist_node { s1 with mem := erase_counted s1.mem leaf i } leaf).mem x =
          t.manager.mem x := by
      intro x hx hx2
      rw [hmem.2.2.2.1 x (by rw [a5]; exact hx) hx2]
      exact a4 x hx hx2
    have hl2 : is_leaf (persist_node { s1 with mem := erase_counted s1.mem leaf i } leaf).mem
        leaf = true := by rw [hmem.1, a1, hl]
    have := search_at t h hok key _ (by rw [hleaf]; exact hm2) (by rw [hleaf]; exact hl2) sf' hsf
    rw [hleaf] at this
    rw [this]
    congr 1
    -- the leaf scan after the erase meets the new entry in the slot of the old one
    have hkc2 := hmem.2.1
    rw [a2] at hkc2
    simp only [Nat.add_sub_cancel] at hkc2
    have hslot : read_entry (persist_node { s1 with mem := erase_counted s1.mem leaf i } leaf).mem
        (get_leaf_entries leaf + 8 * i) = ⟨key, v2⟩ := by
      rw [hmem.2.2.1 i (by rw [a2]; omega), if_pos rfl, a2]
      simp only [Nat.add_sub_cancel]
      exact hent2
    have hff : find_in_leaf (persist_node { s1 with mem := erase_counted s1.mem leaf i } leaf).mem
        (get_leaf_entries leaf) key
        (key_count (persist_node { s1 with mem := erase_counted s1.mem leaf i } leaf).mem leaf) 0 =
        some i := by
      apply find_in_leaf_eq _ _ _ _ i (by rw [hkc2]; omega)
      · exact congrArg LeafEntry.key hslot
      · intro j hj hc
        have h1 := hmem.2.2.1 j (by rw [a2]; omega)
        rw [if_neg (by omega), hent1 j (by omega)] at h1
        have := congrArg LeafEntry.key h1
        exact hfs.2.2.2 j (Nat.zero_le _) hj (this.symm.trans hc)
    unfold leaf_lookup
    rw [hff]
    simp only [Option.some.injEq]
    exact congrArg LeafEntry.value hslot

end BTree

/-! ## The stores of the pivot installation -/

namespace BTree

/-- `install_pivot` is the count store and `persist_node` on the region that the
shift loop, the key store and the child store leave. -/
theorem install_pivot_stages (cfg : BTreeConfig) (s : Manager) (node idx count : Nat)
    (res : InsertResult) :
    install_pivot cfg s node idx count res =
      persist_node { s with mem := pivot_counted cfg s.mem node idx count res } node := rfl

/-- The last stage of the shift loop is the whole loop. -/
theorem pivot_shifted_all (cfg : BTreeConfig) (m : Mem) (node idx count : Nat)
    (h : idx ≤ count) :
    pivot_shifted cfg m node count (count - idx) =
      shift_right (get_internal_keys node) (get_internal_children node cfg.max_keys) idx
        (count - idx) m := by
  unfold pivot_shifted
  have : count - (count - idx) = idx := by omega
  rw [this]

/-- On a leaf `insert_internal` is `insert_leaf`. -/
theorem insert_internal_leaf (cfg : BTreeConfig) (fuel : Nat) (s : Manager) (off : Nat)
    (key value : Int) (h0 : off ≠ 0) (hl : is_leaf s.mem off = true) :
    insert_internal cfg (fuel + 1) s off key value = insert_leaf cfg fuel s off key value := by
  conv => lhs; unfold insert_internal
  rw [if_neg h0, if_pos hl]

/-- The non-full branch of `insert_internal_node` after a split below. -/
theorem insert_internal_install (cfg : BTreeConfig) (fuel : Nat) (s : Manager) (node : Nat)
    (key value : Int) (res : InsertResult) (s1 : Manager) (h0 : node ≠ 0)
    (hl : is_leaf s.mem node = false)
    (hrec : insert_internal cfg fuel s
      (child cfg s.mem node (scan_keys s.mem (get_internal_keys node) key (key_count s.mem node) 0))
      key value = (.ok res, s1))
    (hsplit : res.did_split = true) (hroom : key_count s1.mem node < cfg.max_keys) :
    insert_internal cfg (fuel + 1) s node key value =
      (.ok ⟨0, 0, false⟩, install_pivot cfg s1 node
        (scan_keys s.mem (get_internal_keys node) key (key_count s.mem node) 0)
        (key_count s1.mem node) res) := by
  conv => lhs; unfold insert_internal
  rw [if_neg h0, hl]
  simp only [Bool.false_eq_true, if_false]
  unfold insert_internal_node
  simp only
  unfold child at hrec
  rw [hrec]
  simp only [hsplit, if_true, hroom]

end BTree

/-! ## Rearranged words -/

namespace Manager

theorem rd8_permute (m : Mem) (σ : Nat → Nat) (i j : Nat) (hj : j < 8) :
    rd8 (permute_words m σ) (8 * i + j) = rd8 m (8 * σ i + j) := by
  unfold rd8 permute_words
  have h1 : (8 * i + j) / 8 = i := by omega
  have h2 : (8 * i + j) % 8 = j := by omega
  rw [h1, h2]

theorem rd32_permute (m : Mem) (σ : Nat → Nat) (i j : Nat) (hj : j + 3 < 8) :
    rd32 (permute_words m σ) (8 * i + j) = rd32 m (8 * σ i + j) := by
  unfold rd32
  have e1 := rd8_permute m σ i (j + 1) (by omega)
  have e2 := rd8_permute m σ i (j + 2) (by omega)
  have e3 := rd8_permute m σ i (j + 3) (by omega)
  simp only [← Nat.add_assoc] at e1 e2 e3
  rw [rd8_permute m σ i j (by omega), e1, e2, e3]

theorem rd64_permute (m : Mem) (σ : Nat → Nat) (i : Nat) :
    rd64 (permute_words m σ) (8 * i) = rd64 m (8 * σ i) := by
  unfold rd64
  have h1 := rd32_permute m σ i 0 (by omega)
  have h2 := rd32_permute m σ i 4 (by omega)
  simp only [Nat.add_zero] at h1
  rw [h1, h2]

theorem xor_left_comm : LeftCommutative (fun a b : Nat => a ^^^ b) :=
  ⟨fun a b c => by
    show a ^^^ (b ^^^ c) = b ^^^ (a ^^^ c)
    rw [← Nat.xor_assoc, ← Nat.xor_assoc, Nat.xor_comm a b]⟩

/-- A rearrangement of the words other than the checksum word permutes the word
numbers that the checksum loop does not skip. -/
theorem wordPerm_filter (words : Nat) (σ : Nat → Nat) (h : WordPerm words σ) :
    (((List.range words).filter (fun i => i ≠ 7)).map σ).Perm
      ((List.range words).filter (fun i => i ≠ 7)) := by
  have hp := List.Perm.filter (fun i => decide (i ≠ 7)) h.1
  rw [List.filter_map] at hp
  have hf : (List.range words).filter ((fun i => decide (i ≠ 7)) ∘ σ) =
      (List.range words).filter (fun i => decide (i ≠ 7)) := by
    apply List.filter_congr
    intro i hi
    have hnd : ((List.range words).map σ).Nodup := (h.1.nodup_iff).mpr (List.nodup_range _)
    have hinj := List.inj_on_of_nodup_map hnd
    have hmem : σ i ∈ List.range words := (h.1.mem_iff).mp (List.mem_map_of_mem σ hi)
    have hiff : σ i = 7 ↔ i = 7 := by
      constructor
      · intro h7
        by_cases hw : 7 < words
        · exact hinj hi (List.mem_range.mpr hw) (by rw [h7, h.2])
        · have := List.mem_range.mp hmem
          omega
      · intro h7
        rw [h7, h.2]
    simp only [Function.comp, ne_eq, hiff]
  rw [hf] at hp
  exact hp

/-- The whole-region checksum does not see a rearrangement of the words other than
the checksum word. -/
theorem checksum_permute (s : Manager) (σ : Nat → Nat) (h : WordPerm (s.region_size / 8) σ) :
    calculate_checksum { s with mem := permute_words s.mem σ } = s.calculate_checksum := by
  rw [calculate_checksum_eq, calculate_checksum_eq]
  unfold xor_of_rotated_words
  simp only
  have hg : ((List.range (s.region_size / 8)).filter (fun i => i ≠ 7)).map
      (fun i => rotate_left_1 (le_word (permute_words s.mem σ) i)) =
      (((List.range (s.region_size / 8)).filter (fun i => i ≠ 7)).map σ).map
        (fun i => rotate_left_1 (le_word s.mem i)) := by
    rw [List.map_map]
    apply List.map_congr_left
    intro i _
    simp only [Function.comp]
    rw [le_word_eq, le_word_eq, rd64_permute]
  rw [hg]
  exact @List.Perm.foldr_eq _ _ _ _ _ xor_left_comm
    (List.Perm.map _ (wordPerm_filter (s.region_size / 8) σ h)) 0

theorem stored_permute (s : Manager) (σ : Nat → Nat) (h7 : σ 7 = 7) :
    stored_checksum { s with mem := permute_words s.mem σ } = s.stored_checksum := by
  unfold stored_checksum OFF_CHECKSUM
  have := rd64_permute s.mem σ 7
  rw [h7] at this
  exact this

/-- An exchange of two runs of words that do not overlap, lie inside the region
and do not hold the checksum word is such a rearrangement. -/
theorem swap_runs_perm (words a b len : Nat) (hab : a + len ≤ b) (hb : b + len ≤ words)
    (h7 : ¬ (a ≤ 7 ∧ 7 < a + len)) (h7b : ¬ (b ≤ 7 ∧ 7 < b + len)) :
    WordPerm words (swap_runs a b len) := by
  constructor
  · apply (List.perm_ext_iff_of_nodup ?_ (List.nodup_range _)).mpr
    · intro x
      rw [List.mem_map, List.mem_range]
      constructor
      · rintro ⟨k, hk, rfl⟩
        rw [List.mem_range] at hk
        unfold swap_runs
        split
        · omega
        · split <;> omega
      · intro hx
        refine ⟨swap_runs a b len x, ?_, ?_⟩
        · rw [List.mem_range]
          unfold swap_runs
          split
          · omega
          · split <;> omega
        · unfold swap_runs
          by_cases h1 : a ≤ x ∧ x < a + len
          · rw [if_pos h1, if_neg (by omega), if_pos (by omega)]
            omega
          · rw [if_neg h1]
            by_cases h2 : b ≤ x ∧ x < b + len
            · rw [if_pos h2, if_pos (by omega)]
              omega
            · rw [if_neg h2, if_neg h1, if_neg h2]
    · apply List.Nodup.map_on _ (List.nodup_range _)
      intro x _ y _ hxy
      unfold swap_runs at hxy
      split at hxy <;> split at hxy <;> (try split at hxy) <;> (try split at hxy) <;> omega
  · unfold swap_runs
    rw [if_neg h7, if_neg h7b]

end Manager

/-! ## Allocations of an insert -/

namespace BTree

theorem persist_node_allocs (s : Manager) (node : Nat) :
    (persist_node s node).allocated_blocks = s.allocated_blocks := (persist_node_sizes s node).2.2

theorem set_root_allocs (s : Manager) (v : Nat) :
    (Manager.set_root_offset s v).allocated_blocks = s.allocated_blocks := rfl

theorem split_leaf_allocs (cfg : BTreeConfig) (s : Manager) (off : Nat) (r : InsertResult)
    (s' : Manager) (h : split_leaf cfg s off = (.ok r, s')) :
    s'.allocated_blocks = s.allocated_blocks + 1 := by
  unfold split_leaf at h
  split at h
  · simp at h
  · rename_i new s1 heq
    have ha := (Manager.alloc_block_ok s s1 new heq)
    obtain ⟨b, _, _, _, _, _, _, _, hal, _⟩ := ha
    split at h
    · simp at h
    · simp only at h
      split at h
      · simp at h
      · simp only [Prod.mk.injEq] at h
        rw [← h.2, persist_node_allocs, persist_node_allocs]
        exact hal

theorem split_internal_allocs (cfg : BTreeConfig) (s : Manager) (off : Nat) (r : InsertResult)
    (s' : Manager) (h : split_internal cfg s off = (.ok r, s')) :
    s'.allocated_blocks = s.allocated_blocks + 1 ∧ r.did_split = true := by
  unfold split_internal at h
  split at h
  · simp at h
  · rename_i new s1 heq
    have ha := (Manager.alloc_block_ok s s1 new heq)
    obtain ⟨b, _, _, _, _, _, _, _, hal, _⟩ := ha
    split at h
    · simp at h
    · simp only [Prod.mk.injEq, Except.ok.injEq] at h
      rw [← h.2, ← h.1, persist_node_allocs, persist_node_allocs]
      exact ⟨hal, rfl⟩

theorem install_pivot_allocs (cfg : BTreeConfig) (s : Manager) (node idx count : Nat)
    (res : InsertResult) :
    (install_pivot cfg s node idx count res).allocated_blocks = s.allocated_blocks :=
  (persist_node_sizes _ _).2.2

/-- After the split of a full leaf of a well-formed tree both halves have room, so
the nested `insert_leaf` call appends and returns without a split. -/
theorem split_then_append (cfg : BTreeConfig) (key value : Int) (s : Manager) (off : Nat)
    (henv : Env cfg s) (hown : Owned cfg s 0 off)
    (hfull : ¬ key_count s.mem off < cfg.leaf_capacity) (sres : InsertResult) (s1 : Manager)
    (hs : split_leaf cfg s off = (.ok sres, s1)) (target : Nat)
    (ht : target = if key ≥ sres.split_key then sres.new_child_offset else off) :
    sres.did_split = true ∧
    key_count s1.mem off = cfg.leaf_capacity / 2 ∧
    key_count s1.mem sres.new_child_offset = cfg.leaf_capacity - cfg.leaf_capacity / 2 ∧
    key_count s1.mem off < cfg.leaf_capacity ∧
    key_count s1.mem sres.new_child_offset < cfg.leaf_capacity ∧
    (∀ fuel, insert_leaf cfg (fuel + 1) s1 target key value =
      (.ok ⟨0, 0, false⟩,
        persist_node { s1 with mem := append_counted s1.mem target key value } target)) ∧
    (∀ fuel, insert_leaf cfg (fuel + 2) s off key value =
      (.ok sres,
        persist_node { s1 with mem := append_counted s1.mem target key value } target)) ∧
    s1.allocated_blocks = s.allocated_blocks + 1 := by
  obtain ⟨hb, hl, hkc⟩ := owned_leaf cfg s off hown
  have hfull' : key_count s.mem off = cfg.leaf_capacity := by omega
  have hlc := henv.2.1
  have spec := split_leaf_spec cfg s off henv hb hfull' _ _ hs
  simp only at spec
  obtain ⟨hd, _, okn, _, _, _, _, e1, e2⟩ := spec
  have hlen : (List.insertionSort (fun a b : LeafEntry => a.key ≤ b.key)
      (leaf_entries s.mem off)).length = cfg.leaf_capacity := by
    rw [List.length_insertionSort, leaf_entries_length, hfull']
  have k1 : key_count s1.mem off = cfg.leaf_capacity / 2 := by
    rw [← leaf_entries_length, e1, List.length_take, hlen]
    omega
  have k2 : key_count s1.mem sres.new_child_offset =
      cfg.leaf_capacity - cfg.leaf_capacity / 2 := by
    rw [← leaf_entries_length, e2, List.length_drop, hlen]
  have h64o := blockOk_ge s off hb
  have h64n := blockOk_ge s1 _ okn
  have hroom : key_count s1.mem target < cfg.leaf_capacity := by
    rw [ht]; split <;> omega
  have h0 : target ≠ 0 := by rw [ht]; split <;> omega
  have hnest := fun fuel => insert_leaf_room cfg fuel s1 target key value h0 hroom
  refine ⟨hd, k1, k2, by omega, by omega, hnest, ?_, split_leaf_allocs cfg s off sres s1 hs⟩
  intro fuel
  conv => lhs; unfold insert_leaf
  rw [if_neg (by omega), if_neg hfull, hs]
  simp only
  rw [← ht, hnest fuel]

/-- `insert_leaf` on a leaf of a well-formed tree allocates one block when it
splits and none otherwise. -/
theorem insert_leaf_allocs (cfg : BTreeConfig) (key value : Int) (fuel : Nat) (s : Manager)
    (off : Nat) (henv : Env cfg s) (hown : Owned cfg s 0 off) (res : InsertResult)
    (s' : Manager) (h : insert_leaf cfg fuel s off key value = (.ok res, s')) :
    s'.allocated_blocks = s.allocated_blocks + (if res.did_split = true then 1 else 0) := by
  obtain ⟨hb, hl, hkc⟩ := owned_leaf cfg s off hown
  have h64o := blockOk_ge s off hb
  cases fuel with
  | zero => simp [insert_leaf] at h
  | succ f =>
    by_cases hroom : key_count s.mem off < cfg.leaf_capacity
    · rw [insert_leaf_room cfg f s off key value (by omega) hroom] at h
      simp only [Prod.mk.injEq, Except.ok.injEq] at h
      rw [← h.2, ← h.1, persist_node_allocs]
      simp
    · conv at h => lhs; unfold insert_leaf
      rw [if_neg (by omega), if_neg hroom] at h
      split at h
      · simp at h
      · rename_i sres s1 hs
        have sp := split_then_append cfg key value s off henv hown hroom sres s1 hs _ rfl
        cases f with
        | zero => simp [insert_leaf] at h
        | succ f' =>
          rw [sp.2.2.2.2.2.1 f'] at h
          simp only [Prod.mk.injEq, Except.ok.injEq] at h
          rw [← h.2, ← h.1, persist_node_allocs, sp.1, sp.2.2.2.2.2.2.2]
          simp

/-- `insert_internal` below a node of height `h` of a well-formed tree allocates at
most `h` blocks when it returns no split and at most `h + 1` when it returns one. -/
theorem insert_internal_allocs (cfg : BTreeConfig) (key value : Int) :
    ∀ (h fuel : Nat) (s : Manager) (off : Nat), Env cfg s → Owned cfg s h off →
      ∀ (res : InsertResult) (s' : Manager),
        insert_internal cfg fuel s off key value = (.ok res, s') →
        s'.allocated_blocks ≤ s.allocated_blocks + h + (if res.did_split = true then 1 else 0) := by
  intro h
  induction h with
  | zero =>
    intro fuel s off henv hown res s' hrun
    obtain ⟨hb, hl, hkc⟩ := owned_leaf cfg s off hown
    have h64o := blockOk_ge s off hb
    cases fuel with
    | zero => simp [insert_internal] at hrun
    | succ f =>
      rw [insert_internal_leaf cfg f s off key value (by omega) hl] at hrun
      have := insert_leaf_allocs cfg key value f s off henv hown res s' hrun
      omega
  | succ h ih =>
    intro fuel s off henv hown res s' hrun
    obtain ⟨hl, hkc, _, hb, _⟩ := owned_node cfg s h off hown
    have h64o := blockOk_ge s off hb
    cases fuel with
    | zero => simp [insert_internal] at hrun
    | succ f =>
      conv at hrun => lhs; unfold insert_internal
      rw [if_neg (by omega), hl] at hrun
      simp only [Bool.false_eq_true, if_false] at hrun
      unfold insert_internal_node at hrun
      simp only at hrun
      have hidx := (scan_keys_spec s.mem (get_internal_keys off) key (key_count s.mem off) 0).2.1
      have hc : child cfg s.mem off
          (scan_keys s.mem (get_internal_keys off) key (key_count s.mem off) 0) ∈
          node_children cfg s.mem off := (mem_node_children cfg s.mem off _).mpr ⟨_, by omega, rfl⟩
      have hoc := owned_child cfg s h off _ hown hc
      split at hrun
      · simp at hrun
      · rename_i cres s1 heq
        have hrec := ih f s _ henv hoc cres s1 heq
        split at hrun
        · rename_i hd
          rw [if_pos hd] at hrec
          split at hrun
          · simp only [Prod.mk.injEq, Except.ok.injEq] at hrun
            rw [← hrun.2, ← hrun.1, install_pivot_allocs]
            simp only [Bool.false_eq_true, if_false]
            omega
          · split at hrun
            · simp at hrun
            · rename_i my s2 hsp
              simp only [Prod.mk.injEq, Except.ok.injEq] at hrun
              have := split_internal_allocs cfg s1 off my s2 hsp
              rw [← hrun.2, ← hrun.1, install_pivot_allocs, this.1, this.2]
              simp only [if_true]
              omega
        · rename_i hd
          rw [if_neg hd] at hrec
          simp only [Prod.mk.injEq, Except.ok.injEq] at hrun
          rw [← hrun.2, ← hrun.1]
          simp only [Bool.false_eq_true, if_false]
          omega

/-- A completed `insert` on a well-formed tree of height `h` allocates at most
`h + 2` blocks: one for a leaf split, one for the split of an internal node on
each of the `h` levels, one for a new root. -/
theorem insert_allocs (fuel : Nat) (t : BTree) (key value : Int) (h : Nat)
    (hok : TreeOk t h) (t' : BTree) (hrun : insert fuel t key value = (.ok (), t')) :
    t'.manager.allocated_blocks ≤ t.manager.allocated_blocks + h + 2 := by
  unfold insert at hrun
  split at hrun
  · simp at hrun
  · rename_i res s1 heq
    have hrec := insert_internal_allocs t.config key value h fuel t.manager t.root_offset
      hok.1 hok.2 res s1 heq
    split at hrun
    · split at hrun
      · simp at hrun
      · rename_i nr s2 ha
        obtain ⟨b, _, _, _, _, _, _, _, hal, _⟩ := Manager.alloc_block_ok s1 s2 nr ha
        split at hrun
        · simp at hrun
        · simp only [Prod.mk.injEq, true_and] at hrun
          rw [← hrun]
          simp only
          rw [set_root_allocs, persist_node_allocs]
          simp only
          split at hrec <;> omega
    · simp only [Prod.mk.injEq, true_and] at hrun
      rw [← hrun]
      simp only
      split at hrec <;> omega

end BTree

/-! ## Mark phase: counts, and the push loop as written -/

namespace GarbageCollector

theorem marked_add_unmarked (n : Nat) (r : Nat → Bool) :
    marked_blocks n r + unmarked n r = n := by
  unfold marked_blocks unmarked
  induction n with
  | zero => rfl
  | succ n ih =>
    rw [List.range_succ, List.countP_append, List.countP_append]
    simp only [List.countP_cons, List.countP_nil]
    cases r n <;> simp <;> omega

theorem mark_step_count (m : Mem) (bs n mk lc offset : Nat) (st : MarkState)
    (h : st.marked_count + unmarked n st.reachable = n) :
    (mark_step m bs n mk lc offset st).marked_count +
      unmarked n (mark_step m bs n mk lc offset st).reachable = n := by
  unfold mark_step
  simp only
  split
  · exact h
  · rename_i hlt
    split
    · exact h
    · rename_i hnr
      have hun := unmarked_set n (offset / bs) st.reachable (by omega) (by simpa using hnr)
      simp only
      omega

theorem mark_loop_count (m : Mem) (bs n mk lc : Nat) :
    ∀ (fuel : Nat) (st : MarkState), st.marked_count + unmarked n st.reachable = n →
      (mark_loop m bs n mk lc fuel st).marked_count +
        unmarked n (mark_loop m bs n mk lc fuel st).reachable = n := by
  intro fuel
  induction fuel with
  | zero => intro st h; exact h
  | succ f ih =>
    intro st h
    unfold mark_loop
    cases hs : st.stack with
    | nil => exact h
    | cons offset rest =>
      simp only
      exact ih _ (mark_step_count m bs n mk lc offset _ h)

/-- `nodes_marked()` is the number of marked block indices, each counted once. -/
theorem mark_count (s : Manager) (root mk lc : Nat) :
    (mark s root mk lc).marked_count = marked_blocks s.block_count (mark s root mk lc).reachable ∧
    (mark s root mk lc).marked_count ≤ s.block_count := by
  have h := mark_loop_count s.mem s.block_size s.block_count mk lc (mark_rounds s.block_count)
    { stack := if root ≠ 0 then [root] else [], reachable := fun _ => false, marked_count := 0 }
    (by
      simp only [Nat.zero_add]
      have := marked_add_unmarked s.block_count (fun _ => false)
      unfold marked_blocks at this
      simp only [List.countP_false, Function.const, Nat.zero_add] at this
      exact this)
  have h2 := marked_add_unmarked s.block_count (mark s root mk lc).reachable
  unfold mark
  unfold mark at h2
  omega

theorem mark_loop_stable (m : Mem) (bs n mk lc : Nat) :
    ∀ (fuel : Nat) (st : MarkState) (k : Nat), (mark_loop m bs n mk lc fuel st).stack = [] →
      mark_loop m bs n mk lc (fuel + k) st = mark_loop m bs n mk lc fuel st := by
  intro fuel
  induction fuel with
  | zero =>
    intro st k h
    have hs : st.stack = [] := h
    cases k with
    | zero => rfl
    | succ k =>
      rw [Nat.zero_add]
      unfold mark_loop
      rw [hs]
  | succ f ih =>
    intro st k h
    have e : f + 1 + k = (f + k) + 1 := by omega
    rw [e]
    unfold mark_loop
    unfold mark_loop at h
    cases hs : st.stack with
    | nil => rfl
    | cons offset rest =>
      rw [hs] at h
      simp only at h ⊢
      exact ih _ k h

/-! ### The push loop with its `int` counter -/

theorem ofInt32_natCast (n : Nat) (h : n < 4294967296) : ofInt32 (n : Int) = n := by
  unfold ofInt32
  omega

theorem toInt32_small (n : Nat) (h : n < 2147483648) : toInt32 n = (n : Int) := by
  unfold toInt32
  rw [if_pos h]

/-- When `key_count + 1` is a value of an `int` and the child words `0 .. key_count`
lie inside the region, the push loop as written ends and pushes what the loop over
the slots `0 .. key_count` pushes. -/
theorem push_loop_eq (m : Mem) (rs children count : Nat) (hc : count + 1 < 2147483648)
    (hin : children + 8 * (count + 1) ≤ rs) :
    ∀ (k i fuel : Nat) (stack : List Nat), i + k = count + 1 → k + 1 ≤ fuel →
      push_loop m rs children count fuel (i : Int) stack =
        .ok ((List.range' i k).foldl (fun st j =>
          if rd64 m (children + 8 * j) ≠ 0 then rd64 m (children + 8 * j) :: st else st) stack) := by
  intro k
  induction k with
  | zero =>
    intro i fuel stack hi hf
    obtain ⟨f, rfl⟩ : ∃ f, fuel = f + 1 := ⟨fuel - 1, by omega⟩
    unfold push_loop
    rw [ofInt32_natCast i (by omega), if_neg (by omega)]
    rfl
  | succ k ih =>
    intro i fuel stack hi hf
    obtain ⟨f, rfl⟩ : ∃ f, fuel = f + 1 := ⟨fuel - 1, by omega⟩
    unfold push_loop
    rw [ofInt32_natCast i (by omega), if_pos (by omega), if_neg (by omega), if_neg (by omega)]
    have e1 : ((i : Int) + 1) = ((i + 1 : Nat) : Int) := by push_cast; rfl
    have e2 : ((children : Int) + 8 * (i : Int)).toNat = children + 8 * i := by omega
    rw [e1, e2, ih (i + 1) f _ (by omega) (by omega), List.range'_succ, List.foldl_cons]

theorem push_loop_children (m : Mem) (rs children count inner : Nat) (stack : List Nat)
    (hc : count + 1 < 2147483648) (hin : children + 8 * (count + 1) ≤ rs)
    (hi : 2147483648 ≤ inner) :
    push_loop m rs children count inner 0 stack =
      .ok (push_children m children count stack) := by
  have := push_loop_eq m rs children count hc hin (count + 1) 0 inner stack (by omega) (by omega)
  unfold push_children
  rw [List.range_eq_range']
  exact this

/-- When a child word with an index `k <= key_count` does not lie inside the region,
the push loop as written does not end normally, whatever rounds it is given. -/
theorem push_loop_not_ok (m : Mem) (rs children count k : Nat) (hk : k ≤ count)
    (hk31 : k < 2147483648) (hout : rs < children + 8 * k + 8) :
    ∀ (fuel i : Nat) (stack st : List Nat), i ≤ k →
      push_loop m rs children count fuel (i : Int) stack ≠ .ok st := by
  intro fuel
  induction fuel with
  | zero =>
    intro i stack st _ h
    unfold push_loop at h
    cases h
  | succ f ih =>
    intro i stack st hik h
    unfold push_loop at h
    rw [ofInt32_natCast i (by omega), if_pos (by omega)] at h
    by_cases hb : (children : Int) + 8 * (i : Int) < 0 ∨
        (rs : Int) < (children : Int) + 8 * (i : Int) + 8
    · rw [if_pos hb] at h
      cases h
    · rw [if_neg hb, if_neg (by omega)] at h
      have e1 : ((i : Int) + 1) = ((i + 1 : Nat) : Int) := by push_cast; rfl
      rw [e1] at h
      exact ih (i + 1) _ st (by omega) h

/-- With enough rounds the push loop as written reaches the first child word that
does not lie inside the region and faults there. -/
theorem push_loop_fault (m : Mem) (rs children count : Nat) (hch : children ≤ rs)
    (hk : (rs - children) / 8 ≤ count) (hk31 : (rs - children) / 8 < 2147483648) :
    ∀ (fuel i : Nat) (stack : List Nat), i ≤ (rs - children) / 8 →
      (rs - children) / 8 - i + 1 ≤ fuel →
      push_loop m rs children count fuel (i : Int) stack = .error .read_outside_region := by
  intro fuel
  induction fuel with
  | zero => intro i stack _ h; omega
  | succ f ih =>
    intro i stack hik hf
    unfold push_loop
    rw [ofInt32_natCast i (by omega), if_pos (by omega)]
    by_cases hb : (children : Int) + 8 * (i : Int) < 0 ∨
        (rs : Int) < (children : Int) + 8 * (i : Int) + 8
    · rw [if_pos hb]
    · rw [if_neg hb, if_neg (by omega)]
      have e1 : ((i : Int) + 1) = ((i + 1 : Nat) : Int) := by push_cast; rfl
      rw [e1]
      exact ih (i + 1) _ (by omega) (by omega)

theorem mark_step_int_eq (m : Mem) (rs bs n mk lc inner offset : Nat) (st : MarkState)
    (hleaf : offset / bs < n → BTree.is_leaf m offset = true →
      BTree.get_leaf_next offset lc + 8 ≤ rs)
    (hkc : offset / bs < n → BTree.is_leaf m offset = false →
      BTree.key_count m offset + 1 < 2147483648 ∧
      BTree.get_internal_children offset mk + 8 * (BTree.key_count m offset + 1) ≤ rs)
    (hi : 2147483648 ≤ inner) :
    mark_step_int m rs bs n mk lc inner offset st = .ok (mark_step m bs n mk lc offset st) := by
  unfold mark_step_int mark_step
  simp only
  by_cases h1 : offset / bs ≥ n
  · rw [if_pos h1, if_pos h1]
  · rw [if_neg h1, if_neg h1]
    by_cases h2 : st.reachable (offset / bs) = true
    · rw [if_pos h2, if_pos h2]
    · rw [if_neg h2, if_neg h2]
      cases hl : BTree.is_leaf m offset with
      | true =>
        have hb := hleaf (by omega) hl
        have hge := get_leaf_next_ge offset lc
        rw [if_neg (by omega)]
        simp only [if_true]
        rw [if_neg (by omega)]
      | false =>
        obtain ⟨hb1, hb2⟩ := hkc (by omega) hl
        have hge := get_internal_children_ge offset mk
        rw [if_neg (by omega)]
        simp only [Bool.false_eq_true, if_false]
        rw [if_neg (by omega), push_loop_children m rs _ _ inner st.stack hb1 hb2 hi]

theorem mark_loop_int_eq (m : Mem) (rs bs n mk lc root inner : Nat)
    (hleaf : ∀ o, Linked m bs n mk lc root o → o / bs < n → BTree.is_leaf m o = true →
      BTree.get_leaf_next o lc + 8 ≤ rs)
    (hkc : ∀ o, Linked m bs n mk lc root o → o / bs < n → BTree.is_leaf m o = false →
      BTree.key_count m o + 1 < 2147483648 ∧
      BTree.get_internal_children o mk + 8 * (BTree.key_count m o + 1) ≤ rs)
    (hi : 2147483648 ≤ inner) :
    ∀ (fuel : Nat) (st : MarkState),
      (∀ o ∈ st.stack, Linked m bs n mk lc root o) →
      (∀ b, st.reachable b = true → b < n ∧ ∃ o, Linked m bs n mk lc root o ∧ o / bs = b) →
      (mark_loop m bs n mk lc fuel st).stack = [] →
      mark_loop_int m rs bs n mk lc inner fuel st = .ok (mark_loop m bs n mk lc fuel st) := by
  intro fuel
  induction fuel with
  | zero =>
    intro st _ _ h
    have hs : st.stack = [] := h
    unfold mark_loop_int mark_loop
    rw [if_pos hs]
  | succ f ih =>
    intro st hst hr h
    unfold mark_loop_int
    unfold mark_loop at h ⊢
    cases hs : st.stack with
    | nil => rfl
    | cons offset rest =>
      rw [hs] at h
      simp only at h ⊢
      have hst' : ∀ o ∈ ({ st with stack := rest } : MarkState).stack,
          Linked m bs n mk lc root o := by
        intro o ho
        exact hst o (by rw [hs]; exact List.mem_cons_of_mem _ ho)
      have hoff : Linked m bs n mk lc root offset := hst offset (by rw [hs]; simp)
      have step := mark_step_spec m bs n mk lc root offset { st with stack := rest } hoff hst' hr
      rw [mark_step_int_eq m rs bs n mk lc inner offset _ (hleaf offset hoff) (hkc offset hoff) hi]
      simp only
      exact ih _ step.1 step.2.1 h

/-- When the loads of the linked nodes lie inside the region and their push loops
end, the mark phase as written ends within `mark_rounds` rounds, with the state of
`mark`. -/
theorem mark_int_eq (s : Manager) (root mk lc rounds inner : Nat)
    (hleaf : ∀ o, Linked s.mem s.block_size s.block_count mk lc root o →
      o / s.block_size < s.block_count → BTree.is_leaf s.mem o = true →
      BTree.get_leaf_next o lc + 8 ≤ s.region_size)
    (hkc : ∀ o, Linked s.mem s.block_size s.block_count mk lc root o →
      o / s.block_size < s.block_count → BTree.is_leaf s.mem o = false →
      BTree.key_count s.mem o + 1 < 2147483648 ∧
      BTree.get_internal_children o mk + 8 * (BTree.key_count s.mem o + 1) ≤ s.region_size)
    (hr : mark_rounds s.block_count ≤ rounds) (hi : 2147483648 ≤ inner) :
    mark_int s root mk lc rounds inner = .ok (mark s root mk lc) := by
  have hsp := mark_spec s root mk lc
  obtain ⟨k, rfl⟩ : ∃ k, rounds = mark_rounds s.block_count + k :=
    ⟨rounds - mark_rounds s.block_count, by omega⟩
  have hst := mark_loop_stable s.mem s.block_size s.block_count mk lc (mark_rounds s.block_count)
    { stack := if root ≠ 0 then [root] else [], reachable := fun _ => false, marked_count := 0 }
    k hsp.1
  unfold mark_int
  unfold mark at hsp ⊢
  rw [← hst]
  apply mark_loop_int_eq s.mem s.region_size s.block_size s.block_count mk lc root inner
    hleaf hkc hi
  · intro o ho
    split at ho
    · rename_i h
      rw [List.mem_singleton.mp ho]
      exact Linked.root h
    · simp at ho
  · intro b hb; simp at hb
  · rw [hst]; exact hsp.1

end GarbageCollector

/-! ## Completeness of the mark phase -/

namespace GarbageCollector

theorem push_children_mem (m : Mem) (children count : Nat) (stack : List Nat) :
    (∀ x ∈ stack, x ∈ push_children m children count stack) ∧
    (∀ i, i ≤ count → rd64 m (children + 8 * i) ≠ 0 →
      rd64 m (children + 8 * i) ∈ push_children m children count stack) := by
  unfold push_children
  have key : ∀ (k : Nat) (stack : List Nat),
      (∀ x ∈ stack, x ∈ (List.range k).foldl (fun st i =>
        if rd64 m (children + 8 * i) ≠ 0 then rd64 m (children + 8 * i) :: st else st) stack) ∧
      (∀ i, i < k → rd64 m (children + 8 * i) ≠ 0 →
        rd64 m (children + 8 * i) ∈ (List.range k).foldl (fun st i =>
          if rd64 m (children + 8 * i) ≠ 0 then rd64 m (children + 8 * i) :: st else st)
          stack) := by
    intro k
    induction k with
    | zero =>
      intro stack
      exact ⟨fun x hx => hx, fun i hi => absurd hi (by omega)⟩
    | succ k ih =>
      intro stack
      rw [List.range_succ, List.foldl_append]
      simp only [List.foldl_cons, List.foldl_nil]
      obtain ⟨h1, h2⟩ := ih stack
      constructor
      · intro x hx
        split
        · exact List.mem_cons_of_mem _ (h1 x hx)
        · exact h1 x hx
      · intro i hi hne
        by_cases hik : i = k
        · subst hik
          rw [if_pos hne]
          exact List.mem_cons_self _ _
        · split
          · exact List.mem_cons_of_mem _ (h2 i (by omega) hne)
          · exact h2 i (by omega) hne
  exact ⟨(key _ stack).1, fun i hi hne => (key _ stack).2 i (by omega) hne⟩

theorem pending_mono (bs n : Nat) (st st1 : MarkState) (offset : Nat)
    (hs : ∀ x ∈ st.stack, x ∈ st1.stack)
    (hr : ∀ b, st.reachable b = true → st1.reachable b = true)
    (hoff : n ≤ offset / bs ∨ st1.reachable (offset / bs) = true) (x : Nat)
    (h : Pending bs n { st with stack := offset :: st.stack } x) : Pending bs n st1 x := by
  rcases h with h | h | h
  · rcases List.mem_cons.mp h with rfl | h
    · exact Or.inr hoff
    · exact Or.inl (hs x h)
  · exact Or.inr (Or.inl h)
  · exact Or.inr (Or.inr (hr _ h))

/-- One round of the mark loop keeps the progress invariant, when no two linked
offsets lie in one block. -/
theorem mark_step_closed (m : Mem) (bs n mk lc root offset : Nat) (st : MarkState)
    (hinj : ∀ o o', Linked m bs n mk lc root o → Linked m bs n mk lc root o' →
      o / bs = o' / bs → o = o')
    (hoff : Linked m bs n mk lc root offset)
    (hcl : Closed m bs n mk lc root { st with stack := offset :: st.stack }) :
    Closed m bs n mk lc root (mark_step m bs n mk lc offset st) := by
  unfold mark_step
  simp only
  split
  · rename_i hge
    have hm := pending_mono bs n st st offset (fun x hx => hx) (fun b hb => hb) (Or.inl hge)
    refine ⟨fun h0 => hm _ (hcl.1 h0), ?_⟩
    intro o ho hlt hre
    obtain ⟨a, b⟩ := hcl.2 o ho hlt hre
    exact ⟨fun h1 h2 => hm _ (a h1 h2), fun h1 i hi h2 => hm _ (b h1 i hi h2)⟩
  · rename_i hlt0
    split
    · rename_i hre0
      have hm := pending_mono bs n st st offset (fun x hx => hx) (fun b hb => hb) (Or.inr hre0)
      refine ⟨fun h0 => hm _ (hcl.1 h0), ?_⟩
      intro o ho hlt hre
      obtain ⟨a, b⟩ := hcl.2 o ho hlt hre
      exact ⟨fun h1 h2 => hm _ (a h1 h2), fun h1 i hi h2 => hm _ (b h1 i hi h2)⟩
    · rename_i hre0
      have hsub : ∀ x ∈ st.stack, x ∈
          (if BTree.is_leaf m offset = true then
            (if rd64 m (BTree.get_leaf_next offset lc) ≠ 0 then
              rd64 m (BTree.get_leaf_next offset lc) :: st.stack
            else st.stack)
          else push_children m (BTree.get_internal_children offset mk)
            (BTree.key_count m offset) st.stack) := by
        intro x hx
        split
        · split
          · exact List.mem_cons_of_mem _ hx
          · exact hx
        · exact (push_children_mem m _ _ st.stack).1 x hx
      have hm := pending_mono bs n st
        { stack :=
            if BTree.is_leaf m offset = true then
              (if rd64 m (BTree.get_leaf_next offset lc) ≠ 0 then
                rd64 m (BTree.get_leaf_next offset lc) :: st.stack
              else st.stack)
            else push_children m (BTree.get_internal_children offset mk)
              (BTree.key_count m offset) st.stack
          reachable := fun b => if b = offset / bs then true else st.reachable b
          marked_count := st.marked_count + 1 } offset hsub
        (fun b hb => by
          show (if b = offset / bs then true else st.reachable b) = true
          split
          · rfl
          · exact hb)
        (Or.inr (by
          show (if offset / bs = offset / bs then true else st.reachable (offset / bs)) = true
          rw [if_pos rfl]))
      refine ⟨fun h0 => hm _ (hcl.1 h0), ?_⟩
      intro o ho hlt hre
      by_cases hob : o / bs = offset / bs
      · have heq := hinj o offset ho hoff hob
        subst heq
        constructor
        · intro h1 h2
          refine Or.inl ?_
          show _ ∈ (if BTree.is_leaf m o = true then _ else _)
          rw [if_pos h1, if_pos h2]
          exact List.mem_cons_self _ _
        · intro h1 i hi h2
          refine Or.inl ?_
          show _ ∈ (if BTree.is_leaf m o = true then _ else _)
          rw [if_neg (by rw [h1]; simp)]
          exact (push_children_mem m _ _ st.stack).2 i hi h2
      · have hre' : st.reachable (o / bs) = true := by
          have : (if o / bs = offset / bs then true else st.reachable (o / bs)) = true := hre
          rw [if_neg hob] at this
          exact this
        obtain ⟨a, b⟩ := hcl.2 o ho hlt hre'
        exact ⟨fun h1 h2 => hm _ (a h1 h2), fun h1 i hi h2 => hm _ (b h1 i hi h2)⟩

theorem mark_loop_closed (m : Mem) (bs n mk lc root : Nat)
    (hinj : ∀ o o', Linked m bs n mk lc root o → Linked m bs n mk lc root o' →
      o / bs = o' / bs → o = o') :
    ∀ (fuel : Nat) (st : MarkState),
      (∀ o ∈ st.stack, Linked m bs n mk lc root o) →
      (∀ b, st.reachable b = true → b < n ∧ ∃ o, Linked m bs n mk lc root o ∧ o / bs = b) →
      Closed m bs n mk lc root st →
      Closed m bs n mk lc root (mark_loop m bs n mk lc fuel st) := by
  intro fuel
  induction fuel with
  | zero => intro st _ _ h; exact h
  | succ f ih =>
    intro st hst hr hcl
    unfold mark_loop
    cases hs : st.stack with
    | nil => exact hcl
    | cons offset rest =>
      simp only
      have hst' : ∀ o ∈ ({ st with stack := rest } : MarkState).stack,
          Linked m bs n mk lc root o := by
        intro o ho
        exact hst o (by rw [hs]; exact List.mem_cons_of_mem _ ho)
      have hoff : Linked m bs n mk lc root offset := hst offset (by rw [hs]; simp)
      have step := mark_step_spec m bs n mk lc root offset { st with stack := rest } hoff hst' hr
      refine ih _ step.1 step.2.1 ?_
      apply mark_step_closed m bs n mk lc root offset { st with stack := rest } hinj hoff
      have e : ({ ({ st with stack := rest } : MarkState) with
          stack := offset :: ({ st with stack := rest } : MarkState).stack } : MarkState) = st := by
        cases st
        simp only at hs
        simp only [hs]
      rw [e]
      exact hcl

/-- When no two offsets linked from the root lie in one block, the mark phase
marks the block of every linked offset whose block index is below `block_count`. -/
theorem mark_complete (s : Manager) (root mk lc : Nat)
    (hinj : ∀ o o', Linked s.mem s.block_size s.block_count mk lc root o →
      Linked s.mem s.block_size s.block_count mk lc root o' →
      o / s.block_size = o' / s.block_size → o = o') :
    ∀ o, Linked s.mem s.block_size s.block_count mk lc root o →
      o / s.block_size < s.block_count →
      (mark s root mk lc).reachable (o / s.block_size) = true := by
  have hsp := mark_spec s root mk lc
  have hcl : Closed s.mem s.block_size s.block_count mk lc root (mark s root mk lc) := by
    unfold mark
    apply mark_loop_closed s.mem s.block_size s.block_count mk lc root hinj
    · intro o ho
      split at ho
      · rename_i h
        rw [List.mem_singleton.mp ho]
        exact Linked.root h
      · simp at ho
    · intro b hb; simp at hb
    · constructor
      · intro h0
        refine Or.inl ?_
        show root ∈ (if root ≠ 0 then [root] else [])
        rw [if_pos h0]
        exact List.mem_singleton.mpr rfl
      · intro o _ _ hre
        simp at hre
  have hdone : ∀ x, Pending s.block_size s.block_count (mark s root mk lc) x →
      x / s.block_size < s.block_count →
      (mark s root mk lc).reachable (x / s.block_size) = true := by
    intro x hp hlt
    rcases hp with h | h | h
    · rw [hsp.1] at h
      simp at h
    · omega
    · exact h
  intro o ho
  induction ho with
  | root h0 => exact hdone _ (hcl.1 h0)
  | next o hlo hlt hleaf hne ih => exact hdone _ ((hcl.2 o hlo hlt (ih hlt)).1 hleaf hne)
  | child o i hlo hlt hleaf hi hne ih =>
    exact hdone _ ((hcl.2 o hlo hlt (ih hlt)).2 hleaf i hi hne)

theorem linked_within (m : Mem) (bs n mk lc root : Nat) (P : Nat → Prop)
    (hroot : root ≠ 0 → P root)
    (hnext : ∀ o, P o → o / bs < n → BTree.is_leaf m o = true →
      rd64 m (BTree.get_leaf_next o lc) ≠ 0 → P (rd64 m (BTree.get_leaf_next o lc)))
    (hchild : ∀ o i, P o → o / bs < n → BTree.is_leaf m o = false → i ≤ BTree.key_count m o →
      rd64 m (BTree.get_internal_children o mk + 8 * i) ≠ 0 →
      P (rd64 m (BTree.get_internal_children o mk + 8 * i))) :
    ∀ o, Linked m bs n mk lc root o → P o := by
  intro o h
  induction h with
  | root h0 => exact hroot h0
  | next o _ hlt hleaf hne ih => exact hnext o ih hlt hleaf hne
  | child o i _ hlt hleaf hi hne ih => exact hchild o i ih hlt hleaf hi hne

end GarbageCollector

/-! ## The collector in the course of a leaf split -/

namespace BTree

theorem blocks_apart (bs b b' : Nat) (hne : b ≠ b') :
    b * bs + bs ≤ b' * bs ∨ b' * bs + bs ≤ b * bs := by
  rcases Nat.lt_or_gt_of_ne hne with h | h
  · left
    have := Nat.mul_le_mul_right bs (Nat.succ_le_of_lt h)
    rw [Nat.succ_mul] at this
    exact this
  · right
    have := Nat.mul_le_mul_right bs (Nat.succ_le_of_lt h)
    rw [Nat.succ_mul] at this
    exact this

/-- What the mark phase reads of a node of the tree other than the leaf in the
course of being split is what it read before the split. -/
theorem window_reads (t : BTree) (h : Nat) (hok : TreeOk t h) (old new b : Nat)
    (hnew : new = b * t.manager.block_size) (hbit : t.manager.block_bit b = false)
    (pub : Bool) (w : Manager) (hw : SplitWindow t old new pub w)
    (hold : BlockOk t.manager old) (o : Nat)
    (ho : o ∈ blocks t.config t.manager.mem h t.root_offset) (hne : o ≠ old) :
    is_leaf w.mem o = is_leaf t.manager.mem o ∧
    key_count w.mem o = key_count t.manager.mem o ∧
    rd64 w.mem (get_leaf_next o t.config.leaf_capacity) =
      rd64 t.manager.mem (get_leaf_next o t.config.leaf_capacity) ∧
    (∀ i, i ≤ t.config.max_keys →
      rd64 w.mem (get_internal_children o t.config.max_keys + 8 * i) =
        rd64 t.manager.mem (get_internal_children o t.config.max_keys + 8 * i)) := by
  obtain ⟨henv, hsh, hnd, hbk⟩ := hok
  have hbs := fits_block_size t.config t.manager.block_size henv.1
  have hbo := hbk o ho
  have hge := blockOk_ge t.manager o hbo
  have hsep := blockOk_sep t.manager o old hbo hold hne
  have hfit := blockOk_fits t.config t.manager o henv.1 hbo
  obtain ⟨f1, f2, f3, f4, f5⟩ := nodeFits_bounds t.config t.manager.block_size o hfit
  obtain ⟨bo, hbo1, _, hbo3, _⟩ := hbo
  have hbne : bo ≠ b := by
    intro e
    rw [e, hbit] at hbo3
    exact Bool.noConfusion hbo3
  have hap := blocks_apart t.manager.block_size bo b hbne
  rw [← hbo1, ← hnew] at hap
  have hsame : ∀ x, o ≤ x → x < o + t.manager.block_size → w.mem x = t.manager.mem x := by
    intro x h1 h2
    exact hw.2.2.2.1 x (by omega) (by omega) (by omega)
  refine ⟨is_leaf_congr _ _ _ (hsame o (by omega) (by omega)),
    key_count_congr _ _ _ (fun x h1 h2 => hsame x (by omega) (by omega)),
    rd64_congr _ _ _ (fun x h1 h2 => hsame x (by omega) (by omega)), ?_⟩
  intro i hi
  exact rd64_congr _ _ _ (fun x h1 h2 => hsame x (by omega) (by omega))

end BTree

namespace GarbageCollector

open BTree

theorem collect_reachable (s : Manager) (root mk lc : Nat) :
    (collect s root mk lc).2.reachable = (mark s root mk lc).reachable := rfl

/-- In the course of the split of a leaf of a well-formed tree every offset linked
from the root is a node of the tree or, once the swap is done, the new leaf. -/
theorem window_linked (t : BTree) (h r : Nat) (hok : TreeOk t h) (hl : Links t h r)
    (old new b : Nat) (hold : old ∈ leaves t.config t.manager.mem h t.root_offset)
    (hnew : new = b * t.manager.block_size) (hbit : t.manager.block_bit b = false)
    (pub : Bool) (w : Manager) (hw : SplitWindow t old new pub w) :
    ∀ o, Linked w.mem w.block_size w.block_count t.config.max_keys t.config.leaf_capacity
        t.root_offset o →
      o ∈ blocks t.config t.manager.mem h t.root_offset ∨ (pub = true ∧ o = new) := by
  have hbc : w.block_count = t.manager.block_count := block_count_congr _ _ hw.1 hw.2.1
  have holdb := mem_leaves_blocks _ _ _ _ _ hold
  have holdok := hok.2.2.2 old holdb
  have hnext : ∀ l, l ∈ leaves t.config t.manager.mem h t.root_offset →
      rd64 t.manager.mem (get_leaf_next l t.config.leaf_capacity) ≠ 0 →
      rd64 t.manager.mem (get_leaf_next l t.config.leaf_capacity) ∈
        blocks t.config t.manager.mem h t.root_offset := by
    intro l hlm hne
    rcases hl.2 l hlm with c | c
    · exact absurd c hne
    · exact mem_leaves_blocks _ _ _ _ _ c
  have hwn : rd64 w.mem (get_leaf_next new t.config.leaf_capacity) =
      rd64 t.manager.mem (get_leaf_next old t.config.leaf_capacity) := hw.2.2.2.2.2.2.2
  have hwo : rd64 w.mem (get_leaf_next old t.config.leaf_capacity) =
      (if pub = true then new
        else rd64 t.manager.mem (get_leaf_next old t.config.leaf_capacity)) :=
    hw.2.2.2.2.2.2.1
  have hlm : ∀ o, o ∈ blocks t.config t.manager.mem h t.root_offset →
      Linked t.manager.mem t.manager.block_size t.manager.block_count t.config.max_keys
        t.config.leaf_capacity t.root_offset o :=
    fun o ho => (linked_iff_blocks t h r hok hl o).mpr ho
  apply linked_within
  · intro _
    exact Or.inl (mem_blocks_self _ _ _ _)
  · intro o hP hlt hleaf hne
    rcases hP with hin | ⟨hp, rfl⟩
    · by_cases hoo : o = old
      · subst hoo
        rw [hwo] at hne ⊢
        cases pub with
        | true => exact Or.inr ⟨rfl, rfl⟩
        | false => exact Or.inl (hnext o hold hne)
      · obtain ⟨r1, _, r3, _⟩ := window_reads t h hok old new b hnew hbit pub w hw holdok
          o hin hoo
        rw [r3] at hne ⊢
        rw [r1] at hleaf
        exact Or.inl (hnext o ((mem_leaves_iff _ _ _ _ _ hok.2.1).mpr ⟨hin, hleaf⟩) hne)
    · rw [hwn] at hne ⊢
      exact Or.inl (hnext old hold hne)
  · intro o i hP hlt hleaf hi hne
    rcases hP with hin | ⟨hp, rfl⟩
    · by_cases hoo : o = old
      · subst hoo
        rw [hw.2.2.2.2.1] at hleaf
        exact Bool.noConfusion hleaf
      · obtain ⟨r1, r2, _, r4⟩ := window_reads t h hok old new b hnew hbit pub w hw holdok
          o hin hoo
        rw [r1] at hleaf
        rw [r2] at hi
        obtain ⟨h', _, hs', _⟩ := subtree_of_mem t.config t.manager.mem h t.root_offset o
          hok.2.1 hin
        have hkm : key_count t.manager.mem o ≤ t.config.max_keys := by
          cases h' with
          | zero =>
            rw [shape_zero] at hs'
            rw [hs'.1] at hleaf
            exact Bool.noConfusion hleaf
          | succ k =>
            rw [shape_succ] at hs'
            exact hs'.2.1
        rw [r4 i (by omega)] at hne ⊢
        have hbo := hok.2.2.2 o hin
        obtain ⟨bo, hbo1, hbo2, _, _⟩ := hbo
        have hbs := fits_block_size t.config t.manager.block_size hok.1.1
        have hdiv : o / t.manager.block_size < t.manager.block_count := by
          rw [hbo1, Nat.mul_div_cancel _ (by omega)]
          exact hbo2
        exact Or.inl ((linked_iff_blocks t h r hok hl _).mp
          (Linked.child o i (hlm o hin) hdiv hleaf hi hne))
    · rw [hw.2.2.2.2.2.1] at hleaf
      exact Bool.noConfusion hleaf

/-- In the course of the split of a leaf of a well-formed tree, the block of the new
leaf is allocated; before the swap the mark phase from the root does not mark it
and `collect` clears its bit; from the swap on the mark phase marks it and
`collect` keeps its bit. -/
theorem window_marks (t : BTree) (h r : Nat) (hok : TreeOk t h) (hl : Links t h r)
    (old new b : Nat) (hold : old ∈ leaves t.config t.manager.mem h t.root_offset)
    (hnew : new = b * t.manager.block_size) (hb : b < t.manager.block_count)
    (hbit : t.manager.block_bit b = false)
    (pub : Bool) (w : Manager) (hw : SplitWindow t old new pub w) :
    w.block_bit (new / t.manager.block_size) = true ∧
    (mark w t.root_offset t.config.max_keys t.config.leaf_capacity).reachable
      (new / t.manager.block_size) = pub ∧
    (collect w t.root_offset t.config.max_keys t.config.leaf_capacity).1.block_bit
      (new / t.manager.block_size) = pub := by
  have hbc : w.block_count = t.manager.block_count := block_count_congr _ _ hw.1 hw.2.1
  have hbs := fits_block_size t.config t.manager.block_size hok.1.1
  have hdiv : new / t.manager.block_size = b := by
    rw [hnew, Nat.mul_div_cancel _ (by omega)]
  have hin := window_linked t h r hok hl old new b hold hnew hbit pub w hw
  have holdb := mem_leaves_blocks _ _ _ _ _ hold
  have hnotin : new ∉ blocks t.config t.manager.mem h t.root_offset := by
    intro hc
    obtain ⟨b', e1, _, e3, _⟩ := hok.2.2.2 new hc
    have : b' = b := by
      have := congrArg (fun x => x / t.manager.block_size) e1
      simp only at this
      rw [hdiv, Nat.mul_div_cancel _ (by omega)] at this
      exact this.symm
    rw [this, hbit] at e3
    exact Bool.noConfusion e3
  have halign : ∀ o, o ∈ blocks t.config t.manager.mem h t.root_offset ∨ (pub = true ∧ o = new) →
      o = (o / t.manager.block_size) * t.manager.block_size := by
    intro o ho
    rcases ho with ho | ⟨_, rfl⟩
    · obtain ⟨b', e1, _⟩ := hok.2.2.2 o ho
      rw [e1, Nat.mul_div_cancel _ (by omega)]
    · rw [hdiv]; exact hnew
  have hwbit : w.block_bit (new / t.manager.block_size) = true := by
    rw [hdiv, hw.2.2.1 b hb, hdiv]
    simp
  have hbsw : 0 < w.block_size := by rw [hw.1]; omega
  have hcb := collect_bit w t.root_offset t.config.max_keys t.config.leaf_capacity b hbsw
    (by rw [hbc]; exact hb)
  rw [collect_reachable, ← hdiv] at hcb
  rw [hcb, hwbit, Bool.true_and]
  have hmk : (mark w t.root_offset t.config.max_keys t.config.leaf_capacity).reachable
      (new / t.manager.block_size) = pub := by
    cases pub with
    | false =>
      cases hre : (mark w t.root_offset t.config.max_keys t.config.leaf_capacity).reachable
          (new / t.manager.block_size) with
      | false => rfl
      | true =>
        obtain ⟨_, o, ho, hob⟩ := (mark_spec w t.root_offset t.config.max_keys
          t.config.leaf_capacity).2 _ hre
        have hP := hin o ho
        have ha := halign o hP
        rw [hw.1] at hob
        rw [hob, hdiv, ← hnew] at ha
        rcases hP with hP | ⟨c, _⟩
        · rw [ha] at hP
          exact absurd hP hnotin
        · exact Bool.noConfusion c
    | true =>
      have hinj : ∀ o o', Linked w.mem w.block_size w.block_count t.config.max_keys
          t.config.leaf_capacity t.root_offset o →
          Linked w.mem w.block_size w.block_count t.config.max_keys t.config.leaf_capacity
            t.root_offset o' → o / w.block_size = o' / w.block_size → o = o' := by
        intro o o' ho ho' e
        rw [hw.1] at e
        rw [halign o (hin o ho), halign o' (hin o' ho'), e]
      have hreach : ∀ o, Reaches t.config t.manager.mem t.root_offset o →
          Linked w.mem w.block_size w.block_count t.config.max_keys t.config.leaf_capacity
            t.root_offset o := by
        intro o hr
        induction hr with
        | base =>
          apply Linked.root
          have := blockOk_ge t.manager _ (hok.2.2.2 _ (mem_blocks_self _ _ _ _))
          omega
        | step o i hro hleaf hi ih =>
          have hoin := reaches_mem t.config t.manager.mem h t.root_offset hok.2.1 o hro
          have hoo : o ≠ old := by
            intro e
            rw [e, ((mem_leaves_iff _ _ _ _ _ hok.2.1).mp hold).2] at hleaf
            exact Bool.noConfusion hleaf
          obtain ⟨r1, r2, _, r4⟩ := window_reads t h hok old new b hnew hbit true w hw
            (hok.2.2.2 old holdb) o hoin hoo
          obtain ⟨h', _, hs', _⟩ := subtree_of_mem t.config t.manager.mem h t.root_offset o
            hok.2.1 hoin
          have hkm : key_count t.manager.mem o ≤ t.config.max_keys := by
            cases h' with
            | zero =>
              rw [shape_zero] at hs'
              rw [hs'.1] at hleaf
              exact Bool.noConfusion hleaf
            | succ k =>
              rw [shape_succ] at hs'
              exact hs'.2.1
          have hcin := reaches_mem t.config t.manager.mem h t.root_offset hok.2.1 _
            (Reaches.step o i hro hleaf hi)
          have hcge := blockOk_ge t.manager _ (hok.2.2.2 _ hcin)
          obtain ⟨bo, hbo1, hbo2, _, _⟩ := hok.2.2.2 o hoin
          have hod : o / w.block_size < w.block_count := by
            rw [hw.1, hbc, hbo1, Nat.mul_div_cancel _ (by omega)]
            exact hbo2
          have := @Linked.child w.mem w.block_size w.block_count t.config.max_keys
            t.config.leaf_capacity t.root_offset o i ih hod
            (by rw [r1]; exact hleaf) (by rw [r2]; exact hi) (by rw [r4 i (by omega)]; omega)
          rw [r4 i (by omega)] at this
          exact this
      have holdr := ((leaves_iff_reaches t.config t.manager.mem h t.root_offset hok.2.1 old).mp
        hold).1
      obtain ⟨bo, hbo1, hbo2, _, _⟩ := hok.2.2.2 old holdb
      have hnewge : 64 + 8 * ((t.manager.block_count + 63) / 64) ≤ new := by
        by_contra hc
        have := hok.1.2.2.2 b hb (by rw [← hnew]; omega)
        rw [hbit] at this
        exact Bool.noConfusion this
      have hwo : rd64 w.mem (get_leaf_next old t.config.leaf_capacity) = new :=
        hw.2.2.2.2.2.2.1
      have hln := @Linked.next w.mem w.block_size w.block_count t.config.max_keys
        t.config.leaf_capacity t.root_offset old (hreach old holdr)
        (by rw [hw.1, hbc, hbo1, Nat.mul_div_cancel _ (by omega)]; exact hbo2)
        hw.2.2.2.2.1 (by rw [hwo]; omega)
      rw [hwo] at hln
      have := mark_complete w t.root_offset t.config.max_keys t.config.leaf_capacity hinj new hln
        (by rw [hw.1, hbc, hdiv]; exact hb)
      rw [hw.1] at this
      exact this
  exact ⟨rfl, hmk, hmk⟩

end GarbageCollector

/-! ## The program states of a leaf split -/

namespace BTree

/-- `split_leaf` returns in the state `split_done`. -/
theorem split_leaf_stages (cfg : BTreeConfig) (s s1 : Manager) (old new : Nat) (e : LeafEntry)
    (halloc : s.alloc_block = (.ok new, s1)) (hn0 : new ≠ 0)
    (hget : (split_buffer (wr8 s1.mem new 1) old).get?
      (key_count (wr8 s1.mem new 1) old / 2) = some e) :
    split_leaf cfg s old = (.ok ⟨e.key, new, true⟩, split_done cfg s1 old new) := by
  unfold split_leaf
  rw [halloc]
  simp only [hn0, if_false]
  unfold split_buffer at hget
  rw [hget]
  unfold split_done split_counted split_rewritten split_swapped split_shadow split_buffer
  simp only [List.take_take, Nat.min_self]

theorem window_last {α : Type} (l : List α) :
    ∀ (a x1 x2 x3 x4 x5 : α), (a :: (l ++ [x1, x2, x3, x4, x5])).getLast? = some x5 := by
  induction l with
  | nil => intro a x1 x2 x3 x4 x5; rfl
  | cons b l ih =>
    intro a x1 x2 x3 x4 x5
    rw [List.cons_append, List.getLast?_cons_cons]
    exact ih b x1 x2 x3 x4 x5

theorem split_buffer_length (m : Mem) (old : Nat) :
    (split_buffer m old).length = key_count m old := by
  unfold split_buffer
  rw [List.length_insertionSort, List.length_map, List.length_range]

/-- A store outside the link words and `is_leaf` bytes of the two leaves, the
bitmap, and the other blocks keeps a state of the split what it is to the
collector. -/
theorem window_step (t : BTree) (old new : Nat) (pub : Bool) (w w1 : Manager)
    (hw : SplitWindow t old new pub w)
    (hfo : NodeFits t.config t.manager.block_size old)
    (hfn : NodeFits t.config t.manager.block_size new)
    (hgo : 64 + 8 * ((t.manager.block_count + 63) / 64) ≤ old)
    (hgn : 64 + 8 * ((t.manager.block_count + 63) / 64) ≤ new)
    (hsep : old + t.manager.block_size ≤ new ∨ new + t.manager.block_size ≤ old)
    (hbs : w1.block_size = w.block_size) (hrs : w1.region_size = w.region_size)
    (hm : ∀ x, x < 56 ∨ 64 ≤ x →
      x < old + 4 ∨ old + 12 ≤ x → x < old + 16 ∨ old + 16 + 8 * t.config.leaf_capacity ≤ x →
      x < new + 4 ∨ new + 12 ≤ x → x < new + 16 ∨ new + 16 + 8 * t.config.leaf_capacity ≤ x →
      w1.mem x = w.mem x) :
    SplitWindow t old new pub w1 := by
  obtain ⟨a1, a2, a3, a4, a5, a6, a7, a8⟩ := hw
  obtain ⟨o1, _, _, o4, o5⟩ := nodeFits_bounds t.config t.manager.block_size old hfo
  obtain ⟨n1, _, _, n4, n5⟩ := nodeFits_bounds t.config t.manager.block_size new hfn
  have hbc : w.block_count = t.manager.block_count := block_count_congr _ _ a1 a2
  refine ⟨hbs.trans a1, hrs.trans a2, ?_, ?_, ?_, ?_, ?_, ?_⟩
  · intro b hb
    rw [← a3 b hb]
    exact block_bit_congr w w1 (fun x h1 h2 => hm x (by omega) (by omega) (by omega)
      (by omega) (by omega)) b (by rw [hbc]; exact hb)
  · intro x h1 h2 h3
    rw [← a4 x h1 h2 h3]
    exact hm x (by omega) (by omega) (by omega) (by omega) (by omega)
  · rw [← a5]
    exact is_leaf_congr _ _ _ (hm old (by omega) (by omega) (by omega) (by omega) (by omega))
  · rw [← a6]
    exact is_leaf_congr _ _ _ (hm new (by omega) (by omega) (by omega) (by omega) (by omega))
  · rw [← a7]
    unfold next_leaf
    exact rd64_congr _ _ _ (fun x h1 h2 =>
      hm x (by omega) (by omega) (by omega) (by omega) (by omega))
  · rw [← a8]
    unfold next_leaf
    exact rd64_congr _ _ _ (fun x h1 h2 =>
      hm x (by omega) (by omega) (by omega) (by omega) (by omega))

/-- The swap `old.next_leaf <- new_leaf_offset` publishes the new leaf. -/
theorem window_publish (t : BTree) (old new : Nat) (w : Manager)
    (hw : SplitWindow t old new false w)
    (hfo : NodeFits t.config t.manager.block_size old)
    (hgo : 64 + 8 * ((t.manager.block_count + 63) / 64) ≤ old)
    (hsep : old + t.manager.block_size ≤ new ∨ new + t.manager.block_size ≤ old)
    (hfn : NodeFits t.config t.manager.block_size new)
    (hnew : new < 18446744073709551616) :
    SplitWindow t old new true
      { w with mem := wr64 w.mem (get_leaf_next old t.config.leaf_capacity) new } := by
  obtain ⟨a1, a2, a3, a4, a5, a6, a7, a8⟩ := hw
  obtain ⟨o1, _, _, o4, o5⟩ := nodeFits_bounds t.config t.manager.block_size old hfo
  obtain ⟨n1, _, _, n4, n5⟩ := nodeFits_bounds t.config t.manager.block_size new hfn
  have hbc : w.block_count = t.manager.block_count := block_count_congr _ _ a1 a2
  refine ⟨a1, a2, ?_, ?_, ?_, ?_, ?_, ?_⟩
  · intro b hb
    rw [← a3 b hb]
    exact block_bit_congr w _ (fun x h1 h2 => wr64_other _ _ _ _ (by omega)) b
      (by rw [hbc]; exact hb)
  · intro x h1 h2 h3
    rw [← a4 x h1 h2 h3]
    exact wr64_other _ _ _ _ (by omega)
  · rw [← a5]
    exact is_leaf_congr _ _ _ (wr64_other _ _ _ _ (by omega))
  · rw [← a6]
    exact is_leaf_congr _ _ _ (wr64_other _ _ _ _ (by omega))
  · unfold next_leaf
    simp only [if_true]
    rw [rd64_wr64_same, Nat.mod_eq_of_lt hnew]
  · rw [← a8]
    unfold next_leaf
    exact rd64_congr _ _ _ (fun x h1 h2 => wr64_other _ _ _ _ (by omega))

/-- What a successful `alloc_block` in a well-formed tree says of the new block and
of a leaf of the tree. -/
theorem split_context (t : BTree) (h : Nat) (hok : TreeOk t h) (old new : Nat) (s1 : Manager)
    (hold : old ∈ leaves t.config t.manager.mem h t.root_offset)
    (halloc : t.manager.alloc_block = (.ok new, s1)) :
    (∃ b, new = b * t.manager.block_size ∧ b < t.manager.block_count ∧
      t.manager.block_bit b = false ∧
      (∀ b', s1.block_bit b' = (t.manager.block_bit b' || decide (b = b')))) ∧
    s1.block_size = t.manager.block_size ∧ s1.region_size = t.manager.region_size ∧
    (∀ x, x < 64 ∨ 64 + 8 * ((t.manager.block_count + 63) / 64) ≤ x →
      s1.mem x = t.manager.mem x) ∧
    BlockOk t.manager old ∧ is_leaf t.manager.mem old = true ∧
    key_count t.manager.mem old ≤ t.config.leaf_capacity ∧
    NodeFits t.config t.manager.block_size old ∧ NodeFits t.config t.manager.block_size new ∧
    64 + 8 * ((t.manager.block_count + 63) / 64) ≤ old ∧
    64 + 8 * ((t.manager.block_count + 63) / 64) ≤ new ∧
    (old + t.manager.block_size ≤ new ∨ new + t.manager.block_size ≤ old) ∧
    new < 18446744073709551616 ∧ 24 ≤ t.manager.block_size := by
  obtain ⟨henv, hsh, hnd, hbk⟩ := hok
  have hbs := fits_block_size t.config t.manager.block_size henv.1
  obtain ⟨b, h1, h2, h3, h4, _, h6, h7, _, h9⟩ := Manager.alloc_block_ok _ _ _ halloc
  obtain ⟨hin, hleaf⟩ := (mem_leaves_iff _ _ _ _ _ hsh).mp hold
  have hbo := hbk old hin
  obtain ⟨h', _, hs', _⟩ := subtree_of_mem t.config t.manager.mem h t.root_offset old hsh hin
  have hkc : key_count t.manager.mem old ≤ t.config.leaf_capacity := by
    cases h' with
    | zero =>
      rw [shape_zero] at hs'
      exact hs'.2
    | succ k =>
      rw [shape_succ] at hs'
      rw [hs'.1] at hleaf
      exact Bool.noConfusion hleaf
  have hgn : 64 + 8 * ((t.manager.block_count + 63) / 64) ≤ new := by
    by_contra hc
    have := henv.2.2.2 b h2 (by rw [← h1]; omega)
    rw [h3] at this
    exact Bool.noConfusion this
  have hfn : NodeFits t.config t.manager.block_size new := by
    rw [h1]
    exact henv.1.2.2.2 b
  obtain ⟨bo, hbo1, hbo2, hbo3, hbo4⟩ := hbo
  have hbne : bo ≠ b := by
    intro e
    rw [e, h3] at hbo3
    exact Bool.noConfusion hbo3
  have hap := blocks_apart t.manager.block_size bo b hbne
  rw [← hbo1, ← h1] at hap
  have hlt : new < t.manager.region_size := by
    rw [h1]
    have : b * t.manager.block_size < t.manager.block_count * t.manager.block_size :=
      Nat.mul_lt_mul_of_pos_right h2 (by omega)
    have h5 : t.manager.block_count * t.manager.block_size ≤ t.manager.region_size := by
      unfold Manager.block_count
      exact Nat.div_mul_le_self _ _
    omega
  have hrs := henv.2.2.1
  exact ⟨⟨b, h1, h2, h3, h4⟩, h6, h7, h9, ⟨bo, hbo1, hbo2, hbo3, hbo4⟩, hleaf, hkc,
    blockOk_fits t.config t.manager old henv.1 ⟨bo, hbo1, hbo2, hbo3, hbo4⟩, hfn, hbo4, hgn, hap,
    by omega, hbs⟩

/-- Outside the block of the new leaf and the superblock checksum the state before
the swap is the state after `alloc_block`. -/
theorem split_shadow_other (cfg : BTreeConfig) (s1 : Manager) (old new : Nat)
    (hfn : NodeFits cfg s1.block_size new)
    (hkc : key_count (wr8 s1.mem new 1) old ≤ cfg.leaf_capacity) (x : Nat)
    (hx : x < new ∨ new + s1.block_size ≤ x) (h56 : x < 56 ∨ 64 ≤ x) :
    (split_shadow cfg s1 old new).mem x = s1.mem x := by
  obtain ⟨n1, _, _, n4, n5⟩ := nodeFits_bounds cfg s1.block_size new hfn
  unfold split_shadow
  simp only
  rw [persist_node_mem _ _ _ ⟨by omega, h56⟩]
  simp only
  rw [wr64_other _ _ _ _ (by omega), wr32_other _ _ _ _ (by omega),
    write_entries_other _ _ _ _ (by
      rw [List.length_drop, split_buffer_length]
      unfold get_leaf_entries
      omega),
    wr8_other _ _ _ _ (by omega)]

/-- The state just before the swap is a state of the split in which the new leaf is
not published. -/
theorem shadow_window (t : BTree) (h : Nat) (hok : TreeOk t h) (old new : Nat) (s1 : Manager)
    (hold : old ∈ leaves t.config t.manager.mem h t.root_offset)
    (halloc : t.manager.alloc_block = (.ok new, s1)) :
    SplitWindow t old new false (split_shadow t.config s1 old new) := by
  obtain ⟨⟨b, c1, c2, c3, c4⟩, hbs1, hrs1, hm1, hbo, hleaf, hkc, hfo, hfn, hgo, hgn, hsep,
    hnew, hbs⟩ := split_context t h hok old new s1 hold halloc
  obtain ⟨o1, _, _, o4, o5⟩ := nodeFits_bounds t.config t.manager.block_size old hfo
  obtain ⟨n1, _, _, n4, n5⟩ := nodeFits_bounds t.config t.manager.block_size new hfn
  have hkc0 : key_count (wr8 s1.mem new 1) old = key_count t.manager.mem old :=
    key_count_congr _ _ _ (fun x h1 h2 => by
      rw [wr8_other _ _ _ _ (by omega), hm1 x (by omega)])
  have hother : ∀ x, x < new ∨ new + t.manager.block_size ≤ x → x < 56 ∨ 64 ≤ x →
      (split_shadow t.config s1 old new).mem x = s1.mem x := by
    intro x h1 h2
    exact split_shadow_other t.config s1 old new (by rw [hbs1]; exact hfn)
      (by rw [hkc0]; exact hkc) x (by rw [hbs1]; exact h1) h2
  have hdiv : new / t.manager.block_size = b := by
    rw [c1, Nat.mul_div_cancel _ (by omega)]
  have hbc1 : s1.block_count = t.manager.block_count := block_count_congr _ _ hbs1 hrs1
  refine ⟨hbs1, hrs1, ?_, ?_, ?_, ?_, ?_, ?_⟩
  · intro b' hb'
    rw [hdiv]
    have e1 : (split_shadow t.config s1 old new).block_bit b' = s1.block_bit b' :=
      block_bit_congr s1 _ (fun x h1 h2 => hother x (by rw [hbc1] at h2; omega) (by omega)) b'
        (by rw [hbc1]; exact hb')
    rw [e1, c4 b']
    congr 1
    simp only [eq_comm]
  · intro x h1 h2 h3
    rw [hother x h3 (by omega), hm1 x (by omega)]
  · rw [← hleaf]
    exact is_leaf_congr _ _ _ (by rw [hother old (by omega) (by omega), hm1 old (by omega)])
  · unfold split_shadow
    simp only
    rw [persist_node_is_leaf _ _ _ (by omega) (by omega)]
    simp only
    unfold is_leaf
    rw [rd8_congr _ (wr8 s1.mem new 1) new (by
      rw [wr64_other _ _ _ _ (by omega), wr32_other _ _ _ _ (by omega),
        write_entries_other _ _ _ _ (by unfold get_leaf_entries; omega)]), rd8_wr8_same]
    rfl
  · unfold next_leaf
    simp only [Bool.false_eq_true, if_false]
    exact rd64_congr _ _ _ (fun x h1 h2 => by
      rw [hother x (by omega) (by omega), hm1 x (by omega)])
  · unfold next_leaf split_shadow
    simp only
    rw [persist_node_rd64 _ _ _ (by omega) (by omega)]
    simp only
    rw [rd64_wr64_same, Nat.mod_eq_of_lt (rd64_lt _ _)]
    exact rd64_congr _ _ _ (fun x h1 h2 => by
      rw [wr32_other _ _ _ _ (by omega),
        write_entries_other _ _ _ _ (by
          rw [List.length_drop, split_buffer_length, hkc0]
          unfold get_leaf_entries
          omega),
        wr8_other _ _ _ _ (by omega), hm1 x (by omega)])

/-- Every state from the swap to the return of `insert_leaf` is a state of the
split in which the new leaf is published. -/
theorem split_window_ok (t : BTree) (h : Nat) (hok : TreeOk t h) (old new : Nat) (s1 : Manager)
    (hold : old ∈ leaves t.config t.manager.mem h t.root_offset)
    (halloc : t.manager.alloc_block = (.ok new, s1)) (target : Nat) (key value : Int)
    (ht : target = old ∨ target = new)
    (hroom : key_count (split_done t.config s1 old new).mem target < t.config.leaf_capacity) :
    ∀ w ∈ split_window t.config s1 old new target key value, SplitWindow t old new true w := by
  obtain ⟨_, hbs1, hrs1, hm1, hbo, hleaf, hkc, hfo, hfn, hgo, hgn, hsep,
    hnew, hbs⟩ := split_context t h hok old new s1 hold halloc
  obtain ⟨o1, _, _, o4, o5⟩ := nodeFits_bounds t.config t.manager.block_size old hfo
  obtain ⟨n1, _, _, n4, n5⟩ := nodeFits_bounds t.config t.manager.block_size new hfn
  have hkc0 : key_count (wr8 s1.mem new 1) old = key_count t.manager.mem old :=
    key_count_congr _ _ _ (fun x h1 h2 => by
      rw [wr8_other _ _ _ _ (by omega), hm1 x (by omega)])
  have W0 := shadow_window t h hok old new s1 hold halloc
  have W1 : SplitWindow t old new true
      { split_shadow t.config s1 old new with mem := split_swapped t.config s1 old new } :=
    window_publish t old new _ W0 hfo hgo hsep hfn hnew
  have W2 : ∀ k, SplitWindow t old new true
      { split_shadow t.config s1 old new with mem := split_rewritten t.config s1 old new k } := by
    intro k
    refine window_step t old new true _ _ W1 hfo hfn hgo hgn hsep ?_ ?_ ?_
    · rfl
    · rfl
    intro x _ _ h3 _ _
    show split_rewritten t.config s1 old new k x = split_swapped t.config s1 old new x
    unfold split_rewritten
    exact write_entries_other _ _ _ _ (by
      rw [List.length_take, List.length_take, split_buffer_length, hkc0]
      unfold get_leaf_entries
      omega)
  have W3 : SplitWindow t old new true
      { split_shadow t.config s1 old new with mem := split_counted t.config s1 old new } := by
    refine window_step t old new true _ _ (W2 (key_count (wr8 s1.mem new 1) old / 2))
      hfo hfn hgo hgn hsep ?_ ?_ ?_
    · rfl
    · rfl
    intro x _ h2 _ _ _
    show split_counted t.config s1 old new x = split_rewritten t.config s1 old new _ x
    unfold split_counted
    exact wr32_other _ _ _ _ (by omega)
  have W4 : SplitWindow t old new true (split_done t.config s1 old new) := by
    refine window_step t old new true _ _ W3 hfo hfn hgo hgn hsep ?_ ?_ ?_
    · rfl
    · rfl
    intro x h1 h2 _ _ _
    unfold split_done
    exact persist_node_mem _ _ _ ⟨by omega, h1⟩
  have W5 : SplitWindow t old new true
      { split_done t.config s1 old new with
        mem := append_written (split_done t.config s1 old new).mem target key value } := by
    refine window_step t old new true _ _ W4 hfo hfn hgo hgn hsep ?_ ?_ ?_
    · rfl
    · rfl
    intro x _ _ h3 _ h5
    show append_written (split_done t.config s1 old new).mem target key value x = _
    apply append_written_other
    rcases ht with rfl | rfl <;> omega
  have W6 : SplitWindow t old new true
      { split_done t.config s1 old new with
        mem := append_counted (split_done t.config s1 old new).mem target key value } := by
    refine window_step t old new true _ _ W5 hfo hfn hgo hgn hsep ?_ ?_ ?_
    · rfl
    · rfl
    intro x _ h2 _ h4 _
    show append_counted (split_done t.config s1 old new).mem target key value x =
      append_written (split_done t.config s1 old new).mem target key value x
    unfold append_counted
    apply wr32_other
    rcases ht with rfl | rfl <;> omega
  have W7 : SplitWindow t old new true
      (persist_node { split_done t.config s1 old new with
        mem := append_counted (split_done t.config s1 old new).mem target key value } target) := by
    refine window_step t old new true _ _ W6 hfo hfn hgo hgn hsep ?_ ?_ ?_
    · rfl
    · rfl
    intro x h1 h2 _ h4 _
    apply persist_node_mem
    refine ⟨?_, h1⟩
    rcases ht with rfl | rfl <;> omega
  intro w hw
  unfold split_window at hw
  simp only [List.mem_cons, List.mem_append, List.mem_map, List.mem_range,
    List.mem_singleton, List.not_mem_nil, or_false] at hw
  rcases hw with (rfl | ⟨k, _, rfl⟩) | rfl | rfl | rfl | rfl | rfl
  · exact W1
  · exact W2 k
  · exact W3
  · exact W4
  · exact W5
  · exact W6
  · exact W7

end BTree

/-! ## What the sweep phase counts, and what `collect` leaves of the nodes -/

namespace GarbageCollector

open BTree

theorem sweep_word_count (r : Nat → Bool) (n i word : Nat) :
    ∀ (l : List Nat) (acc : Manager × Nat),
      (l.foldl (fun a bit =>
        if i * 64 + bit ≥ n then a
        else if bit_set word bit && !r (i * 64 + bit) then
          (a.1.free_block ((i * 64 + bit) * a.1.block_size), a.2 + 1)
        else a) acc).2 =
      acc.2 + l.countP (fun bit =>
        decide (i * 64 + bit < n) && (bit_set word bit && !r (i * 64 + bit))) := by
  intro l
  induction l with
  | nil => intro acc; rfl
  | cons bit l ih =>
    intro acc
    rw [List.foldl_cons, ih, List.countP_cons]
    by_cases hn : i * 64 + bit ≥ n
    · rw [if_pos hn]
      have : decide (i * 64 + bit < n) = false := by simp; omega
      rw [this]
      simp
    · rw [if_neg hn]
      have : decide (i * 64 + bit < n) = true := by simp; omega
      rw [this, Bool.true_and]
      by_cases hc : (bit_set word bit && !r (i * 64 + bit)) = true
      · rw [if_pos hc, if_pos hc]
        simp only
        omega
      · rw [if_neg hc, if_neg hc]
        omega

theorem bit_set_zero (k : Nat) : bit_set 0 k = false := by
  unfold bit_set
  simp

theorem countP_below (q : Nat → Bool) (n : Nat) :
    ∀ d, (List.range (n + d)).countP (fun b => decide (b < n) && q b) =
      (List.range n).countP q := by
  intro d
  induction d with
  | zero =>
    apply List.countP_congr
    intro b hb
    have hlt : b < n := by have := List.mem_range.mp hb; omega
    simp [hlt]
  | succ d ih =>
    rw [← Nat.add_assoc, List.range_succ, List.countP_append, ih]
    simp

theorem sweep_count_words (r : Nat → Bool) (s : Manager) (hbs : 0 < s.block_size) :
    ∀ j, ((List.range j).foldl (fun a i =>
        if a.1.bitmap_word i = 0 then a
        else sweep_word r s.block_count i (a.1.bitmap_word i) a) (s, 0)).2 =
      (List.range (j * 64)).countP (fun b =>
        decide (b < s.block_count) && (s.block_bit b && !r b)) := by
  intro j
  induction j with
  | zero => rfl
  | succ j ih =>
    have hinv := sweep_inv r s hbs j
    rw [List.range_succ, List.foldl_append]
    simp only [List.foldl_cons, List.foldl_nil]
    generalize (List.range j).foldl _ (s, 0) = a at ih hinv ⊢
    have hword : ∀ k, k < 64 → bit_set (a.1.bitmap_word j) k = s.block_bit (j * 64 + k) := by
      intro k hk
      have := hinv.2.2.1 (j * 64 + k)
      rw [if_neg (by omega)] at this
      rw [← this]
      unfold Manager.block_bit
      have e1 : (j * 64 + k) / 64 = j := by omega
      have e2 : (j * 64 + k) % 64 = k := by omega
      rw [e1, e2]
    have hcnt : (sweep_word r s.block_count j (a.1.bitmap_word j) a).2 =
        a.2 + (List.range 64).countP (fun bit =>
          decide (j * 64 + bit < s.block_count) &&
            (s.block_bit (j * 64 + bit) && !r (j * 64 + bit))) := by
      unfold sweep_word
      rw [sweep_word_count]
      congr 1
      apply List.countP_congr
      intro k hk
      rw [hword k (List.mem_range.mp hk)]
    have hsplit : (List.range ((j + 1) * 64)).countP (fun b =>
          decide (b < s.block_count) && (s.block_bit b && !r b)) =
        (List.range (j * 64)).countP (fun b =>
          decide (b < s.block_count) && (s.block_bit b && !r b)) +
        (List.range 64).countP (fun bit =>
          decide (j * 64 + bit < s.block_count) &&
            (s.block_bit (j * 64 + bit) && !r (j * 64 + bit))) := by
      have e : (j + 1) * 64 = j * 64 + 64 := by omega
      rw [e, List.range_add, List.countP_append, List.countP_map]
      rfl
    rw [hsplit, ← ih]
    by_cases hz : a.1.bitmap_word j = 0
    · rw [if_pos hz]
      have : (List.range 64).countP (fun bit =>
          decide (j * 64 + bit < s.block_count) &&
            (s.block_bit (j * 64 + bit) && !r (j * 64 + bit))) = 0 := by
        apply List.countP_eq_zero.mpr
        intro k hk
        rw [← hword k (List.mem_range.mp hk), hz, bit_set_zero]
        simp
      rw [this]
      rfl
    · rw [if_neg hz]
      exact hcnt

/-- The sweep phase frees, and counts, the blocks whose bit is set and that are not
marked. -/
theorem sweep_freed (r : Nat → Bool) (s : Manager) :
    (sweep r s).2 = garbage_blocks s r := by
  unfold garbage_blocks
  by_cases hbs : 0 < s.block_size
  · unfold sweep
    rw [sweep_count_words r s hbs]
    have h := countP_below (fun b => s.block_bit b && !r b) s.block_count
      ((s.block_count + 63) / 64 * 64 - s.block_count)
    have e : s.block_count + ((s.block_count + 63) / 64 * 64 - s.block_count) =
        (s.block_count + 63) / 64 * 64 := by omega
    rw [e] at h
    exact h
  · have h0 : s.block_count = 0 := by
      unfold Manager.block_count
      rw [Nat.eq_zero_of_not_pos hbs, Nat.div_zero]
    unfold sweep
    rw [h0]
    rfl

theorem collect_freed (s : Manager) (root mk lc : Nat) :
    (collect s root mk lc).2.freed_count =
      garbage_blocks s (collect s root mk lc).2.reachable := by
  unfold collect
  simp only
  exact sweep_freed _ s

theorem collect_marked (s : Manager) (root mk lc : Nat) :
    (collect s root mk lc).2.marked_count = (mark s root mk lc).marked_count := rfl

theorem collect_empty (s : Manager) (root mk lc : Nat) (h0 : s.block_count = 0) :
    (collect s root mk lc).1 = s := by
  unfold collect
  simp only
  have : sweep (mark s root mk lc).reachable s = (s, 0) :=
    sweep_noop _ s (fun b hb => absurd hb (by omega))
  rw [this]
  simp

/-- What `collect` does to the bitmap, with no assumption on the block size. -/
theorem collect_bit_all (s : Manager) (root mk lc b : Nat) (hb : b < s.block_count) :
    (collect s root mk lc).1.block_bit b =
      (s.block_bit b && (collect s root mk lc).2.reachable b) := by
  by_cases hbs : 0 < s.block_size
  · exact collect_bit s root mk lc b hbs hb
  · have h0 : s.block_count = 0 := by
      unfold Manager.block_count
      rw [Nat.eq_zero_of_not_pos hbs, Nat.div_zero]
    omega

/-- What `collect` leaves of the region, with no assumption on the block size. -/
theorem collect_frame_all (s : Manager) (root mk lc : Nat) :
    (collect s root mk lc).1.block_size = s.block_size ∧
    (collect s root mk lc).1.region_size = s.region_size ∧
    (∀ x, x < 56 ∨ 64 + 8 * ((s.block_count + 63) / 64) ≤ x →
      (collect s root mk lc).1.mem x = s.mem x) := by
  by_cases hbs : 0 < s.block_size
  · exact collect_frame s root mk lc hbs
  · have h0 : s.block_count = 0 := by
      unfold Manager.block_count
      rw [Nat.eq_zero_of_not_pos hbs, Nat.div_zero]
    rw [collect_empty s root mk lc h0]
    exact ⟨rfl, rfl, fun _ _ => rfl⟩

end GarbageCollector

namespace BTree

/-- Regions that agree from the address `lo` on answer `search` alike when every
node the descent can reach lies at or behind `lo`. -/
theorem search_above (cfg : BTreeConfig) (m m1 : Mem) (lo root : Nat)
    (hm : ∀ x, lo ≤ x → m1 x = m x)
    (habove : ∀ o, Reaches cfg m root o → o ≠ 0 → lo ≤ o) (fuel : Nat) (key : Int) :
    search_internal cfg m1 fuel root key = search_internal cfg m fuel root key := by
  apply search_same
  intro o ho hne
  have hlo := habove o ho hne
  have hc := GarbageCollector.get_internal_children_ge o cfg.max_keys
  refine ⟨⟨is_leaf_congr _ _ _ (hm o hlo), fun _ => ⟨?_, ?_, ?_⟩⟩, ?_⟩
  · exact key_count_congr _ _ _ (fun x h1 _ => hm x (by omega))
  · intro i _
    apply rdI32_congr
    intro x h1 _
    unfold get_internal_keys at h1
    exact hm x (by omega)
  · intro i _
    unfold child
    exact rd64_congr _ _ _ (fun x h1 _ => hm x (by omega))
  · intro _ key
    rw [leaf_lookup_eq, leaf_lookup_eq,
      leaf_entries_congr m m1 o (fun x h1 _ => hm x (by omega))]

end BTree

/-! ## Histories -/

theorem reachable_construct (file : Mem) (region_size block_size : Nat) (config : BTreeConfig)
    (h : returned (BTree.new (Manager.create file region_size block_size) config) = true) :
    Reachable (tree_of (BTree.new (Manager.create file region_size block_size) config)) := by
  generalize hr : BTree.new (Manager.create file region_size block_size) config = r at h ⊢
  obtain ⟨r1, r2⟩ := r
  cases r1 with
  | error e => simp [returned] at h
  | ok t => exact Reachable.construct file region_size block_size config t r2 hr

theorem reachable_insert (fuel : Nat) (t : BTree) (key value : Int) (ht : Reachable t)
    (hk : isInt32 key) (hv : isInt32 value) (h : returned (BTree.insert fuel t key value) = true) :
    Reachable (BTree.insert fuel t key value).2 := by
  generalize hr : BTree.insert fuel t key value = r at h ⊢
  obtain ⟨r1, r2⟩ := r
  cases r1 with
  | error e => simp [returned] at h
  | ok u => exact Reachable.insert fuel t r2 key value ht hk hv hr

theorem reachable_erase (fuel : Nat) (t : BTree) (key : Int) (ht : Reachable t)
    (hk : isInt32 key) (h : returned (BTree.erase fuel t key) = true) :
    Reachable (BTree.erase fuel t key).2 := by
  generalize hr : BTree.erase fuel t key = r at h ⊢
  obtain ⟨r1, r2⟩ := r
  cases r1 with
  | error e => simp [returned] at h
  | ok found => exact Reachable.erase fuel t r2 key found ht hk hr

theorem reachable_insert_all (fuel : Nat) (ops : List (Int × Int)) :
    ∀ (t : BTree), Reachable t → (∀ p ∈ ops, isInt32 p.1 ∧ isInt32 p.2) →
      returned (insert_all fuel t ops) = true → Reachable (insert_all fuel t ops).2 := by
  induction ops with
  | nil => intro t ht _ _; exact ht
  | cons p ops ih =>
    intro t ht hp h
    obtain ⟨k, v⟩ := p
    unfold insert_all at h ⊢
    have hkv := hp (k, v) (List.mem_cons_self _ _)
    generalize hr : BTree.insert fuel t k v = r at h ⊢
    obtain ⟨r1, r2⟩ := r
    cases r1 with
    | error e => simp [returned] at h
    | ok u =>
      simp only at h ⊢
      exact ih r2 (Reachable.insert fuel t r2 k v ht hkv.1 hkv.2 hr)
        (fun q hq => hp q (List.mem_cons_of_mem _ hq)) h

theorem reachable_valid (t : BTree) (h : Reachable t) : t.manager.checksum_valid := by
  induction h with
  | construct file rs bs cfg t s hnew =>
    exact (BTree.new_valid _ _ _ _ (Manager.create_valid _ _ _) hnew).1
  | insert fuel t t1 key value _ _ _ hins _ => exact BTree.insert_valid _ _ _ _ _ hins
  | erase fuel t t1 key found _ _ her ih =>
    unfold BTree.erase at her
    simp only [Prod.mk.injEq] at her
    rw [← her.2]
    exact BTree.erase_internal_valid _ _ _ _ _ ih
  | collect t _ ih => exact GarbageCollector.collect_valid _ _ _ _ ih

theorem test_tree_linked (o : Nat)
    (h : GarbageCollector.Linked test_tree.manager.mem 4096 256 16 32 4096 o) : o = 4096 := by
  induction h with
  | root _ => rfl
  | next o _ _ _ hn ih =>
    subst ih
    exact absurd hn (by decide!)
  | child o i _ _ hl _ _ ih =>
    subst ih
    exact absurd hl (by decide!)

theorem erase_eq (x : Except Err Bool × BTree) (found : Bool) (h : x.1 = .ok found) :
    x = (.ok found, x.2) := by
  obtain ⟨r, s⟩ := x
  simp only at h
  rw [h]

/-! # Claims -/

set_option maxHeartbeats 4000000

/-- C1 as stated fails: on a fresh region of 1 KiB in blocks of 64 bytes, a tree
with max_keys = 2 and leaf_capacity = 8 takes the nine inserts `i -> 10 * i`,
`i = 1 .. 9`, with pairwise different keys, every call returning normally, and
afterwards `search(4)` reports not-found. -/
theorem C1_counterexample :
    returned (BTree.new (Manager.create zero_file 1024 64) ⟨2, 1, 8⟩) = true ∧
    (pairs9.map Prod.fst).Nodup ∧ ((4 : Int), (40 : Int)) ∈ pairs9 ∧
    (insert_all 4 overflow_tree pairs9).1 = .ok () ∧
    BTree.search 4 (insert_all 4 overflow_tree pairs9).2 4 = .ok none := by
  decide!

/-- C1 (search-after-insert), amended: when the node layout of the configuration
fits the blocks of the region, on a tree constructed over a freshly created
region a run of `insert(k_i, v_i)` calls with pairwise different keys either ends
in the out-of-memory exception of `alloc_block`, or every call returns and
afterwards `search(k_i)` returns found with `out_value = v_i` for every `i`. -/
theorem C1_search_after_insert (file : Mem) (region_size block_size : Nat) (cfg : BTreeConfig)
    (ops : List (Int × Int)) (fuel : Nat)
    (hfit : BTree.fits cfg block_size) (hlc : 2 ≤ cfg.leaf_capacity)
    (hrs : region_size < 18446744073709551616)
    (hnew : returned (BTree.new (Manager.create file region_size block_size) cfg) = true)
    (hkeys : (ops.map Prod.fst).Nodup) (hint : ∀ p ∈ ops, isInt32 p.1 ∧ isInt32 p.2)
    (hfuel : ops.length + 3 ≤ fuel) :
    (insert_all fuel (tree_of (BTree.new (Manager.create file region_size block_size) cfg))
      ops).1 = .error .out_of_memory ∨
    ((insert_all fuel (tree_of (BTree.new (Manager.create file region_size block_size) cfg))
      ops).1 = .ok () ∧
      ∀ p ∈ ops, BTree.search fuel
        (insert_all fuel (tree_of (BTree.new (Manager.create file region_size block_size) cfg))
          ops).2 p.1 = .ok (some p.2)) := by
  obtain ⟨c1, c2, c3, c4, _⟩ := BTree.construct_spec cfg file region_size block_size _ _ hfit hlc hrs
    (new_eq _ hnew)
  generalize tree_of (BTree.new (Manager.create file region_size block_size) cfg) = t0 at *
  rcases BTree.insert_all_spec fuel ops t0 0 c2 c3 hkeys (fun p _ e he => by
      rw [c1, c4] at he
      exact absurd he (List.not_mem_nil e)) hint (by omega) with c | ⟨d1, h', d2, d3, d4, d5⟩
  · exact Or.inl c
  · refine Or.inr ⟨d1, fun p hp => ?_⟩
    obtain ⟨r, hr, hiff⟩ := BTree.search_tree _ h' fuel p.1 d3 d4 (hint p hp).1 (by omega)
    rw [hr, (hiff p.2).mpr (d5 p hp)]

theorem C1_search_after_insert_witness :
    (insert_all 6 (tree_of (BTree.new (Manager.create zero_file 1024 64) ⟨2, 1, 2⟩))
      [(10, 100), (20, 200), (30, 300)]).1 = .error .out_of_memory ∨
    ((insert_all 6 (tree_of (BTree.new (Manager.create zero_file 1024 64) ⟨2, 1, 2⟩))
      [(10, 100), (20, 200), (30, 300)]).1 = .ok () ∧
      ∀ p ∈ [((10 : Int), (100 : Int)), (20, 200), (30, 300)], BTree.search 6
        (insert_all 6 (tree_of (BTree.new (Manager.create zero_file 1024 64) ⟨2, 1, 2⟩))
          [(10, 100), (20, 200), (30, 300)]).2 p.1 = .ok (some p.2)) :=
  C1_search_after_insert zero_file 1024 64 ⟨2, 1, 2⟩ [(10, 100), (20, 200), (30, 300)] 6
    (BTree.fits_of_size _ _ (by decide) (by decide) (by decide) (by decide) (by decide))
    (by decide) (by decide) (by decide!) (by decide) (by decide) (by decide)

/-- C2 as stated fails: the overflow tree (max_keys = 2, leaf_capacity = 8, blocks
of 64 bytes) after the nine inserts `i -> 10 * i`, each made when `search`
reported the key not-found, is a state of a strict history; there `erase(1)`
returns true and right afterwards `search(1)` still returns found. -/
theorem C2_counterexample :
    Hist true ⟨2, 1, 8⟩ 1024 64 9 overflow_run ∧
    (BTree.erase 4 overflow_run 1).1 = .ok true ∧
    BTree.search 4 (BTree.erase 4 overflow_run 1).2 1 = .ok (some 70) :=
  ⟨BTree.hist_of_fresh_run ⟨2, 1, 8⟩ 1024 64 4 pairs9 0 overflow_tree
      (BTree.hist_construct true _ zero_file 1024 64 (by decide!)) (by decide) (by decide!),
    by decide!, by decide!⟩

/-- C2 (erase-is-hiding), amended: when the node layout of the configuration fits
the blocks of the region, in every tree state reached from a fresh tree by
inserts and erases in which a key is inserted only when `search` reports it
not-found, if `erase(k)` returns true then right afterwards `search(k)` returns
not-found, and for every other key `search` returns what it returned right
before the erase. -/
theorem C2_erase_is_hiding (cfg : BTreeConfig) (region_size block_size n : Nat) (t t1 : BTree)
    (fuel sfuel : Nat) (key : Int)
    (hfit : BTree.fits cfg block_size) (hlc : 2 ≤ cfg.leaf_capacity)
    (hrs : region_size < 18446744073709551616)
    (hist : Hist true cfg region_size block_size n t) (hk : isInt32 key)
    (her : BTree.erase fuel t key = (.ok true, t1)) (hs : n + 1 ≤ sfuel) :
    BTree.search sfuel t1 key = .ok none ∧
    ∀ k, isInt32 k → k ≠ key →
      ∃ r, BTree.search sfuel t k = .ok r ∧ BTree.search sfuel t1 k = .ok r := by
  obtain ⟨_, h, i2, i3, _, i5⟩ := BTree.hist_inv true cfg region_size block_size hfit hlc hrs n t hist
  have spec := BTree.erase_spec fuel t key h hk i3 _ _ her
  simp only at spec
  obtain ⟨s1, s2, s3, _, s5⟩ := spec
  obtain ⟨o1, o2⟩ := s5 (i5 rfl)
  constructor
  · obtain ⟨r, hr, hiff⟩ := BTree.search_tree t1 h sfuel key s3 o1 hk (by omega)
    rw [hr]
    cases r with
    | none => rfl
    | some v =>
      have := ((o2 _).mp ((hiff v).mp rfl)).2 trivial
      exact absurd rfl this
  · intro k hk' hne
    obtain ⟨r, hr, hiff⟩ := BTree.search_tree t h sfuel k i3 (i5 rfl) hk' (by omega)
    obtain ⟨r1, hr1, hiff1⟩ := BTree.search_tree t1 h sfuel k s3 o1 hk' (by omega)
    refine ⟨r, hr, ?_⟩
    rw [hr1]
    have e : r1 = r := by
      apply Option.ext
      intro v
      rw [Option.mem_def, Option.mem_def, hiff v, hiff1 v, o2]
      exact ⟨fun h => h.1, fun h => ⟨h, fun _ => hne⟩⟩
    rw [e]

theorem C2_erase_is_hiding_witness :
    BTree.search 5 (BTree.erase 5 grown_tree 20).2 20 = .ok none ∧
    ∀ k, isInt32 k → k ≠ 20 →
      ∃ r, BTree.search 5 grown_tree k = .ok r ∧
        BTree.search 5 (BTree.erase 5 grown_tree 20).2 k = .ok r :=
  C2_erase_is_hiding ⟨2, 1, 2⟩ 1024 64 3 grown_tree (BTree.erase 5 grown_tree 20).2 5 5 20
    (BTree.fits_of_size _ _ (by decide) (by decide) (by decide) (by decide) (by decide))
    (by decide) (by decide)
    (BTree.hist_of_fresh_run ⟨2, 1, 2⟩ 1024 64 5 [(10, 100), (20, 200), (30, 300)] 0 small_tree
      (BTree.hist_construct true _ zero_file 1024 64 (by decide!)) (by decide) (by decide!))
    (by decide) (erase_eq _ true (by decide!)) (by decide)

/-- C3 (double erase): when `search(k)` reports not-found, `erase(k)` returns
false and the tree object, with its whole region (node blocks, bitmap,
superblock) and its root offset, is exactly what it was. -/
theorem C3_double_erase (fuel : Nat) (t : BTree) (key : Int)
    (h : BTree.search fuel t key = .ok none) : BTree.erase fuel t key = (.ok false, t) := by
  unfold BTree.search at h
  unfold BTree.erase
  rw [BTree.erase_internal_of_search_none _ _ _ _ _ h]

theorem C3_double_erase_witness :
    BTree.search 2 s1_tree 20 = .ok none ∧ BTree.erase 2 s1_tree 20 = (.ok false, s1_tree) :=
  ⟨by decide!, C3_double_erase 2 s1_tree 20 (by decide!)⟩

/-- C4 as stated fails: the spill tree (max_keys = 2, leaf_capacity = 10, blocks of
64 bytes) takes its sixteen inserts, every call returning normally; the last one
writes its entry over the max_keys and min_keys fields of the superblock, so the
tree constructed on the reopened region has the same root offset but max_keys = 0,
and `search(24)`, found by the tree before the close, is not-found afterwards. -/
theorem C4_counterexample :
    Hist false ⟨2, 1, 10⟩ 1024 64 16 spill_run ∧
    spill_run.config = ⟨2, 1, 10⟩ ∧ spill_reopened.config = ⟨0, 1, 10⟩ ∧
    spill_reopened.root_offset = spill_run.root_offset ∧
    BTree.search 6 spill_run 24 = .ok (some 0) ∧ BTree.search 6 spill_reopened 24 = .ok none :=
  ⟨BTree.hist_of_insert_all ⟨2, 1, 10⟩ 1024 64 6 spill_ops 0 spill_tree
      (BTree.hist_construct false _ zero_file 1024 64 (by decide!)) (by decide) (by decide!),
    by decide!⟩

/-- C4 (durability across reopen), amended: when the node layout of the
configuration fits the blocks of the region, after every history of completed
insert and erase calls on a tree constructed over a fresh region, the constructor
on a manager reopened on the bytes of the region returns, whatever configuration
it is passed, a tree with the root offset and the max_keys, min_keys and
leaf_capacity of the tree before the close, and `search` returns for every key
what it returned before the close. -/
theorem C4_durability (cfg cfg2 : BTreeConfig) (region_size block_size n : Nat) (t : BTree)
    (hfit : BTree.fits cfg block_size) (hlc : 2 ≤ cfg.leaf_capacity)
    (hrs : region_size < 18446744073709551616) (hmin : cfg.min_keys < 4294967296)
    (hist : Hist false cfg region_size block_size n t) :
    returned (BTree.new (Manager.reopen t.manager.mem region_size block_size) cfg2) = true ∧
    (tree_of (BTree.new (Manager.reopen t.manager.mem region_size block_size) cfg2)).root_offset
      = t.root_offset ∧
    (tree_of (BTree.new (Manager.reopen t.manager.mem region_size block_size) cfg2)).config
      = t.config ∧
    ∀ key fuel, n + 1 ≤ fuel → ∃ r, BTree.search fuel t key = .ok r ∧
      BTree.search fuel
        (tree_of (BTree.new (Manager.reopen t.manager.mem region_size block_size) cfg2)) key
        = .ok r := by
  obtain ⟨_, h, i2, i3, i4, _⟩ :=
    BTree.hist_inv false cfg region_size block_size hfit hlc hrs n t hist
  obtain ⟨b1, b2, b3, b4⟩ := i4 hmin
  have hroot : (Manager.reopen t.manager.mem region_size block_size).get_root_offset =
      t.root_offset := b1
  have hnz : t.root_offset ≠ 0 := BTree.treeOk_nonzero t h i3 _ (BTree.mem_blocks_self _ _ _ _)
  have hnew : BTree.new (Manager.reopen t.manager.mem region_size block_size) cfg2 =
      (.ok { manager := Manager.reopen t.manager.mem region_size block_size,
             root_offset := t.root_offset, config := t.config },
        Manager.reopen t.manager.mem region_size block_size) := by
    unfold BTree.new
    rw [hroot, if_neg hnz]
    have hc : BTreeConfig.mk (rd32 t.manager.mem OFF_MAX_KEYS) (rd32 t.manager.mem OFF_MIN_KEYS)
        (rd32 t.manager.mem OFF_LEAF_CAPACITY) = t.config := by
      rw [b2, b3, b4]
    exact congrArg (fun c => (Except.ok (BTree.mk (Manager.reopen t.manager.mem region_size block_size) c t.root_offset), Manager.reopen t.manager.mem region_size block_size)) hc
  rw [hnew]
  refine ⟨rfl, rfl, rfl, fun key fuel hf => ?_⟩
  have e : fuel = h + 1 + (fuel - (h + 1)) := by omega
  obtain ⟨r, hr⟩ := BTree.search_total t.config t.manager.mem key h t.root_offset
    (fuel - (h + 1)) i3.2.1
  rw [← e] at hr
  exact ⟨r, hr, hr⟩

theorem C4_durability_witness :
    returned (BTree.new (Manager.reopen grown_tree.manager.mem 1024 64) ⟨16, 8, 32⟩) = true ∧
    (tree_of (BTree.new (Manager.reopen grown_tree.manager.mem 1024 64) ⟨16, 8, 32⟩)).root_offset
      = grown_tree.root_offset ∧
    (tree_of (BTree.new (Manager.reopen grown_tree.manager.mem 1024 64) ⟨16, 8, 32⟩)).config
      = grown_tree.config ∧
    ∀ key fuel, 3 + 1 ≤ fuel → ∃ r, BTree.search fuel grown_tree key = .ok r ∧
      BTree.search fuel
        (tree_of (BTree.new (Manager.reopen grown_tree.manager.mem 1024 64) ⟨16, 8, 32⟩)) key
        = .ok r :=
  C4_durability ⟨2, 1, 2⟩ ⟨16, 8, 32⟩ 1024 64 3 grown_tree
    (BTree.fits_of_size _ _ (by decide) (by decide) (by decide) (by decide) (by decide))
    (by decide) (by decide) (by decide)
    (BTree.hist_of_insert_all ⟨2, 1, 2⟩ 1024 64 5 [(10, 100), (20, 200), (30, 300)] 0 small_tree
      (BTree.hist_construct false _ zero_file 1024 64 (by decide!)) (by decide) (by decide!))

/-- C5 (reserved blocks are never freed), at the failing input: in the set-up of
test_delete.cpp block 0 holds superblock and bitmap and is the one reserved
block; its bit is set after construction and clear after `collect(root, 16, 32)`,
a state reached by completed calls only. -/
theorem C5_collect_frees_reserved_block :
    Reachable collected_tree ∧ Manager.reserved_blocks 1048576 4096 = 1 ∧
    test_tree.manager.block_bit 0 = true ∧ collected_tree.manager.block_bit 0 = false :=
  ⟨Reachable.collect test_tree (reachable_construct _ _ _ _ (by decide!)), by decide!, by decide!,
    by decide!⟩

/-- C6 (offset 0 is never a tree node), at the failing input: after `collect` on
the fresh test tree `alloc_block` returns offset 0, and the run of inserts that
first splits the root leaf ends in the access through `offset_to_node(0)`. -/
theorem C6_alloc_block_returns_zero :
    Reachable collected_tree ∧ (collected_tree.manager.alloc_block).1 = .ok 0 ∧
    (insert_all 3 collected_tree pairs33).1 = .error .null_deref :=
  ⟨Reachable.collect test_tree (reachable_construct _ _ _ _ (by decide!)), by decide!, by decide!⟩

/-- C7 (bitmap-reachability closure after GC): after `collect` every block of
the region whose bit is set is a reserved block or was marked, and a marked block
is the block of an offset linked to the root by child offsets and `next_leaf`
links.  (The second alternative holds for every such block.) -/
theorem C7_bitmap_reachability_closure (s : Manager) (root_offset max_keys leaf_capacity b : Nat)
    (hbs : 0 < s.block_size) (hb : b < s.block_count)
    (hbit : (GarbageCollector.collect s root_offset max_keys leaf_capacity).1.block_bit b = true) :
    b < Manager.reserved_blocks s.region_size s.block_size ∨
    ((GarbageCollector.collect s root_offset max_keys leaf_capacity).2.reachable b = true ∧
      ∃ o, GarbageCollector.Linked s.mem s.block_size s.block_count max_keys leaf_capacity
        root_offset o ∧ o / s.block_size = b) := by
  right
  rw [GarbageCollector.collect_bit s root_offset max_keys leaf_capacity b hbs hb] at hbit
  simp only [Bool.and_eq_true] at hbit
  exact ⟨hbit.2, ((GarbageCollector.mark_spec s root_offset max_keys leaf_capacity).2 b hbit.2).2⟩

theorem C7_bitmap_reachability_closure_witness :
    (GarbageCollector.collect test_tree.manager 4096 16 32).1.block_bit 1 = true ∧
    (1 < Manager.reserved_blocks test_tree.manager.region_size test_tree.manager.block_size ∨
    ((GarbageCollector.collect test_tree.manager 4096 16 32).2.reachable 1 = true ∧
      ∃ o, GarbageCollector.Linked test_tree.manager.mem test_tree.manager.block_size
        test_tree.manager.block_count 16 32 4096 o ∧ o / test_tree.manager.block_size = 1)) :=
  ⟨by decide!, C7_bitmap_reachability_closure test_tree.manager 4096 16 32 1 (by decide!)
    (by decide!) (by decide!)⟩

/-- C8 as stated fails: on the crafted region with root offset 64 the first
`collect` frees one block, and the second run frees another one (block 20) and
so leaves a different bitmap. -/
theorem C8_counterexample :
    (GarbageCollector.collect crafted 64 2 0).2.freed_count = 1 ∧
    (GarbageCollector.collect (GarbageCollector.collect crafted 64 2 0).1 64 2 0).2.freed_count = 1 ∧
    (GarbageCollector.collect crafted 64 2 0).1.block_bit 20 = true ∧
    (GarbageCollector.collect (GarbageCollector.collect crafted 64 2 0).1 64 2 0).1.block_bit 20
      = false := by
  decide!

/-- C8 (GC idempotence), amended: when every offset linked to the root that the
mark phase reads as a node lies behind the bitmap, a second `collect` right
after the first reports `blocks_freed() == 0` and leaves the manager, its bitmap
included, exactly as the first run left it. -/
theorem C8_gc_idempotent (s : Manager) (root_offset max_keys leaf_capacity : Nat)
    (hbs : 0 < s.block_size)
    (hlink : ∀ o, GarbageCollector.Linked s.mem s.block_size s.block_count max_keys leaf_capacity
        root_offset o →
      o / s.block_size < s.block_count → 64 + 8 * ((s.block_count + 63) / 64) ≤ o) :
    (GarbageCollector.collect (GarbageCollector.collect s root_offset max_keys leaf_capacity).1
      root_offset max_keys leaf_capacity).2.freed_count = 0 ∧
    (GarbageCollector.collect (GarbageCollector.collect s root_offset max_keys leaf_capacity).1
      root_offset max_keys leaf_capacity).1 =
      (GarbageCollector.collect s root_offset max_keys leaf_capacity).1 :=
  GarbageCollector.collect_twice s root_offset max_keys leaf_capacity hbs hlink

theorem C8_gc_idempotent_witness :
    (GarbageCollector.collect (GarbageCollector.collect test_tree.manager 4096 16 32).1
      4096 16 32).2.freed_count = 0 ∧
    (GarbageCollector.collect (GarbageCollector.collect test_tree.manager 4096 16 32).1
      4096 16 32).1 = (GarbageCollector.collect test_tree.manager 4096 16 32).1 :=
  C8_gc_idempotent test_tree.manager 4096 16 32 (by decide)
    (fun o ho _ => by rw [test_tree_linked o ho]; decide)

/-- C9 (per-node CRC invariant), at the failing input: right after the
construction of a tree on a fresh region the root leaf (offset 128) does not
satisfy `calculate_checksum(node, block_size) == node.checksum`. -/
theorem C9_root_crc_mismatch :
    Reachable small_tree ∧ small_tree.root_offset = 128 ∧
    BTree.calculate_checksum small_tree.manager.mem 128 small_tree.manager.block_size ≠
      BTree.node_checksum small_tree.manager.mem 128 :=
  ⟨reachable_construct _ _ _ _ (by decide!), by decide!, by decide!⟩

/-- C10 (whole-region checksum round trip): right after
`update_persistent_checksum` and after `set_root_offset`, after `Manager` create
and in every tree state at the end of a history of completed construction,
insert, erase and collect calls the recomputed checksum is the stored one, so
`verify_integrity()` is true when the magic tag is intact; and
`verify_integrity()` is false whenever the magic tag differs. -/
theorem C10_checksum_round_trip (t : BTree) (h : Reachable t) (s : Manager) (offset : Nat)
    (file : Mem) (region_size block_size : Nat) :
    s.update_persistent_checksum.calculate_checksum = s.update_persistent_checksum.stored_checksum ∧
    (s.set_root_offset offset).calculate_checksum = (s.set_root_offset offset).stored_checksum ∧
    (Manager.create file region_size block_size).calculate_checksum =
      (Manager.create file region_size block_size).stored_checksum ∧
    t.manager.calculate_checksum = t.manager.stored_checksum ∧
    (rd64 t.manager.mem OFF_MAGIC = magic_number → t.manager.verify_integrity = true) ∧
    (rd64 s.mem OFF_MAGIC ≠ magic_number → s.verify_integrity = false) :=
  ⟨Manager.update_persistent_checksum_valid s, Manager.set_root_offset_valid s offset,
    Manager.create_valid file region_size block_size, reachable_valid t h,
    fun hm => Manager.verify_integrity_of_valid _ hm (reachable_valid t h),
    Manager.verify_integrity_bad_magic s⟩

theorem C10_checksum_round_trip_witness :
    crafted.update_persistent_checksum.calculate_checksum =
      crafted.update_persistent_checksum.stored_checksum ∧
    (crafted.set_root_offset 1280).calculate_checksum =
      (crafted.set_root_offset 1280).stored_checksum ∧
    (Manager.create zero_file 1024 64).calculate_checksum =
      (Manager.create zero_file 1024 64).stored_checksum ∧
    s1_tree.manager.calculate_checksum = s1_tree.manager.stored_checksum ∧
    (rd64 s1_tree.manager.mem OFF_MAGIC = magic_number → s1_tree.manager.verify_integrity = true) ∧
    (rd64 crafted.mem OFF_MAGIC ≠ magic_number → crafted.verify_integrity = false) :=
  C10_checksum_round_trip s1_tree
    (reachable_erase 2 _ 20
      (reachable_insert_all 2 _ test_tree (reachable_construct _ _ _ _ (by decide!))
        (by decide) (by decide!))
      (by decide) (by decide!))
    crafted 1280 zero_file 1024 64

/-- C11 fails in the code: on the tiny region (four blocks of 64 bytes, two of them
reserved) the tree of configuration 2/1/2 holds the keys 10 and 20 in its root
leaf; `insert(30, 300)` splits that leaf into the last free block, then
`alloc_block` for the new root throws, and in the state left behind `search(20)`,
found before the call, is not-found. -/
theorem C11_failed_insert_loses_key :
    returned (BTree.new tiny_manager ⟨2, 1, 2⟩) = true ∧
    returned (insert_all 4 tiny_tree [(10, 100), (20, 200)]) = true ∧
    BTree.search 4 tiny_run 20 = .ok (some 200) ∧
    (BTree.insert 4 tiny_run 30 300).1 = .error .out_of_memory ∧
    BTree.search 4 (BTree.insert 4 tiny_run 30 300).2 20 = .ok none := by
  decide!

/-- C12 (alloc_block is first-fit): when some block index below `block_count` is
free, `alloc_block` returns `i * block_size` for the smallest block index `i` whose
bitmap bit is clear, sets exactly that bit, leaves every byte outside the bitmap
unchanged and adds one to the allocated-block count. -/
theorem C12_alloc_block_first_fit (s : Manager) (b : Nat) (hb : b < s.block_count)
    (hfree : s.block_bit b = false) :
    ∃ i, i ≤ b ∧ s.block_bit i = false ∧ (∀ j, j < i → s.block_bit j = true) ∧
      s.alloc_block.1 = .ok (i * s.block_size) ∧
      (∀ j, s.alloc_block.2.block_bit j = (s.block_bit j || decide (i = j))) ∧
      (∀ x, x < Manager.bitmap_addr 0 ∨ Manager.bitmap_addr s.bitmap_size_words ≤ x →
        s.alloc_block.2.mem x = s.mem x) ∧
      s.alloc_block.2.allocated_blocks = s.allocated_blocks + 1 ∧
      s.alloc_block.2.block_size = s.block_size ∧
      s.alloc_block.2.region_size = s.region_size := by
  rcases Manager.alloc_block_cases s with ⟨off, h⟩ | h
  · obtain ⟨i, h1, h2, h3, h4, h5, h6, h7, h8, h9⟩ := Manager.alloc_block_ok s _ off h
    refine ⟨i, ?_, h3, h5, ?_, h4, ?_, h8, h6, h7⟩
    · by_contra hc
      have := h5 b (by omega)
      rw [hfree] at this
      exact Bool.noConfusion this
    · rw [h, h1]
    · intro x hx
      apply h9
      rw [Manager.bitmap_addr_eq, Manager.bitmap_addr_eq] at hx
      unfold Manager.bitmap_size_words calculate_bitmap_words at hx
      omega
  · have := Manager.alloc_block_error_full s _ _ h b hb
    rw [hfree] at this
    exact Bool.noConfusion this

theorem C12_alloc_block_first_fit_witness :
    ∃ i, i ≤ 3 ∧ tiny_manager.block_bit i = false ∧
      (∀ j, j < i → tiny_manager.block_bit j = true) ∧
      tiny_manager.alloc_block.1 = .ok (i * tiny_manager.block_size) ∧
      (∀ j, tiny_manager.alloc_block.2.block_bit j = (tiny_manager.block_bit j || decide (i = j))) ∧
      (∀ x, x < Manager.bitmap_addr 0 ∨ Manager.bitmap_addr tiny_manager.bitmap_size_words ≤ x →
        tiny_manager.alloc_block.2.mem x = tiny_manager.mem x) ∧
      tiny_manager.alloc_block.2.allocated_blocks = tiny_manager.allocated_blocks + 1 ∧
      tiny_manager.alloc_block.2.block_size = tiny_manager.block_size ∧
      tiny_manager.alloc_block.2.region_size = tiny_manager.region_size :=
  C12_alloc_block_first_fit tiny_manager 3 (by decide!) (by decide!)

/-- C13 (alloc_block fails exactly when the region is full): for every manager
state, `alloc_block` raises the out-of-memory error if and only if every block
index below `block_count` has its bitmap bit set, and it returns an offset if and
only if some block index below `block_count` has its bit clear. -/
theorem C13_alloc_fails_iff_full (s : Manager) :
    (s.alloc_block.1 = .error .out_of_memory ↔
      ∀ i, i < s.block_count → s.block_bit i = true) ∧
    ((∃ off, s.alloc_block.1 = .ok off) ↔
      ∃ i, i < s.block_count ∧ s.block_bit i = false) := by
  rcases Manager.alloc_block_cases s with ⟨off, h⟩ | h
  · obtain ⟨i, _, h2, h3, _⟩ := Manager.alloc_block_ok s _ off h
    rw [h]
    refine ⟨⟨fun hc => by simp at hc, fun hall => ?_⟩, ⟨fun _ => ⟨i, h2, h3⟩, fun _ => ⟨off, rfl⟩⟩⟩
    have := hall i h2
    rw [h3] at this
    exact Bool.noConfusion this
  · have hfull := Manager.alloc_block_error_full s _ _ h
    rw [h]
    refine ⟨⟨fun _ => hfull, fun _ => rfl⟩, ⟨fun ⟨off, hc⟩ => by simp at hc, fun ⟨i, hi, hbit⟩ => ?_⟩⟩
    have := hfull i hi
    rw [hbit] at this
    exact Bool.noConfusion this

/-- C14 fails in the code: on the tiny region with all four blocks allocated
(bitmap word 15) `alloc_block` raises, but it has set bit 4 of the bitmap word
before the range check that throws: the word is 31 afterwards. -/
theorem C14_failed_alloc_sets_bit :
    edge_manager.block_count = 4 ∧ edge_manager.bitmap_word 0 = 15 ∧
    edge_manager.alloc_block.1 = .error .out_of_memory ∧
    edge_manager.alloc_block.2.bitmap_word 0 = 31 := by
  decide!

/-- C16 fails in the code: on the tiny region with all four blocks allocated the
counter and the number of set bitmap bits are both 4; after the `alloc_block`
call that raises, the counter is still 4 but five bits are set. -/
theorem C16_count_differs_from_popcount :
    edge_manager.allocated_blocks = 4 ∧ edge_manager.bitmap_popcount = 4 ∧
    edge_manager.alloc_block.1 = .error .out_of_memory ∧
    edge_manager.alloc_block.2.allocated_blocks = 4 ∧
    edge_manager.alloc_block.2.bitmap_popcount = 5 := by
  decide!

/-- C17 (whole-region checksum definition): `calculate_checksum` is the XOR, over
the 64-bit little-endian words `i < region_size / 8` other than word 7, of the
word rotated left by one bit, and its value does not depend on the stored
checksum field. -/
theorem C17_checksum_definition (s : Manager) :
    s.calculate_checksum = Manager.xor_of_rotated_words s.mem s.region_size ∧
    ∀ v, Manager.calculate_checksum { s with mem := wr64 s.mem OFF_CHECKSUM v } =
      s.calculate_checksum :=
  ⟨Manager.calculate_checksum_eq s, fun v =>
    Manager.calculate_checksum_congr _ _ rfl (fun x hx =>
      wr64_other _ _ _ _ (by unfold OFF_CHECKSUM; omega))⟩

/-- C18 (single-word sensitivity): replacing the 8-byte word `i` of the region,
`i` not the checksum word, by a different 64-bit value changes the result of
`calculate_checksum`, so `verify_integrity` returns false afterwards if the
stored checksum was valid before. -/
theorem C18_single_word_sensitivity (s : Manager) (i v : Nat) (hi : i < s.region_size / 8)
    (h7 : i ≠ 7) (hv : v < 18446744073709551616) (hne : v ≠ rd64 s.mem (8 * i)) :
    Manager.calculate_checksum { s with mem := wr64 s.mem (8 * i) v } ≠ s.calculate_checksum ∧
    (s.checksum_valid →
      Manager.verify_integrity { s with mem := wr64 s.mem (8 * i) v } = false) := by
  have hc := Manager.calculate_checksum_word s i v hi h7 hv hne
  refine ⟨hc, fun hvalid => ?_⟩
  unfold Manager.verify_integrity
  split
  · rfl
  · have hs : Manager.stored_checksum { s with mem := wr64 s.mem (8 * i) v } = s.stored_checksum := by
      unfold Manager.stored_checksum
      exact rd64_wr64_other _ _ _ _ (by unfold OFF_CHECKSUM; omega)
    rw [hs, ← hvalid]
    simpa using hc

theorem C18_single_word_sensitivity_witness :
    Manager.calculate_checksum { tiny_manager with mem := wr64 tiny_manager.mem (8 * 1) 5 } ≠
      tiny_manager.calculate_checksum ∧
    (tiny_manager.checksum_valid →
      Manager.verify_integrity { tiny_manager with mem := wr64 tiny_manager.mem (8 * 1) 5 } = false) :=
  C18_single_word_sensitivity tiny_manager 1 5 (by decide!) (by decide) (by decide) (by decide!)

/-- C19 (per-node CRC definition): `BTree::calculate_checksum(node, block_size)` is
the standard reflected CRC-32 (polynomial 0xEDB88320, initial value 0xFFFFFFFF,
final inversion; check value 0xCBF43926 on the digits "123456789") of the bytes of
the block without those at the indices 5, 6, 7 and 8, and the free function
`calculate_node_checksum` returns the same value. -/
theorem C19_node_crc_definition (m : Mem) (node block_size : Nat) :
    BTree.calculate_checksum m node block_size =
      crc32 (block_without_5_to_8 m node block_size) ∧
    calculate_node_checksum m node block_size =
      crc32 (block_without_5_to_8 m node block_size) ∧
    crc32 [0x31, 0x32, 0x33, 0x34, 0x35, 0x36, 0x37, 0x38, 0x39] = 0xCBF43926 :=
  ⟨BTree.node_crc_eq m node block_size, BTree.node_crc_eq m node block_size,
    by decide!⟩

/-- C20 fails in the code: `calculate_checksum` skips the bytes 5..8 of the block,
not the checksum field at bytes 8..11: a change of byte 5 (a byte of key_count)
never changes the value, and a change of byte 9 (a byte of the checksum field) of
a zero block does. -/
theorem C20_crc_skips_key_count_bytes :
    (∀ (m : Mem) (node block_size v : Nat),
      BTree.calculate_checksum (wr8 m (node + 5) v) node block_size =
        BTree.calculate_checksum m node block_size) ∧
    BTree.calculate_checksum (wr8 zero_file (128 + 9) 1) 128 64 ≠
      BTree.calculate_checksum zero_file 128 64 :=
  ⟨fun m node block_size v =>
    BTree.calculate_checksum_skipped m node block_size 5 v ⟨by decide, by decide⟩, by decide!⟩

set_option maxHeartbeats 4000000

/-- C21 as stated fails: on the small tree (max_keys = 2, leaf_capacity = 2, blocks
of 64 bytes, a layout that fits the block) `insert(10, 100)` and `insert(10, 200)`
both return, and the root leaf then holds the two entries `(10, 100)` and
`(10, 200)` among its first `key_count` entries. -/
theorem C21_counterexample :
    BTree.fits ⟨2, 1, 2⟩ 64 ∧ Hist false ⟨2, 1, 2⟩ 1024 64 2 dup_run ∧
    BTree.Reaches dup_run.config dup_run.manager.mem dup_run.root_offset 128 ∧
    BTree.is_leaf dup_run.manager.mem 128 = true ∧
    BTree.leaf_entries dup_run.manager.mem 128 = [⟨10, 100⟩, ⟨10, 200⟩] :=
  ⟨BTree.fits_of_size _ _ (by decide) (by decide) (by decide) (by decide) (by decide),
    BTree.hist_of_insert_all ⟨2, 1, 2⟩ 1024 64 5 [(10, 100), (10, 200)] 0 small_tree
      (BTree.hist_construct false _ zero_file 1024 64 (by decide!)) (by decide) (by decide!),
    (by decide! : dup_run.root_offset = 128) ▸ BTree.Reaches.base,
    by decide!, by decide!⟩

/-- C21 (leaf keys are unique), amended: when the node layout of the configuration
fits the blocks of the region, in every tree state reached from a fresh tree by
completed inserts and erases in which a key is inserted only when `search`
reports it not-found, no reachable leaf holds two entries with the same key among
its first `key_count` entries. -/
theorem C21_leaf_keys_unique (cfg : BTreeConfig) (region_size block_size n : Nat) (t : BTree)
    (hfit : BTree.fits cfg block_size) (hlc : 2 ≤ cfg.leaf_capacity)
    (hrs : region_size < 18446744073709551616)
    (hist : Hist true cfg region_size block_size n t) (o : Nat)
    (hreach : BTree.Reaches t.config t.manager.mem t.root_offset o)
    (hleaf : BTree.is_leaf t.manager.mem o = true) :
    ((BTree.leaf_entries t.manager.mem o).map (fun e => e.key)).Nodup ∧
    ∀ i j, i < BTree.key_count t.manager.mem o → j < BTree.key_count t.manager.mem o →
      (BTree.read_entry t.manager.mem (BTree.get_leaf_entries o + 8 * i)).key =
        (BTree.read_entry t.manager.mem (BTree.get_leaf_entries o + 8 * j)).key → i = j := by
  obtain ⟨_, h, _, i3, _, i5⟩ :=
    BTree.hist_inv true cfg region_size block_size hfit hlc hrs n t hist
  have hm := BTree.reaches_mem _ _ h _ i3.2.1 o hreach
  obtain ⟨h', _, a2, _, a4⟩ := BTree.subtree_of_mem _ _ h _ o i3.2.1 hm
  obtain ⟨lo, hi, ho⟩ := a4 _ _ (i5 rfl)
  cases h' with
  | succ k =>
    rw [BTree.shape_succ] at a2
    rw [a2.1] at hleaf
    exact Bool.noConfusion hleaf
  | zero =>
    rw [BTree.ord_zero] at ho
    exact ⟨ho.1, (BTree.leaf_keys_nodup_iff _ _).mp ho.1⟩

theorem C21_leaf_keys_unique_witness :
    ((BTree.leaf_entries grown_tree.manager.mem 128).map (fun e => e.key)).Nodup ∧
    ∀ i j, i < BTree.key_count grown_tree.manager.mem 128 →
      j < BTree.key_count grown_tree.manager.mem 128 →
      (BTree.read_entry grown_tree.manager.mem (BTree.get_leaf_entries 128 + 8 * i)).key =
        (BTree.read_entry grown_tree.manager.mem (BTree.get_leaf_entries 128 + 8 * j)).key →
      i = j :=
  C21_leaf_keys_unique ⟨2, 1, 2⟩ 1024 64 3 grown_tree
    (BTree.fits_of_size _ _ (by decide) (by decide) (by decide) (by decide) (by decide))
    (by decide) (by decide)
    (BTree.hist_of_fresh_run ⟨2, 1, 2⟩ 1024 64 5 [(10, 100), (20, 200), (30, 300)] 0 small_tree
      (BTree.hist_construct true _ zero_file 1024 64 (by decide!)) (by decide) (by decide!))
    128
    ((by decide! : BTree.child grown_tree.config grown_tree.manager.mem grown_tree.root_offset 0 = 128) ▸
      BTree.Reaches.step grown_tree.root_offset 0 BTree.Reaches.base (by decide!) (by decide!))
    (by decide!)

/-- C22 as stated fails: the spill tree (max_keys = 2, leaf_capacity = 10, blocks of
64 bytes) takes the first eleven inserts of `spill_ops` and then `insert(256, 5)`,
every call returning normally; the last entry is entry 6 of the leaf at 192 and
lies on the header of the root at 256, which is an internal node with
`key_count = 5` afterwards. -/
theorem C22_counterexample :
    Hist false ⟨2, 1, 10⟩ 1024 64 12 crowd_run ∧ crowd_run.config = ⟨2, 1, 10⟩ ∧
    BTree.Reaches crowd_run.config crowd_run.manager.mem crowd_run.root_offset 256 ∧
    BTree.is_leaf crowd_run.manager.mem 256 = false ∧
    BTree.key_count crowd_run.manager.mem 256 = 5 :=
  ⟨BTree.hist_of_insert_all ⟨2, 1, 10⟩ 1024 64 6 crowd_ops 0 spill_tree
      (BTree.hist_construct false _ zero_file 1024 64 (by decide!)) (by decide) (by decide!),
    by decide!, (by decide! : crowd_run.root_offset = 256) ▸ BTree.Reaches.base,
    by decide!, by decide!⟩

/-- C22 (capacity invariant), amended: when the node layout of the configuration
fits the blocks of the region, after every history of completed insert and erase
calls on a fresh tree every reachable leaf has `key_count <= leaf_capacity` and
every reachable internal node has `key_count <= max_keys` and at most
`max_keys + 1` children; the bound holds in the state after each erase, so a key
count never wraps below zero. -/
theorem C22_capacity (cfg : BTreeConfig) (region_size block_size n : Nat) (t : BTree)
    (hfit : BTree.fits cfg block_size) (hlc : 2 ≤ cfg.leaf_capacity)
    (hrs : region_size < 18446744073709551616)
    (hist : Hist false cfg region_size block_size n t) (o : Nat)
    (hreach : BTree.Reaches t.config t.manager.mem t.root_offset o) :
    t.config = cfg ∧
    (BTree.is_leaf t.manager.mem o = true →
      BTree.key_count t.manager.mem o ≤ cfg.leaf_capacity) ∧
    (BTree.is_leaf t.manager.mem o = false →
      BTree.key_count t.manager.mem o ≤ cfg.max_keys ∧
      (BTree.node_children cfg t.manager.mem o).length ≤ cfg.max_keys + 1) := by
  obtain ⟨hc, h, _, i3, _, _⟩ :=
    BTree.hist_inv false cfg region_size block_size hfit hlc hrs n t hist
  have hm := BTree.reaches_mem _ _ h _ i3.2.1 o hreach
  obtain ⟨h', _, a2, _, _⟩ := BTree.subtree_of_mem _ _ h _ o i3.2.1 hm
  rw [hc] at a2
  refine ⟨hc, fun hl => ?_, fun hl => ?_⟩
  · cases h' with
    | succ k =>
      rw [BTree.shape_succ] at a2
      rw [a2.1] at hl
      exact Bool.noConfusion hl
    | zero =>
      rw [BTree.shape_zero] at a2
      exact a2.2
  · cases h' with
    | zero =>
      rw [BTree.shape_zero] at a2
      rw [a2.1] at hl
      exact Bool.noConfusion hl
    | succ k =>
      rw [BTree.shape_succ] at a2
      rw [BTree.node_children_length]
      exact ⟨a2.2.1, by omega⟩

theorem C22_capacity_witness :
    grown_tree.config = ⟨2, 1, 2⟩ ∧
    (BTree.is_leaf grown_tree.manager.mem 128 = true →
      BTree.key_count grown_tree.manager.mem 128 ≤ (BTreeConfig.mk 2 1 2).leaf_capacity) ∧
    (BTree.is_leaf grown_tree.manager.mem 128 = false →
      BTree.key_count grown_tree.manager.mem 128 ≤ (BTreeConfig.mk 2 1 2).max_keys ∧
      (BTree.node_children ⟨2, 1, 2⟩ grown_tree.manager.mem 128).length ≤
        (BTreeConfig.mk 2 1 2).max_keys + 1) :=
  C22_capacity ⟨2, 1, 2⟩ 1024 64 3 grown_tree
    (BTree.fits_of_size _ _ (by decide) (by decide) (by decide) (by decide) (by decide))
    (by decide) (by decide)
    (BTree.hist_of_insert_all ⟨2, 1, 2⟩ 1024 64 5 [(10, 100), (20, 200), (30, 300)] 0 small_tree
      (BTree.hist_construct false _ zero_file 1024 64 (by decide!)) (by decide) (by decide!))
    128
    ((by decide! : BTree.child grown_tree.config grown_tree.manager.mem grown_tree.root_offset 0 = 128) ▸
      BTree.Reaches.step grown_tree.root_offset 0 BTree.Reaches.base (by decide!) (by decide!))

/-- C23 as stated fails: the spill tree (max_keys = 2, leaf_capacity = 10, blocks of
64 bytes) takes the first fourteen inserts of `spill_ops`, pairwise different keys,
each inserted when `search` reported it not-found; the last entry lies on
`keys[0]` of the root at 256, so that `keys[0] = 2` while the leaf at 192, which is
`children[1]`, holds the key -16. -/
theorem C23_counterexample :
    ((spill_ops.take 14).map Prod.fst).Nodup ∧
    Hist true ⟨2, 1, 10⟩ 1024 64 14 route_run ∧
    BTree.Reaches route_run.config route_run.manager.mem route_run.root_offset 256 ∧
    BTree.is_leaf route_run.manager.mem 256 = false ∧
    BTree.key_count route_run.manager.mem 256 = 1 ∧
    rdI32 route_run.manager.mem (BTree.get_internal_keys 256) = 2 ∧
    BTree.child route_run.config route_run.manager.mem 256 1 = 192 ∧
    BTree.is_leaf route_run.manager.mem 192 = true ∧
    (⟨-16, 5⟩ : LeafEntry) ∈ BTree.leaf_entries route_run.manager.mem 192 ∧
    ¬ BTree.Routed route_run.config route_run.manager.mem 0 256 :=
  ⟨by decide,
    BTree.hist_of_fresh_run ⟨2, 1, 10⟩ 1024 64 6 (spill_ops.take 14) 0 spill_tree
      (BTree.hist_construct true _ zero_file 1024 64 (by decide!)) (by decide) (by decide!),
    (by decide! : route_run.root_offset = 256) ▸ BTree.Reaches.base,
    by decide!, by decide!, by decide!, by decide!, by decide!, by decide!,
    fun h => absurd (h.2.2 1 (le_refl 1) (by decide!) ⟨-16, 5⟩ (by decide!)) (by decide!)⟩

/-- C23 (routing invariant), amended: when the node layout of the configuration
fits the blocks of the region, in every tree state reached from a fresh tree by
completed inserts and erases in which a key is inserted only when `search` reports
it not-found, at every reachable internal node the first `key_count` keys are
strictly ascending, every key stored below `children[i]` is smaller than `keys[i]`
for `i < key_count`, and every key stored below `children[i]` is at least
`keys[i-1]` for `i >= 1`. -/
theorem C23_routing (cfg : BTreeConfig) (region_size block_size n : Nat) (t : BTree)
    (hfit : BTree.fits cfg block_size) (hlc : 2 ≤ cfg.leaf_capacity)
    (hrs : region_size < 18446744073709551616)
    (hist : Hist true cfg region_size block_size n t) (o : Nat)
    (hreach : BTree.Reaches t.config t.manager.mem t.root_offset o)
    (hnode : BTree.is_leaf t.manager.mem o = false) :
    ∃ h, BTree.Shape t.config t.manager.mem (h + 1) o ∧
      BTree.Routed t.config t.manager.mem h o := by
  obtain ⟨_, h, _, i3, _, i5⟩ :=
    BTree.hist_inv true cfg region_size block_size hfit hlc hrs n t hist
  have hm := BTree.reaches_mem _ _ h _ i3.2.1 o hreach
  obtain ⟨h', _, a2, _, a4⟩ := BTree.subtree_of_mem _ _ h _ o i3.2.1 hm
  obtain ⟨lo, hi, ho⟩ := a4 _ _ (i5 rfl)
  cases h' with
  | zero =>
    rw [BTree.shape_zero] at a2
    rw [a2.1] at hnode
    exact Bool.noConfusion hnode
  | succ k => exact ⟨k, a2, BTree.routed_of_ord _ _ k o lo hi ho⟩

theorem C23_routing_witness :
    ∃ h, BTree.Shape grown_tree.config grown_tree.manager.mem (h + 1) grown_tree.root_offset ∧
      BTree.Routed grown_tree.config grown_tree.manager.mem h grown_tree.root_offset :=
  C23_routing ⟨2, 1, 2⟩ 1024 64 3 grown_tree
    (BTree.fits_of_size _ _ (by decide) (by decide) (by decide) (by decide) (by decide))
    (by decide) (by decide)
    (BTree.hist_of_fresh_run ⟨2, 1, 2⟩ 1024 64 5 [(10, 100), (20, 200), (30, 300)] 0 small_tree
      (BTree.hist_construct true _ zero_file 1024 64 (by decide!)) (by decide) (by decide!))
    grown_tree.root_offset BTree.Reaches.base (by decide!)

/-- C24 as stated fails: the spill tree (max_keys = 2, leaf_capacity = 10, blocks of
64 bytes, a leaf layout of 104 bytes) takes the first eleven inserts of
`spill_ops`, pairwise different keys each reported not-found before its insert;
the root at 256 then has the leaves 128 and 192 as children, the `next_leaf`
word of the leaf at 192 lies on `children[1]` of the root and holds 192, so the
last leaf does not end the chain and the walk from the leftmost leaf visits 192
again and again. -/
theorem C24_counterexample :
    Hist true ⟨2, 1, 10⟩ 1024 64 11 chain_run ∧ chain_run.config = ⟨2, 1, 10⟩ ∧
    BTree.leaves chain_run.config chain_run.manager.mem 1 chain_run.root_offset = [128, 192] ∧
    BTree.is_leaf chain_run.manager.mem 128 = true ∧
    BTree.is_leaf chain_run.manager.mem 192 = true ∧
    BTree.next_leaf chain_run.config chain_run.manager.mem 192 = 192 ∧
    BTree.chain_walk chain_run.config chain_run.manager.mem 5
      (BTree.leftmost chain_run.config chain_run.manager.mem 1 chain_run.root_offset) =
      [128, 192, 192, 192, 192] :=
  ⟨BTree.hist_of_fresh_run ⟨2, 1, 10⟩ 1024 64 6 (spill_ops.take 11) 0 spill_tree
      (BTree.hist_construct true _ zero_file 1024 64 (by decide!)) (by decide) (by decide!),
    by decide!, by decide!, by decide!, by decide!, by decide!, by decide!⟩

/-- C24 (leaf chain), amended: when the node layout of the configuration fits the
blocks of the region, in every tree state reached from a fresh tree by completed
inserts and erases in which a key is inserted only when `search` reports it
not-found, the tree has a height `h` such that the leaves in left-to-right tree
order are the reachable nodes with the leaf flag, each listed once; the walk
along `next_leaf` from the leftmost leaf, with any fuel beyond the number of
leaves, visits exactly these leaves in this order and then meets the null
offset; every key of a leaf is smaller than every key of each later leaf; and
the last leaf has `next_leaf == 0`. -/
theorem C24_leaf_chain (cfg : BTreeConfig) (region_size block_size n : Nat) (t : BTree)
    (hfit : BTree.fits cfg block_size) (hlc : 2 ≤ cfg.leaf_capacity)
    (hrs : region_size < 18446744073709551616)
    (hist : Hist true cfg region_size block_size n t) :
    t.config = cfg ∧ ∃ h, BTree.Shape cfg t.manager.mem h t.root_offset ∧
      (∀ o, o ∈ BTree.leaves cfg t.manager.mem h t.root_offset ↔
        BTree.Reaches cfg t.manager.mem t.root_offset o ∧
          BTree.is_leaf t.manager.mem o = true) ∧
      (BTree.leaves cfg t.manager.mem h t.root_offset).Nodup ∧
      (∀ k, BTree.chain_walk cfg t.manager.mem
          ((BTree.leaves cfg t.manager.mem h t.root_offset).length + k + 1)
          (BTree.leftmost cfg t.manager.mem h t.root_offset) =
        BTree.leaves cfg t.manager.mem h t.root_offset) ∧
      (BTree.leaves cfg t.manager.mem h t.root_offset).Pairwise (fun a b =>
        ∀ e ∈ BTree.leaf_entries t.manager.mem a, ∀ e' ∈ BTree.leaf_entries t.manager.mem b,
          e.key < e'.key) ∧
      ∀ l, (BTree.leaves cfg t.manager.mem h t.root_offset).getLast? = some l →
        BTree.next_leaf cfg t.manager.mem l = 0 := by
  obtain ⟨hc, _, _, h, hok, _, hst⟩ :=
    BTree.hist_links true cfg region_size block_size hfit hlc hrs n t hist
  obtain ⟨hord, hch⟩ := hst rfl
  rw [hc] at hch
  have hsh := hok.2.1
  have hown := hok.2
  have hbk := hok.2.2.2
  unfold BTree.TreeOrd at hord
  rw [hc] at hsh hown hbk hord
  refine ⟨hc, h, hsh, BTree.leaves_iff_reaches cfg t.manager.mem h t.root_offset hsh,
    BTree.leaves_nodup cfg t.manager h t.root_offset hown, fun k => ?_,
    (BTree.leaves_sorted cfg t.manager.mem h t.root_offset _ _ hord).2,
    fun l hl => BTree.chain_last cfg t.manager.mem 0 _ l hch hl⟩
  have hw := BTree.chain_walk_of_chain cfg t.manager.mem _ k hch (fun x hx => by
    have := BTree.blockOk_ge t.manager x (hbk x (BTree.mem_leaves_blocks _ _ _ _ x hx))
    omega)
  obtain ⟨tl, htl⟩ := BTree.leaves_head cfg t.manager.mem h t.root_offset
  rw [htl] at hw ⊢
  exact hw

theorem C24_leaf_chain_witness :
    grown_tree.config = ⟨2, 1, 2⟩ ∧
    ∃ h, BTree.Shape ⟨2, 1, 2⟩ grown_tree.manager.mem h grown_tree.root_offset ∧
      (∀ o, o ∈ BTree.leaves ⟨2, 1, 2⟩ grown_tree.manager.mem h grown_tree.root_offset ↔
        BTree.Reaches ⟨2, 1, 2⟩ grown_tree.manager.mem grown_tree.root_offset o ∧
          BTree.is_leaf grown_tree.manager.mem o = true) ∧
      (BTree.leaves ⟨2, 1, 2⟩ grown_tree.manager.mem h grown_tree.root_offset).Nodup ∧
      (∀ k, BTree.chain_walk ⟨2, 1, 2⟩ grown_tree.manager.mem
          ((BTree.leaves ⟨2, 1, 2⟩ grown_tree.manager.mem h grown_tree.root_offset).length + k + 1)
          (BTree.leftmost ⟨2, 1, 2⟩ grown_tree.manager.mem h grown_tree.root_offset) =
        BTree.leaves ⟨2, 1, 2⟩ grown_tree.manager.mem h grown_tree.root_offset) ∧
      (BTree.leaves ⟨2, 1, 2⟩ grown_tree.manager.mem h grown_tree.root_offset).Pairwise
        (fun a b => ∀ e ∈ BTree.leaf_entries grown_tree.manager.mem a,
          ∀ e' ∈ BTree.leaf_entries grown_tree.manager.mem b, e.key < e'.key) ∧
      ∀ l, (BTree.leaves ⟨2, 1, 2⟩ grown_tree.manager.mem h grown_tree.root_offset).getLast? =
          some l → BTree.next_leaf ⟨2, 1, 2⟩ grown_tree.manager.mem l = 0 :=
  C24_leaf_chain ⟨2, 1, 2⟩ 1024 64 3 grown_tree
    (BTree.fits_of_size _ _ (by decide) (by decide) (by decide) (by decide) (by decide))
    (by decide) (by decide)
    (BTree.hist_of_fresh_run ⟨2, 1, 2⟩ 1024 64 5 [(10, 100), (20, 200), (30, 300)] 0 small_tree
      (BTree.hist_construct true _ zero_file 1024 64 (by decide!)) (by decide) (by decide!))

/-- C25 as stated fails: the spill tree (max_keys = 2, leaf_capacity = 10, blocks of
64 bytes, a leaf layout of 104 bytes) takes the first fifteen inserts of
`spill_ops`, every call returning normally; the last entry lies on `children[0]`
of the root at 256, so the offset 24 inside the superblock is reachable from the
root through a child offset, and no call of `alloc_block` on a manager with
blocks of 64 bytes returns 24. -/
theorem C25_counterexample :
    Hist false ⟨2, 1, 10⟩ 1024 64 15 stray_run ∧ stray_run.config = ⟨2, 1, 10⟩ ∧
    stray_run.manager.block_size = 64 ∧ stray_run.manager.block_count = 16 ∧
    GarbageCollector.Linked stray_run.manager.mem 64 16 2 10 stray_run.root_offset 24 ∧
    ∀ (s s' : Manager) (off : Nat), s.block_size = 64 → s.alloc_block = (.ok off, s') →
      off ≠ 24 :=
  ⟨BTree.hist_of_insert_all ⟨2, 1, 10⟩ 1024 64 6 (spill_ops.take 15) 0 spill_tree
      (BTree.hist_construct false _ zero_file 1024 64 (by decide!)) (by decide) (by decide!),
    by decide!, by decide!, by decide!,
    (by decide! : rd64 stray_run.manager.mem
        (BTree.get_internal_children stray_run.root_offset 2 + 8 * 0) = 24) ▸
      GarbageCollector.Linked.child stray_run.root_offset 0
        (GarbageCollector.Linked.root (by decide!)) (by decide!) (by decide!) (Nat.zero_le _)
        (by decide!),
    fun s s' off hbs ha hoff => by
      obtain ⟨b, hb, _⟩ := Manager.alloc_block_ok s s' off ha
      rw [hbs, hoff] at hb
      omega⟩

/-- C25 (live blocks are the tree's blocks), amended: when the node layout of the
configuration fits the blocks of the region, in every tree state reached from a
tree constructed on a freshly created region by completed inserts and erases
the tree has a height `h` such that the offsets reachable from the root through
non-null child offsets and `next_leaf` links are exactly the nodes of the tree;
a bit of the bitmap is set exactly for the blocks reserved for superblock and
bitmap and for the nodes of the tree (`alloc_block` sets the bit of the block it
returns and no call of such a history clears a bit, so the blocks handed out
since creation are the nodes of the tree and none of them is leaked); and every
node of the tree is a block behind the reserved ones whose bit is set, so no
child offset points to a free block. -/
theorem C25_live_blocks (cfg : BTreeConfig) (region_size block_size n : Nat) (t : BTree)
    (hfit : BTree.fits cfg block_size) (hlc : 2 ≤ cfg.leaf_capacity)
    (hrs : region_size < 18446744073709551616)
    (hist : Hist false cfg region_size block_size n t) :
    t.config = cfg ∧ t.manager.block_size = block_size ∧
    t.manager.block_count = region_size / block_size ∧
    ∃ h, BTree.Shape cfg t.manager.mem h t.root_offset ∧
      (∀ o, GarbageCollector.Linked t.manager.mem block_size (region_size / block_size)
          cfg.max_keys cfg.leaf_capacity t.root_offset o ↔
        o ∈ BTree.blocks cfg t.manager.mem h t.root_offset) ∧
      (∀ b, b < region_size / block_size →
        (t.manager.block_bit b = true ↔
          b < Manager.reserved_blocks region_size block_size ∨
            b * block_size ∈ BTree.blocks cfg t.manager.mem h t.root_offset)) ∧
      ∀ o ∈ BTree.blocks cfg t.manager.mem h t.root_offset,
        ∃ b, o = b * block_size ∧ Manager.reserved_blocks region_size block_size ≤ b ∧
          b < region_size / block_size ∧ t.manager.block_bit b = true := by
  obtain ⟨hc, hbs, hrg, h, hok, hl, _⟩ :=
    BTree.hist_links false cfg region_size block_size hfit hlc hrs n t hist
  have hbc : t.manager.block_count = region_size / block_size := by
    unfold Manager.block_count
    rw [hbs, hrg]
  have h24 := BTree.fits_block_size cfg block_size hfit
  have hlk := GarbageCollector.linked_iff_blocks t h _ hok hl
  have hbit := GarbageCollector.bit_iff_blocks t h hok (by rw [hrg, hbs]; exact hl)
  have hsh := hok.2.1
  have hbk := hok.2.2.2
  rw [hc, hbs, hbc] at hlk
  rw [hc, hbs, hrg, hbc] at hbit
  rw [hc] at hsh hbk
  refine ⟨hc, hbs, hbc, h, hsh, hlk, hbit, fun o ho => ?_⟩
  obtain ⟨b, h1, h2, h3, h4⟩ := hbk o ho
  rw [hbs] at h1
  rw [hbc] at h2 h4
  refine ⟨b, h1, ?_, h2, h3⟩
  unfold Manager.reserved_blocks BITMAP_OFFSET METADATA_SIZE align_to_8 calculate_bitmap_words
  rw [h1] at h4
  apply Nat.le_of_lt_succ
  rw [Nat.div_lt_iff_lt_mul (by omega)]
  have e : (b + 1) * block_size = b * block_size + block_size := Nat.succ_mul b block_size
  rw [e]
  generalize region_size / block_size = q at *
  generalize b * block_size = x at *
  omega

theorem C25_live_blocks_witness :
    grown_tree.config = ⟨2, 1, 2⟩ ∧ grown_tree.manager.block_size = 64 ∧
    grown_tree.manager.block_count = 1024 / 64 ∧
    ∃ h, BTree.Shape ⟨2, 1, 2⟩ grown_tree.manager.mem h grown_tree.root_offset ∧
      (∀ o, GarbageCollector.Linked grown_tree.manager.mem 64 (1024 / 64) 2 2
          grown_tree.root_offset o ↔
        o ∈ BTree.blocks ⟨2, 1, 2⟩ grown_tree.manager.mem h grown_tree.root_offset) ∧
      (∀ b, b < 1024 / 64 →
        (grown_tree.manager.block_bit b = true ↔
          b < Manager.reserved_blocks 1024 64 ∨
            b * 64 ∈ BTree.blocks ⟨2, 1, 2⟩ grown_tree.manager.mem h grown_tree.root_offset)) ∧
      ∀ o ∈ BTree.blocks ⟨2, 1, 2⟩ grown_tree.manager.mem h grown_tree.root_offset,
        ∃ b, o = b * 64 ∧ Manager.reserved_blocks 1024 64 ≤ b ∧
          b < 1024 / 64 ∧ grown_tree.manager.block_bit b = true :=
  C25_live_blocks ⟨2, 1, 2⟩ 1024 64 3 grown_tree
    (BTree.fits_of_size _ _ (by decide) (by decide) (by decide) (by decide) (by decide))
    (by decide) (by decide)
    (BTree.hist_of_insert_all ⟨2, 1, 2⟩ 1024 64 5 [(10, 100), (20, 200), (30, 300)] 0 small_tree
      (BTree.hist_construct false _ zero_file 1024 64 (by decide!)) (by decide) (by decide!))

/-- C26 as stated fails: a region of 128 bytes in blocks of 64 bytes has two
blocks, and both are reserved for superblock and bitmap (`k = 2`); the first
`alloc_block` after the creation raises the out-of-memory exception instead of
returning `k * block_size`. -/
theorem C26_counterexample :
    (Manager.create zero_file 128 64).block_count = 2 ∧ reserved_count 128 64 = 2 ∧
    (Manager.create zero_file 128 64).alloc_block.1 = .error .out_of_memory := by
  decide!

/-- C26 (create postcondition), amended: for a block size that is not zero and a
region with at least one block behind the `k` reserved ones, after the constructor
with `create_new = true` the block count is `region_size / block_size`, the bits
`0 .. k-1` of the bitmap are set and all its other bits are clear, with
`k = ceil((64 + 8 * ceil(block_count / 64)) / block_size)`, the root offset is 0,
the magic number is 0x4154524545, the version is 1, `verify_integrity()` is true,
and the first `alloc_block` returns `k * block_size`. -/
theorem C26_create_postcondition (file : Mem) (region_size block_size : Nat)
    (hbs : 0 < block_size)
    (hk : reserved_count region_size block_size < region_size / block_size) :
    (Manager.create file region_size block_size).block_count = region_size / block_size ∧
    (∀ b, b < 64 * (Manager.create file region_size block_size).bitmap_size_words →
      (Manager.create file region_size block_size).block_bit b =
        decide (b < reserved_count region_size block_size)) ∧
    (Manager.create file region_size block_size).get_root_offset = 0 ∧
    rd64 (Manager.create file region_size block_size).mem OFF_MAGIC = 0x4154524545 ∧
    rd32 (Manager.create file region_size block_size).mem OFF_VERSION = 1 ∧
    (Manager.create file region_size block_size).verify_integrity = true ∧
    (Manager.create file region_size block_size).alloc_block.1 =
      .ok (reserved_count region_size block_size * block_size) := by
  have hmagic : rd64 (Manager.create file region_size block_size).mem OFF_MAGIC =
      0x4154524545 := by
    rw [rd64_congr _ _ OFF_MAGIC (fun x _ h2 =>
      Manager.create_head file region_size block_size x (by unfold OFF_MAGIC at h2; omega))]
    rw [rd64_wr32_other _ _ _ _ (by unfold OFF_MAGIC OFF_PADDING; omega),
      rd64_wr32_other _ _ _ _ (by unfold OFF_MAGIC OFF_LEAF_CAPACITY; omega),
      rd64_wr32_other _ _ _ _ (by unfold OFF_MAGIC OFF_MIN_KEYS; omega),
      rd64_wr32_other _ _ _ _ (by unfold OFF_MAGIC OFF_MAX_KEYS; omega),
      rd64_wr64_other _ _ _ _ (by unfold OFF_MAGIC OFF_BLOCK_SIZE; omega),
      rd64_wr64_other _ _ _ _ (by unfold OFF_MAGIC OFF_BLOCK_COUNT; omega),
      rd64_wr64_other _ _ _ _ (by unfold OFF_MAGIC OFF_ROOT; omega),
      rd64_wr32_other _ _ _ _ (by unfold OFF_MAGIC OFF_VERSION; omega),
      rd64_wr64_same]
    rfl
  refine ⟨rfl, ?_, (Manager.create_facts file region_size block_size hbs).2.2.1, hmagic, ?_,
    Manager.verify_integrity_of_valid _ hmagic (Manager.create_valid _ _ _), ?_⟩
  · intro b hb
    rw [← Manager.reserved_blocks_eq _ _ hbs]
    exact Manager.create_bit file region_size block_size b hb
  · rw [rd32_congr _ _ OFF_VERSION (fun x _ h2 =>
      Manager.create_head file region_size block_size x (by unfold OFF_VERSION at h2; omega))]
    rw [rd32_wr32_other _ _ _ _ (by unfold OFF_VERSION OFF_PADDING; omega),
      rd32_wr32_other _ _ _ _ (by unfold OFF_VERSION OFF_LEAF_CAPACITY; omega),
      rd32_wr32_other _ _ _ _ (by unfold OFF_VERSION OFF_MIN_KEYS; omega),
      rd32_wr32_other _ _ _ _ (by unfold OFF_VERSION OFF_MAX_KEYS; omega),
      rd32_wr64_other _ _ _ _ (by unfold OFF_VERSION OFF_BLOCK_SIZE; omega),
      rd32_wr64_other _ _ _ _ (by unfold OFF_VERSION OFF_BLOCK_COUNT; omega),
      rd32_wr64_other _ _ _ _ (by unfold OFF_VERSION OFF_ROOT; omega),
      rd32_wr32_same]
  · rw [← Manager.reserved_blocks_eq _ _ hbs]
    exact Manager.create_alloc file region_size block_size
      (by rw [Manager.reserved_blocks_eq _ _ hbs]; exact hk)

theorem C26_create_postcondition_witness :
    (Manager.create zero_file 1048576 4096).block_count = 256 ∧
    (∀ b, b < 64 * (Manager.create zero_file 1048576 4096).bitmap_size_words →
      (Manager.create zero_file 1048576 4096).block_bit b = decide (b < 1)) ∧
    (Manager.create zero_file 1048576 4096).get_root_offset = 0 ∧
    rd64 (Manager.create zero_file 1048576 4096).mem OFF_MAGIC = 0x4154524545 ∧
    rd32 (Manager.create zero_file 1048576 4096).mem OFF_VERSION = 1 ∧
    (Manager.create zero_file 1048576 4096).verify_integrity = true ∧
    (Manager.create zero_file 1048576 4096).alloc_block.1 = .ok 4096 :=
  C26_create_postcondition zero_file 1048576 4096 (by decide) (by decide)

/-- C27 (node layout alignment): for a node at an offset that is a multiple of 8
(the region is mapped at a page boundary, so addresses and offsets have the same
remainder modulo 8), with `data = node + 16`, `get_internal_children` returns
`data + roundup8(4 * max_keys)` and `get_leaf_next` returns
`data + 8 * leaf_capacity`, for every `max_keys` and `leaf_capacity`; both are
multiples of 8, at or after the end of the keys resp. of the entries, and less
than 8 bytes past it; `roundup8(n)` is the multiple of 8 in `n .. n + 7`. -/
theorem C27_layout_alignment (node max_keys leaf_capacity : Nat) (h : node % 8 = 0) :
    BTree.get_internal_keys node = node + 16 ∧ BTree.get_leaf_entries node = node + 16 ∧
    BTree.get_internal_children node max_keys =
      BTree.get_internal_keys node + roundup8 (4 * max_keys) ∧
    BTree.get_leaf_next node leaf_capacity = BTree.get_leaf_entries node + 8 * leaf_capacity ∧
    BTree.get_internal_children node max_keys % 8 = 0 ∧
    BTree.get_leaf_next node leaf_capacity % 8 = 0 ∧
    BTree.get_internal_keys node + 4 * max_keys ≤ BTree.get_internal_children node max_keys ∧
    BTree.get_internal_children node max_keys < BTree.get_internal_keys node + 4 * max_keys + 8 ∧
    BTree.get_leaf_entries node + 8 * leaf_capacity ≤ BTree.get_leaf_next node leaf_capacity ∧
    BTree.get_leaf_next node leaf_capacity < BTree.get_leaf_entries node + 8 * leaf_capacity + 8 ∧
    roundup8 (4 * max_keys) % 8 = 0 ∧ 4 * max_keys ≤ roundup8 (4 * max_keys) ∧
    roundup8 (4 * max_keys) < 4 * max_keys + 8 := by
  unfold BTree.get_internal_children BTree.get_leaf_next BTree.get_internal_keys
    BTree.get_leaf_entries align_to_8 roundup8
  refine ⟨rfl, rfl, ?_⟩
  split <;> omega

theorem C27_layout_alignment_witness :
    BTree.get_internal_keys 4096 = 4096 + 16 ∧ BTree.get_leaf_entries 4096 = 4096 + 16 ∧
    BTree.get_internal_children 4096 15 = BTree.get_internal_keys 4096 + roundup8 (4 * 15) ∧
    BTree.get_leaf_next 4096 32 = BTree.get_leaf_entries 4096 + 8 * 32 ∧
    BTree.get_internal_children 4096 15 % 8 = 0 ∧
    BTree.get_leaf_next 4096 32 % 8 = 0 ∧
    BTree.get_internal_keys 4096 + 4 * 15 ≤ BTree.get_internal_children 4096 15 ∧
    BTree.get_internal_children 4096 15 < BTree.get_internal_keys 4096 + 4 * 15 + 8 ∧
    BTree.get_leaf_entries 4096 + 8 * 32 ≤ BTree.get_leaf_next 4096 32 ∧
    BTree.get_leaf_next 4096 32 < BTree.get_leaf_entries 4096 + 8 * 32 + 8 ∧
    roundup8 (4 * 15) % 8 = 0 ∧ 4 * 15 ≤ roundup8 (4 * 15) ∧
    roundup8 (4 * 15) < 4 * 15 + 8 :=
  C27_layout_alignment 4096 15 32 (by decide)

/-- C28 as stated fails: in the overflow tree (leaf_capacity = 8, blocks of 64
bytes) after the inserts `i -> 10 * i`, `i = 1 .. 8`, each made when `search`
reported the key not-found, the root leaf at 128 holds eight entries with the
pairwise different keys 1 .. 8 and `next_leaf = 0`; `split_leaf` on it allocates
the block at 192, on which entries 6 and 7 of the old leaf lie, and afterwards the
old leaf holds the keys 1, 1, 2, 3 and the new leaf the keys 192, 5, 6, 8: the
entries `(4, 40)` and `(7, 70)` are gone, and the `next_leaf` of the new leaf is
not 0. -/
theorem C28_counterexample :
    Hist true ⟨2, 1, 8⟩ 1024 64 8 full_leaf_run ∧ full_leaf_run.root_offset = 128 ∧
    BTree.is_leaf full_leaf_run.manager.mem 128 = true ∧
    BTree.leaf_entries full_leaf_run.manager.mem 128 =
      [⟨1, 10⟩, ⟨2, 20⟩, ⟨3, 30⟩, ⟨4, 40⟩, ⟨5, 50⟩, ⟨6, 60⟩, ⟨7, 70⟩, ⟨8, 80⟩] ∧
    rd64 full_leaf_run.manager.mem (BTree.get_leaf_next 128 8) = 0 ∧
    (BTree.split_leaf ⟨2, 1, 8⟩ full_leaf_run.manager 128).1 = .ok ⟨4, 192, true⟩ ∧
    BTree.leaf_entries (BTree.split_leaf ⟨2, 1, 8⟩ full_leaf_run.manager 128).2.mem 128 =
      [⟨1, 10⟩, ⟨1, 70⟩, ⟨2, 20⟩, ⟨3, 30⟩] ∧
    BTree.leaf_entries (BTree.split_leaf ⟨2, 1, 8⟩ full_leaf_run.manager 128).2.mem 192 =
      [⟨192, 0⟩, ⟨5, 50⟩, ⟨6, 60⟩, ⟨8, 80⟩] ∧
    rd64 (BTree.split_leaf ⟨2, 1, 8⟩ full_leaf_run.manager 128).2.mem
      (BTree.get_leaf_next 192 8) = 171798691844 :=
  ⟨BTree.hist_of_fresh_run ⟨2, 1, 8⟩ 1024 64 4 (pairs9.take 8) 0 overflow_tree
      (BTree.hist_construct true _ zero_file 1024 64 (by decide!)) (by decide) (by decide!),
    by decide!⟩

/-- C28 (split_leaf postcondition), amended: when the node layout of the
configuration fits the blocks of the region and the blocks under superblock and
bitmap are allocated, for every allocated leaf with `total` entries, `2 <= total
<= leaf_capacity`, with pairwise different keys, `split_leaf` fails only in
`alloc_block`, and otherwise the old leaf holds `total / 2` entries, the new leaf
the other `total - total / 2`, the two together are a permutation of the original
entries, every key of the old leaf is smaller than every key of the new leaf, the
returned split key is the smallest key of the new leaf and greater than every key
of the old leaf, the `next_leaf` of the new leaf is the previous `next_leaf` of the
old leaf, and the `next_leaf` of the old leaf is the returned offset. -/
theorem C28_split_leaf (cfg : BTreeConfig) (s : Manager) (off : Nat)
    (henv : BTree.Env cfg s) (hok : BTree.BlockOk s off)
    (h2 : 2 ≤ BTree.key_count s.mem off) (hcap : BTree.key_count s.mem off ≤ cfg.leaf_capacity)
    (hnd : ((BTree.leaf_entries s.mem off).map (fun e => e.key)).Nodup) :
    ∀ (r : Except Err InsertResult) (s' : Manager), BTree.split_leaf cfg s off = (r, s') →
    match r with
    | .error e => e = .out_of_memory
    | .ok res =>
      res.did_split = true ∧
      (BTree.leaf_entries s'.mem off).length = BTree.key_count s.mem off / 2 ∧
      (BTree.leaf_entries s'.mem res.new_child_offset).length =
        BTree.key_count s.mem off - BTree.key_count s.mem off / 2 ∧
      (BTree.leaf_entries s'.mem off ++ BTree.leaf_entries s'.mem res.new_child_offset).Perm
        (BTree.leaf_entries s.mem off) ∧
      (∀ a ∈ BTree.leaf_entries s'.mem off,
        ∀ b ∈ BTree.leaf_entries s'.mem res.new_child_offset, a.key < b.key) ∧
      (∃ e ∈ BTree.leaf_entries s'.mem res.new_child_offset, e.key = res.split_key) ∧
      (∀ b ∈ BTree.leaf_entries s'.mem res.new_child_offset, res.split_key ≤ b.key) ∧
      (∀ a ∈ BTree.leaf_entries s'.mem off, a.key < res.split_key) ∧
      rd64 s'.mem (BTree.get_leaf_next res.new_child_offset cfg.leaf_capacity) =
        rd64 s.mem (BTree.get_leaf_next off cfg.leaf_capacity) ∧
      rd64 s'.mem (BTree.get_leaf_next off cfg.leaf_capacity) = res.new_child_offset := by
  intro r s' h
  have spec := BTree.split_leaf_general cfg s off _ henv hok rfl (by omega) hcap r s' h
  cases r with
  | error e => exact spec
  | ok res =>
    simp only at spec ⊢
    obtain ⟨a1, ⟨e, a2, a3⟩, _, _, _, _, _, a8, a9, a10, a11, _⟩ := spec
    have hlen := BTree.leaf_entries_length s.mem off
    generalize BTree.key_count s.mem off = total at *
    generalize BTree.leaf_entries s.mem off = es at *
    have hs := List.sorted_insertionSort (fun a b : LeafEntry => a.key ≤ b.key) es
    have hl := List.length_insertionSort (fun a b : LeafEntry => a.key ≤ b.key) es
    have hp := List.perm_insertionSort (fun a b : LeafEntry => a.key ≤ b.key) es
    obtain ⟨e', b1, b2, b3, b4⟩ := BTree.sorted_buffer_cut es (total / 2) (by omega)
    rw [a2] at b1
    have hee : e = e' := Option.some.inj b1
    subst hee
    generalize List.insertionSort (fun a b : LeafEntry => a.key ≤ b.key) es = B at *
    have hsplit : B.take (total / 2) ++ B.drop (total / 2) = B := List.take_append_drop _ _
    have hlt : ∀ a ∈ B.take (total / 2), ∀ b ∈ B.drop (total / 2), a.key < b.key := by
      intro a ha b hb
      have h1 : a.key ≤ b.key := by
        unfold List.Sorted at hs
        rw [← hsplit, List.pairwise_append] at hs
        exact hs.2.2 a ha b hb
      have hnd' : (B.map (fun e => e.key)).Nodup := (hp.map _).nodup_iff.mpr hnd
      rw [← hsplit, List.map_append, List.nodup_append] at hnd'
      have h2 : a.key ≠ b.key := fun hc =>
        hnd'.2.2 (List.mem_map_of_mem _ ha) (hc ▸ List.mem_map_of_mem _ hb)
      omega
    rw [a8, a9, a3]
    refine ⟨a1, ?_, ?_, ?_, hlt, ⟨e, b2, rfl⟩, b4, fun a ha => hlt a ha e b2, a10, a11⟩
    · rw [List.length_take, hl, hlen]; omega
    · rw [List.length_drop, hl, hlen]
    · rw [hsplit]; exact hp

theorem C28_split_leaf_witness :
    match (BTree.split_leaf ⟨2, 1, 2⟩ pair_run.manager 128).1 with
    | .error e => e = .out_of_memory
    | .ok res =>
      res.did_split = true ∧
      (BTree.leaf_entries (BTree.split_leaf ⟨2, 1, 2⟩ pair_run.manager 128).2.mem 128).length =
        BTree.key_count pair_run.manager.mem 128 / 2 ∧
      (BTree.leaf_entries (BTree.split_leaf ⟨2, 1, 2⟩ pair_run.manager 128).2.mem
        res.new_child_offset).length =
        BTree.key_count pair_run.manager.mem 128 - BTree.key_count pair_run.manager.mem 128 / 2 ∧
      (BTree.leaf_entries (BTree.split_leaf ⟨2, 1, 2⟩ pair_run.manager 128).2.mem 128 ++
        BTree.leaf_entries (BTree.split_leaf ⟨2, 1, 2⟩ pair_run.manager 128).2.mem
          res.new_child_offset).Perm (BTree.leaf_entries pair_run.manager.mem 128) ∧
      (∀ a ∈ BTree.leaf_entries (BTree.split_leaf ⟨2, 1, 2⟩ pair_run.manager 128).2.mem 128,
        ∀ b ∈ BTree.leaf_entries (BTree.split_leaf ⟨2, 1, 2⟩ pair_run.manager 128).2.mem
          res.new_child_offset, a.key < b.key) ∧
      (∃ e ∈ BTree.leaf_entries (BTree.split_leaf ⟨2, 1, 2⟩ pair_run.manager 128).2.mem
        res.new_child_offset, e.key = res.split_key) ∧
      (∀ b ∈ BTree.leaf_entries (BTree.split_leaf ⟨2, 1, 2⟩ pair_run.manager 128).2.mem
        res.new_child_offset, res.split_key ≤ b.key) ∧
      (∀ a ∈ BTree.leaf_entries (BTree.split_leaf ⟨2, 1, 2⟩ pair_run.manager 128).2.mem 128,
        a.key < res.split_key) ∧
      rd64 (BTree.split_leaf ⟨2, 1, 2⟩ pair_run.manager 128).2.mem
        (BTree.get_leaf_next res.new_child_offset (BTreeConfig.mk 2 1 2).leaf_capacity) =
        rd64 pair_run.manager.mem (BTree.get_leaf_next 128 (BTreeConfig.mk 2 1 2).leaf_capacity) ∧
      rd64 (BTree.split_leaf ⟨2, 1, 2⟩ pair_run.manager 128).2.mem
        (BTree.get_leaf_next 128 (BTreeConfig.mk 2 1 2).leaf_capacity) = res.new_child_offset := by
  obtain ⟨hc, h, _, i3, _, _⟩ := BTree.hist_inv false ⟨2, 1, 2⟩ 1024 64
    (BTree.fits_of_size _ _ (by decide) (by decide) (by decide) (by decide) (by decide))
    (by decide) (by decide) 2 pair_run
    (BTree.hist_of_insert_all ⟨2, 1, 2⟩ 1024 64 5 [(10, 100), (20, 200)] 0 small_tree
      (BTree.hist_construct false _ zero_file 1024 64 (by decide!)) (by decide) (by decide!))
  have hroot : pair_run.root_offset = 128 := by decide!
  exact C28_split_leaf ⟨2, 1, 2⟩ pair_run.manager 128 (hc ▸ i3.1)
    (hroot ▸ i3.2.2.2 _ (BTree.mem_blocks_self _ _ _ _)) (by decide!) (by decide!) (by decide!)
    _ _ rfl

/-- C29 as stated fails: with max_keys = 8 in blocks of 64 bytes the child offsets
of the internal node at 128 start at byte 176 and run on into the block at 192.
On the manager opened on `wide_file` that node has the keys 1 .. 8 and the children
1001 .. 1009; `split_internal` on it allocates the block at 192 and returns the
split key 5, and afterwards `children[2]` of the old node, which keeps four keys,
is 12884902656 instead of 1003, and the last child of the new sibling is 1006
(`c_5`) instead of 1009 (`c_8`). -/
theorem C29_counterexample :
    BTree.is_leaf wide.mem 128 = false ∧ BTree.key_count wide.mem 128 = 8 ∧
    BTree.node_keys wide.mem 128 = [1, 2, 3, 4, 5, 6, 7, 8] ∧
    BTree.node_children ⟨8, 4, 2⟩ wide.mem 128 =
      [1001, 1002, 1003, 1004, 1005, 1006, 1007, 1008, 1009] ∧
    (BTree.split_internal ⟨8, 4, 2⟩ wide 128).1 = .ok ⟨5, 192, true⟩ ∧
    BTree.key_count (BTree.split_internal ⟨8, 4, 2⟩ wide 128).2.mem 128 = 4 ∧
    BTree.child ⟨8, 4, 2⟩ (BTree.split_internal ⟨8, 4, 2⟩ wide 128).2.mem 128 2 = 12884902656 ∧
    BTree.key_count (BTree.split_internal ⟨8, 4, 2⟩ wide 128).2.mem 192 = 3 ∧
    BTree.child ⟨8, 4, 2⟩ (BTree.split_internal ⟨8, 4, 2⟩ wide 128).2.mem 192 3 = 1006 := by
  decide!

/-- C29 (split_internal postcondition), amended: when the node layout of the
configuration fits the blocks of the region and the blocks under superblock and
bitmap are allocated, for every allocated internal node with `total` keys,
`1 <= total <= max_keys`, and `mid = total / 2`, `split_internal` fails only in
`alloc_block`, and otherwise returns the split key `k_mid`, leaves the old node
with the keys `k_0 .. k_(mid-1)` and the children `c_0 .. c_mid`, and gives the new
sibling the keys `k_(mid+1) .. k_(total-1)` and the children `c_(mid+1) .. c_total`;
so old keys, split key and new keys are the original keys, and old children and
new children the original children. -/
theorem C29_split_internal (cfg : BTreeConfig) (s : Manager) (off : Nat)
    (henv : BTree.Env cfg s) (hok : BTree.BlockOk s off)
    (h1 : 1 ≤ BTree.key_count s.mem off) (hcap : BTree.key_count s.mem off ≤ cfg.max_keys) :
    ∀ (r : Except Err InsertResult) (s' : Manager), BTree.split_internal cfg s off = (r, s') →
    match r with
    | .error e => e = .out_of_memory
    | .ok res =>
      res.did_split = true ∧
      res.split_key =
        rdI32 s.mem (BTree.get_internal_keys off + 4 * (BTree.key_count s.mem off / 2)) ∧
      BTree.node_keys s'.mem off =
        (BTree.node_keys s.mem off).take (BTree.key_count s.mem off / 2) ∧
      BTree.node_children cfg s'.mem off =
        (BTree.node_children cfg s.mem off).take (BTree.key_count s.mem off / 2 + 1) ∧
      BTree.node_keys s'.mem res.new_child_offset =
        (BTree.node_keys s.mem off).drop (BTree.key_count s.mem off / 2 + 1) ∧
      BTree.node_children cfg s'.mem res.new_child_offset =
        (BTree.node_children cfg s.mem off).drop (BTree.key_count s.mem off / 2 + 1) ∧
      BTree.node_keys s'.mem off ++ res.split_key :: BTree.node_keys s'.mem res.new_child_offset =
        BTree.node_keys s.mem off ∧
      BTree.node_children cfg s'.mem off ++ BTree.node_children cfg s'.mem res.new_child_offset =
        BTree.node_children cfg s.mem off := by
  intro r s' h
  have spec := BTree.split_internal_general cfg s off _ henv hok rfl h1 hcap r s' h
  cases r with
  | error e => exact spec
  | ok res =>
    simp only at spec ⊢
    obtain ⟨a1, a2, _, _, _, _, _, a8, a9, a10, a11, _⟩ := spec
    obtain ⟨k1, c1⟩ := BTree.keys_of_view_take cfg s.mem s'.mem off off 0 0 0 res.split_key
      (BTree.key_count s.mem off / 2) (by omega) a8 (a10 0 0)
    obtain ⟨k2, c2⟩ := BTree.keys_of_view_drop cfg s.mem s'.mem off res.new_child_offset 0 0
      res.split_key 0 (BTree.key_count s.mem off / 2) (by omega) a9 (a11 0 0)
    refine ⟨a1, a2, k1, c1, k2, c2, ?_, ?_⟩
    · rw [k1, k2, a2]
      have hl : BTree.key_count s.mem off / 2 < (BTree.node_keys s.mem off).length := by
        unfold BTree.node_keys
        rw [List.length_map, List.length_range]
        omega
      have hg : (BTree.node_keys s.mem off).get ⟨BTree.key_count s.mem off / 2, hl⟩ =
          rdI32 s.mem (BTree.get_internal_keys off + 4 * (BTree.key_count s.mem off / 2)) := by
        unfold BTree.node_keys
        simp
      rw [← hg]
      exact (list_split_at _ _ hl).symm
    · rw [c1, c2]
      exact List.take_append_drop _ _

theorem C29_split_internal_witness :
    match (BTree.split_internal ⟨2, 1, 2⟩ grown_tree.manager 256).1 with
    | .error e => e = .out_of_memory
    | .ok res =>
      res.did_split = true ∧
      res.split_key = rdI32 grown_tree.manager.mem
        (BTree.get_internal_keys 256 + 4 * (BTree.key_count grown_tree.manager.mem 256 / 2)) ∧
      BTree.node_keys (BTree.split_internal ⟨2, 1, 2⟩ grown_tree.manager 256).2.mem 256 =
        (BTree.node_keys grown_tree.manager.mem 256).take
          (BTree.key_count grown_tree.manager.mem 256 / 2) ∧
      BTree.node_children ⟨2, 1, 2⟩
          (BTree.split_internal ⟨2, 1, 2⟩ grown_tree.manager 256).2.mem 256 =
        (BTree.node_children ⟨2, 1, 2⟩ grown_tree.manager.mem 256).take
          (BTree.key_count grown_tree.manager.mem 256 / 2 + 1) ∧
      BTree.node_keys (BTree.split_internal ⟨2, 1, 2⟩ grown_tree.manager 256).2.mem
          res.new_child_offset =
        (BTree.node_keys grown_tree.manager.mem 256).drop
          (BTree.key_count grown_tree.manager.mem 256 / 2 + 1) ∧
      BTree.node_children ⟨2, 1, 2⟩
          (BTree.split_internal ⟨2, 1, 2⟩ grown_tree.manager 256).2.mem res.new_child_offset =
        (BTree.node_children ⟨2, 1, 2⟩ grown_tree.manager.mem 256).drop
          (BTree.key_count grown_tree.manager.mem 256 / 2 + 1) ∧
      BTree.node_keys (BTree.split_internal ⟨2, 1, 2⟩ grown_tree.manager 256).2.mem 256 ++
          res.split_key ::
            BTree.node_keys (BTree.split_internal ⟨2, 1, 2⟩ grown_tree.manager 256).2.mem
              res.new_child_offset =
        BTree.node_keys grown_tree.manager.mem 256 ∧
      BTree.node_children ⟨2, 1, 2⟩
          (BTree.split_internal ⟨2, 1, 2⟩ grown_tree.manager 256).2.mem 256 ++
        BTree.node_children ⟨2, 1, 2⟩
          (BTree.split_internal ⟨2, 1, 2⟩ grown_tree.manager 256).2.mem res.new_child_offset =
        BTree.node_children ⟨2, 1, 2⟩ grown_tree.manager.mem 256 := by
  obtain ⟨hc, h, _, i3, _, _⟩ := BTree.hist_inv false ⟨2, 1, 2⟩ 1024 64
    (BTree.fits_of_size _ _ (by decide) (by decide) (by decide) (by decide) (by decide))
    (by decide) (by decide) 3 grown_tree
    (BTree.hist_of_insert_all ⟨2, 1, 2⟩ 1024 64 5 [(10, 100), (20, 200), (30, 300)] 0 small_tree
      (BTree.hist_construct false _ zero_file 1024 64 (by decide!)) (by decide) (by decide!))
  have hroot : grown_tree.root_offset = 256 := by decide!
  exact C29_split_internal ⟨2, 1, 2⟩ grown_tree.manager 256 (hc ▸ i3.1)
    (hroot ▸ i3.2.2.2 _ (BTree.mem_blocks_self _ _ _ _)) (by decide!) (by decide!) _ _ rfl

/-- C30 as stated fails: on a fresh region of 513 blocks of 64 bytes the tree with
max_keys = 2 and leaf_capacity = 10 takes the sixteen inserts of `shift_ops`, every
call returning normally; the last one is routed through the child offset 16 and
stores a key count at the bytes 20 .. 23, the upper half of the root offset in the
superblock: afterwards `root_offset()` of the tree is 320 and `get_root_offset()`
of the manager is 320 + 2^32. -/
theorem C30_counterexample :
    Hist false ⟨2, 1, 10⟩ 32832 64 16 shift_run ∧ shift_run.root_offset = 320 ∧
    shift_run.manager.get_root_offset = 4294967616 :=
  ⟨BTree.hist_of_insert_all ⟨2, 1, 10⟩ 32832 64 6 shift_ops 0 shift_tree
      (BTree.hist_construct false _ zero_file 32832 64 (by decide!)) (by decide) (by decide!),
    by decide!, by decide!⟩

/-- C30 (root growth and root consistency), amended: when the node layout of the
configuration fits the blocks of the region, after every history of completed
construction, insert and erase calls on a fresh region `get_root_offset()` of the
manager equals `root_offset()` of the tree; and for a further `insert` that
returns: when `insert_internal` on the root reported a split, the new root is the
block `alloc_block` returned next, an internal node with `key_count = 1`,
`keys[0] = split_key`, `children[0]` the old root and `children[1]` the new
sibling, and both the tree and the superblock hold its offset; when no split was
reported the root offset is unchanged. -/
theorem C30_root_growth (cfg : BTreeConfig) (region_size block_size n : Nat) (t : BTree)
    (hfit : BTree.fits cfg block_size) (hlc : 2 ≤ cfg.leaf_capacity)
    (hrs : region_size < 18446744073709551616) (hmin : cfg.min_keys < 4294967296)
    (hist : Hist false cfg region_size block_size n t) :
    t.manager.get_root_offset = t.root_offset ∧
    ∀ (fuel : Nat) (key value : Int) (res : InsertResult) (s1 : Manager) (t1 : BTree),
      isInt32 key → isInt32 value →
      BTree.insert_internal t.config fuel t.manager t.root_offset key value = (.ok res, s1) →
      BTree.insert fuel t key value = (.ok (), t1) →
      t1.manager.get_root_offset = t1.root_offset ∧
      (res.did_split = true →
        s1.alloc_block.1 = .ok t1.root_offset ∧
        BTree.is_leaf t1.manager.mem t1.root_offset = false ∧
        BTree.key_count t1.manager.mem t1.root_offset = 1 ∧
        rdI32 t1.manager.mem (BTree.get_internal_keys t1.root_offset) = res.split_key ∧
        BTree.child t1.config t1.manager.mem t1.root_offset 0 = t.root_offset ∧
        BTree.child t1.config t1.manager.mem t1.root_offset 1 = res.new_child_offset) ∧
      (res.did_split = false → t1.root_offset = t.root_offset) := by
  obtain ⟨_, h, _, i3, i4, _⟩ :=
    BTree.hist_inv false cfg region_size block_size hfit hlc hrs n t hist
  refine ⟨(i4 hmin).1, ?_⟩
  intro fuel key value res s1 t1 hk hv hrec hrun
  have hist1 : Hist false cfg region_size block_size (n + 1) t1 :=
    Hist.insert n fuel 0 t t1 key value hist hk hv (fun hc => Bool.noConfusion hc) hrun
  obtain ⟨_, _, _, _, j4, _⟩ :=
    BTree.hist_inv false cfg region_size block_size hfit hlc hrs (n + 1) t1 hist1
  obtain ⟨r1, r2⟩ := BTree.insert_root fuel t key value h hk hv i3 res s1 t1 hrec hrun
  refine ⟨(j4 hmin).1, fun hd => ?_, fun hd => (r2 hd).1⟩
  obtain ⟨b1, _, b3, b4, b5, b6, b7, _⟩ := r1 hd
  exact ⟨b1, b3, b4, b5, b6, b7⟩

theorem C30_root_growth_witness :
    pair_run.manager.get_root_offset = pair_run.root_offset ∧
    ∀ (fuel : Nat) (key value : Int) (res : InsertResult) (s1 : Manager) (t1 : BTree),
      isInt32 key → isInt32 value →
      BTree.insert_internal pair_run.config fuel pair_run.manager pair_run.root_offset key value =
        (.ok res, s1) →
      BTree.insert fuel pair_run key value = (.ok (), t1) →
      t1.manager.get_root_offset = t1.root_offset ∧
      (res.did_split = true →
        s1.alloc_block.1 = .ok t1.root_offset ∧
        BTree.is_leaf t1.manager.mem t1.root_offset = false ∧
        BTree.key_count t1.manager.mem t1.root_offset = 1 ∧
        rdI32 t1.manager.mem (BTree.get_internal_keys t1.root_offset) = res.split_key ∧
        BTree.child t1.config t1.manager.mem t1.root_offset 0 = pair_run.root_offset ∧
        BTree.child t1.config t1.manager.mem t1.root_offset 1 = res.new_child_offset) ∧
      (res.did_split = false → t1.root_offset = pair_run.root_offset) :=
  C30_root_growth ⟨2, 1, 2⟩ 1024 64 2 pair_run
    (BTree.fits_of_size _ _ (by decide) (by decide) (by decide) (by decide) (by decide))
    (by decide) (by decide) (by decide)
    (BTree.hist_of_insert_all ⟨2, 1, 2⟩ 1024 64 5 [(10, 100), (20, 200)] 0 small_tree
      (BTree.hist_construct false _ zero_file 1024 64 (by decide!)) (by decide) (by decide!))

/-- C31 does not hold of the code: the non-full branch of `insert_internal_node`
stores into slots that readers use before it increments `key_count`.  In
`pivot_tree` (max_keys = 2, leaf_capacity = 2, blocks of 64 bytes, which the node
layout fits; four inserts of fresh keys) the root at 256 holds the key 20 over the
leaves 128 (10, 5) and 192 (20, 30).  `insert(7, 70)` splits the leaf at 128 and
returns the pivot 10 with the new leaf 320 to the root, which has 1 < 2 keys and
installs it at index 0.  `install_pivot` is the count store and `persist_node` on
the region `pivot_linked`; in the region on which the installation starts
`search(20)` returns 200 and `search(30)` returns 300, in `pivot_linked` (after
`keys[0] = 10` and `children[1] = 320`, `key_count` still 1) both report
not-found, and after the insert they are found again. -/
theorem C31_pivot_visible_before_count :
    BTree.fits ⟨2, 1, 2⟩ 64 ∧ Hist true ⟨2, 1, 2⟩ 1024 64 4 pivot_tree ∧
    pivot_tree.config = ⟨2, 1, 2⟩ ∧ pivot_tree.root_offset = 256 ∧
    BTree.insert_internal pivot_tree.config 4 pivot_tree.manager 128 7 70 =
      (.ok ⟨10, 320, true⟩, pivot_start) ∧
    BTree.key_count pivot_start.mem 256 = 1 ∧
    BTree.insert_internal pivot_tree.config 5 pivot_tree.manager 256 7 70 =
      (.ok ⟨0, 0, false⟩,
        BTree.install_pivot pivot_tree.config pivot_start 256 0 1 ⟨10, 320, true⟩) ∧
    (∀ (cfg : BTreeConfig) (s : Manager) (node idx count : Nat) (res : InsertResult),
      BTree.install_pivot cfg s node idx count res =
        BTree.persist_node { s with mem := BTree.pivot_counted cfg s.mem node idx count res }
          node) ∧
    BTree.search_internal pivot_tree.config pivot_start.mem 6 256 20 = .ok (some 200) ∧
    BTree.search_internal pivot_tree.config pivot_start.mem 6 256 30 = .ok (some 300) ∧
    BTree.key_count
      (BTree.pivot_linked pivot_tree.config pivot_start.mem 256 0 1 ⟨10, 320, true⟩) 256 = 1 ∧
    BTree.search_internal pivot_tree.config
      (BTree.pivot_linked pivot_tree.config pivot_start.mem 256 0 1 ⟨10, 320, true⟩) 6 256 20 =
      .ok none ∧
    BTree.search_internal pivot_tree.config
      (BTree.pivot_linked pivot_tree.config pivot_start.mem 256 0 1 ⟨10, 320, true⟩) 6 256 30 =
      .ok none ∧
    BTree.search 6 (BTree.insert 5 pivot_tree 7 70).2 20 = .ok (some 200) ∧
    BTree.search 6 (BTree.insert 5 pivot_tree 7 70).2 30 = .ok (some 300) := by
  have hleaf : BTree.insert_internal pivot_tree.config 4 pivot_tree.manager 128 7 70 =
      (.ok ⟨10, 320, true⟩, pivot_start) := by
    have h1 : (BTree.insert_internal pivot_tree.config 4 pivot_tree.manager 128 7 70).1 =
        .ok ⟨10, 320, true⟩ := by decide!
    have h2 : (BTree.insert_internal pivot_tree.config 4 pivot_tree.manager 128 7 70).2 =
        pivot_start := by
      have h := BTree.insert_internal_leaf pivot_tree.config 3 pivot_tree.manager
        128 7 70 (by decide) (by decide!)
      simp only [Nat.reduceAdd] at h
      rw [h]
      rfl
    exact Prod.ext h1 h2
  have hkc : BTree.key_count pivot_start.mem 256 = 1 := by decide!
  have hnode := BTree.insert_internal_install pivot_tree.config 4 pivot_tree.manager 256 7 70
    ⟨10, 320, true⟩ pivot_start (by decide) (by decide!)
    (by
      have e : BTree.child pivot_tree.config pivot_tree.manager.mem 256
          (BTree.scan_keys pivot_tree.manager.mem (BTree.get_internal_keys 256) 7
            (BTree.key_count pivot_tree.manager.mem 256) 0) = 128 := by decide!
      rw [e]
      exact hleaf)
    rfl (by rw [hkc]; decide!)
  have hidx : BTree.scan_keys pivot_tree.manager.mem (BTree.get_internal_keys 256) 7
      (BTree.key_count pivot_tree.manager.mem 256) 0 = 0 := by decide!
  rw [hidx, hkc] at hnode
  simp only [Nat.reduceAdd] at hnode
  exact ⟨BTree.fits_of_size _ _ (by decide) (by decide) (by decide) (by decide) (by decide),
    BTree.hist_of_fresh_run ⟨2, 1, 2⟩ 1024 64 5 [(5, 50)] 3 grown_tree
      (BTree.hist_of_fresh_run ⟨2, 1, 2⟩ 1024 64 5 [(10, 100), (20, 200), (30, 300)] 0 small_tree
        (BTree.hist_construct true _ zero_file 1024 64 (by decide!)) (by decide) (by decide!))
      (by decide) (by decide!),
    by decide!, by decide!, hleaf, hkc, hnode, fun _ _ _ _ _ _ => rfl,
    by decide!, by decide!, by decide!, by decide!, by decide!, by decide!, by decide!⟩

/-- C32 as stated fails: in the spill tree after the first eleven inserts of
`spill_ops` (leaf_capacity = 10, blocks of 64 bytes, a leaf layout of 104 bytes)
the leaf at 192 is reachable and holds 6 of 10 entries; slot 6 of that leaf lies on
the header of the root at 256, so the store of the entry (1, 0) at index
`key_count`, before `key_count` is incremented, turns the root into a leaf without
entries, and `search(-20)`, which returned 1, reports not-found. -/
theorem C32_counterexample :
    Hist false ⟨2, 1, 10⟩ 1024 64 11 chain_run ∧ chain_run.config = ⟨2, 1, 10⟩ ∧
    chain_run.root_offset = 256 ∧
    BTree.child chain_run.config chain_run.manager.mem 256 1 = 192 ∧
    BTree.is_leaf chain_run.manager.mem 256 = false ∧
    BTree.key_count chain_run.manager.mem 256 = 1 ∧
    BTree.is_leaf chain_run.manager.mem 192 = true ∧
    BTree.key_count chain_run.manager.mem 192 = 6 ∧
    BTree.search 6 chain_run (-20) = .ok (some 1) ∧
    BTree.search_internal chain_run.config
      (BTree.append_written chain_run.manager.mem 192 1 0) 6 chain_run.root_offset (-20) =
      .ok none :=
  ⟨BTree.hist_of_insert_all ⟨2, 1, 10⟩ 1024 64 6 (spill_ops.take 11) 0 spill_tree
      (BTree.hist_construct false _ zero_file 1024 64 (by decide!)) (by decide) (by decide!),
    by decide!, by decide!, by decide!, by decide!, by decide!, by decide!, by decide!,
    by decide!, by decide!⟩

/-- C32 (leaf append), amended: when the node layout of the configuration fits the
blocks of the region, in every tree state reached from a fresh tree by completed
inserts and erases, for every reachable leaf with `key_count < leaf_capacity` and
every key and value of an `int`: the region after the store of the new entry at
index `key_count`, before the increment, answers `search` for every key (and every
fuel) exactly as the region before it; `insert_leaf` takes the append branch and
returns without a split; and the leaf holds the entries it had, in their
positions, followed by the new entry, both right after the increment of
`key_count` and after `persist_node`. -/
theorem C32_leaf_append_atomic (cfg : BTreeConfig) (region_size block_size n : Nat) (t : BTree)
    (hfit : BTree.fits cfg block_size) (hlc : 2 ≤ cfg.leaf_capacity)
    (hrs : region_size < 18446744073709551616)
    (hist : Hist false cfg region_size block_size n t)
    (leaf : Nat) (key value : Int) (hk : isInt32 key) (hv : isInt32 value)
    (hreach : BTree.Reaches cfg t.manager.mem t.root_offset leaf)
    (hleaf : BTree.is_leaf t.manager.mem leaf = true)
    (hroom : BTree.key_count t.manager.mem leaf < cfg.leaf_capacity) :
    (∀ fuel k, BTree.search_internal cfg (BTree.append_written t.manager.mem leaf key value) fuel
        t.root_offset k = BTree.search_internal cfg t.manager.mem fuel t.root_offset k) ∧
    (∀ fuel, BTree.insert_leaf cfg (fuel + 1) t.manager leaf key value =
      (.ok ⟨0, 0, false⟩,
        BTree.persist_node
          { t.manager with mem := BTree.append_counted t.manager.mem leaf key value } leaf)) ∧
    BTree.leaf_entries (BTree.append_counted t.manager.mem leaf key value) leaf =
      BTree.leaf_entries t.manager.mem leaf ++ [⟨key, value⟩] ∧
    BTree.leaf_entries (BTree.persist_node
        { t.manager with mem := BTree.append_counted t.manager.mem leaf key value } leaf).mem
        leaf =
      BTree.leaf_entries t.manager.mem leaf ++ [⟨key, value⟩] := by
  obtain ⟨hc, h, _, hok, _⟩ :=
    BTree.hist_inv false cfg region_size block_size hfit hlc hrs n t hist
  subst hc
  exact BTree.append_atomic t h hok leaf key value hk hv hreach hleaf hroom

theorem C32_leaf_append_atomic_witness :
    (∀ fuel k, BTree.search_internal ⟨2, 1, 2⟩
        (BTree.append_written grown_tree.manager.mem 128 5 50) fuel
        grown_tree.root_offset k =
      BTree.search_internal ⟨2, 1, 2⟩ grown_tree.manager.mem fuel grown_tree.root_offset k) ∧
    (∀ fuel, BTree.insert_leaf ⟨2, 1, 2⟩ (fuel + 1) grown_tree.manager 128 5 50 =
      (.ok ⟨0, 0, false⟩,
        BTree.persist_node
          { grown_tree.manager with
            mem := BTree.append_counted grown_tree.manager.mem 128 5 50 } 128)) ∧
    BTree.leaf_entries (BTree.append_counted grown_tree.manager.mem 128 5 50) 128 =
      BTree.leaf_entries grown_tree.manager.mem 128 ++ [⟨5, 50⟩] ∧
    BTree.leaf_entries (BTree.persist_node
        { grown_tree.manager with
          mem := BTree.append_counted grown_tree.manager.mem 128 5 50 } 128).mem 128 =
      BTree.leaf_entries grown_tree.manager.mem 128 ++ [⟨5, 50⟩] :=
  C32_leaf_append_atomic ⟨2, 1, 2⟩ 1024 64 3 grown_tree
    (BTree.fits_of_size _ _ (by decide) (by decide) (by decide) (by decide) (by decide))
    (by decide) (by decide)
    (BTree.hist_of_insert_all ⟨2, 1, 2⟩ 1024 64 5 [(10, 100), (20, 200), (30, 300)] 0 small_tree
      (BTree.hist_construct false _ zero_file 1024 64 (by decide!)) (by decide) (by decide!))
    128 5 50 (by decide) (by decide)
    (by
      have h := @BTree.Reaches.step ⟨2, 1, 2⟩ grown_tree.manager.mem grown_tree.root_offset
        grown_tree.root_offset 0 BTree.Reaches.base
        (by decide!) (by decide!)
      have e : rd64 grown_tree.manager.mem
          (BTree.get_internal_children grown_tree.root_offset (⟨2, 1, 2⟩ : BTreeConfig).max_keys +
            8 * 0) = 128 := by decide!
      rw [e] at h
      exact h)
    (by decide!) (by decide!)

/-- C33 as stated fails: in `alias_run` (leaf_capacity = 10, blocks of 64 bytes, a
leaf layout of 104 bytes) the leaf at 192 is child 1 of the root at 256 and holds
six entries with pairwise different keys, the first of them with key -16; entry 6
of the leaf at 128 (key -30) lies on the header of the leaf at 192, its value on
the `key_count` of that leaf.  After the overwrite of slot 0 of the leaf at 192 by
its last entry `search(-16)` reports not-found, unlike before the erase (5), and
`search(-30)` returns 6, unlike after the erase (5): the region after the overwrite
answers neither as the one before nor as the one after `erase_leaf`. -/
theorem C33_counterexample :
    Hist false ⟨2, 1, 10⟩ 1024 64 13 alias_run ∧ alias_run.config = ⟨2, 1, 10⟩ ∧
    alias_run.root_offset = 256 ∧
    BTree.is_leaf alias_run.manager.mem 256 = false ∧
    BTree.child alias_run.config alias_run.manager.mem 256 1 = 192 ∧
    BTree.is_leaf alias_run.manager.mem 192 = true ∧
    ((BTree.leaf_entries alias_run.manager.mem 192).map (fun e => e.key)).Nodup ∧
    BTree.find_in_leaf alias_run.manager.mem (BTree.get_leaf_entries 192) (-16)
      (BTree.key_count alias_run.manager.mem 192) 0 = some 0 ∧
    BTree.search 6 alias_run (-16) = .ok (some 5) ∧
    BTree.search_internal alias_run.config (BTree.erase_moved alias_run.manager.mem 192 0) 6
      alias_run.root_offset (-16) = .ok none ∧
    BTree.search_internal alias_run.config (BTree.erase_moved alias_run.manager.mem 192 0) 6
      alias_run.root_offset (-30) = .ok (some 6) ∧
    BTree.search_internal alias_run.config (BTree.erase_leaf alias_run.manager 192 (-16)).2.mem 6
      alias_run.root_offset (-30) = .ok (some 5) :=
  ⟨BTree.hist_of_insert_all ⟨2, 1, 10⟩ 1024 64 6 [(-40, 0), (-30, 6)] 11 chain_run
      (BTree.hist_of_insert_all ⟨2, 1, 10⟩ 1024 64 6 (spill_ops.take 11) 0 spill_tree
        (BTree.hist_construct false _ zero_file 1024 64 (by decide!)) (by decide) (by decide!))
      (by decide) (by decide!),
    by decide!, by decide!, by decide!, by decide!, by decide!, by decide!, by decide!,
    by decide!, by decide!, by decide!, by decide!⟩

/-- C33 (erase, state by state), amended: when the node layout of the configuration
fits the blocks of the region, in every tree state reached from a fresh tree by
completed inserts and erases, for every reachable leaf and every key whose first
entry in the leaf is at index `f` (no assumption on the other keys is needed):
`erase_leaf` returns true through the regions `erase_moved` (after the overwrite
of slot `f` by the last entry, skipped when `f` is last), `erase_counted` (after
the decrement) and `persist_node`; the region before the overwrite is the one
before the erase; the region after the overwrite answers `search` for every key
(and fuel) as the one before the erase or for every key as the one after it; the
region after the decrement answers as the one after the erase; and the final leaf
holds one entry less, the entries it had in their slots but the last entry in
slot `f`. -/
theorem C33_erase_states (cfg : BTreeConfig) (region_size block_size n : Nat) (t : BTree)
    (hfit : BTree.fits cfg block_size) (hlc : 2 ≤ cfg.leaf_capacity)
    (hrs : region_size < 18446744073709551616)
    (hist : Hist false cfg region_size block_size n t)
    (leaf : Nat) (key : Int) (f : Nat)
    (hreach : BTree.Reaches cfg t.manager.mem t.root_offset leaf)
    (hleaf : BTree.is_leaf t.manager.mem leaf = true)
    (hf : BTree.find_in_leaf t.manager.mem (BTree.get_leaf_entries leaf) key
      (BTree.key_count t.manager.mem leaf) 0 = some f) :
    BTree.erase_leaf t.manager leaf key =
      (true, BTree.persist_node
        { t.manager with mem := BTree.erase_counted t.manager.mem leaf f } leaf) ∧
    ((∀ fuel k, BTree.search_internal cfg (BTree.erase_moved t.manager.mem leaf f) fuel
        t.root_offset k = BTree.search_internal cfg t.manager.mem fuel t.root_offset k) ∨
      (∀ fuel k, BTree.search_internal cfg (BTree.erase_moved t.manager.mem leaf f) fuel
        t.root_offset k =
        BTree.search_internal cfg (BTree.erase_leaf t.manager leaf key).2.mem fuel
          t.root_offset k)) ∧
    (∀ fuel k, BTree.search_internal cfg (BTree.erase_counted t.manager.mem leaf f) fuel
        t.root_offset k =
      BTree.search_internal cfg (BTree.erase_leaf t.manager leaf key).2.mem fuel
        t.root_offset k) ∧
    BTree.key_count (BTree.erase_leaf t.manager leaf key).2.mem leaf =
      BTree.key_count t.manager.mem leaf - 1 ∧
    ∀ j, j < BTree.key_count t.manager.mem leaf - 1 →
      BTree.read_entry (BTree.erase_leaf t.manager leaf key).2.mem
          (BTree.get_leaf_entries leaf + 8 * j) =
        if j = f then BTree.read_entry t.manager.mem
            (BTree.get_leaf_entries leaf + 8 * (BTree.key_count t.manager.mem leaf - 1))
        else BTree.read_entry t.manager.mem (BTree.get_leaf_entries leaf + 8 * j) := by
  obtain ⟨hc, h, _, hok, _⟩ :=
    BTree.hist_inv false cfg region_size block_size hfit hlc hrs n t hist
  subst hc
  exact BTree.erase_atomic t h hok leaf key f hreach hleaf hf

theorem C33_erase_states_witness :
    BTree.erase_leaf grown_tree.manager 192 20 =
      (true, BTree.persist_node
        { grown_tree.manager with mem := BTree.erase_counted grown_tree.manager.mem 192 0 }
        192) ∧
    ((∀ fuel k, BTree.search_internal ⟨2, 1, 2⟩ (BTree.erase_moved grown_tree.manager.mem 192 0)
        fuel grown_tree.root_offset k =
        BTree.search_internal ⟨2, 1, 2⟩ grown_tree.manager.mem fuel grown_tree.root_offset k) ∨
      (∀ fuel k, BTree.search_internal ⟨2, 1, 2⟩ (BTree.erase_moved grown_tree.manager.mem 192 0)
        fuel grown_tree.root_offset k =
        BTree.search_internal ⟨2, 1, 2⟩ (BTree.erase_leaf grown_tree.manager 192 20).2.mem fuel
          grown_tree.root_offset k)) ∧
    (∀ fuel k, BTree.search_internal ⟨2, 1, 2⟩ (BTree.erase_counted grown_tree.manager.mem 192 0)
        fuel grown_tree.root_offset k =
      BTree.search_internal ⟨2, 1, 2⟩ (BTree.erase_leaf grown_tree.manager 192 20).2.mem fuel
        grown_tree.root_offset k) ∧
    BTree.key_count (BTree.erase_leaf grown_tree.manager 192 20).2.mem 192 =
      BTree.key_count grown_tree.manager.mem 192 - 1 ∧
    ∀ j, j < BTree.key_count grown_tree.manager.mem 192 - 1 →
      BTree.read_entry (BTree.erase_leaf grown_tree.manager 192 20).2.mem
          (BTree.get_leaf_entries 192 + 8 * j) =
        if j = 0 then BTree.read_entry grown_tree.manager.mem
            (BTree.get_leaf_entries 192 + 8 * (BTree.key_count grown_tree.manager.mem 192 - 1))
        else BTree.read_entry grown_tree.manager.mem (BTree.get_leaf_entries 192 + 8 * j) :=
  C33_erase_states ⟨2, 1, 2⟩ 1024 64 3 grown_tree
    (BTree.fits_of_size _ _ (by decide) (by decide) (by decide) (by decide) (by decide))
    (by decide) (by decide)
    (BTree.hist_of_insert_all ⟨2, 1, 2⟩ 1024 64 5 [(10, 100), (20, 200), (30, 300)] 0 small_tree
      (BTree.hist_construct false _ zero_file 1024 64 (by decide!)) (by decide) (by decide!))
    192 20 0
    (by
      have h := @BTree.Reaches.step ⟨2, 1, 2⟩ grown_tree.manager.mem grown_tree.root_offset
        grown_tree.root_offset 1 BTree.Reaches.base
        (by decide!) (by decide!)
      have e : rd64 grown_tree.manager.mem
          (BTree.get_internal_children grown_tree.root_offset (⟨2, 1, 2⟩ : BTreeConfig).max_keys +
            8 * 1) = 192 := by decide!
      rw [e] at h
      exact h)
    (by decide!) (by decide!)

/-- C34 as stated fails in its second part: with leaf_capacity = 6 and blocks of 64
bytes (a leaf layout of 72 bytes) the `next_leaf` word of the full root leaf at 128
is the first word of the block at 192, which `alloc_block` hands out for the new
leaf.  In `insert(7, 100)` the swap stores 192 there; the nested `insert_leaf` on
the new leaf then increments its `key_count`, bytes 4 to 7 of the same word.  When
`insert_leaf` returns, before any parent points to the new leaf, the `next_leaf`
of the old leaf reads 192 + 2^32: the block of the new leaf is allocated, the mark
phase from the root does not mark it, and `collect` clears its bit. -/
theorem C34_counterexample :
    clash_run.config = ⟨2, 1, 6⟩ ∧ clash_run.root_offset = 128 ∧
    BTree.is_leaf clash_run.manager.mem 128 = true ∧
    BTree.key_count clash_run.manager.mem 128 = 6 ∧
    clash_run.manager.alloc_block.1 = .ok 192 ∧
    BTree.insert_leaf ⟨2, 1, 6⟩ 2 clash_run.manager 128 7 100 =
      (.ok ⟨4, 192, true⟩, clash_state) ∧
    clash_state ∈ BTree.split_window ⟨2, 1, 6⟩ clash_run.manager.alloc_block.2 128 192 192 7 100 ∧
    BTree.next_leaf ⟨2, 1, 6⟩ clash_state.mem 128 = 192 + 4294967296 ∧
    clash_state.block_bit (192 / 64) = true ∧
    (GarbageCollector.mark clash_state 128 2 6).reachable (192 / 64) = false ∧
    (GarbageCollector.collect clash_state 128 2 6).1.block_bit (192 / 64) = false := by
  have halloc : clash_run.manager.alloc_block = (.ok 192, clash_run.manager.alloc_block.2) :=
    Prod.ext (by decide!) rfl
  have hsplit := BTree.split_leaf_stages ⟨2, 1, 6⟩ clash_run.manager
    clash_run.manager.alloc_block.2 128 192 ⟨4, 100⟩ halloc (by decide) (by decide!)
  refine ⟨by decide!, by decide!, by decide!, by decide!, by decide!, ?_, ?_, by decide!,
    by decide!, by decide!, by decide!⟩
  · unfold BTree.insert_leaf
    rw [if_neg (by decide), if_neg (by decide!), hsplit]
    simp only
    rw [if_pos (by decide),
      BTree.insert_leaf_room ⟨2, 1, 6⟩ 0 _ 192 7 100 (by decide) (by decide!)]
    rfl
  · unfold BTree.split_window clash_state
    simp only [List.mem_cons, List.mem_append, List.mem_singleton, List.not_mem_nil, or_false,
      or_true, true_or]

/-- C34 (the swap publishes the new leaf), amended: when the node layout of the
configuration fits the blocks of the region, in every tree state reached from a
fresh tree by completed inserts and erases, for every reachable full leaf `old`
and every `insert_leaf(old, key, value)` whose `alloc_block` returns `new`:
`split_leaf` returns in the state `split_done` and `insert_leaf` in the last
state of `split_window`; the block of `new` was free; in the state just before the
swap its bit is set, the old leaf still links to what followed it, the mark phase
of `collect` from the root does not mark the block of `new` and `collect` clears
its bit; and in every state from the swap to the return of `insert_leaf` (after
the swap, after each store into the old leaf, on return of `split_leaf`, and after
each store of the nested append) the old leaf links to `new`, the mark phase marks
the block of `new`, and `collect` keeps its bit. -/
theorem C34_swap_publishes (cfg : BTreeConfig) (region_size block_size n : Nat)
    (t : BTree) (hfit : BTree.fits cfg block_size) (hlc : 2 ≤ cfg.leaf_capacity)
    (hrs : region_size < 18446744073709551616)
    (hist : Hist false cfg region_size block_size n t)
    (old new : Nat) (s1 : Manager) (key value : Int)
    (hr : BTree.Reaches cfg t.manager.mem t.root_offset old)
    (hl : BTree.is_leaf t.manager.mem old = true)
    (hfull : ¬ BTree.key_count t.manager.mem old < cfg.leaf_capacity)
    (halloc : t.manager.alloc_block = (.ok new, s1)) :
    ∃ (e : LeafEntry) (last : Manager),
      BTree.split_leaf cfg t.manager old =
        (.ok ⟨e.key, new, true⟩, BTree.split_done cfg s1 old new) ∧
      (BTree.split_window cfg s1 old new (if key ≥ e.key then new else old)
        key value).getLast? = some last ∧
      (∀ fuel, BTree.insert_leaf cfg (fuel + 2) t.manager old key value =
        (.ok ⟨e.key, new, true⟩, last)) ∧
      new / block_size < t.manager.block_count ∧
      t.manager.block_bit (new / block_size) = false ∧
      (BTree.split_shadow cfg s1 old new).block_bit (new / block_size) = true ∧
      BTree.next_leaf cfg (BTree.split_shadow cfg s1 old new).mem old =
        BTree.next_leaf cfg t.manager.mem old ∧
      (GarbageCollector.mark (BTree.split_shadow cfg s1 old new) t.root_offset cfg.max_keys
        cfg.leaf_capacity).reachable (new / block_size) = false ∧
      (GarbageCollector.collect (BTree.split_shadow cfg s1 old new) t.root_offset cfg.max_keys
        cfg.leaf_capacity).1.block_bit (new / block_size) = false ∧
      ∀ w ∈ BTree.split_window cfg s1 old new (if key ≥ e.key then new else old) key value,
        BTree.next_leaf cfg w.mem old = new ∧
        w.block_bit (new / block_size) = true ∧
        (GarbageCollector.mark w t.root_offset cfg.max_keys cfg.leaf_capacity).reachable
          (new / block_size) = true ∧
        (GarbageCollector.collect w t.root_offset cfg.max_keys cfg.leaf_capacity).1.block_bit
          (new / block_size) = true := by
  obtain ⟨hc, hbs, _, h, hok, hlk, _⟩ :=
    BTree.hist_links false cfg region_size block_size hfit hlc hrs n t hist
  subst hc
  subst hbs
  have hold : old ∈ BTree.leaves t.config t.manager.mem h t.root_offset :=
    (BTree.leaves_iff_reaches t.config t.manager.mem h t.root_offset hok.2.1 old).mpr ⟨hr, hl⟩
  obtain ⟨⟨b, c1, c2, c3, c4⟩, hbs1, hrs1, hm1, hbo, hleaf, hkc, hfo, hfn, hgo, hgn, hsep,
    hnew, hbs⟩ := BTree.split_context t h hok old new s1 hold halloc
  have hdiv : new / t.manager.block_size = b := by
    rw [c1, Nat.mul_div_cancel _ (by omega)]
  have hkc0 : BTree.key_count (wr8 s1.mem new 1) old = BTree.key_count t.manager.mem old :=
    BTree.key_count_congr _ _ _ (fun x h1 h2 => by
      rw [wr8_other _ _ _ _ (by omega), hm1 x (by omega)])
  obtain ⟨e, hget, _⟩ := BTree.sorted_buffer_cut
    ((List.range (BTree.key_count (wr8 s1.mem new 1) old)).map
      (fun i => BTree.read_entry (wr8 s1.mem new 1) (BTree.get_leaf_entries old + 8 * i)))
    (BTree.key_count (wr8 s1.mem new 1) old / 2) (by
      rw [List.length_map, List.length_range, hkc0]
      omega)
  have hsplit := BTree.split_leaf_stages t.config t.manager s1 old new e halloc (by omega) hget
  obtain ⟨_, _, _, q1, q2, _, q4, _⟩ := BTree.split_then_append t.config key value t.manager old
    hok.1 (BTree.owned_leaf_of t.config t.manager old hbo hl hkc) hfull _ _ hsplit _ rfl
  have W0 := BTree.shadow_window t h hok old new s1 hold halloc
  have M0 := GarbageCollector.window_marks t h _ hok hlk old new b hold c1 c2 c3 false _ W0
  have W := BTree.split_window_ok t h hok old new s1 hold halloc
    (if key ≥ e.key then new else old) key value (by split <;> simp) (by
      split
      · exact q2
      · exact q1)
  refine ⟨e, _, hsplit, ?_, q4, by rw [hdiv]; exact c2, by rw [hdiv]; exact c3, M0.1, ?_,
    M0.2.1, M0.2.2, ?_⟩
  · unfold BTree.split_window
    exact BTree.window_last _ _ _ _ _ _ _
  · have := W0.2.2.2.2.2.2.1
    simp only [Bool.false_eq_true, if_false] at this
    exact this
  · intro w hw
    have hW := W w hw
    have M := GarbageCollector.window_marks t h _ hok hlk old new b hold c1 c2 c3 true w hW
    have := hW.2.2.2.2.2.2.1
    simp only [if_true] at this
    exact ⟨this, M.1, M.2.1, M.2.2⟩

theorem C34_swap_publishes_witness :
    ∃ (e : LeafEntry) (last : Manager),
      BTree.split_leaf ⟨2, 1, 2⟩ pivot_tree.manager 128 =
        (.ok ⟨e.key, 320, true⟩,
          BTree.split_done ⟨2, 1, 2⟩ pivot_tree.manager.alloc_block.2 128 320) ∧
      (BTree.split_window ⟨2, 1, 2⟩ pivot_tree.manager.alloc_block.2 128 320
        (if (7 : Int) ≥ e.key then 320 else 128) 7 70).getLast? = some last ∧
      (∀ fuel, BTree.insert_leaf ⟨2, 1, 2⟩ (fuel + 2) pivot_tree.manager 128 7 70 =
        (.ok ⟨e.key, 320, true⟩, last)) ∧
      320 / 64 < pivot_tree.manager.block_count ∧
      pivot_tree.manager.block_bit (320 / 64) = false ∧
      (BTree.split_shadow ⟨2, 1, 2⟩ pivot_tree.manager.alloc_block.2 128 320).block_bit
        (320 / 64) = true ∧
      BTree.next_leaf ⟨2, 1, 2⟩
          (BTree.split_shadow ⟨2, 1, 2⟩ pivot_tree.manager.alloc_block.2 128 320).mem 128 =
        BTree.next_leaf ⟨2, 1, 2⟩ pivot_tree.manager.mem 128 ∧
      (GarbageCollector.mark
        (BTree.split_shadow ⟨2, 1, 2⟩ pivot_tree.manager.alloc_block.2 128 320)
        pivot_tree.root_offset 2 2).reachable (320 / 64) = false ∧
      (GarbageCollector.collect
        (BTree.split_shadow ⟨2, 1, 2⟩ pivot_tree.manager.alloc_block.2 128 320)
        pivot_tree.root_offset 2 2).1.block_bit (320 / 64) = false ∧
      ∀ w ∈ BTree.split_window ⟨2, 1, 2⟩ pivot_tree.manager.alloc_block.2 128 320
          (if (7 : Int) ≥ e.key then 320 else 128) 7 70,
        BTree.next_leaf ⟨2, 1, 2⟩ w.mem 128 = 320 ∧
        w.block_bit (320 / 64) = true ∧
        (GarbageCollector.mark w pivot_tree.root_offset 2 2).reachable (320 / 64) = true ∧
        (GarbageCollector.collect w pivot_tree.root_offset 2 2).1.block_bit (320 / 64) = true :=
  C34_swap_publishes ⟨2, 1, 2⟩ 1024 64 4 pivot_tree
    (BTree.fits_of_size _ _ (by decide) (by decide) (by decide) (by decide) (by decide))
    (by decide) (by decide)
    (BTree.hist_of_insert_all ⟨2, 1, 2⟩ 1024 64 5 [(5, 50)] 3 grown_tree
      (BTree.hist_of_insert_all ⟨2, 1, 2⟩ 1024 64 5 [(10, 100), (20, 200), (30, 300)] 0
        small_tree (BTree.hist_construct false _ zero_file 1024 64 (by decide!)) (by decide)
        (by decide!))
      (by decide) (by decide!))
    128 320 pivot_tree.manager.alloc_block.2 7 70
    (by
      have h := BTree.Reaches.step 256 0
        (BTree.Reaches.base : BTree.Reaches ⟨2, 1, 2⟩ pivot_tree.manager.mem 256 256)
        (by decide!) (by decide!)
      have e : rd64 pivot_tree.manager.mem
          (BTree.get_internal_children 256 (⟨2, 1, 2⟩ : BTreeConfig).max_keys + 8 * 0) = 128 := by
        decide!
      rw [e] at h
      have hroot : pivot_tree.root_offset = 256 := by decide!
      rw [hroot]
      exact h)
    (by decide!) (by decide!) (Prod.ext (by decide!) rfl)

/-- C35 as stated fails in its last part: in a region of 64 blocks of 64 bytes whose
bitmap word (at offset 64, in block 1) has the bits 0, 1 and 32 set, take the root
offset 64.  Read as a node the bitmap word is a leaf with `key_count` 1, and
`search(0)` finds the entry (0, 0).  `collect` marks block 1 only and frees the
blocks 0 and 32: the bitmap word, eight bytes of the block of the marked root,
changes from 2^32 + 3 to 2, the node has `key_count` 0, and `search(0)` finds
nothing. -/
theorem C35_counterexample :
    bitmap_root.block_count = 64 ∧ BTree.is_leaf bitmap_root.mem 64 = true ∧
    BTree.key_count bitmap_root.mem 64 = 1 ∧
    (GarbageCollector.collect bitmap_root 64 2 2).2.reachable (64 / 64) = true ∧
    (GarbageCollector.collect bitmap_root 64 2 2).2.marked_count = 1 ∧
    (GarbageCollector.collect bitmap_root 64 2 2).2.freed_count = 2 ∧
    rd64 bitmap_root.mem 64 = 4294967296 + 3 ∧
    rd64 (GarbageCollector.collect bitmap_root 64 2 2).1.mem 64 = 2 ∧
    BTree.key_count (GarbageCollector.collect bitmap_root 64 2 2).1.mem 64 = 0 ∧
    BTree.search_internal ⟨2, 1, 2⟩ bitmap_root.mem 2 64 0 = .ok (some 0) ∧
    BTree.search_internal ⟨2, 1, 2⟩ (GarbageCollector.collect bitmap_root 64 2 2).1.mem 2 64 0 =
      .ok none :=
  ⟨by decide!, by decide!, by decide!, by decide!, by decide!, by decide!, by decide!,
    by decide!, by decide!, by decide!, by decide!⟩

/-- C35 (sweep exactness), amended: for every region and root, after `collect` the
bitmap bit of each block index below `block_count` is the bit before and-ed with
the mark of the index; `blocks_freed()` is the number of indices that were set and
not marked; `nodes_marked()` is the number of marked indices, each the block of an
offset linked from the root; sizes, and every byte outside the superblock checksum
and the bitmap, are as before, and every marked block keeps its bit; and for every
configuration such that each node the descent from the root can reach lies behind
the bitmap, `search` gives the same results after `collect` as before. -/
theorem C35_sweep_exact (s : Manager) (root mk lc : Nat) :
    (∀ b, b < s.block_count →
      (GarbageCollector.collect s root mk lc).1.block_bit b =
        (s.block_bit b && (GarbageCollector.collect s root mk lc).2.reachable b)) ∧
    (GarbageCollector.collect s root mk lc).2.freed_count =
      GarbageCollector.garbage_blocks s (GarbageCollector.collect s root mk lc).2.reachable ∧
    (GarbageCollector.collect s root mk lc).2.marked_count =
      GarbageCollector.marked_blocks s.block_count
        (GarbageCollector.collect s root mk lc).2.reachable ∧
    (∀ b, (GarbageCollector.collect s root mk lc).2.reachable b = true →
      b < s.block_count ∧
      ∃ o, GarbageCollector.Linked s.mem s.block_size s.block_count mk lc root o ∧
        o / s.block_size = b) ∧
    (GarbageCollector.collect s root mk lc).1.block_size = s.block_size ∧
    (GarbageCollector.collect s root mk lc).1.region_size = s.region_size ∧
    (∀ x, x < 56 ∨ 64 + 8 * ((s.block_count + 63) / 64) ≤ x →
      (GarbageCollector.collect s root mk lc).1.mem x = s.mem x) ∧
    (∀ b, b < s.block_count → (GarbageCollector.collect s root mk lc).2.reachable b = true →
      (GarbageCollector.collect s root mk lc).1.block_bit b = s.block_bit b) ∧
    (∀ cfg : BTreeConfig,
      (∀ o, BTree.Reaches cfg s.mem root o → o ≠ 0 →
        64 + 8 * ((s.block_count + 63) / 64) ≤ o) →
      ∀ (fuel : Nat) (key : Int),
        BTree.search_internal cfg (GarbageCollector.collect s root mk lc).1.mem fuel root key =
          BTree.search_internal cfg s.mem fuel root key) := by
  have hf := GarbageCollector.collect_frame_all s root mk lc
  refine ⟨fun b hb => GarbageCollector.collect_bit_all s root mk lc b hb,
    GarbageCollector.collect_freed s root mk lc, ?_, ?_, hf.1, hf.2.1, hf.2.2, ?_, ?_⟩
  · rw [GarbageCollector.collect_marked, GarbageCollector.collect_reachable]
    exact (GarbageCollector.mark_count s root mk lc).1
  · rw [GarbageCollector.collect_reachable]
    exact (GarbageCollector.mark_spec s root mk lc).2
  · intro b hb hre
    rw [GarbageCollector.collect_bit_all s root mk lc b hb, hre, Bool.and_true]
  · intro cfg habove fuel key
    exact BTree.search_above cfg s.mem _ _ root (fun x hx => hf.2.2 x (Or.inr hx)) habove
      fuel key

theorem C35_sweep_exact_witness :
    (∀ b, b < grown_tree.manager.block_count →
      (GarbageCollector.collect grown_tree.manager 256 2 2).1.block_bit b =
        (grown_tree.manager.block_bit b &&
          (GarbageCollector.collect grown_tree.manager 256 2 2).2.reachable b)) ∧
    (GarbageCollector.collect grown_tree.manager 256 2 2).2.freed_count =
      GarbageCollector.garbage_blocks grown_tree.manager
        (GarbageCollector.collect grown_tree.manager 256 2 2).2.reachable ∧
    (GarbageCollector.collect grown_tree.manager 256 2 2).2.marked_count =
      GarbageCollector.marked_blocks grown_tree.manager.block_count
        (GarbageCollector.collect grown_tree.manager 256 2 2).2.reachable ∧
    (∀ (fuel : Nat) (key : Int),
      BTree.search_internal ⟨2, 1, 2⟩
          (GarbageCollector.collect grown_tree.manager 256 2 2).1.mem fuel 256 key =
        BTree.search_internal ⟨2, 1, 2⟩ grown_tree.manager.mem fuel 256 key) :=
  ⟨(C35_sweep_exact grown_tree.manager 256 2 2).1,
    (C35_sweep_exact grown_tree.manager 256 2 2).2.1,
    (C35_sweep_exact grown_tree.manager 256 2 2).2.2.1,
    (C35_sweep_exact grown_tree.manager 256 2 2).2.2.2.2.2.2.2.2 ⟨2, 1, 2⟩ (by
      obtain ⟨hc, h, _, hok, _⟩ := BTree.hist_inv false ⟨2, 1, 2⟩ 1024 64
        (BTree.fits_of_size _ _ (by decide) (by decide) (by decide) (by decide) (by decide))
        (by decide) (by decide) 3 grown_tree
        (BTree.hist_of_insert_all ⟨2, 1, 2⟩ 1024 64 5 [(10, 100), (20, 200), (30, 300)] 0
          small_tree (BTree.hist_construct false _ zero_file 1024 64 (by decide!)) (by decide)
          (by decide!))
      have hroot : grown_tree.root_offset = 256 := by decide!
      intro o ho _
      have hr : BTree.Reaches grown_tree.config grown_tree.manager.mem grown_tree.root_offset o := by
        rw [hc, hroot]
        exact ho
      exact BTree.blockOk_ge grown_tree.manager o (BTree.tree_node grown_tree h hok o hr).2.1)⟩

theorem tangled_linked (o : Nat)
    (h : GarbageCollector.Linked tangled.mem tangled.block_size tangled.block_count 2 2 128 o) :
    o = 128 ∨ o = 4096 := by
  induction h with
  | root _ => exact Or.inl rfl
  | next o _ hlt hleaf _ ih =>
    rcases ih with rfl | rfl
    · exact absurd hleaf (by decide!)
    · exact absurd hlt (by decide!)
  | child o i _ hlt _ hi _ ih =>
    rcases ih with rfl | rfl
    · have hk : BTree.key_count tangled.mem 128 = 1 := by decide!
      rw [hk] at hi
      have h0 : rd64 tangled.mem (BTree.get_internal_children 128 2 + 8 * 0) = 128 := by decide!
      have h1 : rd64 tangled.mem (BTree.get_internal_children 128 2 + 8 * 1) = 4096 := by decide!
      rcases Nat.le_one_iff_eq_zero_or_eq_one.mp hi with rfl | rfl
      · exact Or.inl h0
      · exact Or.inr h1
    · exact absurd hlt (by decide!)

/-- C36 as stated fails: in a region of 1024 bytes (16 blocks of 64 bytes) whose
block at offset 128 reads as an internal node with `key_count == 0xFFFFFFFF`, the
guard `i <= node->key_count` of the push loop, which compares the `int` counter as
an unsigned 32-bit value, holds for every value of the counter.  The child words
start at offset 152, so `children[109]` is the word at 1024, the first one outside
the region: the push loop does not end normally whatever rounds it is given, and
with 110 rounds or more it faults on that load.  So the mark phase from the root
128 never returns a mark state: it faults in its first round. -/
theorem C36_counterexample :
    endless.region_size = 1024 ∧ endless.block_count = 16 ∧
    128 / endless.block_size < endless.block_count ∧
    BTree.is_leaf endless.mem 128 = false ∧
    BTree.key_count endless.mem 128 = 4294967295 ∧
    BTree.get_internal_children 128 2 + 8 * 109 = endless.region_size ∧
    (∀ i : Int, ofInt32 i ≤ BTree.key_count endless.mem 128) ∧
    (∀ (inner : Nat) (stack st : List Nat),
      GarbageCollector.push_loop endless.mem endless.region_size
        (BTree.get_internal_children 128 2) (BTree.key_count endless.mem 128) inner 0 stack ≠
        .ok st) ∧
    (∀ (rounds inner : Nat) (st : GarbageCollector.MarkState),
      GarbageCollector.mark_int endless 128 2 2 rounds inner ≠ .ok st) ∧
    (∀ rounds inner : Nat, 1 ≤ rounds → 110 ≤ inner →
      GarbageCollector.mark_int endless 128 2 2 rounds inner = .error .read_outside_region) := by
  have hk : BTree.key_count endless.mem 128 = 4294967295 := by decide!
  have hl : BTree.is_leaf endless.mem 128 = false := by decide!
  have hb : endless.block_size = 64 := rfl
  have hrs : endless.region_size = 1024 := rfl
  have hn : endless.block_count = 16 := by decide!
  have hc : BTree.get_internal_children 128 2 = 152 := by decide
  have hnot : ∀ (inner : Nat) (stack st : List Nat),
      GarbageCollector.push_loop endless.mem 1024 152 4294967295 inner 0 stack ≠ .ok st :=
    fun inner stack st =>
      GarbageCollector.push_loop_not_ok endless.mem 1024 152 4294967295 109 (by decide)
        (by decide) (by decide) inner 0 stack st (by decide)
  have hfault : ∀ (inner : Nat) (stack : List Nat), 110 ≤ inner →
      GarbageCollector.push_loop endless.mem 1024 152 4294967295 inner 0 stack =
        .error .read_outside_region :=
    fun inner stack hi =>
      GarbageCollector.push_loop_fault endless.mem 1024 152 4294967295 (by decide) (by decide)
        (by decide) inner 0 stack (by decide) (by
          have : (1024 - 152) / 8 = 109 := by decide
          omega)
  have hstep : ∀ (inner : Nat) (st : GarbageCollector.MarkState) (e : GarbageCollector.MarkFault),
      st.reachable 2 = false →
      GarbageCollector.push_loop endless.mem 1024 152 4294967295 inner 0 st.stack = .error e →
      GarbageCollector.mark_step_int endless.mem 1024 64 16 2 2 inner 128 st = .error e := by
    intro inner st e hre hp
    unfold GarbageCollector.mark_step_int
    simp only
    rw [if_neg (by decide), if_neg (by rw [show 128 / 64 = 2 from rfl, hre]; simp),
      if_neg (by decide), hl]
    simp only [Bool.false_eq_true, if_false]
    rw [if_neg (by decide), hk, hc]
    simp only [hp]
  refine ⟨hrs, hn, by decide!, hl, hk, by rw [hc, hrs], ?_, ?_, ?_, ?_⟩
  · intro i
    have := ofInt32_lt i
    omega
  · intro inner stack st
    rw [hrs, hc, hk]
    exact hnot inner stack st
  · intro rounds inner st
    unfold GarbageCollector.mark_int
    rw [if_pos (by decide), hrs, hb, hn]
    cases rounds with
    | zero =>
      unfold GarbageCollector.mark_loop_int
      rw [if_neg (by simp)]
      intro h
      cases h
    | succ r =>
      unfold GarbageCollector.mark_loop_int
      simp only
      cases hp : GarbageCollector.push_loop endless.mem 1024 152 4294967295 inner 0 [] with
      | error e =>
        rw [hstep inner ⟨[], fun _ => false, 0⟩ e rfl hp]
        intro h
        cases h
      | ok l => exact absurd hp (hnot inner [] l)
  · intro rounds inner hr hi
    obtain ⟨r, rfl⟩ : ∃ r, rounds = r + 1 := ⟨rounds - 1, by omega⟩
    unfold GarbageCollector.mark_int
    rw [if_pos (by decide), hrs, hb, hn]
    unfold GarbageCollector.mark_loop_int
    simp only
    rw [hstep inner ⟨[], fun _ => false, 0⟩ _ rfl (hfault inner [] hi)]

/-- C36 (termination of the mark phase), amended: for every region content and
every root offset such that the loads of every node the mark phase reads (an
offset linked from the root whose block index is below `block_count`) lie inside
the region, namely the `next_leaf` word of a leaf and the child words `0 ..
key_count` of an internal node, and such that `key_count + 1 < 2^31` for the
internal ones, whatever cycles the child offsets and `next_leaf` links form and
wherever they point, the mark loop as written (`int` counter, loads checked
against the region) ends without a fault within `mark_rounds block_count` rounds,
in the state of `mark`; the stack is empty, `nodes_marked()` is the number of
marked block indices, each counted once, it is at most `block_count`, and every
marked index is below `block_count` and is the block of an offset linked from the
root. -/
theorem C36_mark_terminates (s : Manager) (root mk lc : Nat)
    (hin : ∀ o, GarbageCollector.Linked s.mem s.block_size s.block_count mk lc root o →
      o / s.block_size < s.block_count →
      (BTree.is_leaf s.mem o = true → BTree.get_leaf_next o lc + 8 ≤ s.region_size) ∧
      (BTree.is_leaf s.mem o = false →
        BTree.key_count s.mem o + 1 < 2147483648 ∧
        BTree.get_internal_children o mk + 8 * (BTree.key_count s.mem o + 1) ≤
          s.region_size)) :
    (∀ rounds inner : Nat, GarbageCollector.mark_rounds s.block_count ≤ rounds →
      2147483648 ≤ inner →
      GarbageCollector.mark_int s root mk lc rounds inner =
        .ok (GarbageCollector.mark s root mk lc)) ∧
    (GarbageCollector.mark s root mk lc).stack = [] ∧
    (GarbageCollector.mark s root mk lc).marked_count =
      GarbageCollector.marked_blocks s.block_count
        (GarbageCollector.mark s root mk lc).reachable ∧
    (GarbageCollector.mark s root mk lc).marked_count ≤ s.block_count ∧
    (∀ b, (GarbageCollector.mark s root mk lc).reachable b = true →
      b < s.block_count ∧
      ∃ o, GarbageCollector.Linked s.mem s.block_size s.block_count mk lc root o ∧
        o / s.block_size = b) :=
  ⟨fun rounds inner hr hi => GarbageCollector.mark_int_eq s root mk lc rounds inner
      (fun o ho hlt => (hin o ho hlt).1) (fun o ho hlt => (hin o ho hlt).2) hr hi,
    (GarbageCollector.mark_spec s root mk lc).1,
    (GarbageCollector.mark_count s root mk lc).1,
    (GarbageCollector.mark_count s root mk lc).2,
    (GarbageCollector.mark_spec s root mk lc).2⟩

theorem C36_mark_terminates_witness :
    (∀ rounds inner : Nat, GarbageCollector.mark_rounds tangled.block_count ≤ rounds →
      2147483648 ≤ inner →
      GarbageCollector.mark_int tangled 128 2 2 rounds inner =
        .ok (GarbageCollector.mark tangled 128 2 2)) ∧
    (GarbageCollector.mark tangled 128 2 2).stack = [] ∧
    (GarbageCollector.mark tangled 128 2 2).marked_count =
      GarbageCollector.marked_blocks tangled.block_count
        (GarbageCollector.mark tangled 128 2 2).reachable ∧
    (GarbageCollector.mark tangled 128 2 2).marked_count ≤ tangled.block_count ∧
    (∀ b, (GarbageCollector.mark tangled 128 2 2).reachable b = true →
      b < tangled.block_count ∧
      ∃ o, GarbageCollector.Linked tangled.mem tangled.block_size tangled.block_count 2 2 128 o ∧
        o / tangled.block_size = b) :=
  C36_mark_terminates tangled 128 2 2 (by
    intro o ho hlt
    rcases tangled_linked o ho with rfl | rfl
    · exact ⟨fun h => absurd h (by decide!), fun _ => ⟨by decide!, by decide!⟩⟩
    · exact absurd hlt (by decide!))

/-- C37 as stated fails: in `brim_run` (leaf_capacity = 10, blocks of 64 bytes, a
leaf layout of 104 bytes) the root at 256 is an internal node with one key, and
the descent for the key 256 ends at the leaf at 192, whose entry 6 (256 -> 1) lies
on the header of the root.  `erase(256)` returns true and overwrites that slot with
the last entry (1 -> 0): afterwards the root has the leaf flag and `key_count` 0. -/
theorem C37_counterexample :
    Hist false ⟨2, 1, 10⟩ 1024 64 13 brim_run ∧ brim_run.config = ⟨2, 1, 10⟩ ∧
    brim_run.root_offset = 256 ∧
    BTree.is_leaf brim_run.manager.mem 256 = false ∧
    BTree.key_count brim_run.manager.mem 256 = 1 ∧
    BTree.find_leaf brim_run.config brim_run.manager.mem 256 13 brim_run.root_offset = 192 ∧
    BTree.is_leaf brim_run.manager.mem 192 = true ∧
    (BTree.erase 6 brim_run 256).1 = .ok true ∧
    BTree.is_leaf (BTree.erase 6 brim_run 256).2.manager.mem 256 = true ∧
    BTree.key_count (BTree.erase 6 brim_run 256).2.manager.mem 256 = 0 :=
  ⟨BTree.hist_of_insert_all ⟨2, 1, 10⟩ 1024 64 6 (spill_ops.take 13) 0 spill_tree
      (BTree.hist_construct false _ zero_file 1024 64 (by decide!)) (by decide) (by decide!),
    by decide!, by decide!, by decide!, by decide!, by decide!, by decide!, by decide!,
    by decide!, by decide!⟩

/-- C37 (erase touches the target leaf only), amended: when the node layout of the
configuration fits the blocks of the region, in every tree state reached from a
fresh tree by `n` completed inserts and any number of erases, `erase(key)` with
fuel beyond `n` returns; with `leaf` the leaf at the end of the descent for `key`
(a reachable leaf), it changes no byte outside the `key_count` and checksum fields
and the first `key_count` entry slots of that leaf and the superblock checksum:
configuration, root offset (of the object and in the superblock), sizes, the
allocation counter, every bitmap bit, every byte of the block of every other
reachable node (internal node or leaf) and the `next_leaf` word of every reachable
leaf are as before; the same nodes are reachable, the leaf keeps its leaf flag,
and its `key_count` is one less when the key was found, whatever `min_keys` is. -/
theorem C37_erase_only_target_leaf (cfg : BTreeConfig) (region_size block_size n : Nat)
    (t : BTree) (hfit : BTree.fits cfg block_size) (hlc : 2 ≤ cfg.leaf_capacity)
    (hrs : region_size < 18446744073709551616)
    (hist : Hist false cfg region_size block_size n t) (key : Int) (fuel : Nat)
    (hfuel : n + 1 ≤ fuel) (leaf : Nat)
    (hleaf : BTree.find_leaf cfg t.manager.mem key n t.root_offset = leaf) :
    ∃ found t1, BTree.erase fuel t key = (.ok found, t1) ∧
      t1.config = t.config ∧ t1.root_offset = t.root_offset ∧
      t1.manager.get_root_offset = t.manager.get_root_offset ∧
      t1.manager.block_size = t.manager.block_size ∧
      t1.manager.region_size = t.manager.region_size ∧
      t1.manager.allocated_blocks = t.manager.allocated_blocks ∧
      (∀ b, b < t.manager.block_count → t1.manager.block_bit b = t.manager.block_bit b) ∧
      BTree.Reaches cfg t.manager.mem t.root_offset leaf ∧
      BTree.is_leaf t.manager.mem leaf = true ∧
      (∀ x, (x < leaf + 4 ∨ leaf + 16 + 8 * BTree.key_count t.manager.mem leaf ≤ x) →
        (x < 56 ∨ 64 ≤ x) → t1.manager.mem x = t.manager.mem x) ∧
      (∀ o, BTree.Reaches cfg t.manager.mem t.root_offset o → o ≠ leaf →
        ∀ x, o ≤ x → x < o + t.manager.block_size → t1.manager.mem x = t.manager.mem x) ∧
      (∀ o, BTree.Reaches cfg t.manager.mem t.root_offset o →
        BTree.is_leaf t.manager.mem o = true →
        BTree.next_leaf cfg t1.manager.mem o = BTree.next_leaf cfg t.manager.mem o) ∧
      (∀ o, BTree.Reaches cfg t1.manager.mem t1.root_offset o ↔
        BTree.Reaches cfg t.manager.mem t.root_offset o) ∧
      BTree.is_leaf t1.manager.mem leaf = true ∧
      BTree.key_count t1.manager.mem leaf =
        BTree.key_count t.manager.mem leaf - (if found = true then 1 else 0) := by
  obtain ⟨hc, h, hn, hok, _⟩ :=
    BTree.hist_inv false cfg region_size block_size hfit hlc hrs n t hist
  subst hc
  have e := (BTree.find_leaf_tree t h hok key n hn).1
  rw [hleaf] at e
  obtain ⟨r1, r2, r3, r4, r5, r6, r7, r8, r9, r10, r11, r12, r13, r14⟩ :=
    BTree.erase_target t h hok key fuel (by omega) leaf e.symm
  exact ⟨_, _, r1, rfl, rfl, r9, r5, r6, r7, r8, r2, r3, r4, r10, r11, r12, r13, r14⟩

theorem C37_erase_only_target_leaf_witness :
    ∃ found t1, BTree.erase 4 grown_tree 20 = (.ok found, t1) ∧
      t1.config = grown_tree.config ∧ t1.root_offset = grown_tree.root_offset ∧
      t1.manager.get_root_offset = grown_tree.manager.get_root_offset ∧
      t1.manager.block_size = grown_tree.manager.block_size ∧
      t1.manager.region_size = grown_tree.manager.region_size ∧
      t1.manager.allocated_blocks = grown_tree.manager.allocated_blocks ∧
      (∀ b, b < grown_tree.manager.block_count →
        t1.manager.block_bit b = grown_tree.manager.block_bit b) ∧
      BTree.Reaches ⟨2, 1, 2⟩ grown_tree.manager.mem grown_tree.root_offset 192 ∧
      BTree.is_leaf grown_tree.manager.mem 192 = true ∧
      (∀ x, (x < 192 + 4 ∨ 192 + 16 + 8 * BTree.key_count grown_tree.manager.mem 192 ≤ x) →
        (x < 56 ∨ 64 ≤ x) → t1.manager.mem x = grown_tree.manager.mem x) ∧
      (∀ o, BTree.Reaches ⟨2, 1, 2⟩ grown_tree.manager.mem grown_tree.root_offset o → o ≠ 192 →
        ∀ x, o ≤ x → x < o + grown_tree.manager.block_size →
          t1.manager.mem x = grown_tree.manager.mem x) ∧
      (∀ o, BTree.Reaches ⟨2, 1, 2⟩ grown_tree.manager.mem grown_tree.root_offset o →
        BTree.is_leaf grown_tree.manager.mem o = true →
        BTree.next_leaf ⟨2, 1, 2⟩ t1.manager.mem o =
          BTree.next_leaf ⟨2, 1, 2⟩ grown_tree.manager.mem o) ∧
      (∀ o, BTree.Reaches ⟨2, 1, 2⟩ t1.manager.mem t1.root_offset o ↔
        BTree.Reaches ⟨2, 1, 2⟩ grown_tree.manager.mem grown_tree.root_offset o) ∧
      BTree.is_leaf t1.manager.mem 192 = true ∧
      BTree.key_count t1.manager.mem 192 =
        BTree.key_count grown_tree.manager.mem 192 - (if found = true then 1 else 0) :=
  C37_erase_only_target_leaf ⟨2, 1, 2⟩ 1024 64 3 grown_tree
    (BTree.fits_of_size _ _ (by decide) (by decide) (by decide) (by decide) (by decide))
    (by decide) (by decide)
    (BTree.hist_of_insert_all ⟨2, 1, 2⟩ 1024 64 5 [(10, 100), (20, 200), (30, 300)] 0 small_tree
      (BTree.hist_construct false _ zero_file 1024 64 (by decide!)) (by decide) (by decide!))
    20 4 (by decide) 192 (by decide!)

/-- C38 as stated fails: the packed tree (max_keys = 2, leaf_capacity = 14, blocks
of 64 bytes, a leaf layout of 136 bytes) holds 14 entries in its root leaf at 128.
`split_leaf` on it returns the new leaf 192, whose header lies under entry 6 of the
old leaf: the rewrite of the lower half stores the value 100 of that entry on the
`key_count` of the new leaf, so the new leaf ends with 100 >= 14 entries; the nested
`insert_leaf` call for the key 15 does not take the append branch but splits
again (with fuel for two levels the call runs out of fuel), and one `insert_leaf`
call allocates two blocks. -/
theorem C38_counterexample :
    Hist false ⟨2, 1, 14⟩ 1024 64 14 packed_run ∧ packed_run.config = ⟨2, 1, 14⟩ ∧
    packed_run.root_offset = 128 ∧ BTree.is_leaf packed_run.manager.mem 128 = true ∧
    BTree.key_count packed_run.manager.mem 128 = 14 ∧
    (BTree.split_leaf packed_run.config packed_run.manager 128).1 = .ok ⟨8, 192, true⟩ ∧
    BTree.key_count (BTree.split_leaf packed_run.config packed_run.manager 128).2.mem 192 = 100 ∧
    (BTree.insert_leaf packed_run.config 2 packed_run.manager 128 15 100).1 =
      .error .out_of_fuel ∧
    (BTree.insert_leaf packed_run.config 8 packed_run.manager 128 15 100).1 =
      .ok ⟨8, 192, true⟩ ∧
    (BTree.insert_leaf packed_run.config 8 packed_run.manager 128 15 100).2.allocated_blocks =
      packed_run.manager.allocated_blocks + 2 :=
  ⟨BTree.hist_of_insert_all ⟨2, 1, 14⟩ 1024 64 4 packed_ops 0 packed_tree
      (BTree.hist_construct false _ zero_file 1024 64 (by decide!)) (by decide) (by decide!),
    by decide!, by decide!, by decide!, by decide!, by decide!, by decide!, by decide!,
    by decide!, by decide!⟩

/-- C38 (one split per level), amended: when the node layout of the configuration
fits the blocks of the region (which includes max_keys >= 1) and leaf_capacity >=
2, in every tree state reached from a fresh tree by `n` completed inserts and any
number of erases the tree has a height `h <= n` such that, for every key and value
of an `int`: a successful `split_leaf` of a reachable full leaf leaves
`leaf_capacity / 2` entries in the old leaf and the other `leaf_capacity -
leaf_capacity / 2` in the new one, both fewer than `leaf_capacity`; the nested
`insert_leaf` call on the target half takes the append branch and returns
`did_split = false` (with any fuel), and `insert_leaf` returns the result of the
split; `insert` with fuel from `n + 3` on returns normally or throws the
allocator's out-of-memory error, it never runs out of fuel; and a completed
`insert` allocates at most `h + 2` blocks (every `split_leaf`, `split_internal`
and root promotion allocates exactly one): one leaf split, one split on each of
the `h` internal levels, one new root. -/
theorem C38_one_split_per_level (cfg : BTreeConfig) (region_size block_size n : Nat)
    (t : BTree) (hfit : BTree.fits cfg block_size) (hlc : 2 ≤ cfg.leaf_capacity)
    (hrs : region_size < 18446744073709551616)
    (hist : Hist false cfg region_size block_size n t) (key value : Int)
    (hk : isInt32 key) (hv : isInt32 value) :
    ∃ h, h ≤ n ∧ BTree.Shape cfg t.manager.mem h t.root_offset ∧
      (∀ leaf, BTree.Reaches cfg t.manager.mem t.root_offset leaf →
        BTree.is_leaf t.manager.mem leaf = true →
        ¬ BTree.key_count t.manager.mem leaf < cfg.leaf_capacity →
        ∀ sres s1, BTree.split_leaf cfg t.manager leaf = (.ok sres, s1) →
        ∀ target, target = (if key ≥ sres.split_key then sres.new_child_offset else leaf) →
          sres.did_split = true ∧
          BTree.key_count s1.mem leaf = cfg.leaf_capacity / 2 ∧
          BTree.key_count s1.mem sres.new_child_offset =
            cfg.leaf_capacity - cfg.leaf_capacity / 2 ∧
          BTree.key_count s1.mem leaf < cfg.leaf_capacity ∧
          BTree.key_count s1.mem sres.new_child_offset < cfg.leaf_capacity ∧
          (∀ fuel, BTree.insert_leaf cfg (fuel + 1) s1 target key value =
            (.ok ⟨0, 0, false⟩, BTree.persist_node
              { s1 with mem := BTree.append_counted s1.mem target key value } target)) ∧
          (∀ fuel, BTree.insert_leaf cfg (fuel + 2) t.manager leaf key value =
            (.ok sres, BTree.persist_node
              { s1 with mem := BTree.append_counted s1.mem target key value } target)) ∧
          s1.allocated_blocks = t.manager.allocated_blocks + 1) ∧
      (∀ fuel, n + 3 ≤ fuel → (BTree.insert fuel t key value).1 = .ok () ∨
        (BTree.insert fuel t key value).1 = .error .out_of_memory) ∧
      ∀ fuel t1, BTree.insert fuel t key value = (.ok (), t1) →
        t1.manager.allocated_blocks ≤ t.manager.allocated_blocks + h + 2 := by
  obtain ⟨hc, h, hn, hok, _⟩ :=
    BTree.hist_inv false cfg region_size block_size hfit hlc hrs n t hist
  subst hc
  refine ⟨h, hn, hok.2.1, ?_, ?_, ?_⟩
  · intro leaf hr hl hfull sres s1 hs target ht
    obtain ⟨_, hb, _, _, h', _, hsh⟩ := BTree.tree_node t h hok leaf hr
    have hkc : BTree.key_count t.manager.mem leaf ≤ t.config.leaf_capacity := by
      cases h' with
      | zero => rw [BTree.shape_zero] at hsh; exact hsh.2
      | succ _ => rw [BTree.shape_succ] at hsh; rw [hsh.1] at hl; cases hl
    exact BTree.split_then_append t.config key value t.manager leaf hok.1
      (BTree.owned_leaf_of t.config t.manager leaf hb hl hkc) hfull sres s1 hs target ht
  · intro fuel hf
    generalize hx : BTree.insert fuel t key value = x
    obtain ⟨r, t1⟩ := x
    have := BTree.insert_spec fuel t key value h hk hv hok r t1 hx
    cases r with
    | ok u => left; rfl
    | error e =>
      right
      simp only at this
      rw [this (by omega)]
  · intro fuel t1 hrun
    exact BTree.insert_allocs fuel t key value h hok t1 hrun

theorem C38_one_split_per_level_witness :
    ∃ h, h ≤ 4 ∧ BTree.Shape ⟨2, 1, 2⟩ pivot_tree.manager.mem h pivot_tree.root_offset ∧
      (∀ leaf, BTree.Reaches ⟨2, 1, 2⟩ pivot_tree.manager.mem pivot_tree.root_offset leaf →
        BTree.is_leaf pivot_tree.manager.mem leaf = true →
        ¬ BTree.key_count pivot_tree.manager.mem leaf < (⟨2, 1, 2⟩ : BTreeConfig).leaf_capacity →
        ∀ sres s1, BTree.split_leaf ⟨2, 1, 2⟩ pivot_tree.manager leaf = (.ok sres, s1) →
        ∀ target, target = (if (7 : Int) ≥ sres.split_key then sres.new_child_offset else leaf) →
          sres.did_split = true ∧
          BTree.key_count s1.mem leaf = (⟨2, 1, 2⟩ : BTreeConfig).leaf_capacity / 2 ∧
          BTree.key_count s1.mem sres.new_child_offset =
            (⟨2, 1, 2⟩ : BTreeConfig).leaf_capacity -
              (⟨2, 1, 2⟩ : BTreeConfig).leaf_capacity / 2 ∧
          BTree.key_count s1.mem leaf < (⟨2, 1, 2⟩ : BTreeConfig).leaf_capacity ∧
          BTree.key_count s1.mem sres.new_child_offset <
            (⟨2, 1, 2⟩ : BTreeConfig).leaf_capacity ∧
          (∀ fuel, BTree.insert_leaf ⟨2, 1, 2⟩ (fuel + 1) s1 target 7 70 =
            (.ok ⟨0, 0, false⟩, BTree.persist_node
              { s1 with mem := BTree.append_counted s1.mem target 7 70 } target)) ∧
          (∀ fuel, BTree.insert_leaf ⟨2, 1, 2⟩ (fuel + 2) pivot_tree.manager leaf 7 70 =
            (.ok sres, BTree.persist_node
              { s1 with mem := BTree.append_counted s1.mem target 7 70 } target)) ∧
          s1.allocated_blocks = pivot_tree.manager.allocated_blocks + 1) ∧
      (∀ fuel, 4 + 3 ≤ fuel → (BTree.insert fuel pivot_tree 7 70).1 = .ok () ∨
        (BTree.insert fuel pivot_tree 7 70).1 = .error .out_of_memory) ∧
      ∀ fuel t1, BTree.insert fuel pivot_tree 7 70 = (.ok (), t1) →
        t1.manager.allocated_blocks ≤ pivot_tree.manager.allocated_blocks + h + 2 :=
  C38_one_split_per_level ⟨2, 1, 2⟩ 1024 64 4 pivot_tree
    (BTree.fits_of_size _ _ (by decide) (by decide) (by decide) (by decide) (by decide))
    (by decide) (by decide)
    (BTree.hist_of_insert_all ⟨2, 1, 2⟩ 1024 64 5 [(5, 50)] 3 grown_tree
      (BTree.hist_of_insert_all ⟨2, 1, 2⟩ 1024 64 5 [(10, 100), (20, 200), (30, 300)] 0 small_tree
        (BTree.hist_construct false _ zero_file 1024 64 (by decide!)) (by decide) (by decide!))
      (by decide) (by decide!))
    7 70 (by decide) (by decide)

/-- C39 as stated fails: in the spill tree after the first eleven inserts of
`spill_ops` (leaf_capacity = 10, blocks of 64 bytes, a leaf layout of 104 bytes)
the descent for the key -16 ends at the leaf at 192, which holds 6 of 10 entries,
among them -16 with the value 5.  `insert(-16, 9)` returns normally; its entry is
slot 6 of that leaf, which lies on the header of the root at 256, and afterwards
`search(-16)` returns 0, not 5. -/
theorem C39_counterexample :
    Hist false ⟨2, 1, 10⟩ 1024 64 11 chain_run ∧ chain_run.config = ⟨2, 1, 10⟩ ∧
    BTree.find_leaf chain_run.config chain_run.manager.mem (-16) 11 chain_run.root_offset = 192 ∧
    BTree.is_leaf chain_run.manager.mem 192 = true ∧
    BTree.key_count chain_run.manager.mem 192 = 6 ∧
    BTree.leaf_lookup chain_run.manager.mem 192 (-16) = some 5 ∧
    BTree.search 6 chain_run (-16) = .ok (some 5) ∧
    (BTree.insert 6 chain_run (-16) 9).1 = .ok () ∧
    BTree.search 6 (BTree.insert 6 chain_run (-16) 9).2 (-16) = .ok (some 0) :=
  ⟨BTree.hist_of_insert_all ⟨2, 1, 10⟩ 1024 64 6 (spill_ops.take 11) 0 spill_tree
      (BTree.hist_construct false _ zero_file 1024 64 (by decide!)) (by decide) (by decide!),
    by decide!, by decide!, by decide!, by decide!, by decide!, by decide!, by decide!,
    by decide!⟩

/-- C39 (insert does not overwrite), amended: when the node layout of the
configuration fits the blocks of the region, in every tree state reached from a
fresh tree by `n` completed inserts and any number of erases, if the leaf at the
end of the descent for `key` has room and its first entry with that key has the
value `v1`, then for every value `v2` of an `int` and all fuel beyond `n + 1`:
`insert(key, v2)` returns normally and the leaf holds the entries it had followed
by `(key, v2)`; `search` then answers every key as before, `v1` for `key`; the
`erase(key)` that follows returns true, and `search(key)` then returns `v2`. -/
theorem C39_duplicate_insert (cfg : BTreeConfig) (region_size block_size n : Nat)
    (t : BTree) (hfit : BTree.fits cfg block_size) (hlc : 2 ≤ cfg.leaf_capacity)
    (hrs : region_size < 18446744073709551616)
    (hist : Hist false cfg region_size block_size n t) (key v1 v2 : Int)
    (hk : isInt32 key) (hv : isInt32 v2) (leaf : Nat)
    (hleaf : BTree.find_leaf cfg t.manager.mem key n t.root_offset = leaf)
    (hroom : BTree.key_count t.manager.mem leaf < cfg.leaf_capacity)
    (hhold : BTree.leaf_lookup t.manager.mem leaf key = some v1)
    (fuel : Nat) (hfuel : n + 2 ≤ fuel) :
    ∃ t1 t2, BTree.insert fuel t key v2 = (.ok (), t1) ∧
      BTree.leaf_entries t1.manager.mem leaf =
        BTree.leaf_entries t.manager.mem leaf ++ [⟨key, v2⟩] ∧
      (∀ f k, BTree.search f t1 k = BTree.search f t k) ∧
      BTree.search fuel t key = .ok (some v1) ∧
      BTree.search fuel t1 key = .ok (some v1) ∧
      BTree.erase fuel t1 key = (.ok true, t2) ∧
      ∀ f, n + 1 ≤ f → BTree.search f t2 key = .ok (some v2) := by
  obtain ⟨hc, h, hn, hok, _⟩ :=
    BTree.hist_inv false cfg region_size block_size hfit hlc hrs n t hist
  subst hc
  obtain ⟨e, hl, _, _⟩ := BTree.find_leaf_tree t h hok key n hn
  rw [hleaf] at e
  rw [← e] at hl
  have hs : BTree.search fuel t key = .ok (some v1) := by
    have := BTree.search_at t h hok key t.manager.mem (fun _ _ _ => rfl)
      (by rw [← e]; exact hl) fuel (by omega)
    rw [← e, hhold] at this
    exact this
  obtain ⟨t1, t2, i1, i2, i3, i4, i5⟩ :=
    BTree.insert_duplicate t h hok key v1 v2 hk hv leaf e.symm hroom fuel hs fuel (by omega)
  exact ⟨t1, t2, i1, i2, i3, hs, by rw [i3]; exact hs, i4, fun f hf => i5 f (by omega)⟩

theorem C39_duplicate_insert_witness :
    ∃ t1 t2, BTree.insert 5 grown_tree 10 999 = (.ok (), t1) ∧
      BTree.leaf_entries t1.manager.mem 128 =
        BTree.leaf_entries grown_tree.manager.mem 128 ++ [⟨10, 999⟩] ∧
      (∀ f k, BTree.search f t1 k = BTree.search f grown_tree k) ∧
      BTree.search 5 grown_tree 10 = .ok (some 100) ∧
      BTree.search 5 t1 10 = .ok (some 100) ∧
      BTree.erase 5 t1 10 = (.ok true, t2) ∧
      ∀ f, 3 + 1 ≤ f → BTree.search f t2 10 = .ok (some 999) :=
  C39_duplicate_insert ⟨2, 1, 2⟩ 1024 64 3 grown_tree
    (BTree.fits_of_size _ _ (by decide) (by decide) (by decide) (by decide) (by decide))
    (by decide) (by decide)
    (BTree.hist_of_insert_all ⟨2, 1, 2⟩ 1024 64 5 [(10, 100), (20, 200), (30, 300)] 0 small_tree
      (BTree.hist_construct false _ zero_file 1024 64 (by decide!)) (by decide) (by decide!))
    10 100 999 (by decide) (by decide) 128 (by decide!) (by decide!) (by decide!) 5 (by decide)

/-- C40 as stated fails in its last part: on a fresh region of two blocks of 64
bytes the exchange of word 0 (the magic number) with word 1 (version and padding)
is a rearrangement of the words other than the checksum word, and the checksum is
the same after it, but `verify_integrity`, which was true, is false: it checks
the magic number before the checksum. -/
theorem C40_counterexample :
    Manager.WordPerm (twin_manager.region_size / 8) (Manager.swap_runs 0 1 1) ∧
    twin_manager.verify_integrity = true ∧
    Manager.calculate_checksum
      { twin_manager with
        mem := Manager.permute_words twin_manager.mem (Manager.swap_runs 0 1 1) } =
      twin_manager.calculate_checksum ∧
    Manager.verify_integrity
      { twin_manager with
        mem := Manager.permute_words twin_manager.mem (Manager.swap_runs 0 1 1) } = false :=
  ⟨Manager.swap_runs_perm _ 0 1 1 (by decide) (by decide) (by decide) (by decide),
    Manager.verify_integrity_of_valid twin_manager (by decide!)
      (Manager.create_valid zero_file 128 64),
    Manager.checksum_permute twin_manager _
      (Manager.swap_runs_perm _ 0 1 1 (by decide) (by decide) (by decide) (by decide)),
    Manager.verify_integrity_bad_magic _ (by decide!)⟩

/-- C40 (order-blind checksum), amended: for every region and every rearrangement
`σ` of the word numbers below `region_size / 8` that leaves word 7 (the checksum
word) in place, `calculate_checksum` returns the same value on the region whose
word `i` is the old word `σ i`, and the stored checksum is the same; and when
word 0 still reads the same (the magic number is where it was),
`verify_integrity` gives the same verdict as before. -/
theorem C40_checksum_order_blind (s : Manager) (σ : Nat → Nat)
    (h : Manager.WordPerm (s.region_size / 8) σ) :
    Manager.calculate_checksum { s with mem := Manager.permute_words s.mem σ } =
      s.calculate_checksum ∧
    Manager.stored_checksum { s with mem := Manager.permute_words s.mem σ } =
      s.stored_checksum ∧
    (rd64 s.mem (8 * σ 0) = rd64 s.mem 0 →
      Manager.verify_integrity { s with mem := Manager.permute_words s.mem σ } =
        s.verify_integrity) := by
  refine ⟨Manager.checksum_permute s σ h, Manager.stored_permute s σ h.2, ?_⟩
  intro h0
  unfold Manager.verify_integrity
  rw [Manager.checksum_permute s σ h, Manager.stored_permute s σ h.2]
  have := Manager.rd64_permute s.mem σ 0
  simp only [Nat.mul_zero] at this
  unfold OFF_MAGIC
  simp only
  rw [this, h0]

theorem C40_checksum_order_blind_witness :
    Manager.calculate_checksum
      { test_tree.manager with
        mem := Manager.permute_words test_tree.manager.mem (Manager.swap_runs 512 1024 512) } =
      test_tree.manager.calculate_checksum ∧
    Manager.stored_checksum
      { test_tree.manager with
        mem := Manager.permute_words test_tree.manager.mem (Manager.swap_runs 512 1024 512) } =
      test_tree.manager.stored_checksum ∧
    (rd64 test_tree.manager.mem (8 * Manager.swap_runs 512 1024 512 0) =
        rd64 test_tree.manager.mem 0 →
      Manager.verify_integrity
        { test_tree.manager with
          mem := Manager.permute_words test_tree.manager.mem (Manager.swap_runs 512 1024 512) } =
        test_tree.manager.verify_integrity) :=
  C40_checksum_order_blind test_tree.manager (Manager.swap_runs 512 1024 512)
    (Manager.swap_runs_perm _ 512 1024 512 (by decide) (by decide!) (by decide) (by decide))

end atomic_tree
